import Mathlib

/-!
# Unit activation and class definition (`runtime/vm/unit.cpp`)

A shallow embedding of `Unit::defClass`, `Unit::getClass`, `Unit::loadFunc`,
`Unit::initialMerge`, `Unit::merge` and `Unit::mergeImpl`.

Representation choices.

* A pointer to an object that is immutable once it is visible (`PreClass*`,
  `Class*`, `Func*`) is represented by the object's value together with its
  address (`addr`); pointer comparison is comparison of these values.
* The intrusive version chain `*clsList, ->m_nextClass, ...` of one name is
  the list of its nodes, most recently published first; `m_nextClass` of a
  node is the head of the tail that follows it.
* The target cache of the current request is split into its typed views
  (class slots, function slots, constant slots, flag bytes).
* `raise_error` unwinds: it is the outcome `raised`, carrying the state that
  was reached.  Dereferencing a null pointer and `not_reached()` are `fault`.
* Code that lives outside `unit.cpp` (class availability, the autoloader, the
  class constructor, the interpreter, slot allocation) is a field of `Env`;
  such a call may run arbitrary engine code and so returns a new state.
* Loops that the source does not bound (the restart loop of `defClass`, the
  recursion through included units) take a fuel argument; `none` means that
  the fuel ran out.
-/

namespace HPHP

/-- Result of `Class::avail`. -/
inductive Avail where
  | AvailFalse
  | AvailTrue
  | AvailFail
deriving DecidableEq, Repr

/-- A class template (`PreClass`).  `parent` is the empty string when the
class extends nothing; `attrUnique` is `attrs() & AttrUnique`. -/
structure PreClass where
  addr : Nat
  name : String
  parent : String
  attrUnique : Bool
deriving DecidableEq, Repr

/-- What the code reads through a `Class*` that is stored inside another
class (`cls->parent()->m_cachedOffset`). -/
structure ClassRef where
  addr : Nat
  m_cachedOffset : Nat
deriving DecidableEq, Repr

/-- A runtime class (`Class`). -/
structure Class where
  addr : Nat
  preClass : PreClass
  parent : Option ClassRef
  m_cachedOffset : Nat
deriving DecidableEq, Repr

/-- The class name, `cls->name()`: the name of its template. -/
def Class.name (c : Class) : String := c.preClass.name

/-- The pointer view of a class, as stored in the `m_parent` of a child. -/
def Class.ref (c : Class) : ClassRef := ⟨c.addr, c.m_cachedOffset⟩

/-- A function (`Func`).  `top` is `func->top()`, `attrUnique` is
`attrs() & AttrUnique`. -/
structure Func where
  addr : Nat
  name : String
  top : Bool
  attrUnique : Bool
  m_cachedOffset : Nat
deriving DecidableEq, Repr

/-- The type tag of a `TypedValue`. -/
inductive DataType where
  | KindOfUninit
  | KindOfNull
  | KindOfBoolean
  | KindOfInt64
  | KindOfDouble
  | KindOfStaticString
deriving DecidableEq, Repr

/-- A `TypedValue`.  In the mergeables array the `_count` word of the value
that follows a define or a global holds the cache handle of the name. -/
structure TypedValue where
  m_data : Int
  _count : Nat
  m_type : DataType
deriving DecidableEq, Repr

/-- The three include kinds of `UnitMergeKind`. -/
inductive ReqKind where
  | ReqMod
  | ReqSrc
  | ReqDoc
deriving DecidableEq, Repr

/-- One word of `m_mergeables`.  The low three bits of a pointer word are
its `UnitMergeKind`; `preClass` is an untagged `PreClass*`
(`UnitMergeKindClass == 0`), `cls` a `Class*` with the low bit set
(`UnitMergeKindUniqueDefinedClass`, also the mark of a rewritten hoistable
entry).  A define or a global is followed by the two words of its
`TypedValue`.  An include holds the name before the first merge and the
unit afterwards.  `cls none` is the word that the rewrite stores when the
chain it reads is empty (a null `Class*` with the mark). -/
inductive Mergeable where
  | func (f : Func)
  | preClass (p : PreClass)
  | cls (c : Option Class)
  | define (name : String)
  | global (name : String)
  | reqName (k : ReqKind) (name : String)
  | reqUnit (k : ReqKind) (unit : Nat)
  | tvData (v : TypedValue)
  | tvPad
  | done
deriving DecidableEq, Repr

/-- The word `m_mergeState`, one field per bit of `UnitMergeState`
(`Unmerged` is the word zero). -/
structure MergeState where
  merging : Bool
  merged : Bool
  uniqueFuncs : Bool
  uniqueClasses : Bool
  uniqueDefinedClasses : Bool
deriving DecidableEq, Repr

/-- The value `UnitMergeStateUnmerged`. -/
def UnitMergeStateUnmerged : MergeState := ⟨false, false, false, false, false⟩

/-- The value `UnitMergeStateMerging`. -/
def UnitMergeStateMerging : MergeState := ⟨true, false, false, false, false⟩

/-- A compiled module (`Unit`), the fields that merging reads and writes.
`m_mainReturn_count` is `m_mainReturn._count`, the merge-only flag. -/
structure Unit where
  m_mergeables : List Mergeable
  m_firstHoistableFunc : Nat
  m_firstHoistablePreClass : Nat
  m_firstMergeablePreClass : Nat
  m_mergeablesSize : Nat
  m_mergeState : MergeState
  m_mainReturn_count : Nat
  m_cacheOffset : Nat
  m_cacheMask : Nat
deriving DecidableEq, Repr

/-- The state that the code of `unit.cpp` reads and writes.  The first two
fields are the named-entity directory (one node per name), `units` is the
heap of units addressed by `Unit*`, the `tc` fields are the target cache of
the running request, `constants` and `globals` are the constant table and the
global variables of the execution context, `warnings` collects
`raise_warning`, and `ext` stands for all engine state that only the external
collaborators look at. -/
structure VM where
  clsList : String → List Class
  m_cachedFuncOffset : String → Nat
  units : Nat → Unit
  tcClass : Nat → Option Class
  tcFunc : Nat → Option Func
  tcCns : Nat → TypedValue
  tcFlags : Nat → Nat
  constants : String → Option TypedValue
  globals : String → Option TypedValue
  warnings : List String
  ext : Nat

/-- How a call ends: normally, by `raise_error` unwinding, or by undefined
behaviour. -/
inductive Outcome (α : Type) where
  | ok (a : α) (s : VM)
  | raised (msg : String) (s : VM)
  | fault

/-- The collaborators of `unit.cpp` whose code is elsewhere.  `newClass`
returns the address of the object that `Class::newClass` allocates;
`setCachedFunc` is the path for functions that are not known to be unique;
`invokeFunc` runs a pseudo-main in the interpreter; `lookupIncludeRoot`
resolves an include to a unit; the `alloc` fields give the cache handle of a
name (the layout of the target cache is fixed per name for the process). -/
structure Env where
  RepoAuthoritative : Bool
  avail : Class → Option Class → Bool → VM → Outcome (Avail × Option Class)
  invokeHandler : String → VM → Outcome PUnit
  newClass : PreClass → Option Class → VM → Outcome Nat
  setCachedFunc : Func → VM → Outcome PUnit
  invokeFunc : Nat → VM → Outcome PUnit
  lookupIncludeRoot : String → ReqKind → Nat → VM → Outcome (Option Nat)
  mergePreConsts : Nat → VM → VM
  allocKnownClass : String → Nat
  allocFixedFunction : String → Nat
  allocConstant : String → Nat
  allocGlobal : String → Nat

/-- `Class::getCached`: the class in this class's slot of the target
cache. -/
def Class.getCached (c : Class) (s : VM) : Option Class := s.tcClass c.m_cachedOffset

/-- `Class::setCached`: store this class in its slot of the target
cache. -/
def Class.setCached (c : Class) (s : VM) : VM :=
  { s with tcClass := Function.update s.tcClass c.m_cachedOffset (some c) }

/-- `Unit::lookupClass(ne)`, as the first lines of `Unit::loadClass` spell
it out: the cached class of the head of the chain. -/
def lookupClass (s : VM) (name : String) : Option Class :=
  match s.clsList name with
  | [] => none
  | cls :: _ => cls.getCached s

/-- `Unit::loadMissingClass`. -/
def loadMissingClass (E : Env) (name : String) (s : VM) : Outcome (Option Class) :=
  match E.invokeHandler name s with
  | .ok _ s1 => .ok (lookupClass s1 name) s1
  | .raised m s1 => .raised m s1
  | .fault => .fault

/-- `Unit::getClass(ne, name, tryAutoload)`. -/
def getClass (E : Env) (name : String) (tryAutoload : Bool) (s : VM) :
    Outcome (Option Class) :=
  match lookupClass s name with
  | some cls => .ok (some cls) s
  | none => if tryAutoload then loadMissingClass E name s else .ok none s

/-- How a section of `defClass` ends: with the return of `defClass`, or by
falling through to the next section with the current `parent`. -/
inductive Section where
  | returned (r : Outcome (Option Class))
  | next (parent : Option Class) (s : VM)

/-- The inner `for` loop of `defClass`: the search for a compatible extant
class along the chain that starts at `top`. -/
def defClassScan (E : Env) (preClass : PreClass) (failIsFatal : Bool) :
    List Class → Option Class → VM → Section
  | [], parent, s => .next parent s
  | class_ :: rest, parent, s =>
    if class_.preClass ≠ preClass then defClassScan E preClass failIsFatal rest parent s
    else
      match E.avail class_ parent failIsFatal s with
      | .ok (.AvailTrue, _) s1 => .returned (.ok (some class_) (class_.setCached s1))
      | .ok (.AvailFail, parent1) s1 =>
        if failIsFatal then
          match parent1 with
          | some p => .returned (.raised ("unknown class " ++ p.name) s1)
          | none => .returned .fault
        else .returned (.ok none s1)
      | .ok (.AvailFalse, parent1) s1 => defClassScan E preClass failIsFatal rest parent1 s1
      | .raised m s1 => .returned (.raised m s1)
      | .fault => .returned .fault

/-- The lines of `defClass` under the comment "Create a new class" that resolve the
parent name. -/
def defClassParent (E : Env) (preClass : PreClass) (failIsFatal : Bool)
    (parent : Option Class) (s : VM) : Section :=
  if parent = none ∧ preClass.parent.length ≠ 0 then
    match getClass E preClass.parent failIsFatal s with
    | .ok (some p) s1 => .next (some p) s1
    | .ok none s1 =>
      if failIsFatal then .returned (.raised ("unknown class " ++ preClass.parent) s1)
      else .returned (.ok none s1)
    | .raised m s1 => .returned (.raised m s1)
    | .fault => .returned .fault
  else .next parent s

/-- The end of the body of `defClass`, from the comparison `top != *clsList` on,
when that comparison finds the head unchanged: give the new class its slot,
link it in front of `top`, make it the head and mark it cached. -/
def defClassPublish (E : Env) (preClass : PreClass) (top : List Class)
    (newClass : Class) (s : VM) : Class × VM :=
  let off := match top with
    | t :: _ => t.m_cachedOffset
    | [] => E.allocKnownClass preClass.name
  let newClass1 : Class := { newClass with m_cachedOffset := off }
  let s1 : VM := { s with clsList := Function.update s.clsList preClass.name (newClass1 :: top) }
  (newClass1, newClass1.setCached s1)

/-- The `for (;;)` loop of `defClass`.  One unit of fuel is one pass of the
loop body; a pass is repeated only after the head of the chain was found
changed. -/
def defClassLoop (E : Env) (preClass : PreClass) (failIsFatal : Bool) :
    Nat → List Class → Option Class → VM → Option (Outcome (Option Class))
  | 0, _, _, _ => none
  | fuel + 1, top, parent, s =>
    match defClassScan E preClass failIsFatal top parent s with
    | .returned r => some r
    | .next parent1 s1 =>
      match defClassParent E preClass failIsFatal parent1 s1 with
      | .returned r => some r
      | .next parent2 s2 =>
        match E.newClass preClass parent2 s2 with
        | .ok a s3 =>
          if top.head? ≠ (s3.clsList preClass.name).head? then
            defClassLoop E preClass failIsFatal fuel (s3.clsList preClass.name) parent2 s3
          else
            let r := defClassPublish E preClass top
              ⟨a, preClass, parent2.map Class.ref, 0⟩ s3
            some (.ok (some r.1) r.2)
        | .raised m s3 => some (.raised m s3)
        | .fault => some .fault

/-- `Unit::defClass(preClass, failIsFatal)`. -/
def defClass (E : Env) (fuel : Nat) (preClass : PreClass) (failIsFatal : Bool) (s : VM) :
    Option (Outcome (Option Class)) :=
  let top := s.clsList preClass.name
  match lookupClass s preClass.name with
  | some cls =>
    if cls.preClass ≠ preClass then
      if failIsFatal then some (.raised ("Class already declared: " ++ preClass.name) s)
      else some (.ok none s)
    else some (.ok (some cls) s)
  | none => defClassLoop E preClass failIsFatal fuel top none s

/-- The enumeration `UnitMergeKind`, the low three bits of a word of
`m_mergeables`. -/
inductive UnitMergeKind where
  | UnitMergeKindClass
  | UnitMergeKindUniqueDefinedClass
  | UnitMergeKindDefine
  | UnitMergeKindGlobal
  | UnitMergeKindReq (k : ReqKind)
  | UnitMergeKindDone
deriving DecidableEq, Repr

/-- The expression `UnitMergeKind(uintptr_t(obj) & 7)`.  An aligned pointer
has kind `UnitMergeKindClass`; the bits of a word of a `TypedValue` are not a
kind. -/
def kindOf : Mergeable → Option UnitMergeKind
  | .func _ => some .UnitMergeKindClass
  | .preClass _ => some .UnitMergeKindClass
  | .cls _ => some .UnitMergeKindUniqueDefinedClass
  | .define _ => some .UnitMergeKindDefine
  | .global _ => some .UnitMergeKindGlobal
  | .reqName k _ => some (.UnitMergeKindReq k)
  | .reqUnit k _ => some (.UnitMergeKindReq k)
  | .tvData _ => none
  | .tvPad => none
  | .done => some .UnitMergeKindDone

/-- `Unit::isMergeOnly`: the flag kept in `m_mainReturn._count`. -/
def Unit.isMergeOnly (u : Unit) : Bool := u.m_mainReturn_count != 0

/-- The read `unit->mergeableObj(ix)`; `none` is a read outside the array. -/
def mergeableObj (s : VM) (u ix : Nat) : Option Mergeable := (s.units u).m_mergeables[ix]?

/-- The write `unit->mergeableObj(ix) = w`. -/
def setMergeable (s : VM) (u ix : Nat) (w : Mergeable) : VM :=
  let unit : Unit := { (s.units u) with m_mergeables := (s.units u).m_mergeables.set ix w }
  { s with units := Function.update s.units u unit }

/-- The write `unit->m_mergeState = m`. -/
def setMergeState (s : VM) (u : Nat) (m : MergeState) : VM :=
  let unit : Unit := { (s.units u) with m_mergeState := m }
  { s with units := Function.update s.units u unit }

/-- `Unit::loadFunc`: give the function the slot of its named entity,
allocating the slot when the entity has none. -/
def loadFunc (E : Env) (func : Func) (s : VM) : Func × VM :=
  let s1 : VM :=
    if s.m_cachedFuncOffset func.name = 0 then
      { s with m_cachedFuncOffset :=
          Function.update s.m_cachedFuncOffset func.name (E.allocFixedFunction func.name) }
    else s
  ({ func with m_cachedOffset := s1.m_cachedFuncOffset func.name }, s1)

/-- The loop of `initialMerge` over `nonMainFuncs()`: `n` functions are left,
the next one is at index `ix`. -/
def initialMergeFuncs (E : Env) (u : Nat) : Nat → Nat → Bool → VM → Option (Bool × VM)
  | 0, _, allFuncsUnique, s => some (allFuncsUnique, s)
  | n + 1, ix, allFuncsUnique, s =>
    match mergeableObj s u ix with
    | some (.func f) =>
      let r := loadFunc E f s
      initialMergeFuncs E u n (ix + 1) (if allFuncsUnique then f.attrUnique else allFuncsUnique)
        (setMergeable r.2 u ix (.func r.1))
    | _ => none

/-- The loop of `initialMerge` over the hoistable classes, which only reads
their attributes. -/
def initialMergeHoistable (s : VM) (u : Nat) : Nat → Nat → Bool → Option Bool
  | 0, _, allClassesUnique => some allClassesUnique
  | n + 1, ix, allClassesUnique =>
    match mergeableObj s u ix with
    | some (.preClass pre) =>
      initialMergeHoistable s u n (ix + 1)
        (if allClassesUnique then pre.attrUnique else allClassesUnique)
    | _ => none

mutual
/-- The loop of `initialMerge` over the remaining mergeables of a merge-only
unit (`while (ix < end)`). -/
def initialMergeStmts (E : Env) (u end_ : Nat) :
    Nat → Nat → Bool → VM → Option (Outcome Bool)
  | 0, _, _, _ => none
  | fuel + 1, ix, allClassesUnique, s =>
    if ix < end_ then
      match mergeableObj s u ix with
      | some (.preClass pre) =>
        initialMergeStmts E u end_ fuel (ix + 1)
          (if allClassesUnique then pre.attrUnique else allClassesUnique) s
      | some (.reqName k name) =>
        match E.lookupIncludeRoot name k u s with
        | .ok (some unit) s1 =>
          match initialMerge E fuel unit s1 with
          | some (.ok _ s2) =>
            initialMergeStmts E u end_ fuel (ix + 1) allClassesUnique
              (setMergeable s2 u ix (.reqUnit k unit))
          | some (.raised m s2) => some (.raised m s2)
          | some .fault => some .fault
          | none => none
        | .ok none _ => some .fault
        | .raised m s1 => some (.raised m s1)
        | .fault => some .fault
      | some (.define name) =>
        match mergeableObj s u (ix + 1) with
        | some (.tvData v) =>
          initialMergeStmts E u end_ fuel (ix + 3) allClassesUnique
            (setMergeable s u (ix + 1) (.tvData { v with _count := E.allocConstant name }))
        | _ => some .fault
      | some (.global name) =>
        match mergeableObj s u (ix + 1) with
        | some (.tvData v) =>
          initialMergeStmts E u end_ fuel (ix + 3) allClassesUnique
            (setMergeable s u (ix + 1) (.tvData { v with _count := E.allocGlobal name }))
        | _ => some .fault
      | _ => some .fault
    else some (.ok allClassesUnique s)
termination_by structural fuel => fuel
/-- The body of the `if` of `initialMerge`, entered after the statement
`m_mergeState = UnitMergeStateMerging`. -/
def initialMergeBody (E : Env) : Nat → Nat → VM → Option (Outcome PUnit)
  | 0, _, _ => none
  | fuel + 1, u, s0 =>
    match initialMergeFuncs E u ((s0.units u).m_firstHoistablePreClass - 1) 1
        E.RepoAuthoritative s0 with
    | none => some .fault
    | some (allFuncsUnique, s1) =>
      if E.RepoAuthoritative = false then
        let s2 := E.mergePreConsts u s1
        some (.ok PUnit.unit (setMergeState s2 u ⟨false, true, allFuncsUnique, false, false⟩))
      else
        match initialMergeHoistable s1 u
            ((s1.units u).m_firstMergeablePreClass - (s1.units u).m_firstHoistablePreClass)
            (s1.units u).m_firstHoistablePreClass true with
        | none => some .fault
        | some allClassesUnique =>
          if (s1.units u).isMergeOnly then
            match initialMergeStmts E u (s1.units u).m_mergeablesSize fuel
                (s1.units u).m_firstMergeablePreClass allClassesUnique s1 with
            | some (.ok allClassesUnique1 s2) =>
              some (.ok PUnit.unit
                (setMergeState s2 u ⟨false, true, allFuncsUnique, allClassesUnique1, false⟩))
            | some (.raised m s2) => some (.raised m s2)
            | some .fault => some .fault
            | none => none
          else
            some (.ok PUnit.unit
              (setMergeState s1 u ⟨false, true, allFuncsUnique, allClassesUnique, false⟩))
termination_by structural fuel => fuel
/-- `Unit::initialMerge`, called on the unit at address `u`. -/
def initialMerge (E : Env) : Nat → Nat → VM → Option (Outcome PUnit)
  | 0, _, _ => none
  | fuel + 1, u, s =>
    if (s.units u).m_mergeState = UnitMergeStateUnmerged then
      initialMergeBody E fuel u (setMergeState s u UnitMergeStateMerging)
    else some (.ok PUnit.unit s)
termination_by structural fuel => fuel
end

/-- Modelled from the spec: `insertCns` of the execution context is not in
`unit.cpp`; the first assignment for a name succeeds, a later one for the same
name is refused and changes nothing. -/
def insertCns (name : String) (value : TypedValue) (s : VM) : Bool × VM :=
  match s.constants name with
  | none => (true, { s with constants := Function.update s.constants name (some value) })
  | some _ => (false, s)

/-- `raise_warning`: the message is appended to the log of warnings. -/
def raise_warning (msg : String) (s : VM) : VM :=
  { s with warnings := s.warnings ++ [msg] }

/-- `mergeCns(tv, value, name)`, where `tv` is the constant slot at `off` of
the target cache; `tvDup` copies the data and the type of `value`. -/
def mergeCns (off : Nat) (value : TypedValue) (name : String) (s : VM) : VM :=
  if (s.tcCns off).m_type = DataType.KindOfUninit then
    let r := insertCns name value s
    if r.1 = true then
      let tv : TypedValue := { (r.2.tcCns off) with m_data := value.m_data, m_type := value.m_type }
      { r.2 with tcCns := Function.update r.2.tcCns off tv }
    else raise_warning ("Constant " ++ name ++ " already defined") r.2
  else raise_warning ("Constant " ++ name ++ " already defined") s

/-- `setGlobal(cacheAddr, value, name)`: `lookupCreateAddr` yields the global
variable called `name`, creating it when needed, and `tvSet` assigns to it. -/
def setGlobal (value : TypedValue) (name : String) (s : VM) : VM :=
  { s with globals := Function.update s.globals name (some value) }

/-- The first loop of `mergeImpl`, over the functions from
`funcHoistableBegin()` to `funcEnd()`; `uniqueFuncs` is the test of
`UnitMergeStateUniqueFuncs` made before the loop, `n` functions are left. -/
def mergeImplFuncs (E : Env) (u : Nat) (uniqueFuncs : Bool) : Nat → Nat → VM → Outcome PUnit
  | 0, _, s => .ok PUnit.unit s
  | n + 1, ix, s =>
    match mergeableObj s u ix with
    | some (.func func) =>
      if uniqueFuncs = true then
        mergeImplFuncs E u uniqueFuncs n (ix + 1)
          { s with tcFunc := Function.update s.tcFunc func.m_cachedOffset (some func) }
      else
        match E.setCachedFunc func s with
        | .ok _ s1 => mergeImplFuncs E u uniqueFuncs n (ix + 1) s1
        | .raised m s1 => .raised m s1
        | .fault => .fault
    | _ => .fault

/-- The loop of `mergeImpl` over the potentially hoistable classes, "with no
fatals on failure"; the result is `redoHoistable`.  A word of this range is a
`PreClass*` or a marked `Class*`. -/
def mergeImplHoistable (E : Env) (fuel u : Nat) :
    Nat → Nat → Bool → VM → Option (Outcome Bool)
  | 0, _, redoHoistable, s => some (.ok redoHoistable s)
  | n + 1, ix, redoHoistable, s =>
    match mergeableObj s u ix with
    | some (.cls (some cls)) =>
      match cls.parent with
      | some parent =>
        if s.tcClass parent.m_cachedOffset = none then
          mergeImplHoistable E fuel u n (ix + 1) true s
        else mergeImplHoistable E fuel u n (ix + 1) redoHoistable (cls.setCached s)
      | none => mergeImplHoistable E fuel u n (ix + 1) redoHoistable (cls.setCached s)
    | some (.preClass pre) =>
      match defClass E fuel pre false s with
      | none => none
      | some (.ok none s1) => mergeImplHoistable E fuel u n (ix + 1) true s1
      | some (.ok (some _) s1) => mergeImplHoistable E fuel u n (ix + 1) redoHoistable s1
      | some (.raised m s1) => some (.raised m s1)
      | some .fault => some .fault
    | _ => some .fault

/-- The second pass of `mergeImpl` over the hoistable classes of a merge-only
unit that lists them once, this time with `defClass(.., true)`. -/
def mergeImplRedo (E : Env) (fuel u : Nat) : Nat → Nat → VM → Option (Outcome PUnit)
  | 0, _, s => some (.ok PUnit.unit s)
  | n + 1, ix, s =>
    match mergeableObj s u ix with
    | some (.cls (some cls)) =>
      match defClass E fuel cls.preClass true s with
      | none => none
      | some (.ok _ s1) => mergeImplRedo E fuel u n (ix + 1) s1
      | some (.raised m s1) => some (.raised m s1)
      | some .fault => some .fault
    | some (.preClass pre) =>
      match defClass E fuel pre true s with
      | none => none
      | some (.ok _ s1) => mergeImplRedo E fuel u n (ix + 1) s1
      | some (.raised m s1) => some (.raised m s1)
      | some .fault => some .fault
    | _ => some .fault

/-- The two assertions of the rewrite on `cls = *pre->namedEntity()->clsList()`:
`ASSERT(cls && !cls->m_nextClass)` (the chain of the name is one class) and
`ASSERT(cls->preClass() == pre)`. -/
def rewriteAsserts (s : VM) (pre : PreClass) : Bool :=
  match s.clsList pre.name with
  | [cls] => decide (cls.preClass = pre)
  | _ => false

/-- The first loop of the rewrite under `UnitMergeKindDone`: every unmarked
hoistable entry becomes the marked head of the chain of its name; a failed
assertion ends the loop with `none`. -/
def rewriteHoistable (u : Nat) : Nat → Nat → VM → Option VM
  | 0, _, s => some s
  | n + 1, ix, s =>
    match mergeableObj s u ix with
    | some (.preClass pre) =>
      if rewriteAsserts s pre = true then
        rewriteHoistable u n (ix + 1) (setMergeable s u ix (.cls (s.clsList pre.name).head?))
      else none
    | some (.cls _) => rewriteHoistable u n (ix + 1) s
    | _ => none

/-- The second loop of the rewrite (`do .. while (++ix < end)`): every
`UnitMergeKindClass` entry becomes `UnitMergeKindUniqueDefinedClass`, the
value words of a define or a global are stepped over.  One unit of fuel is one
pass of the body; `some none` is a failed assertion or a word that has no
kind. -/
def rewriteStmts (u end_ : Nat) : Nat → Nat → VM → Option (Option VM)
  | 0, _, _ => none
  | fuel + 1, ix, s =>
    match mergeableObj s u ix with
    | some (.preClass pre) =>
      if rewriteAsserts s pre = true then
        let s1 := setMergeable s u ix (.cls (s.clsList pre.name).head?)
        if ix + 1 < end_ then rewriteStmts u end_ fuel (ix + 1) s1 else some (some s1)
      else some none
    | some (.define _) =>
      if ix + 3 < end_ then rewriteStmts u end_ fuel (ix + 3) s else some (some s)
    | some (.global _) =>
      if ix + 3 < end_ then rewriteStmts u end_ fuel (ix + 3) s else some (some s)
    | some (.cls _) =>
      if ix + 1 < end_ then rewriteStmts u end_ fuel (ix + 1) s else some (some s)
    | some (.reqName _ _) =>
      if ix + 1 < end_ then rewriteStmts u end_ fuel (ix + 1) s else some (some s)
    | some (.reqUnit _ _) =>
      if ix + 1 < end_ then rewriteStmts u end_ fuel (ix + 1) s else some (some s)
    | some .done =>
      if ix + 1 < end_ then rewriteStmts u end_ fuel (ix + 1) s else some (some s)
    | _ => some none

/-- The body of `case UnitMergeKindDone` of `mergeImpl`. -/
def mergeImplDone (fuel u : Nat) (s : VM) : Option (Outcome PUnit) :=
  let m := (s.units u).m_mergeState
  if m.uniqueClasses = true ∧ m.uniqueDefinedClasses = false then
    let s1 := setMergeState s u { m with uniqueDefinedClasses := true }
    match rewriteHoistable u
        ((s1.units u).m_firstMergeablePreClass - (s1.units u).m_firstHoistablePreClass)
        (s1.units u).m_firstHoistablePreClass s1 with
    | none => some .fault
    | some s2 =>
      match rewriteStmts u (s2.units u).m_mergeablesSize fuel
          (s2.units u).m_firstMergeablePreClass s2 with
      | none => none
      | some none => some .fault
      | some (some s3) => some (.ok PUnit.unit s3)
  else some (.ok PUnit.unit s)

/-- The pair of statements `obj = mergeableObj(ix); k = UnitMergeKind(uintptr_t(obj) & 7);`.
A read outside the array, or of a word that has no kind, gives `none`. -/
def nextObj (s : VM) (u ix : Nat) : Option (Mergeable × UnitMergeKind) :=
  match mergeableObj s u ix with
  | some obj =>
    match kindOf obj with
    | some k => some (obj, k)
    | none => none
  | none => none

mutual
/-- The inner loop of `case UnitMergeKindClass` (`do .. while (!k)`). -/
def mergeImplClass (E : Env) (u : Nat) :
    Nat → Nat → Mergeable → VM → Option (Outcome PUnit)
  | 0, _, _, _ => none
  | fuel + 1, ix, obj, s =>
    match obj with
    | .preClass pre =>
      match defClass E fuel pre true s with
      | none => none
      | some (.ok _ s1) =>
        match nextObj s1 u (ix + 1) with
        | none => some .fault
        | some (obj1, k) =>
          if k = UnitMergeKind.UnitMergeKindClass then mergeImplClass E u fuel (ix + 1) obj1 s1
          else mergeImplSwitch E u fuel (ix + 1) obj1 k s1
      | some (.raised m s1) => some (.raised m s1)
      | some .fault => some .fault
    | _ => some .fault
termination_by structural fuel => fuel
/-- The inner loop of `case UnitMergeKindUniqueDefinedClass`; an answer of
`avail` other than `AvailFail` and `AvailTrue` fails
`ASSERT(avail == Class::AvailTrue)`. -/
def mergeImplUnique (E : Env) (u : Nat) :
    Nat → Nat → Mergeable → VM → Option (Outcome PUnit)
  | 0, _, _, _ => none
  | fuel + 1, ix, obj, s =>
    match obj with
    | .cls (some cls) =>
      match E.avail cls none true s with
      | .ok (.AvailFail, some other) s1 => some (.raised ("unknown class " ++ other.name) s1)
      | .ok (.AvailFail, none) _ => some .fault
      | .ok (.AvailFalse, _) _ => some .fault
      | .ok (.AvailTrue, _) s1 =>
        let s2 := cls.setCached s1
        match nextObj s2 u (ix + 1) with
        | none => some .fault
        | some (obj1, k) =>
          if k = UnitMergeKind.UnitMergeKindUniqueDefinedClass then
            mergeImplUnique E u fuel (ix + 1) obj1 s2
          else mergeImplSwitch E u fuel (ix + 1) obj1 k s2
      | .raised m s1 => some (.raised m s1)
      | .fault => some .fault
    | _ => some .fault
termination_by structural fuel => fuel
/-- The inner loop of `case UnitMergeKindDefine`. -/
def mergeImplDefine (E : Env) (u : Nat) :
    Nat → Nat → Mergeable → VM → Option (Outcome PUnit)
  | 0, _, _, _ => none
  | fuel + 1, ix, obj, s =>
    match obj, mergeableObj s u (ix + 1) with
    | .define name, some (.tvData v) =>
      let s1 := mergeCns v._count v name s
      match nextObj s1 u (ix + 3) with
      | none => some .fault
      | some (obj1, k) =>
        if k = UnitMergeKind.UnitMergeKindDefine then mergeImplDefine E u fuel (ix + 3) obj1 s1
        else mergeImplSwitch E u fuel (ix + 3) obj1 k s1
    | _, _ => some .fault
termination_by structural fuel => fuel
/-- The inner loop of `case UnitMergeKindGlobal`. -/
def mergeImplGlobal (E : Env) (u : Nat) :
    Nat → Nat → Mergeable → VM → Option (Outcome PUnit)
  | 0, _, _, _ => none
  | fuel + 1, ix, obj, s =>
    match obj, mergeableObj s u (ix + 1) with
    | .global name, some (.tvData v) =>
      let s1 := setGlobal v name s
      match nextObj s1 u (ix + 3) with
      | none => some .fault
      | some (obj1, k) =>
        if k = UnitMergeKind.UnitMergeKindGlobal then mergeImplGlobal E u fuel (ix + 3) obj1 s1
        else mergeImplSwitch E u fuel (ix + 3) obj1 k s1
    | _, _ => some .fault
termination_by structural fuel => fuel
/-- The inner loop of the three include cases (`do .. while (isMergeKindReq(k))`). -/
def mergeImplReq (E : Env) (u : Nat) :
    Nat → Nat → Mergeable → VM → Option (Outcome PUnit)
  | 0, _, _, _ => none
  | fuel + 1, ix, obj, s =>
    match obj with
    | .reqUnit _ unit =>
      let unitLoadedFlags := s.tcFlags (s.units unit).m_cacheOffset
      let r : Option (Outcome PUnit) :=
        if unitLoadedFlags &&& (s.units unit).m_cacheMask = 0 then
          let flags := Function.update s.tcFlags (s.units unit).m_cacheOffset
            (unitLoadedFlags ||| (s.units unit).m_cacheMask)
          let s1 : VM := { s with tcFlags := flags }
          match mergeImpl E fuel unit s1 with
          | some (.ok _ s2) =>
            if (s2.units unit).isMergeOnly = false then some (E.invokeFunc unit s2)
            else some (.ok PUnit.unit s2)
          | other => other
        else some (.ok PUnit.unit s)
      match r with
      | none => none
      | some (.ok _ s3) =>
        match nextObj s3 u (ix + 1) with
        | none => some .fault
        | some (obj1, k) =>
          match k with
          | .UnitMergeKindReq _ => mergeImplReq E u fuel (ix + 1) obj1 s3
          | _ => mergeImplSwitch E u fuel (ix + 1) obj1 k s3
      | some (.raised m s3) => some (.raised m s3)
      | some .fault => some .fault
    | _ => some .fault
termination_by structural fuel => fuel
/-- The outer loop of the last part of `mergeImpl`: `switch (k)`; the case
`Done` starts with `ASSERT((unsigned)ix == m_mergeablesSize)`. -/
def mergeImplSwitch (E : Env) (u : Nat) :
    Nat → Nat → Mergeable → UnitMergeKind → VM → Option (Outcome PUnit)
  | 0, _, _, _, _ => none
  | fuel + 1, ix, obj, k, s =>
    match k with
    | .UnitMergeKindClass => mergeImplClass E u fuel ix obj s
    | .UnitMergeKindUniqueDefinedClass => mergeImplUnique E u fuel ix obj s
    | .UnitMergeKindDefine => mergeImplDefine E u fuel ix obj s
    | .UnitMergeKindGlobal => mergeImplGlobal E u fuel ix obj s
    | .UnitMergeKindReq _ => mergeImplReq E u fuel ix obj s
    | .UnitMergeKindDone =>
      if ix = (s.units u).m_mergeablesSize then mergeImplDone fuel u s else some .fault
termination_by structural fuel => fuel
/-- `Unit::mergeImpl<false>(tcbase)`, called on the unit at address `u`. -/
def mergeImpl (E : Env) : Nat → Nat → VM → Option (Outcome PUnit)
  | 0, _, _ => none
  | fuel + 1, u, s =>
    let it := (s.units u).m_firstHoistableFunc
    let fend := (s.units u).m_firstHoistablePreClass
    if fend < it then some .fault
    else
      match mergeImplFuncs E u (s.units u).m_mergeState.uniqueFuncs (fend - it) it s with
      | .raised m s1 => some (.raised m s1)
      | .fault => some .fault
      | .ok _ s1 =>
        let ix := (s1.units u).m_firstHoistablePreClass
        let end_ := (s1.units u).m_firstMergeablePreClass
        if ix < end_ then
          match mergeImplHoistable E fuel u (end_ - ix) ix false s1 with
          | none => none
          | some (.raised m s2) => some (.raised m s2)
          | some .fault => some .fault
          | some (.ok redoHoistable s2) =>
            if redoHoistable = true ∧ (s2.units u).isMergeOnly = false then
              some (.ok PUnit.unit s2)
            else if redoHoistable = true ∧ end_ = (s2.units u).m_mergeablesSize then
              mergeImplRedo E fuel u (max 1 (end_ - (s2.units u).m_firstHoistablePreClass))
                (s2.units u).m_firstHoistablePreClass s2
            else
              match nextObj s2 u end_ with
              | none => some .fault
              | some (obj, k) => mergeImplSwitch E u fuel end_ obj k s2
        else
          match nextObj s1 u ix with
          | none => some .fault
          | some (obj, k) => mergeImplSwitch E u fuel ix obj k s1
termination_by structural fuel => fuel
end

/-- `Unit::merge`, with no debugger attached. -/
def merge (E : Env) (fuel u : Nat) (s : VM) : Option (Outcome PUnit) :=
  if (s.units u).m_mergeState.merged = false then
    match initialMerge E fuel u s with
    | some (.ok _ s1) => mergeImpl E fuel u s1
    | other => other
  else mergeImpl E fuel u s

/-! ## Conditions on the state and on the collaborators -/

/-- Well-formedness of the directory: no chain holds a class twice, and all
the classes of one chain have the same cache slot. -/
def ChainsOK (s : VM) : Prop :=
  ∀ n, (s.clsList n).Nodup ∧
    ∀ c ∈ s.clsList n, ∀ d ∈ s.clsList n, c.m_cachedOffset = d.m_cachedOffset

/-- From `s` to `t` every chain has only grown at its head, and the directory
has stayed well-formed. -/
def Mono (s t : VM) : Prop :=
  (∀ n, s.clsList n <:+ t.clsList n) ∧ (ChainsOK s → ChainsOK t)

/-- Every call of a collaborator that ends in a state (normally or by
raising) relates the state before the call to the state after it by `R`. -/
structure Env.Respects (E : Env) (R : VM → VM → Prop) : Prop where
  avail_ok : ∀ {c p f s r t}, E.avail c p f s = .ok r t → R s t
  avail_raised : ∀ {c p f s m t}, E.avail c p f s = .raised m t → R s t
  invokeHandler_ok : ∀ {n s r t}, E.invokeHandler n s = .ok r t → R s t
  invokeHandler_raised : ∀ {n s m t}, E.invokeHandler n s = .raised m t → R s t
  newClass_ok : ∀ {p c s a t}, E.newClass p c s = .ok a t → R s t
  newClass_raised : ∀ {p c s m t}, E.newClass p c s = .raised m t → R s t
  setCachedFunc_ok : ∀ {f s r t}, E.setCachedFunc f s = .ok r t → R s t
  setCachedFunc_raised : ∀ {f s m t}, E.setCachedFunc f s = .raised m t → R s t
  invokeFunc_ok : ∀ {u s r t}, E.invokeFunc u s = .ok r t → R s t
  invokeFunc_raised : ∀ {u s m t}, E.invokeFunc u s = .raised m t → R s t
  lookupIncludeRoot_ok : ∀ {n k u s r t}, E.lookupIncludeRoot n k u s = .ok r t → R s t
  lookupIncludeRoot_raised : ∀ {n k u s m t}, E.lookupIncludeRoot n k u s = .raised m t → R s t
  mergePreConsts : ∀ {u s}, R s (E.mergePreConsts u s)

/-- The object that `Class::newClass` allocates is at an address that no
class of the chain of its name has. -/
def Env.Fresh (E : Env) : Prop :=
  ∀ p c s a t, E.newClass p c s = .ok a t → ∀ d ∈ t.clsList p.name, d.addr ≠ a

/-- The class `c` is one that the code marks cached in `s`, in a call that
started in `s0`: a class of the chain of a name in `s`, in a call of `defClass`
that found no class of that name cached in `s0`, or a marked `Class*` of the
array of a unit in `s0`. -/
def StoredIn (c : Class) (s0 s : VM) : Prop :=
  (∃ n, c ∈ s.clsList n ∧ lookupClass s0 n = none) ∨
    ∃ v ix, mergeableObj s0 v ix = some (.cls (some c))

/-- The conditions under which a relation `R` between states is kept by
everything that `defClass` does: it is a preorder inside `Mono`, the
collaborators respect it, and from a state `s0` in which a call started to a
state `s` that `R` relates to it, marking cached a class that is `StoredIn`
respects it, and so does publishing a fresh class in front of the current
chain of a name that had no class cached in `s0`. -/
structure DefClassRel (E : Env) (R : VM → VM → Prop) : Prop where
  refl : ∀ s, R s s
  trans : ∀ a b c, R a b → R b c → R a c
  mono : ∀ s t, R s t → Mono s t
  env : E.Respects R
  fresh : E.Fresh
  setCached : ∀ (c : Class) (s0 s : VM), R s0 s → StoredIn c s0 s → R s0 (c.setCached s)
  publish : ∀ (P : PreClass) (N : Class) (s0 s : VM), R s0 s → lookupClass s0 P.name = none →
    ChainsOK s → (∀ d ∈ s.clsList P.name, d.addr ≠ N.addr) →
    R s0 (defClassPublish E P (s.clsList P.name) N s).2

/-- What the rewrite of the mergeables may do to one unit: the layout fields
and the length of the array stay, the merge state stays or gains the bit
`UniqueDefinedClasses`, and a word of the array stays or turns from a
`PreClass*` into a marked `Class*`. -/
structure UnitStep (a b : Unit) : Prop where
  firstHoistableFunc : b.m_firstHoistableFunc = a.m_firstHoistableFunc
  firstHoistablePreClass : b.m_firstHoistablePreClass = a.m_firstHoistablePreClass
  firstMergeablePreClass : b.m_firstMergeablePreClass = a.m_firstMergeablePreClass
  mergeablesSize : b.m_mergeablesSize = a.m_mergeablesSize
  mainReturn_count : b.m_mainReturn_count = a.m_mainReturn_count
  cacheOffset : b.m_cacheOffset = a.m_cacheOffset
  cacheMask : b.m_cacheMask = a.m_cacheMask
  mergeState : b.m_mergeState = a.m_mergeState ∨
    b.m_mergeState = { a.m_mergeState with uniqueDefinedClasses := true }
  length : b.m_mergeables.length = a.m_mergeables.length
  words : ∀ (ix : Nat) (w : Mergeable), b.m_mergeables[ix]? = some w →
    a.m_mergeables[ix]? = some w ∨
      ∃ c p, w = Mergeable.cls c ∧ a.m_mergeables[ix]? = some (Mergeable.preClass p)

/-- From `s` to `t` only the units have changed, each of them by a
`UnitStep`: what the rewrite of the mergeables does to the state. -/
def RewriteStep (s t : VM) : Prop :=
  t = { s with units := t.units } ∧ ∀ u, UnitStep (s.units u) (t.units u)

/-- What the rewrite of the mergeables does to the merge state of a unit: it
stays, or the bit `UniqueDefinedClasses` is set in a state that has the bit
`UniqueClasses`. -/
def UdcStep (a b : MergeState) : Prop :=
  b = a ∨ (a.uniqueClasses = true ∧ b = { a with uniqueDefinedClasses := true })

/-- The conditions under which a relation `R` between states is kept by
everything that `mergeImpl` does: those of `DefClassRel`, and `R` is kept by
the store of a function entry into its slot, by `mergeCns`, by `setGlobal`,
by setting bits in a flag byte and by the rewrite of the mergeables (a
`RewriteStep` that sets the bit `UniqueDefinedClasses` only where the bit
`UniqueClasses` is set). -/
structure MergeRel (E : Env) (R : VM → VM → Prop) extends DefClassRel E R : Prop where
  tcFunc : ∀ (s : VM) (u ix : Nat) (f : Func), mergeableObj s u ix = some (.func f) →
    (s.units u).m_mergeState.uniqueFuncs = true →
    R s { s with tcFunc := Function.update s.tcFunc f.m_cachedOffset (some f) }
  mergeCns : ∀ (off : Nat) (v : TypedValue) (name : String) (s : VM), R s (mergeCns off v name s)
  setGlobal : ∀ (v : TypedValue) (name : String) (s : VM), R s (setGlobal v name s)
  tcFlags : ∀ (s : VM) (off m : Nat),
    R s { s with tcFlags := Function.update s.tcFlags off (s.tcFlags off ||| m) }
  rewrite : ∀ (s t : VM), RewriteStep s t →
    (∀ v, UdcStep (s.units v).m_mergeState (t.units v).m_mergeState) → R s t

/-- The end of a call that started in `s` satisfies `R`: `R s t` holds
whenever the call reaches a final state `t`, normally or by raising. -/
def Outcome.Post {α : Type} (R : VM → VM → Prop) (s : VM) : Outcome α → Prop
  | .ok _ t => R s t
  | .raised _ t => R s t
  | .fault => True

/-- `Outcome.Post` for a call that takes fuel. -/
def Post {α : Type} (R : VM → VM → Prop) (s : VM) : Option (Outcome α) → Prop
  | some r => r.Post R s
  | none => True

/-- The call ended in the state `t`, by returning (whatever the result) or
by raising. -/
def EndsIn {α : Type} (r : Option (Outcome α)) (t : VM) : Prop :=
  match r with
  | some (.ok _ x) => x = t
  | some (.raised _ x) => x = t
  | _ => False

/-- Monotonic publication from `s` to `t`: every chain has only grown at its
head, the directory has stayed well-formed, and every class slot of the
target cache that held a class still holds one. -/
def Published (s t : VM) : Prop :=
  Mono s t ∧ ∀ off, s.tcClass off ≠ none → t.tcClass off ≠ none

/-- The conditions under which a relation `R` between states is kept by
everything that `merge` does: those of `MergeRel`, and `R` is kept by the two
stores of `initialMerge` into the merge state (`Merging` over `Unmerged`, and
at the end of the body, which started with the unit `Merging`, the bit
`Merged` with the bits `UniqueFuncs` and `UniqueClasses` that were computed),
by the stores of `initialMerge` into the mergeables (over a function word the
function with the slot of its name, over the name of an include its unit, over
a value the value with its handle) and by giving a name that has no function
slot the slot that `allocFixedFunction` answers. -/
structure UnitRel (E : Env) (R : VM → VM → Prop) extends MergeRel E R : Prop where
  setMerging : ∀ (s : VM) (u : Nat), (s.units u).m_mergeState = UnitMergeStateUnmerged →
    R s (setMergeState s u UnitMergeStateMerging)
  setMerged : ∀ (s0 s : VM) (u : Nat) (uniqueFuncs uniqueClasses : Bool),
    (s0.units u).m_mergeState = UnitMergeStateMerging → R s0 s →
    R s0 (setMergeState s u ⟨false, true, uniqueFuncs, uniqueClasses, false⟩)
  setFunc : ∀ (s : VM) (u ix : Nat) (f : Func), mergeableObj s u ix = some (.func f) →
    R s (setMergeable s u ix (.func { f with m_cachedOffset := s.m_cachedFuncOffset f.name }))
  setReq : ∀ (s0 s : VM) (u ix : Nat) (k : ReqKind) (name : String) (unit : Nat),
    mergeableObj s0 u ix = some (.reqName k name) → R s0 s →
    R s0 (setMergeable s u ix (.reqUnit k unit))
  setValue : ∀ (s : VM) (u ix : Nat) (v v1 : TypedValue),
    mergeableObj s u ix = some (.tvData v) → R s (setMergeable s u ix (.tvData v1))
  funcOffset : ∀ (s : VM) (name : String), s.m_cachedFuncOffset name = 0 →
    R s { s with m_cachedFuncOffset :=
      Function.update s.m_cachedFuncOffset name (E.allocFixedFunction name) }

/-- From `s` to `t` publication is monotonic and no unit has gone back to
`Unmerged`. -/
def Started (s t : VM) : Prop :=
  Mono s t ∧ ∀ u, (s.units u).m_mergeState ≠ UnitMergeStateUnmerged →
    (t.units u).m_mergeState ≠ UnitMergeStateUnmerged

/-- `f` is one of the functions that `mergeImpl` publishes for the unit `u`:
a word between `funcHoistableBegin()` and `funcEnd()`. -/
def IsTopFunc (s : VM) (u : Nat) (f : Func) : Prop :=
  ∃ ix, (s.units u).m_firstHoistableFunc ≤ ix ∧ ix < (s.units u).m_firstHoistablePreClass ∧
    mergeableObj s u ix = some (.func f)

/-- The functions of `F` are unique: a function entry of any unit that has
the cache slot of a function of `F` is that function. -/
def FuncSlotsUnique (F : Func → Prop) (s : VM) : Prop :=
  ∀ u ix g, mergeableObj s u ix = some (.func g) →
    ∀ f, F f → g.m_cachedOffset = f.m_cachedOffset → g = f

/-- Every function of `F` is in its slot of the target cache. -/
def FuncsVisible (F : Func → Prop) (s : VM) : Prop :=
  ∀ f, F f → s.tcFunc f.m_cachedOffset = some f

/-- From `s` to `t` publication is monotonic, the functions of `F` stay
unique, and if they were all visible they still are. -/
def KeepFuncs (F : Func → Prop) (s t : VM) : Prop :=
  Mono s t ∧ (FuncSlotsUnique F s → FuncSlotsUnique F t ∧ (FuncsVisible F s → FuncsVisible F t))

/-- At most one class per template and context: in no chain are there two
different classes built from the same template unless one of them is
unavailable in the state (`U`). -/
def AtMostOneAvailable (U : Class → VM → Prop) (s : VM) : Prop :=
  ∀ n, ∀ c ∈ s.clsList n, ∀ d ∈ s.clsList n, c.preClass = d.preClass → c ≠ d → U c s ∨ U d s

/-- From `s` to `t` publication is monotonic and a class that was
unavailable stays unavailable. -/
def StableUnavailable (U : Class → VM → Prop) (s t : VM) : Prop :=
  Mono s t ∧ ∀ c, U c s → U c t

/-- `StableUnavailable`, and the directory stays with at most one available
class per template. -/
def KeepAtMostOne (U : Class → VM → Prop) (s t : VM) : Prop :=
  StableUnavailable U s t ∧ (AtMostOneAvailable U s → AtMostOneAvailable U t)

/-- The classes that the scan of `defClass` passes over, in the order of the
chain: a class built from another template is ignored (no collaborator is
called for it), a class built from `P` is passed over when `avail` answers
`AvailFalse`.  `Skipped E P f l parent s parent1 s1`: passing over all of `l`
from `parent` and `s` ends with `parent1` and `s1`. -/
inductive Skipped (E : Env) (P : PreClass) (f : Bool) :
    List Class → Option Class → VM → Option Class → VM → Prop where
  | nil (parent : Option Class) (s : VM) : Skipped E P f [] parent s parent s
  | other (c : Class) (rest : List Class) (parent : Option Class) (s : VM)
      (parent1 : Option Class) (s1 : VM) :
      c.preClass ≠ P → Skipped E P f rest parent s parent1 s1 →
      Skipped E P f (c :: rest) parent s parent1 s1
  | unavailable (c : Class) (rest : List Class) (parent : Option Class) (s : VM)
      (p1 : Option Class) (s1 : VM) (p2 : Option Class) (s2 : VM) :
      c.preClass = P → E.avail c parent f s = .ok (.AvailFalse, p1) s1 →
      Skipped E P f rest p1 s1 p2 s2 →
      Skipped E P f (c :: rest) parent s p2 s2

/-- An address that no class of the list has. -/
def freshAddr (l : List Class) : Nat := (l.map Class.addr).sum + 1

/-- A cache handle for a name: its characters read as a number, plus one. -/
def handleOf (n : String) : Nat := n.toList.foldl (fun a c => a * 256 + c.toNat) 0 + 1

/-- A collaborator world in which nothing outside `unit.cpp` has an effect:
every class is available, the autoloader finds nothing, `newClass` hands out
an address that is new for the chain, and the handle of a name is
`handleOf`. -/
def quietEnv : Env where
  RepoAuthoritative := true
  avail := fun _ p _ s => .ok (.AvailTrue, p) s
  invokeHandler := fun _ s => .ok PUnit.unit s
  newClass := fun p _ s => .ok (freshAddr (s.clsList p.name)) s
  setCachedFunc := fun _ s => .ok PUnit.unit s
  invokeFunc := fun _ s => .ok PUnit.unit s
  lookupIncludeRoot := fun _ _ _ s => .ok none s
  mergePreConsts := fun _ s => s
  allocKnownClass := handleOf
  allocFixedFunction := handleOf
  allocConstant := handleOf
  allocGlobal := handleOf

/-- An empty unit. -/
def emptyUnit : Unit :=
  ⟨[], 0, 0, 0, 0, UnitMergeStateUnmerged, 0, 0, 0⟩

/-- The state of a fresh process and request: no class, no unit, an empty
target cache. -/
def emptyVM : VM where
  clsList := fun _ => []
  m_cachedFuncOffset := fun _ => 0
  units := fun _ => emptyUnit
  tcClass := fun _ => none
  tcFunc := fun _ => none
  tcCns := fun _ => ⟨0, 0, DataType.KindOfUninit⟩
  tcFlags := fun _ => 0
  constants := fun _ => none
  globals := fun _ => none
  warnings := []
  ext := 100

/-- A template `class C {}` and a second, different template of the same
name. -/
def exPreC : PreClass := ⟨1, "C", "", true⟩

/-- See `exPreC`. -/
def exPreC2 : PreClass := ⟨2, "C", "", true⟩

/-- A template `class D extends B {}`. -/
def exPreD : PreClass := ⟨3, "D", "B", true⟩

/-- The class that `defClass` builds from `exPreC` in `emptyVM`. -/
def exClsC : Class := ⟨1, exPreC, none, 68⟩

/-- The state after `defClass(exPreC)` in `emptyVM`. -/
def exVMC : VM :=
  exClsC.setCached { emptyVM with clsList := Function.update emptyVM.clsList "C" [exClsC] }

/-- A collaborator world like `quietEnv`, except that the class at address 7
is found not available. -/
def pickyEnv : Env :=
  { quietEnv with
    avail := fun c p _ s => if c.addr = 7 then .ok (.AvailFalse, p) s else .ok (.AvailTrue, p) s }

/-- Three classes of the name `C`: two built from `exPreC`, one from
`exPreC2`. -/
def exCls7 : Class := ⟨7, exPreC, none, 68⟩

/-- See `exCls7`. -/
def exCls5 : Class := ⟨5, exPreC2, none, 68⟩

/-- See `exCls7`. -/
def exCls8 : Class := ⟨8, exPreC, none, 68⟩

/-- A request that has not defined `C` yet, in a process whose chain of `C`
holds three versions. -/
def exVMScan : VM :=
  { emptyVM with clsList := Function.update emptyVM.clsList "C" [exCls7, exCls5, exCls8] }

/-- The function `f` of the example unit, before and after `loadFunc`. -/
def exFuncF : Func := ⟨11, "f", true, true, 0⟩

/-- See `exFuncF`. -/
def exFuncF1 : Func := ⟨11, "f", true, true, 103⟩

/-- The pseudo-main of the example unit. -/
def exFuncMain : Func := ⟨10, "", false, false, 0⟩

/-- A template `class B {}`. -/
def exPreB : PreClass := ⟨4, "B", "", true⟩

/-- The unit of `function f() {}  class D extends B {}`: the pseudo-main and
`f`, then the hoistable `D`, then `Done`; not merge-only. -/
def exUnit : Unit :=
  ⟨[.func exFuncMain, .func exFuncF, .preClass exPreD, .done], 1, 2, 3, 3,
    UnitMergeStateUnmerged, 0, 0, 1⟩

/-- A fresh process that has loaded `exUnit` at address 1. -/
def exVMUnit : VM := { emptyVM with units := Function.update emptyVM.units 1 exUnit }

/-- The example unit after its first merge. -/
def exUnitMerged : Unit :=
  ⟨[.func exFuncMain, .func exFuncF1, .preClass exPreD, .done], 1, 2, 3, 3,
    ⟨false, true, true, true, false⟩, 0, 0, 1⟩

/-- A request that starts with the example unit already merged by the
process. -/
def exVMMerged : VM :=
  { emptyVM with
    units := Function.update emptyVM.units 1 exUnitMerged
    m_cachedFuncOffset := Function.update emptyVM.m_cachedFuncOffset "f" 103 }

/-- The state after the replay of the example unit in `exVMMerged`: `f` is
published, `D` is not defined since `B` is unknown. -/
def exVMPass1 : VM :=
  { exVMMerged with tcFunc := Function.update exVMMerged.tcFunc 103 (some exFuncF1) }

/-- The value of the constant `X` of the example, with its cache handle. -/
def exValX : TypedValue := ⟨1, 89, DataType.KindOfInt64⟩

/-- The merge-only unit of `define('X', 1); class D extends B {}`: the
pseudo-main, the hoistable `D`, then the define with its value, `D` again as
a class statement, and `Done`. -/
def exUnitMO : Unit :=
  ⟨[.func exFuncMain, .preClass exPreD, .define "X", .tvData exValX, .tvPad,
    .preClass exPreD, .done], 1, 1, 2, 6, ⟨false, true, true, true, false⟩, 1, 0, 2⟩

/-- A request that starts with `exUnitMO` merged at address 2; `B` is
unknown. -/
def exVMMO : VM := { emptyVM with units := Function.update emptyVM.units 2 exUnitMO }

/-- The state in which the replay of `exUnitMO` ends. -/
def exVMMOEnd : VM := mergeCns 89 exValX "X" exVMMO

/-! ## The sequential model of the replay

The specification describes the last part of the replay as a walk through
the remaining instructions "in array order, by tag".  `specStep` and
`seqReplay` follow these words: one instruction per step, each step at the
index after the words of the step before.  What a single instruction does is
the body of its case in `mergeImpl`. -/

/-- The instruction at `ix` of the unit `u`, run on its own: the state after
it and the index of the instruction that follows it in the array; `none` for
the index after `Done`.  `fuel` bounds the calls that the instruction
makes. -/
def specStep (E : Env) (fuel u ix : Nat) (s : VM) : Option (Outcome (Option Nat)) :=
  match mergeableObj s u ix with
  | some (.preClass pre) =>
    match defClass E fuel pre true s with
    | none => none
    | some (.ok _ s1) => some (.ok (some (ix + 1)) s1)
    | some (.raised m s1) => some (.raised m s1)
    | some .fault => some .fault
  | some (.cls (some cls)) =>
    match E.avail cls none true s with
    | .ok (.AvailFail, some other) s1 => some (.raised ("unknown class " ++ other.name) s1)
    | .ok (.AvailFail, none) _ => some .fault
    | .ok (.AvailFalse, _) _ => some .fault
    | .ok (.AvailTrue, _) s1 => some (.ok (some (ix + 1)) (cls.setCached s1))
    | .raised m s1 => some (.raised m s1)
    | .fault => some .fault
  | some (.define name) =>
    match mergeableObj s u (ix + 1) with
    | some (.tvData v) => some (.ok (some (ix + 3)) (mergeCns v._count v name s))
    | _ => some .fault
  | some (.global name) =>
    match mergeableObj s u (ix + 1) with
    | some (.tvData v) => some (.ok (some (ix + 3)) (setGlobal v name s))
    | _ => some .fault
  | some (.reqUnit _ unit) =>
    let unitLoadedFlags := s.tcFlags (s.units unit).m_cacheOffset
    if unitLoadedFlags &&& (s.units unit).m_cacheMask = 0 then
      let flags := Function.update s.tcFlags (s.units unit).m_cacheOffset
        (unitLoadedFlags ||| (s.units unit).m_cacheMask)
      let s1 : VM := { s with tcFlags := flags }
      match mergeImpl E fuel unit s1 with
      | none => none
      | some (.ok _ s2) =>
        if (s2.units unit).isMergeOnly = false then
          match E.invokeFunc unit s2 with
          | .ok _ s3 => some (.ok (some (ix + 1)) s3)
          | .raised m s3 => some (.raised m s3)
          | .fault => some .fault
        else some (.ok (some (ix + 1)) s2)
      | some (.raised m s2) => some (.raised m s2)
      | some .fault => some .fault
    else some (.ok (some (ix + 1)) s)
  | some .done =>
    if ix = (s.units u).m_mergeablesSize then
      match mergeImplDone fuel u s with
      | none => none
      | some (.ok _ s1) => some (.ok none s1)
      | some (.raised m s1) => some (.raised m s1)
      | some .fault => some .fault
    else some .fault
  | _ => some .fault

/-- The interpreter of the specification: the instructions of the unit `u`
from `ix` on, one at a time, until `Done` has been run or an instruction
raises.  One unit of fuel is one instruction. -/
def seqReplay (E : Env) (u : Nat) : Nat → Nat → VM → Option (Outcome PUnit)
  | 0, _, _ => none
  | fuel + 1, ix, s =>
    match specStep E fuel u ix s with
    | none => none
    | some (.ok (some ix1) s1) => seqReplay E u fuel ix1 s1
    | some (.ok none s1) => some (.ok PUnit.unit s1)
    | some (.raised m s1) => some (.raised m s1)
    | some .fault => some .fault

/-- The value of the constant `Y` of the example, with its cache handle. -/
def exValY : TypedValue := ⟨2, 90, DataType.KindOfInt64⟩

/-- The merge-only unit of `define('X', 1); define('Y', 2);`. -/
def exUnitSeq : Unit :=
  ⟨[.func exFuncMain, .define "X", .tvData exValX, .tvPad, .define "Y", .tvData exValY,
    .tvPad, .done], 1, 1, 1, 7, ⟨false, true, true, false, false⟩, 1, 0, 4⟩

/-- A request that starts with `exUnitSeq` merged at address 3. -/
def exVMSeq : VM := { emptyVM with units := Function.update emptyVM.units 3 exUnitSeq }

/-- The state after the replay of `exUnitSeq`. -/
def exVMSeqEnd : VM := mergeCns 90 exValY "Y" (mergeCns 89 exValX "X" exVMSeq)

/-- Two more values for the constant `X`, with the handle of `X`. -/
def exVal0 : TypedValue := ⟨0, 89, DataType.KindOfInt64⟩

/-- See `exVal0`. -/
def exValX2 : TypedValue := ⟨2, 89, DataType.KindOfInt64⟩

/-- The merge-only unit of `define('X', 1); define('X', 2);`. -/
def exUnitTwice : Unit :=
  ⟨[.func exFuncMain, .define "X", .tvData exValX, .tvPad, .define "X", .tvData exValX2,
    .tvPad, .done], 1, 1, 1, 7, ⟨false, true, true, false, false⟩, 1, 0, 8⟩

/-- A request in which `X` has been registered as a constant with the value
`exVal0` by other code than a replay (its slot of the target cache is not
filled), and that holds `exUnitTwice` merged at address 4. -/
def exVMTwice : VM :=
  { emptyVM with
    units := Function.update emptyVM.units 4 exUnitTwice
    constants := Function.update emptyVM.constants "X" (some exVal0) }

/-- The state after the replay of `exUnitTwice` in `exVMTwice`. -/
def exVMTwiceEnd : VM :=
  raise_warning ("Constant " ++ "X" ++ " already defined")
    (raise_warning ("Constant " ++ "X" ++ " already defined") exVMTwice)

/-- A request like `exVMTwice` in which `X` is not registered. -/
def exVMTwiceFresh : VM := { exVMTwice with constants := emptyVM.constants }

/-- Two values for the global variable `G`, with the handle of `G`. -/
def exValG1 : TypedValue := ⟨1, 72, DataType.KindOfInt64⟩

/-- See `exValG1`. -/
def exValG2 : TypedValue := ⟨2, 72, DataType.KindOfInt64⟩

/-- The merge-only unit of `$G = 1; $G = 2;`. -/
def exUnitGlobals : Unit :=
  ⟨[.func exFuncMain, .global "G", .tvData exValG1, .tvPad, .global "G", .tvData exValG2,
    .tvPad, .done], 1, 1, 1, 7, ⟨false, true, true, false, false⟩, 1, 0, 16⟩

/-- A request that starts with `exUnitGlobals` merged at address 5. -/
def exVMGlobals : VM := { emptyVM with units := Function.update emptyVM.units 5 exUnitGlobals }

/-- The state after the replay of `exUnitGlobals`. -/
def exVMGlobalsEnd : VM :=
  { exVMGlobals with
    globals := Function.update (Function.update exVMGlobals.globals "G" (some exValG1)) "G"
      (some exValG2) }

/-! ## The marker bits of the included units -/

/-- The marker bit of the unit at `v` is set in the flag bytes of the
request: the test `unitLoadedFlags & unit->m_cacheMask` of `mergeImpl`. -/
def Marked (s : VM) (v : Nat) : Prop :=
  s.tcFlags (s.units v).m_cacheOffset &&& (s.units v).m_cacheMask ≠ 0

/-- The state of `s` after the statement `unitLoadedFlags |= unit->m_cacheMask`
for the unit at `v`. -/
def setLoaded (s : VM) (v : Nat) : VM :=
  let flags := Function.update s.tcFlags (s.units v).m_cacheOffset
    (s.tcFlags (s.units v).m_cacheOffset ||| (s.units v).m_cacheMask)
  { s with tcFlags := flags }

/-- From `s` to `t` publication is monotonic, every unit has changed by the
rewrite of its mergeables at most, and no bit of a flag byte was cleared. -/
def FlagsKept (s t : VM) : Prop :=
  Mono s t ∧ (∀ v, UnitStep (s.units v) (t.units v)) ∧
    ∀ off m, s.tcFlags off &&& m ≠ 0 → t.tcFlags off &&& m ≠ 0

/-- Every unit that an include instruction names has a marker bit. -/
def IncludesHaveBit (s : VM) : Prop :=
  ∀ (w ix : Nat) (k : ReqKind) (v : Nat),
    mergeableObj s w ix = some (.reqUnit k v) → (s.units v).m_cacheMask ≠ 0

mutual
/-- The units whose replay is started by an include instruction during the
walk of the instructions of `u` from `ix`, in the order in which the replays
start: the unit of an include with its bit unset, then what the replay of
that unit starts, then what the rest of the walk starts. -/
def includesWalk (E : Env) (u : Nat) : Nat → Nat → VM → List Nat
  | 0, _, _ => []
  | fuel + 1, ix, s =>
    let rest : List Nat :=
      match specStep E fuel u ix s with
      | some (.ok (some ix1) s1) => includesWalk E u fuel ix1 s1
      | _ => []
    match mergeableObj s u ix with
    | some (.reqUnit _ unit) =>
      if s.tcFlags (s.units unit).m_cacheOffset &&& (s.units unit).m_cacheMask = 0 then
        unit :: (includesImpl E fuel unit (setLoaded s unit) ++ rest)
      else rest
    | _ => rest
termination_by structural fuel => fuel
/-- The units whose replay is started by an include instruction during
`mergeImpl` on the unit at `u`: those of the walk of the remaining
instructions, when `mergeImpl` gets there. -/
def includesImpl (E : Env) : Nat → Nat → VM → List Nat
  | 0, _, _ => []
  | fuel + 1, u, s =>
    let it := (s.units u).m_firstHoistableFunc
    let fend := (s.units u).m_firstHoistablePreClass
    if fend < it then []
    else
      match mergeImplFuncs E u (s.units u).m_mergeState.uniqueFuncs (fend - it) it s with
      | .ok _ s1 =>
        let ix := (s1.units u).m_firstHoistablePreClass
        let end_ := (s1.units u).m_firstMergeablePreClass
        if ix < end_ then
          match mergeImplHoistable E fuel u (end_ - ix) ix false s1 with
          | some (.ok redoHoistable s2) =>
            if redoHoistable = true ∧ (s2.units u).isMergeOnly = false then []
            else if redoHoistable = true ∧ end_ = (s2.units u).m_mergeablesSize then []
            else includesWalk E u fuel end_ s2
          | _ => []
        else includesWalk E u fuel ix s1
      | _ => []
termination_by structural fuel => fuel
end

/-- Two merge-only units that include each other: `a.php` is
`include 'b.php';` and `b.php` is `include 'a.php'; include 'a.php';`.  They
are at the addresses 6 and 7, and their marker bits are the bits 1 and 2 of
the flag byte 0. -/
def exUnitA : Unit :=
  ⟨[.func exFuncMain, .reqUnit ReqKind.ReqDoc 7, .done], 1, 1, 1, 2,
    ⟨false, true, true, false, false⟩, 1, 0, 1⟩

/-- See `exUnitA`. -/
def exUnitB : Unit :=
  ⟨[.func exFuncMain, .reqUnit ReqKind.ReqDoc 6, .reqUnit ReqKind.ReqDoc 6, .done], 1, 1, 1, 3,
    ⟨false, true, true, false, false⟩, 1, 0, 2⟩

/-- A request that starts with `exUnitA` and `exUnitB` merged. -/
def exVMCycle : VM :=
  { emptyVM with
    units := Function.update (Function.update emptyVM.units 6 exUnitA) 7 exUnitB }

/-- The state after the replay of `exUnitA` in `exVMCycle`: the bit of
`exUnitB` was set first, then the bit of `exUnitA`. -/
def exVMCycleEnd : VM := setLoaded (setLoaded exVMCycle 7) 6

/-- The collaborators of `E`, with `g` in the place of the interpreter that
runs a pseudo-main. -/
def withInvoke (E : Env) (g : Nat → VM → Outcome PUnit) : Env := { E with invokeFunc := g }

/-- The class built from `exPreB`, and the class built from `exPreD` with
that class as its parent. -/
def exClsB : Class := ⟨9, exPreB, none, 67⟩

/-- See `exClsB`. -/
def exClsD : Class := ⟨10, exPreD, some exClsB.ref, 69⟩

/-- A collaborator world like `quietEnv` in which the parent of the class at
address 10 cannot be made available: `avail` answers `AvailFail` for that
class and reports its parent. -/
def strictEnv : Env :=
  { quietEnv with
    avail := fun c p _ s =>
      if c.addr = 10 then .ok (.AvailFail, some exClsB) s else .ok (.AvailTrue, p) s }

/-- The merge-only unit of `class D extends B {}` after the rewrite: the class
statement is the marked `exClsD`. -/
def exUnitUniq : Unit :=
  ⟨[.func exFuncMain, .cls (some exClsD), .done], 1, 1, 1, 2,
    ⟨false, true, true, true, true⟩, 1, 0, 32⟩

/-- A request that starts with `exUnitUniq` at address 8; the process has
the chains of `B` and `D`, the request has defined neither. -/
def exVMUniq : VM :=
  { emptyVM with
    units := Function.update emptyVM.units 8 exUnitUniq
    clsList := Function.update (Function.update emptyVM.clsList "B" [exClsB]) "D" [exClsD] }

/-! ## The rewrite of the mergeables -/

/-- The body of the `if` of `case UnitMergeKindDone`: the bit
`UnitMergeStateUniqueDefinedClasses` is set, then the two loops of the
rewrite run. -/
def rewritePass (fuel u : Nat) (s : VM) : Option (Outcome PUnit) :=
  let s1 := setMergeState s u { (s.units u).m_mergeState with uniqueDefinedClasses := true }
  match rewriteHoistable u
      ((s1.units u).m_firstMergeablePreClass - (s1.units u).m_firstHoistablePreClass)
      (s1.units u).m_firstHoistablePreClass s1 with
  | none => some .fault
  | some s2 =>
    match rewriteStmts u (s2.units u).m_mergeablesSize fuel
        (s2.units u).m_firstMergeablePreClass s2 with
    | none => none
    | some none => some .fault
    | some (some s3) => some (.ok PUnit.unit s3)

/-- The number of words of the instruction whose first word is `w`: a define
or a global is followed by the two words of its value. -/
def stride : Mergeable → Nat
  | .define _ => 3
  | .global _ => 3
  | _ => 1

/-- The words that the second loop of the rewrite, started at `ix` with the
bound `e`, reads as instructions: the word at `ix`, and from each of them the
word after its instruction, as long as that is before `e`. -/
inductive InstrAt (s : VM) (u e : Nat) : Nat → Nat → Prop where
  | here (ix : Nat) : InstrAt s u e ix ix
  | next (ix j : Nat) (w : Mergeable) :
      mergeableObj s u ix = some w → ix + stride w < e → InstrAt s u e (ix + stride w) j →
      InstrAt s u e ix j

/-- From `s` to `t` publication is monotonic and no unit has changed. -/
def UnitsSame (s t : VM) : Prop := Mono s t ∧ t.units = s.units

/-- The state `b` is the state `a` with some of the words of the unit `u`
already replaced by the words that they have in `t`. -/
def PartlyRewritten (u : Nat) (t a b : VM) : Prop :=
  b = { a with units := b.units } ∧ (∀ v, v ≠ u → b.units v = a.units v) ∧
    b.units u = { (a.units u) with m_mergeables := (b.units u).m_mergeables } ∧
    (b.units u).m_mergeables.length = (a.units u).m_mergeables.length ∧
    ∀ j, mergeableObj b u j = mergeableObj a u j ∨ mergeableObj b u j = mergeableObj t u j

/-- The merge-only unit of `class C {} define('X', 1);` in which `C` is
listed among the hoistable classes and again as a class statement. -/
def exUnitRW : Unit :=
  ⟨[.func exFuncMain, .preClass exPreC, .define "X", .tvData exValX, .tvPad,
    .preClass exPreC, .done], 1, 1, 2, 6, ⟨false, true, true, true, false⟩, 1, 0, 64⟩

/-- A request in which `C` is defined (the state `exVMC`) and that holds
`exUnitRW` merged at address 9. -/
def exVMRW : VM := { exVMC with units := Function.update exVMC.units 9 exUnitRW }

/-- The state `s1` is what a thread may find that enters the rewrite of the
unit `u` while others run it: the state `s` in which the rewrite started,
with the bit `UniqueDefinedClasses` perhaps set already and with some words of
the unit already replaced by the words that they have in `t`, the state in
which the rewrite of `s` ends. -/
def Racing (u : Nat) (s t s1 : VM) : Prop :=
  s1 = { s with units := s1.units } ∧ (∀ v, v ≠ u → s1.units v = s.units v) ∧
    UnitStep (s.units u) (s1.units u) ∧
    ∀ j, mergeableObj s1 u j = mergeableObj s u j ∨ mergeableObj s1 u j = mergeableObj t u j

/-- An engine like `quietEnv` that is not in the repo-authoritative mode. -/
def interpEnv : Env := { quietEnv with RepoAuthoritative := false }

/-- The word at index `j` of the unit `v` is the function `f` with the slot of
its name: `f` has the offset that the directory node of its name records, and
the node is settled (a node that records no slot is one for which
`allocFixedFunction` answers no slot either). -/
def Installed (E : Env) (s : VM) (v j : Nat) (f : Func) : Prop :=
  mergeableObj s v j = some (.func f) ∧ f.m_cachedOffset = s.m_cachedFuncOffset f.name ∧
    (s.m_cachedFuncOffset f.name = 0 → E.allocFixedFunction f.name = 0)

/-- From `s` to `t` publication is monotonic, the function slot of a name has
stayed or has gone from none to the slot that `allocFixedFunction` answers,
and every installed function word is still the same word. -/
def SlotsKept (E : Env) (s t : VM) : Prop :=
  Mono s t ∧
  (∀ n, t.m_cachedFuncOffset n = s.m_cachedFuncOffset n ∨
    (s.m_cachedFuncOffset n = 0 ∧ t.m_cachedFuncOffset n = E.allocFixedFunction n)) ∧
  ∀ v j f, Installed E s v j f → mergeableObj t v j = some (.func f)

/-! ## The unit emitter

`UnitEmitter` collects the functions, the class templates, the literals and
the merge statements of a file being compiled; `UnitEmitter::create` lays the
mergeables array of the unit out of them.  A vector is a list, a map or a
set keyed by a string is a function or a list of strings, an index outside a
vector is `none`.  What `FuncEmitter::create` and `PreClassEmitter::create`
build is a parameter of `create`. -/

/-- Modelled from the spec: the enumeration `PreClass::Hoistable`, which is
declared outside `unit.cpp`.  The order of the four values is the one that
the comparisons of `newPreClassEmitter` rely on: `NotHoistable` is the value
that tests false, `Mergeable` is below `MaybeHoistable`, and
`AlwaysHoistable` is the greatest. -/
inductive Hoistable where
  | NotHoistable
  | Mergeable
  | MaybeHoistable
  | AlwaysHoistable
deriving DecidableEq, Repr

/-- The integer value of a `PreClass::Hoistable`. -/
def Hoistable.toNat : Hoistable → Nat
  | .NotHoistable => 0
  | .Mergeable => 1
  | .MaybeHoistable => 2
  | .AlwaysHoistable => 3

/-- A `FuncEmitter`, as far as the emitter of the unit reads it: the serial
number, the id (its index in `m_fes`) and the name. -/
structure FuncEmitter where
  sn : Nat
  id : Nat
  name : String
deriving DecidableEq, Repr

/-- A `PreClassEmitter`: the id (its index in `m_pceVec`), the name and the
classification given by `newPreClassEmitter`. -/
structure PreClassEmitter where
  id : Nat
  name : String
  hoistable : Hoistable
deriving DecidableEq, Repr

/-- An `ArrayData` object, known by its address. -/
structure ArrayData where
  addr : Nat
deriving DecidableEq, Repr

/-- An element of `m_arrays`: the key and the scalar array. -/
structure ArrayVecElm where
  serialized : String
  array : ArrayData
deriving DecidableEq, Repr

/-- What the emitter calls outside `unit.cpp`: the comparison of the set of
hoistable class names, `f_serialize` and `ArrayData::GetScalarArray`. -/
structure EmitterEnv where
  isame : String → String → Bool
  f_serialize : ArrayData → String
  GetScalarArray : ArrayData → String → ArrayData

/-- The fields of a `UnitEmitter` that the claims are about.  A string stands
for the content of a `StringData`; the maps `m_litstr2id`, `m_array2id` and
`m_feMap` compare the content of their keys. -/
structure UnitEmitter where
  m_mainReturn : TypedValue
  m_litstrs : List String
  m_litstr2id : String → Option Nat
  m_arrays : List ArrayVecElm
  m_array2id : String → Option Nat
  m_nextFuncSn : Nat
  m_fes : List FuncEmitter
  m_feMap : String → Option FuncEmitter
  m_pceVec : List PreClassEmitter
  m_hoistablePreClassSet : List String
  m_hoistablePceIdVec : List Nat
  m_mergeableStmts : List (UnitMergeKind × Nat)
  m_mergeableValues : List (Nat × TypedValue)
  m_allClassesHoistable : Bool
  m_returnSeen : Bool

/-- The constructor `UnitEmitter::UnitEmitter`. -/
def newUnitEmitter : UnitEmitter where
  m_mainReturn := ⟨0, 0, DataType.KindOfUninit⟩
  m_litstrs := []
  m_litstr2id := fun _ => none
  m_arrays := []
  m_array2id := fun _ => none
  m_nextFuncSn := 0
  m_fes := []
  m_feMap := fun _ => none
  m_pceVec := []
  m_hoistablePreClassSet := []
  m_hoistablePceIdVec := []
  m_mergeableStmts := []
  m_mergeableValues := []
  m_allClassesHoistable := true
  m_returnSeen := false

/-- `UnitEmitter::mergeLitstr`: the id of the literal, which is added at the
end of the table when the map does not know it. -/
def mergeLitstr (e : UnitEmitter) (litstr : String) : Nat × UnitEmitter :=
  match e.m_litstr2id litstr with
  | none =>
    let id := e.m_litstrs.length
    (id, { e with
      m_litstrs := e.m_litstrs ++ [litstr]
      m_litstr2id := Function.update e.m_litstr2id litstr (some id) })
  | some id => (id, e)

/-- The key of `mergeArray` after its first statement: the serialisation of
the array when the caller gave no key (`none` is the default `NULL`). -/
def arrayKey (X : EmitterEnv) (a : ArrayData) (key : Option String) : String :=
  match key with
  | none => X.f_serialize a
  | some k => k

/-- `UnitEmitter::mergeArray`; `key` is `none` for the default `NULL`. -/
def mergeArray (X : EmitterEnv) (e : UnitEmitter) (a : ArrayData) (key : Option String) :
    Nat × UnitEmitter :=
  let key1 : String := arrayKey X a key
  match e.m_array2id key1 with
  | none =>
    let a1 := X.GetScalarArray a key1
    let id := e.m_arrays.length
    (id, { e with
      m_arrays := e.m_arrays ++ [⟨key1, a1⟩]
      m_array2id := Function.update e.m_array2id key1 (some id) })
  | some id => (id, e)

/-- `UnitEmitter::newFuncEmitter`; the error is the `raise_error` of a second
top function with the name, raised after the emitter was added. -/
def newFuncEmitter (e : UnitEmitter) (n : String) (top : Bool) :
    Except String FuncEmitter × UnitEmitter :=
  let fe : FuncEmitter := ⟨e.m_nextFuncSn, e.m_fes.length, n⟩
  let e1 : UnitEmitter := { e with m_nextFuncSn := e.m_nextFuncSn + 1, m_fes := e.m_fes ++ [fe] }
  if top then
    match e1.m_feMap n with
    | some _ => (.error ("Function already defined: " ++ n), e1)
    | none => (.ok fe, { e1 with m_feMap := Function.update e1.m_feMap n (some fe) })
  else (.ok fe, e1)

/-- `UnitEmitter::appendTopEmitter`. -/
def appendTopEmitter (e : UnitEmitter) (fe : FuncEmitter) : UnitEmitter :=
  let fe1 : FuncEmitter := { fe with sn := e.m_nextFuncSn, id := e.m_fes.length }
  { e with m_nextFuncSn := e.m_nextFuncSn + 1, m_fes := e.m_fes ++ [fe1] }

/-- `UnitEmitter::pushMergeableClass`. -/
def pushMergeableClass (e : UnitEmitter) (pce : PreClassEmitter) : UnitEmitter :=
  { e with m_mergeableStmts := e.m_mergeableStmts ++ [(UnitMergeKind.UnitMergeKindClass, pce.id)] }

/-- `UnitEmitter::pushMergeableInclude`. -/
def pushMergeableInclude (e : UnitEmitter) (kind : UnitMergeKind) (unitName : String) :
    UnitEmitter :=
  let r := mergeLitstr e unitName
  { r.2 with
    m_mergeableStmts := r.2.m_mergeableStmts ++ [(kind, r.1)]
    m_allClassesHoistable := false }

/-- `UnitEmitter::insertMergeableInclude`. -/
def insertMergeableInclude (e : UnitEmitter) (ix : Nat) (kind : UnitMergeKind) (id : Nat) :
    UnitEmitter :=
  { e with
    m_mergeableStmts := e.m_mergeableStmts.take ix ++ (kind, id) :: e.m_mergeableStmts.drop ix
    m_allClassesHoistable := false }

/-- `UnitEmitter::pushMergeableDef`. -/
def pushMergeableDef (e : UnitEmitter) (kind : UnitMergeKind) (name : String)
    (tv : TypedValue) : UnitEmitter :=
  let e1 : UnitEmitter :=
    { e with m_mergeableStmts := e.m_mergeableStmts ++ [(kind, e.m_mergeableValues.length)] }
  let r := mergeLitstr e1 name
  { r.2 with
    m_mergeableValues := r.2.m_mergeableValues ++ [(r.1, tv)]
    m_allClassesHoistable := false }

/-- `UnitEmitter::insertMergeableDef`. -/
def insertMergeableDef (e : UnitEmitter) (ix : Nat) (kind : UnitMergeKind) (id : Nat)
    (tv : TypedValue) : UnitEmitter :=
  { e with
    m_mergeableStmts :=
      e.m_mergeableStmts.take ix ++ (kind, e.m_mergeableValues.length) :: e.m_mergeableStmts.drop ix
    m_mergeableValues := e.m_mergeableValues ++ [(id, tv)]
    m_allClassesHoistable := false }

/-- The test `m_hoistablePreClassSet.count(n)`. -/
def hoistableCount (X : EmitterEnv) (e : UnitEmitter) (n : String) : Bool :=
  e.m_hoistablePreClassSet.any (fun m => X.isame n m)

/-- `UnitEmitter::newPreClassEmitter`. -/
def newPreClassEmitter (X : EmitterEnv) (e : UnitEmitter) (n : String)
    (hoistable : Hoistable) : PreClassEmitter × UnitEmitter :=
  let hoistable1 : Hoistable :=
    if hoistable.toNat ≠ 0 ∧ hoistableCount X e n = true then Hoistable.Mergeable else hoistable
  let pce : PreClassEmitter := ⟨e.m_pceVec.length, n, hoistable1⟩
  let e1 : UnitEmitter :=
    if Hoistable.MaybeHoistable.toNat ≤ hoistable1.toNat then
      { e with
        m_hoistablePreClassSet :=
          if hoistableCount X e n = true then e.m_hoistablePreClassSet
          else n :: e.m_hoistablePreClassSet
        m_hoistablePceIdVec := e.m_hoistablePceIdVec ++ [pce.id] }
    else { e with m_allClassesHoistable := false }
  let e2 : UnitEmitter :=
    if Hoistable.Mergeable.toNat ≤ hoistable1.toNat ∧
        hoistable1.toNat < Hoistable.AlwaysHoistable.toNat then
      if e1.m_returnSeen = true then { e1 with m_allClassesHoistable := false }
      else pushMergeableClass e1 pce
    else e1
  (pce, { e2 with m_pceVec := e2.m_pceVec ++ [pce] })

/-- Modelled from the spec: the emitter records that a top-level `return` was
seen; the member that sets `m_returnSeen` is declared outside `unit.cpp`. -/
def returnSeen (e : UnitEmitter) : UnitEmitter := { e with m_returnSeen := true }

/-- Modelled from the spec: the emitter records the value that the pseudo-main
returns, whose `_count` is the merge-only flag; the member that sets
`m_mainReturn` is declared outside `unit.cpp`. -/
def setMainReturn (e : UnitEmitter) (tv : TypedValue) : UnitEmitter :=
  { e with m_mainReturn := tv }

/-- One call on an emitter. -/
inductive EmitOp where
  | mergeLitstr (litstr : String)
  | mergeArray (a : ArrayData) (key : Option String)
  | newFuncEmitter (n : String) (top : Bool)
  | appendTopEmitter (fe : FuncEmitter)
  | pushMergeableClass (pce : PreClassEmitter)
  | pushMergeableInclude (kind : UnitMergeKind) (unitName : String)
  | insertMergeableInclude (ix : Nat) (kind : UnitMergeKind) (id : Nat)
  | pushMergeableDef (kind : UnitMergeKind) (name : String) (tv : TypedValue)
  | insertMergeableDef (ix : Nat) (kind : UnitMergeKind) (id : Nat) (tv : TypedValue)
  | newPreClassEmitter (n : String) (hoistable : Hoistable)
  | returnSeen
  | setMainReturn (tv : TypedValue)

/-- The emitter after one call. -/
def EmitOp.run (X : EmitterEnv) (e : UnitEmitter) : EmitOp → UnitEmitter
  | .mergeLitstr litstr => (HPHP.mergeLitstr e litstr).2
  | .mergeArray a key => (HPHP.mergeArray X e a key).2
  | .newFuncEmitter n top => (HPHP.newFuncEmitter e n top).2
  | .appendTopEmitter fe => HPHP.appendTopEmitter e fe
  | .pushMergeableClass pce => HPHP.pushMergeableClass e pce
  | .pushMergeableInclude kind unitName => HPHP.pushMergeableInclude e kind unitName
  | .insertMergeableInclude ix kind id => HPHP.insertMergeableInclude e ix kind id
  | .pushMergeableDef kind name tv => HPHP.pushMergeableDef e kind name tv
  | .insertMergeableDef ix kind id tv => HPHP.insertMergeableDef e ix kind id tv
  | .newPreClassEmitter n hoistable => (HPHP.newPreClassEmitter X e n hoistable).2
  | .returnSeen => HPHP.returnSeen e
  | .setMainReturn tv => HPHP.setMainReturn e tv

/-- The emitter after a sequence of calls. -/
def runOps (X : EmitterEnv) (e : UnitEmitter) (ops : List EmitOp) : UnitEmitter :=
  ops.foldl (EmitOp.run X) e

/-- The sizing loop of `UnitEmitter::create` over the merge statements:
`extra` after the loop, or `none` when the loop left by its `break` (outside
the repo-authoritative mode, at a statement that is not a class), which also
clears `m_mainReturn._count`. -/
def createExtra (E : Env) : List (UnitMergeKind × Nat) → Nat → Option Nat
  | [], extra => some extra
  | (kind, _) :: rest, extra =>
    if E.RepoAuthoritative = false then
      if kind ≠ UnitMergeKind.UnitMergeKindClass then none
      else createExtra E rest (extra + 1)
    else
      match kind with
      | .UnitMergeKindDefine => createExtra E rest (extra + 1 + 2)
      | .UnitMergeKindGlobal => createExtra E rest (extra + 1 + 2)
      | _ => createExtra E rest (extra + 1)

/-- The loop of `UnitEmitter::create` over the functions, as far as it sets
`m_firstHoistableFunc`: `ix` is the index of the next function, `first` the
value of the field so far. -/
def createFirstHoistableFunc : List Func → Nat → Nat → Nat
  | [], _, first => first
  | func :: rest, ix, first =>
    createFirstHoistableFunc rest (ix + 1)
      (if func.top = true then (if first = 0 then ix else first) else first)

/-- The loop of `UnitEmitter::create` over `m_hoistablePceIdVec`: the words it
writes, `none` when an id is outside `m_preClasses`. -/
def createHoistable (preClasses : List PreClass) : List Nat → Option (List Mergeable)
  | [] => some []
  | id :: rest =>
    match preClasses[id]? with
    | none => none
    | some p =>
      match createHoistable preClasses rest with
      | none => none
      | some ws => some (Mergeable.preClass p :: ws)

/-- The words that `UnitEmitter::create` writes for one merge statement:
`none` when an index is outside its vector, and at `not_reached()`. -/
def createStmt (preClasses : List PreClass) (litstrs : List String)
    (values : List (Nat × TypedValue)) : UnitMergeKind × Nat → Option (List Mergeable)
  | (.UnitMergeKindClass, id) =>
    match preClasses[id]? with
    | some p => some [Mergeable.preClass p]
    | none => none
  | (.UnitMergeKindReq k, id) =>
    match litstrs[id]? with
    | some name => some [Mergeable.reqName k name]
    | none => none
  | (.UnitMergeKindDefine, id) =>
    match values[id]? with
    | some (nameId, tv) =>
      match litstrs[nameId]? with
      | some name => some [Mergeable.define name, Mergeable.tvData tv, Mergeable.tvPad]
      | none => none
    | none => none
  | (.UnitMergeKindGlobal, id) =>
    match values[id]? with
    | some (nameId, tv) =>
      match litstrs[nameId]? with
      | some name => some [Mergeable.global name, Mergeable.tvData tv, Mergeable.tvPad]
      | none => none
    | none => none
  | (.UnitMergeKindDone, _) => none
  | (.UnitMergeKindUniqueDefinedClass, _) => none

/-- The loop of `UnitEmitter::create` over the merge statements: the words it
writes. -/
def createStmts (preClasses : List PreClass) (litstrs : List String)
    (values : List (Nat × TypedValue)) : List (UnitMergeKind × Nat) → Option (List Mergeable)
  | [] => some []
  | stmt :: rest =>
    match createStmt preClasses litstrs values stmt with
    | none => none
    | some ws =>
      match createStmts preClasses litstrs values rest with
      | none => none
      | some tail => some (ws ++ tail)

/-- `UnitEmitter::create`, the part that builds the mergeables of the unit.
`mkFunc` and `mkPre` are `FuncEmitter::create` and `PreClassEmitter::create`.
The array is allocated with `m_mergeablesSize + 1` words and written from
index 0 on; the result is `none` when an index is outside a vector, at
`not_reached()`, and when the words written before `Done` are not as many as
`m_mergeablesSize` (the last write would not be the last word of the
array). -/
def UnitEmitter.create (E : Env) (mkFunc : FuncEmitter → Func)
    (mkPre : PreClassEmitter → PreClass) (e : UnitEmitter) : Option Unit :=
  let preClasses := e.m_pceVec.map mkPre
  let funcs := e.m_fes.map mkFunc
  let extra : Option Nat :=
    if e.m_mainReturn._count ≠ 0 ∧ e.m_allClassesHoistable = false then
      createExtra E e.m_mergeableStmts 0
    else some 0
  let count : Nat :=
    match extra with
    | some _ => e.m_mainReturn._count
    | none => 0
  let size : Nat := e.m_fes.length + e.m_hoistablePceIdVec.length + extra.getD 0
  let first := createFirstHoistableFunc funcs 0 0
  let firstHoistableFunc := if first = 0 then funcs.length else first
  match createHoistable preClasses e.m_hoistablePceIdVec with
  | none => none
  | some hoistable =>
    let stmts : Option (List Mergeable) :=
      if count ≠ 0 ∧ e.m_allClassesHoistable = false then
        createStmts preClasses e.m_litstrs e.m_mergeableValues e.m_mergeableStmts
      else some []
    match stmts with
    | none => none
    | some rest =>
      let words := funcs.map Mergeable.func ++ hoistable ++ rest
      if words.length = size then
        some
          { m_mergeables := words ++ [Mergeable.done]
            m_firstHoistableFunc := firstHoistableFunc
            m_firstHoistablePreClass := funcs.length
            m_firstMergeablePreClass := funcs.length + hoistable.length
            m_mergeablesSize := size
            m_mergeState := UnitMergeStateUnmerged
            m_mainReturn_count := count
            m_cacheOffset := 0
            m_cacheMask := 0 }
      else none

/-- The merge statement names things that the emitter holds: a class
statement a template, an include a literal, a define or a global a value
whose name is a literal; `Done` and `UniqueDefinedClass` are not statements
of an emitter. -/
def stmtValid (e : UnitEmitter) : UnitMergeKind × Nat → Bool
  | (.UnitMergeKindClass, id) => decide (id < e.m_pceVec.length)
  | (.UnitMergeKindReq _, id) => decide (id < e.m_litstrs.length)
  | (.UnitMergeKindDefine, id) =>
    match e.m_mergeableValues[id]? with
    | some (nameId, _) => decide (nameId < e.m_litstrs.length)
    | none => false
  | (.UnitMergeKindGlobal, id) =>
    match e.m_mergeableValues[id]? with
    | some (nameId, _) => decide (nameId < e.m_litstrs.length)
    | none => false
  | (.UnitMergeKindDone, _) => false
  | (.UnitMergeKindUniqueDefinedClass, _) => false

/-- The `Func` that the examples build from a `FuncEmitter`: the pseudo-main
has the empty name, every other function is a top function. -/
def exMkFunc (fe : FuncEmitter) : Func := ⟨10 + fe.id, fe.name, fe.name != "", true, 0⟩

/-- The `PreClass` that the examples build from a `PreClassEmitter`. -/
def exMkPre (pce : PreClassEmitter) : PreClass := ⟨1 + pce.id, pce.name, "", true⟩

/-- The collaborators of the emitter in the examples: names are compared as
they are, the arrays at the addresses below 10 are empty and the others are
the array of the number 1. -/
def exEmitterEnv : EmitterEnv :=
  ⟨fun a b => a == b, fun a => if a.addr < 10 then "a:0:{}" else "a:1:{i:0;i:1;}", fun a _ => a⟩

/-- The emitter of `function f() {}  class C {}  define('X', 1);` in a
merge-only file: the pseudo-main and `f`, the hoistable `C`, and the
define. -/
def exEmitter : UnitEmitter :=
  pushMergeableDef
    (newPreClassEmitter exEmitterEnv
      (newFuncEmitter (newFuncEmitter (setMainReturn newUnitEmitter ⟨1, 1, DataType.KindOfInt64⟩)
        "" false).2 "f" true).2 "C" Hoistable.AlwaysHoistable).2
    UnitMergeKind.UnitMergeKindDefine "X" exValX

/-- An emitter that holds the pseudo-main and has seen a top-level `return`,
in which `class C {}` is then declared hoistable. -/
def exEmitterReturn : UnitEmitter :=
  (newPreClassEmitter exEmitterEnv (returnSeen (newFuncEmitter newUnitEmitter "" false).2)
    "C" Hoistable.AlwaysHoistable).2

/-- The map is the inverse of the table: it knows a string with an id exactly
when the table holds the string at the id. -/
def TableOK (table : List String) (map : String → Option Nat) : Prop :=
  ∀ s id, map s = some id ↔ table[id]? = some s

/-- The literal table of the emitter and its id map are consistent. -/
def LitstrOK (e : UnitEmitter) : Prop := TableOK e.m_litstrs e.m_litstr2id

/-- The array table of the emitter and its id map are consistent: the map
knows a key with an id exactly when the table holds an array with the key at
the id. -/
def ArraysOK (e : UnitEmitter) : Prop :=
  TableOK (e.m_arrays.map ArrayVecElm.serialized) e.m_array2id

/-- The names of the templates that the list of the hoistable templates
names, in the order of the list. -/
def hoistableNames (e : UnitEmitter) : List String :=
  e.m_hoistablePceIdVec.map (fun id =>
    match e.m_pceVec[id]? with
    | some pce => pce.name
    | none => "")

/-- The set of the hoistable names and the list of the hoistable templates
are consistent: the set holds the names of the templates of the list (the
newest first), every id of the list is the index of a template that has this
id and is classified `MaybeHoistable` or higher, and no name of the set is
the same, for the comparison of the set, as a name put there before it. -/
def PrefixOK (X : EmitterEnv) (e : UnitEmitter) : Prop :=
  e.m_hoistablePreClassSet = (hoistableNames e).reverse ∧
  (∀ id ∈ e.m_hoistablePceIdVec, ∃ pce, e.m_pceVec[id]? = some pce ∧ pce.id = id ∧
    Hoistable.MaybeHoistable.toNat ≤ pce.hoistable.toNat) ∧
  e.m_hoistablePreClassSet.Pairwise (fun a b => X.isame a b = false)

/-! ## A replay that fails part of the way -/

/-- From `s` to `t` no binding of the activation was taken back: publication
of classes is monotonic, a function slot that held a function still holds
one, a registered constant is still registered with its value, an initialised
constant slot is as it was, and a global that was bound is still bound. -/
def BindingsKept (s t : VM) : Prop :=
  Published s t ∧ (∀ off, s.tcFunc off ≠ none → t.tcFunc off ≠ none) ∧
    (∀ n v, s.constants n = some v → t.constants n = some v) ∧
    (∀ off, (s.tcCns off).m_type ≠ DataType.KindOfUninit → t.tcCns off = s.tcCns off) ∧
    ∀ n, s.globals n ≠ none → t.globals n ≠ none

/-- The sequential interpreter, started at the instruction `ix` of the unit
`u` in the state `s`, gets to the instruction `k` in the state `x`: every
instruction in between has returned. -/
inductive Reaches (E : Env) (fuel u : Nat) : Nat → VM → Nat → VM → Prop where
  | here (ix : Nat) (s : VM) : Reaches E fuel u ix s ix s
  | step (ix : Nat) (s : VM) (ix1 : Nat) (s1 : VM) (k : Nat) (x : VM) :
    specStep E fuel u ix s = some (.ok (some ix1) s1) → Reaches E fuel u ix1 s1 k x →
    Reaches E fuel u ix s k x

/-- From `s` to `t` no bit of a flag byte was cleared, units have changed by
the rewrite of their mergeables at most, and the unit `u` has not changed at
all. -/
def Sealed (u : Nat) (s t : VM) : Prop := FlagsKept s t ∧ t.units u = s.units u

/-- The merge-only unit of `class C {}  require 'inner.php';`, with unique
classes and not yet rewritten; the included unit is at address 21. -/
def exUnitOuter : Unit :=
  ⟨[.func exFuncMain, .preClass exPreC, .reqUnit ReqKind.ReqMod 21, .done], 1, 1, 2, 3,
    ⟨false, true, true, true, false⟩, 1, 0, 1⟩

/-- The unit of `inner.php`, which is not merge-only: its pseudo-main is
run. -/
def exUnitInner : Unit :=
  ⟨[.func exFuncMain, .done], 1, 1, 1, 1, ⟨false, true, true, false, false⟩, 0, 0, 2⟩

/-- A request that holds `exUnitOuter` at address 20 and `exUnitInner` at
address 21. -/
def exVMOuter : VM :=
  { emptyVM with
    units := Function.update (Function.update emptyVM.units 20 exUnitOuter) 21 exUnitInner }

/-- A collaborator world like `quietEnv` in which a pseudo-main that is run
requires the unit at address 20 (a replay of that unit) and then throws. -/
def throwEnv : Env :=
  { quietEnv with
    invokeFunc := fun _ s =>
      match mergeImpl quietEnv 6 20 s with
      | some (.ok _ s1) => .raised "Exception" s1
      | _ => .fault }

/-- What an end of a replay of the unit `v` keeps of the unit `u`: an end by
an error, and every end of the replay of another unit, leaves `u` sealed; a
replay of `u` itself that returns has run its `Done`. -/
def SealedPost (u v : Nat) (x : VM) : Outcome PUnit → Prop
  | .ok _ t => v ≠ u → Sealed u x t
  | .raised _ t => Sealed u x t
  | .fault => True

/-- `SealedPost` for one instruction: the instruction `Done` of `u` itself is
the one that may change `u`. -/
def SealedStep (u v : Nat) (x : VM) : Outcome (Option Nat) → Prop
  | .ok nx t => (nx ≠ none ∨ v ≠ u) → Sealed u x t
  | .raised _ t => Sealed u x t
  | .fault => True

/-! ## The replay of a rewritten array -/

/-- The word `b` is the word `a`, or `a` is a template and `b` is a marked
class built from it: what the rewrite may have done to the word. -/
def WordTwin (a b : Mergeable) : Prop :=
  a = b ∨ ∃ P C, a = Mergeable.preClass P ∧ b = Mergeable.cls (some C) ∧ C.preClass = P

/-- The array of the unit `w` is the array of the unit `u` in which some of
the class entries have been rewritten. -/
def TwinWords (u w : Nat) (x : VM) : Prop :=
  ∀ j, (mergeableObj x u j = none ∧ mergeableObj x w j = none) ∨
    ∃ a b, mergeableObj x u j = some a ∧ mergeableObj x w j = some b ∧ WordTwin a b

/-- The unit `w` is a copy of the unit `u` with some entries rewritten: the
same layout, the same merge-only flag, the same bit `UniqueFuncs`, the bit
`UniqueDefinedClasses` set (the rewrite sets it before it writes a word), and
words that are those of `u` or their rewrites. -/
def Twin (u w : Nat) (x : VM) : Prop :=
  (x.units w).m_firstHoistableFunc = (x.units u).m_firstHoistableFunc ∧
  (x.units w).m_firstHoistablePreClass = (x.units u).m_firstHoistablePreClass ∧
  (x.units w).m_firstMergeablePreClass = (x.units u).m_firstMergeablePreClass ∧
  (x.units w).m_mergeablesSize = (x.units u).m_mergeablesSize ∧
  (x.units w).m_mainReturn_count = (x.units u).m_mainReturn_count ∧
  (x.units w).m_mergeState.uniqueFuncs = (x.units u).m_mergeState.uniqueFuncs ∧
  (x.units w).m_mergeState.uniqueDefinedClasses = true ∧
  TwinWords u w x

/-- The test of the loop over the hoistable classes on a marked entry: the
class has a parent whose slot of the target cache is empty. -/
def parentMissing (C : Class) (x : VM) : Bool :=
  match C.parent with
  | some parent => x.tcClass parent.m_cachedOffset == none
  | none => false

/-- The class `C` is the class of the template `P` in the directory: it is
built from `P`, it is in the chain of the name, no class before it in the
chain is built from `P`, and the chain has one slot. -/
def FirstBuilt (x : VM) (P : PreClass) (C : Class) : Prop :=
  C.preClass = P ∧
  (∃ pre rest, x.clsList P.name = pre ++ C :: rest ∧ ∀ d ∈ pre, d.preClass ≠ P) ∧
  ∀ d ∈ x.clsList P.name, d.m_cachedOffset = C.m_cachedOffset

/-- The template `P` is unique and defined by `C`, as a class statement needs
it: `C` is the class of `P`, the slot of the name is empty or holds `C`,
`Class::avail` does not answer that `C` is another class than the one asked
for, and it answers that a `C` that is in its slot is available, leaving the
state as it is. -/
def UniqueDefined (E : Env) (x : VM) (P : PreClass) (C : Class) : Prop :=
  FirstBuilt x P C ∧
  (x.tcClass C.m_cachedOffset = none ∨ x.tcClass C.m_cachedOffset = some C) ∧
  (∀ o x1, E.avail C none true x ≠ .ok (Avail.AvailFalse, o) x1) ∧
  (x.tcClass C.m_cachedOffset = some C →
    ∃ o, E.avail C none true x = .ok (Avail.AvailTrue, o) x)

/-- The template `P` is unique and defined by `C`, as a hoistable entry needs
it: `C` is the class of `P`, the slot of the name is empty or holds `C`, a `C`
that is in its slot has its parent in its slot, and for a `C` that is not in
its slot `Class::avail`, asked without autoload, answers by the slot of the
parent (`AvailFail` when it is empty, `AvailTrue` otherwise), leaving the
state as it is. -/
def HoistDefined (E : Env) (x : VM) (P : PreClass) (C : Class) : Prop :=
  FirstBuilt x P C ∧
  (x.tcClass C.m_cachedOffset = none ∨ x.tcClass C.m_cachedOffset = some C) ∧
  (x.tcClass C.m_cachedOffset = some C → parentMissing C x = false) ∧
  (x.tcClass C.m_cachedOffset = none →
    (parentMissing C x = true → ∃ o, E.avail C none false x = .ok (Avail.AvailFail, o) x) ∧
    (parentMissing C x = false → ∃ o, E.avail C none false x = .ok (Avail.AvailTrue, o) x))

/-- The loop over the hoistable classes of the unit `u`, started at the entry
`ix` in the state `x`, gets to the entry `k` in the state `y`: every entry in
between has been run without an error. -/
inductive HReaches (E : Env) (fuel u : Nat) : Nat → VM → Nat → VM → Prop where
  | here (ix : Nat) (x : VM) : HReaches E fuel u ix x ix x
  | step (ix : Nat) (x : VM) (b : Bool) (x1 : VM) (k : Nat) (y : VM) :
    mergeImplHoistable E fuel u 1 ix false x = some (.ok b x1) →
    HReaches E fuel u (ix + 1) x1 k y → HReaches E fuel u ix x k y

/-- What the walk of the remaining instructions needs of the state `y` in
which it gets to the instruction `k`: the unit `w` is a rewritten copy of
`u`, and when the instruction is a class statement that is rewritten in `w`,
its template is unique and defined. -/
def WalkDefined (E : Env) (u w k : Nat) (y : VM) : Prop :=
  Twin u w y ∧ ∀ P C, mergeableObj y u k = some (.preClass P) →
    mergeableObj y w k = some (.cls (some C)) → UniqueDefined E y P C

/-- The ends of the replay of a unit and of the replay of its rewritten copy
agree: both return, in states that differ by the rewrite of the mergeables at
most, or both raise the same error in the same state.  Nothing is said of a
replay of the unit that ends by a fault. -/
def SameEnd : Outcome PUnit → Outcome PUnit → Prop
  | .ok _ t, .ok _ t1 => RewriteStep t1 t
  | .raised m t, .raised m1 t1 => m = m1 ∧ t = t1
  | .fault, _ => True
  | _, _ => False

/-- The merge-only unit of `class C {}` with `C` as a class statement, with
unique classes and not yet rewritten. -/
def exUnitTwinA : Unit :=
  ⟨[.func exFuncMain, .preClass exPreC, .done], 1, 1, 1, 2, ⟨false, true, true, true, false⟩,
    1, 0, 4⟩

/-- The unit `exUnitTwinA` after the rewrite. -/
def exUnitTwinB : Unit :=
  ⟨[.func exFuncMain, .cls (some exClsC), .done], 1, 1, 1, 2, ⟨false, true, true, true, true⟩,
    1, 0, 4⟩

/-- A request in which `C` is defined (the state `exVMC`) and that holds
`exUnitTwinA` at address 23 and `exUnitTwinB` at address 24. -/
def exVMTwin : VM :=
  { exVMC with units := Function.update (Function.update exVMC.units 23 exUnitTwinA) 24 exUnitTwinB }

/-! ## The line table -/

/-- A `SourceLoc`: the first and the last line and column of a piece of
source. -/
structure SourceLoc where
  line0 : Int
  char0 : Int
  line1 : Int
  char1 : Int
deriving DecidableEq, Repr

/-- A `LineEntry`: bytecode up to `pastOffset` (exclusive) belongs to the
line `val`. -/
structure LineEntry where
  pastOffset : Int
  val : Int
deriving DecidableEq, Repr

/-- Modelled from the spec: the comparison `operator<` of two table entries,
which is declared outside `unit.cpp`, compares the past offsets. -/
def LineEntry.lt (a b : LineEntry) : Bool := decide (a.pastOffset < b.pastOffset)

/-- `createLineTable(srcLoc, bclen)`: one entry per source location, which
ends where the next location starts (`srcLoc[i + 1].first`) and, for the last
one, at `bclen`. -/
def createLineTable : List (Int × SourceLoc) → Int → List LineEntry
  | [], _ => []
  | [(_, loc)], bclen => [⟨bclen, loc.line1⟩]
  | (_, loc) :: next :: rest, bclen =>
    ⟨next.1, loc.line1⟩ :: createLineTable (next :: rest) bclen

/-- The loop of `std::upper_bound` over the range of length `len` that starts
at index `first`: the range is halved until it is empty.  One unit of fuel is
one pass of the loop. -/
def upperBoundLoop (table : List LineEntry) (key : LineEntry) : Nat → Nat → Nat → Nat
  | 0, first, _ => first
  | fuel + 1, first, len =>
    if len = 0 then first
    else
      let half := len / 2
      let middle := first + half
      match table[middle]? with
      | some e =>
        if key.lt e = true then upperBoundLoop table key fuel first half
        else upperBoundLoop table key fuel (middle + 1) (len - half - 1)
      | none => first

/-- `std::upper_bound(table.begin(), table.end(), key)`, as an index into the
table; the index `table.length` is `table.end()`. -/
def upper_bound (table : List LineEntry) (key : LineEntry) : Nat :=
  upperBoundLoop table key table.length 0 table.length

/-- `Unit::getLineNumber(pc)` over the line table `m_lineTable`. -/
def getLineNumber (m_lineTable : List LineEntry) (pc : Int) : Int :=
  let key : LineEntry := ⟨pc, -1⟩
  match m_lineTable[upper_bound m_lineTable key]? with
  | some it => it.val
  | none => -1

/-- `UnitEmitter::recordSourceLocation(sLoc, start)` on the table
`m_sourceLocTab`; `none` is a failed assertion. -/
def recordSourceLocation (m_sourceLocTab : List (Int × SourceLoc)) (sLoc : SourceLoc)
    (start : Int) : Option (List (Int × SourceLoc)) :=
  match m_sourceLocTab.getLast? with
  | some back =>
    if back.2 = sLoc then
      if back.1 ≤ start then some m_sourceLocTab else none
    else if back.1 < start then some (m_sourceLocTab ++ [(start, sLoc)])
    else none
  | none => if start = 0 then some [(start, sLoc)] else none

/-- The line that the claim names for `pc`: the line of the source location
with the greatest start offset that is at most `pc`, and `-1` when there is
none. -/
def lineOfGreatestStart (srcLoc : List (Int × SourceLoc)) (pc : Int) : Int :=
  match (srcLoc.filter (fun e => decide (e.1 ≤ pc))).getLast? with
  | some e => e.2.line1
  | none => -1

/-- The line of the first entry of the line table whose past offset is
greater than `pc`, and `-1` when there is none. -/
def lineOfFirstPast (table : List LineEntry) (pc : Int) : Int :=
  match table.find? (fun e => decide (pc < e.pastOffset)) with
  | some e => e.val
  | none => -1

/-- The start offsets of the table are strictly increasing and begin at 0. -/
def StartsOK (srcLoc : List (Int × SourceLoc)) : Prop :=
  (srcLoc.map Prod.fst).Chain' (fun a b => a < b) ∧ ∀ e, srcLoc.head? = some e → e.1 = 0

/-- Three source locations inside a bytecode of length 9. -/
def exSrcLocIn : List (Int × SourceLoc) :=
  [(0, ⟨1, 0, 1, 9⟩), (2, ⟨2, 0, 2, 9⟩), (7, ⟨3, 0, 3, 9⟩)]

/-! ## The directory of named entities -/

/-- A `StringData`: its content, and whether it is a static string. -/
structure StringData where
  data : String
  isStatic : Bool
deriving DecidableEq, Repr

/-- A `NamedEntity`, the node of a name, as its constructor leaves it: no
function slot and an empty chain of classes. -/
structure NamedEntity where
  m_cachedFuncOffset : Nat
  m_clsList : List Class
deriving DecidableEq, Repr

/-- What `GetNamedEntity` uses that is declared outside `unit.cpp`: the
comparison of the keys of `NamedEntityMap`, which looks at the content of the
strings, and `StringData::GetStaticString`. -/
structure NamedEntityEnv where
  same : String → String → Bool
  GetStaticString : StringData → StringData

/-- The type `NamedEntityMap`: the nodes with their keys, in the order in
which they were added.  A node is never moved, so the reference `&it->second`
is the index of the node. -/
abbrev NamedEntityMap := List (StringData × NamedEntity)

/-- The member `find` of the map, from the index `i` on: the index of the
node whose key compares equal to `key`. -/
def NamedEntityMap.find (X : NamedEntityEnv) (key : String) : NamedEntityMap → Nat → Option Nat
  | [], _ => none
  | e :: rest, i =>
    if X.same e.1.data key = true then some i else NamedEntityMap.find X key rest (i + 1)

/-- The map that `s_namedDataMap` points to after the first statement of
`GetNamedEntity`, which allocates an empty map when the pointer is null. -/
def mapOf (s_namedDataMap : Option NamedEntityMap) : NamedEntityMap :=
  match s_namedDataMap with
  | some map => map
  | none => []

/-- `Unit::GetNamedEntity(str)`: the reference to the node and the new value
of `s_namedDataMap`.  The last statement is `operator[]`, which looks the key
up and adds a node for it when there is none. -/
def GetNamedEntity (X : NamedEntityEnv) (s_namedDataMap : Option NamedEntityMap)
    (str : StringData) : Nat × Option NamedEntityMap :=
  let map := mapOf s_namedDataMap
  match NamedEntityMap.find X str.data map 0 with
  | some it => (it, some map)
  | none =>
    let str1 := if str.isStatic = true then str else X.GetStaticString str
    match NamedEntityMap.find X str1.data map 0 with
    | some it => (it, some map)
    | none => (map.length, some (map ++ [(str1, ⟨0, []⟩)]))

/-- The value of `s_namedDataMap` after a sequence of calls of
`GetNamedEntity`. -/
def lookups (X : NamedEntityEnv) (s_namedDataMap : Option NamedEntityMap)
    (strs : List StringData) : Option NamedEntityMap :=
  strs.foldl (fun m str => (GetNamedEntity X m str).2) s_namedDataMap

/-- Keys are compared by content, and the static string of a string has its
content. -/
def exNamedEntityEnv : NamedEntityEnv :=
  ⟨fun a b => a == b, fun s => { s with isStatic := true }⟩

/-- The flag `m_allClassesHoistable` is clear in an emitter that holds a
merge statement other than a class. -/
def FlagOK (e : UnitEmitter) : Prop :=
  (∃ st ∈ e.m_mergeableStmts, st.1 ≠ UnitMergeKind.UnitMergeKindClass) →
    e.m_allClassesHoistable = false

/-- The emitter of `class C {}  define('X', 1);` in a merge-only file in
which `C` is not hoistable: the pseudo-main, the class statement and the
define. -/
def exEmitterStmts : UnitEmitter :=
  pushMergeableDef
    (newPreClassEmitter exEmitterEnv
      (newFuncEmitter (setMainReturn newUnitEmitter ⟨1, 1, DataType.KindOfInt64⟩) "" false).2
      "C" Hoistable.Mergeable).2
    UnitMergeKind.UnitMergeKindDefine "X" exValX

/-! ## The emitter in the repo -/

/-- The rows of the table `UnitLitstr` that the loop of
`UnitEmitter::commit` over `m_litstrs` inserts, from the index `i` on: the id
and the literal. -/
def commitLitstrs : List String → Nat → List (Nat × String)
  | [], _ => []
  | litstr :: rest, i => (i, litstr) :: commitLitstrs rest (i + 1)

/-- The query of `GetUnitLitstrsStmt`: the rows of the unit,
`ORDER BY litstrId ASC`. -/
def selectLitstrs (rows : List (Nat × String)) : List (Nat × String) :=
  rows.insertionSort (fun a b => a.1 ≤ b.1)

/-- The loop of `UnitRepoProxy::GetUnitLitstrsStmt::get` over the rows of the
query; `none` is the failed assertion `id == litstrId`. -/
def getLitstrRows : List (Nat × String) → UnitEmitter → Option UnitEmitter
  | [], ue => some ue
  | (litstrId, litstr) :: rest, ue =>
    let r := mergeLitstr ue litstr
    if r.1 = litstrId then getLitstrRows rest r.2 else none

/-- `UnitRepoProxy::GetUnitLitstrsStmt::get(ue)` on the rows that the repo
holds for the unit. -/
def GetUnitLitstrsStmt.get (rows : List (Nat × String)) (ue : UnitEmitter) :
    Option UnitEmitter :=
  getLitstrRows (selectLitstrs rows) ue
/-- A row of the table `UnitMergeables`: the index of the statement, its
kind, the id it carries and the value blob, `none` for `NULL`. -/
structure MergeableRow where
  mergeableIx : Nat
  mergeableKind : UnitMergeKind
  mergeableId : Nat
  mergeableValue : Option String
deriving DecidableEq, Repr

/-- How the repo stores a `TypedValue`: `bindTypedValue` and `getTypedValue`
of the queries, which are declared outside `unit.cpp`. -/
structure RepoCodec where
  bindTypedValue : TypedValue → String
  getTypedValue : Option String → TypedValue

/-- The loop of `UnitEmitter::commit` over `m_mergeableStmts`, from the index
`i` on: the rows it inserts.  A class statement is not stored; `none` is
`not_reached()` and a read outside `m_mergeableValues`. -/
def commitMergeables (C : RepoCodec) (values : List (Nat × TypedValue)) :
    List (UnitMergeKind × Nat) → Nat → Option (List MergeableRow)
  | [], _ => some []
  | (kind, second) :: rest, i =>
    match kind with
    | .UnitMergeKindDone => none
    | .UnitMergeKindUniqueDefinedClass => none
    | .UnitMergeKindClass => commitMergeables C values rest (i + 1)
    | .UnitMergeKindReq _ =>
      match commitMergeables C values rest (i + 1) with
      | some rows => some (⟨i, kind, second, none⟩ :: rows)
      | none => none
    | _ =>
      match values[second]? with
      | some (nameId, tv) =>
        match commitMergeables C values rest (i + 1) with
        | some rows => some (⟨i, kind, nameId, some (C.bindTypedValue tv)⟩ :: rows)
        | none => none
      | none => none

/-- The query of `GetUnitMergeablesStmt`: the rows of the unit,
`ORDER BY mergeableIx ASC`. -/
def selectMergeables (rows : List MergeableRow) : List MergeableRow :=
  rows.insertionSort (fun a b => a.mergeableIx ≤ b.mergeableIx)

/-- Modelled from the spec: `markNotMergeOnly`, which is declared outside
`unit.cpp`, clears the merge-only flag `m_mainReturn._count`. -/
def markNotMergeOnly (ue : UnitEmitter) : UnitEmitter :=
  { ue with m_mainReturn := { ue.m_mainReturn with _count := 0 } }

/-- The loop of `UnitRepoProxy::GetUnitMergeablesStmt::get` over the rows of
the query.  Outside the repo-authoritative mode the first row ends the loop;
`none` is a failed assertion `ix <= m_mergeableStmts.size()` of an
insertion. -/
def getMergeableRows (E : Env) (C : RepoCodec) :
    List MergeableRow → UnitEmitter → Option UnitEmitter
  | [], ue => some ue
  | row :: rest, ue =>
    if E.RepoAuthoritative = false then some (markNotMergeOnly ue)
    else
      match row.mergeableKind with
      | .UnitMergeKindReq _ =>
        if row.mergeableIx ≤ ue.m_mergeableStmts.length then
          getMergeableRows E C rest
            (insertMergeableInclude ue row.mergeableIx row.mergeableKind row.mergeableId)
        else none
      | .UnitMergeKindDefine =>
        if row.mergeableIx ≤ ue.m_mergeableStmts.length then
          getMergeableRows E C rest
            (insertMergeableDef ue row.mergeableIx row.mergeableKind row.mergeableId
              (C.getTypedValue row.mergeableValue))
        else none
      | .UnitMergeKindGlobal =>
        if row.mergeableIx ≤ ue.m_mergeableStmts.length then
          getMergeableRows E C rest
            (insertMergeableDef ue row.mergeableIx row.mergeableKind row.mergeableId
              (C.getTypedValue row.mergeableValue))
        else none
      | _ => getMergeableRows E C rest ue

/-- `UnitRepoProxy::GetUnitMergeablesStmt::get(ue)` on the rows that the repo
holds for the unit. -/
def GetUnitMergeablesStmt.get (E : Env) (C : RepoCodec) (rows : List MergeableRow)
    (ue : UnitEmitter) : Option UnitEmitter :=
  getMergeableRows E C (selectMergeables rows) ue

/-- Modelled from the spec: the loader of the class templates
(`getPreClasses`, outside `unit.cpp`) re-creates the templates in their
original order through `newPreClassEmitter`, each with the name and the
classification with which it was committed. -/
def getPreClasses (X : EmitterEnv) (pces : List PreClassEmitter) (ue : UnitEmitter) :
    UnitEmitter :=
  pces.foldl (fun ue pce => (newPreClassEmitter X ue pce.name pce.hoistable).2) ue

/-- The part of `UnitRepoProxy::load` that rebuilds the literal table and the
merge statements of the emitter `ue`, in the order of `load`: the literals,
the class templates, the merge statements.  (The stages that load the arrays,
the pre-constants and the functions are between and after these; they are left
out.)  `mainReturn` is the value that `GetUnitStmt::get` has read. -/
def loadEmitter (X : EmitterEnv) (E : Env) (C : RepoCodec) (mainReturn : TypedValue)
    (litstrRows : List (Nat × String)) (pces : List PreClassEmitter)
    (mergeableRows : List MergeableRow) : Option UnitEmitter :=
  match GetUnitLitstrsStmt.get litstrRows (setMainReturn newUnitEmitter mainReturn) with
  | none => none
  | some ue1 => GetUnitMergeablesStmt.get E C mergeableRows (getPreClasses X pces ue1)

/-- What a merge statement of an emitter stands for: its kind, the id of the
template (class), of the unit name (include) or of the name (define, global),
and the value of a define or a global. -/
def resolveStmt (values : List (Nat × TypedValue)) :
    UnitMergeKind × Nat → Option (UnitMergeKind × Nat × Option TypedValue)
  | (.UnitMergeKindDefine, id) =>
    match values[id]? with
    | some (nameId, tv) => some (.UnitMergeKindDefine, nameId, some tv)
    | none => none
  | (.UnitMergeKindGlobal, id) =>
    match values[id]? with
    | some (nameId, tv) => some (.UnitMergeKindGlobal, nameId, some tv)
    | none => none
  | (kind, id) => some (kind, id, none)

/-- The merge statements of an emitter, each as what it stands for. -/
def resolvedStmts (e : UnitEmitter) : List (Option (UnitMergeKind × Nat × Option TypedValue)) :=
  e.m_mergeableStmts.map (resolveStmt e.m_mergeableValues)

/-- The class statements of a sequence of merge statements. -/
def classStmts (stmts : List (UnitMergeKind × Nat)) : List (UnitMergeKind × Nat) :=
  stmts.filter (fun st => decide (st.1 = UnitMergeKind.UnitMergeKindClass))

/-- The template is classified `Mergeable` or `MaybeHoistable`: the
classifications for which `newPreClassEmitter` pushes a class statement. -/
def mergeableClass (pce : PreClassEmitter) : Bool :=
  decide (Hoistable.Mergeable.toNat ≤ pce.hoistable.toNat ∧
    pce.hoistable.toNat < Hoistable.AlwaysHoistable.toNat)

/-- The class statements of the emitter are those of its templates that are
classified `Mergeable` or `MaybeHoistable`, in the order of the templates. -/
def ClassStmtsOK (e : UnitEmitter) : Prop :=
  classStmts e.m_mergeableStmts =
    (e.m_pceVec.filter mergeableClass).map (fun pce => (UnitMergeKind.UnitMergeKindClass, pce.id))

/-- A call of the compiler on an emitter whose file has no top-level `return`
before a class: anything but `returnSeen`, a class statement pushed apart from
`newPreClassEmitter`, and an insertion. -/
def EmitOp.plain : EmitOp → Bool
  | .returnSeen => false
  | .pushMergeableClass _ => false
  | .insertMergeableInclude _ _ _ => false
  | .insertMergeableDef _ _ _ _ => false
  | .pushMergeableInclude kind _ =>
    match kind with
    | .UnitMergeKindReq _ => true
    | _ => false
  | .pushMergeableDef kind _ _ =>
    match kind with
    | .UnitMergeKindDefine => true
    | .UnitMergeKindGlobal => true
    | _ => false
  | _ => true

/-- A repo that stores a value as the decimal digits of its fields. -/
def exRepoCodec : RepoCodec :=
  ⟨fun tv => if tv.m_data = 1 then "1" else "0",
    fun blob => match blob with
      | some "1" => exValX
      | _ => ⟨0, 0, DataType.KindOfNull⟩⟩

/-- The emitter of `include 'a.php';` in a merge-only file. -/
def exEmitterInclude : UnitEmitter :=
  pushMergeableInclude
    (newFuncEmitter (setMainReturn newUnitEmitter ⟨1, 1, DataType.KindOfInt64⟩) "" false).2
    (UnitMergeKind.UnitMergeKindReq ReqKind.ReqDoc) "a.php"

/-- The emitter of `return 1; class C extends B {}`: the pseudo-main, a
top-level return, and then a class that is not hoistable. -/
def exEmitterAfterReturn : UnitEmitter :=
  (newPreClassEmitter exEmitterEnv
    (returnSeen
      (newFuncEmitter (setMainReturn newUnitEmitter ⟨1, 1, DataType.KindOfInt64⟩) "" false).2)
    "C" Hoistable.Mergeable).2

/-! ## One cache slot per class name -/

/-- All the classes of one chain have the same cache slot. -/
def OneSlot (s : VM) : Prop :=
  ∀ n, ∀ c ∈ s.clsList n, ∀ d ∈ s.clsList n, c.m_cachedOffset = d.m_cachedOffset

/-- The state `t` is reached from `s` through calls of `defClass`: each call
starts in the state in which the one before it ended, by returning or by
raising. -/
inductive DefClassReaches (E : Env) : VM → VM → Prop where
  | refl (s : VM) : DefClassReaches E s s
  | step (s t u : VM) (fuel : Nat) (preClass : PreClass) (failIsFatal : Bool) :
      DefClassReaches E s t → EndsIn (defClass E fuel preClass failIsFatal t) u →
      DefClassReaches E s u

/-! ## The bits of the merge state -/

/-- A merge state of a unit whose first merge is over: `Merging` is clear,
`Merged` is set, and `UniqueDefinedClasses` is set only with
`UniqueClasses`. -/
def ValidMerged (b : MergeState) : Prop :=
  b.merging = false ∧ b.merged = true ∧
    (b.uniqueDefinedClasses = true → b.uniqueClasses = true)

/-- What `initialMerge` and `mergeImpl` do to the merge state of a unit: a
step of the rewrite, or the first merge, which leads from `Unmerged` or
`Merging` to `Merging` or to a state in which the first merge is over. -/
def StateStep (a b : MergeState) : Prop :=
  UdcStep a b ∨
    ((a = UnitMergeStateUnmerged ∨ a = UnitMergeStateMerging) ∧
      (b = UnitMergeStateMerging ∨ ValidMerged b))

/-- The invariant of the bits of a merge state: `UniqueDefinedClasses`
implies `UniqueClasses`, and each of the three optimisation bits implies
`Merged`. -/
def BitsOK (m : MergeState) : Prop :=
  (m.uniqueDefinedClasses = true → m.uniqueClasses = true) ∧
  (m.uniqueFuncs = true ∨ m.uniqueClasses = true ∨ m.uniqueDefinedClasses = true →
    m.merged = true)

/-- From `s` to `t` publication is monotonic and the merge state of every
unit has changed by steps of `initialMerge` and `mergeImpl`. -/
def BitsKept (s t : VM) : Prop :=
  Mono s t ∧ ∀ v, StateStep (s.units v).m_mergeState (t.units v).m_mergeState

/-- From `s` to `t` publication is monotonic and the merge state of every
unit has changed by steps of the rewrite only. -/
def UdcKept (s t : VM) : Prop :=
  Mono s t ∧ ∀ v, UdcStep (s.units v).m_mergeState (t.units v).m_mergeState

/-- The state `t` is reached from `s` through calls of `initialMerge`,
`mergeImpl` and `merge`: each call starts in the state in which the one before
it ended, by returning or by raising. -/
inductive MergeReaches (E : Env) : VM → VM → Prop where
  | refl (s : VM) : MergeReaches E s s
  | initialMerge (s t x : VM) (fuel u : Nat) :
      MergeReaches E s t → EndsIn (HPHP.initialMerge E fuel u t) x → MergeReaches E s x
  | mergeImpl (s t x : VM) (fuel u : Nat) :
      MergeReaches E s t → EndsIn (HPHP.mergeImpl E fuel u t) x → MergeReaches E s x
  | merge (s t x : VM) (fuel u : Nat) :
      MergeReaches E s t → EndsIn (HPHP.merge E fuel u t) x → MergeReaches E s x

/-- From `s` to `t` publication is monotonic, no unit has gone back to
`Unmerged` and no unit has changed the length of its array of mergeables. -/
def InitKept (s t : VM) : Prop :=
  Started s t ∧ ∀ v, (t.units v).m_mergeablesSize = (s.units v).m_mergeablesSize

/-- Every unit that `lookupIncludeRoot` answers is one of the units of `U`:
the include graph is within the finite list `U`. -/
def IncludesIn (E : Env) (U : List Nat) : Prop :=
  ∀ name k u s unit t, E.lookupIncludeRoot name k u s = .ok (some unit) t → unit ∈ U

/-- The steps that the first merge of the unit at `v` can still take in `s`:
none when the unit is not `Unmerged`, else one for the call, one for the body
and one for each word of its array of mergeables. -/
def mergeCost (s : VM) (v : Nat) : Nat :=
  if (s.units v).m_mergeState = UnitMergeStateUnmerged then
    (s.units v).m_mergeablesSize + 2
  else 0

/-- The sum of `mergeCost` over the units of `U`. -/
def mergeBudget (U : List Nat) (s : VM) : Nat := (U.map (mergeCost s)).sum

/-- The units of `U` that are `Unmerged` in `s`. -/
def unmergedIn (U : List Nat) (s : VM) : List Nat :=
  U.filter (fun v => decide ((s.units v).m_mergeState = UnitMergeStateUnmerged))

mutual
/-- The units whose first-merge body is entered during the loop
`initialMergeStmts` on the unit at `u` from `ix`, in the order in which the
bodies are entered. -/
def bodiesStmts (E : Env) (u end_ : Nat) : Nat → Nat → VM → List Nat
  | 0, _, _ => []
  | fuel + 1, ix, s =>
    if ix < end_ then
      match mergeableObj s u ix with
      | some (.preClass _) => bodiesStmts E u end_ fuel (ix + 1) s
      | some (.reqName k name) =>
        match E.lookupIncludeRoot name k u s with
        | .ok (some unit) s1 =>
          bodiesOf E fuel unit s1 ++
            (match initialMerge E fuel unit s1 with
             | some (.ok _ s2) =>
               bodiesStmts E u end_ fuel (ix + 1) (setMergeable s2 u ix (.reqUnit k unit))
             | _ => [])
        | _ => []
      | some (.define name) =>
        match mergeableObj s u (ix + 1) with
        | some (.tvData v) =>
          bodiesStmts E u end_ fuel (ix + 3)
            (setMergeable s u (ix + 1) (.tvData { v with _count := E.allocConstant name }))
        | _ => []
      | some (.global name) =>
        match mergeableObj s u (ix + 1) with
        | some (.tvData v) =>
          bodiesStmts E u end_ fuel (ix + 3)
            (setMergeable s u (ix + 1) (.tvData { v with _count := E.allocGlobal name }))
        | _ => []
      | _ => []
    else []
termination_by structural fuel => fuel
/-- The units whose first-merge body is entered inside the body of the unit
at `u`, which was entered in `s0`. -/
def bodiesBody (E : Env) : Nat → Nat → VM → List Nat
  | 0, _, _ => []
  | fuel + 1, u, s0 =>
    match initialMergeFuncs E u ((s0.units u).m_firstHoistablePreClass - 1) 1
        E.RepoAuthoritative s0 with
    | none => []
    | some (_, s1) =>
      if E.RepoAuthoritative = false then []
      else
        match initialMergeHoistable s1 u
            ((s1.units u).m_firstMergeablePreClass - (s1.units u).m_firstHoistablePreClass)
            (s1.units u).m_firstHoistablePreClass true with
        | none => []
        | some _ =>
          if (s1.units u).isMergeOnly then
            bodiesStmts E u (s1.units u).m_mergeablesSize fuel
              (s1.units u).m_firstMergeablePreClass s1
          else []
termination_by structural fuel => fuel
/-- The units whose first-merge body is entered during `initialMerge` on the
unit at `u`, in the order in which the bodies are entered: `u` itself when it
is `Unmerged`, then the units entered inside its body. -/
def bodiesOf (E : Env) : Nat → Nat → VM → List Nat
  | 0, _, _ => []
  | fuel + 1, u, s =>
    if (s.units u).m_mergeState = UnitMergeStateUnmerged then
      u :: bodiesBody E fuel u (setMergeState s u UnitMergeStateMerging)
    else []
termination_by structural fuel => fuel
end

mutual
/-- The greatest number of first-merge bodies that are open at the same time
during the loop `initialMergeStmts` on the unit at `u` from `ix`, the body of
`u` not counted. -/
def depthStmts (E : Env) (u end_ : Nat) : Nat → Nat → VM → Nat
  | 0, _, _ => 0
  | fuel + 1, ix, s =>
    if ix < end_ then
      match mergeableObj s u ix with
      | some (.preClass _) => depthStmts E u end_ fuel (ix + 1) s
      | some (.reqName k name) =>
        match E.lookupIncludeRoot name k u s with
        | .ok (some unit) s1 =>
          max (depthOf E fuel unit s1)
            (match initialMerge E fuel unit s1 with
             | some (.ok _ s2) =>
               depthStmts E u end_ fuel (ix + 1) (setMergeable s2 u ix (.reqUnit k unit))
             | _ => 0)
        | _ => 0
      | some (.define name) =>
        match mergeableObj s u (ix + 1) with
        | some (.tvData v) =>
          depthStmts E u end_ fuel (ix + 3)
            (setMergeable s u (ix + 1) (.tvData { v with _count := E.allocConstant name }))
        | _ => 0
      | some (.global name) =>
        match mergeableObj s u (ix + 1) with
        | some (.tvData v) =>
          depthStmts E u end_ fuel (ix + 3)
            (setMergeable s u (ix + 1) (.tvData { v with _count := E.allocGlobal name }))
        | _ => 0
      | _ => 0
    else 0
termination_by structural fuel => fuel
/-- The greatest number of first-merge bodies that are open at the same time
inside the body of the unit at `u`, that body not counted. -/
def depthBody (E : Env) : Nat → Nat → VM → Nat
  | 0, _, _ => 0
  | fuel + 1, u, s0 =>
    match initialMergeFuncs E u ((s0.units u).m_firstHoistablePreClass - 1) 1
        E.RepoAuthoritative s0 with
    | none => 0
    | some (_, s1) =>
      if E.RepoAuthoritative = false then 0
      else
        match initialMergeHoistable s1 u
            ((s1.units u).m_firstMergeablePreClass - (s1.units u).m_firstHoistablePreClass)
            (s1.units u).m_firstHoistablePreClass true with
        | none => 0
        | some _ =>
          if (s1.units u).isMergeOnly then
            depthStmts E u (s1.units u).m_mergeablesSize fuel
              (s1.units u).m_firstMergeablePreClass s1
          else 0
termination_by structural fuel => fuel
/-- The recursion depth of `initialMerge` on the unit at `u`: the greatest
number of first-merge bodies that are open at the same time. -/
def depthOf (E : Env) : Nat → Nat → VM → Nat
  | 0, _, _ => 0
  | fuel + 1, u, s =>
    if (s.units u).m_mergeState = UnitMergeStateUnmerged then
      depthBody E fuel u (setMergeState s u UnitMergeStateMerging) + 1
    else 0
termination_by structural fuel => fuel
end

/-- The collaborators of `quietEnv`, with an include root in which `a.php`
is the unit at 6 and `b.php` the unit at 7. -/
def rootEnv : Env :=
  { quietEnv with
    lookupIncludeRoot := fun name _ _ s =>
      if name = "a.php" then .ok (some 6) s
      else if name = "b.php" then .ok (some 7) s
      else .ok none s }

/-- The unit of `a.php`, which is `include 'b.php';`, before its first
merge. -/
def exUnitA0 : Unit :=
  ⟨[.func exFuncMain, .reqName ReqKind.ReqDoc "b.php", .done], 1, 1, 1, 2,
    UnitMergeStateUnmerged, 1, 0, 1⟩

/-- The unit of `b.php`, which is `include 'a.php'; include 'a.php';`, before
its first merge. -/
def exUnitB0 : Unit :=
  ⟨[.func exFuncMain, .reqName ReqKind.ReqDoc "a.php", .reqName ReqKind.ReqDoc "a.php", .done],
    1, 1, 1, 3, UnitMergeStateUnmerged, 1, 0, 2⟩

/-- A process in which `exUnitA0` and `exUnitB0` are loaded and not merged. -/
def exVMCycle0 : VM :=
  { emptyVM with
    units := Function.update (Function.update emptyVM.units 6 exUnitA0) 7 exUnitB0 }

/-- The list `L` of the units whose first-merge body was entered during a
call that started in `s` and ended as `r` names no unit twice, names only
units of `U` that were `Unmerged` in `s`, and when the call has returned none
of them is `Unmerged` any more. -/
def BodiesOnce {α : Type} (U : List Nat) (s : VM) (L : List Nat) (r : Option (Outcome α)) :
    Prop :=
  L.Nodup ∧
  (∀ v ∈ L, v ∈ U ∧ (s.units v).m_mergeState = UnitMergeStateUnmerged) ∧
  (∀ x t, r = some (.ok x t) → ∀ v ∈ L, (t.units v).m_mergeState ≠ UnitMergeStateUnmerged)

/-- What the layout of the array of mergeables tells of a word: a function,
a class (a `PreClass*`, or the marked `Class*` that the rewrite puts in its
place), the first word of a define or of a global, an include (by name, or by
unit after the first merge), the two words of a value, and `Done`. -/
inductive WordShape where
  | func
  | cls
  | value
  | req
  | data
  | pad
  | done
deriving DecidableEq, Repr

/-- The shape of a word. -/
def Mergeable.shape : Mergeable → WordShape
  | .func _ => .func
  | .preClass _ => .cls
  | .cls _ => .cls
  | .define _ => .value
  | .global _ => .value
  | .reqName _ _ => .req
  | .reqUnit _ _ => .req
  | .tvData _ => .data
  | .tvPad => .pad
  | .done => .done

/-- The shapes of the words of the array of a unit. -/
def Unit.shapes (un : Unit) : List WordShape := un.m_mergeables.map Mergeable.shape

/-- The words from `ix` on are whole instructions up to `Done`, which is the
word at `e`: a class or an include is one word before `e`, a define or a
global is one word followed by the two words of its value, all before `e`.
One unit of fuel is one instruction. -/
def stmtsLaidOut (shapes : List WordShape) (e : Nat) : Nat → Nat → Bool
  | 0, _ => false
  | fuel + 1, ix =>
    match shapes[ix]? with
    | some .done => decide (ix = e)
    | some .cls => decide (ix < e) && stmtsLaidOut shapes e fuel (ix + 1)
    | some .req => decide (ix < e) && stmtsLaidOut shapes e fuel (ix + 1)
    | some .value =>
      decide (ix + 3 ≤ e) && decide (shapes[ix + 1]? = some .data) &&
        decide (shapes[ix + 2]? = some .pad) && stmtsLaidOut shapes e fuel (ix + 3)
    | _ => false

/-- The layout of the array that `UnitEmitter::create` builds: the markers
are in order and at most `m_mergeablesSize`, the array has
`m_mergeablesSize + 1` words, the words before `m_firstHoistablePreClass` are
functions, those from there to `m_firstMergeablePreClass` are classes, and
from there on the words are whole instructions up to `Done` at
`m_mergeablesSize`. -/
def Unit.laidOut (un : Unit) : Bool :=
  decide (un.m_firstHoistableFunc ≤ un.m_firstHoistablePreClass) &&
  decide (un.m_firstHoistablePreClass ≤ un.m_firstMergeablePreClass) &&
  decide (un.m_firstMergeablePreClass ≤ un.m_mergeablesSize) &&
  decide (un.shapes.length = un.m_mergeablesSize + 1) &&
  (un.shapes.take un.m_firstHoistablePreClass).all (fun w => decide (w = .func)) &&
  ((un.shapes.take un.m_firstMergeablePreClass).drop un.m_firstHoistablePreClass).all
    (fun w => decide (w = .cls)) &&
  stmtsLaidOut un.shapes un.m_mergeablesSize
    (un.m_mergeablesSize + 1 - un.m_firstMergeablePreClass) un.m_firstMergeablePreClass

/-- From `s` to `t` publication is monotonic and no unit has changed its
markers, the length of its array or the shape of a word. -/
def ShapeKept (s t : VM) : Prop :=
  Mono s t ∧ ∀ v,
    (t.units v).shapes = (s.units v).shapes ∧
    (t.units v).m_firstHoistableFunc = (s.units v).m_firstHoistableFunc ∧
    (t.units v).m_firstHoistablePreClass = (s.units v).m_firstHoistablePreClass ∧
    (t.units v).m_firstMergeablePreClass = (s.units v).m_firstMergeablePreClass ∧
    (t.units v).m_mergeablesSize = (s.units v).m_mergeablesSize

/-- The assertions of the rewrite hold for every template of the array of the
unit `u`: the chain of its name is one class, built from it. -/
def rewriteReady (s : VM) (u : Nat) : Bool :=
  (s.units u).m_mergeables.all fun w =>
    match w with
    | .preClass pre => rewriteAsserts s pre
    | _ => true

/-- The state in which a call has ended, and `s` for a call that has not. -/
def endState {α : Type} (r : Option (Outcome α)) (s : VM) : VM :=
  match r with
  | some (.ok _ t) => t
  | some (.raised _ t) => t
  | _ => s

/-- The state in which the walk of the remaining instructions of `exUnitRW`
ends in `exVMRW`. -/
def exVMRWEnd : VM :=
  endState (mergeImplSwitch quietEnv 9 8 2 (.define "X") .UnitMergeKindDefine exVMRW) exVMRW

/-- The loop of `mergeImpl` over the hoistable classes, run one class at a
time: started at the entry `ix` in the state `x` it gets to the entry `k` in
the state `y`, every attempt in between (one pass of the loop body, on the
class at its index, from the state that the attempt before left) has ended
without an error, and `c` tells whether one of them has failed to define its
class. -/
inductive HAttempts (E : Env) (fuel u : Nat) : Nat → VM → Nat → VM → Bool → Prop where
  | here (ix : Nat) (x : VM) : HAttempts E fuel u ix x ix x false
  | step (ix : Nat) (x : VM) (b : Bool) (x1 : VM) (k : Nat) (y : VM) (c : Bool) :
    mergeImplHoistable E fuel u 1 ix false x = some (.ok b x1) →
    HAttempts E fuel u (ix + 1) x1 k y c → HAttempts E fuel u ix x k y (b || c)

/-- A template `abstract`-less `class F { abstract function m(); }`, which
`Class::newClass` refuses. -/
def exPreF : PreClass := ⟨6, "F", "", true⟩

/-- A collaborator world like `quietEnv` in which `Class::newClass` raises
for the template `exPreF`. -/
def fussyEnv : Env :=
  { quietEnv with
    newClass := fun p c s =>
      if p.name = "F" then
        .raised "Class F contains 1 abstract method and must therefore be declared abstract" s
      else quietEnv.newClass p c s }

/-- The unit of `class D extends B {}  class C {}`, merged, not merge-only:
the pseudo-main, then the hoistable `D` and `C`, then `Done`. -/
def exUnitHoist : Unit :=
  ⟨[.func exFuncMain, .preClass exPreD, .preClass exPreC, .done], 1, 1, 3, 3,
    ⟨false, true, true, true, false⟩, 0, 0, 256⟩

/-- A request that starts with `exUnitHoist` merged at address 12; `B` is
unknown. -/
def exVMHoist : VM := { emptyVM with units := Function.update emptyVM.units 12 exUnitHoist }

/-- The state in which the replay of `exUnitHoist` ends in `exVMHoist`. -/
def exVMHoistEnd : VM := endState (mergeImpl quietEnv 3 12 exVMHoist) exVMHoist

/-- The unit of `class D extends B {}  class F { abstract function m(); }`,
merged, not merge-only. -/
def exUnitHoistBad : Unit :=
  ⟨[.func exFuncMain, .preClass exPreD, .preClass exPreF, .done], 1, 1, 3, 3,
    ⟨false, true, true, true, false⟩, 0, 0, 512⟩

/-- A request that starts with `exUnitHoistBad` merged at address 13; `B` is
unknown. -/
def exVMHoistBad : VM :=
  { emptyVM with units := Function.update emptyVM.units 13 exUnitHoistBad }

/-- The slots of the directory are in order in `t`: the classes of the chain
of a name have the slot of that name (`allocKnownClass`), and two names that
have classes have different slots. -/
def SlotsOK (E : Env) (t : VM) : Prop :=
  (∀ n, ∀ c ∈ t.clsList n, c.m_cachedOffset = E.allocKnownClass n) ∧
  ∀ n m, t.clsList n ≠ [] → t.clsList m ≠ [] →
    E.allocKnownClass n = E.allocKnownClass m → n = m

/-- No unit of `t` holds a class other than `c` for the slot of `c` as a
marked `Class*` of its array (the words that `mergeImpl` stores without a
test). -/
def SoleClass (t : VM) (c : Class) : Prop :=
  ∀ v ix d, mergeableObj t v ix = some (.cls (some d)) →
    d.m_cachedOffset = c.m_cachedOffset → d = c

/-- No unit of `t` that has the bit `UnitMergeStateUniqueFuncs` holds a
function other than `f` for the slot of `f` (the functions that `mergeImpl`
stores without a test). -/
def SoleFunc (t : VM) (f : Func) : Prop :=
  ∀ v ix g, mergeableObj t v ix = some (.func g) →
    (t.units v).m_mergeState.uniqueFuncs = true →
    g.m_cachedOffset = f.m_cachedOffset → g = f

/-- From `s` to `t` the flag bits are kept and the units have changed by the
rewrite at most; a class of the directory that was in its slot is still
there, when the slots of the directory are in order in `t` and no unit of `t`
holds another class for the slot as a marked `Class*`; and a function that was
in its slot is still there, when no unit of `t` with unique functions holds
another function for the slot. -/
def ExactKept (E : Env) (s t : VM) : Prop :=
  FlagsKept s t ∧
  (SlotsOK E t → ∀ c m, c ∈ s.clsList m → s.tcClass c.m_cachedOffset = some c →
    SoleClass t c → t.tcClass c.m_cachedOffset = some c) ∧
  (∀ f, s.tcFunc f.m_cachedOffset = some f → SoleFunc t f →
    t.tcFunc f.m_cachedOffset = some f)

/-- The merge-only unit of `function f() {}  class C {}  define('X', 1);
class D extends B {}`: the pseudo-main and the unique `f`, then the hoistable
`C`, then the define with its value, the class statement of `D`, and
`Done`. -/
def exUnitPF : Unit :=
  ⟨[.func exFuncMain, .func exFuncF1, .preClass exPreC, .define "X", .tvData exValX, .tvPad,
    .preClass exPreD, .done], 1, 2, 3, 7, ⟨false, true, true, true, false⟩, 1, 0, 1024⟩

/-- A request that starts with `exUnitPF` merged at address 30; `B` is
unknown. -/
def exVMPF : VM := { emptyVM with units := Function.update emptyVM.units 30 exUnitPF }

/-- The state after the function loop of the replay of `exUnitPF`: `f` is in
its slot. -/
def exVMPF1 : VM :=
  { exVMPF with tcFunc := Function.update exVMPF.tcFunc 103 (some exFuncF1) }

/-- The state after the hoistable classes of `exUnitPF`: `C` is defined. -/
def exVMPF2 : VM := endState (mergeImplHoistable quietEnv 2 30 1 2 false exVMPF1) exVMPF1

/-- The state after the define of `exUnitPF`: `X` is registered. -/
def exVMPF3 : VM := mergeCns 89 exValX "X" exVMPF2

/-- The merge-only unit of `$G = 1;  require 'inner.php';  class D extends B
{}`; the included unit is at address 33. -/
def exUnitGOuter : Unit :=
  ⟨[.func exFuncMain, .global "G", .tvData exValG1, .tvPad, .reqUnit ReqKind.ReqDoc 33,
    .preClass exPreD, .done], 1, 1, 1, 6, ⟨false, true, true, false, false⟩, 1, 0, 2048⟩

/-- The unit of `inner.php`, which is not merge-only: its pseudo-main is
run. -/
def exUnitGInner : Unit :=
  ⟨[.func exFuncMain, .done], 1, 1, 1, 1, ⟨false, true, true, false, false⟩, 0, 0, 4096⟩

/-- A request that holds `exUnitGOuter` at address 32 and `exUnitGInner` at
address 33; `B` is unknown. -/
def exVMG : VM :=
  { emptyVM with
    units := Function.update (Function.update emptyVM.units 32 exUnitGOuter) 33 exUnitGInner }

/-- A collaborator world like `quietEnv` in which a pseudo-main that is run
assigns `$G = 2`. -/
def assignEnv : Env :=
  { quietEnv with invokeFunc := fun _ s => .ok PUnit.unit (setGlobal exValG2 "G" s) }


/-! ## Lemmas on the relation `Mono` -/

theorem mono_refl (s : VM) : Mono s s :=
  ⟨fun _ => List.suffix_refl _, fun h => h⟩

theorem mono_trans {a b c : VM} (h1 : Mono a b) (h2 : Mono b c) : Mono a c :=
  ⟨fun n => (h1.1 n).trans (h2.1 n), fun h => h2.2 (h1.2 h)⟩

theorem setCached_clsList (c : Class) (s : VM) : (c.setCached s).clsList = s.clsList := rfl

theorem setCached_mono (c : Class) (s : VM) : Mono s (c.setCached s) :=
  ⟨fun _ => List.suffix_refl _, fun h => h⟩

/-! ## The sections of `defClass` -/

/-- What the scan of the chain can end with, for a relation `R` that the
collaborators respect. -/
theorem defClassScan_spec (E : Env) (R : VM → VM → Prop) (hr : ∀ s, R s s)
    (ht : ∀ a b c, R a b → R b c → R a c) (hE : E.Respects R) (P : PreClass) (f : Bool) :
    ∀ (top : List Class) (parent : Option Class) (s : VM),
      match defClassScan E P f top parent s with
      | .next _ t => R s t
      | .returned (.ok none t) => R s t
      | .returned (.ok (some c) t) =>
        c ∈ top ∧ c.preClass = P ∧ ∃ s0, R s s0 ∧ t = c.setCached s0
      | .returned (.raised _ t) => R s t
      | .returned .fault => True := by
  intro top
  induction top with
  | nil =>
    intro parent s
    simp only [defClassScan]
    exact hr s
  | cons class_ rest ih =>
    intro parent s
    simp only [defClassScan]
    by_cases hp : class_.preClass ≠ P
    · rw [if_pos hp]
      have := ih parent s
      generalize defClassScan E P f rest parent s = r at this ⊢
      rcases r with ⟨⟨_ | c, t⟩ | ⟨m, t⟩ | _⟩ | ⟨p, t⟩ <;> simp only [] at this ⊢ <;> try exact this
      exact ⟨List.mem_cons_of_mem _ this.1, this.2⟩
    · have hp1 : class_.preClass = P := not_not.mp hp
      rw [if_neg hp]
      rcases hav : E.avail class_ parent f s with ⟨⟨av, p1⟩, s1⟩ | ⟨m1, s1⟩ | _
      · have hR : R s s1 := hE.avail_ok hav
        cases av with
        | AvailFalse =>
          simp only []
          have := ih p1 s1
          generalize defClassScan E P f rest p1 s1 = r at this ⊢
          rcases r with ⟨⟨_ | c, t⟩ | ⟨m, t⟩ | _⟩ | ⟨p, t⟩ <;> simp only [] at this ⊢
          · exact ht _ _ _ hR this
          · obtain ⟨hm, hc, s0, hs0, hs⟩ := this
            exact ⟨List.mem_cons_of_mem _ hm, hc, s0, ht _ _ _ hR hs0, hs⟩
          · exact ht _ _ _ hR this
          · exact ht _ _ _ hR this
        | AvailTrue =>
          simp only []
          exact ⟨List.mem_cons_self _ _, hp1, s1, hR, rfl⟩
        | AvailFail =>
          simp only []
          cases f with
          | false => simpa using hR
          | true =>
            cases p1 with
            | none => simp
            | some p => simpa using hR
      · simpa using hE.avail_raised hav
      · simp

/-- What `getClass` can end with. -/
theorem getClass_spec (E : Env) (R : VM → VM → Prop) (hr : ∀ s, R s s) (hE : E.Respects R)
    (name : String) (f : Bool) (s : VM) :
    match getClass E name f s with
    | .ok r t => R s t ∧ r = lookupClass t name
    | .raised _ t => R s t
    | .fault => True := by
  unfold getClass
  cases hl : lookupClass s name with
  | some cls => simp only []; exact ⟨hr s, hl.symm⟩
  | none =>
    simp only []
    cases f with
    | false => simp only [Bool.false_eq_true, if_false]; exact ⟨hr s, hl.symm⟩
    | true =>
      simp only [if_true]
      unfold loadMissingClass
      rcases hh : E.invokeHandler name s with ⟨r, t⟩ | ⟨m, t⟩ | _
      · simpa using hE.invokeHandler_ok hh
      · simpa using hE.invokeHandler_raised hh
      · simp

/-- What the resolution of the parent can end with. -/
theorem defClassParent_spec (E : Env) (R : VM → VM → Prop) (hr : ∀ s, R s s)
    (hE : E.Respects R) (P : PreClass) (f : Bool) (parent : Option Class) (s : VM) :
    match defClassParent E P f parent s with
    | .next _ t => R s t
    | .returned (.ok r t) => R s t ∧ r = none
    | .returned (.raised _ t) => R s t
    | .returned .fault => True := by
  unfold defClassParent
  by_cases hc : parent = none ∧ P.parent.length ≠ 0
  · rw [if_pos hc]
    have := getClass_spec E R hr hE P.parent f s
    generalize getClass E P.parent f s = g at this ⊢
    rcases g with ⟨_ | c, t⟩ | ⟨m, t⟩ | _ <;> simp only [] at this ⊢
    · cases f with
      | false => simpa using this.1
      | true => simpa using this.1
    · exact this.1
    · exact this
  · rw [if_neg hc]
    exact hr s

/-- A suffix of a duplicate-free list that starts with the same element is
the whole list: comparing the heads of two chains compares the chains. -/
theorem suffix_eq_of_head {α : Type} (l1 l2 : List α) (h : l1 <:+ l2)
    (hd : l1.head? = l2.head?) (nd : l2.Nodup) : l1 = l2 := by
  obtain ⟨l, rfl⟩ := h
  cases l with
  | nil => rfl
  | cons a l =>
    exfalso
    cases l1 with
    | nil => simp at hd
    | cons b l1 =>
      simp only [List.head?_cons, List.cons_append, Option.some.injEq] at hd
      subst hd
      simp at nd

/-- Publishing a class at a fresh address in front of the current chain keeps
the directory well-formed and only grows the chain. -/
theorem defClassPublish_mono (E : Env) (P : PreClass) (N : Class) (s : VM)
    (hs : ChainsOK s) (hfresh : ∀ d ∈ s.clsList P.name, d.addr ≠ N.addr) :
    Mono s (defClassPublish E P (s.clsList P.name) N s).2 := by
  have hcl : ∀ n, (defClassPublish E P (s.clsList P.name) N s).2.clsList n =
      if n = P.name then (defClassPublish E P (s.clsList P.name) N s).1 :: s.clsList P.name
      else s.clsList n := by
    intro n
    simp only [defClassPublish, Class.setCached, Function.update_apply]
  have haddr : (defClassPublish E P (s.clsList P.name) N s).1.addr = N.addr := rfl
  have hoff : ∀ d ∈ s.clsList P.name,
      (defClassPublish E P (s.clsList P.name) N s).1.m_cachedOffset = d.m_cachedOffset := by
    intro d hd
    simp only [defClassPublish]
    cases hc : s.clsList P.name with
    | nil => rw [hc] at hd; cases hd
    | cons t rest =>
      simp only []
      exact (hs P.name).2 t (by rw [hc]; exact List.mem_cons_self _ _) d hd
  refine ⟨?_, ?_⟩
  · intro n
    rw [hcl n]
    by_cases hn : n = P.name
    · rw [if_pos hn, hn]; exact List.suffix_cons _ _
    · rw [if_neg hn]
  · intro _ n
    rw [hcl n]
    by_cases hn : n = P.name
    · rw [if_pos hn]
      refine ⟨List.nodup_cons.mpr ⟨?_, (hs P.name).1⟩, ?_⟩
      · intro hmem
        exact hfresh _ hmem haddr
      · intro c hc d hd
        rcases List.mem_cons.mp hc with rfl | hc <;> rcases List.mem_cons.mp hd with rfl | hd
        · rfl
        · exact hoff d hd
        · exact (hoff c hc).symm
        · exact (hs P.name).2 c hc d hd
    · rw [if_neg hn]; exact hs n

/-- The class that was just published is the cached class of its name, and
it was built from the template. -/
theorem defClassPublish_lookup (E : Env) (P : PreClass) (top : List Class) (a : Nat)
    (par : Option ClassRef) (s : VM) :
    lookupClass (defClassPublish E P top ⟨a, P, par, 0⟩ s).2 P.name =
      some (defClassPublish E P top ⟨a, P, par, 0⟩ s).1 ∧
    (defClassPublish E P top ⟨a, P, par, 0⟩ s).1.preClass = P := by
  simp [defClassPublish, lookupClass, Class.setCached, Class.getCached]

/-- A relation that marking any class cached respects meets the condition
`setCached` of `DefClassRel`. -/
theorem setCached_of_all {R : VM → VM → Prop} (htrans : ∀ a b c, R a b → R b c → R a c)
    (h : ∀ (c : Class) (s : VM), R s (c.setCached s)) :
    ∀ (c : Class) (s0 s : VM), R s0 s → StoredIn c s0 s → R s0 (c.setCached s) :=
  fun c _ s h0 _ => htrans _ _ _ h0 (h c s)

/-- A relation that publishing a fresh class in front of the current chain
respects, in every state, meets the condition `publish` of `DefClassRel`. -/
theorem publish_of_all (E : Env) {R : VM → VM → Prop}
    (htrans : ∀ a b c, R a b → R b c → R a c)
    (h : ∀ (P : PreClass) (N : Class) (s : VM), ChainsOK s →
      (∀ d ∈ s.clsList P.name, d.addr ≠ N.addr) →
      R s (defClassPublish E P (s.clsList P.name) N s).2) :
    ∀ (P : PreClass) (N : Class) (s0 s : VM), R s0 s → lookupClass s0 P.name = none →
      ChainsOK s → (∀ d ∈ s.clsList P.name, d.addr ≠ N.addr) →
      R s0 (defClassPublish E P (s.clsList P.name) N s).2 :=
  fun P N _ s h0 _ hs hf => htrans _ _ _ h0 (h P N s hs hf)

/-- What the loop of `defClass` can end with, in a call of `defClass` that
started in `s0` and found no class of the name cached there. -/
theorem defClassLoop_spec (E : Env) (R : VM → VM → Prop) (hR : DefClassRel E R)
    (P : PreClass) (f : Bool) (s0 : VM) (h0 : lookupClass s0 P.name = none) :
    ∀ (fuel : Nat) (top : List Class) (parent : Option Class) (s : VM),
      R s0 s → ChainsOK s → top <:+ s.clsList P.name →
      match defClassLoop E P f fuel top parent s with
      | none => True
      | some (.ok r t) =>
        R s0 t ∧ ∀ c, r = some c → lookupClass t P.name = some c ∧ c.preClass = P
      | some (.raised _ t) => R s0 t
      | some .fault => True := by
  intro fuel
  induction fuel with
  | zero => intro top parent s _ _ _; simp [defClassLoop]
  | succ fuel ih =>
    intro top parent s h0s hs htop
    simp only [defClassLoop]
    have hscan := defClassScan_spec E R hR.refl hR.trans hR.env P f top parent s
    generalize defClassScan E P f top parent s = sc at hscan ⊢
    rcases sc with ⟨⟨_ | c, t⟩ | ⟨m, t⟩ | _⟩ | ⟨p1, s1⟩ <;> simp only [] at hscan ⊢
    · exact ⟨hR.trans _ _ _ h0s hscan, fun c hc => by cases hc⟩
    · obtain ⟨hm, hc, sx, hsx, rfl⟩ := hscan
      have hM := hR.mono _ _ hsx
      have hmem : c ∈ sx.clsList P.name := (htop.trans (hM.1 P.name)).subset hm
      refine ⟨hR.setCached c s0 sx (hR.trans _ _ _ h0s hsx) (Or.inl ⟨P.name, hmem, h0⟩), ?_⟩
      intro c1 hc1
      injection hc1 with hc1
      subst hc1
      refine ⟨?_, hc⟩
      have hok := hM.2 hs
      simp only [lookupClass, setCached_clsList]
      cases hch : sx.clsList P.name with
      | nil => rw [hch] at hmem; cases hmem
      | cons h rest =>
        have ho : h.m_cachedOffset = c.m_cachedOffset :=
          (hok P.name).2 h (by rw [hch]; exact List.mem_cons_self _ _) c hmem
        simp [Class.getCached, Class.setCached, ho]
    · exact hR.trans _ _ _ h0s hscan
    · have hpar := defClassParent_spec E R hR.refl hR.env P f p1 s1
      generalize defClassParent E P f p1 s1 = pr at hpar ⊢
      rcases pr with ⟨⟨r, t⟩ | ⟨m, t⟩ | _⟩ | ⟨p2, s2⟩ <;> simp only [] at hpar ⊢
      · exact ⟨hR.trans _ _ _ h0s (hR.trans _ _ _ hscan hpar.1),
          fun c hc => by rw [hpar.2] at hc; cases hc⟩
      · exact hR.trans _ _ _ h0s (hR.trans _ _ _ hscan hpar)
      · have hss2 : R s s2 := hR.trans _ _ _ hscan hpar
        rcases hnc : E.newClass P p2 s2 with ⟨a, s3⟩ | ⟨m, s3⟩ | _ <;> simp only []
        · have hss3 : R s s3 := hR.trans _ _ _ hss2 (hR.env.newClass_ok hnc)
          have h0s3 : R s0 s3 := hR.trans _ _ _ h0s hss3
          have hM := hR.mono _ _ hss3
          have hok3 : ChainsOK s3 := hM.2 hs
          by_cases hhead : top.head? ≠ (s3.clsList P.name).head?
          · rw [if_pos hhead]
            have := ih (s3.clsList P.name) p2 s3 h0s3 hok3 (List.suffix_refl _)
            generalize defClassLoop E P f fuel (s3.clsList P.name) p2 s3 = r at this ⊢
            rcases r with _ | ⟨r, t⟩ | ⟨m, t⟩ | _ <;> simp only [] at this ⊢
            · exact this
            · exact this
          · rw [if_neg hhead]
            have heq : top = s3.clsList P.name :=
              suffix_eq_of_head _ _ (htop.trans (hM.1 P.name)) (not_not.mp hhead) (hok3 P.name).1
            refine ⟨?_, ?_⟩
            · rw [heq]
              exact hR.publish P _ s0 s3 h0s3 h0 hok3 (hR.fresh P p2 s2 a s3 hnc)
            · intro c hc
              injection hc with hc
              subst hc
              exact defClassPublish_lookup E P top a _ s3
        · exact hR.trans _ _ _ h0s (hR.trans _ _ _ hss2 (hR.env.newClass_raised hnc))

/-- What `defClass` can end with. -/
theorem defClass_spec (E : Env) (R : VM → VM → Prop) (hR : DefClassRel E R)
    (fuel : Nat) (P : PreClass) (f : Bool) (s : VM) (hs : ChainsOK s) :
    match defClass E fuel P f s with
    | none => True
    | some (.ok r t) =>
      R s t ∧ ∀ c, r = some c → lookupClass t P.name = some c ∧ c.preClass = P
    | some (.raised _ t) => R s t
    | some .fault => True := by
  unfold defClass
  cases hl : lookupClass s P.name with
  | some cls =>
    simp only []
    by_cases hp : cls.preClass ≠ P
    · rw [if_pos hp]
      cases f with
      | false => simpa using hR.refl s
      | true => simpa using hR.refl s
    · rw [if_neg hp]
      simp only []
      refine ⟨hR.refl s, ?_⟩
      intro c hc
      injection hc with hc
      subst hc
      exact ⟨hl, not_not.mp hp⟩
  | none =>
    simp only []
    exact defClassLoop_spec E R hR P f s hl fuel _ none s (hR.refl s) hs (List.suffix_refl _)

/-- The relation `Mono` is kept by everything that `defClass` does, when the
collaborators respect it and `newClass` allocates fresh objects. -/
theorem defClassRel_mono (E : Env) (hE : E.Respects Mono) (hF : E.Fresh) :
    DefClassRel E Mono where
  refl := mono_refl
  trans := fun _ _ _ h1 h2 => mono_trans h1 h2
  mono := fun _ _ h => h
  env := hE
  fresh := hF
  setCached := setCached_of_all (fun _ _ _ h1 h2 => mono_trans h1 h2) (setCached_mono)
  publish := publish_of_all E (fun _ _ _ h1 h2 => mono_trans h1 h2)
    fun P N s hs hf => defClassPublish_mono E P N s hs hf

/-- The collaborators of `quietEnv` leave the state as it is. -/
theorem quietEnv_respects (R : VM → VM → Prop) (hr : ∀ s, R s s) : quietEnv.Respects R where
  avail_ok := by intro c p f s r t h; cases h; exact hr _
  avail_raised := by intro c p f s m t h; cases h
  invokeHandler_ok := by intro n s r t h; cases h; exact hr _
  invokeHandler_raised := by intro n s m t h; cases h
  newClass_ok := by intro p c s a t h; cases h; exact hr _
  newClass_raised := by intro p c s m t h; cases h
  setCachedFunc_ok := by intro f s r t h; cases h; exact hr _
  setCachedFunc_raised := by intro f s m t h; cases h
  invokeFunc_ok := by intro u s r t h; cases h; exact hr _
  invokeFunc_raised := by intro u s m t h; cases h
  lookupIncludeRoot_ok := by intro n k u s r t h; cases h; exact hr _
  lookupIncludeRoot_raised := by intro n k u s m t h; cases h
  mergePreConsts := by intro u s; exact hr _

theorem freshAddr_fresh (l : List Class) : ∀ d ∈ l, d.addr ≠ freshAddr l := by
  intro d hd
  have : d.addr ≤ (l.map Class.addr).sum := by
    induction l with
    | nil => cases hd
    | cons a l ih =>
      simp only [List.map_cons, List.sum_cons]
      rcases List.mem_cons.mp hd with rfl | h
      · omega
      · have := ih h; omega
  unfold freshAddr
  omega

theorem quietEnv_fresh : quietEnv.Fresh := by
  intro p c s a t h d hd
  cases h
  exact freshAddr_fresh _ d hd

theorem emptyVM_chainsOK : ChainsOK emptyVM := by
  intro n
  exact ⟨List.nodup_nil, fun c hc => by cases hc⟩

/-! ## Claims about `defClass` -/

/-- C1. `defClass` is idempotent: in a well-formed directory, with
collaborators that only grow chains, when `defClass(P, f1)` returns a class
`C` in state `t`, an immediately following `defClass(P, f2)` returns the same
`C` whatever `f1`, `f2` and the fuel are, and leaves the whole state, so also
the version chain of the name, as it is. -/
theorem defClass_idempotent (E : Env) (hE : E.Respects Mono) (hF : E.Fresh)
    (s : VM) (hs : ChainsOK s) (fuel : Nat) (P : PreClass) (f1 f2 : Bool) (C : Class) (t : VM)
    (h : defClass E fuel P f1 s = some (.ok (some C) t)) (fuel2 : Nat) :
    defClass E fuel2 P f2 t = some (.ok (some C) t) := by
  have h1 := defClass_spec E Mono (defClassRel_mono E hE hF) fuel P f1 s hs
  rw [h] at h1
  simp only [] at h1
  obtain ⟨hl, hp⟩ := h1.2 C rfl
  unfold defClass
  rw [hl]
  simp only []
  rw [if_neg (not_not.mpr hp)]

theorem defClass_idempotent_witness :
    ChainsOK emptyVM ∧
    defClass quietEnv 1 exPreC true emptyVM = some (.ok (some exClsC) exVMC) ∧
    defClass quietEnv 0 exPreC false exVMC = some (.ok (some exClsC) exVMC) :=
  ⟨emptyVM_chainsOK, rfl,
    defClass_idempotent quietEnv (quietEnv_respects Mono mono_refl)
      quietEnv_fresh emptyVM emptyVM_chainsOK 1 exPreC true false exClsC exVMC rfl 0⟩

/-- C2. Hot path of `defClass`: when the chain of the name of `P` is not
empty and the class cached through its head was built from exactly `P`,
`defClass(P, failIsFatal)` returns that cached class for both values of
`failIsFatal`.  The result is the same for every fuel (also none) and for
every behaviour of the collaborators, and the state (chain, cache, units) is
the one before the call: no class is constructed, no parent is resolved and
the chain is not modified. -/
theorem defClass_hot_path (E : Env) (fuel : Nat) (P : PreClass) (failIsFatal : Bool)
    (s : VM) (top cls : Class) (rest : List Class)
    (hchain : s.clsList P.name = top :: rest)
    (hcached : top.getCached s = some cls)
    (hpre : cls.preClass = P) :
    defClass E fuel P failIsFatal s = some (.ok (some cls) s) := by
  unfold defClass lookupClass
  rw [hchain]
  simp only []
  rw [hcached]
  simp only []
  rw [if_neg (not_not.mpr hpre)]

theorem defClass_hot_path_witness :
    exVMC.clsList exPreC.name = exClsC :: [] ∧
    exClsC.getCached exVMC = some exClsC ∧
    exClsC.preClass = exPreC ∧
    defClass quietEnv 0 exPreC true exVMC = some (.ok (some exClsC) exVMC) :=
  ⟨rfl, rfl, rfl, defClass_hot_path quietEnv 0 exPreC true exVMC exClsC exClsC [] rfl rfl rfl⟩

/-- C3. Declaration conflict in `defClass`: when the class cached for the
name of `P` was built from a template other than `P`, `defClass(P, true)`
raises "Class already declared: <name>" and `defClass(P, false)` returns
`NULL` without raising; in both cases the state after the call is the state
before it, so the version chain and the cache are unchanged. -/
theorem defClass_declaration_conflict (E : Env) (fuel : Nat) (P : PreClass)
    (s : VM) (top cls : Class) (rest : List Class)
    (hchain : s.clsList P.name = top :: rest)
    (hcached : top.getCached s = some cls)
    (hpre : cls.preClass ≠ P) :
    defClass E fuel P true s = some (.raised ("Class already declared: " ++ P.name) s) ∧
    defClass E fuel P false s = some (.ok none s) := by
  unfold defClass lookupClass
  rw [hchain]
  simp only []
  rw [hcached]
  simp only []
  rw [if_pos hpre, if_pos hpre]
  simp

theorem defClass_declaration_conflict_witness :
    exVMC.clsList exPreC2.name = exClsC :: [] ∧
    exClsC.getCached exVMC = some exClsC ∧
    exClsC.preClass ≠ exPreC2 ∧
    defClass quietEnv 0 exPreC2 true exVMC =
      some (.raised ("Class already declared: " ++ exPreC2.name) exVMC) ∧
    defClass quietEnv 0 exPreC2 false exVMC = some (.ok none exVMC) :=
  ⟨rfl, rfl, by decide,
    defClass_declaration_conflict quietEnv 0 exPreC2 exVMC exClsC exClsC [] rfl rfl (by decide)⟩

/-- The scan does not depend on the class constructor. -/
theorem defClassScan_newClass (E : Env) (nc : PreClass → Option Class → VM → Outcome Nat)
    (P : PreClass) (f : Bool) :
    ∀ (top : List Class) (parent : Option Class) (s : VM),
      defClassScan { E with newClass := nc } P f top parent s = defClassScan E P f top parent s := by
  intro top
  induction top with
  | nil => intro parent s; rfl
  | cons c rest ih =>
    intro parent s
    simp only [defClassScan]
    by_cases hp : c.preClass ≠ P
    · rw [if_pos hp, if_pos hp]; exact ih parent s
    · rw [if_neg hp, if_neg hp]
      rcases E.avail c parent f s with ⟨⟨av, p1⟩, s1⟩ | ⟨m1, s1⟩ | _
      · cases av <;> simp only []
        exact ih p1 s1
      · rfl
      · rfl

/-- C4. Unresolved parent in `defClass`: no class is cached for the name of
`P`, the scan of the chain passes every class (none built from `P` is
reusable) and leaves `parent` null, and `P` names a non-empty parent that
`getClass` does not resolve.  Then `defClass(P, true)` raises
"unknown class <parent>" and `defClass(P, false)` returns `NULL` without
raising.  In both cases the state is the one that the collaborators called by
the scan and by `getClass` left: `defClass` itself writes nothing, so it
modifies no chain, and it constructs no class, since the result is the same
whatever `newClass` is. -/
theorem defClass_unresolved_parent (E : Env) (fuel : Nat) (P : PreClass) (s : VM)
    (sT tT sF tF : VM)
    (hnc : lookupClass s P.name = none)
    (hparent : P.parent.length ≠ 0)
    (hscanT : defClassScan E P true (s.clsList P.name) none s = .next none sT)
    (hscanF : defClassScan E P false (s.clsList P.name) none s = .next none sF)
    (hresT : getClass E P.parent true sT = .ok none tT)
    (hresF : getClass E P.parent false sF = .ok none tF)
    (nc : PreClass → Option Class → VM → Outcome Nat) :
    defClass { E with newClass := nc } (fuel + 1) P true s =
      some (.raised ("unknown class " ++ P.parent) tT) ∧
    defClass { E with newClass := nc } (fuel + 1) P false s = some (.ok none tF) ∧
    tF = sF := by
  have hgF : tF = sF := by
    unfold getClass at hresF
    cases hl : lookupClass sF P.parent with
    | some c => rw [hl] at hresF; cases hresF
    | none =>
      rw [hl] at hresF
      simp only [Bool.false_eq_true, if_false] at hresF
      injection hresF with _ h
      exact h.symm
  refine ⟨?_, ?_, hgF⟩
  · unfold defClass
    rw [hnc]
    simp only [defClassLoop]
    rw [defClassScan_newClass, hscanT]
    simp only [defClassParent]
    rw [if_pos ⟨trivial, hparent⟩]
    have : getClass { E with newClass := nc } P.parent true sT = getClass E P.parent true sT := rfl
    rw [this, hresT]
    simp
  · unfold defClass
    rw [hnc]
    simp only [defClassLoop]
    rw [defClassScan_newClass, hscanF]
    simp only [defClassParent]
    rw [if_pos ⟨trivial, hparent⟩]
    have : getClass { E with newClass := nc } P.parent false sF = getClass E P.parent false sF := rfl
    rw [this, hresF]
    simp

theorem defClass_unresolved_parent_witness :
    lookupClass emptyVM exPreD.name = none ∧
    exPreD.parent.length ≠ 0 ∧
    defClassScan quietEnv exPreD true (emptyVM.clsList exPreD.name) none emptyVM =
      .next none emptyVM ∧
    getClass quietEnv exPreD.parent true emptyVM = .ok none emptyVM ∧
    defClass { quietEnv with newClass := fun _ _ _ => .fault } 1 exPreD true emptyVM =
      some (.raised ("unknown class " ++ exPreD.parent) emptyVM) ∧
    defClass { quietEnv with newClass := fun _ _ _ => .fault } 1 exPreD false emptyVM =
      some (.ok none emptyVM) ∧
    emptyVM = emptyVM :=
  ⟨rfl, by decide, rfl, rfl,
    defClass_unresolved_parent quietEnv 0 exPreD emptyVM emptyVM emptyVM emptyVM emptyVM
      rfl (by decide) rfl rfl rfl rfl (fun _ _ _ => .fault)⟩

/-- C5. Publication in `defClass`.  Take any pass of the loop of `defClass`
(in a well-formed directory whose chains the collaborators only grow, `top`
being the chain read at an earlier time) in which the scan and the parent
resolution fall through and `newClass` builds an object at address `a`,
leaving the state `s3`.  If the head of the chain is still the head of
`top`, the call returns the new class `N`, the chain of the name is `N`
followed by the chain that was present at publication time (so
`N.m_nextClass` is the old head and the head is `N`), the other chains are
as they were, `N` is the cached class of its slot, and `N` has the slot of
the old head (a newly allocated slot when there was none).  If the head
differs, nothing is published and the loop goes on from the state `s3`
itself, scanning the chain that is now present. -/
theorem defClass_publication (E : Env) (hE : E.Respects Mono) (P : PreClass) (f : Bool)
    (fuel : Nat) (top : List Class) (parent : Option Class) (s : VM)
    (hs : ChainsOK s) (htop : top <:+ s.clsList P.name)
    (p1 : Option Class) (s1 : VM) (p2 : Option Class) (s2 : VM) (a : Nat) (s3 : VM)
    (hscan : defClassScan E P f top parent s = .next p1 s1)
    (hpar : defClassParent E P f p1 s1 = .next p2 s2)
    (hnew : E.newClass P p2 s2 = .ok a s3) :
    (top.head? = (s3.clsList P.name).head? →
      ∃ N t, defClassLoop E P f (fuel + 1) top parent s = some (.ok (some N) t) ∧
        N.addr = a ∧ N.preClass = P ∧ N.parent = p2.map Class.ref ∧
        t.clsList P.name = N :: s3.clsList P.name ∧
        (∀ n, n ≠ P.name → t.clsList n = s3.clsList n) ∧
        N.getCached t = some N ∧
        (∀ h ∈ (s3.clsList P.name).head?, N.m_cachedOffset = h.m_cachedOffset) ∧
        (s3.clsList P.name = [] → N.m_cachedOffset = E.allocKnownClass P.name)) ∧
    (top.head? ≠ (s3.clsList P.name).head? →
      defClassLoop E P f (fuel + 1) top parent s =
        defClassLoop E P f fuel (s3.clsList P.name) p2 s3) := by
  have h1 : Mono s s1 := by
    have := defClassScan_spec E Mono mono_refl (fun _ _ _ h1 h2 => mono_trans h1 h2) hE P f
      top parent s
    rw [hscan] at this
    exact this
  have h2 : Mono s1 s2 := by
    have := defClassParent_spec E Mono mono_refl hE P f p1 s1
    rw [hpar] at this
    exact this
  have h3 : Mono s s3 := mono_trans (mono_trans h1 h2) (hE.newClass_ok hnew)
  refine ⟨?_, ?_⟩
  · intro hhead
    have heq : top = s3.clsList P.name :=
      suffix_eq_of_head _ _ (htop.trans (h3.1 P.name)) hhead ((h3.2 hs) P.name).1
    refine ⟨(defClassPublish E P top ⟨a, P, p2.map Class.ref, 0⟩ s3).1,
      (defClassPublish E P top ⟨a, P, p2.map Class.ref, 0⟩ s3).2, ?_, rfl, rfl, rfl, ?_, ?_, ?_,
      ?_, ?_⟩
    · simp only [defClassLoop, hscan, hpar, hnew]
      rw [if_neg (not_not.mpr hhead)]
    · rw [← heq]
      simp [defClassPublish, Class.setCached]
    · intro n hn
      simp [defClassPublish, Class.setCached, Function.update_apply, hn]
    · simp [defClassPublish, Class.setCached, Class.getCached]
    · intro h hh
      rw [← heq] at hh
      cases top with
      | nil => cases hh
      | cons t rest =>
        simp only [List.head?_cons, Option.mem_def, Option.some.injEq] at hh
        subst hh
        rfl
    · intro hnil
      rw [← heq] at hnil
      subst hnil
      rfl
  · intro hhead
    simp only [defClassLoop, hscan, hpar, hnew]
    rw [if_pos hhead]

theorem defClass_publication_witness :
    ChainsOK emptyVM ∧
    ([] : List Class) <:+ emptyVM.clsList exPreC.name ∧
    defClassScan quietEnv exPreC true [] none emptyVM = .next none emptyVM ∧
    defClassParent quietEnv exPreC true none emptyVM = .next none emptyVM ∧
    quietEnv.newClass exPreC none emptyVM = .ok 1 emptyVM ∧
    ((([] : List Class).head? = (emptyVM.clsList exPreC.name).head? →
      ∃ N t, defClassLoop quietEnv exPreC true (0 + 1) [] none emptyVM = some (.ok (some N) t) ∧
        N.addr = 1 ∧ N.preClass = exPreC ∧ N.parent = (none : Option Class).map Class.ref ∧
        t.clsList exPreC.name = N :: emptyVM.clsList exPreC.name ∧
        (∀ n, n ≠ exPreC.name → t.clsList n = emptyVM.clsList n) ∧
        N.getCached t = some N ∧
        (∀ h ∈ (emptyVM.clsList exPreC.name).head?, N.m_cachedOffset = h.m_cachedOffset) ∧
        (emptyVM.clsList exPreC.name = [] →
          N.m_cachedOffset = quietEnv.allocKnownClass exPreC.name)) ∧
    (([] : List Class).head? ≠ (emptyVM.clsList exPreC.name).head? →
      defClassLoop quietEnv exPreC true (0 + 1) [] none emptyVM =
        defClassLoop quietEnv exPreC true 0 (emptyVM.clsList exPreC.name) none emptyVM)) :=
  ⟨emptyVM_chainsOK, List.suffix_refl _, rfl, rfl, rfl,
    defClass_publication quietEnv (quietEnv_respects Mono mono_refl) exPreC true 0 [] none
      emptyVM emptyVM_chainsOK (List.suffix_refl _) none emptyVM none emptyVM 1 emptyVM
      rfl rfl rfl⟩

/-- Scanning a chain whose first part is passed over is scanning the rest. -/
theorem defClassScan_skipped (E : Env) (P : PreClass) (f : Bool) (rest : List Class)
    (l : List Class) (parent : Option Class) (s : VM) (p1 : Option Class) (s1 : VM)
    (h : Skipped E P f l parent s p1 s1) :
    defClassScan E P f (l ++ rest) parent s = defClassScan E P f rest p1 s1 := by
  induction h with
  | nil parent s => rfl
  | other c l parent s p1 s1 hc _ ih =>
    simp only [List.cons_append, defClassScan]
    rw [if_pos hc]
    exact ih
  | unavailable c l parent s p1 s1 p2 s2 hc hav _ ih =>
    simp only [List.cons_append, defClassScan]
    rw [if_neg (not_not.mpr hc), hav]
    exact ih

/-- C6. Chain scan in `defClass`: no class is cached for the name, and the
chain, read from the most to the least recently published class, is `l`
followed by `c` and `post`, where every class of `l` is passed over (built
from another template, or built from `P` and answered `AvailFalse`) and `c`
is built from `P`.  If `avail` answers `AvailTrue` for `c`, `defClass`
returns `c` and marks it cached in the state that `avail` left, whatever the
class constructor is (none is called).  If it answers `AvailFail`, the call
ends there: with `failIsFatal` it raises "unknown class", without it the
result is `NULL`. -/
theorem defClass_chain_scan (E : Env) (fuel : Nat) (P : PreClass) (f : Bool) (s : VM)
    (l : List Class) (c : Class) (post : List Class) (p1 : Option Class) (s1 : VM)
    (hnc : lookupClass s P.name = none)
    (hchain : s.clsList P.name = l ++ c :: post)
    (hskip : Skipped E P f l none s p1 s1)
    (hc : c.preClass = P)
    (nc : PreClass → Option Class → VM → Outcome Nat) :
    (∀ p2 s2, E.avail c p1 f s1 = .ok (.AvailTrue, p2) s2 →
      defClass { E with newClass := nc } (fuel + 1) P f s =
        some (.ok (some c) (c.setCached s2))) ∧
    (∀ p2 s2, E.avail c p1 f s1 = .ok (.AvailFail, some p2) s2 → f = true →
      defClass { E with newClass := nc } (fuel + 1) P f s =
        some (.raised ("unknown class " ++ p2.name) s2)) ∧
    (∀ p2 s2, E.avail c p1 f s1 = .ok (.AvailFail, p2) s2 → f = false →
      defClass { E with newClass := nc } (fuel + 1) P f s = some (.ok none s2)) := by
  have hscan : defClassScan { E with newClass := nc } P f (s.clsList P.name) none s =
      defClassScan E P f (c :: post) p1 s1 := by
    rw [defClassScan_newClass, hchain, defClassScan_skipped E P f (c :: post) l none s p1 s1 hskip]
  refine ⟨?_, ?_, ?_⟩
  · intro p2 s2 hav
    unfold defClass
    rw [hnc]
    simp only [defClassLoop]
    rw [hscan]
    simp only [defClassScan]
    rw [if_neg (not_not.mpr hc), hav]
  · intro p2 s2 hav hf
    unfold defClass
    rw [hnc]
    simp only [defClassLoop]
    rw [hscan]
    simp only [defClassScan]
    rw [if_neg (not_not.mpr hc), hav, hf]
    simp
  · intro p2 s2 hav hf
    unfold defClass
    rw [hnc]
    simp only [defClassLoop]
    rw [hscan]
    simp only [defClassScan]
    rw [if_neg (not_not.mpr hc), hav, hf]
    simp

theorem defClass_chain_scan_witness :
    lookupClass exVMScan exPreC.name = none ∧
    exVMScan.clsList exPreC.name = [exCls7, exCls5] ++ exCls8 :: [] ∧
    exCls8.preClass = exPreC ∧
    pickyEnv.avail exCls8 none true exVMScan = .ok (.AvailTrue, none) exVMScan ∧
    defClass { pickyEnv with newClass := fun _ _ _ => .fault } (0 + 1) exPreC true exVMScan =
      some (.ok (some exCls8) (exCls8.setCached exVMScan)) :=
  ⟨rfl, rfl, rfl, rfl,
    (defClass_chain_scan pickyEnv 0 exPreC true exVMScan [exCls7, exCls5] exCls8 [] none
      exVMScan rfl rfl
      (Skipped.unavailable exCls7 [exCls5] none exVMScan none exVMScan none exVMScan rfl rfl
        (Skipped.other exCls5 [] none exVMScan none exVMScan (by decide)
          (Skipped.nil none exVMScan)))
      rfl (fun _ _ _ => .fault)).1 none exVMScan rfl⟩

/-! ## Relations kept by `mergeImpl` -/

theorem post_step {α : Type} {R : VM → VM → Prop} (ht : ∀ a b c, R a b → R b c → R a c)
    {s t : VM} (h : R s t) {r : Option (Outcome α)} (hr : Post R t r) : Post R s r := by
  rcases r with _ | ⟨a, x⟩ | ⟨m, x⟩ | _ <;> simp only [Post, Outcome.Post] at hr ⊢
  · exact ht _ _ _ h hr
  · exact ht _ _ _ h hr

theorem outcome_post_step {α : Type} {R : VM → VM → Prop} (ht : ∀ a b c, R a b → R b c → R a c)
    {s t : VM} (h : R s t) {r : Outcome α} (hr : r.Post R t) : r.Post R s := by
  rcases r with ⟨a, x⟩ | ⟨m, x⟩ | _ <;> simp only [Outcome.Post] at hr ⊢
  · exact ht _ _ _ h hr
  · exact ht _ _ _ h hr

/-- `defClass_spec`, as a postcondition. -/
theorem defClass_post (E : Env) (R : VM → VM → Prop) (hR : DefClassRel E R)
    (fuel : Nat) (P : PreClass) (f : Bool) (s : VM) (hs : ChainsOK s) :
    Post R s (defClass E fuel P f s) := by
  have := defClass_spec E R hR fuel P f s hs
  generalize defClass E fuel P f s = r at this ⊢
  rcases r with _ | ⟨a, x⟩ | ⟨m, x⟩ | _ <;> simp only [Post, Outcome.Post] at this ⊢
  · exact this.1
  · exact this

/-- The function loop of `mergeImpl` keeps `R`. -/
theorem mergeImplFuncs_post (E : Env) (R : VM → VM → Prop) (hR : MergeRel E R)
    (u : Nat) (uf : Bool) :
    ∀ (n ix : Nat) (s : VM), (uf = true → (s.units u).m_mergeState.uniqueFuncs = true) →
      (mergeImplFuncs E u uf n ix s).Post R s := by
  intro n
  induction n with
  | zero => intro ix s _; exact hR.refl s
  | succ n ih =>
    intro ix s huf
    simp only [mergeImplFuncs]
    rcases hobj : mergeableObj s u ix with _ | obj
    · simp [Outcome.Post]
    · cases obj <;> simp only [Outcome.Post]
      rename_i func
      cases uf with
      | true =>
        simp only [if_true]
        exact outcome_post_step hR.trans (hR.tcFunc s u ix func hobj (huf rfl))
          (ih _ _ (fun _ => huf rfl))
      | false =>
        simp only [Bool.false_eq_true, if_false]
        rcases hsc : E.setCachedFunc func s with ⟨r, t⟩ | ⟨m, t⟩ | _ <;> simp only []
        · exact outcome_post_step hR.trans (hR.env.setCachedFunc_ok hsc)
            (ih _ _ (fun h => by cases h))
        · exact hR.env.setCachedFunc_raised hsc

theorem unitStep_refl (a : Unit) : UnitStep a a :=
  ⟨rfl, rfl, rfl, rfl, rfl, rfl, rfl, Or.inl rfl, rfl, fun _ _ h => Or.inl h⟩

theorem unitStep_trans {a b c : Unit} (h1 : UnitStep a b) (h2 : UnitStep b c) : UnitStep a c where
  firstHoistableFunc := h2.firstHoistableFunc.trans h1.firstHoistableFunc
  firstHoistablePreClass := h2.firstHoistablePreClass.trans h1.firstHoistablePreClass
  firstMergeablePreClass := h2.firstMergeablePreClass.trans h1.firstMergeablePreClass
  mergeablesSize := h2.mergeablesSize.trans h1.mergeablesSize
  mainReturn_count := h2.mainReturn_count.trans h1.mainReturn_count
  cacheOffset := h2.cacheOffset.trans h1.cacheOffset
  cacheMask := h2.cacheMask.trans h1.cacheMask
  mergeState := by
    rcases h1.mergeState with e1 | e1 <;> rcases h2.mergeState with e2 | e2 <;> rw [e2, e1]
    · exact Or.inl rfl
    · exact Or.inr rfl
    · exact Or.inr rfl
    · exact Or.inr rfl
  length := h2.length.trans h1.length
  words := by
    intro ix w h
    rcases h2.words ix w h with hb | ⟨c1, p, hw, hb⟩
    · exact h1.words ix w hb
    · rcases h1.words ix _ hb with ha | ⟨c2, p2, hw2, _⟩
      · exact Or.inr ⟨c1, p, hw, ha⟩
      · cases hw2

theorem rewriteStep_refl (s : VM) : RewriteStep s s := ⟨rfl, fun _ => unitStep_refl _⟩

theorem rewriteStep_trans {a b c : VM} (h1 : RewriteStep a b) (h2 : RewriteStep b c) :
    RewriteStep a c := by
  refine ⟨?_, fun u => unitStep_trans (h1.2 u) (h2.2 u)⟩
  rw [h2.1, h1.1]

/-- A function entry that is found after the rewrite was there before it. -/
theorem rewriteStep_func {s t : VM} (h : RewriteStep s t) (u ix : Nat) (g : Func)
    (hg : mergeableObj t u ix = some (.func g)) : mergeableObj s u ix = some (.func g) := by
  rcases (h.2 u).words ix _ hg with ha | ⟨c, p, hw, _⟩
  · exact ha
  · cases hw

theorem setMergeState_rewriteStep (s : VM) (u : Nat) :
    RewriteStep s (setMergeState s u
      { (s.units u).m_mergeState with uniqueDefinedClasses := true }) := by
  refine ⟨rfl, ?_⟩
  intro u1
  unfold setMergeState
  simp only [Function.update_apply]
  by_cases hu : u1 = u
  · subst hu
    rw [if_pos rfl]
    exact ⟨rfl, rfl, rfl, rfl, rfl, rfl, rfl, Or.inr rfl, rfl, fun _ _ h => Or.inl h⟩
  · rw [if_neg hu]
    exact unitStep_refl _

theorem setMergeable_cls_rewriteStep (s : VM) (u ix : Nat) (c : Option Class) (p : PreClass)
    (hp : mergeableObj s u ix = some (.preClass p)) :
    RewriteStep s (setMergeable s u ix (.cls c)) := by
  refine ⟨rfl, ?_⟩
  intro u1
  unfold setMergeable
  simp only [Function.update_apply]
  by_cases hu : u1 = u
  · subst hu
    rw [if_pos rfl]
    refine ⟨rfl, rfl, rfl, rfl, rfl, rfl, rfl, Or.inl rfl, by simp, ?_⟩
    intro ix1 w h
    simp only [] at h
    rw [List.getElem?_set] at h
    by_cases hix : ix = ix1
    · rw [if_pos hix] at h
      subst hix
      split at h
      · injection h with h
        exact Or.inr ⟨c, p, h.symm, hp⟩
      · cases h
    · rw [if_neg hix] at h
      exact Or.inl h
  · rw [if_neg hu]
    exact unitStep_refl _

/-- A rewrite of an unmarked word that goes on has passed the two
assertions. -/
theorem asserted_some {α : Type} {c : Prop} [Decidable c] {x : Option α} {t : α}
    (h : (if c then x else none) = some t) : c ∧ x = some t := by
  split at h
  · rename_i hc; exact ⟨hc, h⟩
  · cases h

theorem asserted_some_some {α : Type} {c : Prop} [Decidable c] {x : Option (Option α)} {t : α}
    (h : (if c then x else some none) = some (some t)) : c ∧ x = some (some t) := by
  split at h
  · rename_i hc; exact ⟨hc, h⟩
  · cases h

theorem rewriteHoistable_rewriteStep (u : Nat) :
    ∀ (n ix : Nat) (s t : VM), rewriteHoistable u n ix s = some t → RewriteStep s t := by
  intro n
  induction n with
  | zero =>
    intro ix s t h
    simp only [rewriteHoistable, Option.some.injEq] at h
    subst h
    exact rewriteStep_refl s
  | succ n ih =>
    intro ix s t h
    simp only [rewriteHoistable] at h
    rcases hobj : mergeableObj s u ix with _ | obj
    · rw [hobj] at h; cases h
    · rw [hobj] at h
      cases obj <;> simp only [] at h <;> try cases h
      · replace h := (asserted_some h).2
        exact rewriteStep_trans (setMergeable_cls_rewriteStep s u ix _ _ hobj) (ih _ _ _ h)
      · exact ih _ _ _ h

theorem rewriteStmts_rewriteStep (u e : Nat) :
    ∀ (fuel ix : Nat) (s t : VM), rewriteStmts u e fuel ix s = some (some t) →
      RewriteStep s t := by
  intro fuel
  induction fuel with
  | zero => intro ix s t h; cases h
  | succ fuel ih =>
    intro ix s t h
    simp only [rewriteStmts] at h
    rcases hobj : mergeableObj s u ix with _ | obj
    · rw [hobj] at h; cases h
    · rw [hobj] at h
      cases obj <;> simp only [] at h <;> try cases h
      all_goals
        try (replace h := (asserted_some_some h).2; simp only [] at h)
        split at h
        · first
            | exact ih _ _ _ h
            | exact rewriteStep_trans (setMergeable_cls_rewriteStep s u ix _ _ hobj) (ih _ _ _ h)
        · simp only [Option.some.injEq] at h
          subst h
          first
            | exact rewriteStep_refl _
            | exact setMergeable_cls_rewriteStep s u ix _ _ hobj

theorem setMergeable_mergeState (s : VM) (u ix : Nat) (w : Mergeable) (u1 : Nat) :
    ((setMergeable s u ix w).units u1).m_mergeState = (s.units u1).m_mergeState := by
  unfold setMergeable
  simp only [Function.update_apply]
  split
  · rename_i h; rw [h]
  · rfl

theorem setMergeState_same (s : VM) (u : Nat) (m : MergeState) :
    ((setMergeState s u m).units u).m_mergeState = m := by
  simp [setMergeState]

/-- The first loop of the rewrite leaves every merge state alone. -/
theorem rewriteHoistable_mergeState (u : Nat) :
    ∀ (n ix : Nat) (s t : VM), rewriteHoistable u n ix s = some t →
      ∀ v, (t.units v).m_mergeState = (s.units v).m_mergeState := by
  intro n
  induction n with
  | zero =>
    intro ix s t h
    simp only [rewriteHoistable, Option.some.injEq] at h
    subst h
    exact fun _ => rfl
  | succ n ih =>
    intro ix s t h v
    simp only [rewriteHoistable] at h
    rcases hobj : mergeableObj s u ix with _ | obj
    · rw [hobj] at h; cases h
    · rw [hobj] at h
      cases obj <;> simp only [] at h <;> try cases h
      · replace h := (asserted_some h).2
        rw [ih _ _ _ h v, setMergeable_mergeState]
      · exact ih _ _ _ h v

/-- The second loop of the rewrite leaves every merge state alone. -/
theorem rewriteStmts_mergeState (u e : Nat) :
    ∀ (fuel ix : Nat) (s t : VM), rewriteStmts u e fuel ix s = some (some t) →
      ∀ v, (t.units v).m_mergeState = (s.units v).m_mergeState := by
  intro fuel
  induction fuel with
  | zero => intro ix s t h; cases h
  | succ fuel ih =>
    intro ix s t h v
    simp only [rewriteStmts] at h
    rcases hobj : mergeableObj s u ix with _ | obj
    · rw [hobj] at h; cases h
    · rw [hobj] at h
      cases obj <;> simp only [] at h <;> try cases h
      all_goals
        try (replace h := (asserted_some_some h).2; simp only [] at h)
        split at h
        · first
            | exact ih _ _ _ h v
            | rw [ih _ _ _ h v, setMergeable_mergeState]
        · simp only [Option.some.injEq] at h
          subst h
          first
            | rfl
            | exact setMergeable_mergeState _ _ _ _ _

/-- Setting the bit `UniqueDefinedClasses` of a unit that has the bit
`UniqueClasses` is a step of the rewrite for every merge state. -/
theorem setMergeState_udcStep (s : VM) (u : Nat)
    (h : (s.units u).m_mergeState.uniqueClasses = true) (v : Nat) :
    UdcStep (s.units v).m_mergeState
      ((setMergeState s u
        { (s.units u).m_mergeState with uniqueDefinedClasses := true }).units v).m_mergeState := by
  unfold setMergeState
  simp only [Function.update_apply]
  by_cases hv : v = u
  · subst hv
    rw [if_pos rfl]
    exact Or.inr ⟨h, rfl⟩
  · rw [if_neg hv]
    exact Or.inl rfl

/-- The rewrite under `UnitMergeKindDone` keeps `R`. -/
theorem mergeImplDone_post (E : Env) (R : VM → VM → Prop) (hR : MergeRel E R)
    (fuel u : Nat) (s : VM) : Post R s (mergeImplDone fuel u s : Option (Outcome PUnit)) := by
  unfold mergeImplDone
  simp only []
  split
  · rename_i hc
    rcases h1 : rewriteHoistable u _ _ (setMergeState s u _) with _ | s2
    · simp [Post, Outcome.Post]
    · simp only []
      rcases h2 : rewriteStmts u (s2.units u).m_mergeablesSize fuel
          (s2.units u).m_firstMergeablePreClass s2 with _ | _ | s3
      · simp [Post]
      · simp [Post, Outcome.Post]
      · simp only [Post, Outcome.Post]
        refine hR.rewrite _ _ (rewriteStep_trans
          (rewriteStep_trans (setMergeState_rewriteStep s u)
            (rewriteHoistable_rewriteStep u _ _ _ _ h1))
          (rewriteStmts_rewriteStep u _ _ _ _ _ h2)) ?_
        intro v
        rw [rewriteStmts_mergeState u _ _ _ _ _ h2 v, rewriteHoistable_mergeState u _ _ _ _ h1 v]
        exact setMergeState_udcStep s u hc.1 v
  · exact hR.refl s

theorem defClassRel_chainsOK {E : Env} {R : VM → VM → Prop} (hR : DefClassRel E R)
    {s t : VM} (h : R s t) (hs : ChainsOK s) : ChainsOK t := (hR.mono s t h).2 hs

/-- The loop over the hoistable classes keeps `R`. -/
theorem mergeImplHoistable_post (E : Env) (R : VM → VM → Prop) (hR : DefClassRel E R)
    (fuel u : Nat) :
    ∀ (n ix : Nat) (redo : Bool) (s : VM), ChainsOK s →
      Post R s (mergeImplHoistable E fuel u n ix redo s) := by
  intro n
  induction n with
  | zero => intro ix redo s _; exact hR.refl s
  | succ n ih =>
    intro ix redo s hs
    simp only [mergeImplHoistable]
    rcases hobj : mergeableObj s u ix with _ | obj
    · exact True.intro
    · cases obj <;> (try simp only []) <;> try exact True.intro
      · rename_i pre
        have hd := defClass_post E R hR fuel pre false s hs
        generalize defClass E fuel pre false s = r at hd ⊢
        rcases r with _ | ⟨_ | c, x⟩ | ⟨m, x⟩ | _ <;> (try simp only []) <;> try exact True.intro
        · exact post_step hR.trans hd (ih _ _ _ (defClassRel_chainsOK hR hd hs))
        · exact post_step hR.trans hd (ih _ _ _ (defClassRel_chainsOK hR hd hs))
        · exact hd
      · rename_i c
        cases c with
        | none => exact True.intro
        | some cls =>
          simp only []
          have hset := hR.setCached cls s s (hR.refl s) (Or.inr ⟨u, ix, hobj⟩)
          cases cls.parent with
          | none =>
            simp only []
            exact post_step hR.trans hset (ih _ _ _ (defClassRel_chainsOK hR hset hs))
          | some parent =>
            simp only []
            by_cases hp : s.tcClass parent.m_cachedOffset = none
            · rw [if_pos hp]; exact ih _ _ _ hs
            · rw [if_neg hp]
              exact post_step hR.trans hset (ih _ _ _ (defClassRel_chainsOK hR hset hs))

/-- The second pass over the hoistable classes keeps `R`. -/
theorem mergeImplRedo_post (E : Env) (R : VM → VM → Prop) (hR : DefClassRel E R)
    (fuel u : Nat) :
    ∀ (n ix : Nat) (s : VM), ChainsOK s → Post R s (mergeImplRedo E fuel u n ix s) := by
  intro n
  induction n with
  | zero => intro ix s _; exact hR.refl s
  | succ n ih =>
    intro ix s hs
    simp only [mergeImplRedo]
    rcases hobj : mergeableObj s u ix with _ | obj
    · exact True.intro
    · cases obj <;> (try simp only []) <;> try exact True.intro
      · rename_i pre
        have hd := defClass_post E R hR fuel pre true s hs
        generalize defClass E fuel pre true s = r at hd ⊢
        rcases r with _ | ⟨c, x⟩ | ⟨m, x⟩ | _ <;> (try simp only []) <;> try exact True.intro
        · exact post_step hR.trans hd (ih _ _ (defClassRel_chainsOK hR hd hs))
        · exact hd
      · rename_i c
        cases c with
        | none => exact True.intro
        | some cls =>
          simp only []
          have hd := defClass_post E R hR fuel cls.preClass true s hs
          generalize defClass E fuel cls.preClass true s = r at hd ⊢
          rcases r with _ | ⟨c, x⟩ | ⟨m, x⟩ | _ <;> (try simp only []) <;> try exact True.intro
          · exact post_step hR.trans hd (ih _ _ (defClassRel_chainsOK hR hd hs))
          · exact hd

theorem nextObj_some {s : VM} {u ix : Nat} {obj : Mergeable} {k : UnitMergeKind}
    (h : nextObj s u ix = some (obj, k)) : mergeableObj s u ix = some obj ∧ kindOf obj = some k := by
  simp only [nextObj] at h
  generalize mergeableObj s u ix = x at h ⊢
  rcases x with _ | o
  · simp at h
  · simp only [] at h
    generalize hk : kindOf o = y at h
    rcases y with _ | k1
    · simp at h
    · simp only [Option.some.injEq, Prod.mk.injEq] at h
      obtain ⟨rfl, rfl⟩ := h
      exact ⟨rfl, hk⟩

/-- The walk over the mergeables, with the calls of `mergeImpl` on included
units, keeps `R`. -/
theorem mergeImpl_walk_post (E : Env) (R : VM → VM → Prop) (hR : MergeRel E R) :
    ∀ (fuel : Nat),
      (∀ u ix obj s, ChainsOK s → Post R s (mergeImplClass E u fuel ix obj s)) ∧
      (∀ u ix obj s, nextObj s u ix = some (obj, .UnitMergeKindUniqueDefinedClass) →
        ChainsOK s → Post R s (mergeImplUnique E u fuel ix obj s)) ∧
      (∀ u ix obj s, ChainsOK s → Post R s (mergeImplDefine E u fuel ix obj s)) ∧
      (∀ u ix obj s, ChainsOK s → Post R s (mergeImplGlobal E u fuel ix obj s)) ∧
      (∀ u ix obj s, ChainsOK s → Post R s (mergeImplReq E u fuel ix obj s)) ∧
      (∀ u ix obj k s, nextObj s u ix = some (obj, k) →
        ChainsOK s → Post R s (mergeImplSwitch E u fuel ix obj k s)) ∧
      (∀ u s, ChainsOK s → Post R s (mergeImpl E fuel u s)) := by
  intro fuel
  induction fuel with
  | zero =>
    refine ⟨?_, ?_, ?_, ?_, ?_, ?_, ?_⟩ <;> intros <;> exact True.intro
  | succ fuel ih =>
    obtain ⟨ihC, ihU, ihD, ihG, ihQ, ihS, ihM⟩ := ih
    refine ⟨?_, ?_, ?_, ?_, ?_, ?_, ?_⟩
    · intro u ix obj s hs
      simp only [mergeImplClass]
      cases obj <;> (try simp only []) <;> try exact True.intro
      rename_i pre
      have hd := defClass_post E R hR.toDefClassRel fuel pre true s hs
      generalize defClass E fuel pre true s = r at hd ⊢
      rcases r with _ | ⟨c, x⟩ | ⟨m, x⟩ | _ <;> (try simp only []) <;> try exact True.intro
      · have hx := defClassRel_chainsOK hR.toDefClassRel hd hs
        refine post_step hR.trans hd ?_
        rcases hn : nextObj x u (ix + 1) with _ | ⟨obj1, k⟩ <;> (try simp only []) <;>
          try exact True.intro
        split
        · exact ihC _ _ _ _ hx
        · exact ihS _ _ _ _ _ hn hx
      · exact hd
    · intro u ix obj s hn0 hs
      have hobj := (nextObj_some hn0).1
      simp only [mergeImplUnique]
      cases obj <;> (try simp only []) <;> try exact True.intro
      rename_i c
      cases c <;> (try simp only []) <;> try exact True.intro
      rename_i cls
      have hnext : ∀ x, R s x → Post R s
          (match nextObj (cls.setCached x) u (ix + 1) with
          | none => some Outcome.fault
          | some (obj1, k) =>
            if k = UnitMergeKind.UnitMergeKindUniqueDefinedClass then
              mergeImplUnique E u fuel (ix + 1) obj1 (cls.setCached x)
            else mergeImplSwitch E u fuel (ix + 1) obj1 k (cls.setCached x)) := by
        intro x hx
        have hx2 : R s (cls.setCached x) := hR.setCached cls s x hx (Or.inr ⟨u, ix, hobj⟩)
        have hok := defClassRel_chainsOK hR.toDefClassRel hx2 hs
        refine post_step hR.trans hx2 ?_
        rcases hn : nextObj (cls.setCached x) u (ix + 1) with _ | ⟨obj1, k⟩ <;>
          (try simp only []) <;> try exact True.intro
        split
        · rename_i hc
          exact ihU _ _ _ _ (by rw [hn, hc]) hok
        · exact ihS _ _ _ _ _ hn hok
      rcases hav : E.avail cls none true s with ⟨⟨av, other⟩, x⟩ | ⟨m, x⟩ | _ <;>
        (try simp only []) <;> try exact True.intro
      · have hx : R s x := hR.env.avail_ok hav
        cases av with
        | AvailFalse => exact True.intro
        | AvailTrue => exact hnext x hx
        | AvailFail =>
          cases other with
          | none => exact True.intro
          | some o => exact hx
      · exact hR.env.avail_raised hav
    · intro u ix obj s hs
      simp only [mergeImplDefine]
      split <;> try exact True.intro
      rename_i name v _
      have hx : R s (mergeCns v._count v name s) := hR.mergeCns _ _ _ _
      have hok := defClassRel_chainsOK hR.toDefClassRel hx hs
      refine post_step hR.trans hx ?_
      rcases hn : nextObj (mergeCns v._count v name s) u (ix + 3) with _ | ⟨obj1, k⟩ <;>
        (try simp only []) <;> try exact True.intro
      split
      · exact ihD _ _ _ _ hok
      · exact ihS _ _ _ _ _ hn hok
    · intro u ix obj s hs
      simp only [mergeImplGlobal]
      split <;> try exact True.intro
      rename_i name v _
      have hx : R s (setGlobal v name s) := hR.setGlobal _ _ _
      have hok := defClassRel_chainsOK hR.toDefClassRel hx hs
      refine post_step hR.trans hx ?_
      rcases hn : nextObj (setGlobal v name s) u (ix + 3) with _ | ⟨obj1, k⟩ <;>
        (try simp only []) <;> try exact True.intro
      split
      · exact ihG _ _ _ _ hok
      · exact ihS _ _ _ _ _ hn hok
    · intro u ix obj s hs
      simp only [mergeImplReq]
      cases obj <;> (try simp only []) <;> try exact True.intro
      rename_i kq unit
      have hnext : ∀ x, R s x → Post R s
          (match nextObj x u (ix + 1) with
          | none => some Outcome.fault
          | some (obj1, k) =>
            match k with
            | .UnitMergeKindReq _ => mergeImplReq E u fuel (ix + 1) obj1 x
            | _ => mergeImplSwitch E u fuel (ix + 1) obj1 k x) := by
        intro x hx
        have hok := defClassRel_chainsOK hR.toDefClassRel hx hs
        refine post_step hR.trans hx ?_
        rcases hn : nextObj x u (ix + 1) with _ | ⟨obj1, k⟩ <;>
          (try simp only []) <;> try exact True.intro
        split
        · exact ihQ _ _ _ _ hok
        · exact ihS _ _ _ _ _ hn hok
      by_cases hfl : s.tcFlags (s.units unit).m_cacheOffset &&& (s.units unit).m_cacheMask = 0
      · rw [if_pos hfl]
        have h1 := hR.tcFlags s (s.units unit).m_cacheOffset (s.units unit).m_cacheMask
        have hok1 := defClassRel_chainsOK hR.toDefClassRel h1 hs
        have hm := ihM unit _ hok1
        generalize mergeImpl E fuel unit _ = r at hm ⊢
        rcases r with _ | ⟨c, x⟩ | ⟨m, x⟩ | _ <;> (try simp only []) <;> try exact True.intro
        · have hx : R s x := hR.trans _ _ _ h1 hm
          by_cases hmo : (x.units unit).isMergeOnly = false
          · rw [if_pos hmo]
            rcases hinv : E.invokeFunc unit x with ⟨r2, y⟩ | ⟨m, y⟩ | _ <;>
              (try simp only []) <;> try exact True.intro
            · exact hnext y (hR.trans _ _ _ hx (hR.env.invokeFunc_ok hinv))
            · exact hR.trans _ _ _ hx (hR.env.invokeFunc_raised hinv)
          · rw [if_neg hmo]
            exact hnext x hx
        · exact hR.trans _ _ _ h1 hm
      · rw [if_neg hfl]
        exact hnext s (hR.refl s)
    · intro u ix obj k s hn hs
      simp only [mergeImplSwitch]
      cases k <;> simp only []
      · exact ihC _ _ _ _ hs
      · exact ihU _ _ _ _ hn hs
      · exact ihD _ _ _ _ hs
      · exact ihG _ _ _ _ hs
      · exact ihQ _ _ _ _ hs
      · split
        · exact mergeImplDone_post E R hR fuel u s
        · exact True.intro
    · intro u s hs
      simp only [mergeImpl]
      split
      · exact True.intro
      · have hf := mergeImplFuncs_post E R hR u (s.units u).m_mergeState.uniqueFuncs
          ((s.units u).m_firstHoistablePreClass - (s.units u).m_firstHoistableFunc)
          (s.units u).m_firstHoistableFunc s (fun h => h)
        generalize mergeImplFuncs E u _ _ _ s = r at hf ⊢
        rcases r with ⟨c, s1⟩ | ⟨m, s1⟩ | _ <;> (try simp only []) <;> try exact True.intro
        · have hs1 := defClassRel_chainsOK hR.toDefClassRel hf hs
          refine post_step hR.trans hf ?_
          split
          · have hh := mergeImplHoistable_post E R hR.toDefClassRel fuel u
              ((s1.units u).m_firstMergeablePreClass - (s1.units u).m_firstHoistablePreClass)
              (s1.units u).m_firstHoistablePreClass false s1 hs1
            generalize mergeImplHoistable E fuel u _ _ false s1 = r at hh ⊢
            rcases r with _ | ⟨redo, s2⟩ | ⟨m, s2⟩ | _ <;> (try simp only []) <;>
              try exact True.intro
            · have hs2 := defClassRel_chainsOK hR.toDefClassRel hh hs1
              refine post_step hR.trans hh ?_
              split
              · exact hR.refl s2
              · split
                · exact mergeImplRedo_post E R hR.toDefClassRel fuel u _ _ s2 hs2
                · rcases hn : nextObj s2 u (s1.units u).m_firstMergeablePreClass with
                    _ | ⟨obj1, k⟩ <;> (try simp only []) <;> try exact True.intro
                  exact ihS _ _ _ _ _ hn hs2
            · exact hh
          · rcases hn : nextObj s1 u (s1.units u).m_firstHoistablePreClass with
              _ | ⟨obj1, k⟩ <;> (try simp only []) <;> try exact True.intro
            exact ihS _ _ _ _ _ hn hs1
        · exact hf

theorem post_endsIn {α : Type} {R : VM → VM → Prop} {s : VM} {r : Option (Outcome α)}
    (h : Post R s r) {t : VM} (he : EndsIn r t) : R s t := by
  rcases r with _ | ⟨a, x⟩ | ⟨m, x⟩ | _ <;> simp only [EndsIn] at he
  · subst he; exact h
  · subst he; exact h

/-- A step that leaves the chains and the class slots alone is a step of
monotonic publication. -/
theorem published_of_eq (s t : VM) (h1 : t.clsList = s.clsList) (h2 : t.tcClass = s.tcClass) :
    Published s t := by
  refine ⟨⟨fun n => by rw [h1], fun hs n => by rw [h1]; exact hs n⟩, fun off h => by rw [h2]; exact h⟩

theorem published_trans {a b c : VM} (h1 : Published a b) (h2 : Published b c) :
    Published a c :=
  ⟨mono_trans h1.1 h2.1, fun off h => h2.2 off (h1.2 off h)⟩

theorem setCached_published (c : Class) (s : VM) : Published s (c.setCached s) := by
  refine ⟨setCached_mono c s, ?_⟩
  intro off h
  simp only [Class.setCached, Function.update_apply]
  split
  · simp
  · exact h

/-- `mergeCns` touches the constant slots, the constant table and the
warnings only. -/
theorem mergeCns_frame (off : Nat) (v : TypedValue) (name : String) (s : VM) :
    (mergeCns off v name s).clsList = s.clsList ∧
    (mergeCns off v name s).tcClass = s.tcClass ∧
    (mergeCns off v name s).tcFunc = s.tcFunc ∧
    (mergeCns off v name s).units = s.units ∧
    (mergeCns off v name s).tcFlags = s.tcFlags ∧
    (mergeCns off v name s).globals = s.globals ∧
    (mergeCns off v name s).m_cachedFuncOffset = s.m_cachedFuncOffset := by
  unfold mergeCns insertCns raise_warning
  cases h2 : s.constants name <;> by_cases h1 : (s.tcCns off).m_type = DataType.KindOfUninit <;>
    simp [h1]

/-- Publishing a fresh class keeps the publication monotonic. -/
theorem defClassPublish_published (E : Env) (P : PreClass) (N : Class) (s : VM)
    (hs : ChainsOK s) (hf : ∀ d ∈ s.clsList P.name, d.addr ≠ N.addr) :
    Published s (defClassPublish E P (s.clsList P.name) N s).2 := by
  refine ⟨defClassPublish_mono E P N s hs hf, ?_⟩
  intro off h
  simp only [defClassPublish, Class.setCached, Function.update_apply]
  split
  · simp
  · exact h

/-- Monotonic publication is kept by everything that `mergeImpl` does, when
the collaborators keep it and `newClass` allocates fresh objects. -/
theorem mergeRel_published (E : Env) (hE : E.Respects Published) (hF : E.Fresh) :
    MergeRel E Published where
  refl := fun s => published_of_eq s s rfl rfl
  trans := fun _ _ _ h1 h2 => published_trans h1 h2
  mono := fun _ _ h => h.1
  env := hE
  fresh := hF
  setCached := setCached_of_all (fun _ _ _ h1 h2 => published_trans h1 h2) (setCached_published)
  publish := publish_of_all E (fun _ _ _ h1 h2 => published_trans h1 h2) <| by
    intro P N s hs hf
    refine ⟨defClassPublish_mono E P N s hs hf, ?_⟩
    intro off h
    simp only [defClassPublish, Class.setCached, Function.update_apply]
    split
    · simp
    · exact h
  tcFunc := fun s _ _ _ _ _ => published_of_eq s _ rfl rfl
  mergeCns := by
    intro off v name s
    exact published_of_eq _ _ (mergeCns_frame off v name s).1 (mergeCns_frame off v name s).2.1
  setGlobal := fun _ _ s => published_of_eq s _ rfl rfl
  tcFlags := fun s _ _ => published_of_eq s _ rfl rfl
  rewrite := by
    intro s t h _
    apply published_of_eq
    · rw [h.1]
    · rw [h.1]

/-- The collaborators of `pickyEnv` leave the state as it is. -/
theorem pickyEnv_respects (R : VM → VM → Prop) (hr : ∀ s, R s s) : pickyEnv.Respects R where
  avail_ok := by
    intro c p f s r t h
    simp only [pickyEnv] at h
    split at h <;> cases h <;> exact hr _
  avail_raised := by
    intro c p f s m t h
    simp only [pickyEnv] at h
    split at h <;> cases h
  invokeHandler_ok := by intro n s r t h; cases h; exact hr _
  invokeHandler_raised := by intro n s m t h; cases h
  newClass_ok := by intro p c s a t h; cases h; exact hr _
  newClass_raised := by intro p c s m t h; cases h
  setCachedFunc_ok := by intro f s r t h; cases h; exact hr _
  setCachedFunc_raised := by intro f s m t h; cases h
  invokeFunc_ok := by intro u s r t h; cases h; exact hr _
  invokeFunc_raised := by intro u s m t h; cases h
  lookupIncludeRoot_ok := by intro n k u s r t h; cases h; exact hr _
  lookupIncludeRoot_raised := by intro n k u s m t h; cases h
  mergePreConsts := by intro u s; exact hr _

theorem pickyEnv_fresh : pickyEnv.Fresh := by
  intro p c s a t h d hd
  cases h
  exact freshAddr_fresh _ d hd

theorem exVMScan_chainsOK : ChainsOK exVMScan := by
  intro n
  simp only [exVMScan, emptyVM, Function.update_apply]
  split
  · decide
  · exact ⟨List.nodup_nil, fun c hc => by cases hc⟩

/-- C8. Monotonic publication: in a well-formed directory, with collaborators
that themselves publish monotonically, take any call of `defClass` (any
template, any flag) or any replay by `mergeImpl` (any unit) that reaches a
final state `t`, by returning a class, by returning `NULL` or by raising.
Then for every name the chain before the call is a suffix of the chain after
it; so a chain that was not empty is not empty afterwards and every class
that was linked is still linked; and every class slot of the target cache
that held a class before the call holds one after it: no empty value has
been stored over it. -/
theorem monotonic_publication (E : Env) (hE : E.Respects Published) (hF : E.Fresh)
    (s : VM) (hs : ChainsOK s) (fuel : Nat) (t : VM)
    (hend : (∃ P f, EndsIn (defClass E fuel P f s) t) ∨ (∃ u, EndsIn (mergeImpl E fuel u s) t)) :
    (∀ n, s.clsList n <:+ t.clsList n) ∧
    (∀ n, s.clsList n ≠ [] → t.clsList n ≠ []) ∧
    (∀ n c, c ∈ s.clsList n → c ∈ t.clsList n) ∧
    (∀ off, s.tcClass off ≠ none → t.tcClass off ≠ none) := by
  have hR := mergeRel_published E hE hF
  have hp : Published s t := by
    rcases hend with ⟨P, f, h⟩ | ⟨u, h⟩
    · exact post_endsIn (defClass_post E Published hR.toDefClassRel fuel P f s hs) h
    · exact post_endsIn ((mergeImpl_walk_post E Published hR fuel).2.2.2.2.2.2 u s hs) h
  refine ⟨hp.1.1, ?_, fun n c hc => (hp.1.1 n).subset hc, hp.2⟩
  intro n hne hnil
  have := hp.1.1 n
  rw [hnil] at this
  exact hne (List.suffix_nil.mp this)

theorem monotonic_publication_witness :
    ChainsOK exVMScan ∧
    ((∃ P f, EndsIn (defClass pickyEnv 1 P f exVMScan) (exCls8.setCached exVMScan)) ∨
      (∃ u, EndsIn (mergeImpl pickyEnv 1 u exVMScan) (exCls8.setCached exVMScan))) ∧
    ((∀ n, exVMScan.clsList n <:+ (exCls8.setCached exVMScan).clsList n) ∧
    (∀ n, exVMScan.clsList n ≠ [] → (exCls8.setCached exVMScan).clsList n ≠ []) ∧
    (∀ n c, c ∈ exVMScan.clsList n → c ∈ (exCls8.setCached exVMScan).clsList n) ∧
    (∀ off, exVMScan.tcClass off ≠ none → (exCls8.setCached exVMScan).tcClass off ≠ none)) :=
  ⟨exVMScan_chainsOK, Or.inl ⟨exPreC, true, rfl⟩,
    monotonic_publication pickyEnv
      (pickyEnv_respects Published (fun s => published_of_eq s s rfl rfl)) pickyEnv_fresh
      exVMScan exVMScan_chainsOK 1 (exCls8.setCached exVMScan) (Or.inl ⟨exPreC, true, rfl⟩)⟩

/-! ## Relations kept by `initialMerge` and `merge` -/

theorem loadFunc_units (E : Env) (f : Func) (s : VM) : (loadFunc E f s).2.units = s.units := by
  unfold loadFunc
  simp only []
  split <;> rfl

theorem loadFunc_post (E : Env) (R : VM → VM → Prop) (hR : UnitRel E R) (f : Func) (s : VM) :
    R s (loadFunc E f s).2 := by
  unfold loadFunc
  simp only []
  split
  · rename_i h
    exact hR.funcOffset s _ h
  · exact hR.refl s

theorem initialMergeFuncs_post (E : Env) (R : VM → VM → Prop) (hR : UnitRel E R) (u : Nat) :
    ∀ (n ix : Nat) (a : Bool) (s : VM) (r : Bool) (t : VM),
      initialMergeFuncs E u n ix a s = some (r, t) → R s t := by
  intro n
  induction n with
  | zero =>
    intro ix a s r t h
    simp only [initialMergeFuncs, Option.some.injEq, Prod.mk.injEq] at h
    rw [← h.2]
    exact hR.refl s
  | succ n ih =>
    intro ix a s r t h
    simp only [initialMergeFuncs] at h
    rcases hobj : mergeableObj s u ix with _ | obj
    · rw [hobj] at h; cases h
    · rw [hobj] at h
      cases obj <;> simp only [] at h <;> try cases h
      rename_i f
      have h1 := loadFunc_post E R hR f s
      have hw : mergeableObj (loadFunc E f s).2 u ix = some (.func f) := by
        unfold mergeableObj
        rw [loadFunc_units]
        exact hobj
      have h2 : R (loadFunc E f s).2
          (setMergeable (loadFunc E f s).2 u ix (.func (loadFunc E f s).1)) :=
        hR.setFunc (loadFunc E f s).2 u ix f hw
      exact hR.trans _ _ _ (hR.trans _ _ _ h1 h2) (ih _ _ _ _ _ h)

/-- The first merge of a unit, with the first merges of the units it
includes, keeps `R`. -/
theorem initialMerge_post (E : Env) (R : VM → VM → Prop) (hR : UnitRel E R) :
    ∀ (fuel : Nat),
      (∀ u e ix a s, Post R s (initialMergeStmts E u e fuel ix a s)) ∧
      (∀ u s, (s.units u).m_mergeState = UnitMergeStateMerging →
        Post R s (initialMergeBody E fuel u s)) ∧
      (∀ u s, Post R s (initialMerge E fuel u s)) := by
  intro fuel
  induction fuel with
  | zero => refine ⟨?_, ?_, ?_⟩ <;> intros <;> exact True.intro
  | succ fuel ih =>
    obtain ⟨ihS, ihB, ihI⟩ := ih
    refine ⟨?_, ?_, ?_⟩
    · intro u e ix a s
      simp only [initialMergeStmts]
      by_cases hlt : ix < e
      · rw [if_pos hlt]
        rcases hobj : mergeableObj s u ix with _ | obj
        · exact True.intro
        · cases obj <;> (try simp only []) <;> try exact True.intro
          · exact ihS _ _ _ _ _
          · rename_i name
            rcases hw : mergeableObj s u (ix + 1) with _ | w
            · exact True.intro
            · cases w <;> (try simp only []) <;> try exact True.intro
              exact post_step hR.trans (hR.setValue s u (ix + 1) _ _ hw) (ihS _ _ _ _ _)
          · rename_i name
            rcases hw : mergeableObj s u (ix + 1) with _ | w
            · exact True.intro
            · cases w <;> (try simp only []) <;> try exact True.intro
              exact post_step hR.trans (hR.setValue s u (ix + 1) _ _ hw) (ihS _ _ _ _ _)
          · rename_i k name
            rcases hl : E.lookupIncludeRoot name k u s with ⟨_ | unit, s1⟩ | ⟨m, s1⟩ | _ <;>
              (try simp only []) <;> try exact True.intro
            · have h1 : R s s1 := hR.env.lookupIncludeRoot_ok hl
              have hi := ihI unit s1
              generalize initialMerge E fuel unit s1 = r at hi ⊢
              rcases r with _ | ⟨c, x⟩ | ⟨m, x⟩ | _ <;> (try simp only []) <;>
                try exact True.intro
              · have h2 : R s x := hR.trans _ _ _ h1 hi
                exact post_step hR.trans (hR.setReq s x u ix _ _ _ hobj h2) (ihS _ _ _ _ _)
              · exact hR.trans _ _ _ h1 hi
            · exact hR.env.lookupIncludeRoot_raised hl
      · rw [if_neg hlt]
        exact hR.refl s
    · intro u s hmg
      simp only [initialMergeBody]
      rcases hf : initialMergeFuncs E u _ 1 E.RepoAuthoritative s with _ | ⟨a, s1⟩
      · exact True.intro
      · simp only []
        have h1 : R s s1 := initialMergeFuncs_post E R hR u _ _ _ _ _ _ hf
        split
        · exact hR.setMerged s _ u _ _ hmg (hR.trans _ _ _ h1 hR.env.mergePreConsts)
        · rcases initialMergeHoistable s1 u _ _ true with _ | b
          · exact True.intro
          · simp only []
            split
            · have hs := ihS u (s1.units u).m_mergeablesSize
                (s1.units u).m_firstMergeablePreClass b s1
              generalize initialMergeStmts E u _ fuel _ b s1 = r at hs ⊢
              rcases r with _ | ⟨c, x⟩ | ⟨m, x⟩ | _ <;> (try simp only []) <;>
                try exact True.intro
              · exact hR.setMerged s _ u _ _ hmg (hR.trans _ _ _ h1 hs)
              · exact hR.trans _ _ _ h1 hs
            · exact hR.setMerged s _ u _ _ hmg h1
    · intro u s
      simp only [initialMerge]
      split
      · rename_i hun
        exact post_step hR.trans (hR.setMerging s u hun)
          (ihB _ _ (setMergeState_same s u _))
      · exact hR.refl s

/-- `merge` keeps `R`. -/
theorem merge_post (E : Env) (R : VM → VM → Prop) (hR : UnitRel E R) (fuel u : Nat)
    (s : VM) (hs : ChainsOK s) : Post R s (merge E fuel u s) := by
  unfold merge
  split
  · have hi := (initialMerge_post E R hR fuel).2.2 u s
    generalize initialMerge E fuel u s = r at hi ⊢
    rcases r with _ | ⟨c, x⟩ | ⟨m, x⟩ | _ <;> (try simp only []) <;> try exact True.intro
    · exact post_step hR.trans hi
        ((mergeImpl_walk_post E R hR.toMergeRel fuel).2.2.2.2.2.2 u x (defClassRel_chainsOK hR.toDefClassRel hi hs))
    · exact hi
  · exact (mergeImpl_walk_post E R hR.toMergeRel fuel).2.2.2.2.2.2 u s hs

theorem started_refl (s : VM) : Started s s := ⟨mono_refl s, fun _ h => h⟩

theorem started_trans {a b c : VM} (h1 : Started a b) (h2 : Started b c) : Started a c :=
  ⟨mono_trans h1.1 h2.1, fun u h => h2.2 u (h1.2 u h)⟩

/-- A step that leaves the chains and the merge states alone. -/
theorem started_of_eq (s t : VM) (h1 : t.clsList = s.clsList)
    (h2 : ∀ u, (t.units u).m_mergeState = (s.units u).m_mergeState) : Started s t := by
  refine ⟨⟨fun n => by rw [h1], fun hs n => by rw [h1]; exact hs n⟩, ?_⟩
  intro u h
  rw [h2 u]
  exact h

/-- A store of a merge state other than `Unmerged` brings no unit back to
`Unmerged`. -/
theorem started_setMergeState (s : VM) (u : Nat) (m : MergeState)
    (hm : m ≠ UnitMergeStateUnmerged) : Started s (setMergeState s u m) := by
  refine ⟨mono_refl s, ?_⟩
  intro u1 h
  unfold setMergeState
  simp only [Function.update_apply]
  split
  · exact hm
  · exact h

/-- Never going back to `Unmerged` is kept by everything that `merge` does,
when the collaborators keep it and `newClass` allocates fresh objects. -/
theorem unitRel_started (E : Env) (hE : E.Respects Started) (hF : E.Fresh) :
    UnitRel E Started where
  refl := started_refl
  trans := fun _ _ _ h1 h2 => started_trans h1 h2
  mono := fun _ _ h => h.1
  env := hE
  fresh := hF
  setCached := setCached_of_all (fun _ _ _ h1 h2 => started_trans h1 h2)
    (fun c s => started_of_eq s _ rfl (fun _ => rfl))
  publish := publish_of_all E (fun _ _ _ h1 h2 => started_trans h1 h2)
    fun P N s hs hf => ⟨defClassPublish_mono E P N s hs hf, fun _ h => h⟩
  tcFunc := fun s _ _ _ _ _ => started_of_eq s _ rfl (fun _ => rfl)
  mergeCns := by
    intro off v name s
    refine started_of_eq _ _ (mergeCns_frame off v name s).1 ?_
    intro u
    rw [(mergeCns_frame off v name s).2.2.2.1]
  setGlobal := fun _ _ s => started_of_eq s _ rfl (fun _ => rfl)
  tcFlags := fun s _ _ => started_of_eq s _ rfl (fun _ => rfl)
  rewrite := by
    intro s t h _
    refine ⟨⟨fun n => by rw [h.1], fun hs n => by rw [h.1]; exact hs n⟩, ?_⟩
    intro u hu
    rcases (h.2 u).mergeState with e | e <;> rw [e]
    · exact hu
    · intro hc
      have := congrArg MergeState.uniqueDefinedClasses hc
      simp [UnitMergeStateUnmerged] at this
  setMerging := fun s u _ => started_setMergeState s u _ (by decide)
  setMerged := fun _ s u _ _ _ h =>
    started_trans h (started_setMergeState s u _ (by simp [UnitMergeStateUnmerged]))
  setFunc := fun s u ix _ _ =>
    started_of_eq s _ rfl (fun u1 => setMergeable_mergeState s u ix _ u1)
  setReq := fun _ s u ix _ _ _ _ h =>
    started_trans h (started_of_eq s _ rfl (fun u1 => setMergeable_mergeState s u ix _ u1))
  setValue := fun s u ix _ _ _ =>
    started_of_eq s _ rfl (fun u1 => setMergeable_mergeState s u ix _ u1)
  funcOffset := fun s _ _ => started_of_eq s _ rfl (fun _ => rfl)

/-! ## The first merge -/

theorem setMergeState_obj (s : VM) (u : Nat) (m : MergeState) (u1 ix : Nat) :
    mergeableObj (setMergeState s u m) u1 ix = mergeableObj s u1 ix := by
  unfold mergeableObj setMergeState
  simp only [Function.update_apply]
  split
  · rename_i h; rw [h]
  · rfl

theorem setMergeable_obj_ne (s : VM) (u ix : Nat) (w : Mergeable) (j : Nat) (h : j ≠ ix) :
    mergeableObj (setMergeable s u ix w) u j = mergeableObj s u j := by
  unfold mergeableObj setMergeable
  simp only [Function.update_same]
  rw [List.getElem?_set]
  rw [if_neg (fun hc => h hc.symm)]

/-- The fields of a unit that the function loop of `initialMerge` leaves
alone. -/
theorem setMergeable_layout (s : VM) (u ix : Nat) (w : Mergeable) :
    ((setMergeable s u ix w).units u).m_firstHoistablePreClass =
      (s.units u).m_firstHoistablePreClass ∧
    ((setMergeable s u ix w).units u).m_firstMergeablePreClass =
      (s.units u).m_firstMergeablePreClass ∧
    ((setMergeable s u ix w).units u).m_mergeablesSize = (s.units u).m_mergeablesSize ∧
    ((setMergeable s u ix w).units u).m_mainReturn_count = (s.units u).m_mainReturn_count := by
  simp [setMergeable]

/-- The function loop of `initialMerge` ends when the words it visits are
functions; it leaves the layout and the other words of the array alone. -/
theorem initialMergeFuncs_total (E : Env) (u : Nat) :
    ∀ (n ix : Nat) (a : Bool) (s : VM),
      (∀ j, ix ≤ j → j < ix + n → ∃ f, mergeableObj s u j = some (.func f)) →
      ∃ r t, initialMergeFuncs E u n ix a s = some (r, t) ∧
        (t.units u).m_firstHoistablePreClass = (s.units u).m_firstHoistablePreClass ∧
        (t.units u).m_firstMergeablePreClass = (s.units u).m_firstMergeablePreClass ∧
        (t.units u).m_mergeablesSize = (s.units u).m_mergeablesSize ∧
        (t.units u).m_mainReturn_count = (s.units u).m_mainReturn_count ∧
        ∀ j, (j < ix ∨ ix + n ≤ j) → mergeableObj t u j = mergeableObj s u j := by
  intro n
  induction n with
  | zero =>
    intro ix a s _
    exact ⟨a, s, rfl, rfl, rfl, rfl, rfl, fun _ _ => rfl⟩
  | succ n ih =>
    intro ix a s h
    obtain ⟨f, hf⟩ := h ix (Nat.le_refl _) (by omega)
    simp only [initialMergeFuncs, hf]
    have hobj : ∀ j, j ≠ ix →
        mergeableObj (setMergeable (loadFunc E f s).2 u ix (.func (loadFunc E f s).1)) u j =
          mergeableObj s u j := by
      intro j hj
      rw [setMergeable_obj_ne _ _ _ _ _ hj]
      unfold mergeableObj
      rw [loadFunc_units]
    have hlay := setMergeable_layout (loadFunc E f s).2 u ix (.func (loadFunc E f s).1)
    rw [loadFunc_units] at hlay
    obtain ⟨r, t, hrt, h1, h2, h3, h4, h5⟩ := ih (ix + 1)
      (if a = true then f.attrUnique else a)
      (setMergeable (loadFunc E f s).2 u ix (.func (loadFunc E f s).1))
      (by
        intro j hj1 hj2
        rw [hobj j (by omega)]
        exact h j (by omega) (by omega))
    refine ⟨r, t, hrt, h1.trans hlay.1, h2.trans hlay.2.1, h3.trans hlay.2.2.1,
      h4.trans hlay.2.2.2, ?_⟩
    intro j hj
    rw [h5 j (by omega), hobj j (by omega)]

/-- The loop of `initialMerge` over the hoistable classes ends when the
words it visits are templates. -/
theorem initialMergeHoistable_total (s : VM) (u : Nat) :
    ∀ (n ix : Nat) (a : Bool),
      (∀ j, ix ≤ j → j < ix + n → ∃ p, mergeableObj s u j = some (.preClass p)) →
      ∃ b, initialMergeHoistable s u n ix a = some b := by
  intro n
  induction n with
  | zero => intro ix a _; exact ⟨a, rfl⟩
  | succ n ih =>
    intro ix a h
    obtain ⟨p, hp⟩ := h ix (Nat.le_refl _) (by omega)
    simp only [initialMergeHoistable, hp]
    exact ih (ix + 1) _ (fun j hj1 hj2 => h j (by omega) (by omega))

/-- Every normal end of the body of the first merge leaves the unit
`Merged`, with the bit `Merging` clear. -/
theorem initialMergeBody_merged (E : Env) (fuel u : Nat) (s0 : VM) (r : PUnit) (t : VM)
    (h : initialMergeBody E fuel u s0 = some (.ok r t)) :
    (t.units u).m_mergeState.merged = true ∧ (t.units u).m_mergeState.merging = false := by
  cases fuel with
  | zero => cases h
  | succ fuel =>
    simp only [initialMergeBody] at h
    rcases hf : initialMergeFuncs E u ((s0.units u).m_firstHoistablePreClass - 1) 1
      E.RepoAuthoritative s0 with _ | ⟨a, s1⟩
    · rw [hf] at h; cases h
    · rw [hf] at h
      simp only [] at h
      split at h
      · injection h with h
        injection h with _ h
        rw [← h, setMergeState_same]
        exact ⟨rfl, rfl⟩
      · rcases hh : initialMergeHoistable s1 u
          ((s1.units u).m_firstMergeablePreClass - (s1.units u).m_firstHoistablePreClass)
          (s1.units u).m_firstHoistablePreClass true with _ | b
        · rw [hh] at h; cases h
        · rw [hh] at h
          simp only [] at h
          split at h
          · rcases hs : initialMergeStmts E u (s1.units u).m_mergeablesSize fuel
              (s1.units u).m_firstMergeablePreClass b s1 with _ | ⟨c, x⟩ | ⟨m, x⟩ | _ <;>
              rw [hs] at h <;> simp only [] at h <;> try cases h
            rw [setMergeState_same]
            exact ⟨rfl, rfl⟩
          · injection h with h
            injection h with _ h
            rw [← h, setMergeState_same]
            exact ⟨rfl, rfl⟩

theorem setMergeState_layout (s : VM) (u : Nat) (m : MergeState) :
    ((setMergeState s u m).units u).m_firstHoistablePreClass =
      (s.units u).m_firstHoistablePreClass ∧
    ((setMergeState s u m).units u).m_firstMergeablePreClass =
      (s.units u).m_firstMergeablePreClass ∧
    ((setMergeState s u m).units u).m_mergeablesSize = (s.units u).m_mergeablesSize ∧
    ((setMergeState s u m).units u).m_mainReturn_count = (s.units u).m_mainReturn_count := by
  simp [setMergeState]

/-- The first merge of a unit that is not merge-only (or of any unit outside
the repo-authoritative mode) returns, with two units of fuel, when the words
of its function range are functions and the words of its hoistable range are
templates. -/
theorem initialMerge_total (E : Env) (fuel u : Nat) (s : VM)
    (hun : (s.units u).m_mergeState = UnitMergeStateUnmerged)
    (hfuncs : ∀ j, 1 ≤ j → j < (s.units u).m_firstHoistablePreClass →
      ∃ f, mergeableObj s u j = some (.func f))
    (hpre : ∀ j, (s.units u).m_firstHoistablePreClass ≤ j →
      j < (s.units u).m_firstMergeablePreClass → ∃ p, mergeableObj s u j = some (.preClass p))
    (hmode : E.RepoAuthoritative = false ∨ (s.units u).isMergeOnly = false) :
    ∃ t, initialMerge E (fuel + 2) u s = some (.ok PUnit.unit t) := by
  simp only [initialMerge]
  rw [if_pos hun]
  simp only [initialMergeBody]
  have hlay := setMergeState_layout s u UnitMergeStateMerging
  obtain ⟨r, s1, hrt, h1, h2, h3, h4, h5⟩ := initialMergeFuncs_total E u
    (((setMergeState s u UnitMergeStateMerging).units u).m_firstHoistablePreClass - 1) 1
    E.RepoAuthoritative (setMergeState s u UnitMergeStateMerging)
    (by
      intro j hj1 hj2
      rw [setMergeState_obj]
      rw [hlay.1] at hj2
      exact hfuncs j hj1 (by omega))
  rw [hrt]
  simp only []
  by_cases hra : E.RepoAuthoritative = false
  · rw [if_pos hra]
    exact ⟨_, rfl⟩
  · rw [if_neg hra]
    have hmo : (s.units u).isMergeOnly = false := by
      rcases hmode with h | h
      · exact absurd h hra
      · exact h
    obtain ⟨b, hb⟩ := initialMergeHoistable_total s1 u
      ((s1.units u).m_firstMergeablePreClass - (s1.units u).m_firstHoistablePreClass)
      (s1.units u).m_firstHoistablePreClass true
      (by
        intro j hj1 hj2
        rw [h1, hlay.1] at hj1
        rw [h1, h2, hlay.1, hlay.2.1] at hj2
        rw [h5 j (by rw [hlay.1]; omega), setMergeState_obj]
        exact hpre j hj1 (by omega))
    rw [hb]
    simp only []
    have hmo1 : (s1.units u).isMergeOnly = false := by
      unfold Unit.isMergeOnly at hmo ⊢
      rw [h4, hlay.2.2.2]
      exact hmo
    rw [hmo1]
    exact ⟨_, rfl⟩

/-- C9. One-shot merge state machine.  `initialMerge` on a unit that is not
`Unmerged` (so `Merging` or `Merged`) returns with the state it was given:
no slot is allocated, no word rewritten, no state changed.  On an `Unmerged`
unit it first makes the unit `Merging` and runs the body of the first merge
from that state; every normal end of it leaves the bit `Merged` set and
`Merging` clear, and it does return when the unit is well laid out and not
merge-only (or the mode is not repo-authoritative).  `merge` calls
`initialMerge` only while `Merged` is clear, and on a unit that is not
`Unmerged` it is `mergeImpl` alone.  With collaborators that never put a
unit back to `Unmerged`, every end of a `merge` of the unit leaves it not
`Unmerged`, so every later `merge` of it is `mergeImpl` alone: over a
sequence of calls the body of the first merge runs once. -/
theorem merge_state_machine (E : Env) (fuel u : Nat) (s : VM) :
    ((s.units u).m_mergeState ≠ UnitMergeStateUnmerged →
      initialMerge E (fuel + 1) u s = some (.ok PUnit.unit s)) ∧
    ((s.units u).m_mergeState = UnitMergeStateUnmerged →
      initialMerge E (fuel + 1) u s =
        initialMergeBody E fuel u (setMergeState s u UnitMergeStateMerging) ∧
      ((setMergeState s u UnitMergeStateMerging).units u).m_mergeState =
        UnitMergeStateMerging ∧
      ∀ r t, initialMerge E (fuel + 1) u s = some (.ok r t) →
        (t.units u).m_mergeState.merged = true ∧ (t.units u).m_mergeState.merging = false) ∧
    ((s.units u).m_mergeState = UnitMergeStateUnmerged →
      (∀ j, 1 ≤ j → j < (s.units u).m_firstHoistablePreClass →
        ∃ f, mergeableObj s u j = some (.func f)) →
      (∀ j, (s.units u).m_firstHoistablePreClass ≤ j →
        j < (s.units u).m_firstMergeablePreClass →
        ∃ p, mergeableObj s u j = some (.preClass p)) →
      (E.RepoAuthoritative = false ∨ (s.units u).isMergeOnly = false) →
      ∃ t, initialMerge E (fuel + 2) u s = some (.ok PUnit.unit t)) ∧
    ((s.units u).m_mergeState.merged = true → merge E fuel u s = mergeImpl E fuel u s) ∧
    ((s.units u).m_mergeState.merged = false →
      merge E fuel u s =
        match initialMerge E fuel u s with
        | some (.ok _ s1) => mergeImpl E fuel u s1
        | other => other) ∧
    ((s.units u).m_mergeState ≠ UnitMergeStateUnmerged →
      merge E (fuel + 1) u s = mergeImpl E (fuel + 1) u s) ∧
    (E.Respects Started → E.Fresh → ChainsOK s →
      ∀ t, EndsIn (merge E (fuel + 1) u s) t →
        (t.units u).m_mergeState ≠ UnitMergeStateUnmerged ∧
        ∀ fuel2, merge E (fuel2 + 1) u t = mergeImpl E (fuel2 + 1) u t) := by
  have hnoop : ∀ (f : Nat) (x : VM), (x.units u).m_mergeState ≠ UnitMergeStateUnmerged →
      initialMerge E (f + 1) u x = some (.ok PUnit.unit x) := by
    intro f x h
    simp only [initialMerge]
    rw [if_neg h]
  have hskip : ∀ (f : Nat) (x : VM), (x.units u).m_mergeState ≠ UnitMergeStateUnmerged →
      merge E (f + 1) u x = mergeImpl E (f + 1) u x := by
    intro f x h
    unfold merge
    split
    · rw [hnoop f x h]
    · rfl
  refine ⟨hnoop fuel s, ?_, initialMerge_total E fuel u s, ?_, ?_, hskip fuel s, ?_⟩
  · intro hun
    have heq : initialMerge E (fuel + 1) u s =
        initialMergeBody E fuel u (setMergeState s u UnitMergeStateMerging) := by
      simp only [initialMerge]
      rw [if_pos hun]
    refine ⟨heq, setMergeState_same _ _ _, ?_⟩
    intro r t h
    rw [heq] at h
    exact initialMergeBody_merged E fuel u _ r t h
  · intro h
    unfold merge
    rw [if_neg (by rw [h]; simp)]
  · intro h
    unfold merge
    rw [if_pos h]
  · intro hE hF hs t hend
    have hp := merge_post E Started (unitRel_started E hE hF) (fuel + 1) u s hs
    have hst : (t.units u).m_mergeState ≠ UnitMergeStateUnmerged := by
      by_cases hun : (s.units u).m_mergeState = UnitMergeStateUnmerged
      · have hm : merge E (fuel + 1) u s =
            match initialMergeBody E fuel u (setMergeState s u UnitMergeStateMerging) with
            | some (.ok _ s1) => mergeImpl E (fuel + 1) u s1
            | other => other := by
          unfold merge
          rw [if_pos (by rw [hun]; rfl)]
          simp only [initialMerge]
          rw [if_pos hun]
        have hR := unitRel_started E hE hF
        have hs0 : ChainsOK (setMergeState s u UnitMergeStateMerging) := hs
        have hb := (initialMerge_post E Started hR fuel).2.1 u
          (setMergeState s u UnitMergeStateMerging) (setMergeState_same s u _)
        have hpost : Post Started (setMergeState s u UnitMergeStateMerging)
            (merge E (fuel + 1) u s) := by
          rw [hm]
          generalize initialMergeBody E fuel u (setMergeState s u UnitMergeStateMerging) = r
            at hb ⊢
          rcases r with _ | ⟨c, x⟩ | ⟨m, x⟩ | _ <;> (try simp only []) <;>
            try exact True.intro
          · exact post_step hR.trans hb
              ((mergeImpl_walk_post E Started hR.toMergeRel (fuel + 1)).2.2.2.2.2.2 u x
                (defClassRel_chainsOK hR.toDefClassRel hb hs0))
          · exact hb
        have := post_endsIn hpost hend
        exact this.2 u (by rw [setMergeState_same]; decide)
      · exact (post_endsIn hp hend).2 u hun
    exact ⟨hst, fun fuel2 => hskip fuel2 t hst⟩

theorem exVMUnit_chainsOK : ChainsOK exVMUnit := by
  intro n
  exact ⟨List.nodup_nil, fun c hc => by cases hc⟩

theorem merge_state_machine_witness :
    (exVMUnit.units 1).m_mergeState = UnitMergeStateUnmerged ∧
    initialMerge quietEnv (3 + 1) 1 exVMUnit =
      initialMergeBody quietEnv 3 1 (setMergeState exVMUnit 1 UnitMergeStateMerging) ∧
    ChainsOK exVMUnit ∧
    (∀ t, EndsIn (merge quietEnv (3 + 1) 1 exVMUnit) t →
      (t.units 1).m_mergeState ≠ UnitMergeStateUnmerged ∧
      ∀ fuel2, merge quietEnv (fuel2 + 1) 1 t = mergeImpl quietEnv (fuel2 + 1) 1 t) :=
  ⟨rfl, ((merge_state_machine quietEnv 3 1 exVMUnit).2.1 rfl).1, exVMUnit_chainsOK,
    (merge_state_machine quietEnv 3 1 exVMUnit).2.2.2.2.2.2
      (quietEnv_respects Started started_refl) quietEnv_fresh exVMUnit_chainsOK⟩

/-! ## Publication of the functions -/

theorem keepFuncs_refl (F : Func → Prop) (s : VM) : KeepFuncs F s s :=
  ⟨mono_refl s, fun h => ⟨h, fun v => v⟩⟩

theorem keepFuncs_trans {F : Func → Prop} {a b c : VM} (h1 : KeepFuncs F a b)
    (h2 : KeepFuncs F b c) : KeepFuncs F a c :=
  ⟨mono_trans h1.1 h2.1, fun h =>
    ⟨(h2.2 (h1.2 h).1).1, fun v => (h2.2 (h1.2 h).1).2 ((h1.2 h).2 v)⟩⟩

/-- A step that leaves the chains, the units and the function slots alone. -/
theorem keepFuncs_of_eq (F : Func → Prop) (s t : VM) (h1 : t.clsList = s.clsList)
    (h2 : t.units = s.units) (h3 : t.tcFunc = s.tcFunc) : KeepFuncs F s t := by
  refine ⟨⟨fun n => by rw [h1], fun hs n => by rw [h1]; exact hs n⟩, ?_⟩
  intro hu
  refine ⟨?_, ?_⟩
  · intro u ix g hg
    unfold mergeableObj at hg
    rw [h2] at hg
    exact hu u ix g hg
  · intro hv f hf
    rw [h3]
    exact hv f hf

/-- The functions of `F` stay unique and visible through everything that
`mergeImpl` does, when the collaborators keep them so and `newClass`
allocates fresh objects. -/
theorem mergeRel_keepFuncs (E : Env) (F : Func → Prop) (hE : E.Respects (KeepFuncs F))
    (hF : E.Fresh) : MergeRel E (KeepFuncs F) where
  refl := keepFuncs_refl F
  trans := fun _ _ _ h1 h2 => keepFuncs_trans h1 h2
  mono := fun _ _ h => h.1
  env := hE
  fresh := hF
  setCached := setCached_of_all (fun _ _ _ h1 h2 => keepFuncs_trans h1 h2)
    (fun c s => keepFuncs_of_eq F s _ rfl rfl rfl)
  publish := publish_of_all E (fun _ _ _ h1 h2 => keepFuncs_trans h1 h2) <| by
    intro P N s hs hf
    refine ⟨defClassPublish_mono E P N s hs hf, ?_⟩
    intro hu
    exact ⟨hu, fun v => v⟩
  tcFunc := by
    intro s u ix g hg _
    refine ⟨mono_refl s, ?_⟩
    intro hu
    refine ⟨hu, ?_⟩
    intro hv f hf
    simp only [Function.update_apply]
    split
    · rename_i heq
      rw [hu u ix g hg f hf heq.symm]
    · exact hv f hf
  mergeCns := by
    intro off v name s
    exact keepFuncs_of_eq F _ _ (mergeCns_frame off v name s).1
      (mergeCns_frame off v name s).2.2.2.1 (mergeCns_frame off v name s).2.2.1
  setGlobal := fun _ _ s => keepFuncs_of_eq F s _ rfl rfl rfl
  tcFlags := fun s _ _ => keepFuncs_of_eq F s _ rfl rfl rfl
  rewrite := by
    intro s t h _
    refine ⟨⟨fun n => by rw [h.1], fun hs n => by rw [h.1]; exact hs n⟩, ?_⟩
    intro hu
    refine ⟨?_, ?_⟩
    · intro u ix g hg
      exact hu u ix g (rewriteStep_func h u ix g hg)
    · intro hv f hf
      rw [h.1]
      exact hv f hf

/-- The function loop on the path of `UnitMergeStateUniqueFuncs` calls no
collaborator and only stores into function slots. -/
theorem mergeImplFuncs_unique_frame (E : Env) (u : Nat) :
    ∀ (n ix : Nat) (x : VM),
      mergeImplFuncs E u true n ix x = .fault ∨
      ∃ x1, mergeImplFuncs E u true n ix x = .ok PUnit.unit x1 ∧
        x1 = { x with tcFunc := x1.tcFunc } := by
  intro n
  induction n with
  | zero => intro ix x; exact Or.inr ⟨x, rfl, rfl⟩
  | succ n ih =>
    intro ix x
    simp only [mergeImplFuncs]
    rcases mergeableObj x u ix with _ | obj
    · exact Or.inl rfl
    · cases obj <;> (try simp only []) <;>
        try (first | exact Or.inl rfl | exact Or.inl True.intro)
      rename_i func
      simp only [if_true]
      rcases ih (ix + 1)
        { x with tcFunc := Function.update x.tcFunc func.m_cachedOffset (some func) } with
        h | ⟨x1, h1, h2⟩
      · exact Or.inl h
      · refine Or.inr ⟨x1, h1, ?_⟩
        rw [h2]

/-- After the function loop every function it visited is in its slot, and a
unique function that was in its slot still is. -/
theorem mergeImplFuncs_unique_visible (E : Env) (u : Nat) (F : Func → Prop) :
    ∀ (n ix : Nat) (x : VM) (r : PUnit) (x1 : VM), FuncSlotsUnique F x →
      (∀ j, ix ≤ j → j < ix + n → ∀ g, mergeableObj x u j = some (.func g) → F g) →
      mergeImplFuncs E u true n ix x = .ok r x1 →
      ∀ f, F f →
        (x.tcFunc f.m_cachedOffset = some f ∨
          ∃ j, ix ≤ j ∧ j < ix + n ∧ mergeableObj x u j = some (.func f)) →
        x1.tcFunc f.m_cachedOffset = some f := by
  intro n
  induction n with
  | zero =>
    intro ix x r x1 _ _ h f _ hv
    simp only [mergeImplFuncs] at h
    injection h with _ h
    subst h
    rcases hv with hv | ⟨j, h1, h2, _⟩
    · exact hv
    · omega
  | succ n ih =>
    intro ix x r x1 hu hin h f hf hv
    simp only [mergeImplFuncs] at h
    rcases hobj : mergeableObj x u ix with _ | obj
    · rw [hobj] at h; cases h
    · rw [hobj] at h
      cases obj <;> simp only [] at h <;> try cases h
      rename_i g
      simp only [if_true] at h
      have hg : F g := hin ix (Nat.le_refl _) (by omega) g hobj
      refine ih (ix + 1) _ r x1 ?_ ?_ h f hf ?_
      · intro u1 ix1 g1 hg1
        exact hu u1 ix1 g1 hg1
      · intro j hj1 hj2 g1 hg1
        exact hin j (by omega) (by omega) g1 hg1
      · rcases hv with hv | ⟨j, h1, h2, h3⟩
        · left
          simp only [Function.update_apply]
          split
          · rename_i heq
            rw [hu u ix g hobj f hf heq.symm]
          · exact hv
        · by_cases hj : j = ix
          · left
            subst hj
            rw [hobj] at h3
            injection h3 with h3
            injection h3 with h3
            subst h3
            simp
          · right
            exact ⟨j, by omega, by omega, h3⟩

/-- The function loop changes nothing when the functions it visits are
already in their slots. -/
theorem mergeImplFuncs_unique_idem (E : Env) (u : Nat) :
    ∀ (n ix : Nat) (x : VM),
      (∀ j, ix ≤ j → j < ix + n →
        ∃ f, mergeableObj x u j = some (.func f) ∧ x.tcFunc f.m_cachedOffset = some f) →
      mergeImplFuncs E u true n ix x = .ok PUnit.unit x := by
  intro n
  induction n with
  | zero => intro ix x _; rfl
  | succ n ih =>
    intro ix x h
    obtain ⟨f, hf, hv⟩ := h ix (Nat.le_refl _) (by omega)
    simp only [mergeImplFuncs, hf, if_true]
    have hx : ({ x with tcFunc := Function.update x.tcFunc f.m_cachedOffset (some f) } : VM)
        = x := by
      rw [← hv, Function.update_eq_self]
    rw [hx]
    exact ih (ix + 1) x (fun j h1 h2 => h j (by omega) (by omega))

/-- The words that the function loop visited were functions. -/
theorem mergeImplFuncs_unique_words (E : Env) (u : Nat) :
    ∀ (n ix : Nat) (x : VM) (r : PUnit) (x1 : VM),
      mergeImplFuncs E u true n ix x = .ok r x1 →
      ∀ j, ix ≤ j → j < ix + n → ∃ f, mergeableObj x u j = some (.func f) := by
  intro n
  induction n with
  | zero => intro ix x r x1 _ j h1 h2; omega
  | succ n ih =>
    intro ix x r x1 h j h1 h2
    simp only [mergeImplFuncs] at h
    rcases hobj : mergeableObj x u ix with _ | obj
    · rw [hobj] at h; cases h
    · rw [hobj] at h
      cases obj <;> simp only [] at h <;> try cases h
      rename_i g
      simp only [if_true] at h
      by_cases hj : j = ix
      · subst hj; exact ⟨g, hobj⟩
      · exact ih (ix + 1) _ r x1 h j (by omega) (by omega)

/-- C10. Function publication on replay, for a unit with the bit
`UniqueFuncs` whose published functions are unique (no other function entry
has one of their slots), in a well-formed directory, with collaborators that
keep unique functions visible.  However `mergeImpl` ends (normal completion,
the early return after `redoHoistable`, or a failure raised while a class is
defined), the cache slot of every published function `f` of the unit holds
`f`.  The functions are published first: the function loop calls no
collaborator and touches nothing but function slots, after it every function
is in its slot, and the rest of `mergeImpl` is `mergeImpl` run from that
state. -/
theorem function_publication (E : Env) (hF : E.Fresh) (u : Nat) (s : VM) (hs : ChainsOK s)
    (hE : E.Respects (KeepFuncs (IsTopFunc s u)))
    (huf : (s.units u).m_mergeState.uniqueFuncs = true)
    (hgu : FuncSlotsUnique (IsTopFunc s u) s) (fuel : Nat) :
    (∀ t, EndsIn (mergeImpl E fuel u s) t →
      ∀ f, IsTopFunc s u f → t.tcFunc f.m_cachedOffset = some f) ∧
    (∀ r s1,
      mergeImplFuncs E u true
        ((s.units u).m_firstHoistablePreClass - (s.units u).m_firstHoistableFunc)
        (s.units u).m_firstHoistableFunc s = .ok r s1 →
      s1 = { s with tcFunc := s1.tcFunc } ∧
      (∀ f, IsTopFunc s u f → s1.tcFunc f.m_cachedOffset = some f) ∧
      mergeImpl E fuel u s = mergeImpl E fuel u s1) := by
  have key : ∀ r s1,
      mergeImplFuncs E u true
        ((s.units u).m_firstHoistablePreClass - (s.units u).m_firstHoistableFunc)
        (s.units u).m_firstHoistableFunc s = .ok r s1 →
      s1 = { s with tcFunc := s1.tcFunc } ∧
      (∀ f, IsTopFunc s u f → s1.tcFunc f.m_cachedOffset = some f) ∧
      mergeImpl E fuel u s = mergeImpl E fuel u s1 := by
    intro r s1 h
    have hframe : s1 = { s with tcFunc := s1.tcFunc } := by
      rcases mergeImplFuncs_unique_frame E u
        ((s.units u).m_firstHoistablePreClass - (s.units u).m_firstHoistableFunc)
        (s.units u).m_firstHoistableFunc s with hf | ⟨x1, h1, h2⟩
      · rw [hf] at h; cases h
      · rw [h1] at h
        injection h with _ h
        rw [← h]
        exact h2
    have hvis : ∀ f, IsTopFunc s u f → s1.tcFunc f.m_cachedOffset = some f := by
      intro f hf
      refine mergeImplFuncs_unique_visible E u (IsTopFunc s u) _ _ s r s1 hgu ?_ h f hf ?_
      · intro j hj1 hj2 g hg
        exact ⟨j, hj1, by omega, hg⟩
      · obtain ⟨j, h1, h2, h3⟩ := hf
        exact Or.inr ⟨j, h1, by omega, h3⟩
    refine ⟨hframe, hvis, ?_⟩
    cases fuel with
    | zero => rfl
    | succ fuel =>
      have hunits : s1.units = s.units := by rw [hframe]
      have hobj : ∀ j, mergeableObj s1 u j = mergeableObj s u j := by
        intro j; unfold mergeableObj; rw [hunits]
      have hidem : mergeImplFuncs E u true
          ((s.units u).m_firstHoistablePreClass - (s.units u).m_firstHoistableFunc)
          (s.units u).m_firstHoistableFunc s1 = .ok PUnit.unit s1 := by
        apply mergeImplFuncs_unique_idem
        intro j hj1 hj2
        obtain ⟨f, hf⟩ := mergeImplFuncs_unique_words E u _ _ s r s1 h j hj1 hj2
        exact ⟨f, by rw [hobj]; exact hf, hvis f ⟨j, hj1, by omega, hf⟩⟩
      simp only [mergeImpl]
      rw [hunits, huf, h, hidem]
  refine ⟨?_, key⟩
  intro t hend f hf
  cases fuel with
  | zero => cases hend
  | succ fuel =>
    rcases mergeImplFuncs_unique_frame E u
      ((s.units u).m_firstHoistablePreClass - (s.units u).m_firstHoistableFunc)
      (s.units u).m_firstHoistableFunc s with hfault | ⟨s1, h1, h2⟩
    · simp only [mergeImpl] at hend
      rw [huf, hfault] at hend
      split at hend <;> cases hend
    · obtain ⟨hframe, hvis, heq⟩ := key PUnit.unit s1 h1
      rw [heq] at hend
      have hs1 : ChainsOK s1 := by
        intro n
        rw [hframe]
        exact hs n
      have hR := mergeRel_keepFuncs E (IsTopFunc s u) hE hF
      have hk := post_endsIn ((mergeImpl_walk_post E _ hR (fuel + 1)).2.2.2.2.2.2 u s1 hs1) hend
      have hgu1 : FuncSlotsUnique (IsTopFunc s u) s1 := by
        intro u1 ix g hg
        unfold mergeableObj at hg
        rw [hframe] at hg
        exact hgu u1 ix g hg
      exact (hk.2 hgu1).2 hvis f hf

theorem exVMMerged_obj (u ix : Nat) (g : Func)
    (h : mergeableObj exVMMerged u ix = some (.func g)) :
    u = 1 ∧ ((ix = 0 ∧ g = exFuncMain) ∨ (ix = 1 ∧ g = exFuncF1)) := by
  unfold mergeableObj exVMMerged at h
  simp only [Function.update_apply] at h
  by_cases hu : u = 1
  · refine ⟨hu, ?_⟩
    rw [if_pos hu] at h
    match ix, h with
    | 0, h => left; simp [exUnitMerged] at h; exact ⟨rfl, h.symm⟩
    | 1, h => right; simp [exUnitMerged] at h; exact ⟨rfl, h.symm⟩
    | 2, h => simp [exUnitMerged] at h
    | 3, h => simp [exUnitMerged] at h
    | n + 4, h => simp [exUnitMerged] at h
  · rw [if_neg hu] at h
    simp [emptyVM, emptyUnit] at h

theorem exVMMerged_topFunc (f : Func) (h : IsTopFunc exVMMerged 1 f) : f = exFuncF1 := by
  obtain ⟨ix, h1, h2, h3⟩ := h
  have h2 : ix < 2 := h2
  have h1 : 1 ≤ ix := h1
  rcases (exVMMerged_obj 1 ix f h3).2 with ⟨hix, _⟩ | ⟨_, hf⟩
  · omega
  · exact hf

theorem exVMMerged_unique : FuncSlotsUnique (IsTopFunc exVMMerged 1) exVMMerged := by
  intro u ix g hg f hf hoff
  rw [exVMMerged_topFunc f hf] at hoff ⊢
  rcases (exVMMerged_obj u ix g hg).2 with ⟨_, hg⟩ | ⟨_, hg⟩
  · rw [hg] at hoff
    simp [exFuncMain, exFuncF1] at hoff
  · exact hg

theorem exVMMerged_chainsOK : ChainsOK exVMMerged := by
  intro n
  exact ⟨List.nodup_nil, fun c hc => by cases hc⟩

theorem function_publication_witness :
    ChainsOK exVMMerged ∧
    (exVMMerged.units 1).m_mergeState.uniqueFuncs = true ∧
    FuncSlotsUnique (IsTopFunc exVMMerged 1) exVMMerged ∧
    EndsIn (mergeImpl quietEnv 3 1 exVMMerged) exVMPass1 ∧
    exVMPass1.clsList "D" = [] ∧
    IsTopFunc exVMMerged 1 exFuncF1 ∧
    (∀ f, IsTopFunc exVMMerged 1 f → exVMPass1.tcFunc f.m_cachedOffset = some f) :=
  ⟨exVMMerged_chainsOK, rfl, exVMMerged_unique, rfl, rfl, ⟨1, Nat.le_refl 1, by decide, rfl⟩,
    (function_publication quietEnv quietEnv_fresh 1 exVMMerged exVMMerged_chainsOK
      (quietEnv_respects _ (keepFuncs_refl _)) rfl exVMMerged_unique 3).1 exVMPass1 rfl⟩

/-! ## At most one class per template and context -/

theorem keepAtMostOne_refl (U : Class → VM → Prop) (s : VM) : KeepAtMostOne U s s :=
  ⟨⟨mono_refl s, fun _ h => h⟩, fun h => h⟩

theorem keepAtMostOne_trans {U : Class → VM → Prop} {a b c : VM} (h1 : KeepAtMostOne U a b)
    (h2 : KeepAtMostOne U b c) : KeepAtMostOne U a c :=
  ⟨⟨mono_trans h1.1.1 h2.1.1, fun d h => h2.1.2 d (h1.1.2 d h)⟩, fun h => h2.2 (h1.2 h)⟩

/-- A step that keeps the chains and keeps unavailable classes unavailable
keeps the directory with at most one available class per template. -/
theorem atMostOne_of_eq (U : Class → VM → Prop) (s t : VM) (h1 : t.clsList = s.clsList)
    (h2 : ∀ c, U c s → U c t) (h : AtMostOneAvailable U s) : AtMostOneAvailable U t := by
  intro n c hc d hd hpre hne
  rw [h1] at hc hd
  rcases h n c hc d hd hpre hne with hu | hu
  · exact Or.inl (h2 c hu)
  · exact Or.inr (h2 d hu)

/-- When the scan falls through, every class of the scanned chain that was
built from the template has been found unavailable. -/
theorem defClassScan_unavailable (E : Env) (U : Class → VM → Prop)
    (hE : E.Respects (StableUnavailable U))
    (hfalse : ∀ c p f s p1 t, E.avail c p f s = .ok (.AvailFalse, p1) t → U c t)
    (P : PreClass) (f : Bool) :
    ∀ (top : List Class) (parent : Option Class) (s : VM) (p1 : Option Class) (s1 : VM),
      defClassScan E P f top parent s = .next p1 s1 →
      ∀ d ∈ top, d.preClass = P → U d s1 := by
  intro top
  induction top with
  | nil => intro parent s p1 s1 _ d hd; cases hd
  | cons c rest ih =>
    intro parent s p1 s1 h d hd hp
    simp only [defClassScan] at h
    by_cases hc : c.preClass ≠ P
    · rw [if_pos hc] at h
      rcases List.mem_cons.mp hd with rfl | hd
      · exact absurd hp hc
      · exact ih parent s p1 s1 h d hd hp
    · rw [if_neg hc] at h
      rcases hav : E.avail c parent f s with ⟨⟨av, p2⟩, s2⟩ | ⟨m, s2⟩ | _
      · rw [hav] at h
        cases av with
        | AvailFalse =>
          simp only [] at h
          rcases List.mem_cons.mp hd with rfl | hd
          · have hst := defClassScan_spec E (StableUnavailable U)
              (fun s => ⟨mono_refl s, fun _ h => h⟩)
              (fun _ _ _ h1 h2 => ⟨mono_trans h1.1 h2.1, fun d h => h2.2 d (h1.2 d h)⟩)
              hE P f rest p2 s2
            rw [h] at hst
            exact hst.2 d (hfalse d parent f s p2 s2 hav)
          · exact ih p2 s2 p1 s1 h d hd hp
        | AvailTrue => simp only [] at h; cases h
        | AvailFail =>
          simp only [] at h
          split at h
          · split at h <;> cases h
          · cases h
      · rw [hav] at h; cases h
      · rw [hav] at h; cases h

theorem respects_imp {E : Env} {R S : VM → VM → Prop} (h : E.Respects R)
    (hRS : ∀ s t, R s t → S s t) : E.Respects S where
  avail_ok := fun e => hRS _ _ (h.avail_ok e)
  avail_raised := fun e => hRS _ _ (h.avail_raised e)
  invokeHandler_ok := fun e => hRS _ _ (h.invokeHandler_ok e)
  invokeHandler_raised := fun e => hRS _ _ (h.invokeHandler_raised e)
  newClass_ok := fun e => hRS _ _ (h.newClass_ok e)
  newClass_raised := fun e => hRS _ _ (h.newClass_raised e)
  setCachedFunc_ok := fun e => hRS _ _ (h.setCachedFunc_ok e)
  setCachedFunc_raised := fun e => hRS _ _ (h.setCachedFunc_raised e)
  invokeFunc_ok := fun e => hRS _ _ (h.invokeFunc_ok e)
  invokeFunc_raised := fun e => hRS _ _ (h.invokeFunc_raised e)
  lookupIncludeRoot_ok := fun e => hRS _ _ (h.lookupIncludeRoot_ok e)
  lookupIncludeRoot_raised := fun e => hRS _ _ (h.lookupIncludeRoot_raised e)
  mergePreConsts := hRS _ _ h.mergePreConsts

/-- The chains after a publication. -/
theorem defClassPublish_clsList (E : Env) (P : PreClass) (top : List Class) (N : Class)
    (s : VM) (n : String) :
    (defClassPublish E P top N s).2.clsList n =
      if n = P.name then (defClassPublish E P top N s).1 :: top else s.clsList n := by
  simp only [defClassPublish, Class.setCached, Function.update_apply]

/-- The loop of `defClass` keeps the directory with at most one available
class per template. -/
theorem defClassLoop_atMostOne (E : Env) (U : Class → VM → Prop)
    (hE : E.Respects (KeepAtMostOne U))
    (hset : ∀ (c d : Class) (s : VM), U d s → U d (c.setCached s))
    (hpub : ∀ (P : PreClass) (top : List Class) (N : Class) (s : VM) (d : Class),
      U d s → U d (defClassPublish E P top N s).2)
    (hfalse : ∀ c p f s p1 t, E.avail c p f s = .ok (.AvailFalse, p1) t → U c t)
    (P : PreClass) (f : Bool) :
    ∀ (fuel : Nat) (top : List Class) (parent : Option Class) (s : VM),
      ChainsOK s → top <:+ s.clsList P.name → AtMostOneAvailable U s →
      match defClassLoop E P f fuel top parent s with
      | some (.ok _ t) => AtMostOneAvailable U t
      | some (.raised _ t) => AtMostOneAvailable U t
      | _ => True := by
  have hES : E.Respects (StableUnavailable U) := respects_imp hE (fun _ _ h => h.1)
  have htr : ∀ a b c, KeepAtMostOne U a b → KeepAtMostOne U b c → KeepAtMostOne U a c :=
    fun _ _ _ h1 h2 => keepAtMostOne_trans h1 h2
  intro fuel
  induction fuel with
  | zero => intro top parent s _ _ _; simp [defClassLoop]
  | succ fuel ih =>
    intro top parent s hs htop hinv
    simp only [defClassLoop]
    have hscan := defClassScan_spec E (KeepAtMostOne U) (keepAtMostOne_refl U) htr hE P f
      top parent s
    rcases hsc : defClassScan E P f top parent s with
      ⟨⟨_ | c, t⟩ | ⟨m, t⟩ | _⟩ | ⟨p1, s1⟩ <;> rw [hsc] at hscan <;> simp only [] at hscan ⊢
    · exact hscan.2 hinv
    · obtain ⟨_, _, s0, hs0, rfl⟩ := hscan
      exact atMostOne_of_eq U s0 _ rfl (fun d hd => hset c d s0 hd) (hs0.2 hinv)
    · exact hscan.2 hinv
    · have hpar := defClassParent_spec E (KeepAtMostOne U) (keepAtMostOne_refl U) hE P f p1 s1
      rcases hpr : defClassParent E P f p1 s1 with
        ⟨⟨r, t⟩ | ⟨m, t⟩ | _⟩ | ⟨p2, s2⟩ <;> rw [hpr] at hpar <;> simp only [] at hpar ⊢
      · exact hpar.1.2 (hscan.2 hinv)
      · exact hpar.2 (hscan.2 hinv)
      · rcases hnc : E.newClass P p2 s2 with ⟨a, s3⟩ | ⟨m, s3⟩ | _ <;> simp only []
        · have h23 : KeepAtMostOne U s2 s3 := hE.newClass_ok hnc
          have hss3 : KeepAtMostOne U s s3 := htr _ _ _ (htr _ _ _ hscan hpar) h23
          have hok3 : ChainsOK s3 := hss3.1.1.2 hs
          have hinv3 : AtMostOneAvailable U s3 := hss3.2 hinv
          by_cases hhead : top.head? ≠ (s3.clsList P.name).head?
          · rw [if_pos hhead]
            exact ih (s3.clsList P.name) p2 s3 hok3 (List.suffix_refl _) hinv3
          · rw [if_neg hhead]
            have heq : top = s3.clsList P.name :=
              suffix_eq_of_head _ _ (htop.trans (hss3.1.1.1 P.name)) (not_not.mp hhead)
                (hok3 P.name).1
            have hun : ∀ d ∈ top, d.preClass = P →
                U d (defClassPublish E P top ⟨a, P, p2.map Class.ref, 0⟩ s3).2 := by
              intro d hd hp
              have h1 := defClassScan_unavailable E U hES hfalse P f top parent s p1 s1 hsc d
                hd hp
              exact hpub P top _ s3 d (h23.1.2 d (hpar.1.2 d h1))
            intro n c hc d hd hpre hne
            rw [defClassPublish_clsList] at hc hd
            by_cases hn : n = P.name
            · rw [if_pos hn] at hc hd
              rcases List.mem_cons.mp hc with rfl | hc <;>
                rcases List.mem_cons.mp hd with rfl | hd
              · exact absurd rfl hne
              · exact Or.inr (hun d hd hpre.symm)
              · exact Or.inl (hun c hc hpre)
              · rw [heq] at hc hd
                rcases hinv3 P.name c hc d hd hpre hne with hu | hu
                · exact Or.inl (hpub P top _ s3 c hu)
                · exact Or.inr (hpub P top _ s3 d hu)
            · rw [if_neg hn] at hc hd
              rcases hinv3 n c hc d hd hpre hne with hu | hu
              · exact Or.inl (hpub P top _ s3 c hu)
              · exact Or.inr (hpub P top _ s3 d hu)
        · exact (hE.newClass_raised hnc).2 ((htr _ _ _ hscan hpar).2 hinv)

/-- C7. At most one class per template and compatible context.  `U c s`
reads "the class `c` is not available in the context of the state `s`"; it
is any notion such that an answer `AvailFalse` of `avail` makes the class
unavailable, and an unavailable class stays unavailable through the calls of
the collaborators and through the two stores of `defClass`.  In a
well-formed directory whose chains the collaborators only grow: (1) whenever
a pass of the loop of `defClass` publishes a newly constructed class (the
head of the chain is found unchanged after `newClass`), every class built
from `P` in the chain present at publication time is unavailable; this
covers the passes that follow a change of the chain by a re-entrant call,
since `top`, `parent` and the state are arbitrary.  (2) `defClass` keeps the
invariant that no chain holds two different classes built from one template
that are both available, whatever way it ends, when the collaborators keep
it. -/
theorem defClass_at_most_one (E : Env) (U : Class → VM → Prop)
    (hE : E.Respects (KeepAtMostOne U))
    (hset : ∀ (c d : Class) (s : VM), U d s → U d (c.setCached s))
    (hpub : ∀ (P : PreClass) (top : List Class) (N : Class) (s : VM) (d : Class),
      U d s → U d (defClassPublish E P top N s).2)
    (hfalse : ∀ c p f s p1 t, E.avail c p f s = .ok (.AvailFalse, p1) t → U c t)
    (P : PreClass) (f : Bool) :
    (∀ (top : List Class) (parent : Option Class) (s : VM) (p1 : Option Class) (s1 : VM)
        (p2 : Option Class) (s2 : VM) (a : Nat) (s3 : VM),
      ChainsOK s → top <:+ s.clsList P.name →
      defClassScan E P f top parent s = .next p1 s1 →
      defClassParent E P f p1 s1 = .next p2 s2 →
      E.newClass P p2 s2 = .ok a s3 →
      top.head? = (s3.clsList P.name).head? →
      ∀ d ∈ s3.clsList P.name, d.preClass = P → U d s3) ∧
    (∀ (fuel : Nat) (s : VM), ChainsOK s → AtMostOneAvailable U s →
      ∀ t, EndsIn (defClass E fuel P f s) t → AtMostOneAvailable U t) := by
  have hES : E.Respects (StableUnavailable U) := respects_imp hE (fun _ _ h => h.1)
  have hrefl : ∀ s, StableUnavailable U s s := fun s => ⟨mono_refl s, fun _ h => h⟩
  have htr : ∀ a b c, StableUnavailable U a b → StableUnavailable U b c →
      StableUnavailable U a c :=
    fun _ _ _ h1 h2 => ⟨mono_trans h1.1 h2.1, fun d h => h2.2 d (h1.2 d h)⟩
  refine ⟨?_, ?_⟩
  · intro top parent s p1 s1 p2 s2 a s3 hs htop hsc hpr hnc hhead d hd hp
    have h1 := defClassScan_spec E (StableUnavailable U) hrefl htr hES P f top parent s
    rw [hsc] at h1
    have h2 := defClassParent_spec E (StableUnavailable U) hrefl hES P f p1 s1
    rw [hpr] at h2
    have h3 : StableUnavailable U s2 s3 := hES.newClass_ok hnc
    have hss3 := htr _ _ _ (htr _ _ _ h1 h2) h3
    have heq : top = s3.clsList P.name :=
      suffix_eq_of_head _ _ (htop.trans (hss3.1.1 P.name)) hhead ((hss3.1.2 hs) P.name).1
    rw [← heq] at hd
    exact h3.2 d (h2.2 d (defClassScan_unavailable E U hES hfalse P f top parent s p1 s1 hsc
      d hd hp))
  · intro fuel s hs hinv t hend
    unfold defClass at hend
    cases hl : lookupClass s P.name with
    | some cls =>
      rw [hl] at hend
      simp only [] at hend
      split at hend
      · split at hend <;> (simp only [EndsIn] at hend; rw [← hend]; exact hinv)
      · simp only [EndsIn] at hend; rw [← hend]; exact hinv
    | none =>
      rw [hl] at hend
      simp only [] at hend
      have := defClassLoop_atMostOne E U hE hset hpub hfalse P f fuel (s.clsList P.name) none s
        hs (List.suffix_refl _) hinv
      generalize defClassLoop E P f fuel (s.clsList P.name) none s = r at this hend
      rcases r with _ | ⟨c, x⟩ | ⟨m, x⟩ | _ <;> simp only [EndsIn] at hend <;>
        simp only [] at this
      · rw [← hend]; exact this
      · rw [← hend]; exact this

theorem exVMScan_atMostOne : AtMostOneAvailable (fun c _ => c.addr = 7) exVMScan := by
  intro n c hc d hd hpre hne
  simp only [exVMScan, emptyVM, Function.update_apply] at hc hd
  split at hc
  · rw [if_pos (by assumption)] at hd
    simp only [List.mem_cons, List.mem_singleton, List.not_mem_nil, or_false] at hc hd
    rcases hc with rfl | rfl | rfl <;> rcases hd with rfl | rfl | rfl <;>
      first
        | exact absurd rfl hne
        | exact Or.inl rfl
        | exact Or.inr rfl
        | exact absurd hpre (by decide)
  · cases hc

theorem defClass_at_most_one_witness :
    ChainsOK exVMScan ∧
    AtMostOneAvailable (fun c _ => c.addr = 7) exVMScan ∧
    EndsIn (defClass pickyEnv 1 exPreC true exVMScan) (exCls8.setCached exVMScan) ∧
    AtMostOneAvailable (fun c _ => c.addr = 7) (exCls8.setCached exVMScan) :=
  ⟨exVMScan_chainsOK, exVMScan_atMostOne, rfl,
    (defClass_at_most_one pickyEnv (fun c _ => c.addr = 7)
      (pickyEnv_respects _ (keepAtMostOne_refl _)) (fun _ _ _ h => h) (fun _ _ _ _ _ h => h)
      (by
        intro c p f s p1 t h
        simp only [pickyEnv] at h
        split at h
        · assumption
        · cases h)
      exPreC true).2 1 exVMScan exVMScan_chainsOK exVMScan_atMostOne
      (exCls8.setCached exVMScan) rfl⟩

/-! ## The hoistable classes in `mergeImpl` -/

/-- Once `redoHoistable` is set it stays set to the end of the loop. -/
theorem mergeImplHoistable_sticky (E : Env) (fuel u : Nat) :
    ∀ (n ix : Nat) (s : VM) (r : Bool) (t : VM),
      mergeImplHoistable E fuel u n ix true s = some (.ok r t) → r = true := by
  intro n
  induction n with
  | zero =>
    intro ix s r t h
    simp only [mergeImplHoistable, Option.some.injEq] at h
    injection h with h
    exact h.symm
  | succ n ih =>
    intro ix s r t h
    simp only [mergeImplHoistable] at h
    rcases hobj : mergeableObj s u ix with _ | obj
    · rw [hobj] at h; cases h
    · rw [hobj] at h
      cases obj <;> (try simp only [] at h) <;> try cases h
      · rename_i pre
        rcases hd : defClass E fuel pre false s with _ | ⟨_ | c, x⟩ | ⟨m, x⟩ | _ <;>
          rw [hd] at h <;> (try simp only [] at h) <;> try cases h
        · exact ih _ _ _ _ h
        · exact ih _ _ _ _ h
      · rename_i c
        cases c with
        | none => cases h
        | some cls =>
          simp only [] at h
          cases hp : cls.parent with
          | none => rw [hp] at h; exact ih _ _ _ _ h
          | some parent =>
            rw [hp] at h
            simp only [] at h
            split at h
            · exact ih _ _ _ _ h
            · exact ih _ _ _ _ h

/-- One pass of the loop over the hoistable classes, then the rest of the
loop. -/
theorem mergeImplHoistable_split (E : Env) (fuel u n ix : Nat) (redo : Bool) (x : VM) :
    mergeImplHoistable E fuel u (n + 1) ix redo x =
      match mergeImplHoistable E fuel u 1 ix false x with
      | none => none
      | some (.ok b x1) => mergeImplHoistable E fuel u n (ix + 1) (redo || b) x1
      | some (.raised m x1) => some (.raised m x1)
      | some .fault => some .fault := by
  simp only [mergeImplHoistable]
  rcases mergeableObj x u ix with _ | w
  · rfl
  cases w with
  | preClass pre =>
    simp only []
    rcases defClass E fuel pre false x with _ | ⟨_ | c, x1⟩ | ⟨m, x1⟩ | _
    · rfl
    · simp
    · simp
    · rfl
    · rfl
  | cls c =>
    cases c with
    | none => rfl
    | some cls =>
      simp only []
      rcases cls.parent with _ | parent
      · simp
      · simp only []
        split <;> simp
  | func f => rfl
  | define name => rfl
  | global name => rfl
  | reqName k name => rfl
  | reqUnit k v => rfl
  | tvData v => rfl
  | tvPad => rfl
  | done => rfl

/-- Attempts that end without an error are what the loop does: it ends after
them, with `redoHoistable` set when it was set or when one of them failed. -/
theorem hattempts_loop (E : Env) (fuel u : Nat) {ix : Nat} {x : VM} {k : Nat} {y : VM}
    {c : Bool} (h : HAttempts E fuel u ix x k y c) :
    ix ≤ k ∧ ∀ redo, mergeImplHoistable E fuel u (k - ix) ix redo x = some (.ok (redo || c) y) := by
  induction h with
  | here ix x =>
    refine ⟨Nat.le_refl _, fun redo => ?_⟩
    rw [Nat.sub_self]
    simp [mergeImplHoistable]
  | step ix x b x1 k y c hst _ ih =>
    have hle := ih.1
    refine ⟨by omega, fun redo => ?_⟩
    have e : k - ix = (k - (ix + 1)) + 1 := by omega
    rw [e, mergeImplHoistable_split, hst]
    simp only []
    rw [ih.2 (redo || b), Bool.or_assoc]

/-- The loop that ends without an error has attempted every class of its
range. -/
theorem loop_hattempts (E : Env) (fuel u : Nat) :
    ∀ (n ix : Nat) (redo : Bool) (x : VM) (r : Bool) (y : VM),
      mergeImplHoistable E fuel u n ix redo x = some (.ok r y) →
      ∃ c, HAttempts E fuel u ix x (ix + n) y c ∧ r = (redo || c) := by
  intro n
  induction n with
  | zero =>
    intro ix redo x r y h
    simp only [mergeImplHoistable, Option.some.injEq, Outcome.ok.injEq] at h
    obtain ⟨h1, h2⟩ := h
    subst h1; subst h2
    exact ⟨false, HAttempts.here ix x, by simp⟩
  | succ n ih =>
    intro ix redo x r y h
    rw [mergeImplHoistable_split] at h
    generalize hst : mergeImplHoistable E fuel u 1 ix false x = a at h
    rcases a with _ | ⟨b, x1⟩ | ⟨m, x1⟩ | _ <;> simp only [] at h
    · cases h
    · obtain ⟨c, hc, hr⟩ := ih (ix + 1) (redo || b) x1 r y h
      refine ⟨b || c, ?_, by rw [hr, Bool.or_assoc]⟩
      have e : ix + (n + 1) = ix + 1 + n := by omega
      rw [e]
      exact HAttempts.step ix x b x1 _ y c hst hc
    · cases h
    · cases h

/-- An attempt that raises ends the loop with its error. -/
theorem hattempts_raised (E : Env) (fuel u : Nat) {ix : Nat} {x : VM} {k : Nat} {y : VM}
    {c : Bool} (h : HAttempts E fuel u ix x k y c) :
    ∀ (n : Nat) (redo : Bool) (m : String) (t : VM), k < ix + n →
      mergeImplHoistable E fuel u 1 k false y = some (.raised m t) →
      mergeImplHoistable E fuel u n ix redo x = some (.raised m t) := by
  induction h with
  | here ix x =>
    intro n redo m t hlt hr
    obtain ⟨n1, rfl⟩ : ∃ n1, n = n1 + 1 := ⟨n - 1, by omega⟩
    rw [mergeImplHoistable_split, hr]
  | step ix x b x1 k y c hst hrest ih =>
    intro n redo m t hlt hr
    have hle := (hattempts_loop E fuel u hrest).1
    obtain ⟨n1, rfl⟩ : ∃ n1, n = n1 + 1 := ⟨n - 1, by omega⟩
    rw [mergeImplHoistable_split, hst]
    simp only []
    exact ih n1 (redo || b) m t (by omega) hr

theorem hattempts_trans (E : Env) (fuel u : Nat) {ix : Nat} {x : VM} {j : Nat} {z : VM}
    {c1 : Bool} (h1 : HAttempts E fuel u ix x j z c1) {k : Nat} {y : VM} {c2 : Bool}
    (h2 : HAttempts E fuel u j z k y c2) : HAttempts E fuel u ix x k y (c1 || c2) := by
  induction h1 with
  | here ix x => simpa using h2
  | step ix x b x1 j z c hst _ ih =>
    rw [Bool.or_assoc]
    exact HAttempts.step ix x b x1 k y (c || c2) hst (ih h2)

/-- C11, the claim fails: the unit `exUnitHoistBad` is not merge-only, for its
first hoistable class `defClass(D, false)` returns `NULL`, and the replay does
not return: `Class::newClass`, which `defClass(F, false)` calls for the second
class, raises, and `mergeImpl` ends with that error. -/
theorem deferred_hoisting_counterexample :
    (exVMHoistBad.units 13).isMergeOnly = false ∧
    mergeableObj exVMHoistBad 13 1 = some (.preClass exPreD) ∧
    defClass fussyEnv 2 exPreD false exVMHoistBad = some (.ok none exVMHoistBad) ∧
    mergeableObj exVMHoistBad 13 2 = some (.preClass exPreF) ∧
    defClass fussyEnv 2 exPreF false exVMHoistBad =
      some (.raised "Class F contains 1 abstract method and must therefore be declared abstract"
        exVMHoistBad) ∧
    mergeImpl fussyEnv 3 13 exVMHoistBad =
      some (.raised "Class F contains 1 abstract method and must therefore be declared abstract"
        exVMHoistBad) := by
  refine ⟨rfl, rfl, rfl, rfl, rfl, rfl⟩

/-- C11, as amended.  Deferred hoisting.  One pass of the loop over the
hoistable prefix is the attempt of one class: on a template it is the call
`defClass(template, false)`, which sets `redoHoistable` when the call returns
`NULL` and ends the loop with the error when the call raises (`defClass` with
`failIsFatal = false` raises nothing itself; `Class::avail` and
`Class::newClass`, which it calls, can); on a marked class it sets the flag
when the slot of the parent is empty and stores the class otherwise.  A loop
that ends without an error has attempted every class of the prefix, each from
the state that the attempt before left (no short-circuit), and ends with the
flag set exactly when it was set at the start or one of the attempts failed;
conversely attempts that all end without an error are what the loop does.
When no attempt raises and one of them fails, `mergeImpl` on a unit that is
not merge-only returns normally with exactly the state that the last attempt
left: no remaining instruction has been executed and no rewrite of the array
has been made.  When an attempt raises, `mergeImpl` ends with that error, the
classes after it unattempted.  When no attempt fails, as in a later replay in
which every class of the prefix is defined, `mergeImpl` goes on with the word
after the prefix. -/
theorem deferred_hoisting (E : Env) (fuel u : Nat) :
    (∀ ix x pre, mergeableObj x u ix = some (.preClass pre) →
      mergeImplHoistable E fuel u 1 ix false x =
        match defClass E fuel pre false x with
        | none => none
        | some (.ok none x1) => some (.ok true x1)
        | some (.ok (some _) x1) => some (.ok false x1)
        | some (.raised m x1) => some (.raised m x1)
        | some .fault => some .fault) ∧
    (∀ ix x cls, mergeableObj x u ix = some (.cls (some cls)) →
      mergeImplHoistable E fuel u 1 ix false x =
        if parentMissing cls x = true then some (.ok true x)
        else some (.ok false (cls.setCached x))) ∧
    (∀ n ix redo x r y, mergeImplHoistable E fuel u n ix redo x = some (.ok r y) →
      ∃ c, HAttempts E fuel u ix x (ix + n) y c ∧ r = (redo || c)) ∧
    (∀ ix x k y c, HAttempts E fuel u ix x k y c → ix ≤ k ∧
      ∀ redo, mergeImplHoistable E fuel u (k - ix) ix redo x = some (.ok (redo || c) y)) ∧
    (∀ ix x j z c1 k y c2, HAttempts E fuel u ix x j z c1 → HAttempts E fuel u j z k y c2 →
      HAttempts E fuel u ix x k y (c1 || c2)) ∧
    (∀ ix x k y c n redo m t, HAttempts E fuel u ix x k y c → k < ix + n →
      mergeImplHoistable E fuel u 1 k false y = some (.raised m t) →
      mergeImplHoistable E fuel u n ix redo x = some (.raised m t)) ∧
    (∀ s r1 s1 s2 c,
      (s.units u).m_firstHoistableFunc ≤ (s.units u).m_firstHoistablePreClass →
      mergeImplFuncs E u (s.units u).m_mergeState.uniqueFuncs
        ((s.units u).m_firstHoistablePreClass - (s.units u).m_firstHoistableFunc)
        (s.units u).m_firstHoistableFunc s = .ok r1 s1 →
      (s1.units u).m_firstHoistablePreClass < (s1.units u).m_firstMergeablePreClass →
      HAttempts E fuel u (s1.units u).m_firstHoistablePreClass s1
        (s1.units u).m_firstMergeablePreClass s2 c →
      (c = true → (s2.units u).isMergeOnly = false →
        mergeImpl E (fuel + 1) u s = some (.ok PUnit.unit s2)) ∧
      (c = false →
        mergeImpl E (fuel + 1) u s =
          match nextObj s2 u (s1.units u).m_firstMergeablePreClass with
          | none => some .fault
          | some (obj, k) =>
            mergeImplSwitch E u fuel (s1.units u).m_firstMergeablePreClass obj k s2)) ∧
    (∀ s r1 s1 k y c m t,
      (s.units u).m_firstHoistableFunc ≤ (s.units u).m_firstHoistablePreClass →
      mergeImplFuncs E u (s.units u).m_mergeState.uniqueFuncs
        ((s.units u).m_firstHoistablePreClass - (s.units u).m_firstHoistableFunc)
        (s.units u).m_firstHoistableFunc s = .ok r1 s1 →
      HAttempts E fuel u (s1.units u).m_firstHoistablePreClass s1 k y c →
      k < (s1.units u).m_firstMergeablePreClass →
      mergeImplHoistable E fuel u 1 k false y = some (.raised m t) →
      mergeImpl E (fuel + 1) u s = some (.raised m t)) := by
  refine ⟨?_, ?_, loop_hattempts E fuel u, fun ix x k y c h => hattempts_loop E fuel u h,
    fun ix x j z c1 k y c2 h1 h2 => hattempts_trans E fuel u h1 h2,
    fun ix x k y c n redo m t h hlt hr => hattempts_raised E fuel u h n redo m t hlt hr, ?_, ?_⟩
  · intro ix x pre hobj
    simp only [mergeImplHoistable, hobj]
  · intro ix x cls hobj
    cases hpar : cls.parent with
    | none => simp [mergeImplHoistable, hobj, parentMissing, hpar]
    | some parent =>
      simp only [mergeImplHoistable, hobj, parentMissing, hpar]
      split <;> simp_all
  · intro s r1 s1 s2 c hle hf hlt hat
    have hloop := (hattempts_loop E fuel u hat).2 false
    simp only [Bool.false_or] at hloop
    refine ⟨?_, ?_⟩
    · intro hc hmo
      subst hc
      simp only [mergeImpl]
      rw [if_neg (by omega), hf]
      simp only []
      rw [if_pos hlt, hloop]
      simp only []
      rw [if_pos ⟨trivial, hmo⟩]
    · intro hc
      subst hc
      simp only [mergeImpl]
      rw [if_neg (by omega), hf]
      simp only []
      rw [if_pos hlt, hloop]
      simp only []
      rw [if_neg (by simp), if_neg (by simp)]
      try rfl
  · intro s r1 s1 k y c m t hle hf hat hlt hr
    have hle2 := (hattempts_loop E fuel u hat).1
    have hloop := hattempts_raised E fuel u hat
      ((s1.units u).m_firstMergeablePreClass - (s1.units u).m_firstHoistablePreClass) false m t
      (by omega) hr
    simp only [mergeImpl]
    rw [if_neg (by omega), hf]
    simp only []
    rw [if_pos (by omega), hloop]

/-- The replay of `exUnitHoist`, which is not merge-only: the attempt of `D`
fails, since `B` is unknown, the attempt of `C` is made all the same and
defines `C`, and `mergeImpl` returns with the state that it left. -/
theorem deferred_hoisting_witness :
    (exVMHoist.units 12).isMergeOnly = false ∧
    defClass quietEnv 2 exPreD false exVMHoist = some (.ok none exVMHoist) ∧
    HAttempts quietEnv 2 12 1 exVMHoist 3 exVMHoistEnd true ∧
    lookupClass exVMHoistEnd "C" ≠ none ∧ lookupClass exVMHoistEnd "D" = none ∧
    mergeImplHoistable quietEnv 2 12 (3 - 1) 1 false exVMHoist =
      some (.ok (false || true) exVMHoistEnd) ∧
    mergeImpl quietEnv (2 + 1) 12 exVMHoist = some (.ok PUnit.unit exVMHoistEnd) := by
  have hat : HAttempts quietEnv 2 12 1 exVMHoist 3 exVMHoistEnd true :=
    HAttempts.step 1 exVMHoist true exVMHoist 3 exVMHoistEnd false rfl
      (HAttempts.step 2 exVMHoist false exVMHoistEnd 3 exVMHoistEnd false rfl
        (HAttempts.here 3 exVMHoistEnd))
  refine ⟨rfl, rfl, hat, by decide, by decide, ?_, ?_⟩
  · exact ((deferred_hoisting quietEnv 2 12).2.2.2.1 1 exVMHoist 3 exVMHoistEnd true hat).2 false
  · exact ((deferred_hoisting quietEnv 2 12).2.2.2.2.2.2.1 exVMHoist PUnit.unit exVMHoist
      exVMHoistEnd true (by decide) rfl (by decide) hat).1 rfl rfl

/-- C12, the claim fails: on the merge-only unit `exUnitMO`, whose hoistable
class `D` cannot be defined, `mergeImpl` does not run the pass with
`defClass(.., true)` over the prefix and return; it walks the remaining
instructions: the define of `X` is executed, then the class statement
raises. -/
theorem merge_only_retry_counterexample :
    (exVMMO.units 2).isMergeOnly = true ∧
    mergeImplHoistable quietEnv 5 2 1 1 false exVMMO = some (.ok true exVMMO) ∧
    mergeImplRedo quietEnv 5 2 1 1 exVMMO = some (.raised "unknown class B" exVMMO) ∧
    exVMMO.constants "X" = none ∧
    mergeImpl quietEnv 6 2 exVMMO = some (.raised "unknown class B" exVMMOEnd) ∧
    exVMMOEnd.constants "X" = some exValX ∧
    mergeImpl quietEnv 6 2 exVMMO ≠ mergeImplRedo quietEnv 5 2 1 1 exVMMO := by
  have h1 : mergeImplRedo quietEnv 5 2 1 1 exVMMO = some (.raised "unknown class B" exVMMO) :=
    rfl
  have h2 : mergeImpl quietEnv 6 2 exVMMO = some (.raised "unknown class B" exVMMOEnd) := rfl
  refine ⟨rfl, rfl, h1, rfl, h2, rfl, ?_⟩
  rw [h1, h2]
  intro h
  injection h with h
  injection h with _ h
  have := congrArg (fun s => s.constants "X") h
  simp [exVMMOEnd, exVMMO, mergeCns, insertCns, emptyVM, exValX] at this

/-- C12, as amended.  On a merge-only unit whose loop over the hoistable
prefix ended with `redoHoistable` set: when the prefix ends the array
(`m_firstMergeablePreClass == m_mergeablesSize`) `mergeImpl` is the second
pass over the prefix, which calls `defClass(.., true)` on each word in the
order of the prefix and stops at the first call that raises; otherwise
`mergeImpl` goes on to walk the remaining instructions from the word after
the prefix. -/
theorem merge_only_retry (E : Env) (fuel u : Nat) (s : VM) (r1 : PUnit) (s1 s2 : VM)
    (hle : (s.units u).m_firstHoistableFunc ≤ (s.units u).m_firstHoistablePreClass)
    (hf : mergeImplFuncs E u (s.units u).m_mergeState.uniqueFuncs
      ((s.units u).m_firstHoistablePreClass - (s.units u).m_firstHoistableFunc)
      (s.units u).m_firstHoistableFunc s = .ok r1 s1)
    (hlt : (s1.units u).m_firstHoistablePreClass < (s1.units u).m_firstMergeablePreClass)
    (hh : mergeImplHoistable E fuel u
      ((s1.units u).m_firstMergeablePreClass - (s1.units u).m_firstHoistablePreClass)
      (s1.units u).m_firstHoistablePreClass false s1 = some (.ok true s2))
    (hmo : (s2.units u).isMergeOnly = true) :
    ((s1.units u).m_firstMergeablePreClass = (s2.units u).m_mergeablesSize →
      mergeImpl E (fuel + 1) u s =
        mergeImplRedo E fuel u
          (max 1 ((s1.units u).m_firstMergeablePreClass - (s2.units u).m_firstHoistablePreClass))
          (s2.units u).m_firstHoistablePreClass s2) ∧
    ((s1.units u).m_firstMergeablePreClass ≠ (s2.units u).m_mergeablesSize →
      mergeImpl E (fuel + 1) u s =
        match nextObj s2 u (s1.units u).m_firstMergeablePreClass with
        | none => some .fault
        | some (obj, k) =>
          mergeImplSwitch E u fuel (s1.units u).m_firstMergeablePreClass obj k s2) ∧
    (∀ n ix x pre, mergeableObj x u ix = some (.preClass pre) →
      mergeImplRedo E fuel u (n + 1) ix x =
        match defClass E fuel pre true x with
        | none => none
        | some (.ok _ x1) => mergeImplRedo E fuel u n (ix + 1) x1
        | some (.raised m x1) => some (.raised m x1)
        | some .fault => some .fault) ∧
    (∀ n ix x cls, mergeableObj x u ix = some (.cls (some cls)) →
      mergeImplRedo E fuel u (n + 1) ix x =
        match defClass E fuel cls.preClass true x with
        | none => none
        | some (.ok _ x1) => mergeImplRedo E fuel u n (ix + 1) x1
        | some (.raised m x1) => some (.raised m x1)
        | some .fault => some .fault) ∧
    (∀ ix x, mergeImplRedo E fuel u 0 ix x = some (.ok PUnit.unit x)) := by
  refine ⟨?_, ?_, ?_, ?_, fun _ _ => rfl⟩
  · intro hend
    simp only [mergeImpl]
    rw [if_neg (by omega), hf]
    simp only []
    rw [if_pos hlt, hh]
    simp only []
    rw [if_neg (by simp [hmo]), if_pos ⟨trivial, hend⟩]
  · intro hend
    simp only [mergeImpl]
    rw [if_neg (by omega), hf]
    simp only []
    rw [if_pos hlt, hh]
    simp only []
    rw [if_neg (by simp [hmo]), if_neg (by simp [hend])]
  · intro n ix x pre hobj
    simp only [mergeImplRedo, hobj]
  · intro n ix x cls hobj
    simp only [mergeImplRedo, hobj]

theorem merge_only_retry_witness :
    mergeImplHoistable quietEnv 5 2 (2 - 1) 1 false exVMMO = some (.ok true exVMMO) ∧
    (exVMMO.units 2).isMergeOnly = true ∧
    ((exVMMO.units 2).m_firstMergeablePreClass ≠ (exVMMO.units 2).m_mergeablesSize →
      mergeImpl quietEnv (5 + 1) 2 exVMMO =
        match nextObj exVMMO 2 (exVMMO.units 2).m_firstMergeablePreClass with
        | none => some .fault
        | some (obj, k) =>
          mergeImplSwitch quietEnv 2 5 (exVMMO.units 2).m_firstMergeablePreClass obj k exVMMO) :=
  ⟨rfl, rfl,
    (merge_only_retry quietEnv 5 2 exVMMO PUnit.unit exVMMO exVMMO (by decide) rfl (by decide)
      rfl rfl).2.1⟩

/-! ## Fuel: more fuel never changes a result -/

theorem defClassLoop_fuel (E : Env) (p : PreClass) (f : Bool) :
    ∀ (fuel fuel1 : Nat), fuel ≤ fuel1 → ∀ top parent s r,
      defClassLoop E p f fuel top parent s = some r →
      defClassLoop E p f fuel1 top parent s = some r := by
  intro fuel
  induction fuel with
  | zero => intro _ _ top parent s r h; simp [defClassLoop] at h
  | succ n ih =>
    intro fuel1 hle top parent s r h
    obtain ⟨m, rfl⟩ : ∃ m, fuel1 = m + 1 := ⟨fuel1 - 1, by omega⟩
    simp only [defClassLoop] at h ⊢
    generalize defClassScan E p f top parent s = x at h ⊢
    rcases x with r0 | ⟨p1, s1⟩ <;> simp only [] at h ⊢
    · exact h
    generalize defClassParent E p f p1 s1 = x at h ⊢
    rcases x with r0 | ⟨p2, s2⟩ <;> simp only [] at h ⊢
    · exact h
    generalize E.newClass p p2 s2 = x at h ⊢
    rcases x with ⟨a, s3⟩ | ⟨msg, s3⟩ | _ <;> simp only [] at h ⊢
    · split
      · rename_i hc
        rw [if_pos hc] at h
        exact ih m (by omega) _ _ _ _ h
      · rename_i hc
        rw [if_neg hc] at h
        exact h
    · exact h
    · exact h

theorem defClass_fuel (E : Env) (fuel fuel1 : Nat) (hle : fuel ≤ fuel1) (p : PreClass)
    (f : Bool) (s : VM) (r : Outcome (Option Class))
    (h : defClass E fuel p f s = some r) : defClass E fuel1 p f s = some r := by
  simp only [defClass] at h ⊢
  generalize lookupClass s p.name = x at h ⊢
  rcases x with _ | c <;> simp only [] at h ⊢
  · exact defClassLoop_fuel E p f fuel fuel1 hle _ _ _ _ h
  · exact h

theorem mergeImplHoistable_fuel (E : Env) (fuel fuel1 : Nat) (hle : fuel ≤ fuel1) (u : Nat) :
    ∀ n ix redo s r, mergeImplHoistable E fuel u n ix redo s = some r →
      mergeImplHoistable E fuel1 u n ix redo s = some r := by
  intro n
  induction n with
  | zero => intro ix redo s r h; exact h
  | succ n ih =>
    intro ix redo s r h
    simp only [mergeImplHoistable] at h ⊢
    generalize mergeableObj s u ix = x at h ⊢
    rcases x with _ | x
    · exact h
    cases x <;> (try simp only [] at h ⊢) <;> try exact h
    · rename_i pre
      cases hd : defClass E fuel pre false s with
      | none => rw [hd] at h; simp only [] at h; exact absurd h (by simp)
      | some o =>
        rw [defClass_fuel E fuel fuel1 hle pre false s o hd]
        rw [hd] at h
        rcases o with ⟨c, x⟩ | ⟨m, x⟩ | _ <;> (try simp only [] at h ⊢) <;> try exact h
        cases c <;> simp only [] at h ⊢ <;> exact ih _ _ _ _ h
    · rename_i c
      cases c <;> (try simp only [] at h ⊢) <;> try exact h
      rename_i cls
      generalize cls.parent = x at h ⊢
      rcases x with _ | par <;> simp only [] at h ⊢
      · exact ih _ _ _ _ h
      · split
        · rename_i hc; rw [if_pos hc] at h; exact ih _ _ _ _ h
        · rename_i hc; rw [if_neg hc] at h; exact ih _ _ _ _ h

theorem mergeImplRedo_fuel (E : Env) (fuel fuel1 : Nat) (hle : fuel ≤ fuel1) (u : Nat) :
    ∀ n ix s r, mergeImplRedo E fuel u n ix s = some r →
      mergeImplRedo E fuel1 u n ix s = some r := by
  intro n
  induction n with
  | zero => intro ix s r h; exact h
  | succ n ih =>
    intro ix s r h
    simp only [mergeImplRedo] at h ⊢
    generalize mergeableObj s u ix = x at h ⊢
    rcases x with _ | x
    · exact h
    cases x <;> (try simp only [] at h ⊢) <;> try exact h
    · rename_i pre
      cases hd : defClass E fuel pre true s with
      | none => rw [hd] at h; simp only [] at h; exact absurd h (by simp)
      | some o =>
        rw [defClass_fuel E fuel fuel1 hle pre true s o hd]
        rw [hd] at h
        rcases o with ⟨c, x⟩ | ⟨m, x⟩ | _ <;> (try simp only [] at h ⊢) <;> try exact h
        exact ih _ _ _ h
    · rename_i c
      cases c <;> (try simp only [] at h ⊢) <;> try exact h
      rename_i cls
      cases hd : defClass E fuel cls.preClass true s with
      | none => rw [hd] at h; simp only [] at h; exact absurd h (by simp)
      | some o =>
        rw [defClass_fuel E fuel fuel1 hle cls.preClass true s o hd]
        rw [hd] at h
        rcases o with ⟨c, x⟩ | ⟨m, x⟩ | _ <;> (try simp only [] at h ⊢) <;> try exact h
        exact ih _ _ _ h

theorem rewriteStmts_fuel (u end_ : Nat) :
    ∀ (fuel fuel1 : Nat), fuel ≤ fuel1 → ∀ ix s r,
      rewriteStmts u end_ fuel ix s = some r → rewriteStmts u end_ fuel1 ix s = some r := by
  intro fuel
  induction fuel with
  | zero => intro _ _ ix s r h; simp [rewriteStmts] at h
  | succ n ih =>
    intro fuel1 hle ix s r h
    obtain ⟨m, rfl⟩ : ∃ m, fuel1 = m + 1 := ⟨fuel1 - 1, by omega⟩
    simp only [rewriteStmts] at h ⊢
    generalize mergeableObj s u ix = x at h ⊢
    rcases x with _ | x
    · exact h
    cases x <;> (try simp only [] at h ⊢) <;> (try exact h)
    case preClass pre =>
      by_cases ha : rewriteAsserts s pre = true
      · rw [if_pos ha] at h ⊢
        by_cases hc : ix + 1 < end_
        · rw [if_pos hc] at h ⊢; exact ih m (by omega) _ _ _ h
        · rw [if_neg hc] at h ⊢; exact h
      · rw [if_neg ha] at h ⊢; exact h
    all_goals
      (split <;> rename_i hc <;> [rw [if_pos hc] at h; rw [if_neg hc] at h] <;>
        first | exact ih m (by omega) _ _ _ h | exact h)

theorem mergeImplDone_fuel (fuel fuel1 : Nat) (hle : fuel ≤ fuel1) (u : Nat) (s : VM)
    (r : Outcome PUnit) (h : mergeImplDone fuel u s = some r) :
    mergeImplDone fuel1 u s = some r := by
  simp only [mergeImplDone] at h ⊢
  split
  · rename_i hc
    rw [if_pos hc] at h
    generalize rewriteHoistable u _ _ _ = x at h ⊢
    rcases x with _ | s2 <;> simp only [] at h ⊢
    · exact h
    cases hr : rewriteStmts u (s2.units u).m_mergeablesSize fuel
        (s2.units u).m_firstMergeablePreClass s2 with
    | none => rw [hr] at h; simp only [] at h; exact absurd h (by simp)
    | some o =>
      rw [rewriteStmts_fuel u _ fuel fuel1 hle _ _ o hr]
      rw [hr] at h
      exact h
  · rename_i hc
    rw [if_neg hc] at h
    exact h
/-- More fuel does not change a result of the walk of `mergeImpl`. -/
theorem mergeImpl_walk_fuel (E : Env) :
    ∀ (fuel fuel1 : Nat), fuel ≤ fuel1 →
      (∀ u ix obj s r, mergeImplClass E u fuel ix obj s = some r →
        mergeImplClass E u fuel1 ix obj s = some r) ∧
      (∀ u ix obj s r, mergeImplUnique E u fuel ix obj s = some r →
        mergeImplUnique E u fuel1 ix obj s = some r) ∧
      (∀ u ix obj s r, mergeImplDefine E u fuel ix obj s = some r →
        mergeImplDefine E u fuel1 ix obj s = some r) ∧
      (∀ u ix obj s r, mergeImplGlobal E u fuel ix obj s = some r →
        mergeImplGlobal E u fuel1 ix obj s = some r) ∧
      (∀ u ix obj s r, mergeImplReq E u fuel ix obj s = some r →
        mergeImplReq E u fuel1 ix obj s = some r) ∧
      (∀ u ix obj k s r, mergeImplSwitch E u fuel ix obj k s = some r →
        mergeImplSwitch E u fuel1 ix obj k s = some r) ∧
      (∀ u s r, mergeImpl E fuel u s = some r → mergeImpl E fuel1 u s = some r) := by
  intro fuel
  induction fuel with
  | zero =>
    intro fuel1 _
    refine ⟨?_, ?_, ?_, ?_, ?_, ?_, ?_⟩ <;> intros <;> rename_i h <;>
      first
        | (simp only [mergeImplClass] at h; exact absurd h (by simp))
        | (simp only [mergeImplUnique] at h; exact absurd h (by simp))
        | (simp only [mergeImplDefine] at h; exact absurd h (by simp))
        | (simp only [mergeImplGlobal] at h; exact absurd h (by simp))
        | (simp only [mergeImplReq] at h; exact absurd h (by simp))
        | (simp only [mergeImplSwitch] at h; exact absurd h (by simp))
        | (simp only [mergeImpl] at h; exact absurd h (by simp))
  | succ n ih =>
    intro fuel1 hle
    obtain ⟨m, rfl⟩ : ∃ m, fuel1 = m + 1 := ⟨fuel1 - 1, by omega⟩
    have hnm : n ≤ m := by omega
    obtain ⟨ihC, ihU, ihD, ihG, ihQ, ihS, ihM⟩ := ih m hnm
    refine ⟨?_, ?_, ?_, ?_, ?_, ?_, ?_⟩
    · intro u ix obj s r h
      simp only [mergeImplClass] at h ⊢
      cases obj <;> (try simp only [] at h ⊢) <;> try exact h
      rename_i pre
      cases hd : defClass E n pre true s with
      | none => rw [hd] at h; simp only [] at h; exact absurd h (by simp)
      | some o =>
        rw [defClass_fuel E n m hnm pre true s o hd]
        rw [hd] at h
        rcases o with ⟨c, x⟩ | ⟨msg, x⟩ | _ <;> (try simp only [] at h ⊢) <;> try exact h
        generalize nextObj x u (ix + 1) = y at h ⊢
        rcases y with _ | ⟨obj1, k⟩ <;> (try simp only [] at h ⊢) <;> try exact h
        split
        · rename_i hc; rw [if_pos hc] at h; exact ihC _ _ _ _ _ h
        · rename_i hc; rw [if_neg hc] at h; exact ihS _ _ _ _ _ _ h
    · intro u ix obj s r h
      simp only [mergeImplUnique] at h ⊢
      cases obj <;> (try simp only [] at h ⊢) <;> try exact h
      rename_i c
      cases c <;> (try simp only [] at h ⊢) <;> try exact h
      rename_i cls
      have hnext : ∀ x,
          (match nextObj (cls.setCached x) u (ix + 1) with
          | none => some Outcome.fault
          | some (obj1, k) =>
            if k = UnitMergeKind.UnitMergeKindUniqueDefinedClass then
              mergeImplUnique E u n (ix + 1) obj1 (cls.setCached x)
            else mergeImplSwitch E u n (ix + 1) obj1 k (cls.setCached x)) = some r →
          (match nextObj (cls.setCached x) u (ix + 1) with
          | none => some Outcome.fault
          | some (obj1, k) =>
            if k = UnitMergeKind.UnitMergeKindUniqueDefinedClass then
              mergeImplUnique E u m (ix + 1) obj1 (cls.setCached x)
            else mergeImplSwitch E u m (ix + 1) obj1 k (cls.setCached x)) = some r := by
        intro x h
        generalize nextObj (cls.setCached x) u (ix + 1) = y at h ⊢
        rcases y with _ | ⟨obj1, k⟩ <;> (try simp only [] at h ⊢) <;> try exact h
        split
        · rename_i hc; rw [if_pos hc] at h; exact ihU _ _ _ _ _ h
        · rename_i hc; rw [if_neg hc] at h; exact ihS _ _ _ _ _ _ h
      generalize E.avail cls none true s = y at h ⊢
      rcases y with ⟨⟨av, other⟩, x⟩ | ⟨msg, x⟩ | _ <;> (try simp only [] at h ⊢) <;>
        try exact h
      cases av with
      | AvailFalse => exact h
      | AvailTrue => exact hnext x h
      | AvailFail => cases other <;> exact h
    · intro u ix obj s r h
      simp only [mergeImplDefine] at h ⊢
      split <;> rename_i heq
      · rename_i name v
        simp only [heq] at h
        generalize nextObj (mergeCns v._count v name s) u (ix + 3) = y at h ⊢
        rcases y with _ | ⟨obj1, k⟩ <;> (try simp only [] at h ⊢) <;> try exact h
        split
        · rename_i hc; rw [if_pos hc] at h; exact ihD _ _ _ _ _ h
        · rename_i hc; rw [if_neg hc] at h; exact ihS _ _ _ _ _ _ h
      · split at h
        · rename_i name v hv
          exact absurd hv (heq name v rfl)
        · exact h
    · intro u ix obj s r h
      simp only [mergeImplGlobal] at h ⊢
      split <;> rename_i heq
      · rename_i name v
        simp only [heq] at h
        generalize nextObj (setGlobal v name s) u (ix + 3) = y at h ⊢
        rcases y with _ | ⟨obj1, k⟩ <;> (try simp only [] at h ⊢) <;> try exact h
        split
        · rename_i hc; rw [if_pos hc] at h; exact ihG _ _ _ _ _ h
        · rename_i hc; rw [if_neg hc] at h; exact ihS _ _ _ _ _ _ h
      · split at h
        · rename_i name v hv
          exact absurd hv (heq name v rfl)
        · exact h
    · intro u ix obj s r h
      simp only [mergeImplReq] at h ⊢
      cases obj <;> (try simp only [] at h ⊢) <;> try exact h
      rename_i kq unit
      have hnext : ∀ x,
          (match nextObj x u (ix + 1) with
          | none => some Outcome.fault
          | some (obj1, k) =>
            match k with
            | .UnitMergeKindReq _ => mergeImplReq E u n (ix + 1) obj1 x
            | _ => mergeImplSwitch E u n (ix + 1) obj1 k x) = some r →
          (match nextObj x u (ix + 1) with
          | none => some Outcome.fault
          | some (obj1, k) =>
            match k with
            | .UnitMergeKindReq _ => mergeImplReq E u m (ix + 1) obj1 x
            | _ => mergeImplSwitch E u m (ix + 1) obj1 k x) = some r := by
        intro x h
        generalize nextObj x u (ix + 1) = y at h ⊢
        rcases y with _ | ⟨obj1, k⟩ <;> (try simp only [] at h ⊢) <;> try exact h
        cases k <;> simp only [] at h ⊢ <;>
          first | exact ihQ _ _ _ _ _ h | exact ihS _ _ _ _ _ _ h
      by_cases hfl : s.tcFlags (s.units unit).m_cacheOffset &&& (s.units unit).m_cacheMask = 0
      · rw [if_pos hfl] at h ⊢
        generalize hm : mergeImpl E n unit _ = y at h
        rcases y with _ | o
        · simp only [] at h; exact absurd h (by simp)
        · rw [ihM _ _ _ hm]
          rcases o with ⟨c, x⟩ | ⟨msg, x⟩ | _ <;> (try simp only [] at h ⊢) <;> try exact h
          by_cases hmo : (x.units unit).isMergeOnly = false
          · rw [if_pos hmo] at h ⊢
            generalize E.invokeFunc unit x = z at h ⊢
            rcases z with ⟨c2, y⟩ | ⟨msg, y⟩ | _ <;> (try simp only [] at h ⊢) <;>
              try exact h
            exact hnext y h
          · rw [if_neg hmo] at h ⊢
            exact hnext x h
      · rw [if_neg hfl] at h ⊢
        exact hnext s h
    · intro u ix obj k s r h
      simp only [mergeImplSwitch] at h ⊢
      cases k <;> simp only [] at h ⊢
      · exact ihC _ _ _ _ _ h
      · exact ihU _ _ _ _ _ h
      · exact ihD _ _ _ _ _ h
      · exact ihG _ _ _ _ _ h
      · exact ihQ _ _ _ _ _ h
      · split
        · rename_i hc; rw [if_pos hc] at h; exact mergeImplDone_fuel n m hnm u s r h
        · rename_i hc; rw [if_neg hc] at h; exact h
    · intro u s r h
      simp only [mergeImpl] at h ⊢
      split
      · rename_i hc; rw [if_pos hc] at h; exact h
      · rename_i hc
        rw [if_neg hc] at h
        generalize mergeImplFuncs E u _ _ _ s = y at h ⊢
        rcases y with ⟨c, s1⟩ | ⟨msg, s1⟩ | _ <;> (try simp only [] at h ⊢) <;> try exact h
        split
        · rename_i hlt
          rw [if_pos hlt] at h
          generalize hh : mergeImplHoistable E n u _ _ false s1 = y at h
          rcases y with _ | o
          · simp only [] at h; exact absurd h (by simp)
          · rw [mergeImplHoistable_fuel E n m hnm u _ _ _ _ _ hh]
            rcases o with ⟨redo, s2⟩ | ⟨msg, s2⟩ | _ <;> (try simp only [] at h ⊢) <;>
              try exact h
            split
            · rename_i h1; rw [if_pos h1] at h; exact h
            · rename_i h1
              rw [if_neg h1] at h
              split
              · rename_i h2
                rw [if_pos h2] at h
                exact mergeImplRedo_fuel E n m hnm u _ _ _ _ h
              · rename_i h2
                rw [if_neg h2] at h
                generalize nextObj s2 u (s1.units u).m_firstMergeablePreClass = y at h ⊢
                rcases y with _ | ⟨obj1, k⟩ <;> (try simp only [] at h ⊢) <;> try exact h
                exact ihS _ _ _ _ _ _ h
        · rename_i hlt
          rw [if_neg hlt] at h
          generalize nextObj s1 u (s1.units u).m_firstHoistablePreClass = y at h ⊢
          rcases y with _ | ⟨obj1, k⟩ <;> (try simp only [] at h ⊢) <;> try exact h
          exact ihS _ _ _ _ _ _ h

theorem seqReplay_succ (E : Env) (u fuel ix : Nat) (s : VM) :
    seqReplay E u (fuel + 1) ix s =
      match specStep E fuel u ix s with
      | none => none
      | some (.ok (some ix1) s1) => seqReplay E u fuel ix1 s1
      | some (.ok none s1) => some (.ok PUnit.unit s1)
      | some (.raised m s1) => some (.raised m s1)
      | some .fault => some .fault := rfl

/-- A read that yields no instruction is a fault of the interpreter. -/
theorem specStep_nextObj_none (E : Env) (fuel u ix : Nat) (s : VM)
    (h : nextObj s u ix = none) : specStep E fuel u ix s = some .fault := by
  simp only [nextObj] at h
  simp only [specStep]
  generalize mergeableObj s u ix = x at h ⊢
  rcases x with _ | o
  · rfl
  · cases o <;> simp [kindOf] at h <;> rfl

theorem specStep_fuel (E : Env) (fuel fuel1 : Nat) (hle : fuel ≤ fuel1) (u ix : Nat) (s : VM)
    (r : Outcome (Option Nat)) (h : specStep E fuel u ix s = some r) :
    specStep E fuel1 u ix s = some r := by
  simp only [specStep] at h ⊢
  generalize mergeableObj s u ix = x at h ⊢
  rcases x with _ | o
  · exact h
  cases o with
  | func f => exact h
  | cls c => cases c <;> exact h
  | define name => exact h
  | global name => exact h
  | reqName kq name => exact h
  | tvData v => exact h
  | tvPad => exact h
  | preClass pre =>
    simp only [] at h ⊢
    generalize hd : defClass E fuel pre true s = y at h
    rcases y with _ | o
    · simp at h
    · rw [defClass_fuel E fuel fuel1 hle pre true s o hd]; exact h
  | reqUnit kq unit =>
    simp only [] at h ⊢
    split
    · rename_i hc
      rw [if_pos hc] at h
      generalize hm : mergeImpl E fuel unit _ = y at h
      rcases y with _ | o
      · simp at h
      · rw [(mergeImpl_walk_fuel E fuel fuel1 hle).2.2.2.2.2.2 _ _ _ hm]; exact h
    · rename_i hc
      rw [if_neg hc] at h
      exact h
  | done =>
    simp only [] at h ⊢
    split
    · rename_i hc
      rw [if_pos hc] at h
      generalize hm : mergeImplDone fuel u s = y at h
      rcases y with _ | o
      · simp at h
      · rw [mergeImplDone_fuel fuel fuel1 hle u s o hm]; exact h
    · rename_i hc
      rw [if_neg hc] at h
      exact h

theorem seqReplay_fuel (E : Env) (u : Nat) :
    ∀ (fuel fuel1 : Nat), fuel ≤ fuel1 → ∀ ix s r,
      seqReplay E u fuel ix s = some r → seqReplay E u fuel1 ix s = some r := by
  intro fuel
  induction fuel with
  | zero => intro _ _ ix s r h; simp [seqReplay] at h
  | succ n ih =>
    intro fuel1 hle ix s r h
    obtain ⟨m, rfl⟩ : ∃ m, fuel1 = m + 1 := ⟨fuel1 - 1, by omega⟩
    rw [seqReplay_succ] at h ⊢
    generalize hst : specStep E n u ix s = y at h
    rcases y with _ | o
    · simp at h
    · rw [specStep_fuel E n m (by omega) u ix s o hst]
      rcases o with ⟨_ | ix1, x⟩ | ⟨msg, x⟩ | _ <;> (try simp only [] at h ⊢) <;> try exact h
      exact ih m (by omega) _ _ _ h

/-- From the code to the sequential model: a result of the batched walk is
the result of the one-instruction-at-a-time interpreter. -/
theorem walk_to_seq (E : Env) :
    ∀ (fuel : Nat),
      (∀ u ix obj s r, nextObj s u ix = some (obj, .UnitMergeKindClass) →
        mergeImplClass E u fuel ix obj s = some r → seqReplay E u (fuel + 1) ix s = some r) ∧
      (∀ u ix obj s r, nextObj s u ix = some (obj, .UnitMergeKindUniqueDefinedClass) →
        mergeImplUnique E u fuel ix obj s = some r → seqReplay E u (fuel + 1) ix s = some r) ∧
      (∀ u ix obj s r, nextObj s u ix = some (obj, .UnitMergeKindDefine) →
        mergeImplDefine E u fuel ix obj s = some r → seqReplay E u (fuel + 1) ix s = some r) ∧
      (∀ u ix obj s r, nextObj s u ix = some (obj, .UnitMergeKindGlobal) →
        mergeImplGlobal E u fuel ix obj s = some r → seqReplay E u (fuel + 1) ix s = some r) ∧
      (∀ u ix obj kq s r, nextObj s u ix = some (obj, .UnitMergeKindReq kq) →
        mergeImplReq E u fuel ix obj s = some r → seqReplay E u (fuel + 1) ix s = some r) ∧
      (∀ u ix obj k s r, nextObj s u ix = some (obj, k) →
        mergeImplSwitch E u fuel ix obj k s = some r →
        seqReplay E u (fuel + 1) ix s = some r) := by
  intro fuel
  induction fuel with
  | zero =>
    refine ⟨?_, ?_, ?_, ?_, ?_, ?_⟩ <;> intros <;> rename_i h <;>
      first
        | (simp only [mergeImplClass] at h; exact absurd h (by simp))
        | (simp only [mergeImplUnique] at h; exact absurd h (by simp))
        | (simp only [mergeImplDefine] at h; exact absurd h (by simp))
        | (simp only [mergeImplGlobal] at h; exact absurd h (by simp))
        | (simp only [mergeImplReq] at h; exact absurd h (by simp))
        | (simp only [mergeImplSwitch] at h; exact absurd h (by simp))
  | succ n ih =>
    obtain ⟨ihC, ihU, ihD, ihG, ihQ, ihS⟩ := ih
    refine ⟨?_, ?_, ?_, ?_, ?_, ?_⟩
    · intro u ix obj s r hn h
      obtain ⟨hobj, hk⟩ := nextObj_some hn
      rw [seqReplay_succ]
      simp only [specStep, hobj]
      simp only [mergeImplClass] at h
      cases obj <;> (try (simp [kindOf] at hk; done)) <;> (try simp only [] at h ⊢) <;>
        try exact h
      rename_i pre
      generalize hd : defClass E n pre true s = y at h
      rcases y with _ | o
      · simp at h
      rw [defClass_fuel E n (n + 1) (by omega) pre true s o hd]
      rcases o with ⟨c, x⟩ | ⟨msg, x⟩ | _ <;> (try simp only [] at h ⊢) <;> try exact h
      cases hnx : nextObj x u (ix + 1) with
      | none =>
        rw [hnx] at h
        rw [seqReplay_succ, specStep_nextObj_none E n u (ix + 1) x hnx]
        exact h
      | some p =>
        obtain ⟨obj1, k⟩ := p
        rw [hnx] at h
        simp only [] at h
        split at h
        · rename_i hc; subst hc; exact ihC _ _ _ _ _ hnx h
        · exact ihS _ _ _ _ _ _ hnx h
    · intro u ix obj s r hn h
      obtain ⟨hobj, hk⟩ := nextObj_some hn
      rw [seqReplay_succ]
      simp only [specStep, hobj]
      simp only [mergeImplUnique] at h
      have hnext : ∀ x,
          (match nextObj x u (ix + 1) with
          | none => some Outcome.fault
          | some (obj1, k) =>
            if k = UnitMergeKind.UnitMergeKindUniqueDefinedClass then
              mergeImplUnique E u n (ix + 1) obj1 x
            else mergeImplSwitch E u n (ix + 1) obj1 k x) = some r →
          seqReplay E u (n + 1) (ix + 1) x = some r := by
        intro x h
        cases hnx : nextObj x u (ix + 1) with
        | none =>
          rw [hnx] at h
          rw [seqReplay_succ, specStep_nextObj_none E n u (ix + 1) x hnx]
          exact h
        | some p =>
          obtain ⟨obj1, k⟩ := p
          rw [hnx] at h
          simp only [] at h
          split at h
          · rename_i hc; subst hc; exact ihU _ _ _ _ _ hnx h
          · exact ihS _ _ _ _ _ _ hnx h
      cases obj <;> (try (simp [kindOf] at hk; done))
      rename_i c
      cases c <;> (try simp only [] at h ⊢) <;> try exact h
      rename_i cls
      generalize E.avail cls none true s = y at h ⊢
      rcases y with ⟨⟨av, other⟩, x⟩ | ⟨msg, x⟩ | _ <;> (try simp only [] at h ⊢) <;>
        try exact h
      cases av with
      | AvailFalse => exact h
      | AvailTrue => exact hnext _ h
      | AvailFail => cases other <;> exact h
    · intro u ix obj s r hn h
      obtain ⟨hobj, hk⟩ := nextObj_some hn
      rw [seqReplay_succ]
      simp only [specStep, hobj]
      simp only [mergeImplDefine] at h
      cases obj <;> (try (simp [kindOf] at hk; done))
      rename_i name
      generalize mergeableObj s u (ix + 1) = y at h ⊢
      rcases y with _ | w
      · exact h
      cases w <;> (try simp only [] at h ⊢) <;> try exact h
      rename_i v
      cases hnx : nextObj (mergeCns v._count v name s) u (ix + 3) with
      | none =>
        rw [hnx] at h
        rw [seqReplay_succ, specStep_nextObj_none E n u (ix + 3) _ hnx]
        exact h
      | some p =>
        obtain ⟨obj1, k⟩ := p
        rw [hnx] at h
        simp only [] at h
        split at h
        · rename_i hc; subst hc; exact ihD _ _ _ _ _ hnx h
        · exact ihS _ _ _ _ _ _ hnx h
    · intro u ix obj s r hn h
      obtain ⟨hobj, hk⟩ := nextObj_some hn
      rw [seqReplay_succ]
      simp only [specStep, hobj]
      simp only [mergeImplGlobal] at h
      cases obj <;> (try (simp [kindOf] at hk; done))
      (try simp only [] at h ⊢)
      rename_i name
      generalize mergeableObj s u (ix + 1) = y at h ⊢
      rcases y with _ | w
      · exact h
      cases w <;> (try simp only [] at h ⊢) <;> try exact h
      rename_i v
      cases hnx : nextObj (setGlobal v name s) u (ix + 3) with
      | none =>
        rw [hnx] at h
        rw [seqReplay_succ, specStep_nextObj_none E n u (ix + 3) _ hnx]
        exact h
      | some p =>
        obtain ⟨obj1, k⟩ := p
        rw [hnx] at h
        simp only [] at h
        split at h
        · rename_i hc; subst hc; exact ihG _ _ _ _ _ hnx h
        · exact ihS _ _ _ _ _ _ hnx h
    · intro u ix obj kq s r hn h
      obtain ⟨hobj, hk⟩ := nextObj_some hn
      rw [seqReplay_succ]
      simp only [specStep, hobj]
      simp only [mergeImplReq] at h
      have hnext : ∀ x,
          (match nextObj x u (ix + 1) with
          | none => some Outcome.fault
          | some (obj1, k) =>
            match k with
            | .UnitMergeKindReq _ => mergeImplReq E u n (ix + 1) obj1 x
            | _ => mergeImplSwitch E u n (ix + 1) obj1 k x) = some r →
          seqReplay E u (n + 1) (ix + 1) x = some r := by
        intro x h
        cases hnx : nextObj x u (ix + 1) with
        | none =>
          rw [hnx] at h
          rw [seqReplay_succ, specStep_nextObj_none E n u (ix + 1) x hnx]
          exact h
        | some p =>
          obtain ⟨obj1, k⟩ := p
          rw [hnx] at h
          simp only [] at h
          cases k <;> simp only [] at h <;>
            first | exact ihQ _ _ _ _ _ _ hnx h | exact ihS _ _ _ _ _ _ hnx h
      cases obj <;> (try (simp [kindOf] at hk; done))
      · exact h
      rename_i kq1 unit
      simp only [] at h ⊢
      by_cases hfl : s.tcFlags (s.units unit).m_cacheOffset &&& (s.units unit).m_cacheMask = 0
      · rw [if_pos hfl] at h ⊢
        generalize hm : mergeImpl E n unit _ = y at h
        rcases y with _ | o
        · simp at h
        rw [(mergeImpl_walk_fuel E n (n + 1) (by omega)).2.2.2.2.2.2 _ _ _ hm]
        rcases o with ⟨c, x⟩ | ⟨msg, x⟩ | _ <;> (try simp only [] at h ⊢) <;> try exact h
        by_cases hmo : (x.units unit).isMergeOnly = false
        · rw [if_pos hmo] at h ⊢
          generalize E.invokeFunc unit x = z at h ⊢
          rcases z with ⟨c2, y⟩ | ⟨msg, y⟩ | _ <;> (try simp only [] at h ⊢) <;>
            try exact h
          exact hnext y h
        · rw [if_neg hmo] at h ⊢
          exact hnext x h
      · rw [if_neg hfl] at h ⊢
        exact hnext s h
    · intro u ix obj k s r hn h
      simp only [mergeImplSwitch] at h
      cases k <;> simp only [] at h
      · exact seqReplay_fuel E u _ _ (by omega) _ _ _ (ihC _ _ _ _ _ hn h)
      · exact seqReplay_fuel E u _ _ (by omega) _ _ _ (ihU _ _ _ _ _ hn h)
      · exact seqReplay_fuel E u _ _ (by omega) _ _ _ (ihD _ _ _ _ _ hn h)
      · exact seqReplay_fuel E u _ _ (by omega) _ _ _ (ihG _ _ _ _ _ hn h)
      · exact seqReplay_fuel E u _ _ (by omega) _ _ _ (ihQ _ _ _ _ _ _ hn h)
      · obtain ⟨hobj, hk⟩ := nextObj_some hn
        rw [seqReplay_succ]
        simp only [specStep, hobj]
        cases obj <;> (try (simp [kindOf] at hk; done))
        simp only []
        by_cases hix : ix = (s.units u).m_mergeablesSize
        · rw [if_pos hix] at h ⊢
          rw [mergeImplDone_fuel n (n + 1) (by omega) u s r h]
          rcases r with ⟨c, x⟩ | ⟨msg, x⟩ | _ <;> rfl
        · rw [if_neg hix] at h ⊢
          cases h
          rfl

theorem seqReplay_nextObj_none (E : Env) (u fuel ix : Nat) (s : VM) (r : Outcome PUnit)
    (hn : nextObj s u ix = none) (h : seqReplay E u fuel ix s = some r) : some Outcome.fault = some r := by
  cases fuel with
  | zero => simp [seqReplay] at h
  | succ n =>
    rw [seqReplay_succ, specStep_nextObj_none E n u ix s hn] at h
    exact h

/-- A result of the outer loop that enters an inner loop is a result of that
inner loop with the same fuel. -/
theorem mergeImplSwitch_inner (E : Env) (u fuel ix : Nat) (obj : Mergeable) (s : VM)
    (r : Outcome PUnit) :
    (mergeImplSwitch E u fuel ix obj .UnitMergeKindClass s = some r →
      mergeImplClass E u fuel ix obj s = some r) ∧
    (mergeImplSwitch E u fuel ix obj .UnitMergeKindUniqueDefinedClass s = some r →
      mergeImplUnique E u fuel ix obj s = some r) ∧
    (mergeImplSwitch E u fuel ix obj .UnitMergeKindDefine s = some r →
      mergeImplDefine E u fuel ix obj s = some r) ∧
    (mergeImplSwitch E u fuel ix obj .UnitMergeKindGlobal s = some r →
      mergeImplGlobal E u fuel ix obj s = some r) ∧
    (∀ kq, mergeImplSwitch E u fuel ix obj (.UnitMergeKindReq kq) s = some r →
      mergeImplReq E u fuel ix obj s = some r) := by
  cases fuel with
  | zero =>
    refine ⟨?_, ?_, ?_, ?_, ?_⟩ <;> intros <;> rename_i h <;>
      (simp only [mergeImplSwitch] at h; exact absurd h (by simp))
  | succ n =>
    obtain ⟨hC, hU, hD, hG, hQ, _, _⟩ := mergeImpl_walk_fuel E n (n + 1) (by omega)
    refine ⟨?_, ?_, ?_, ?_, ?_⟩ <;> intros <;> rename_i h <;>
      simp only [mergeImplSwitch] at h
    · exact hC _ _ _ _ _ h
    · exact hU _ _ _ _ _ h
    · exact hD _ _ _ _ _ h
    · exact hG _ _ _ _ _ h
    · exact hQ _ _ _ _ _ h

/-- From the sequential model to the code: a result of the
one-instruction-at-a-time interpreter is the result of the batched walk. -/
theorem seq_to_walk (E : Env) (u : Nat) :
    ∀ (fuel ix : Nat) (obj : Mergeable) (k : UnitMergeKind) (s : VM) (r : Outcome PUnit),
      nextObj s u ix = some (obj, k) → seqReplay E u fuel ix s = some r →
      mergeImplSwitch E u (2 * fuel) ix obj k s = some r := by
  intro fuel
  induction fuel with
  | zero => intro ix obj k s r _ h; simp [seqReplay] at h
  | succ n ih =>
    intro ix obj k s r hn h
    obtain ⟨hobj, hk⟩ := nextObj_some hn
    rw [seqReplay_succ] at h
    simp only [specStep, hobj] at h
    have h2n : n ≤ 2 * n := by omega
    show mergeImplSwitch E u (2 * n + 1 + 1) ix obj k s = some r
    simp only [mergeImplSwitch]
    have hcont : ∀ ix1 x, seqReplay E u n ix1 x = some r →
        ∀ (f : Mergeable → UnitMergeKind → Option (Outcome PUnit)),
          (∀ obj1 k1, mergeImplSwitch E u (2 * n) ix1 obj1 k1 x = some r → f obj1 k1 = some r) →
          (match nextObj x u ix1 with
            | none => some Outcome.fault
            | some (obj1, k1) => f obj1 k1) = some r := by
      intro ix1 x hx f hf
      cases hnx : nextObj x u ix1 with
      | none => exact seqReplay_nextObj_none E u n ix1 x r hnx hx
      | some p =>
        obtain ⟨obj1, k1⟩ := p
        exact hf obj1 k1 (ih ix1 obj1 k1 x r hnx hx)
    cases obj with
    | func f =>
      simp [kindOf] at hk; subst hk
      simp only [mergeImplClass]; exact h
    | preClass pre =>
      simp [kindOf] at hk; subst hk
      simp only [mergeImplClass]
      simp only [] at h
      generalize hd : defClass E n pre true s = y at h
      rcases y with _ | o
      · simp at h
      rw [defClass_fuel E n (2 * n) h2n pre true s o hd]
      rcases o with ⟨c, x⟩ | ⟨msg, x⟩ | _ <;> (try simp only [] at h ⊢) <;> try exact h
      refine hcont (ix + 1) x h
        (fun obj1 k1 => if k1 = UnitMergeKind.UnitMergeKindClass then
          mergeImplClass E u (2 * n) (ix + 1) obj1 x
          else mergeImplSwitch E u (2 * n) (ix + 1) obj1 k1 x) ?_
      intro obj1 k1 hs
      simp only []
      split
      · rename_i hc; subst hc
        exact (mergeImplSwitch_inner E u (2 * n) (ix + 1) obj1 x r).1 hs
      · exact hs
    | tvData v => simp [kindOf] at hk
    | tvPad => simp [kindOf] at hk
    | reqName kq name =>
      simp [kindOf] at hk; subst hk
      simp only [mergeImplReq]; exact h
    | cls c =>
      simp [kindOf] at hk; subst hk
      simp only [mergeImplUnique]
      cases c with
      | none => exact h
      | some cls =>
        simp only [] at h ⊢
        have hnext : ∀ x, seqReplay E u n (ix + 1) (cls.setCached x) = some r →
            (match nextObj (cls.setCached x) u (ix + 1) with
            | none => some Outcome.fault
            | some (obj1, k) =>
              if k = UnitMergeKind.UnitMergeKindUniqueDefinedClass then
                mergeImplUnique E u (2 * n) (ix + 1) obj1 (cls.setCached x)
              else mergeImplSwitch E u (2 * n) (ix + 1) obj1 k (cls.setCached x)) = some r := by
          intro x hx
          refine hcont (ix + 1) _ hx
            (fun obj1 k1 => if k1 = UnitMergeKind.UnitMergeKindUniqueDefinedClass then
              mergeImplUnique E u (2 * n) (ix + 1) obj1 (cls.setCached x)
              else mergeImplSwitch E u (2 * n) (ix + 1) obj1 k1 (cls.setCached x)) ?_
          intro obj1 k1 hs
          simp only []
          split
          · rename_i hc; subst hc
            exact (mergeImplSwitch_inner E u (2 * n) (ix + 1) obj1 _ r).2.1 hs
          · exact hs
        generalize E.avail cls none true s = y at h ⊢
        rcases y with ⟨⟨av, other⟩, x⟩ | ⟨msg, x⟩ | _ <;> (try simp only [] at h ⊢) <;>
          try exact h
        cases av with
        | AvailFalse => exact h
        | AvailTrue => exact hnext _ h
        | AvailFail => cases other <;> exact h
    | define name =>
      simp [kindOf] at hk; subst hk
      simp only [mergeImplDefine]
      simp only [] at h
      generalize mergeableObj s u (ix + 1) = y at h ⊢
      rcases y with _ | w
      · exact h
      cases w <;> try exact h
      rename_i v
      simp only [] at h ⊢
      refine hcont (ix + 3) _ h
        (fun obj1 k1 => if k1 = UnitMergeKind.UnitMergeKindDefine then
          mergeImplDefine E u (2 * n) (ix + 3) obj1 (mergeCns v._count v name s)
          else mergeImplSwitch E u (2 * n) (ix + 3) obj1 k1 (mergeCns v._count v name s)) ?_
      intro obj1 k1 hs
      simp only []
      split
      · rename_i hc; subst hc
        exact (mergeImplSwitch_inner E u (2 * n) (ix + 3) obj1 _ r).2.2.1 hs
      · exact hs
    | global name =>
      simp [kindOf] at hk; subst hk
      simp only [mergeImplGlobal]
      simp only [] at h
      generalize mergeableObj s u (ix + 1) = y at h ⊢
      rcases y with _ | w
      · exact h
      cases w <;> try exact h
      rename_i v
      simp only [] at h ⊢
      refine hcont (ix + 3) _ h
        (fun obj1 k1 => if k1 = UnitMergeKind.UnitMergeKindGlobal then
          mergeImplGlobal E u (2 * n) (ix + 3) obj1 (setGlobal v name s)
          else mergeImplSwitch E u (2 * n) (ix + 3) obj1 k1 (setGlobal v name s)) ?_
      intro obj1 k1 hs
      simp only []
      split
      · rename_i hc; subst hc
        exact (mergeImplSwitch_inner E u (2 * n) (ix + 3) obj1 _ r).2.2.2.1 hs
      · exact hs
    | reqUnit kq unit =>
      simp [kindOf] at hk; subst hk
      simp only [mergeImplReq]
      simp only [] at h
      have hnext : ∀ x, seqReplay E u n (ix + 1) x = some r →
          (match nextObj x u (ix + 1) with
          | none => some Outcome.fault
          | some (obj1, k) =>
            match k with
            | .UnitMergeKindReq _ => mergeImplReq E u (2 * n) (ix + 1) obj1 x
            | _ => mergeImplSwitch E u (2 * n) (ix + 1) obj1 k x) = some r := by
        intro x hx
        refine hcont (ix + 1) _ hx
          (fun obj1 k1 => match k1 with
            | .UnitMergeKindReq _ => mergeImplReq E u (2 * n) (ix + 1) obj1 x
            | _ => mergeImplSwitch E u (2 * n) (ix + 1) obj1 k1 x) ?_
        intro obj1 k1 hs
        cases k1 <;> simp only [] <;> try exact hs
        exact (mergeImplSwitch_inner E u (2 * n) (ix + 1) obj1 _ r).2.2.2.2 _ hs
      by_cases hfl : s.tcFlags (s.units unit).m_cacheOffset &&& (s.units unit).m_cacheMask = 0
      · rw [if_pos hfl] at h ⊢
        generalize hm : mergeImpl E n unit _ = y at h
        rcases y with _ | o
        · simp at h
        rw [(mergeImpl_walk_fuel E n (2 * n) h2n).2.2.2.2.2.2 _ _ _ hm]
        rcases o with ⟨c, x⟩ | ⟨msg, x⟩ | _ <;> (try simp only [] at h ⊢) <;> try exact h
        by_cases hmo : (x.units unit).isMergeOnly = false
        · rw [if_pos hmo] at h ⊢
          generalize E.invokeFunc unit x = z at h ⊢
          rcases z with ⟨c2, y⟩ | ⟨msg, y⟩ | _ <;> (try simp only [] at h ⊢) <;>
            try exact h
          exact hnext y h
        · rw [if_neg hmo] at h ⊢
          exact hnext x h
      · rw [if_neg hfl] at h ⊢
        exact hnext s h
    | done =>
      simp [kindOf] at hk; subst hk
      simp only [] at h ⊢
      by_cases hix : ix = (s.units u).m_mergeablesSize
      · rw [if_pos hix] at h ⊢
        generalize hm : mergeImplDone n u s = y at h
        rcases y with _ | o
        · simp at h
        rw [mergeImplDone_fuel n (2 * n + 1) (by omega) u s o hm]
        rcases o with ⟨c, x⟩ | ⟨msg, x⟩ | _ <;> exact h
      · rw [if_neg hix] at h ⊢
        exact h

/-- C13.  When the loop over the hoistable prefix ends without
`redoHoistable`, `mergeImpl` and the one-instruction-at-a-time interpreter
`seqReplay`, started at the first remaining instruction in the state after
the prefix, have the same results: each result of one (an end state, a raised
error with its state, or a fault) is the result of the other with enough
fuel, and no two amounts of fuel give different results; the bounds on the
fuel are explicit. -/
theorem sequential_walk (E : Env) (u : Nat) (s : VM) (r1 : PUnit) (s1 s2 : VM) (f0 : Nat)
    (hle : (s.units u).m_firstHoistableFunc ≤ (s.units u).m_firstHoistablePreClass)
    (hf : mergeImplFuncs E u (s.units u).m_mergeState.uniqueFuncs
      ((s.units u).m_firstHoistablePreClass - (s.units u).m_firstHoistableFunc)
      (s.units u).m_firstHoistableFunc s = .ok r1 s1)
    (hh : mergeImplHoistable E f0 u
      ((s1.units u).m_firstMergeablePreClass - (s1.units u).m_firstHoistablePreClass)
      (s1.units u).m_firstHoistablePreClass false s1 = some (.ok false s2)) :
    (∀ r, (∃ fuel, mergeImpl E fuel u s = some r) ↔
      (∃ fuel, seqReplay E u fuel
        (max (s1.units u).m_firstHoistablePreClass (s1.units u).m_firstMergeablePreClass) s2 =
          some r)) ∧
    (∀ fuel fuel1 r r2, mergeImpl E fuel u s = some r → mergeImpl E fuel1 u s = some r2 →
      r = r2) ∧
    (∀ fuel fuel1 r r2,
      seqReplay E u fuel
        (max (s1.units u).m_firstHoistablePreClass (s1.units u).m_firstMergeablePreClass) s2 =
          some r →
      seqReplay E u fuel1
        (max (s1.units u).m_firstHoistablePreClass (s1.units u).m_firstMergeablePreClass) s2 =
          some r2 → r = r2) ∧
    (∀ fuel r, f0 ≤ fuel → mergeImpl E (fuel + 1) u s = some r →
      seqReplay E u (fuel + 1)
        (max (s1.units u).m_firstHoistablePreClass (s1.units u).m_firstMergeablePreClass) s2 =
          some r) ∧
    (∀ fuel r,
      seqReplay E u fuel
        (max (s1.units u).m_firstHoistablePreClass (s1.units u).m_firstMergeablePreClass) s2 =
          some r →
      mergeImpl E (max f0 (2 * fuel) + 1) u s = some r) := by
  generalize hstart :
    max (s1.units u).m_firstHoistablePreClass (s1.units u).m_firstMergeablePreClass = start
  have key : ∀ F, f0 ≤ F → mergeImpl E (F + 1) u s =
      match nextObj s2 u start with
      | none => some .fault
      | some (obj, k) => mergeImplSwitch E u F start obj k s2 := by
    intro F hF
    simp only [mergeImpl]
    rw [if_neg (by omega), hf]
    simp only []
    by_cases hlt : (s1.units u).m_firstHoistablePreClass < (s1.units u).m_firstMergeablePreClass
    · rw [if_pos hlt, mergeImplHoistable_fuel E f0 F hF u _ _ _ _ _ hh]
      simp only []
      rw [if_neg (by simp), if_neg (by simp), ← hstart, max_eq_right (by omega)]
    · rw [if_neg hlt]
      rw [Nat.sub_eq_zero_of_le (by omega)] at hh
      simp only [mergeImplHoistable, Option.some.injEq, Outcome.ok.injEq, true_and] at hh
      subst hh
      rw [← hstart, max_eq_left (by omega)]
  have hto : ∀ fuel r, f0 ≤ fuel → mergeImpl E (fuel + 1) u s = some r →
      seqReplay E u (fuel + 1) start s2 = some r := by
    intro fuel r hF h
    rw [key fuel hF] at h
    cases hnx : nextObj s2 u start with
    | none =>
      rw [hnx] at h
      rw [seqReplay_succ, specStep_nextObj_none E fuel u start s2 hnx]
      exact h
    | some p =>
      obtain ⟨obj, k⟩ := p
      rw [hnx] at h
      exact (walk_to_seq E fuel).2.2.2.2.2 _ _ _ _ _ _ hnx h
  have hfrom : ∀ fuel r, seqReplay E u fuel start s2 = some r →
      mergeImpl E (max f0 (2 * fuel) + 1) u s = some r := by
    intro fuel r h
    rw [key _ (le_max_left _ _)]
    cases hnx : nextObj s2 u start with
    | none => exact seqReplay_nextObj_none E u fuel start s2 r hnx h
    | some p =>
      obtain ⟨obj, k⟩ := p
      exact (mergeImpl_walk_fuel E (2 * fuel) _ (le_max_right _ _)).2.2.2.2.2.1 _ _ _ _ _ _
        (seq_to_walk E u fuel start obj k s2 r hnx h)
  have hdet : ∀ fuel fuel1 r r2, mergeImpl E fuel u s = some r →
      mergeImpl E fuel1 u s = some r2 → r = r2 := by
    intro fuel fuel1 r r2 h1 h2
    have a := (mergeImpl_walk_fuel E fuel (max fuel fuel1) (le_max_left _ _)).2.2.2.2.2.2 _ _ _ h1
    have b := (mergeImpl_walk_fuel E fuel1 (max fuel fuel1) (le_max_right _ _)).2.2.2.2.2.2 _ _ _ h2
    rw [a] at b
    exact Option.some.inj b
  refine ⟨?_, hdet, ?_, hto, hfrom⟩
  · intro r
    constructor
    · rintro ⟨fuel, h⟩
      cases fuel with
      | zero => simp [mergeImpl] at h
      | succ g =>
        refine ⟨max g f0 + 1, hto _ r (le_max_right _ _) ?_⟩
        exact (mergeImpl_walk_fuel E (g + 1) _
          (Nat.succ_le_succ (le_max_left _ _))).2.2.2.2.2.2 _ _ _ h
    · rintro ⟨fuel, h⟩
      exact ⟨_, hfrom fuel r h⟩
  · intro fuel fuel1 r r2 h1 h2
    have a := seqReplay_fuel E u fuel (max fuel fuel1) (le_max_left _ _) _ _ _ h1
    have b := seqReplay_fuel E u fuel1 (max fuel fuel1) (le_max_right _ _) _ _ _ h2
    rw [a] at b
    exact Option.some.inj b

theorem sequential_walk_witness :
    mergeImplHoistable quietEnv 0 3 (1 - 1) 1 false exVMSeq = some (.ok false exVMSeq) ∧
    seqReplay quietEnv 3 3 1 exVMSeq = some (.ok PUnit.unit exVMSeqEnd) ∧
    mergeImpl quietEnv (max 0 (2 * 3) + 1) 3 exVMSeq = some (.ok PUnit.unit exVMSeqEnd) :=
  ⟨rfl, rfl,
    (sequential_walk quietEnv 3 exVMSeq PUnit.unit exVMSeq exVMSeq 0 (by decide) rfl rfl).2.2.2.2
      3 _ rfl⟩

/-- C14, the claim fails as stated: in `exVMTwice` the slot of `X` is
uninitialised, but `X` is registered as a constant; the replay of
`Define(X, 1); Define(X, 2)` leaves `X` bound to the earlier value, not to 1,
and records two warnings. -/
theorem define_first_writer_counterexample :
    (exVMTwice.tcCns 89).m_type = DataType.KindOfUninit ∧
    mergeableObj exVMTwice 4 1 = some (.define "X") ∧
    mergeableObj exVMTwice 4 2 = some (.tvData exValX) ∧
    mergeableObj exVMTwice 4 4 = some (.define "X") ∧
    mergeableObj exVMTwice 4 5 = some (.tvData exValX2) ∧
    mergeImpl quietEnv 5 4 exVMTwice = some (.ok PUnit.unit exVMTwiceEnd) ∧
    exVMTwiceEnd.constants "X" = some exVal0 ∧
    exVMTwiceEnd.constants "X" ≠ some exValX ∧
    (exVMTwiceEnd.tcCns 89).m_type = DataType.KindOfUninit ∧
    exVMTwiceEnd.warnings = ["Constant X already defined", "Constant X already defined"] := by
  refine ⟨rfl, rfl, rfl, rfl, rfl, rfl, rfl, ?_, rfl, ?_⟩
  · decide
  · decide

/-- C14, as amended.  When the slot of `X` is uninitialised and `X` is not
registered as a constant, the replay of `Define(X, v1); Define(X, v2)` goes on
after the two instructions in a state where `X` is bound to `v1`, in the
constant table and in the slot, with exactly one more warning.  In general a
`Define` whose slot is initialised or whose name is registered only appends
the warning: the bound value stays, nothing is raised. -/
theorem define_first_writer_wins (E : Env) (u fuel ix : Nat) (name : String)
    (v1 v2 : TypedValue) (s : VM)
    (hv1 : mergeableObj s u (ix + 1) = some (.tvData v1))
    (hd2 : mergeableObj s u (ix + 3) = some (.define name))
    (hv2 : mergeableObj s u (ix + 3 + 1) = some (.tvData v2))
    (hslot : (s.tcCns v1._count).m_type = DataType.KindOfUninit)
    (hname : s.constants name = none) :
    (∃ t : VM,
      mergeImplDefine E u (fuel + 2) ix (.define name) s =
        (match nextObj t u (ix + 3 + 3) with
        | none => some .fault
        | some (obj1, k) =>
          if k = UnitMergeKind.UnitMergeKindDefine then
            mergeImplDefine E u fuel (ix + 3 + 3) obj1 t
          else mergeImplSwitch E u fuel (ix + 3 + 3) obj1 k t) ∧
      t = mergeCns v2._count v2 name (mergeCns v1._count v1 name s) ∧
      t.constants name = some v1 ∧
      (t.tcCns v1._count).m_data = v1.m_data ∧
      (t.tcCns v1._count).m_type = v1.m_type ∧
      t.warnings = s.warnings ++ ["Constant " ++ name ++ " already defined"]) ∧
    (∀ (x : VM) (off : Nat) (v : TypedValue),
      (x.tcCns off).m_type ≠ DataType.KindOfUninit ∨ x.constants name ≠ none →
      mergeCns off v name x = raise_warning ("Constant " ++ name ++ " already defined") x ∧
      (mergeCns off v name x).constants = x.constants ∧
      (mergeCns off v name x).tcCns = x.tcCns ∧
      (mergeCns off v name x).warnings =
        x.warnings ++ ["Constant " ++ name ++ " already defined"]) := by
  have hgen : ∀ (x : VM) (off : Nat) (v : TypedValue),
      (x.tcCns off).m_type ≠ DataType.KindOfUninit ∨ x.constants name ≠ none →
      mergeCns off v name x = raise_warning ("Constant " ++ name ++ " already defined") x := by
    intro x off v h
    unfold mergeCns insertCns
    by_cases h1 : (x.tcCns off).m_type = DataType.KindOfUninit
    · rw [if_pos h1]
      rcases h with h | h
      · exact absurd h1 h
      · cases hc : x.constants name with
        | none => exact absurd hc h
        | some w => simp
    · rw [if_neg h1]
  constructor
  · have hu1 : (mergeCns v1._count v1 name s).units = s.units :=
      (mergeCns_frame v1._count v1 name s).2.2.2.1
    have ht1 : (mergeCns v1._count v1 name s).constants name = some v1 := by
      unfold mergeCns insertCns
      simp [hslot, hname]
    have h2 := hgen (mergeCns v1._count v1 name s) v2._count v2 (Or.inr (by rw [ht1]; simp))
    refine ⟨mergeCns v2._count v2 name (mergeCns v1._count v1 name s), ?_, rfl, ?_, ?_, ?_, ?_⟩
    · have hn : nextObj (mergeCns v1._count v1 name s) u (ix + 3) =
          some (.define name, .UnitMergeKindDefine) := by
        simp only [nextObj, mergeableObj, hu1]
        simp only [mergeableObj] at hd2
        rw [hd2]
        rfl
      have hv : mergeableObj (mergeCns v1._count v1 name s) u (ix + 3 + 1) =
          some (.tvData v2) := by
        simp only [mergeableObj, hu1]
        exact hv2
      simp only [mergeImplDefine, hv1, hn, hv, if_true]
    · rw [h2]; exact ht1
    · rw [h2]
      unfold mergeCns insertCns raise_warning
      simp [hslot, hname]
    · rw [h2]
      unfold mergeCns insertCns raise_warning
      simp [hslot, hname]
    · rw [h2]
      unfold mergeCns insertCns raise_warning
      simp [hslot, hname]
  · intro x off v h
    rw [hgen x off v h]
    exact ⟨rfl, rfl, rfl, rfl⟩

theorem define_first_writer_wins_witness :
    (exVMTwiceFresh.tcCns exValX._count).m_type = DataType.KindOfUninit ∧
    exVMTwiceFresh.constants "X" = none ∧
    ∃ t : VM,
      t = mergeCns exValX2._count exValX2 "X" (mergeCns exValX._count exValX "X" exVMTwiceFresh) ∧
      t.constants "X" = some exValX ∧
      t.warnings = exVMTwiceFresh.warnings ++ ["Constant " ++ "X" ++ " already defined"] :=
  ⟨rfl, rfl,
    match (define_first_writer_wins quietEnv 4 0 1 "X" exValX exValX2 exVMTwiceFresh
      rfl rfl rfl rfl rfl).1 with
    | ⟨t, _, h2, h3, _, _, h6⟩ => ⟨t, h2, h3, h6⟩⟩

/-- C15, the claim fails: the replay of `Global(G, 1); Global(G, 2)` leaves
`G` bound to 2, and records no warning. -/
theorem global_first_writer_counterexample :
    mergeableObj exVMGlobals 5 1 = some (.global "G") ∧
    mergeableObj exVMGlobals 5 2 = some (.tvData exValG1) ∧
    mergeableObj exVMGlobals 5 4 = some (.global "G") ∧
    mergeableObj exVMGlobals 5 5 = some (.tvData exValG2) ∧
    exVMGlobals.globals "G" = none ∧
    mergeImpl quietEnv 5 5 exVMGlobals = some (.ok PUnit.unit exVMGlobalsEnd) ∧
    exVMGlobalsEnd.globals "G" = some exValG2 ∧
    exVMGlobalsEnd.globals "G" ≠ some exValG1 ∧
    exVMGlobalsEnd.warnings = [] := by
  refine ⟨rfl, rfl, rfl, rfl, rfl, rfl, rfl, ?_, rfl⟩
  decide

/-- C15, as amended.  The replay of `Global(G, v1); Global(G, v2)` goes on
after the two instructions in a state where `G` is bound to `v2`: each
`Global` assigns its value to the variable (`tvSet`), whatever the variable
held, changes no other variable, and records no warning. -/
theorem global_last_writer_wins (E : Env) (u fuel ix : Nat) (name : String)
    (v1 v2 : TypedValue) (s : VM)
    (hv1 : mergeableObj s u (ix + 1) = some (.tvData v1))
    (hd2 : mergeableObj s u (ix + 3) = some (.global name))
    (hv2 : mergeableObj s u (ix + 3 + 1) = some (.tvData v2)) :
    (∃ t : VM,
      mergeImplGlobal E u (fuel + 2) ix (.global name) s =
        (match nextObj t u (ix + 3 + 3) with
        | none => some .fault
        | some (obj1, k) =>
          if k = UnitMergeKind.UnitMergeKindGlobal then
            mergeImplGlobal E u fuel (ix + 3 + 3) obj1 t
          else mergeImplSwitch E u fuel (ix + 3 + 3) obj1 k t) ∧
      t = setGlobal v2 name (setGlobal v1 name s) ∧
      t.globals name = some v2 ∧
      t.warnings = s.warnings) ∧
    (∀ (x : VM) (v : TypedValue),
      (setGlobal v name x).globals name = some v ∧
      (∀ other, other ≠ name → (setGlobal v name x).globals other = x.globals other) ∧
      (setGlobal v name x).warnings = x.warnings) := by
  constructor
  · refine ⟨setGlobal v2 name (setGlobal v1 name s), ?_, rfl, ?_, rfl⟩
    · have hn : nextObj (setGlobal v1 name s) u (ix + 3) =
          some (.global name, .UnitMergeKindGlobal) := by
        simp only [nextObj, mergeableObj, setGlobal]
        simp only [mergeableObj] at hd2
        rw [hd2]
        rfl
      have hv : mergeableObj (setGlobal v1 name s) u (ix + 3 + 1) = some (.tvData v2) := hv2
      simp only [mergeImplGlobal, hv1, hn, hv, if_true]
    · simp [setGlobal]
  · intro x v
    refine ⟨by simp [setGlobal], ?_, rfl⟩
    intro other ho
    simp [setGlobal, Function.update_apply, ho]

theorem global_last_writer_wins_witness :
    ∃ t : VM,
      t = setGlobal exValG2 "G" (setGlobal exValG1 "G" exVMGlobals) ∧
      t.globals "G" = some exValG2 ∧ t.warnings = exVMGlobals.warnings :=
  match (global_last_writer_wins quietEnv 5 0 1 "G" exValG1 exValG2 exVMGlobals
    rfl rfl rfl).1 with
  | ⟨t, _, h2, h3, h4⟩ => ⟨t, h2, h3, h4⟩

/-! ## Include de-duplication -/

theorem and_or_ne_zero (f m b : Nat) (h : f &&& b ≠ 0) : (f ||| m) &&& b ≠ 0 := by
  intro h0
  apply h
  apply Nat.eq_of_testBit_eq
  intro i
  have := congrArg (fun x => x.testBit i) h0
  simp only [Nat.testBit_and, Nat.testBit_or, Nat.zero_testBit] at this ⊢
  cases hf : f.testBit i <;> cases hb : b.testBit i <;> simp_all

theorem or_and_self_ne_zero (f m : Nat) (h : m ≠ 0) : (f ||| m) &&& m ≠ 0 := by
  have : (f ||| m) &&& m = m := by
    apply Nat.eq_of_testBit_eq
    intro i
    simp only [Nat.testBit_and, Nat.testBit_or]
    cases f.testBit i <;> cases m.testBit i <;> rfl
  rw [this]; exact h

theorem flagsKept_of_eq (s t : VM) (h1 : t.clsList = s.clsList) (h2 : t.units = s.units)
    (h3 : t.tcFlags = s.tcFlags) : FlagsKept s t := by
  refine ⟨⟨fun n => by rw [h1], fun hs n => by rw [h1]; exact hs n⟩, ?_, ?_⟩
  · intro v; rw [h2]; exact unitStep_refl _
  · intro off m h; rw [h3]; exact h

theorem flagsKept_trans {a b c : VM} (h1 : FlagsKept a b) (h2 : FlagsKept b c) :
    FlagsKept a c :=
  ⟨mono_trans h1.1 h2.1, fun v => unitStep_trans (h1.2.1 v) (h2.2.1 v),
    fun off m h => h2.2.2 off m (h1.2.2 off m h)⟩

/-- Publishing a fresh class keeps the flag bits and the units. -/
theorem defClassPublish_flagsKept (E : Env) (P : PreClass) (N : Class) (s : VM)
    (hs : ChainsOK s) (hf : ∀ d ∈ s.clsList P.name, d.addr ≠ N.addr) :
    FlagsKept s (defClassPublish E P (s.clsList P.name) N s).2 :=
  ⟨defClassPublish_mono E P N s hs hf, fun _ => unitStep_refl _, fun _ _ h => h⟩

/-- The bits of the flag bytes stay set along everything that `mergeImpl`
does, when the collaborators keep them. -/
theorem mergeRel_flagsKept (E : Env) (hE : E.Respects FlagsKept) (hF : E.Fresh) :
    MergeRel E FlagsKept where
  refl := fun s => flagsKept_of_eq s s rfl rfl rfl
  trans := fun _ _ _ h1 h2 => flagsKept_trans h1 h2
  mono := fun _ _ h => h.1
  env := hE
  fresh := hF
  setCached := setCached_of_all (fun _ _ _ h1 h2 => flagsKept_trans h1 h2)
    (fun c s => ⟨setCached_mono c s, fun _ => unitStep_refl _, fun _ _ h => h⟩)
  publish := publish_of_all E (fun _ _ _ h1 h2 => flagsKept_trans h1 h2) <| by
    intro P N s hs hf
    exact ⟨defClassPublish_mono E P N s hs hf, fun _ => unitStep_refl _, fun _ _ h => h⟩
  tcFunc := fun s _ _ _ _ _ => flagsKept_of_eq s _ rfl rfl rfl
  mergeCns := by
    intro off v name s
    have h := mergeCns_frame off v name s
    exact flagsKept_of_eq _ _ h.1 h.2.2.2.1 h.2.2.2.2.1
  setGlobal := fun _ _ s => flagsKept_of_eq s _ rfl rfl rfl
  tcFlags := by
    intro s off m
    refine ⟨⟨fun n => List.suffix_refl _, fun hs => hs⟩, fun _ => unitStep_refl _, ?_⟩
    intro off1 b h
    simp only [Function.update_apply]
    split
    · rename_i he; subst he; exact and_or_ne_zero _ _ _ h
    · exact h
  rewrite := by
    intro s t h _
    refine ⟨⟨fun n => by rw [h.1], fun hs n => by rw [h.1]; exact hs n⟩, h.2, ?_⟩
    intro off m hm
    rw [h.1]; exact hm

theorem marked_kept {s t : VM} (h : FlagsKept s t) {v : Nat} (hm : Marked s v) : Marked t v := by
  unfold Marked at hm ⊢
  rw [(h.2.1 v).cacheOffset, (h.2.1 v).cacheMask]
  exact h.2.2 _ _ hm

theorem includesHaveBit_kept {s t : VM} (h : FlagsKept s t) (hs : IncludesHaveBit s) :
    IncludesHaveBit t := by
  intro w ix k v hw
  rw [(h.2.1 v).cacheMask]
  simp only [mergeableObj] at hw
  rcases (h.2.1 w).words ix _ hw with h1 | ⟨c, p, hc, _⟩
  · exact hs w ix k v h1
  · cases hc

theorem setLoaded_flagsKept (s : VM) (v : Nat) : FlagsKept s (setLoaded s v) := by
  refine ⟨⟨fun n => List.suffix_refl _, fun hs => hs⟩, fun _ => unitStep_refl _, ?_⟩
  intro off1 b h
  simp only [setLoaded, Function.update_apply]
  split
  · rename_i he; subst he; exact and_or_ne_zero _ _ _ h
  · exact h

theorem setLoaded_marked (s : VM) (v : Nat) (h : (s.units v).m_cacheMask ≠ 0) :
    Marked (setLoaded s v) v := by
  simp only [Marked, setLoaded, Function.update_same]
  exact or_and_self_ne_zero _ _ h

/-- One instruction of the sequential model keeps `R`. -/
theorem specStep_post (E : Env) (R : VM → VM → Prop) (hR : MergeRel E R) (fuel u ix : Nat)
    (s : VM) (hs : ChainsOK s) : Post R s (specStep E fuel u ix s) := by
  simp only [specStep]
  generalize hobj : mergeableObj s u ix = x
  rcases x with _ | o
  · exact True.intro
  cases o with
  | func f => exact True.intro
  | define name =>
    simp only []
    generalize mergeableObj s u (ix + 1) = y
    rcases y with _ | w
    · exact True.intro
    cases w <;> try exact True.intro
    exact hR.mergeCns _ _ _ _
  | global name =>
    simp only []
    generalize mergeableObj s u (ix + 1) = y
    rcases y with _ | w
    · exact True.intro
    cases w <;> try exact True.intro
    exact hR.setGlobal _ _ _
  | reqName kq name => exact True.intro
  | tvData v => exact True.intro
  | tvPad => exact True.intro
  | preClass pre =>
    simp only []
    have hd := defClass_post E R hR.toDefClassRel fuel pre true s hs
    generalize defClass E fuel pre true s = r at hd ⊢
    rcases r with _ | ⟨c, x⟩ | ⟨m, x⟩ | _ <;> first | exact True.intro | exact hd
  | cls c =>
    cases c with
    | none => exact True.intro
    | some cls =>
      simp only []
      rcases hav : E.avail cls none true s with ⟨⟨av, other⟩, x⟩ | ⟨m, x⟩ | _ <;>
        (try simp only []) <;> try exact True.intro
      · have hx : R s x := hR.env.avail_ok hav
        have hx2 : R s (cls.setCached x) := hR.setCached cls s x hx (Or.inr ⟨u, ix, hobj⟩)
        cases av with
        | AvailFalse => exact True.intro
        | AvailTrue => exact hx2
        | AvailFail =>
          cases other with
          | none => exact True.intro
          | some o => exact hx
      · exact hR.env.avail_raised hav
  | reqUnit kq unit =>
    simp only []
    split
    · have h1 := hR.tcFlags s (s.units unit).m_cacheOffset (s.units unit).m_cacheMask
      have hok1 := defClassRel_chainsOK hR.toDefClassRel h1 hs
      have hm := (mergeImpl_walk_post E R hR fuel).2.2.2.2.2.2 unit _ hok1
      generalize mergeImpl E fuel unit _ = r at hm ⊢
      rcases r with _ | ⟨c, x⟩ | ⟨m, x⟩ | _ <;> (try simp only []) <;> try exact True.intro
      · have hx : R s x := hR.trans _ _ _ h1 hm
        split
        · rcases hinv : E.invokeFunc unit x with ⟨r2, y⟩ | ⟨m, y⟩ | _ <;>
            (try simp only []) <;> try exact True.intro
          · exact hR.trans _ _ _ hx (hR.env.invokeFunc_ok hinv)
          · exact hR.trans _ _ _ hx (hR.env.invokeFunc_raised hinv)
        · exact hx
      · exact hR.trans _ _ _ h1 hm
    · exact hR.refl s
  | done =>
    simp only []
    split
    · have hd := mergeImplDone_post E R hR fuel u s
      generalize mergeImplDone fuel u s = r at hd ⊢
      rcases r with _ | ⟨c, x⟩ | ⟨m, x⟩ | _ <;> first | exact True.intro | exact hd
    · exact True.intro

/-- The sequential model keeps `R`. -/
theorem seqReplay_post (E : Env) (R : VM → VM → Prop) (hR : MergeRel E R) (u : Nat) :
    ∀ (fuel ix : Nat) (s : VM), ChainsOK s → Post R s (seqReplay E u fuel ix s) := by
  intro fuel
  induction fuel with
  | zero => intro ix s _; exact True.intro
  | succ n ih =>
    intro ix s hs
    rw [seqReplay_succ]
    have hp := specStep_post E R hR n u ix s hs
    generalize specStep E n u ix s = r at hp ⊢
    rcases r with _ | ⟨_ | ix1, x⟩ | ⟨m, x⟩ | _ <;> (try simp only []) <;>
      first | exact True.intro | exact hp | skip
    exact post_step hR.trans hp (ih ix1 x (defClassRel_chainsOK hR.toDefClassRel hp hs))

/-- An include instruction that finds the bit of its unit unset and returns:
the replay of the unit ran in the state with the bit set, and the walk goes
on with the next word in the state after the replay, or after the call of the
pseudo-main that follows it. -/
theorem specStep_include (E : Env) (fuel u ix : Nat) (s : VM) (k : ReqKind) (unit : Nat)
    (hobj : mergeableObj s u ix = some (.reqUnit k unit))
    (hfl : s.tcFlags (s.units unit).m_cacheOffset &&& (s.units unit).m_cacheMask = 0)
    (nx : Option Nat) (s3 : VM) (h : specStep E fuel u ix s = some (.ok nx s3)) :
    nx = some (ix + 1) ∧ ∃ a s2, mergeImpl E fuel unit (setLoaded s unit) = some (.ok a s2) ∧
      (s3 = s2 ∨ ∃ r, E.invokeFunc unit s2 = .ok r s3) := by
  simp only [specStep, hobj] at h
  rw [if_pos hfl] at h
  generalize hm0 : mergeImpl E fuel unit _ = y at h
  have hm : mergeImpl E fuel unit (setLoaded s unit) = y := hm0
  rcases y with _ | ⟨a, s2⟩ | ⟨m, s2⟩ | _ <;> simp only [] at h <;> try exact absurd h (by simp)
  split at h
  · rcases hinv : E.invokeFunc unit s2 with ⟨r2, y⟩ | ⟨m, y⟩ | _ <;> rw [hinv] at h <;>
      simp only [Option.some.injEq, Outcome.ok.injEq, reduceCtorEq] at h
    obtain ⟨h1, h2⟩ := h
    subst h2
    exact ⟨h1.symm, a, s2, hm, Or.inr ⟨r2, hinv⟩⟩
  · simp only [Option.some.injEq, Outcome.ok.injEq] at h
    obtain ⟨h1, h2⟩ := h
    subst h2
    exact ⟨h1.symm, a, s2, hm, Or.inl rfl⟩

/-- What `includesImpl` lists is what the walk of the remaining instructions
lists, from the state after the two loops at the head of `mergeImpl`; in that
case `mergeImpl` is that walk. -/
theorem includesImpl_cases (E : Env) (g u : Nat) (s : VM) :
    includesImpl E (g + 1) u s = [] ∨
    ∃ s2 start, includesImpl E (g + 1) u s = includesWalk E u g start s2 ∧
      (∀ R, MergeRel E R → ChainsOK s → R s s2) ∧
      (∀ G r, g ≤ G → mergeImpl E (G + 1) u s = some r →
        (match nextObj s2 u start with
        | none => some .fault
        | some (obj, k) => mergeImplSwitch E u G start obj k s2) = some r) := by
  simp only [includesImpl, mergeImpl]
  by_cases hlt0 : (s.units u).m_firstHoistablePreClass < (s.units u).m_firstHoistableFunc
  · left; simp only [if_pos hlt0]
  simp only [if_neg hlt0]
  have hfp := fun R (hR : MergeRel E R) => mergeImplFuncs_post E R hR u
    (s.units u).m_mergeState.uniqueFuncs
    ((s.units u).m_firstHoistablePreClass - (s.units u).m_firstHoistableFunc)
    (s.units u).m_firstHoistableFunc s (fun h => h)
  generalize mergeImplFuncs E u _ _ _ s = r0 at hfp ⊢
  rcases r0 with ⟨c, s1⟩ | ⟨m, s1⟩ | _ <;> (try simp only []) <;> try (left; trivial)
  by_cases hlt : (s1.units u).m_firstHoistablePreClass < (s1.units u).m_firstMergeablePreClass
  · simp only [if_pos hlt]
    cases hh : mergeImplHoistable E g u
        ((s1.units u).m_firstMergeablePreClass - (s1.units u).m_firstHoistablePreClass)
        (s1.units u).m_firstHoistablePreClass false s1 with
    | none => left; rfl
    | some o =>
      rcases o with ⟨redo, s2⟩ | ⟨m, s2⟩ | _ <;> (try simp only []) <;> try (left; trivial)
      by_cases h1 : redo = true ∧ (s2.units u).isMergeOnly = false
      · left; simp only [if_pos h1]
      by_cases h2 : redo = true ∧
          (s1.units u).m_firstMergeablePreClass = (s2.units u).m_mergeablesSize
      · left; simp only [if_neg h1, if_pos h2]
      right
      refine ⟨s2, (s1.units u).m_firstMergeablePreClass, ?_, ?_, ?_⟩
      · rw [if_neg h1, if_neg h2]
      · intro R hR hs
        have hs1 := defClassRel_chainsOK hR.toDefClassRel (hfp R hR) hs
        have hp := mergeImplHoistable_post E R hR.toDefClassRel g u
          ((s1.units u).m_firstMergeablePreClass - (s1.units u).m_firstHoistablePreClass)
          (s1.units u).m_firstHoistablePreClass false s1 hs1
        rw [hh] at hp
        exact hR.trans _ _ _ (hfp R hR) hp
      · intro G r hG h
        rw [mergeImplHoistable_fuel E g G hG u _ _ _ _ _ hh] at h
        simp only [] at h
        rw [if_neg h1, if_neg h2] at h
        exact h
  · simp only [if_neg hlt]
    right
    exact ⟨s1, (s1.units u).m_firstHoistablePreClass, rfl, fun R hR _ => hfp R hR,
      fun G r _ h => h⟩

/-- Every unit that the walk lists has its bit set in the state in which the
walk returns, whatever the fuel of the listing. -/
theorem includes_marked (E : Env) (hE : E.Respects FlagsKept) (hF : E.Fresh) :
    ∀ (g : Nat),
      (∀ G u ix s a t, g ≤ G → ChainsOK s → IncludesHaveBit s →
        seqReplay E u G ix s = some (.ok a t) → ∀ v ∈ includesWalk E u g ix s, Marked t v) ∧
      (∀ G u s a t, g ≤ G → ChainsOK s → IncludesHaveBit s →
        mergeImpl E G u s = some (.ok a t) → ∀ v ∈ includesImpl E g u s, Marked t v) := by
  have hR := mergeRel_flagsKept E hE hF
  intro g
  induction g with
  | zero =>
    refine ⟨?_, ?_⟩
    · intro G u ix s a t _ _ _ _ v hv; simp [includesWalk] at hv
    · intro G u s a t _ _ _ _ v hv; simp [includesImpl] at hv
  | succ g ih =>
    obtain ⟨ihW, ihI⟩ := ih
    refine ⟨?_, ?_⟩
    · intro G u ix s a t hG hs hb h v hv
      obtain ⟨G1, rfl⟩ : ∃ m, G = m + 1 := ⟨G - 1, by omega⟩
      have hgG : g ≤ G1 := by omega
      rw [seqReplay_succ] at h
      have hpost := specStep_post E FlagsKept hR G1 u ix s hs
      have hrest : ∀ v ∈ (match specStep E g u ix s with
          | some (.ok (some ix1) s1) => includesWalk E u g ix1 s1
          | _ => []), Marked t v := by
        intro v hv
        cases hst : specStep E g u ix s with
        | none => rw [hst] at hv; simp at hv
        | some r0 =>
          rw [hst] at hv
          have hst2 := specStep_fuel E g G1 hgG u ix s r0 hst
          rw [hst2] at h hpost
          rcases r0 with ⟨_ | ix1, x⟩ | ⟨m, x⟩ | _ <;> (try simp only [] at hv) <;>
            try exact absurd hv (by simp)
          simp only [] at h
          exact ihW G1 u ix1 x a t hgG (defClassRel_chainsOK hR.toDefClassRel hpost hs)
            (includesHaveBit_kept hpost hb) h v hv
      simp only [includesWalk] at hv
      generalize hobj : mergeableObj s u ix = x at hv
      rcases x with _ | o
      · exact hrest v hv
      cases o <;> (try simp only [] at hv) <;> try exact hrest v hv
      rename_i kq unit
      split at hv
      · rename_i hfl
        cases hst : specStep E G1 u ix s with
        | none => rw [hst] at h; simp at h
        | some r0 =>
          rw [hst] at h hpost
          rcases r0 with ⟨nx, x⟩ | ⟨m, x⟩ | _ <;> (try simp only [] at h) <;>
            try exact absurd h (by simp)
          obtain ⟨hnx, a2, s2, hm, hs3⟩ := specStep_include E G1 u ix s kq unit hobj hfl nx x hst
          subst hnx
          simp only [] at h
          have hk1 : FlagsKept s (setLoaded s unit) := setLoaded_flagsKept s unit
          have hs1 : ChainsOK (setLoaded s unit) := defClassRel_chainsOK hR.toDefClassRel hk1 hs
          have hk2 : FlagsKept (setLoaded s unit) s2 := by
            have hp := (mergeImpl_walk_post E FlagsKept hR G1).2.2.2.2.2.2 unit _ hs1
            rw [hm] at hp; exact hp
          have hk3 : FlagsKept s2 x := by
            rcases hs3 with rfl | ⟨r, hinv⟩
            · exact hR.refl _
            · exact hE.invokeFunc_ok hinv
          have hk4 : FlagsKept x t := by
            have hp := seqReplay_post E FlagsKept hR u G1 (ix + 1) x
              (defClassRel_chainsOK hR.toDefClassRel hpost hs)
            rw [h] at hp; exact hp
          rcases List.mem_cons.mp hv with rfl | hv
          · exact marked_kept (flagsKept_trans hk2 (flagsKept_trans hk3 hk4))
              (setLoaded_marked s v (hb u ix kq v hobj))
          rcases List.mem_append.mp hv with hv | hv
          · exact marked_kept (flagsKept_trans hk3 hk4)
              (ihI G1 unit (setLoaded s unit) a2 s2 hgG hs1 (includesHaveBit_kept hk1 hb) hm v hv)
          · exact hrest v hv
      · exact hrest v hv
    · intro G u s a t hG hs hb h v hv
      obtain ⟨G1, rfl⟩ : ∃ m, G = m + 1 := ⟨G - 1, by omega⟩
      have hgG : g ≤ G1 := by omega
      rcases includesImpl_cases E g u s with h0 | ⟨s2, start, heq, hrel, hrun⟩
      · rw [h0] at hv; simp at hv
      rw [heq] at hv
      have hk := hrel FlagsKept hR hs
      have hw := hrun G1 _ hgG h
      cases hnx : nextObj s2 u start with
      | none => rw [hnx] at hw; simp at hw
      | some p =>
        obtain ⟨obj, k⟩ := p
        rw [hnx] at hw
        have hseq := (walk_to_seq E G1).2.2.2.2.2 _ _ _ _ _ _ hnx hw
        exact ihW (G1 + 1) u start s2 a t (by omega)
          (defClassRel_chainsOK hR.toDefClassRel hk hs) (includesHaveBit_kept hk hb) hseq v hv

/-- No unit is listed twice, and every listed unit has its bit unset in the
state in which the walk starts. -/
theorem includes_nodup (E : Env) (hE : E.Respects FlagsKept) (hF : E.Fresh) :
    ∀ (g : Nat),
      (∀ u ix s, ChainsOK s → IncludesHaveBit s →
        (includesWalk E u g ix s).Nodup ∧ ∀ v ∈ includesWalk E u g ix s, ¬ Marked s v) ∧
      (∀ u s, ChainsOK s → IncludesHaveBit s →
        (includesImpl E g u s).Nodup ∧ ∀ v ∈ includesImpl E g u s, ¬ Marked s v) := by
  have hR := mergeRel_flagsKept E hE hF
  intro g
  induction g with
  | zero =>
    refine ⟨?_, ?_⟩
    · intro u ix s _ _; simp [includesWalk]
    · intro u s _ _; simp [includesImpl]
  | succ g ih =>
    obtain ⟨ihW, ihI⟩ := ih
    refine ⟨?_, ?_⟩
    · intro u ix s hs hb
      have main : ∀ rest : List Nat, rest.Nodup → (∀ v ∈ rest, ¬ Marked s v) →
          (∀ k unit, mergeableObj s u ix = some (.reqUnit k unit) →
            s.tcFlags (s.units unit).m_cacheOffset &&& (s.units unit).m_cacheMask = 0 →
            ∀ v ∈ rest, v ≠ unit ∧ v ∉ includesImpl E g unit (setLoaded s unit)) →
          (match mergeableObj s u ix with
            | some (.reqUnit _ unit) =>
              if s.tcFlags (s.units unit).m_cacheOffset &&& (s.units unit).m_cacheMask = 0 then
                unit :: (includesImpl E g unit (setLoaded s unit) ++ rest)
              else rest
            | _ => rest).Nodup ∧
          ∀ v ∈ (match mergeableObj s u ix with
            | some (.reqUnit _ unit) =>
              if s.tcFlags (s.units unit).m_cacheOffset &&& (s.units unit).m_cacheMask = 0 then
                unit :: (includesImpl E g unit (setLoaded s unit) ++ rest)
              else rest
            | _ => rest), ¬ Marked s v := by
        intro rest hnd hum hdis
        generalize hobj : mergeableObj s u ix = x at hdis ⊢
        rcases x with _ | o
        · exact ⟨hnd, hum⟩
        cases o <;> (try simp only []) <;> try exact ⟨hnd, hum⟩
        rename_i kq unit
        split
        · rename_i hfl
          have hk1 : FlagsKept s (setLoaded s unit) := setLoaded_flagsKept s unit
          have hs1 : ChainsOK (setLoaded s unit) := defClassRel_chainsOK hR.toDefClassRel hk1 hs
          have hm1 : Marked (setLoaded s unit) unit :=
            setLoaded_marked s unit (hb u ix kq unit hobj)
          obtain ⟨hn1, hu1⟩ := ihI unit (setLoaded s unit) hs1 (includesHaveBit_kept hk1 hb)
          have hd := hdis kq unit rfl hfl
          refine ⟨?_, ?_⟩
          · rw [List.nodup_cons, List.nodup_append]
            refine ⟨?_, hn1, hnd, ?_⟩
            · intro hmem
              rcases List.mem_append.mp hmem with hmem | hmem
              · exact hu1 unit hmem hm1
              · exact (hd unit hmem).1 rfl
            · intro v hv1 hv2
              exact (hd v hv2).2 hv1
          · intro v hv
            rcases List.mem_cons.mp hv with rfl | hv
            · exact fun hm => hm hfl
            rcases List.mem_append.mp hv with hv | hv
            · exact fun hm => hu1 v hv (marked_kept hk1 hm)
            · exact hum v hv
        · exact ⟨hnd, hum⟩
      have hunf : includesWalk E u (g + 1) ix s =
          (match mergeableObj s u ix with
            | some (.reqUnit _ unit) =>
              if s.tcFlags (s.units unit).m_cacheOffset &&& (s.units unit).m_cacheMask = 0 then
                unit :: (includesImpl E g unit (setLoaded s unit) ++
                  (match specStep E g u ix s with
                    | some (.ok (some ix1) s1) => includesWalk E u g ix1 s1
                    | _ => []))
              else
                (match specStep E g u ix s with
                  | some (.ok (some ix1) s1) => includesWalk E u g ix1 s1
                  | _ => [])
            | _ =>
              (match specStep E g u ix s with
                | some (.ok (some ix1) s1) => includesWalk E u g ix1 s1
                | _ => [])) := by
        simp only [includesWalk]
      rw [hunf]
      have hpost := specStep_post E FlagsKept hR g u ix s hs
      cases hst : specStep E g u ix s with
      | none => exact main [] List.nodup_nil (by simp) (by simp)
      | some r0 =>
        rw [hst] at hpost
        rcases r0 with ⟨_ | ix1, x⟩ | ⟨m, x⟩ | _ <;> (try simp only []) <;>
          try exact main [] List.nodup_nil (by simp) (by simp)
        have hx : ChainsOK x := defClassRel_chainsOK hR.toDefClassRel hpost hs
        obtain ⟨hn, hu⟩ := ihW u ix1 x hx (includesHaveBit_kept hpost hb)
        refine main _ hn (fun v hv hm => hu v hv (marked_kept hpost hm)) ?_
        intro k unit hobj hfl v hv
        obtain ⟨_, a2, s2, hm, hs3⟩ := specStep_include E g u ix s k unit hobj hfl _ x hst
        have hk1 : FlagsKept s (setLoaded s unit) := setLoaded_flagsKept s unit
        have hs1 : ChainsOK (setLoaded s unit) := defClassRel_chainsOK hR.toDefClassRel hk1 hs
        have hk2 : FlagsKept (setLoaded s unit) s2 := by
          have hp := (mergeImpl_walk_post E FlagsKept hR g).2.2.2.2.2.2 unit _ hs1
          rw [hm] at hp; exact hp
        have hk3 : FlagsKept s2 x := by
          rcases hs3 with rfl | ⟨r, hinv⟩
          · exact hR.refl _
          · exact hE.invokeFunc_ok hinv
        refine ⟨?_, ?_⟩
        · rintro rfl
          exact hu v hv (marked_kept (flagsKept_trans hk2 hk3)
            (setLoaded_marked s v (hb u ix k v hobj)))
        · intro hmem
          exact hu v hv (marked_kept hk3
            ((includes_marked E hE hF g).2 g unit (setLoaded s unit) a2 s2 (le_refl _) hs1
              (includesHaveBit_kept hk1 hb) hm v hmem))
    · intro u s hs hb
      rcases includesImpl_cases E g u s with h0 | ⟨s2, start, heq, hrel, _⟩
      · rw [h0]; simp
      rw [heq]
      have hk := hrel FlagsKept hR hs
      obtain ⟨hn, hu⟩ := ihW u start s2 (defClassRel_chainsOK hR.toDefClassRel hk hs)
        (includesHaveBit_kept hk hb)
      exact ⟨hn, fun v hv hm => hu v hv (marked_kept hk hm)⟩

/-- C16.  An include instruction whose unit has its marker bit set leaves the
state as it is and goes on with the next word: no replay, no call of the
pseudo-main.  An include whose unit has the bit unset sets the bit, and the
replay of the unit starts in the state with the bit set.  Bits are never
cleared during a replay, and so no unit is replayed twice through an include
in one activation: the list of the replays that includes start, in the order
of their start, holds no unit twice, also when units include each other or a
unit is included several times.  The collaborators are taken not to clear
bits. -/
theorem include_dedup (E : Env) (hE : E.Respects FlagsKept) (hF : E.Fresh) :
    (∀ u fuel ix k unit s, Marked s unit →
      mergeImplReq E u (fuel + 1) ix (.reqUnit k unit) s =
        (match nextObj s u (ix + 1) with
        | none => some .fault
        | some (obj1, k1) =>
          match k1 with
          | .UnitMergeKindReq _ => mergeImplReq E u fuel (ix + 1) obj1 s
          | _ => mergeImplSwitch E u fuel (ix + 1) obj1 k1 s)) ∧
    (∀ u fuel ix k unit s, mergeableObj s u ix = some (.reqUnit k unit) → Marked s unit →
      specStep E fuel u ix s = some (.ok (some (ix + 1)) s) ∧
      ∀ g, includesWalk E u (g + 1) ix s =
        match specStep E g u ix s with
        | some (.ok (some ix1) s1) => includesWalk E u g ix1 s1
        | _ => []) ∧
    (∀ u fuel ix k unit s, ¬ Marked s unit → (s.units unit).m_cacheMask ≠ 0 →
      Marked (setLoaded s unit) unit ∧
      mergeImplReq E u (fuel + 1) ix (.reqUnit k unit) s =
        (match
          (match mergeImpl E fuel unit (setLoaded s unit) with
          | some (.ok _ s2) =>
            if (s2.units unit).isMergeOnly = false then some (E.invokeFunc unit s2)
            else some (.ok PUnit.unit s2)
          | other => other) with
        | none => none
        | some (.ok _ s3) =>
          (match nextObj s3 u (ix + 1) with
          | none => some .fault
          | some (obj1, k1) =>
            match k1 with
            | .UnitMergeKindReq _ => mergeImplReq E u fuel (ix + 1) obj1 s3
            | _ => mergeImplSwitch E u fuel (ix + 1) obj1 k1 s3)
        | some (.raised m s3) => some (.raised m s3)
        | some .fault => some .fault)) ∧
    (∀ fuel u s, ChainsOK s → Post FlagsKept s (mergeImpl E fuel u s)) ∧
    (∀ fuel u s, ChainsOK s → IncludesHaveBit s →
      (includesImpl E fuel u s).Nodup ∧
      (∀ v ∈ includesImpl E fuel u s, ¬ Marked s v) ∧
      (∀ a t, mergeImpl E fuel u s = some (.ok a t) →
        ∀ v ∈ includesImpl E fuel u s, Marked t v)) := by
  refine ⟨?_, ?_, ?_, ?_, ?_⟩
  · intro u fuel ix k unit s hm
    simp only [mergeImplReq]
    rw [if_neg hm]
  · intro u fuel ix k unit s hobj hm
    refine ⟨?_, ?_⟩
    · simp only [specStep, hobj]
      rw [if_neg hm]
    · intro g
      simp only [includesWalk, hobj]
      rw [if_neg hm]
  · intro u fuel ix k unit s hm hmask
    refine ⟨setLoaded_marked s unit hmask, ?_⟩
    simp only [mergeImplReq]
    rw [if_pos (not_not.mp hm)]
    rfl
  · intro fuel u s hs
    exact (mergeImpl_walk_post E FlagsKept (mergeRel_flagsKept E hE hF) fuel).2.2.2.2.2.2 u s hs
  · intro fuel u s hs hb
    obtain ⟨hn, hu⟩ := (includes_nodup E hE hF fuel).2 u s hs hb
    exact ⟨hn, hu, fun a t h =>
      (includes_marked E hE hF fuel).2 fuel u s a t (le_refl _) hs hb h⟩

theorem exVMCycle_includesHaveBit : IncludesHaveBit exVMCycle := by
  intro w ix k v h
  have hmem := List.getElem?_mem h
  by_cases h7 : w = 7
  · subst h7
    have : v = 6 := by
      simp [exVMCycle, exUnitB] at hmem
      exact hmem.2
    subst this
    decide
  by_cases h6 : w = 6
  · subst h6
    have : v = 7 := by
      simp [exVMCycle, exUnitA] at hmem
      exact hmem.2
    subst this
    decide
  · simp [exVMCycle, Function.update_apply, h7, h6, emptyVM, emptyUnit] at hmem

theorem include_dedup_witness :
    mergeImpl quietEnv 12 6 exVMCycle = some (.ok PUnit.unit exVMCycleEnd) ∧
    includesImpl quietEnv 12 6 exVMCycle = [7, 6] ∧
    (includesImpl quietEnv 12 6 exVMCycle).Nodup :=
  ⟨rfl, rfl,
    ((include_dedup quietEnv
      (quietEnv_respects FlagsKept (fun s => flagsKept_of_eq s s rfl rfl rfl))
      quietEnv_fresh).2.2.2.2 12 6 exVMCycle
      (fun _ => ⟨List.nodup_nil, fun c hc => by cases hc⟩) exVMCycle_includesHaveBit).1⟩

theorem defClassScan_withInvoke (E : Env) (g : Nat → VM → Outcome PUnit) (P : PreClass)
    (f : Bool) : ∀ l parent s,
      defClassScan (withInvoke E g) P f l parent s = defClassScan E P f l parent s := by
  intro l
  induction l with
  | nil => intro parent s; rfl
  | cons c rest ih =>
    intro parent s
    simp only [defClassScan, ih]
    rfl

theorem defClassLoop_withInvoke (E : Env) (g : Nat → VM → Outcome PUnit) (P : PreClass)
    (f : Bool) : ∀ fuel top parent s,
      defClassLoop (withInvoke E g) P f fuel top parent s = defClassLoop E P f fuel top parent s := by
  intro fuel
  induction fuel with
  | zero => intro top parent s; rfl
  | succ n ih =>
    intro top parent s
    simp only [defClassLoop, defClassScan_withInvoke, ih]
    rfl

theorem defClass_withInvoke (E : Env) (g : Nat → VM → Outcome PUnit) (fuel : Nat)
    (P : PreClass) (f : Bool) (s : VM) :
    defClass (withInvoke E g) fuel P f s = defClass E fuel P f s := by
  simp only [defClass, defClassLoop_withInvoke]

theorem mergeImplFuncs_withInvoke (E : Env) (g : Nat → VM → Outcome PUnit) (u : Nat)
    (uf : Bool) : ∀ n ix s,
      mergeImplFuncs (withInvoke E g) u uf n ix s = mergeImplFuncs E u uf n ix s := by
  intro n
  induction n with
  | zero => intro ix s; rfl
  | succ n ih =>
    intro ix s
    simp only [mergeImplFuncs, ih]
    rfl

theorem mergeImplHoistable_withInvoke (E : Env) (g : Nat → VM → Outcome PUnit)
    (fuel u : Nat) : ∀ n ix redo s,
      mergeImplHoistable (withInvoke E g) fuel u n ix redo s =
        mergeImplHoistable E fuel u n ix redo s := by
  intro n
  induction n with
  | zero => intro ix redo s; rfl
  | succ n ih =>
    intro ix redo s
    simp only [mergeImplHoistable, ih, defClass_withInvoke]

theorem mergeImplRedo_withInvoke (E : Env) (g : Nat → VM → Outcome PUnit)
    (fuel u : Nat) : ∀ n ix s,
      mergeImplRedo (withInvoke E g) fuel u n ix s = mergeImplRedo E fuel u n ix s := by
  intro n
  induction n with
  | zero => intro ix s; rfl
  | succ n ih =>
    intro ix s
    simp only [mergeImplRedo, ih, defClass_withInvoke]

/-- The walk of `mergeImpl` asks the interpreter to run the pseudo-main of
units that are not merge-only, and of no other unit: an interpreter `g` that
agrees with the one of `E` on the units that are not merge-only in the state
of the call gives the same results. -/
theorem mergeImpl_withInvoke (E : Env) (g : Nat → VM → Outcome PUnit)
    (hg : ∀ v x, (x.units v).isMergeOnly = false → g v x = E.invokeFunc v x) :
    ∀ (fuel : Nat),
      (∀ u ix obj s, mergeImplClass (withInvoke E g) u fuel ix obj s =
        mergeImplClass E u fuel ix obj s) ∧
      (∀ u ix obj s, mergeImplUnique (withInvoke E g) u fuel ix obj s =
        mergeImplUnique E u fuel ix obj s) ∧
      (∀ u ix obj s, mergeImplDefine (withInvoke E g) u fuel ix obj s =
        mergeImplDefine E u fuel ix obj s) ∧
      (∀ u ix obj s, mergeImplGlobal (withInvoke E g) u fuel ix obj s =
        mergeImplGlobal E u fuel ix obj s) ∧
      (∀ u ix obj s, mergeImplReq (withInvoke E g) u fuel ix obj s =
        mergeImplReq E u fuel ix obj s) ∧
      (∀ u ix obj k s, mergeImplSwitch (withInvoke E g) u fuel ix obj k s =
        mergeImplSwitch E u fuel ix obj k s) ∧
      (∀ u s, mergeImpl (withInvoke E g) fuel u s = mergeImpl E fuel u s) := by
  intro fuel
  induction fuel with
  | zero => exact ⟨fun _ _ _ _ => rfl, fun _ _ _ _ => rfl, fun _ _ _ _ => rfl,
      fun _ _ _ _ => rfl, fun _ _ _ _ => rfl, fun _ _ _ _ _ => rfl, fun _ _ => rfl⟩
  | succ n ih =>
    obtain ⟨ihC, ihU, ihD, ihG, ihQ, ihS, ihM⟩ := ih
    refine ⟨?_, ?_, ?_, ?_, ?_, ?_, ?_⟩
    · intro u ix obj s
      simp only [mergeImplClass, defClass_withInvoke, ihC, ihS]
    · intro u ix obj s
      simp only [mergeImplUnique, ihU, ihS]
      rfl
    · intro u ix obj s
      simp only [mergeImplDefine, ihD, ihS]
    · intro u ix obj s
      simp only [mergeImplGlobal, ihG, ihS]
    · intro u ix obj s
      simp only [mergeImplReq, ihQ, ihS, ihM]
      cases obj <;> try rfl
      rename_i kq unit
      simp only []
      by_cases hfl : s.tcFlags (s.units unit).m_cacheOffset &&& (s.units unit).m_cacheMask = 0
      · rw [if_pos hfl, if_pos hfl]
        generalize mergeImpl E n unit _ = y
        rcases y with _ | ⟨c, x⟩ | ⟨m, x⟩ | _ <;> try rfl
        simp only []
        by_cases hmo : (x.units unit).isMergeOnly = false
        · rw [if_pos hmo, if_pos hmo]
          have : (withInvoke E g).invokeFunc unit x = E.invokeFunc unit x := hg unit x hmo
          rw [this]
        · rw [if_neg hmo, if_neg hmo]
      · rw [if_neg hfl, if_neg hfl]
    · intro u ix obj k s
      simp only [mergeImplSwitch, ihC, ihU, ihD, ihG, ihQ]
    · intro u s
      simp only [mergeImpl, mergeImplFuncs_withInvoke, mergeImplHoistable_withInvoke,
        mergeImplRedo_withInvoke, ihS]

theorem initialMergeFuncs_withInvoke (E : Env) (g : Nat → VM → Outcome PUnit) (u : Nat) :
    ∀ n ix a s, initialMergeFuncs (withInvoke E g) u n ix a s = initialMergeFuncs E u n ix a s := by
  intro n
  induction n with
  | zero => intro ix a s; rfl
  | succ n ih =>
    intro ix a s
    simp only [initialMergeFuncs, ih]
    rfl

/-- The first merge does not call the interpreter. -/
theorem initialMerge_withInvoke (E : Env) (g : Nat → VM → Outcome PUnit) :
    ∀ (fuel : Nat),
      (∀ u end_ ix a s, initialMergeStmts (withInvoke E g) u end_ fuel ix a s =
        initialMergeStmts E u end_ fuel ix a s) ∧
      (∀ u s, initialMergeBody (withInvoke E g) fuel u s = initialMergeBody E fuel u s) ∧
      (∀ u s, initialMerge (withInvoke E g) fuel u s = initialMerge E fuel u s) := by
  intro fuel
  induction fuel with
  | zero => exact ⟨fun _ _ _ _ _ => rfl, fun _ _ => rfl, fun _ _ => rfl⟩
  | succ n ih =>
    obtain ⟨ihS, ihB, ihI⟩ := ih
    refine ⟨?_, ?_, ?_⟩
    · intro u end_ ix a s
      simp only [initialMergeStmts, ihS, ihI]
      rfl
    · intro u s
      simp only [initialMergeBody, initialMergeFuncs_withInvoke, ihS]
      rfl
    · intro u s
      simp only [initialMerge, ihB]

/-- C17.  Merging never has a merge-only unit interpreted: `mergeImpl`,
`initialMerge` and `merge` give the same results with any interpreter that
agrees with the one at hand on the units that are not merge-only in the state
of the call, and `initialMerge` with any interpreter at all.  The one call of
the interpreter is in the include instruction: none when the bit of the unit
is set; with the bit unset, after the replay of the unit, none when the unit
is merge-only, and the call of its pseudo-main otherwise.  On a unit that is
not merge-only, whose array ends with `Done` right after the hoistable
classes, `mergeImpl` and `merge` call no interpreter at all (a `Done` found
before the end of the array fails the assertion of the code). -/
theorem merge_only_never_interpreted (E : Env) :
    (∀ g : Nat → VM → Outcome PUnit,
      (∀ v x, (x.units v).isMergeOnly = false → g v x = E.invokeFunc v x) →
      ∀ fuel u s, mergeImpl (withInvoke E g) fuel u s = mergeImpl E fuel u s ∧
        merge (withInvoke E g) fuel u s = merge E fuel u s) ∧
    (∀ (g : Nat → VM → Outcome PUnit) fuel u s,
      initialMerge (withInvoke E g) fuel u s = initialMerge E fuel u s) ∧
    (∀ u fuel ix k unit s, Marked s unit →
      mergeImplReq E u (fuel + 1) ix (.reqUnit k unit) s =
        (match nextObj s u (ix + 1) with
        | none => some .fault
        | some (obj1, k1) =>
          match k1 with
          | .UnitMergeKindReq _ => mergeImplReq E u fuel (ix + 1) obj1 s
          | _ => mergeImplSwitch E u fuel (ix + 1) obj1 k1 s)) ∧
    (∀ u fuel ix k unit s a s2, ¬ Marked s unit →
      mergeImpl E fuel unit (setLoaded s unit) = some (.ok a s2) →
      ((s2.units unit).isMergeOnly = true →
        mergeImplReq E u (fuel + 1) ix (.reqUnit k unit) s =
          (match nextObj s2 u (ix + 1) with
          | none => some .fault
          | some (obj1, k1) =>
            match k1 with
            | .UnitMergeKindReq _ => mergeImplReq E u fuel (ix + 1) obj1 s2
            | _ => mergeImplSwitch E u fuel (ix + 1) obj1 k1 s2)) ∧
      ((s2.units unit).isMergeOnly = false →
        mergeImplReq E u (fuel + 1) ix (.reqUnit k unit) s =
          (match E.invokeFunc unit s2 with
          | .ok _ s3 =>
            (match nextObj s3 u (ix + 1) with
            | none => some .fault
            | some (obj1, k1) =>
              match k1 with
              | .UnitMergeKindReq _ => mergeImplReq E u fuel (ix + 1) obj1 s3
              | _ => mergeImplSwitch E u fuel (ix + 1) obj1 k1 s3)
          | .raised m s3 => some (.raised m s3)
          | .fault => some .fault))) ∧
    (∀ (g : Nat → VM → Outcome PUnit) fuel u s r1 s1 redo s2,
      (s.units u).m_firstHoistableFunc ≤ (s.units u).m_firstHoistablePreClass →
      mergeImplFuncs E u (s.units u).m_mergeState.uniqueFuncs
        ((s.units u).m_firstHoistablePreClass - (s.units u).m_firstHoistableFunc)
        (s.units u).m_firstHoistableFunc s = .ok r1 s1 →
      mergeImplHoistable E (fuel + 1) u
        ((s1.units u).m_firstMergeablePreClass - (s1.units u).m_firstHoistablePreClass)
        (s1.units u).m_firstHoistablePreClass false s1 = some (.ok redo s2) →
      (s2.units u).isMergeOnly = false →
      mergeableObj s2 u
        (max (s1.units u).m_firstHoistablePreClass (s1.units u).m_firstMergeablePreClass) =
          some .done →
      mergeImpl (withInvoke E g) (fuel + 2) u s = mergeImpl E (fuel + 2) u s ∧
      mergeImpl E (fuel + 2) u s =
        (if redo = true then some (.ok PUnit.unit s2)
        else if max (s1.units u).m_firstHoistablePreClass (s1.units u).m_firstMergeablePreClass =
            (s2.units u).m_mergeablesSize then mergeImplDone fuel u s2
        else some .fault) ∧
      ((s.units u).m_mergeState.merged = true →
        merge (withInvoke E g) (fuel + 2) u s = merge E (fuel + 2) u s)) := by
  refine ⟨?_, ?_, ?_, ?_, ?_⟩
  · intro g hg fuel u s
    have hm := fun fuel => (mergeImpl_withInvoke E g hg fuel).2.2.2.2.2.2
    refine ⟨hm fuel u s, ?_⟩
    simp only [merge, hm, (initialMerge_withInvoke E g fuel).2.2]
  · intro g fuel u s
    exact (initialMerge_withInvoke E g fuel).2.2 u s
  · intro u fuel ix k unit s hm
    simp only [mergeImplReq]
    rw [if_neg hm]
  · intro u fuel ix k unit s a s2 hm hrun
    have hrun2 := hrun
    simp only [setLoaded] at hrun2
    refine ⟨?_, ?_⟩
    · intro hmo
      simp only [mergeImplReq]
      rw [if_pos (not_not.mp hm), hrun2]
      simp only []
      rw [if_neg (by simp [hmo])]
    · intro hmo
      simp only [mergeImplReq]
      rw [if_pos (not_not.mp hm), hrun2]
      simp only []
      rw [if_pos hmo]
      rcases E.invokeFunc unit s2 with ⟨r2, y⟩ | ⟨m, y⟩ | _ <;> rfl
  · intro g fuel u s r1 s1 redo s2 hle hf hh hmo hd
    have key : ∀ E1 : Env,
        mergeImplFuncs E1 u (s.units u).m_mergeState.uniqueFuncs
          ((s.units u).m_firstHoistablePreClass - (s.units u).m_firstHoistableFunc)
          (s.units u).m_firstHoistableFunc s = .ok r1 s1 →
        mergeImplHoistable E1 (fuel + 1) u
          ((s1.units u).m_firstMergeablePreClass - (s1.units u).m_firstHoistablePreClass)
          (s1.units u).m_firstHoistablePreClass false s1 = some (.ok redo s2) →
        mergeImpl E1 (fuel + 2) u s =
          (if redo = true then some (.ok PUnit.unit s2)
          else if max (s1.units u).m_firstHoistablePreClass
              (s1.units u).m_firstMergeablePreClass =
              (s2.units u).m_mergeablesSize then mergeImplDone fuel u s2
          else some .fault) := by
      intro E1 hf1 hh1
      have hn : nextObj s2 u
          (max (s1.units u).m_firstHoistablePreClass (s1.units u).m_firstMergeablePreClass) =
          some (.done, .UnitMergeKindDone) := by
        simp only [nextObj, hd]; rfl
      simp only [mergeImpl]
      rw [if_neg (by omega), hf1]
      simp only []
      by_cases hlt : (s1.units u).m_firstHoistablePreClass < (s1.units u).m_firstMergeablePreClass
      · rw [if_pos hlt, hh1]
        simp only []
        rw [max_eq_right (le_of_lt hlt)] at hn ⊢
        cases redo with
        | true => rw [if_pos ⟨rfl, hmo⟩]; rfl
        | false =>
          rw [if_neg (by simp), if_neg (by simp), hn]
          simp only [mergeImplSwitch]
          rfl
      · rw [if_neg hlt]
        rw [Nat.sub_eq_zero_of_le (by omega)] at hh1
        simp only [mergeImplHoistable, Option.some.injEq, Outcome.ok.injEq] at hh1
        obtain ⟨h1, h2⟩ := hh1
        subst h1; subst h2
        rw [max_eq_left (not_lt.mp hlt)] at hn ⊢
        rw [hn]
        simp only [mergeImplSwitch]
        rfl
    have h1 := key (withInvoke E g) (by rw [mergeImplFuncs_withInvoke]; exact hf)
      (by rw [mergeImplHoistable_withInvoke]; exact hh)
    have h2 := key E hf hh
    refine ⟨h1.trans h2.symm, h2, ?_⟩
    intro hmerged
    simp only [merge]
    rw [if_neg (by simp [hmerged]), if_neg (by simp [hmerged])]
    exact h1.trans h2.symm

theorem merge_only_never_interpreted_witness :
    mergeImpl
      (withInvoke quietEnv (fun v x =>
        if (x.units v).isMergeOnly = false then quietEnv.invokeFunc v x else .fault))
      12 6 exVMCycle = some (.ok PUnit.unit exVMCycleEnd) :=
  (((merge_only_never_interpreted quietEnv).1
    (fun v x => if (x.units v).isMergeOnly = false then quietEnv.invokeFunc v x else .fault)
    (fun v x h => by simp [h]) 12 6 exVMCycle).1).trans rfl

/-- C18, the claim fails: the replay of the `UniqueDefinedClass` instruction
of `exUnitUniq` asks `avail` about the class, and when the answer is
`AvailFail` it raises and leaves the slot of the class empty. -/
theorem unique_defined_class_counterexample :
    mergeableObj exVMUniq 8 1 = some (.cls (some exClsD)) ∧
    kindOf (.cls (some exClsD)) = some .UnitMergeKindUniqueDefinedClass ∧
    mergeImpl strictEnv 4 8 exVMUniq = some (.raised "unknown class B" exVMUniq) ∧
    exVMUniq.tcClass exClsD.m_cachedOffset = none := by
  refine ⟨rfl, rfl, rfl, rfl⟩

/-- C18, as amended.  The replay of a `UniqueDefinedClass` instruction calls
`avail` on the class, with no parent given and with autoload: when the answer
is `AvailFail` it raises "unknown class" for the class that `avail` reports,
in the state that `avail` left, and stores nothing; when `avail` itself
raises, so does the replay; when the answer is `AvailTrue` it stores the
class into its slot of the target cache, without a call of `defClass`, and
goes on with the next word; the answer `AvailFalse` fails the assertion
`ASSERT(avail == Class::AvailTrue)` and nothing is stored. -/
theorem unique_defined_class_publish (E : Env) (u fuel ix : Nat) (cls : Class) (s : VM) :
    (∀ other s1, E.avail cls none true s = .ok (.AvailFail, some other) s1 →
      mergeImplUnique E u (fuel + 1) ix (.cls (some cls)) s =
        some (.raised ("unknown class " ++ other.name) s1)) ∧
    (∀ m s1, E.avail cls none true s = .raised m s1 →
      mergeImplUnique E u (fuel + 1) ix (.cls (some cls)) s = some (.raised m s1)) ∧
    (∀ other s1, E.avail cls none true s = .ok (.AvailTrue, other) s1 →
      (cls.setCached s1).tcClass cls.m_cachedOffset = some cls ∧
      (cls.setCached s1).clsList = s1.clsList ∧
      mergeImplUnique E u (fuel + 1) ix (.cls (some cls)) s =
        (match nextObj (cls.setCached s1) u (ix + 1) with
        | none => some .fault
        | some (obj1, k) =>
          if k = UnitMergeKind.UnitMergeKindUniqueDefinedClass then
            mergeImplUnique E u fuel (ix + 1) obj1 (cls.setCached s1)
          else mergeImplSwitch E u fuel (ix + 1) obj1 k (cls.setCached s1))) ∧
    (∀ other s1, E.avail cls none true s = .ok (.AvailFalse, other) s1 →
      mergeImplUnique E u (fuel + 1) ix (.cls (some cls)) s = some .fault) := by
  refine ⟨?_, ?_, ?_, ?_⟩
  · intro other s1 h
    simp only [mergeImplUnique, h]
  · intro m s1 h
    simp only [mergeImplUnique, h]
  · intro other s1 h
    refine ⟨by simp [Class.setCached], rfl, ?_⟩
    simp only [mergeImplUnique, h]
  · intro other s1 h
    simp only [mergeImplUnique, h]

theorem unique_defined_class_publish_witness :
    (strictEnv.avail exClsD none true exVMUniq = .ok (.AvailFail, some exClsB) exVMUniq ∧
      mergeImplUnique strictEnv 8 (2 + 1) 1 (.cls (some exClsD)) exVMUniq =
        some (.raised ("unknown class " ++ exClsB.name) exVMUniq)) ∧
    (quietEnv.avail exClsD none true exVMUniq = .ok (.AvailTrue, none) exVMUniq ∧
      (exClsD.setCached exVMUniq).tcClass exClsD.m_cachedOffset = some exClsD ∧
      mergeImplUnique quietEnv 8 (2 + 1) 1 (.cls (some exClsD)) exVMUniq =
        some (.ok PUnit.unit (exClsD.setCached exVMUniq))) :=
  ⟨⟨rfl, (unique_defined_class_publish strictEnv 8 2 1 exClsD exVMUniq).1 exClsB exVMUniq rfl⟩,
    rfl,
    ((unique_defined_class_publish quietEnv 8 2 1 exClsD exVMUniq).2.2.1 none exVMUniq rfl).1,
    ((unique_defined_class_publish quietEnv 8 2 1 exClsD exVMUniq).2.2.1 none exVMUniq
      rfl).2.2.trans rfl⟩

theorem mergeImplDone_eq (fuel u : Nat) (s : VM) :
    mergeImplDone fuel u s =
      if (s.units u).m_mergeState.uniqueClasses = true ∧
          (s.units u).m_mergeState.uniqueDefinedClasses = false then rewritePass fuel u s
      else some (.ok PUnit.unit s) := rfl

/-- A word that the rewrite finds other than an unmarked `PreClass*` is
there after it. -/
theorem rewriteStep_keeps {s t : VM} (h : RewriteStep s t) (u j : Nat) (w : Mergeable)
    (hw : mergeableObj s u j = some w) (hp : ∀ p, w ≠ .preClass p) :
    mergeableObj t u j = some w := by
  have hlen := (h.2 u).length
  have hj : j < (s.units u).m_mergeables.length := by
    simp only [mergeableObj] at hw
    exact (List.getElem?_eq_some_iff.mp hw).1
  have hex : ∃ w1, mergeableObj t u j = some w1 := by
    simp only [mergeableObj]
    exact ⟨_, List.getElem?_eq_getElem (by rw [hlen]; exact hj)⟩
  obtain ⟨w1, hw1⟩ := hex
  rcases (h.2 u).words j w1 hw1 with h1 | ⟨c, p, _, h1⟩
  · simp only [mergeableObj] at hw
    rw [hw] at h1
    injection h1 with h1
    rw [hw1, h1]
  · simp only [mergeableObj] at hw
    rw [hw] at h1
    injection h1 with h1
    exact absurd h1 (hp p)

/-- The rewrite leaves the chains alone. -/
theorem rewriteStep_clsList {s t : VM} (h : RewriteStep s t) : t.clsList = s.clsList := by
  rw [h.1]

theorem setMergeable_obj_same (s : VM) (u ix : Nat) (w w0 : Mergeable)
    (h : mergeableObj s u ix = some w0) : mergeableObj (setMergeable s u ix w) u ix = some w := by
  have hj : ix < (s.units u).m_mergeables.length := by
    simp only [mergeableObj] at h
    exact (List.getElem?_eq_some_iff.mp h).1
  unfold mergeableObj setMergeable
  simp only [Function.update_same]
  rw [List.getElem?_set]
  simp [hj]

/-- The first loop of the rewrite: every unmarked word of its range becomes
the marked head of the chain of its name. -/
theorem rewriteHoistable_effect (u : Nat) :
    ∀ (n ix : Nat) (s t : VM), rewriteHoistable u n ix s = some t →
      ∀ j P, ix ≤ j → j < ix + n → mergeableObj s u j = some (.preClass P) →
        mergeableObj t u j = some (.cls (s.clsList P.name).head?) := by
  intro n
  induction n with
  | zero => intro ix s t _ j P h1 h2; omega
  | succ n ih =>
    intro ix s t h j P h1 h2 hj
    simp only [rewriteHoistable] at h
    rcases hobj : mergeableObj s u ix with _ | obj
    · rw [hobj] at h; cases h
    rw [hobj] at h
    by_cases hji : j = ix
    · subst hji
      rw [hj] at hobj
      injection hobj with hobj
      subst hobj
      simp only [] at h
      replace h := (asserted_some h).2
      have hstep := rewriteHoistable_rewriteStep u n _ _ _ h
      exact rewriteStep_keeps hstep u j _ (setMergeable_obj_same s u j _ _ hj)
        (fun p hp => by cases hp)
    · cases obj <;> simp only [] at h <;> try cases h
      · rename_i p
        replace h := (asserted_some h).2
        have := ih (ix + 1) _ t h j P (by omega) (by omega)
          (by rw [setMergeable_obj_ne s u ix _ j hji]; exact hj)
        exact this
      · exact ih (ix + 1) s t h j P (by omega) (by omega) hj

/-- The rewrite does not change the length of an instruction. -/
theorem rewriteStep_stride {s t : VM} (h : RewriteStep s t) (u ix : Nat) (w : Mergeable)
    (hw : mergeableObj s u ix = some w) :
    ∃ w1, mergeableObj t u ix = some w1 ∧ stride w1 = stride w := by
  by_cases hp : ∀ p, w ≠ .preClass p
  · exact ⟨w, rewriteStep_keeps h u ix w hw hp, rfl⟩
  · have hlen := (h.2 u).length
    have hj : ix < (s.units u).m_mergeables.length := by
      simp only [mergeableObj] at hw
      exact (List.getElem?_eq_some_iff.mp hw).1
    have hex : ∃ w1, mergeableObj t u ix = some w1 := by
      simp only [mergeableObj]
      exact ⟨_, List.getElem?_eq_getElem (by rw [hlen]; exact hj)⟩
    obtain ⟨w1, hw1⟩ := hex
    refine ⟨w1, hw1, ?_⟩
    rcases (h.2 u).words ix w1 hw1 with h1 | ⟨c, p, hc, h1⟩
    · simp only [mergeableObj] at hw
      rw [hw] at h1
      injection h1 with h1
      rw [h1]
    · simp only [mergeableObj] at hw
      rw [hw] at h1
      injection h1 with h1
      rw [hc, h1]
      rfl

theorem instrAt_rewriteStep {s t : VM} (h : RewriteStep s t) (u e : Nat) {ix j : Nat}
    (hi : InstrAt s u e ix j) : InstrAt t u e ix j := by
  induction hi with
  | here ix => exact InstrAt.here ix
  | next ix j w hw hlt _ ih =>
    obtain ⟨w1, hw1, hs⟩ := rewriteStep_stride h u ix w hw
    exact InstrAt.next ix j w1 hw1 (by rw [hs]; exact hlt) (by rw [hs]; exact ih)

/-- The second loop of the rewrite: every `UnitMergeKindClass` word that it
reads as an instruction becomes the marked head of the chain of its name. -/
theorem rewriteStmts_effect (u e : Nat) :
    ∀ (fuel ix : Nat) (s t : VM), rewriteStmts u e fuel ix s = some (some t) →
      ∀ j P, InstrAt s u e ix j → mergeableObj s u j = some (.preClass P) →
        mergeableObj t u j = some (.cls (s.clsList P.name).head?) := by
  intro fuel
  induction fuel with
  | zero => intro ix s t h; cases h
  | succ fuel ih =>
    intro ix s t h j P hi hj
    have hstep := rewriteStmts_rewriteStep u e (fuel + 1) ix s t h
    simp only [rewriteStmts] at h
    by_cases hji : j = ix
    · subst hji
      rw [hj] at h
      simp only [] at h
      replace h := (asserted_some_some h).2
      simp only [] at h
      have hset := setMergeable_obj_same s u j (.cls (s.clsList P.name).head?) _ hj
      split at h
      · exact rewriteStep_keeps (rewriteStmts_rewriteStep u e fuel _ _ _ h) u j _ hset
          (fun p hp => by cases hp)
      · simp only [Option.some.injEq] at h
        subst h
        exact hset
    · cases hi with
      | here => exact absurd rfl hji
      | next _ _ w hw hlt hrest =>
        rw [hw] at h
        cases w <;> simp only [stride] at hlt hrest <;> simp only [] at h <;>
          (try (exact absurd h (by simp))) <;>
          (try (replace h := (asserted_some_some h).2; simp only [] at h)) <;>
          rw [if_pos hlt] at h
        · rename_i p
          have hs1 := setMergeable_cls_rewriteStep s u ix (s.clsList p.name).head? p hw
          exact ih _ _ _ h j P (instrAt_rewriteStep hs1 u e hrest)
            (by rw [setMergeable_obj_ne s u ix _ j hji]; exact hj)
        all_goals exact ih _ _ _ h j P hrest hj

theorem unitsSame_of_eq (s t : VM) (h1 : t.clsList = s.clsList) (h2 : t.units = s.units) :
    UnitsSame s t :=
  ⟨⟨fun n => by rw [h1], fun hs n => by rw [h1]; exact hs n⟩, h2⟩

/-- No unit changes along what `defClass` does, when the collaborators
change none. -/
theorem defClassRel_unitsSame (E : Env) (hE : E.Respects UnitsSame) (hF : E.Fresh) :
    DefClassRel E UnitsSame where
  refl := fun s => unitsSame_of_eq s s rfl rfl
  trans := fun _ _ _ h1 h2 => ⟨mono_trans h1.1 h2.1, h2.2.trans h1.2⟩
  mono := fun _ _ h => h.1
  env := hE
  fresh := hF
  setCached := setCached_of_all (fun _ _ _ h1 h2 => ⟨mono_trans h1.1 h2.1, h2.2.trans h1.2⟩)
    (fun c s => ⟨setCached_mono c s, rfl⟩)
  publish := publish_of_all E (fun _ _ _ h1 h2 => ⟨mono_trans h1.1 h2.1, h2.2.trans h1.2⟩)
    fun P N s hs hf => ⟨defClassPublish_mono E P N s hs hf, rfl⟩

/-- The function loop of `mergeImpl` changes no unit, when the collaborators
change none. -/
theorem mergeImplFuncs_unitsSame (E : Env) (hE : E.Respects UnitsSame) (u : Nat) (uf : Bool) :
    ∀ (n ix : Nat) (s : VM), (mergeImplFuncs E u uf n ix s).Post UnitsSame s := by
  intro n
  induction n with
  | zero => intro ix s; exact unitsSame_of_eq s s rfl rfl
  | succ n ih =>
    intro ix s
    simp only [mergeImplFuncs]
    rcases hobj : mergeableObj s u ix with _ | obj
    · simp [Outcome.Post]
    · cases obj <;> simp only [Outcome.Post]
      rename_i func
      have htr : ∀ a b c : VM, UnitsSame a b → UnitsSame b c → UnitsSame a c :=
        fun _ _ _ h1 h2 => ⟨mono_trans h1.1 h2.1, h2.2.trans h1.2⟩
      cases uf with
      | true =>
        simp only [if_true]
        exact outcome_post_step htr (unitsSame_of_eq s _ rfl rfl) (ih _ _)
      | false =>
        simp only [Bool.false_eq_true, if_false]
        rcases hsc : E.setCachedFunc func s with ⟨r, t⟩ | ⟨m, t⟩ | _ <;> simp only []
        · exact outcome_post_step htr (hE.setCachedFunc_ok hsc) (ih _ _)
        · exact hE.setCachedFunc_raised hsc

theorem setMergeable_words (s : VM) (u ix : Nat) (w0 : Mergeable) (j : Nat) (w : Mergeable)
    (h : mergeableObj (setMergeable s u ix w0) u j = some w) :
    mergeableObj s u j = some w ∨ (j = ix ∧ w = w0) := by
  by_cases hji : j = ix
  · subst hji
    right
    refine ⟨rfl, ?_⟩
    unfold mergeableObj setMergeable at h
    simp only [Function.update_same] at h
    rw [List.getElem?_set] at h
    simp only [if_true] at h
    split at h
    · injection h with h; exact h.symm
    · cases h
  · left
    rw [setMergeable_obj_ne s u ix w0 j hji] at h
    exact h

/-- Every word that the first loop of the rewrite has changed was an unmarked
`PreClass*` and is now the marked head of the chain of its name. -/
theorem rewriteHoistable_words (u : Nat) :
    ∀ (n ix : Nat) (s t : VM), rewriteHoistable u n ix s = some t →
      ∀ j w, mergeableObj t u j = some w →
        mergeableObj s u j = some w ∨
          ∃ P, mergeableObj s u j = some (.preClass P) ∧ w = .cls (s.clsList P.name).head? := by
  intro n
  induction n with
  | zero =>
    intro ix s t h j w hw
    simp only [rewriteHoistable, Option.some.injEq] at h
    subst h
    exact Or.inl hw
  | succ n ih =>
    intro ix s t h j w hw
    simp only [rewriteHoistable] at h
    rcases hobj : mergeableObj s u ix with _ | obj
    · rw [hobj] at h; cases h
    rw [hobj] at h
    cases obj <;> simp only [] at h <;> try cases h
    · rename_i p
      replace h := (asserted_some h).2
      rcases ih _ _ _ h j w hw with h1 | ⟨P, h1, h2⟩
      · rcases setMergeable_words s u ix _ j w h1 with h3 | ⟨h3, h4⟩
        · exact Or.inl h3
        · subst h3
          exact Or.inr ⟨p, hobj, h4⟩
      · rcases setMergeable_words s u ix _ j _ h1 with h3 | ⟨_, h4⟩
        · exact Or.inr ⟨P, h3, h2⟩
        · cases h4
    · exact ih _ _ _ h j w hw

/-- Every word that the second loop of the rewrite has changed was an
unmarked `PreClass*` and is now the marked head of the chain of its name. -/
theorem rewriteStmts_words (u e : Nat) :
    ∀ (fuel ix : Nat) (s t : VM), rewriteStmts u e fuel ix s = some (some t) →
      ∀ j w, mergeableObj t u j = some w →
        mergeableObj s u j = some w ∨
          ∃ P, mergeableObj s u j = some (.preClass P) ∧ w = .cls (s.clsList P.name).head? := by
  intro fuel
  induction fuel with
  | zero => intro ix s t h; cases h
  | succ fuel ih =>
    intro ix s t h j w hw
    simp only [rewriteStmts] at h
    rcases hobj : mergeableObj s u ix with _ | obj
    · rw [hobj] at h; cases h
    rw [hobj] at h
    cases obj <;> simp only [] at h <;> (try (exact absurd h (by simp))) <;>
      (try (replace h := (asserted_some_some h).2; simp only [] at h)) <;> split at h <;>
      first
        | exact ih _ _ _ h j w hw
        | (simp only [Option.some.injEq] at h; subst h; exact Or.inl hw)
        | skip
    · rename_i p _
      rcases ih _ _ _ h j w hw with h1 | ⟨P, h1, h2⟩
      · rcases setMergeable_words s u ix _ j w h1 with h3 | ⟨h3, h4⟩
        · exact Or.inl h3
        · subst h3
          exact Or.inr ⟨p, hobj, h4⟩
      · rcases setMergeable_words s u ix _ j _ h1 with h3 | ⟨_, h4⟩
        · exact Or.inr ⟨P, h3, h2⟩
        · cases h4
    · rename_i p _
      simp only [Option.some.injEq] at h
      subst h
      rcases setMergeable_words s u ix _ j w hw with h3 | ⟨h3, h4⟩
      · exact Or.inl h3
      · subst h3
        exact Or.inr ⟨p, hobj, h4⟩

/-- The two loops of a rewrite that returns. -/
theorem rewritePass_inv (fuel u : Nat) (s : VM) (a : PUnit) (t : VM)
    (h : rewritePass fuel u s = some (.ok a t)) :
    ∃ s2,
      rewriteHoistable u
        ((s.units u).m_firstMergeablePreClass - (s.units u).m_firstHoistablePreClass)
        (s.units u).m_firstHoistablePreClass
        (setMergeState s u { (s.units u).m_mergeState with uniqueDefinedClasses := true }) =
          some s2 ∧
      rewriteStmts u (s.units u).m_mergeablesSize fuel (s.units u).m_firstMergeablePreClass s2 =
        some (some t) := by
  simp only [rewritePass] at h
  have hl := setMergeState_layout s u
    { (s.units u).m_mergeState with uniqueDefinedClasses := true }
  rw [hl.1, hl.2.1] at h
  generalize hh : rewriteHoistable u _ _ _ = x at h
  rcases x with _ | s2
  · simp at h
  simp only [] at h
  have hstep := rewriteHoistable_rewriteStep u _ _ _ _ hh
  have e1 : (s2.units u).m_mergeablesSize = (s.units u).m_mergeablesSize := by
    rw [(hstep.2 u).mergeablesSize, hl.2.2.1]
  have e2 : (s2.units u).m_firstMergeablePreClass = (s.units u).m_firstMergeablePreClass := by
    rw [(hstep.2 u).firstMergeablePreClass, hl.2.1]
  rw [e1, e2] at h
  generalize hr : rewriteStmts u _ fuel _ s2 = y at h
  rcases y with _ | _ | s3
  · simp at h
  · simp at h
  · simp only [Option.some.injEq, Outcome.ok.injEq] at h
    rw [← h.2]
    exact ⟨s2, rfl, hr⟩

/-- What a rewrite that returns has done. -/
theorem rewritePass_effect (fuel u : Nat) (s : VM) (a : PUnit) (t : VM)
    (h : rewritePass fuel u s = some (.ok a t)) :
    RewriteStep s t ∧
    (t.units u).m_mergeState =
      { (s.units u).m_mergeState with uniqueDefinedClasses := true } ∧
    (∀ j w, mergeableObj t u j = some w →
      mergeableObj s u j = some w ∨
        ∃ P, mergeableObj s u j = some (.preClass P) ∧ w = .cls (s.clsList P.name).head?) ∧
    (∀ j P, (s.units u).m_firstHoistablePreClass ≤ j → j < (s.units u).m_firstMergeablePreClass →
      mergeableObj s u j = some (.preClass P) →
      mergeableObj t u j = some (.cls (s.clsList P.name).head?)) ∧
    (∀ j P, InstrAt s u (s.units u).m_mergeablesSize (s.units u).m_firstMergeablePreClass j →
      mergeableObj s u j = some (.preClass P) →
      mergeableObj t u j = some (.cls (s.clsList P.name).head?)) := by
  obtain ⟨s2, hh, hr⟩ := rewritePass_inv fuel u s a t h
  have h0 := setMergeState_rewriteStep s u
  have h1 := rewriteHoistable_rewriteStep u _ _ _ _ hh
  have h2 := rewriteStmts_rewriteStep u _ _ _ _ _ hr
  have h01 := rewriteStep_trans h0 h1
  have hc2 : s2.clsList = s.clsList := rewriteStep_clsList h01
  have hwords : ∀ j w, mergeableObj t u j = some w →
      mergeableObj s u j = some w ∨
        ∃ P, mergeableObj s u j = some (.preClass P) ∧ w = .cls (s.clsList P.name).head? := by
    intro j w hw
    rcases rewriteStmts_words u _ _ _ _ _ hr j w hw with h3 | ⟨P, h3, h4⟩
    · rcases rewriteHoistable_words u _ _ _ _ hh j w h3 with h5 | ⟨P, h5, h6⟩
      · rw [setMergeState_obj] at h5; exact Or.inl h5
      · rw [setMergeState_obj] at h5; exact Or.inr ⟨P, h5, h6⟩
    · rcases rewriteHoistable_words u _ _ _ _ hh j _ h3 with h5 | ⟨P1, _, h6⟩
      · rw [setMergeState_obj] at h5
        rw [hc2] at h4
        exact Or.inr ⟨P, h5, h4⟩
      · cases h6
  refine ⟨rewriteStep_trans h01 h2, ?_, hwords, ?_, ?_⟩
  · have hm0 : ((setMergeState s u
        { (s.units u).m_mergeState with uniqueDefinedClasses := true }).units u).m_mergeState =
        { (s.units u).m_mergeState with uniqueDefinedClasses := true } := setMergeState_same _ _ _
    rcases (h1.2 u).mergeState with e1 | e1 <;> rcases (h2.2 u).mergeState with e2 | e2 <;>
      rw [e2, e1, hm0]
  · intro j P hj1 hj2 hw
    have := rewriteHoistable_effect u _ _ _ _ hh j P hj1 (by omega)
      (by rw [setMergeState_obj]; exact hw)
    exact rewriteStep_keeps h2 u j _ this (fun p hp => by cases hp)
  · intro j P hi hw
    have hex : ∃ w1, mergeableObj s2 u j = some w1 := by
      obtain ⟨w1, hw1, _⟩ := rewriteStep_stride h01 u j _ hw
      exact ⟨w1, hw1⟩
    obtain ⟨w1, hw1⟩ := hex
    rcases rewriteHoistable_words u _ _ _ _ hh j w1 hw1 with h5 | ⟨P1, h5, h6⟩
    · rw [setMergeState_obj, hw] at h5
      injection h5 with h5
      subst h5
      have := rewriteStmts_effect u _ _ _ _ _ hr j P (instrAt_rewriteStep h01 u _ hi) hw1
      rw [hc2] at this
      exact this
    · rw [setMergeState_obj, hw] at h5
      injection h5 with h5
      injection h5 with h5
      subst h5
      subst h6
      exact rewriteStep_keeps h2 u j _ hw1 (fun p hp => by cases hp)

theorem partly_refl (u : Nat) (t a : VM) : PartlyRewritten u t a a :=
  ⟨rfl, fun _ _ => rfl, rfl, rfl, fun _ => Or.inl rfl⟩

theorem partly_clsList {u : Nat} {t a b : VM} (h : PartlyRewritten u t a b) :
    b.clsList = a.clsList := by
  rw [h.1]

/-- A state that is the end of the rewrite with some words replaced by the
words of the end of the rewrite is the end of the rewrite. -/
theorem partly_eq {u : Nat} {t b : VM} (h : PartlyRewritten u t t b) : b = t := by
  obtain ⟨h1, h2, h3, h4, h5⟩ := h
  have hl : (b.units u).m_mergeables = (t.units u).m_mergeables := by
    apply List.ext_getElem?
    intro j
    have := h5 j
    simp only [mergeableObj] at this
    rcases this with e | e <;> exact e
  have hu : b.units = t.units := by
    funext v
    by_cases hv : v = u
    · subst hv
      rw [h3, hl]
    · exact h2 v hv
  rw [h1, hu]

theorem partly_set_both {u : Nat} {t a b : VM} (h : PartlyRewritten u t a b) (ix : Nat)
    (w : Mergeable) :
    PartlyRewritten u t (setMergeable a u ix w) (setMergeable b u ix w) := by
  obtain ⟨h1, h2, h3, h4, h5⟩ := h
  refine ⟨?_, ?_, ?_, ?_, ?_⟩
  · unfold setMergeable
    simp only []
    rw [h1]
  · intro v hv
    unfold setMergeable
    simp only [Function.update_apply, if_neg hv]
    exact h2 v hv
  · unfold setMergeable
    simp only [Function.update_same]
    rw [h3]
  · unfold setMergeable
    simp only [Function.update_same, List.length_set]
    exact h4
  · intro j
    by_cases hj : j = ix
    · subst hj
      left
      unfold mergeableObj setMergeable
      simp only [Function.update_same]
      rw [List.getElem?_set, List.getElem?_set, h4]
      simp only [if_true]
    · rw [setMergeable_obj_ne b u ix w j hj, setMergeable_obj_ne a u ix w j hj]
      exact h5 j

theorem partly_set_left {u : Nat} {t a b : VM} (h : PartlyRewritten u t a b) (ix : Nat)
    (w : Mergeable) (hb : mergeableObj b u ix = mergeableObj t u ix) :
    PartlyRewritten u t (setMergeable a u ix w) b := by
  obtain ⟨h1, h2, h3, h4, h5⟩ := h
  refine ⟨?_, ?_, ?_, ?_, ?_⟩
  · unfold setMergeable
    simp only []
    exact h1
  · intro v hv
    unfold setMergeable
    simp only [Function.update_apply, if_neg hv]
    exact h2 v hv
  · unfold setMergeable
    simp only [Function.update_same]
    rw [h3]
  · unfold setMergeable
    simp only [Function.update_same, List.length_set]
    exact h4
  · intro j
    by_cases hj : j = ix
    · subst hj
      exact Or.inr hb
    · rw [setMergeable_obj_ne a u ix w j hj]
      exact h5 j

/-- A word of the end of the rewrite, seen from a state on the way: the same
word, or a marked class where the state has an unmarked `PreClass*`. -/
theorem rewriteStep_word {a t : VM} (h : RewriteStep a t) (u j : Nat) (w : Mergeable)
    (hw : mergeableObj a u j = some w) :
    mergeableObj t u j = some w ∨
      ∃ c p, w = .preClass p ∧ mergeableObj t u j = some (.cls c) := by
  obtain ⟨w1, hw1, _⟩ := rewriteStep_stride h u j w hw
  rcases (h.2 u).words j w1 hw1 with h1 | ⟨c, p, hc, h1⟩
  · simp only [mergeableObj] at hw
    rw [hw] at h1
    injection h1 with h1
    subst h1
    exact Or.inl hw1
  · simp only [mergeableObj] at hw
    rw [hw] at h1
    injection h1 with h1
    subst hc
    exact Or.inr ⟨c, p, h1, hw1⟩

theorem rewriteAsserts_clsList {a b : VM} (h : b.clsList = a.clsList) (p : PreClass) :
    rewriteAsserts b p = rewriteAsserts a p := by
  unfold rewriteAsserts
  rw [h]

/-- The first loop of the rewrite on a partly rewritten state ends in a
partly rewritten state. -/
theorem rewriteHoistable_partly (u : Nat) (t : VM) :
    ∀ (n ix : Nat) (a a1 b : VM), rewriteHoistable u n ix a = some a1 → RewriteStep a1 t →
      PartlyRewritten u t a b →
      ∃ b1, rewriteHoistable u n ix b = some b1 ∧ PartlyRewritten u t a1 b1 := by
  intro n
  induction n with
  | zero =>
    intro ix a a1 b h _ hp
    simp only [rewriteHoistable, Option.some.injEq] at h
    subst h
    exact ⟨b, rfl, hp⟩
  | succ n ih =>
    intro ix a a1 b h ht hp
    have hat : RewriteStep a t := rewriteStep_trans (rewriteHoistable_rewriteStep u _ _ _ _ h) ht
    simp only [rewriteHoistable] at h ⊢
    rcases hobj : mergeableObj a u ix with _ | obj
    · rw [hobj] at h; cases h
    rw [hobj] at h
    have hcl := partly_clsList hp
    cases obj <;> simp only [] at h <;> try cases h
    · rename_i p
      obtain ⟨ha, h⟩ := asserted_some h
      have hba : rewriteAsserts b p = true := by rw [rewriteAsserts_clsList hcl]; exact ha
      rcases hp.2.2.2.2 ix with hb | hb
      · rw [hb, hobj]
        simp only []
        rw [if_pos hba, hcl]
        exact ih _ _ _ _ h ht (partly_set_both hp ix _)
      · rcases rewriteStep_word hat u ix _ hobj with h1 | ⟨c, p1, _, h1⟩
        · rw [hb, h1]
          simp only []
          rw [if_pos hba, hcl]
          exact ih _ _ _ _ h ht (partly_set_both hp ix _)
        · have hb2 := hb
          rw [h1] at hb2
          rw [hb2]
          simp only []
          exact ih _ _ _ _ h ht (partly_set_left hp ix _ hb)
    · rename_i c
      have hbw : mergeableObj b u ix = some (.cls c) := by
        rcases hp.2.2.2.2 ix with hb | hb
        · rw [hb, hobj]
        · rcases rewriteStep_word hat u ix _ hobj with h1 | ⟨c1, p1, hc, _⟩
          · rw [hb, h1]
          · cases hc
      rw [hbw]
      simp only []
      exact ih _ _ _ _ h ht hp

/-- The second loop of the rewrite on a partly rewritten state ends in the
same state as on the state itself. -/
theorem rewriteStmts_partly (u e : Nat) (t : VM) :
    ∀ (fuel ix : Nat) (a b : VM), rewriteStmts u e fuel ix a = some (some t) →
      PartlyRewritten u t a b → rewriteStmts u e fuel ix b = some (some t) := by
  intro fuel
  induction fuel with
  | zero => intro ix a b h; cases h
  | succ fuel ih =>
    intro ix a b h hp
    have hat : RewriteStep a t := rewriteStmts_rewriteStep u e _ _ _ _ h
    simp only [rewriteStmts] at h ⊢
    rcases hobj : mergeableObj a u ix with _ | obj
    · rw [hobj] at h; cases h
    rw [hobj] at h
    have hcl := partly_clsList hp
    have hsame : (∀ p, obj ≠ .preClass p) → mergeableObj b u ix = some obj := by
      intro hn
      rcases hp.2.2.2.2 ix with hb | hb
      · rw [hb, hobj]
      · rw [hb]; exact rewriteStep_keeps hat u ix obj hobj hn
    have hend : ∀ a2 b2 : VM, some (some a2) = some (some t) → PartlyRewritten u t a2 b2 →
        some (some b2) = some (some t) := by
      intro a2 b2 h2 hp2
      simp only [Option.some.injEq] at h2
      subst h2
      rw [partly_eq hp2]
    cases obj with
    | func f => simp only [] at h; exact absurd h (by simp)
    | tvData v => simp only [] at h; exact absurd h (by simp)
    | tvPad => simp only [] at h; exact absurd h (by simp)
    | preClass p =>
      simp only [] at h
      obtain ⟨ha, h⟩ := asserted_some_some h
      have hba : rewriteAsserts b p = true := by rw [rewriteAsserts_clsList hcl]; exact ha
      rcases hp.2.2.2.2 ix with hb | hb
      · rw [hb, hobj]
        simp only []
        rw [if_pos hba, hcl]
        split
        · rename_i hc; rw [if_pos hc] at h; exact ih _ _ _ h (partly_set_both hp ix _)
        · rename_i hc; rw [if_neg hc] at h; exact hend _ _ h (partly_set_both hp ix _)
      · rcases rewriteStep_word hat u ix _ hobj with h1 | ⟨c, p1, _, h1⟩
        · rw [hb, h1]
          simp only []
          rw [if_pos hba, hcl]
          split
          · rename_i hc; rw [if_pos hc] at h; exact ih _ _ _ h (partly_set_both hp ix _)
          · rename_i hc; rw [if_neg hc] at h; exact hend _ _ h (partly_set_both hp ix _)
        · have hb2 := hb
          rw [h1] at hb2
          rw [hb2]
          simp only []
          split
          · rename_i hc; rw [if_pos hc] at h; exact ih _ _ _ h (partly_set_left hp ix _ hb)
          · rename_i hc; rw [if_neg hc] at h; exact hend _ _ h (partly_set_left hp ix _ hb)
    | cls c =>
      rw [hsame (fun p hp => by cases hp)]
      simp only [] at h ⊢
      split
      · rename_i hc; rw [if_pos hc] at h; exact ih _ _ _ h hp
      · rename_i hc; rw [if_neg hc] at h; exact hend _ _ h hp
    | define name =>
      rw [hsame (fun p hp => by cases hp)]
      simp only [] at h ⊢
      split
      · rename_i hc; rw [if_pos hc] at h; exact ih _ _ _ h hp
      · rename_i hc; rw [if_neg hc] at h; exact hend _ _ h hp
    | global name =>
      rw [hsame (fun p hp => by cases hp)]
      simp only [] at h ⊢
      split
      · rename_i hc; rw [if_pos hc] at h; exact ih _ _ _ h hp
      · rename_i hc; rw [if_neg hc] at h; exact hend _ _ h hp
    | reqName k name =>
      rw [hsame (fun p hp => by cases hp)]
      simp only [] at h ⊢
      split
      · rename_i hc; rw [if_pos hc] at h; exact ih _ _ _ h hp
      · rename_i hc; rw [if_neg hc] at h; exact hend _ _ h hp
    | reqUnit k unit =>
      rw [hsame (fun p hp => by cases hp)]
      simp only [] at h ⊢
      split
      · rename_i hc; rw [if_pos hc] at h; exact ih _ _ _ h hp
      · rename_i hc; rw [if_neg hc] at h; exact hend _ _ h hp
    | done =>
      rw [hsame (fun p hp => by cases hp)]
      simp only [] at h ⊢
      split
      · rename_i hc; rw [if_pos hc] at h; exact ih _ _ _ h hp
      · rename_i hc; rw [if_neg hc] at h; exact hend _ _ h hp

theorem rewriteHoistable_others (u : Nat) :
    ∀ (n ix : Nat) (s t : VM), rewriteHoistable u n ix s = some t →
      ∀ v, v ≠ u → t.units v = s.units v := by
  intro n
  induction n with
  | zero =>
    intro ix s t h v _
    simp only [rewriteHoistable, Option.some.injEq] at h
    subst h; rfl
  | succ n ih =>
    intro ix s t h v hv
    simp only [rewriteHoistable] at h
    rcases hobj : mergeableObj s u ix with _ | obj
    · rw [hobj] at h; cases h
    rw [hobj] at h
    cases obj <;> simp only [] at h <;> try cases h
    · replace h := (asserted_some h).2
      rw [ih _ _ _ h v hv]
      simp [setMergeable, Function.update_apply, hv]
    · exact ih _ _ _ h v hv

theorem rewriteStmts_others (u e : Nat) :
    ∀ (fuel ix : Nat) (s t : VM), rewriteStmts u e fuel ix s = some (some t) →
      ∀ v, v ≠ u → t.units v = s.units v := by
  intro fuel
  induction fuel with
  | zero => intro ix s t h; cases h
  | succ fuel ih =>
    intro ix s t h v hv
    simp only [rewriteStmts] at h
    rcases hobj : mergeableObj s u ix with _ | obj
    · rw [hobj] at h; cases h
    rw [hobj] at h
    cases obj <;> simp only [] at h <;> (try (exact absurd h (by simp))) <;>
      (try (replace h := (asserted_some_some h).2; simp only [] at h)) <;> split at h <;>
      first
        | exact ih _ _ _ h v hv
        | (simp only [Option.some.injEq] at h; subst h; rfl)
        | skip
    · rw [ih _ _ _ h v hv]
      simp [setMergeable, Function.update_apply, hv]
    · simp only [Option.some.injEq] at h
      subst h
      simp [setMergeable, Function.update_apply, hv]

/-- A unit after the rewrite is the unit before it, but for the array and
the merge state. -/
theorem unitStep_eq {a b : Unit} (h : UnitStep a b) :
    b = { a with m_mergeables := b.m_mergeables, m_mergeState := b.m_mergeState } := by
  obtain ⟨h1, h2, h3, h4, h5, h6, h7, _, _, _⟩ := h
  cases a; cases b
  simp only [] at h1 h2 h3 h4 h5 h6 h7
  subst h1 h2 h3 h4 h5 h6 h7
  rfl

/-- A rewrite that returns has changed the unit `u` only. -/
theorem rewritePass_others (fuel u : Nat) (s : VM) (a : PUnit) (t : VM)
    (h : rewritePass fuel u s = some (.ok a t)) : ∀ v, v ≠ u → t.units v = s.units v := by
  obtain ⟨s2, hh, hr⟩ := rewritePass_inv fuel u s a t h
  intro v hv
  rw [rewriteStmts_others u _ _ _ _ _ hr v hv, rewriteHoistable_others u _ _ _ _ hh v hv]
  simp [setMergeState, Function.update_apply, hv]

/-- With the bit `UniqueDefinedClasses` set on both sides, a state that a
racing thread finds is a partly rewritten state. -/
theorem racing_partly {u : Nat} {s t s1 : VM} (h : Racing u s t s1) :
    { (s1.units u).m_mergeState with uniqueDefinedClasses := true } =
      ({ (s.units u).m_mergeState with uniqueDefinedClasses := true } : MergeState) ∧
    PartlyRewritten u t
      (setMergeState s u { (s.units u).m_mergeState with uniqueDefinedClasses := true })
      (setMergeState s1 u { (s1.units u).m_mergeState with uniqueDefinedClasses := true }) := by
  obtain ⟨h1, h2, h3, h5⟩ := h
  have hm : { (s1.units u).m_mergeState with uniqueDefinedClasses := true } =
      ({ (s.units u).m_mergeState with uniqueDefinedClasses := true } : MergeState) := by
    rcases h3.mergeState with e | e <;> rw [e]
  refine ⟨hm, ?_, ?_, ?_, ?_, ?_⟩
  · unfold setMergeState
    simp only []
    rw [h1]
  · intro v hv
    unfold setMergeState
    simp only [Function.update_apply, if_neg hv]
    exact h2 v hv
  · unfold setMergeState
    simp only [Function.update_same]
    rw [hm]
    have := unitStep_eq h3
    rw [this]
  · unfold setMergeState
    simp only [Function.update_same]
    exact h3.length
  · intro j
    rw [setMergeState_obj, setMergeState_obj]
    exact h5 j

/-- C20.  The rewrite is idempotent: started in any state that a racing
thread may find (the state in which a rewrite started, with some of its
writes already made; in particular that state itself and the state in which
the rewrite ends), it ends in the same state, since the word written at an
index is the marked head of the chain of the name of the template there,
whoever writes it.  And it keeps the frame: the length of the array, every
word that is not an unmarked `PreClass*` (function entries, the define and
global entries and the words of their values, include entries, `Done`), the
layout of the unit, the other units and the rest of the state. -/
theorem rewrite_idempotent (fuel u : Nat) (s : VM) (a : PUnit) (t : VM)
    (h : rewritePass fuel u s = some (.ok a t)) :
    (∀ s1, Racing u s t s1 → rewritePass fuel u s1 = some (.ok a t)) ∧
    Racing u s t s ∧ Racing u s t t ∧
    rewritePass fuel u t = some (.ok a t) ∧
    (∀ j w, mergeableObj t u j = some w →
      mergeableObj s u j = some w ∨
        ∃ P, mergeableObj s u j = some (.preClass P) ∧ w = .cls (s.clsList P.name).head?) ∧
    (t.units u).m_mergeables.length = (s.units u).m_mergeables.length ∧
    (∀ j w, mergeableObj s u j = some w → (∀ p, w ≠ .preClass p) →
      mergeableObj t u j = some w) ∧
    UnitStep (s.units u) (t.units u) ∧
    (∀ v, v ≠ u → t.units v = s.units v) ∧
    t = { s with units := t.units } := by
  obtain ⟨hstep, hm, hwords, _, _⟩ := rewritePass_effect fuel u s a t h
  have hoth := rewritePass_others fuel u s a t h
  have hrace : ∀ s1, Racing u s t s1 → rewritePass fuel u s1 = some (.ok a t) := by
    intro s1 hr
    obtain ⟨s2, hh, hst⟩ := rewritePass_inv fuel u s a t h
    obtain ⟨hmeq, hp⟩ := racing_partly hr
    have h3 := hr.2.2.1
    have hst2 := rewriteStmts_rewriteStep u _ _ _ _ _ hst
    simp only [rewritePass]
    have hl := setMergeState_layout s1 u
      { (s1.units u).m_mergeState with uniqueDefinedClasses := true }
    rw [hl.1, hl.2.1, h3.firstMergeablePreClass, h3.firstHoistablePreClass]
    obtain ⟨b1, hb1, hp1⟩ := rewriteHoistable_partly u t _ _ _ _ _ hh hst2 hp
    rw [hb1]
    simp only []
    have hu1 : b1.units u = { (s2.units u) with m_mergeables := (b1.units u).m_mergeables } :=
      hp1.2.2.1
    have e1 : (b1.units u).m_mergeablesSize = (s2.units u).m_mergeablesSize := by rw [hu1]
    have e2 : (b1.units u).m_firstMergeablePreClass =
        (s2.units u).m_firstMergeablePreClass := by rw [hu1]
    have hs2 := rewriteStep_trans (setMergeState_rewriteStep s u)
      (rewriteHoistable_rewriteStep u _ _ _ _ hh)
    rw [e1, e2, (hs2.2 u).mergeablesSize, (hs2.2 u).firstMergeablePreClass]
    rw [rewriteStmts_partly u _ t _ _ _ _ hst hp1]
  have hr1 : Racing u s t s :=
    ⟨rfl, fun _ _ => rfl, unitStep_refl _, fun _ => Or.inl rfl⟩
  have hr2 : Racing u s t t := ⟨hstep.1, hoth, hstep.2 u, fun _ => Or.inr rfl⟩
  exact ⟨hrace, hr1, hr2, hrace t hr2, hwords, (hstep.2 u).length,
    fun j w hw hp => rewriteStep_keeps hstep u j w hw hp, hstep.2 u, hoth, hstep.1⟩

theorem rewrite_idempotent_witness :
    ∃ t : VM, rewritePass 2 9 exVMRW = some (.ok PUnit.unit t) ∧
      rewritePass 2 9 t = some (.ok PUnit.unit t) ∧
      mergeableObj t 9 2 = some (.define "X") ∧ mergeableObj t 9 6 = some .done :=
  ⟨_, rfl, (rewrite_idempotent 2 9 exVMRW PUnit.unit _ rfl).2.2.2.1,
    (rewrite_idempotent 2 9 exVMRW PUnit.unit _ rfl).2.2.2.2.2.2.1 2 _ rfl
      (fun p hp => by cases hp),
    (rewrite_idempotent 2 9 exVMRW PUnit.unit _ rfl).2.2.2.2.2.2.1 6 _ rfl
      (fun p hp => by cases hp)⟩


/-- The flag that the function loop of `initialMerge` returns: it is set when
the flag it started with was set and every function the loop visited carries
`AttrUnique`. -/
theorem initialMergeFuncs_flag (E : Env) (u : Nat) :
    ∀ (n ix : Nat) (a : Bool) (s : VM) (r : Bool) (t : VM),
      initialMergeFuncs E u n ix a s = some (r, t) →
      (r = true ↔ a = true ∧ ∀ j f, ix ≤ j → j < ix + n →
        mergeableObj s u j = some (.func f) → f.attrUnique = true) := by
  intro n
  induction n with
  | zero =>
    intro ix a s r t h
    simp only [initialMergeFuncs] at h
    injection h with h
    injection h with h1 _
    rw [← h1]
    exact ⟨fun ha => ⟨ha, fun j f h1 h2 => by omega⟩, fun ha => ha.1⟩
  | succ n ih =>
    intro ix a s r t h
    simp only [initialMergeFuncs] at h
    generalize ho : mergeableObj s u ix = o at h
    cases o with
    | none => cases h
    | some w =>
      cases w <;> try cases h
      rename_i f
      simp only [] at h
      have hobj : ∀ j, j ≠ ix →
          mergeableObj (setMergeable (loadFunc E f s).2 u ix (.func (loadFunc E f s).1)) u j =
            mergeableObj s u j := by
        intro j hj
        rw [setMergeable_obj_ne _ _ _ _ _ hj]
        unfold mergeableObj
        rw [loadFunc_units]
      have := ih (ix + 1) _ _ r t h
      rw [this]
      constructor
      · rintro ⟨h1, h2⟩
        have ha : a = true := by
          cases a
          · simp at h1
          · rfl
        rw [ha] at h1
        simp only [if_true] at h1
        refine ⟨ha, ?_⟩
        intro j g hj1 hj2 hg
        by_cases hj : j = ix
        · rw [hj, ho] at hg
          injection hg with hg
          injection hg with hg
          rw [← hg]
          exact h1
        · exact h2 j g (by omega) (by omega) (by rw [hobj j hj]; exact hg)
      · rintro ⟨ha, h2⟩
        rw [ha]
        simp only [if_true]
        refine ⟨h2 ix f (Nat.le_refl _) (by omega) ho, ?_⟩
        intro j g hj1 hj2 hg
        rw [hobj j (by omega)] at hg
        exact h2 j g (by omega) (by omega) hg

/-- Outside the repo-authoritative mode the first merge of a unit whose only
non-main function carries `AttrUnique` leaves the bit `UniqueFuncs` clear. -/
theorem unique_funcs_counterexample :
    (∀ j f, 1 ≤ j → j < (exVMUnit.units 1).m_firstHoistablePreClass →
      mergeableObj exVMUnit 1 j = some (.func f) → f.attrUnique = true) ∧
    ∃ t, initialMerge interpEnv 2 1 exVMUnit = some (.ok PUnit.unit t) ∧
      (t.units 1).m_mergeState.uniqueFuncs = false := by
  refine ⟨?_, _, rfl, ?_⟩
  · intro j f h1 h2 h
    have hj : j = 1 := by
      have : (exVMUnit.units 1).m_firstHoistablePreClass = 2 := rfl
      omega
    rw [hj] at h
    have h0 : mergeableObj exVMUnit 1 1 = some (.func exFuncF) := rfl
    rw [h0] at h
    injection h with h
    injection h with h
    rw [← h]
    rfl
  · rw [setMergeState_same]
    rfl

/-- C23, amended: `Unit::initialMerge` starts its flag from
`RuntimeOption::RepoAuthoritative`, so after the first merge of an unmerged
unit the bit `UniqueFuncs` is set exactly when the engine is in the
repo-authoritative mode and every function of the unit other than the
pseudo-main (the words at the indices from 1 up to `m_firstHoistablePreClass`)
carries `AttrUnique`; it is clear when some such function lacks the attribute,
and also whenever the mode is off.  The first merge returns when the words of
the function range are functions and those of the hoistable range are
templates (for a unit that is not merge-only, or with the mode off). -/
theorem unique_funcs_classification (E : Env) (fuel u : Nat) (s : VM)
    (hun : (s.units u).m_mergeState = UnitMergeStateUnmerged) :
    (∀ a t, initialMerge E fuel u s = some (.ok a t) →
      ((t.units u).m_mergeState.uniqueFuncs = true ↔
        E.RepoAuthoritative = true ∧
          ∀ j f, 1 ≤ j → j < (s.units u).m_firstHoistablePreClass →
            mergeableObj s u j = some (.func f) → f.attrUnique = true)) ∧
    ((∀ j, 1 ≤ j → j < (s.units u).m_firstHoistablePreClass →
        ∃ f, mergeableObj s u j = some (.func f)) →
      (∀ j, (s.units u).m_firstHoistablePreClass ≤ j →
        j < (s.units u).m_firstMergeablePreClass →
        ∃ p, mergeableObj s u j = some (.preClass p)) →
      (E.RepoAuthoritative = false ∨ (s.units u).isMergeOnly = false) →
      ∃ t, initialMerge E (fuel + 2) u s = some (.ok PUnit.unit t)) := by
  refine ⟨?_, fun h1 h2 h3 => initialMerge_total E fuel u s hun h1 h2 h3⟩
  intro a t h
  cases fuel with
  | zero => cases h
  | succ fuel =>
    simp only [initialMerge] at h
    rw [if_pos hun] at h
    cases fuel with
    | zero => cases h
    | succ fuel =>
      simp only [initialMergeBody] at h
      have hlay := setMergeState_layout s u UnitMergeStateMerging
      rw [hlay.1] at h
      generalize hf : initialMergeFuncs E u ((s.units u).m_firstHoistablePreClass - 1) 1
        E.RepoAuthoritative (setMergeState s u UnitMergeStateMerging) = o at h
      rcases o with _ | ⟨r, s1⟩
      · cases h
      · have hflag := initialMergeFuncs_flag E u _ _ _ _ r s1 hf
        have hr : r = true ↔ E.RepoAuthoritative = true ∧
            ∀ j f, 1 ≤ j → j < (s.units u).m_firstHoistablePreClass →
              mergeableObj s u j = some (.func f) → f.attrUnique = true := by
          rw [hflag]
          constructor
          · rintro ⟨h1, h2⟩
            exact ⟨h1, fun j f hj1 hj2 hg =>
              h2 j f hj1 (by omega) (by rw [setMergeState_obj]; exact hg)⟩
          · rintro ⟨h1, h2⟩
            exact ⟨h1, fun j f hj1 hj2 hg =>
              h2 j f hj1 (by omega) (by rw [setMergeState_obj] at hg; exact hg)⟩
        simp only [] at h
        split at h
        · injection h with h
          injection h with _ h
          rw [← h, setMergeState_same]
          exact hr
        · generalize initialMergeHoistable s1 u _ _ true = ob at h
          rcases ob with _ | b
          · cases h
          · simp only [] at h
            split at h
            · generalize initialMergeStmts E u _ fuel _ b s1 = os at h
              rcases os with _ | ⟨c, x⟩ | ⟨m, x⟩ | _ <;> simp only [] at h <;> try cases h
              rw [setMergeState_same]
              exact hr
            · injection h with h
              injection h with _ h
              rw [← h, setMergeState_same]
              exact hr

/-- C23 at the example unit, outside the repo-authoritative mode. -/
theorem unique_funcs_classification_witness :
    (exVMUnit.units 1).m_mergeState = UnitMergeStateUnmerged ∧
    ∃ t, initialMerge interpEnv 2 1 exVMUnit = some (.ok PUnit.unit t) ∧
      ((t.units 1).m_mergeState.uniqueFuncs = true ↔
        interpEnv.RepoAuthoritative = true ∧
          ∀ j f, 1 ≤ j → j < (exVMUnit.units 1).m_firstHoistablePreClass →
            mergeableObj exVMUnit 1 j = some (.func f) → f.attrUnique = true) :=
  ⟨rfl, _, rfl, (unique_funcs_classification interpEnv 2 1 exVMUnit rfl).1 _ _ rfl⟩

/-! ## The function slots given by the first merge -/

theorem slotsKept_refl (E : Env) (s : VM) : SlotsKept E s s :=
  ⟨mono_refl s, fun _ => Or.inl rfl, fun _ _ _ h => h.1⟩

/-- An installed function word stays installed. -/
theorem installed_kept {E : Env} {s t : VM} (h : SlotsKept E s t) {v j : Nat} {f : Func}
    (hi : Installed E s v j f) : Installed E t v j f := by
  refine ⟨h.2.2 v j f hi, ?_, ?_⟩
  · rcases h.2.1 f.name with e | ⟨e0, e1⟩
    · rw [e]; exact hi.2.1
    · rw [e1, hi.2.2 e0, hi.2.1, e0]
  · intro h0
    rcases h.2.1 f.name with e | ⟨e0, _⟩
    · rw [e] at h0; exact hi.2.2 h0
    · exact hi.2.2 e0

theorem slotsKept_trans (E : Env) {a b c : VM} (h1 : SlotsKept E a b) (h2 : SlotsKept E b c) :
    SlotsKept E a c := by
  refine ⟨mono_trans h1.1 h2.1, ?_, fun v j f hi => h2.2.2 v j f (installed_kept h1 hi)⟩
  intro n
  rcases h1.2.1 n with e1 | ⟨e0, e1⟩
  · rcases h2.2.1 n with e2 | ⟨f0, f1⟩
    · left; rw [e2, e1]
    · right; exact ⟨by rw [← e1]; exact f0, f1⟩
  · rcases h2.2.1 n with e2 | ⟨_, f1⟩
    · right; exact ⟨e0, by rw [e2, e1]⟩
    · right; exact ⟨e0, f1⟩

/-- A step that leaves the chains and the function slots of the names alone
and keeps every function word. -/
theorem slotsKept_of_eq (E : Env) (s t : VM) (h1 : t.clsList = s.clsList)
    (h2 : t.m_cachedFuncOffset = s.m_cachedFuncOffset)
    (h3 : ∀ v j f, mergeableObj s v j = some (.func f) → mergeableObj t v j = some (.func f)) :
    SlotsKept E s t :=
  ⟨⟨fun n => by rw [h1], fun hs n => by rw [h1]; exact hs n⟩, fun n => Or.inl (by rw [h2]),
    fun v j f hi => h3 v j f hi.1⟩

/-- A write of a word of one unit leaves the words of the other units. -/
theorem setMergeable_obj_other (s : VM) (u ix : Nat) (w : Mergeable) (v j : Nat) (h : v ≠ u) :
    mergeableObj (setMergeable s u ix w) v j = mergeableObj s v j := by
  unfold mergeableObj setMergeable
  simp only [Function.update_apply, if_neg h]

/-- A write over a word that is not a function keeps every function word. -/
theorem setMergeable_keeps_funcs (s : VM) (u ix : Nat) (w : Mergeable)
    (hw : ∀ f, mergeableObj s u ix ≠ some (.func f)) (v j : Nat) (f : Func)
    (h : mergeableObj s v j = some (.func f)) :
    mergeableObj (setMergeable s u ix w) v j = some (.func f) := by
  by_cases hv : v = u
  · subst hv
    by_cases hj : j = ix
    · subst hj; exact absurd h (hw f)
    · rw [setMergeable_obj_ne _ _ _ _ _ hj]; exact h
  · rw [setMergeable_obj_other _ _ _ _ _ _ hv]; exact h

/-- A store into the merge state of a unit keeps the function slots and the
function words. -/
theorem slotsKept_setMergeState (E : Env) (s : VM) (u : Nat) (m : MergeState) :
    SlotsKept E s (setMergeState s u m) :=
  slotsKept_of_eq E s _ rfl rfl (fun v j f h => by rw [setMergeState_obj]; exact h)

/-- The relation `SlotsKept` is kept by everything that `merge` does, when the
collaborators keep it and `newClass` allocates fresh objects. -/
theorem unitRel_slotsKept (E : Env) (hE : E.Respects (SlotsKept E)) (hF : E.Fresh) :
    UnitRel E (SlotsKept E) where
  refl := slotsKept_refl E
  trans := fun _ _ _ h1 h2 => slotsKept_trans E h1 h2
  mono := fun _ _ h => h.1
  env := hE
  fresh := hF
  setCached := setCached_of_all (fun _ _ _ h1 h2 => slotsKept_trans E h1 h2)
    (fun c s => slotsKept_of_eq E s _ rfl rfl (fun _ _ _ h => h))
  publish := publish_of_all E (fun _ _ _ h1 h2 => slotsKept_trans E h1 h2) fun P N s hs hf =>
    ⟨defClassPublish_mono E P N s hs hf, fun _ => Or.inl rfl, fun _ _ _ h => h.1⟩
  tcFunc := fun s _ _ _ _ _ => slotsKept_of_eq E s _ rfl rfl (fun _ _ _ h => h)
  mergeCns := by
    intro off v name s
    refine slotsKept_of_eq E _ _ (mergeCns_frame off v name s).1
      (mergeCns_frame off v name s).2.2.2.2.2.2 ?_
    intro v1 j f h
    unfold mergeableObj at h ⊢
    rw [(mergeCns_frame off v name s).2.2.2.1]
    exact h
  setGlobal := fun _ _ s => slotsKept_of_eq E s _ rfl rfl (fun _ _ _ h => h)
  tcFlags := fun s _ _ => slotsKept_of_eq E s _ rfl rfl (fun _ _ _ h => h)
  rewrite := by
    intro s t h _
    refine slotsKept_of_eq E s t (by rw [h.1]) (by rw [h.1]) ?_
    intro v j f hf
    unfold mergeableObj at hf ⊢
    have hlen := (h.2 v).length
    have hj : j < (s.units v).m_mergeables.length := (List.getElem?_eq_some_iff.mp hf).1
    have hj1 : j < (t.units v).m_mergeables.length := by omega
    rcases (h.2 v).words j _ (List.getElem?_eq_getElem hj1) with e | ⟨c, p, _, e⟩
    · rw [List.getElem?_eq_getElem hj1, ← hf, e]
    · rw [hf] at e; cases e
  setMerging := fun s u _ => slotsKept_setMergeState E s u _
  setMerged := fun _ s u _ _ _ h => slotsKept_trans E h (slotsKept_setMergeState E s u _)
  setFunc := by
    intro s u ix f hf
    refine ⟨mono_refl _, fun _ => Or.inl rfl, ?_⟩
    intro v j g hi
    by_cases hv : v = u
    · subst hv
      by_cases hj : j = ix
      · subst hj
        have hg : g = f := by
          have := hi.1
          rw [hf] at this
          injection this with this
          injection this with this
          exact this.symm
        subst hg
        rw [setMergeable_obj_same _ _ _ _ _ hf, ← hi.2.1]
      · rw [setMergeable_obj_ne _ _ _ _ _ hj]; exact hi.1
    · rw [setMergeable_obj_other _ _ _ _ _ _ hv]; exact hi.1
  setReq := by
    intro s0 s u ix k name unit h0 h
    refine ⟨h.1, h.2.1, ?_⟩
    intro v j f hi
    have h1 := h.2.2 v j f hi
    by_cases hv : v = u
    · subst hv
      by_cases hj : j = ix
      · subst hj
        have := hi.1
        rw [h0] at this
        cases this
      · rw [setMergeable_obj_ne _ _ _ _ _ hj]; exact h1
    · rw [setMergeable_obj_other _ _ _ _ _ _ hv]; exact h1
  setValue := by
    intro s u ix v v1 hv
    refine slotsKept_of_eq E s _ rfl rfl ?_
    exact setMergeable_keeps_funcs s u ix _ (fun f hc => by rw [hv] at hc; cases hc)
  funcOffset := by
    intro s name h0
    refine ⟨mono_refl _, ?_, fun _ _ _ h => h.1⟩
    intro n
    by_cases hn : n = name
    · subst hn
      right
      exact ⟨h0, by simp⟩
    · left
      simp [Function.update_apply, hn]

/-- What `loadFunc` answers: the function with the slot that the node of its
name records afterwards, a node that is settled. -/
theorem loadFunc_installed (E : Env) (f : Func) (s : VM) :
    (loadFunc E f s).1 =
      { f with m_cachedOffset := (loadFunc E f s).2.m_cachedFuncOffset f.name } ∧
    ((loadFunc E f s).2.m_cachedFuncOffset f.name = 0 → E.allocFixedFunction f.name = 0) := by
  refine ⟨rfl, ?_⟩
  unfold loadFunc
  simp only []
  split
  · intro h
    simpa using h
  · rename_i h0
    intro h
    exact absurd h h0

/-- After the function loop of `initialMerge` every word that it visited is an
installed function. -/
theorem initialMergeFuncs_installed (E : Env) (hE : E.Respects (SlotsKept E)) (hF : E.Fresh)
    (u : Nat) :
    ∀ (n ix : Nat) (a : Bool) (s : VM) (r : Bool) (t : VM),
      initialMergeFuncs E u n ix a s = some (r, t) →
      ∀ j, ix ≤ j → j < ix + n → ∃ f, Installed E t u j f := by
  intro n
  induction n with
  | zero => intro ix a s r t _ j h1 h2; omega
  | succ n ih =>
    intro ix a s r t h j hj1 hj2
    simp only [initialMergeFuncs] at h
    generalize ho : mergeableObj s u ix = o at h
    cases o with
    | none => cases h
    | some w =>
      cases w <;> try cases h
      rename_i f
      simp only [] at h
      by_cases hj : j = ix
      · have hw : mergeableObj (loadFunc E f s).2 u ix = some (.func f) := by
          unfold mergeableObj
          rw [loadFunc_units]
          exact ho
        have hl := loadFunc_installed E f s
        have hi : Installed E (setMergeable (loadFunc E f s).2 u ix (.func (loadFunc E f s).1))
            u ix (loadFunc E f s).1 :=
          ⟨setMergeable_obj_same _ _ _ _ _ hw, rfl, hl.2⟩
        have hk := initialMergeFuncs_post E (SlotsKept E) (unitRel_slotsKept E hE hF) u
          _ _ _ _ _ _ h
        rw [hj]
        exact ⟨_, installed_kept hk hi⟩
      · exact ih _ _ _ _ _ h j (by omega) (by omega)

/-- Every end of the body of the first merge leaves the functions of the unit
other than the pseudo-main installed, and keeps `SlotsKept`. -/
theorem initialMergeBody_installed (E : Env) (hE : E.Respects (SlotsKept E)) (hF : E.Fresh)
    (fuel u : Nat) (s0 t : VM) (h : EndsIn (initialMergeBody E fuel u s0) t) :
    ∀ j, 1 ≤ j → j < (s0.units u).m_firstHoistablePreClass → ∃ f, Installed E t u j f := by
  have hR := unitRel_slotsKept E hE hF
  intro j hj1 hj2
  cases fuel with
  | zero => cases h
  | succ fuel =>
    simp only [initialMergeBody] at h
    generalize hf : initialMergeFuncs E u ((s0.units u).m_firstHoistablePreClass - 1) 1
      E.RepoAuthoritative s0 = o at h
    rcases o with _ | ⟨a, s1⟩
    · cases h
    · obtain ⟨f, hi⟩ := initialMergeFuncs_installed E hE hF u _ _ _ _ _ _ hf j hj1 (by omega)
      refine ⟨f, ?_⟩
      simp only [] at h
      split at h
      · simp only [EndsIn] at h
        rw [← h]
        exact installed_kept (slotsKept_setMergeState E _ u _)
          (installed_kept hE.mergePreConsts hi)
      · generalize initialMergeHoistable s1 u _ _ true = ob at h
        rcases ob with _ | b
        · cases h
        · simp only [] at h
          split at h
          · have hs := (initialMerge_post E (SlotsKept E) hR fuel).1 u
              (s1.units u).m_mergeablesSize (s1.units u).m_firstMergeablePreClass b s1
            generalize initialMergeStmts E u _ fuel _ b s1 = os at h hs
            rcases os with _ | ⟨c, x⟩ | ⟨m, x⟩ | _
            · cases h
            · simp only [EndsIn] at h
              rw [← h]
              exact installed_kept (slotsKept_setMergeState E _ u _)
                (installed_kept hs hi)
            · simp only [EndsIn] at h
              rw [← h]
              exact installed_kept hs hi
            · cases h
          · simp only [EndsIn] at h
            rw [← h]
            exact installed_kept (slotsKept_setMergeState E _ u _) hi

/-- C24. Slot assignment on first merge.  With collaborators that leave the
function slots of the names and the installed function words alone: every end
of `initialMerge` of an unmerged unit leaves each function of the unit other
than the pseudo-main (the words at the indices from 1 up to
`m_firstHoistablePreClass`) with the offset that the directory node of its
name records, and the call returns when the words of the two ranges are
functions and templates; `loadFunc` leaves the state alone when the node has a
slot and writes the answer of `allocFixedFunction` only into a node that has
none; over `initialMerge` and over `merge` a node that has a slot keeps it;
and two functions with the same name, in this unit or installed before in any
unit, have the same slot. -/
theorem slot_assignment (E : Env) (hE : E.Respects (SlotsKept E)) (hF : E.Fresh)
    (fuel u : Nat) (s : VM) (hun : (s.units u).m_mergeState = UnitMergeStateUnmerged) :
    (∀ t, EndsIn (initialMerge E fuel u s) t →
      ∀ j, 1 ≤ j → j < (s.units u).m_firstHoistablePreClass →
        ∃ f, mergeableObj t u j = some (.func f) ∧
          f.m_cachedOffset = t.m_cachedFuncOffset f.name) ∧
    ((∀ j, 1 ≤ j → j < (s.units u).m_firstHoistablePreClass →
        ∃ f, mergeableObj s u j = some (.func f)) →
      (∀ j, (s.units u).m_firstHoistablePreClass ≤ j →
        j < (s.units u).m_firstMergeablePreClass →
        ∃ p, mergeableObj s u j = some (.preClass p)) →
      (E.RepoAuthoritative = false ∨ (s.units u).isMergeOnly = false) →
      ∃ t, initialMerge E (fuel + 2) u s = some (.ok PUnit.unit t)) ∧
    (∀ (f : Func) (x : VM),
      (x.m_cachedFuncOffset f.name ≠ 0 → (loadFunc E f x).2 = x) ∧
      (x.m_cachedFuncOffset f.name = 0 →
        (loadFunc E f x).2 =
          { x with m_cachedFuncOffset :=
              Function.update x.m_cachedFuncOffset f.name (E.allocFixedFunction f.name) }) ∧
      (loadFunc E f x).1 =
        { f with m_cachedOffset := (loadFunc E f x).2.m_cachedFuncOffset f.name }) ∧
    (∀ t, (EndsIn (initialMerge E fuel u s) t ∨ (ChainsOK s ∧ EndsIn (merge E fuel u s) t)) →
      ∀ n, s.m_cachedFuncOffset n ≠ 0 → t.m_cachedFuncOffset n = s.m_cachedFuncOffset n) ∧
    (∀ t, EndsIn (initialMerge E fuel u s) t →
      ∀ j f, 1 ≤ j → j < (s.units u).m_firstHoistablePreClass →
        mergeableObj t u j = some (.func f) →
        (∀ i g, 1 ≤ i → i < (s.units u).m_firstHoistablePreClass →
          mergeableObj t u i = some (.func g) → g.name = f.name →
          g.m_cachedOffset = f.m_cachedOffset) ∧
        (∀ v i g, Installed E s v i g → g.name = f.name →
          mergeableObj t v i = some (.func g) ∧ g.m_cachedOffset = f.m_cachedOffset)) := by
  have hR := unitRel_slotsKept E hE hF
  have hinst : ∀ t, EndsIn (initialMerge E fuel u s) t →
      ∀ j, 1 ≤ j → j < (s.units u).m_firstHoistablePreClass → ∃ f, Installed E t u j f := by
    intro t h j hj1 hj2
    cases fuel with
    | zero => cases h
    | succ fuel =>
      simp only [initialMerge] at h
      rw [if_pos hun] at h
      exact initialMergeBody_installed E hE hF fuel u _ t h j hj1
        (by rw [(setMergeState_layout s u UnitMergeStateMerging).1]; exact hj2)
  have hkept : ∀ t, EndsIn (initialMerge E fuel u s) t → SlotsKept E s t :=
    fun t h => post_endsIn ((initialMerge_post E (SlotsKept E) hR fuel).2.2 u s) h
  refine ⟨?_, fun h1 h2 h3 => initialMerge_total E fuel u s hun h1 h2 h3, ?_, ?_, ?_⟩
  · intro t h j hj1 hj2
    obtain ⟨f, hi⟩ := hinst t h j hj1 hj2
    exact ⟨f, hi.1, hi.2.1⟩
  · intro f x
    refine ⟨?_, ?_, rfl⟩
    · intro h
      unfold loadFunc
      simp only [if_neg h]
    · intro h
      unfold loadFunc
      simp only [if_pos h]
  · intro t h n hn
    have hk : SlotsKept E s t := by
      rcases h with h | ⟨hs, h⟩
      · exact hkept t h
      · exact post_endsIn (merge_post E (SlotsKept E) hR fuel u s hs) h
    rcases hk.2.1 n with e | ⟨e, _⟩
    · exact e
    · exact absurd e hn
  · intro t h j f hj1 hj2 hf
    obtain ⟨f1, hi⟩ := hinst t h j hj1 hj2
    have hff : f1 = f := by
      have := hi.1
      rw [hf] at this
      injection this with this
      injection this with this
      exact this.symm
    subst hff
    refine ⟨?_, ?_⟩
    · intro i g hi1 hi2 hg hname
      obtain ⟨g1, hgi⟩ := hinst t h i hi1 hi2
      have hgg : g1 = g := by
        have := hgi.1
        rw [hg] at this
        injection this with this
        injection this with this
        exact this.symm
      subst hgg
      rw [hgi.2.1, hi.2.1, hname]
    · intro v i g hg hname
      have hgi := installed_kept (hkept t h) hg
      exact ⟨hgi.1, by rw [hgi.2.1, hi.2.1, hname]⟩

/-- C24 at the example unit: its first merge gives `f` the slot that the node
of the name `f` records. -/
theorem slot_assignment_witness :
    quietEnv.Respects (SlotsKept quietEnv) ∧ quietEnv.Fresh ∧
    (exVMUnit.units 1).m_mergeState = UnitMergeStateUnmerged ∧
    ∃ t, initialMerge quietEnv 2 1 exVMUnit = some (.ok PUnit.unit t) ∧
      mergeableObj t 1 1 = some (.func exFuncF1) ∧
      ∀ j, 1 ≤ j → j < (exVMUnit.units 1).m_firstHoistablePreClass →
        ∃ f, mergeableObj t 1 j = some (.func f) ∧
          f.m_cachedOffset = t.m_cachedFuncOffset f.name :=
  ⟨quietEnv_respects _ (slotsKept_refl quietEnv), quietEnv_fresh, rfl, _, rfl, by decide,
    (slot_assignment quietEnv (quietEnv_respects _ (slotsKept_refl quietEnv)) quietEnv_fresh
      2 1 exVMUnit rfl).1 _ rfl⟩

/-! ## The unit emitter -/

/-- The words of the hoistable templates: one word per id, the template that
`m_preClasses` holds at the id. -/
theorem createHoistable_some (pre : List PreClass) :
    ∀ (ids : List Nat) (hs : List Mergeable), createHoistable pre ids = some hs →
      hs.length = ids.length ∧
      ∀ (i id : Nat), ids[i]? = some id →
        ∃ p, pre[id]? = some p ∧ hs[i]? = some (Mergeable.preClass p) := by
  intro ids
  induction ids with
  | nil =>
    intro hs h
    simp only [createHoistable, Option.some.injEq] at h
    subst h
    exact ⟨rfl, fun i id hi => by simp at hi⟩
  | cons id0 rest ih =>
    intro hs h
    simp only [createHoistable] at h
    generalize hp : pre[id0]? = o at h
    rcases o with _ | p
    · cases h
    · simp only [] at h
      generalize hr : createHoistable pre rest = o at h
      rcases o with _ | ws
      · cases h
      · simp only [Option.some.injEq] at h
        subst h
        obtain ⟨h1, h2⟩ := ih ws hr
        refine ⟨by simp [h1], ?_⟩
        intro i id hi
        cases i with
        | zero =>
          simp only [List.getElem?_cons_zero, Option.some.injEq] at hi
          subst hi
          exact ⟨p, hp, by simp⟩
        | succ i =>
          simp only [List.getElem?_cons_succ] at hi ⊢
          exact h2 i id hi

/-- The loop over the hoistable templates ends when every id is an index of
`m_preClasses`. -/
theorem createHoistable_total (pre : List PreClass) :
    ∀ (ids : List Nat), (∀ id ∈ ids, id < pre.length) →
      ∃ hs, createHoistable pre ids = some hs := by
  intro ids
  induction ids with
  | nil => intro _; exact ⟨[], rfl⟩
  | cons id0 rest ih =>
    intro h
    obtain ⟨ws, hws⟩ := ih (fun id hid => h id (List.mem_cons_of_mem _ hid))
    have h0 : id0 < pre.length := h id0 (List.mem_cons_self _ _)
    simp only [createHoistable, List.getElem?_eq_getElem h0, hws]
    exact ⟨_, rfl⟩

/-- The value of `m_firstHoistableFunc` after the loop over the functions is
zero or the index of a function. -/
theorem createFirstHoistableFunc_le :
    ∀ (funcs : List Func) (ix first B : Nat), first ≤ B → ix + funcs.length ≤ B →
      createFirstHoistableFunc funcs ix first ≤ B := by
  intro funcs
  induction funcs with
  | nil => intro ix first B h _; exact h
  | cons f rest ih =>
    intro ix first B h1 h2
    simp only [createFirstHoistableFunc]
    simp only [List.length_cons] at h2
    apply ih
    · split
      · split
        · omega
        · exact h1
      · exact h1
    · omega

/-- The sizing loop and the filling loop of `create` agree: when both end,
the sizing loop has counted the words that the filling loop writes. -/
theorem createExtra_exact (E : Env) (pre : List PreClass) (lit : List String)
    (vals : List (Nat × TypedValue)) :
    ∀ (stmts : List (UnitMergeKind × Nat)) (rest : List Mergeable) (x y : Nat),
      createStmts pre lit vals stmts = some rest → createExtra E stmts x = some y →
      y = x + rest.length := by
  intro stmts
  induction stmts with
  | nil =>
    intro rest x y h1 h2
    simp only [createStmts, Option.some.injEq] at h1
    simp only [createExtra, Option.some.injEq] at h2
    subst h1 h2
    rfl
  | cons st tl ih =>
    intro rest x y h1 h2
    obtain ⟨k, id⟩ := st
    simp only [createStmts] at h1
    generalize hw : createStmt pre lit vals (k, id) = o at h1
    rcases o with _ | ws
    · cases h1
    · simp only [] at h1
      generalize ht : createStmts pre lit vals tl = o at h1
      rcases o with _ | tail
      · cases h1
      · simp only [Option.some.injEq] at h1
        subst h1
        have hlen : ∀ n, createExtra E tl n = some y → y = n + tail.length :=
          fun n hn => ih tail n y ht hn
        simp only [List.length_append]
        cases k with
        | UnitMergeKindClass =>
          have hws : ws.length = 1 := by
            simp only [createStmt] at hw
            split at hw
            · injection hw with hw; rw [← hw]; rfl
            · cases hw
          simp only [createExtra] at h2
          split at h2
          · rw [if_neg (by simp)] at h2
            have := hlen _ h2
            omega
          · have := hlen _ h2
            omega
        | UnitMergeKindUniqueDefinedClass => simp [createStmt] at hw
        | UnitMergeKindDone => simp [createStmt] at hw
        | UnitMergeKindReq r =>
          have hws : ws.length = 1 := by
            simp only [createStmt] at hw
            split at hw
            · injection hw with hw; rw [← hw]; rfl
            · cases hw
          simp only [createExtra] at h2
          split at h2
          · rw [if_pos (by simp)] at h2
            cases h2
          · have := hlen _ h2
            omega
        | UnitMergeKindDefine =>
          have hws : ws.length = 3 := by
            simp only [createStmt] at hw
            split at hw
            · split at hw
              · injection hw with hw; rw [← hw]; rfl
              · cases hw
            · cases hw
          simp only [createExtra] at h2
          split at h2
          · rw [if_pos (by simp)] at h2
            cases h2
          · have := hlen _ h2
            omega
        | UnitMergeKindGlobal =>
          have hws : ws.length = 3 := by
            simp only [createStmt] at hw
            split at hw
            · split at hw
              · injection hw with hw; rw [← hw]; rfl
              · cases hw
            · cases hw
          simp only [createExtra] at h2
          split at h2
          · rw [if_pos (by simp)] at h2
            cases h2
          · have := hlen _ h2
            omega

/-- The filling loop writes the words of a statement that names things the
emitter holds. -/
theorem createStmt_total (mkPre : PreClassEmitter → PreClass) (e : UnitEmitter)
    (st : UnitMergeKind × Nat) (h : stmtValid e st = true) :
    ∃ ws, createStmt (e.m_pceVec.map mkPre) e.m_litstrs e.m_mergeableValues st = some ws := by
  obtain ⟨k, id⟩ := st
  cases k with
  | UnitMergeKindClass =>
    simp only [stmtValid, decide_eq_true_eq] at h
    simp only [createStmt, List.getElem?_map, List.getElem?_eq_getElem h, Option.map_some']
    exact ⟨_, rfl⟩
  | UnitMergeKindUniqueDefinedClass => simp [stmtValid] at h
  | UnitMergeKindDone => simp [stmtValid] at h
  | UnitMergeKindReq r =>
    simp only [stmtValid, decide_eq_true_eq] at h
    simp only [createStmt, List.getElem?_eq_getElem h]
    exact ⟨_, rfl⟩
  | UnitMergeKindDefine =>
    simp only [stmtValid] at h
    simp only [createStmt]
    generalize e.m_mergeableValues[id]? = o at h ⊢
    rcases o with _ | ⟨n, tv⟩
    · cases h
    · simp only [decide_eq_true_eq] at h
      simp only [List.getElem?_eq_getElem h]
      exact ⟨_, rfl⟩
  | UnitMergeKindGlobal =>
    simp only [stmtValid] at h
    simp only [createStmt]
    generalize e.m_mergeableValues[id]? = o at h ⊢
    rcases o with _ | ⟨n, tv⟩
    · cases h
    · simp only [decide_eq_true_eq] at h
      simp only [List.getElem?_eq_getElem h]
      exact ⟨_, rfl⟩

theorem createStmts_total (mkPre : PreClassEmitter → PreClass) (e : UnitEmitter) :
    ∀ (stmts : List (UnitMergeKind × Nat)), (∀ st ∈ stmts, stmtValid e st = true) →
      ∃ rest, createStmts (e.m_pceVec.map mkPre) e.m_litstrs e.m_mergeableValues stmts =
        some rest := by
  intro stmts
  induction stmts with
  | nil => intro _; exact ⟨[], rfl⟩
  | cons st tl ih =>
    intro h
    obtain ⟨ws, hws⟩ := createStmt_total mkPre e st (h st (List.mem_cons_self _ _))
    obtain ⟨tail, htl⟩ := ih (fun x hx => h x (List.mem_cons_of_mem _ hx))
    simp only [createStmts, hws, htl]
    exact ⟨_, rfl⟩

/-- What `create` returns: the words it wrote, and the markers. -/
theorem create_some (E : Env) (mkFunc : FuncEmitter → Func)
    (mkPre : PreClassEmitter → PreClass) (e : UnitEmitter) (u : Unit)
    (h : e.create E mkFunc mkPre = some u) :
    ∃ hoistable rest,
      createHoistable (e.m_pceVec.map mkPre) e.m_hoistablePceIdVec = some hoistable ∧
      (rest = [] ∨
        (e.m_mainReturn._count ≠ 0 ∧ e.m_allClassesHoistable = false ∧
          createStmts (e.m_pceVec.map mkPre) e.m_litstrs e.m_mergeableValues
            e.m_mergeableStmts = some rest)) ∧
      u.m_mergeables =
        (e.m_fes.map mkFunc).map Mergeable.func ++ hoistable ++ rest ++ [Mergeable.done] ∧
      u.m_mergeablesSize = e.m_fes.length + hoistable.length + rest.length ∧
      u.m_firstHoistableFunc ≤ e.m_fes.length ∧
      u.m_firstHoistablePreClass = e.m_fes.length ∧
      u.m_firstMergeablePreClass = e.m_fes.length + hoistable.length := by
  simp only [UnitEmitter.create] at h
  generalize hh : createHoistable (e.m_pceVec.map mkPre) e.m_hoistablePceIdVec = oh at h
  rcases oh with _ | hoistable
  · cases h
  · simp only [] at h
    have hfirst : (if createFirstHoistableFunc (e.m_fes.map mkFunc) 0 0 = 0
        then (e.m_fes.map mkFunc).length
        else createFirstHoistableFunc (e.m_fes.map mkFunc) 0 0) ≤ e.m_fes.length := by
      split
      · simp
      · exact createFirstHoistableFunc_le _ 0 0 _ (Nat.zero_le _) (by simp)
    by_cases hc : e.m_mainReturn._count ≠ 0 ∧ e.m_allClassesHoistable = false
    · simp only [if_pos hc] at h
      generalize createExtra E e.m_mergeableStmts 0 = x at h
      rcases x with _ | n
      · simp only [ne_eq, not_true_eq_false, false_and, if_false] at h
        split at h
        · rename_i hsize
          injection h with h
          subst h
          simp only [List.length_append, List.length_map] at hsize
          exact ⟨hoistable, [], rfl, Or.inl rfl, rfl, by simp only []; omega, hfirst,
            by simp, by simp⟩
        · cases h
      · simp only [if_pos hc] at h
        generalize hr : createStmts (e.m_pceVec.map mkPre) e.m_litstrs e.m_mergeableValues
          e.m_mergeableStmts = orest at h
        rcases orest with _ | rest
        · cases h
        · simp only [] at h
          split at h
          · rename_i hsize
            injection h with h
            subst h
            simp only [List.length_append, List.length_map] at hsize
            exact ⟨hoistable, rest, rfl, Or.inr ⟨hc.1, hc.2, by first | exact hr | rfl⟩, rfl,
              by simp only []; omega, hfirst, by simp, by simp⟩
          · cases h
    · rw [if_neg hc] at h
      simp only [if_neg hc] at h
      split at h
      · rename_i hsize
        injection h with h
        subst h
        simp only [List.length_append, List.length_map] at hsize
        exact ⟨hoistable, [], rfl, Or.inl rfl, rfl, by simp only []; omega, hfirst,
          by simp, by simp⟩
      · cases h


/-- C25. The layout that `UnitEmitter::create` produces, for an emitter that
holds `F` functions and `H` hoistable templates.  The array of the unit is
the words of the functions in the order of `m_fes` (so with `F ≥ 1` the first
function of the emitter, the pseudo-main, is at index 0), then the `H` templates that
the ids of `m_hoistablePceIdVec` name, in the order of that vector, then the
words of the remaining statements, then `Done` at the index
`m_mergeablesSize`; the remaining words are those of the merge statements
for a merge-only unit with a class that is not hoistable, and none
otherwise.  The markers satisfy `m_firstHoistableFunc ≤
m_firstHoistablePreClass = F ≤ m_firstMergeablePreClass = F + H ≤
m_mergeablesSize`.  And `create` builds the unit when the ids of the emitter
name things it holds. -/
theorem create_layout (E : Env) (mkFunc : FuncEmitter → Func)
    (mkPre : PreClassEmitter → PreClass) (e : UnitEmitter) :
    (∀ u, e.create E mkFunc mkPre = some u →
      ∃ hoistable rest,
        u.m_mergeables =
          e.m_fes.map (fun fe => Mergeable.func (mkFunc fe)) ++ hoistable ++ rest ++
            [Mergeable.done] ∧
        hoistable.length = e.m_hoistablePceIdVec.length ∧
        (∀ (i id : Nat), e.m_hoistablePceIdVec[i]? = some id →
          ∃ pce, e.m_pceVec[id]? = some pce ∧
            hoistable[i]? = some (Mergeable.preClass (mkPre pce)) ∧
            u.m_mergeables[e.m_fes.length + i]? = some (Mergeable.preClass (mkPre pce))) ∧
        (rest = [] ∨
          (e.m_mainReturn._count ≠ 0 ∧ e.m_allClassesHoistable = false ∧
            createStmts (e.m_pceVec.map mkPre) e.m_litstrs e.m_mergeableValues
              e.m_mergeableStmts = some rest)) ∧
        (∀ (i : Nat) (fe : FuncEmitter), e.m_fes[i]? = some fe →
          u.m_mergeables[i]? = some (Mergeable.func (mkFunc fe))) ∧
        (∀ i, i < rest.length →
          u.m_mergeables[e.m_fes.length + e.m_hoistablePceIdVec.length + i]? = rest[i]?) ∧
        u.m_mergeables[u.m_mergeablesSize]? = some Mergeable.done ∧
        u.m_mergeables.length = u.m_mergeablesSize + 1 ∧
        u.m_mergeablesSize =
          e.m_fes.length + e.m_hoistablePceIdVec.length + rest.length ∧
        u.m_firstHoistableFunc ≤ u.m_firstHoistablePreClass ∧
        u.m_firstHoistablePreClass = e.m_fes.length ∧
        u.m_firstHoistablePreClass ≤ u.m_firstMergeablePreClass ∧
        u.m_firstMergeablePreClass = e.m_fes.length + e.m_hoistablePceIdVec.length ∧
        u.m_firstMergeablePreClass ≤ u.m_mergeablesSize) ∧
    ((∀ id ∈ e.m_hoistablePceIdVec, id < e.m_pceVec.length) →
      (∀ st ∈ e.m_mergeableStmts, stmtValid e st = true) →
      ∃ u, e.create E mkFunc mkPre = some u) := by
  constructor
  · intro u h
    obtain ⟨hoistable, rest, hh, hrest, hw, hsz, hfhf, hfhp, hfmp⟩ :=
      create_some E mkFunc mkPre e u h
    obtain ⟨hlen, hwords⟩ := createHoistable_some _ _ _ hh
    have hfm : (e.m_fes.map mkFunc).map Mergeable.func =
        e.m_fes.map (fun fe => Mergeable.func (mkFunc fe)) := by
      rw [List.map_map]; rfl
    rw [hfm] at hw
    refine ⟨hoistable, rest, hw, hlen, ?_, hrest, ?_, ?_, ?_, ?_, ?_, ?_, ?_, ?_, ?_, ?_⟩
    · intro i id hi
      obtain ⟨p, hp, hwd⟩ := hwords i id hi
      rw [List.getElem?_map] at hp
      generalize hq : e.m_pceVec[id]? = q at hp
      rcases q with _ | pce
      · cases hp
      · simp only [Option.map_some', Option.some.injEq] at hp
        subst hp
        refine ⟨pce, rfl, hwd, ?_⟩
        have hi1 : i < hoistable.length := (List.getElem?_eq_some_iff.mp hwd).1
        rw [hw]
        simp only [List.append_assoc]
        rw [List.getElem?_append_right (by simp), List.length_map,
          Nat.add_sub_cancel_left, List.getElem?_append_left hi1]
        exact hwd
    · intro i fe hi
      have hi1 : i < e.m_fes.length := (List.getElem?_eq_some_iff.mp hi).1
      rw [hw]
      simp only [List.append_assoc]
      rw [List.getElem?_append_left (by simp; exact hi1), List.getElem?_map, hi]
      rfl
    · intro i hi
      rw [hw]
      simp only [List.append_assoc]
      rw [List.getElem?_append_right (by simp only [List.length_map]; omega), List.length_map,
        List.getElem?_append_right (by omega), List.getElem?_append_left (by omega)]
      congr 1
      omega
    · have hsz1 : u.m_mergeablesSize =
          (List.map (fun fe => Mergeable.func (mkFunc fe)) e.m_fes ++ hoistable ++ rest).length := by
        rw [hsz]
        simp only [List.length_append, List.length_map]
      rw [hw, hsz1]
      exact List.getElem?_concat_length _ _
    · rw [hw, hsz]
      simp only [List.length_append, List.length_map, List.length_singleton]
    · rw [hsz, hlen]
    · rw [hfhp]; exact hfhf
    · exact hfhp
    · rw [hfhp, hfmp]; omega
    · rw [hfmp, hlen]
    · rw [hfmp, hsz]; omega
  · intro hids hstmts
    obtain ⟨hs, hhs⟩ := createHoistable_total (e.m_pceVec.map mkPre) e.m_hoistablePceIdVec
      (by simpa using hids)
    obtain ⟨rest, hrest⟩ := createStmts_total mkPre e e.m_mergeableStmts hstmts
    have hlen := (createHoistable_some _ _ _ hhs).1
    simp only [UnitEmitter.create, hhs]
    by_cases hc : e.m_mainReturn._count ≠ 0 ∧ e.m_allClassesHoistable = false
    · simp only [if_pos hc]
      generalize hx : createExtra E e.m_mergeableStmts 0 = x
      rcases x with _ | n
      · simp only [ne_eq, not_true_eq_false, false_and, if_false, Option.getD_none,
          List.length_append, List.length_map, List.append_nil, hlen, List.length_nil,
          Nat.add_zero, if_true]
        exact ⟨_, rfl⟩
      · have hn := createExtra_exact E _ _ _ _ _ 0 n hrest hx
        simp only [if_pos hc, hrest, Option.getD_some, List.length_append, List.length_map,
          hlen, hn, Nat.zero_add, if_true]
        exact ⟨_, rfl⟩
    · simp only [if_neg hc, Option.getD_some, List.length_append, List.length_map,
        List.append_nil, hlen, List.length_nil, Nat.add_zero, if_true]
      exact ⟨_, rfl⟩

/-- C25 at the example emitter: the pseudo-main and `f`, the hoistable `C`,
the define of `X` with its value, and `Done` at the index 6. -/
theorem create_layout_witness :
    ∃ u, exEmitter.create quietEnv exMkFunc exMkPre = some u ∧
      u.m_mergeables =
        [.func (exMkFunc ⟨0, 0, ""⟩), .func exFuncF, .preClass exPreC, .define "X",
          .tvData exValX, .tvPad, .done] ∧
      u.m_firstHoistableFunc = 1 ∧
      u.m_mergeables[u.m_mergeablesSize]? = some Mergeable.done ∧
      u.m_firstHoistableFunc ≤ u.m_firstHoistablePreClass ∧
      u.m_firstHoistablePreClass = exEmitter.m_fes.length ∧
      u.m_firstMergeablePreClass =
        exEmitter.m_fes.length + exEmitter.m_hoistablePceIdVec.length ∧
      u.m_firstMergeablePreClass ≤ u.m_mergeablesSize := by
  refine ⟨_, rfl, by decide, rfl, ?_⟩
  obtain ⟨_, _, _, _, _, _, _, _, h7, _, _, h10, h11, _, h13, h14⟩ :=
    (create_layout quietEnv exMkFunc exMkPre exEmitter).1 _ rfl
  exact ⟨h7, h10, h11, h13, h14⟩

/-- On a fresh emitter, whose flag `m_allClassesHoistable` is set,
`pushMergeableClass` leaves the flag set. -/
theorem push_mergeable_counterexample :
    newUnitEmitter.m_allClassesHoistable = true ∧
    (pushMergeableClass newUnitEmitter ⟨0, "C", Hoistable.Mergeable⟩).m_allClassesHoistable = true ∧
    (pushMergeableClass newUnitEmitter ⟨0, "C", Hoistable.Mergeable⟩).m_mergeableStmts =
      [(UnitMergeKind.UnitMergeKindClass, 0)] :=
  ⟨rfl, rfl, rfl⟩

/-- C28, amended: each of `pushMergeableClass`, `pushMergeableDef` and
`pushMergeableInclude` adds one entry at the end of `m_mergeableStmts` and
leaves the entries before it; `pushMergeableDef` and `pushMergeableInclude`
leave `m_allClassesHoistable` false, and `pushMergeableClass` leaves the flag
as it was.  The entry of a class names the id of the template, that of an
include the id of the literal of the unit name, that of a define or global
the index of the value, which is added at the end of `m_mergeableValues`
with the id of the literal of the name. -/
theorem push_mergeable_appends (e : UnitEmitter) (pce : PreClassEmitter) (kind : UnitMergeKind)
    (name : String) (tv : TypedValue) :
    ((pushMergeableClass e pce).m_mergeableStmts =
        e.m_mergeableStmts ++ [(UnitMergeKind.UnitMergeKindClass, pce.id)] ∧
      (pushMergeableClass e pce).m_allClassesHoistable = e.m_allClassesHoistable) ∧
    ((pushMergeableInclude e kind name).m_mergeableStmts =
        e.m_mergeableStmts ++ [(kind, (mergeLitstr e name).1)] ∧
      (pushMergeableInclude e kind name).m_allClassesHoistable = false) ∧
    ((pushMergeableDef e kind name tv).m_mergeableStmts =
        e.m_mergeableStmts ++ [(kind, e.m_mergeableValues.length)] ∧
      (pushMergeableDef e kind name tv).m_mergeableValues =
        e.m_mergeableValues ++ [((mergeLitstr e name).1, tv)] ∧
      (pushMergeableDef e kind name tv).m_allClassesHoistable = false) := by
  refine ⟨⟨rfl, rfl⟩, ⟨?_, rfl⟩, ?_, ?_, rfl⟩
  · unfold pushMergeableInclude mergeLitstr
    cases e.m_litstr2id name <;> rfl
  · unfold pushMergeableDef mergeLitstr
    simp only []
    cases e.m_litstr2id name <;> rfl
  · unfold pushMergeableDef mergeLitstr
    simp only []
    cases e.m_litstr2id name <;> rfl

/-- After a top-level `return` a template declared `AlwaysHoistable` is
classified `AlwaysHoistable` and is in the list of the hoistable templates;
`create` puts it in the hoistable range of the array. -/
theorem class_after_return_counterexample :
    (returnSeen (newFuncEmitter newUnitEmitter "" false).2).m_returnSeen = true ∧
    (newPreClassEmitter exEmitterEnv (returnSeen (newFuncEmitter newUnitEmitter "" false).2)
      "C" Hoistable.AlwaysHoistable).1 = ⟨0, "C", Hoistable.AlwaysHoistable⟩ ∧
    exEmitterReturn.m_hoistablePceIdVec = [0] ∧
    ∃ u, exEmitterReturn.create quietEnv exMkFunc exMkPre = some u ∧
      u.m_mergeables = [.func (exMkFunc ⟨0, 0, ""⟩), .preClass exPreC, .done] ∧
      u.m_firstHoistablePreClass = 1 ∧ u.m_firstMergeablePreClass = 2 :=
  ⟨rfl, rfl, rfl, _, rfl, by decide, rfl, rfl⟩

/-- C27, amended: `newPreClassEmitter` does not read `m_returnSeen` to
classify.  A template created after a top-level `return` gets the
classification it would get before it (the one asked for, or `Mergeable` for
a hoistable declaration whose name is already in the set), and when that is
`MaybeHoistable` or `AlwaysHoistable` it is added to the list of the
hoistable templates, otherwise it is not.  What the `return` changes: no
class statement is pushed, and `m_allClassesHoistable` is cleared unless the
template is `AlwaysHoistable`. -/
theorem class_after_return (X : EmitterEnv) (e : UnitEmitter) (n : String) (h : Hoistable)
    (hret : e.m_returnSeen = true) :
    (newPreClassEmitter X e n h).1 =
      (newPreClassEmitter X { e with m_returnSeen := false } n h).1 ∧
    (newPreClassEmitter X e n h).2.m_hoistablePceIdVec =
      (newPreClassEmitter X { e with m_returnSeen := false } n h).2.m_hoistablePceIdVec ∧
    (newPreClassEmitter X e n h).1.hoistable =
      (if h.toNat ≠ 0 ∧ hoistableCount X e n = true then Hoistable.Mergeable else h) ∧
    (Hoistable.MaybeHoistable.toNat ≤ (newPreClassEmitter X e n h).1.hoistable.toNat →
      (newPreClassEmitter X e n h).2.m_hoistablePceIdVec =
        e.m_hoistablePceIdVec ++ [(newPreClassEmitter X e n h).1.id]) ∧
    ((newPreClassEmitter X e n h).1.hoistable.toNat < Hoistable.MaybeHoistable.toNat →
      (newPreClassEmitter X e n h).2.m_hoistablePceIdVec = e.m_hoistablePceIdVec) ∧
    (newPreClassEmitter X e n h).2.m_mergeableStmts = e.m_mergeableStmts ∧
    ((newPreClassEmitter X e n h).1.hoistable ≠ Hoistable.AlwaysHoistable →
      (newPreClassEmitter X e n h).2.m_allClassesHoistable = false) ∧
    ((newPreClassEmitter X e n h).1.hoistable = Hoistable.AlwaysHoistable →
      (newPreClassEmitter X e n h).2.m_allClassesHoistable = e.m_allClassesHoistable) := by
  have hc : hoistableCount X { e with m_returnSeen := false } n = hoistableCount X e n := rfl
  unfold newPreClassEmitter
  simp only [hc]
  generalize hh1 : (if h.toNat ≠ 0 ∧ hoistableCount X e n = true then Hoistable.Mergeable
    else h) = h1
  cases h1 <;> simp [Hoistable.toNat, hret, pushMergeableClass]

/-- C27 at the example: the template declared after the `return` keeps the
classification `AlwaysHoistable` and is in the list. -/
theorem class_after_return_witness :
    (returnSeen (newFuncEmitter newUnitEmitter "" false).2).m_returnSeen = true ∧
    (newPreClassEmitter exEmitterEnv (returnSeen (newFuncEmitter newUnitEmitter "" false).2)
      "C" Hoistable.AlwaysHoistable).1.hoistable =
      (if Hoistable.AlwaysHoistable.toNat ≠ 0 ∧
          hoistableCount exEmitterEnv (returnSeen (newFuncEmitter newUnitEmitter "" false).2)
            "C" = true
        then Hoistable.Mergeable else Hoistable.AlwaysHoistable) :=
  ⟨rfl, (class_after_return exEmitterEnv (returnSeen (newFuncEmitter newUnitEmitter "" false).2)
    "C" Hoistable.AlwaysHoistable rfl).2.2.1⟩

/-! ## The tables of literals and of arrays -/

/-- A consistent table holds no string twice. -/
theorem tableOK_nodup {table : List String} {map : String → Option Nat}
    (h : TableOK table map) : table.Nodup := by
  rw [List.nodup_iff_getElem?_ne_getElem?]
  intro i j hij hj heq
  have hi : i < table.length := by omega
  have h1 : table[i]? = some table[i] := List.getElem?_eq_getElem hi
  have h2 : table[j]? = some table[i] := by rw [← heq, h1]
  have m1 := (h _ i).mpr h1
  have m2 := (h _ j).mpr h2
  rw [m1] at m2
  injection m2 with m2
  omega

/-- The empty table with the empty map is consistent. -/
theorem tableOK_nil : TableOK [] (fun _ => none) := by
  intro s id
  simp

/-- Adding a string that the map does not know, with the length of the table
as its id, keeps the table consistent. -/
theorem tableOK_push {table : List String} {map : String → Option Nat}
    (h : TableOK table map) (s : String) (hs : map s = none) :
    TableOK (table ++ [s]) (Function.update map s (some table.length)) := by
  intro t id
  have hnot : ∀ i : Nat, table[i]? ≠ some s := by
    intro i hi
    have := (h s i).mpr hi
    rw [hs] at this
    cases this
  by_cases ht : t = s
  · subst ht
    simp only [Function.update_same, Option.some.injEq]
    constructor
    · intro hid
      subst hid
      exact List.getElem?_concat_length _ _
    · intro hid
      by_cases hlt : id < table.length
      · rw [List.getElem?_append_left hlt] at hid
        exact absurd hid (hnot id)
      · by_cases heq : id = table.length
        · exact heq.symm
        · have : (table ++ [t]).length ≤ id := by
            simp only [List.length_append, List.length_singleton]
            omega
          rw [List.getElem?_eq_none this] at hid
          cases hid
  · rw [Function.update_noteq ht]
    rw [h t id]
    by_cases hlt : id < table.length
    · rw [List.getElem?_append_left hlt]
    · have h1 : table[id]? = none := List.getElem?_eq_none (by omega)
      rw [h1]
      constructor
      · intro hc; cases hc
      · intro hid
        by_cases heq : id = table.length
        · subst heq
          rw [List.getElem?_concat_length] at hid
          injection hid with hid
          exact absurd hid.symm ht
        · have : (table ++ [s]).length ≤ id := by
            simp only [List.length_append, List.length_singleton]
            omega
          rw [List.getElem?_eq_none this] at hid
          cases hid

/-- `mergeLitstr` keeps the literal table consistent. -/
theorem mergeLitstr_ok (e : UnitEmitter) (hok : LitstrOK e) (s : String) :
    LitstrOK (mergeLitstr e s).2 := by
  unfold mergeLitstr
  generalize hm : e.m_litstr2id s = o
  rcases o with _ | id
  · exact tableOK_push hok s hm
  · exact hok

/-- `mergeLitstr` keeps what the map knows. -/
theorem mergeLitstr_stable (e : UnitEmitter) (s t : String) (id : Nat)
    (h : e.m_litstr2id s = some id) : (mergeLitstr e t).2.m_litstr2id s = some id := by
  unfold mergeLitstr
  generalize hm : e.m_litstr2id t = o
  rcases o with _ | id1
  · have hne : s ≠ t := by
      intro hc
      rw [hc, hm] at h
      cases h
    simp only [Function.update_noteq hne]
    exact h
  · exact h

/-- The fields that `mergeLitstr` leaves alone. -/
theorem mergeLitstr_frame (e : UnitEmitter) (t : String) :
    (mergeLitstr e t).2.m_arrays = e.m_arrays ∧
    (mergeLitstr e t).2.m_array2id = e.m_array2id ∧
    (mergeLitstr e t).2.m_pceVec = e.m_pceVec ∧
    (mergeLitstr e t).2.m_hoistablePreClassSet = e.m_hoistablePreClassSet ∧
    (mergeLitstr e t).2.m_hoistablePceIdVec = e.m_hoistablePceIdVec := by
  unfold mergeLitstr
  cases e.m_litstr2id t <;> exact ⟨rfl, rfl, rfl, rfl, rfl⟩

/-- The fields that `mergeArray` leaves alone. -/
theorem mergeArray_frame (X : EmitterEnv) (e : UnitEmitter) (a : ArrayData)
    (key : Option String) :
    (mergeArray X e a key).2.m_litstrs = e.m_litstrs ∧
    (mergeArray X e a key).2.m_litstr2id = e.m_litstr2id ∧
    (mergeArray X e a key).2.m_pceVec = e.m_pceVec ∧
    (mergeArray X e a key).2.m_hoistablePreClassSet = e.m_hoistablePreClassSet ∧
    (mergeArray X e a key).2.m_hoistablePceIdVec = e.m_hoistablePceIdVec := by
  unfold mergeArray
  simp only []
  split <;> exact ⟨rfl, rfl, rfl, rfl, rfl⟩

/-- The fields that `newPreClassEmitter` leaves alone. -/
theorem newPreClassEmitter_frame (X : EmitterEnv) (e : UnitEmitter) (n : String)
    (h : Hoistable) :
    (newPreClassEmitter X e n h).2.m_litstrs = e.m_litstrs ∧
    (newPreClassEmitter X e n h).2.m_litstr2id = e.m_litstr2id ∧
    (newPreClassEmitter X e n h).2.m_arrays = e.m_arrays ∧
    (newPreClassEmitter X e n h).2.m_array2id = e.m_array2id := by
  unfold newPreClassEmitter pushMergeableClass
  simp only []
  refine ⟨?_, ?_, ?_, ?_⟩ <;> (repeat' split) <;> rfl

/-- The fields that `newFuncEmitter` leaves alone. -/
theorem newFuncEmitter_frame (e : UnitEmitter) (n : String) (top : Bool) :
    (newFuncEmitter e n top).2.m_litstrs = e.m_litstrs ∧
    (newFuncEmitter e n top).2.m_litstr2id = e.m_litstr2id ∧
    (newFuncEmitter e n top).2.m_arrays = e.m_arrays ∧
    (newFuncEmitter e n top).2.m_array2id = e.m_array2id ∧
    (newFuncEmitter e n top).2.m_pceVec = e.m_pceVec ∧
    (newFuncEmitter e n top).2.m_hoistablePreClassSet = e.m_hoistablePreClassSet ∧
    (newFuncEmitter e n top).2.m_hoistablePceIdVec = e.m_hoistablePceIdVec := by
  unfold newFuncEmitter
  simp only []
  refine ⟨?_, ?_, ?_, ?_, ?_, ?_, ?_⟩ <;> (repeat' split) <;> rfl

/-- Every call on an emitter keeps the literal table consistent and keeps
what its map knows. -/
theorem litstr_run (X : EmitterEnv) (e : UnitEmitter) (op : EmitOp) :
    (LitstrOK e → LitstrOK (op.run X e)) ∧
    ∀ s id, e.m_litstr2id s = some id → (op.run X e).m_litstr2id s = some id := by
  cases op with
  | mergeLitstr t => exact ⟨fun h => mergeLitstr_ok e h t, fun s id h => mergeLitstr_stable e s t id h⟩
  | mergeArray a key =>
    have hf := mergeArray_frame X e a key
    refine ⟨fun h => ?_, fun s id h => ?_⟩
    · simp only [EmitOp.run, LitstrOK, hf.1, hf.2.1]; exact h
    · simp only [EmitOp.run, hf.2.1]; exact h
  | newFuncEmitter n top =>
    have hf := newFuncEmitter_frame e n top
    refine ⟨fun h => ?_, fun s id h => ?_⟩
    · simp only [EmitOp.run, LitstrOK, hf.1, hf.2.1]; exact h
    · simp only [EmitOp.run, hf.2.1]; exact h
  | appendTopEmitter fe => exact ⟨fun h => h, fun s id h => h⟩
  | pushMergeableClass pce => exact ⟨fun h => h, fun s id h => h⟩
  | pushMergeableInclude kind unitName =>
    exact ⟨fun h => mergeLitstr_ok e h unitName,
      fun s id h => mergeLitstr_stable e s unitName id h⟩
  | insertMergeableInclude ix kind id => exact ⟨fun h => h, fun s id h => h⟩
  | pushMergeableDef kind name tv =>
    have he : ∃ e1 : UnitEmitter, e1.m_litstrs = e.m_litstrs ∧ e1.m_litstr2id = e.m_litstr2id ∧
        (EmitOp.pushMergeableDef kind name tv).run X e =
          { (mergeLitstr e1 name).2 with
            m_mergeableValues :=
              (mergeLitstr e1 name).2.m_mergeableValues ++ [((mergeLitstr e1 name).1, tv)]
            m_allClassesHoistable := false } :=
      ⟨{ e with m_mergeableStmts := e.m_mergeableStmts ++ [(kind, e.m_mergeableValues.length)] },
        rfl, rfl, rfl⟩
    obtain ⟨e1, h1, h2, h3⟩ := he
    rw [h3]
    refine ⟨fun h => ?_, fun s id h => ?_⟩
    · exact mergeLitstr_ok e1 (by unfold LitstrOK; rw [h1, h2]; exact h) name
    · exact mergeLitstr_stable e1 s name id (by rw [h2]; exact h)
  | insertMergeableDef ix kind id tv => exact ⟨fun h => h, fun s id h => h⟩
  | newPreClassEmitter n hoistable =>
    have hf := newPreClassEmitter_frame X e n hoistable
    refine ⟨fun h => ?_, fun s id h => ?_⟩
    · simp only [EmitOp.run, LitstrOK, hf.1, hf.2.1]; exact h
    · simp only [EmitOp.run, hf.2.1]; exact h
  | returnSeen => exact ⟨fun h => h, fun s id h => h⟩
  | setMainReturn tv => exact ⟨fun h => h, fun s id h => h⟩

theorem litstr_runOps (X : EmitterEnv) (ops : List EmitOp) :
    ∀ (e : UnitEmitter), (LitstrOK e → LitstrOK (runOps X e ops)) ∧
      ∀ s id, e.m_litstr2id s = some id → (runOps X e ops).m_litstr2id s = some id := by
  induction ops with
  | nil => intro e; exact ⟨fun h => h, fun _ _ h => h⟩
  | cons op rest ih =>
    intro e
    have h1 := litstr_run X e op
    have h2 := ih (op.run X e)
    exact ⟨fun h => h2.1 (h1.1 h), fun s id h => h2.2 s id (h1.2 s id h)⟩

/-- What `mergeLitstr` answers is the id under which its map knows the string
afterwards. -/
theorem mergeLitstr_known (e : UnitEmitter) (s : String) :
    (mergeLitstr e s).2.m_litstr2id s = some (mergeLitstr e s).1 := by
  unfold mergeLitstr
  generalize hm : e.m_litstr2id s = o
  rcases o with _ | id
  · simp
  · exact hm

/-- C29. Literal de-duplication.  On an emitter whose literal table and id
map are consistent, `mergeLitstr(s)` returns an id at which the table then
holds `s`; when the table held `s` already the emitter is unchanged and the
id is the place of `s`; otherwise the id is the former length of the table,
and `s` is added at its end.  After any further calls on the emitter,
`mergeLitstr(s)` answers the same id and changes nothing.  The table stays
consistent with the map and holds no string twice; this is so for every
emitter built from a new one. -/
theorem literal_dedup (X : EmitterEnv) (e : UnitEmitter) (hok : LitstrOK e) (s : String)
    (ops : List EmitOp) :
    (mergeLitstr e s).2.m_litstrs[(mergeLitstr e s).1]? = some s ∧
    (s ∈ e.m_litstrs →
      (mergeLitstr e s).2 = e ∧ e.m_litstrs[(mergeLitstr e s).1]? = some s) ∧
    (s ∉ e.m_litstrs →
      (mergeLitstr e s).1 = e.m_litstrs.length ∧
      (mergeLitstr e s).2.m_litstrs = e.m_litstrs ++ [s]) ∧
    mergeLitstr (runOps X (mergeLitstr e s).2 ops) s =
      ((mergeLitstr e s).1, runOps X (mergeLitstr e s).2 ops) ∧
    LitstrOK (mergeLitstr e s).2 ∧ (mergeLitstr e s).2.m_litstrs.Nodup ∧
    LitstrOK (runOps X newUnitEmitter ops) ∧ (runOps X newUnitEmitter ops).m_litstrs.Nodup := by
  have hok1 := mergeLitstr_ok e hok s
  have hknown := mergeLitstr_known e s
  have hnew := (litstr_runOps X ops newUnitEmitter).1 tableOK_nil
  refine ⟨(hok1 s _).mp hknown, ?_, ?_, ?_, hok1, tableOK_nodup hok1, hnew, tableOK_nodup hnew⟩
  · intro hmem
    obtain ⟨i, hi, hget⟩ := List.getElem_of_mem hmem
    have hm : e.m_litstr2id s = some i := (hok s i).mpr (by rw [List.getElem?_eq_getElem hi, hget])
    have hr : mergeLitstr e s = (i, e) := by
      unfold mergeLitstr
      rw [hm]
    rw [hr]
    exact ⟨rfl, (hok s i).mp hm⟩
  · intro hnot
    have hm : e.m_litstr2id s = none := by
      generalize hq : e.m_litstr2id s = o
      rcases o with _ | i
      · rfl
      · exact absurd (List.getElem?_mem ((hok s i).mp hq)) hnot
    unfold mergeLitstr
    rw [hm]
    exact ⟨rfl, rfl⟩
  · have hm := (litstr_runOps X ops (mergeLitstr e s).2).2 s _ hknown
    generalize runOps X (mergeLitstr e s).2 ops = e2 at hm
    generalize (mergeLitstr e s).1 = id at hm
    unfold mergeLitstr
    rw [hm]

/-- C29 at a new emitter: the first literal gets the id 0, and asking again
after other calls gives the id 0 and changes nothing. -/
theorem literal_dedup_witness :
    LitstrOK newUnitEmitter ∧ (mergeLitstr newUnitEmitter "X").1 = 0 ∧
    mergeLitstr (runOps exEmitterEnv (mergeLitstr newUnitEmitter "X").2
        [EmitOp.mergeLitstr "Y", EmitOp.mergeLitstr "X"]) "X" =
      ((mergeLitstr newUnitEmitter "X").1,
        runOps exEmitterEnv (mergeLitstr newUnitEmitter "X").2
          [EmitOp.mergeLitstr "Y", EmitOp.mergeLitstr "X"]) :=
  ⟨tableOK_nil, rfl,
    (literal_dedup exEmitterEnv newUnitEmitter tableOK_nil "X"
      [EmitOp.mergeLitstr "Y", EmitOp.mergeLitstr "X"]).2.2.2.1⟩

/-- `mergeArray` keeps the array table consistent. -/
theorem mergeArray_ok (X : EmitterEnv) (e : UnitEmitter) (hok : ArraysOK e) (a : ArrayData)
    (key : Option String) : ArraysOK (mergeArray X e a key).2 := by
  unfold mergeArray
  simp only []
  split
  · rename_i hm
    have := tableOK_push hok _ hm
    simp only [ArraysOK, List.map_append, List.map_cons, List.map_nil]
    rw [List.length_map] at this
    exact this
  · exact hok

/-- `mergeArray` keeps what the map knows. -/
theorem mergeArray_stable (X : EmitterEnv) (e : UnitEmitter) (a : ArrayData)
    (key : Option String) (k : String) (id : Nat) (h : e.m_array2id k = some id) :
    (mergeArray X e a key).2.m_array2id k = some id := by
  unfold mergeArray
  simp only []
  split
  · rename_i hm
    have hne : k ≠ arrayKey X a key := by
      intro hc
      rw [hc, hm] at h
      cases h
    simp only [Function.update_noteq hne]
    exact h
  · exact h

/-- Every call on an emitter keeps the array table consistent and keeps what
its map knows. -/
theorem arrays_run (X : EmitterEnv) (e : UnitEmitter) (op : EmitOp) :
    (ArraysOK e → ArraysOK (op.run X e)) ∧
    ∀ k id, e.m_array2id k = some id → (op.run X e).m_array2id k = some id := by
  cases op with
  | mergeLitstr t =>
    have hf := mergeLitstr_frame e t
    refine ⟨fun h => ?_, fun s id h => ?_⟩
    · simp only [EmitOp.run, ArraysOK, hf.1, hf.2.1]; exact h
    · simp only [EmitOp.run, hf.2.1]; exact h
  | mergeArray a key =>
    exact ⟨fun h => mergeArray_ok X e h a key, fun k id h => mergeArray_stable X e a key k id h⟩
  | newFuncEmitter n top =>
    have hf := newFuncEmitter_frame e n top
    refine ⟨fun h => ?_, fun s id h => ?_⟩
    · simp only [EmitOp.run, ArraysOK, hf.2.2.1, hf.2.2.2.1]; exact h
    · simp only [EmitOp.run, hf.2.2.2.1]; exact h
  | appendTopEmitter fe => exact ⟨fun h => h, fun s id h => h⟩
  | pushMergeableClass pce => exact ⟨fun h => h, fun s id h => h⟩
  | pushMergeableInclude kind unitName =>
    have hf := mergeLitstr_frame e unitName
    refine ⟨fun h => ?_, fun s id h => ?_⟩
    · simp only [EmitOp.run, pushMergeableInclude, ArraysOK, hf.1, hf.2.1]; exact h
    · simp only [EmitOp.run, pushMergeableInclude, hf.2.1]; exact h
  | insertMergeableInclude ix kind id => exact ⟨fun h => h, fun s id h => h⟩
  | pushMergeableDef kind name tv =>
    have hf := mergeLitstr_frame
      { e with m_mergeableStmts := e.m_mergeableStmts ++ [(kind, e.m_mergeableValues.length)] }
      name
    refine ⟨fun h => ?_, fun s id h => ?_⟩
    · simp only [EmitOp.run, pushMergeableDef, ArraysOK, hf.1, hf.2.1]; exact h
    · simp only [EmitOp.run, pushMergeableDef, hf.2.1]; exact h
  | insertMergeableDef ix kind id tv => exact ⟨fun h => h, fun s id h => h⟩
  | newPreClassEmitter n hoistable =>
    have hf := newPreClassEmitter_frame X e n hoistable
    refine ⟨fun h => ?_, fun s id h => ?_⟩
    · simp only [EmitOp.run, ArraysOK, hf.2.2.1, hf.2.2.2]; exact h
    · simp only [EmitOp.run, hf.2.2.2]; exact h
  | returnSeen => exact ⟨fun h => h, fun s id h => h⟩
  | setMainReturn tv => exact ⟨fun h => h, fun s id h => h⟩

theorem arrays_runOps (X : EmitterEnv) (ops : List EmitOp) :
    ∀ (e : UnitEmitter), (ArraysOK e → ArraysOK (runOps X e ops)) ∧
      ∀ k id, e.m_array2id k = some id → (runOps X e ops).m_array2id k = some id := by
  induction ops with
  | nil => intro e; exact ⟨fun h => h, fun _ _ h => h⟩
  | cons op rest ih =>
    intro e
    have h1 := arrays_run X e op
    have h2 := ih (op.run X e)
    exact ⟨fun h => h2.1 (h1.1 h), fun s id h => h2.2 s id (h1.2 s id h)⟩

/-- What `mergeArray` answers is the id under which its map knows the key
afterwards. -/
theorem mergeArray_known (X : EmitterEnv) (e : UnitEmitter) (a : ArrayData)
    (key : Option String) :
    (mergeArray X e a key).2.m_array2id (arrayKey X a key) =
      some (mergeArray X e a key).1 := by
  unfold mergeArray
  simp only []
  split
  · simp
  · rename_i id hm
    exact hm

/-- A call of `mergeArray` with a key that the map knows answers the id of the
key and changes nothing. -/
theorem mergeArray_found (X : EmitterEnv) (e : UnitEmitter) (a : ArrayData)
    (key : Option String) (id : Nat)
    (h : e.m_array2id (arrayKey X a key) = some id) :
    mergeArray X e a key = (id, e) := by
  unfold mergeArray
  simp only []
  rw [h]

/-- C30. Array de-duplication.  For arrays `a` and `b` with the same
serialisation, `mergeArray(a)` and then, after any further calls on the
emitter, `mergeArray(b)` answer the same id, and the second call changes
nothing.  An array whose serialisation the map does not know (on a
consistent emitter: whose serialisation is the key of no element of the
table) gets the former length of the table as its id and is added at the end
of the table.  With a key given, `mergeArray` looks at the key alone: two
arrays merged under one key get one id, whatever they hold, and for a key
that the map knows nothing is added.  The table stays consistent with the
map, and is so for every emitter built from a new one. -/
theorem array_dedup (X : EmitterEnv) (e : UnitEmitter) (a b : ArrayData) (ops : List EmitOp) :
    (X.f_serialize a = X.f_serialize b →
      mergeArray X (runOps X (mergeArray X e a none).2 ops) b none =
        ((mergeArray X e a none).1, runOps X (mergeArray X e a none).2 ops)) ∧
    (e.m_array2id (X.f_serialize a) = none →
      (mergeArray X e a none).1 = e.m_arrays.length ∧
      (mergeArray X e a none).2.m_arrays =
        e.m_arrays ++ [⟨X.f_serialize a, X.GetScalarArray a (X.f_serialize a)⟩]) ∧
    (ArraysOK e → (∀ elm ∈ e.m_arrays, elm.serialized ≠ X.f_serialize a) →
      (mergeArray X e a none).1 = e.m_arrays.length ∧
      (mergeArray X e a none).2.m_arrays =
        e.m_arrays ++ [⟨X.f_serialize a, X.GetScalarArray a (X.f_serialize a)⟩]) ∧
    (∀ k : String,
      (mergeArray X e a (some k)).1 = (mergeArray X e b (some k)).1 ∧
      (mergeArray X e a (some k)).1 =
        (match e.m_array2id k with
        | some id => id
        | none => e.m_arrays.length) ∧
      (∀ id, e.m_array2id k = some id → mergeArray X e a (some k) = (id, e)) ∧
      mergeArray X (runOps X (mergeArray X e a (some k)).2 ops) b (some k) =
        ((mergeArray X e a (some k)).1, runOps X (mergeArray X e a (some k)).2 ops)) ∧
    (ArraysOK e → ArraysOK (mergeArray X e a none).2) ∧
    ArraysOK (runOps X newUnitEmitter ops) := by
  have hnone : e.m_array2id (X.f_serialize a) = none →
      (mergeArray X e a none).1 = e.m_arrays.length ∧
      (mergeArray X e a none).2.m_arrays =
        e.m_arrays ++ [⟨X.f_serialize a, X.GetScalarArray a (X.f_serialize a)⟩] := by
    intro hm
    unfold mergeArray
    simp only [arrayKey]
    rw [hm]
    exact ⟨rfl, rfl⟩
  refine ⟨?_, hnone, ?_, ?_, fun h => mergeArray_ok X e h a none,
    (arrays_runOps X ops newUnitEmitter).1 tableOK_nil⟩
  · intro hab
    have hk := mergeArray_known X e a none
    have hm := (arrays_runOps X ops (mergeArray X e a none).2).2 _ _ hk
    exact mergeArray_found X _ b none _ (by simp only [arrayKey] at hm ⊢; rw [← hab]; exact hm)
  · intro hok hnew
    apply hnone
    generalize hq : e.m_array2id (X.f_serialize a) = o
    rcases o with _ | i
    · rfl
    · have hget := (hok _ i).mp hq
      rw [List.getElem?_map] at hget
      generalize hel : e.m_arrays[i]? = el at hget
      rcases el with _ | elm
      · cases hget
      · simp only [Option.map_some', Option.some.injEq] at hget
        exact absurd hget (hnew elm (List.getElem?_mem hel))
  · intro k
    refine ⟨?_, ?_, ?_, ?_⟩
    · unfold mergeArray
      simp only [arrayKey]
      cases e.m_array2id k <;> rfl
    · unfold mergeArray
      simp only [arrayKey]
      cases e.m_array2id k <;> rfl
    · intro id hid
      exact mergeArray_found X e a (some k) id hid
    · have hk := mergeArray_known X e a (some k)
      have hm := (arrays_runOps X ops (mergeArray X e a (some k)).2).2 _ _ hk
      exact mergeArray_found X _ b (some k) _ hm

/-- C30 at a new emitter: two empty arrays at different addresses get the id
0, and the second call adds nothing. -/
theorem array_dedup_witness :
    exEmitterEnv.f_serialize ⟨1⟩ = exEmitterEnv.f_serialize ⟨2⟩ ∧
    (mergeArray exEmitterEnv newUnitEmitter ⟨1⟩ none).1 = 0 ∧
    mergeArray exEmitterEnv (runOps exEmitterEnv (mergeArray exEmitterEnv newUnitEmitter ⟨1⟩ none).2
        [EmitOp.mergeArray ⟨10⟩ none]) ⟨2⟩ none =
      ((mergeArray exEmitterEnv newUnitEmitter ⟨1⟩ none).1,
        runOps exEmitterEnv (mergeArray exEmitterEnv newUnitEmitter ⟨1⟩ none).2
          [EmitOp.mergeArray ⟨10⟩ none]) :=
  ⟨rfl, rfl,
    (array_dedup exEmitterEnv newUnitEmitter ⟨1⟩ ⟨2⟩ [EmitOp.mergeArray ⟨10⟩ none]).1 rfl⟩

/-! ## The hoistable templates of the emitter -/

/-- What `newPreClassEmitter` does to the templates, to the set of the
hoistable names and to the list of the hoistable templates. -/
theorem newPreClassEmitter_effect (X : EmitterEnv) (e : UnitEmitter) (n : String)
    (h : Hoistable) :
    (newPreClassEmitter X e n h).1 =
      ⟨e.m_pceVec.length, n,
        if h.toNat ≠ 0 ∧ hoistableCount X e n = true then Hoistable.Mergeable else h⟩ ∧
    (newPreClassEmitter X e n h).2.m_pceVec = e.m_pceVec ++ [(newPreClassEmitter X e n h).1] ∧
    (Hoistable.MaybeHoistable.toNat ≤ (newPreClassEmitter X e n h).1.hoistable.toNat →
      hoistableCount X e n = false ∧ (newPreClassEmitter X e n h).1.hoistable = h ∧
      (newPreClassEmitter X e n h).2.m_hoistablePreClassSet = n :: e.m_hoistablePreClassSet ∧
      (newPreClassEmitter X e n h).2.m_hoistablePceIdVec =
        e.m_hoistablePceIdVec ++ [e.m_pceVec.length]) ∧
    ((newPreClassEmitter X e n h).1.hoistable.toNat < Hoistable.MaybeHoistable.toNat →
      (newPreClassEmitter X e n h).2.m_hoistablePreClassSet = e.m_hoistablePreClassSet ∧
      (newPreClassEmitter X e n h).2.m_hoistablePceIdVec = e.m_hoistablePceIdVec) := by
  unfold newPreClassEmitter pushMergeableClass
  simp only []
  cases hc : hoistableCount X e n <;> cases h <;> cases hr : e.m_returnSeen <;>
    simp [Hoistable.toNat]

/-- A call other than `newPreClassEmitter` leaves the templates, the set of
the hoistable names and the list of the hoistable templates alone. -/
theorem prefix_fields_run (X : EmitterEnv) (e : UnitEmitter) (op : EmitOp)
    (hop : ∀ n h, op ≠ EmitOp.newPreClassEmitter n h) :
    (op.run X e).m_pceVec = e.m_pceVec ∧
    (op.run X e).m_hoistablePreClassSet = e.m_hoistablePreClassSet ∧
    (op.run X e).m_hoistablePceIdVec = e.m_hoistablePceIdVec := by
  cases op with
  | mergeLitstr t => exact (mergeLitstr_frame e t).2.2
  | mergeArray a key => exact (mergeArray_frame X e a key).2.2
  | newFuncEmitter n top => exact (newFuncEmitter_frame e n top).2.2.2.2
  | appendTopEmitter fe => exact ⟨rfl, rfl, rfl⟩
  | pushMergeableClass pce => exact ⟨rfl, rfl, rfl⟩
  | pushMergeableInclude kind unitName => exact (mergeLitstr_frame e unitName).2.2
  | insertMergeableInclude ix kind id => exact ⟨rfl, rfl, rfl⟩
  | pushMergeableDef kind name tv =>
    exact (mergeLitstr_frame
      { e with m_mergeableStmts := e.m_mergeableStmts ++ [(kind, e.m_mergeableValues.length)] }
      name).2.2
  | insertMergeableDef ix kind id tv => exact ⟨rfl, rfl, rfl⟩
  | newPreClassEmitter n hoistable => exact absurd rfl (hop n hoistable)
  | returnSeen => exact ⟨rfl, rfl, rfl⟩
  | setMainReturn tv => exact ⟨rfl, rfl, rfl⟩

/-- Every call on an emitter adds to the templates and to the list of the
hoistable templates at their ends only, and keeps the names of the set. -/
theorem prefix_grow_run (X : EmitterEnv) (e : UnitEmitter) (op : EmitOp) :
    e.m_pceVec <+: (op.run X e).m_pceVec ∧
    e.m_hoistablePceIdVec <+: (op.run X e).m_hoistablePceIdVec ∧
    ∀ m ∈ e.m_hoistablePreClassSet, m ∈ (op.run X e).m_hoistablePreClassSet := by
  by_cases hop : ∀ n h, op ≠ EmitOp.newPreClassEmitter n h
  · obtain ⟨h1, h2, h3⟩ := prefix_fields_run X e op hop
    rw [h1, h2, h3]
    exact ⟨List.prefix_refl _, List.prefix_refl _, fun _ h => h⟩
  · simp only [not_forall, not_not] at hop
    obtain ⟨n, h, rfl⟩ := hop
    obtain ⟨_, h2, h3, h4⟩ := newPreClassEmitter_effect X e n h
    simp only [EmitOp.run]
    refine ⟨by rw [h2]; exact List.prefix_append _ _, ?_, ?_⟩
    · by_cases hm : Hoistable.MaybeHoistable.toNat ≤ (newPreClassEmitter X e n h).1.hoistable.toNat
      · rw [(h3 hm).2.2.2]; exact List.prefix_append _ _
      · rw [(h4 (by omega)).2]
    · intro m hmem
      by_cases hm : Hoistable.MaybeHoistable.toNat ≤ (newPreClassEmitter X e n h).1.hoistable.toNat
      · rw [(h3 hm).2.2.1]; exact List.mem_cons_of_mem _ hmem
      · rw [(h4 (by omega)).1]; exact hmem

theorem prefix_grow_runOps (X : EmitterEnv) (ops : List EmitOp) :
    ∀ (e : UnitEmitter), e.m_pceVec <+: (runOps X e ops).m_pceVec ∧
      e.m_hoistablePceIdVec <+: (runOps X e ops).m_hoistablePceIdVec ∧
      ∀ m ∈ e.m_hoistablePreClassSet, m ∈ (runOps X e ops).m_hoistablePreClassSet := by
  induction ops with
  | nil => intro e; exact ⟨List.prefix_refl _, List.prefix_refl _, fun _ h => h⟩
  | cons op rest ih =>
    intro e
    obtain ⟨a1, a2, a3⟩ := prefix_grow_run X e op
    obtain ⟨b1, b2, b3⟩ := ih (op.run X e)
    exact ⟨a1.trans b1, a2.trans b2, fun m h => b3 m (a3 m h)⟩

/-- The names that the list of the hoistable templates names are not changed
by a template added at the end of `m_pceVec`. -/
theorem hoistableNames_append (pceVec : List PreClassEmitter) (p : PreClassEmitter) :
    ∀ (ids : List Nat), (∀ id ∈ ids, id < pceVec.length) →
      ids.map (fun id => match (pceVec ++ [p])[id]? with | some pce => pce.name | none => "") =
        ids.map (fun id => match pceVec[id]? with | some pce => pce.name | none => "") := by
  intro ids h
  apply List.map_congr_left
  intro id hid
  rw [List.getElem?_append_left (h id hid)]

/-- `newPreClassEmitter` keeps the set of the hoistable names and the list of
the hoistable templates consistent. -/
theorem prefixOK_newPre (X : EmitterEnv) (e : UnitEmitter) (hok : PrefixOK X e) (n : String)
    (h : Hoistable) : PrefixOK X (newPreClassEmitter X e n h).2 := by
  obtain ⟨h1, h2, h3, h4⟩ := newPreClassEmitter_effect X e n h
  obtain ⟨o1, o2, o3⟩ := hok
  have hlt : ∀ id ∈ e.m_hoistablePceIdVec, id < e.m_pceVec.length := by
    intro id hid
    obtain ⟨pce, hp, _⟩ := o2 id hid
    exact (List.getElem?_eq_some_iff.mp hp).1
  have hnames := hoistableNames_append e.m_pceVec (newPreClassEmitter X e n h).1 _ hlt
  by_cases hm : Hoistable.MaybeHoistable.toNat ≤ (newPreClassEmitter X e n h).1.hoistable.toNat
  · obtain ⟨hc, _, hset, hids⟩ := h3 hm
    have hname : (newPreClassEmitter X e n h).1.name = n := by rw [h1]
    have hid : (newPreClassEmitter X e n h).1.id = e.m_pceVec.length := by rw [h1]
    refine ⟨?_, ?_, ?_⟩
    · rw [hset]
      unfold hoistableNames
      rw [hids, h2, List.map_append, hnames, List.reverse_append]
      simp only [List.map_cons, List.map_nil, List.reverse_cons, List.reverse_nil,
        List.nil_append, List.singleton_append]
      rw [List.getElem?_concat_length]
      simp only [hname]
      rw [o1]
      rfl
    · intro id hid1
      rw [hids, List.mem_append, List.mem_singleton] at hid1
      rw [h2]
      rcases hid1 with hid1 | hid1
      · obtain ⟨pce, hp, hq⟩ := o2 id hid1
        exact ⟨pce, by rw [List.getElem?_append_left (hlt id hid1)]; exact hp, hq⟩
      · rw [hid1]
        exact ⟨_, List.getElem?_concat_length _ _, hid, hm⟩
    · rw [hset, List.pairwise_cons]
      refine ⟨?_, o3⟩
      intro m hmem
      unfold hoistableCount at hc
      rw [List.any_eq_false] at hc
      simpa using hc m hmem
  · obtain ⟨hset, hids⟩ := h4 (by omega)
    refine ⟨?_, ?_, ?_⟩
    · rw [hset]
      unfold hoistableNames
      rw [hids, h2, hnames, o1]
      rfl
    · intro id hid1
      rw [hids] at hid1
      rw [h2]
      obtain ⟨pce, hp, hq⟩ := o2 id hid1
      exact ⟨pce, by rw [List.getElem?_append_left (hlt id hid1)]; exact hp, hq⟩
    · rw [hset]; exact o3

theorem prefixOK_run (X : EmitterEnv) (e : UnitEmitter) (hok : PrefixOK X e) (op : EmitOp) :
    PrefixOK X (op.run X e) := by
  by_cases hop : ∀ n h, op ≠ EmitOp.newPreClassEmitter n h
  · obtain ⟨h1, h2, h3⟩ := prefix_fields_run X e op hop
    unfold PrefixOK hoistableNames
    rw [h1, h2, h3]
    exact hok
  · simp only [not_forall, not_not] at hop
    obtain ⟨n, h, rfl⟩ := hop
    exact prefixOK_newPre X e hok n h

theorem prefixOK_runOps (X : EmitterEnv) (ops : List EmitOp) :
    ∀ (e : UnitEmitter), PrefixOK X e → PrefixOK X (runOps X e ops) := by
  induction ops with
  | nil => intro e h; exact h
  | cons op rest ih => intro e h; exact ih _ (prefixOK_run X e h op)

theorem prefixOK_new (X : EmitterEnv) : PrefixOK X newUnitEmitter :=
  ⟨rfl, fun _ hid => absurd hid (List.not_mem_nil _), List.Pairwise.nil⟩

/-- Every name of the set of the hoistable names was put there by a call of
`newPreClassEmitter` with a classification of `MaybeHoistable` or higher. -/
theorem set_history (X : EmitterEnv) (ops : List EmitOp) :
    ∀ (e : UnitEmitter) (pre : List EmitOp),
      (∀ m ∈ e.m_hoistablePreClassSet, ∃ h0, EmitOp.newPreClassEmitter m h0 ∈ pre ∧
        Hoistable.MaybeHoistable.toNat ≤ h0.toNat) →
      ∀ m ∈ (runOps X e ops).m_hoistablePreClassSet,
        ∃ h0, EmitOp.newPreClassEmitter m h0 ∈ pre ++ ops ∧
          Hoistable.MaybeHoistable.toNat ≤ h0.toNat := by
  induction ops with
  | nil => intro e pre h m hm; simpa using h m hm
  | cons op rest ih =>
    intro e pre h m hm
    have hstep : ∀ m ∈ (op.run X e).m_hoistablePreClassSet,
        ∃ h0, EmitOp.newPreClassEmitter m h0 ∈ pre ++ [op] ∧
          Hoistable.MaybeHoistable.toNat ≤ h0.toNat := by
      intro m1 hm1
      by_cases hop : ∀ n h, op ≠ EmitOp.newPreClassEmitter n h
      · rw [(prefix_fields_run X e op hop).2.1] at hm1
        obtain ⟨h0, hin, hle⟩ := h m1 hm1
        exact ⟨h0, List.mem_append_left _ hin, hle⟩
      · simp only [not_forall, not_not] at hop
        obtain ⟨n, hh, rfl⟩ := hop
        obtain ⟨_, _, h3, h4⟩ := newPreClassEmitter_effect X e n hh
        simp only [EmitOp.run] at hm1
        by_cases hmay :
            Hoistable.MaybeHoistable.toNat ≤ (newPreClassEmitter X e n hh).1.hoistable.toNat
        · obtain ⟨_, heq, hset, _⟩ := h3 hmay
          rw [hset, List.mem_cons] at hm1
          rcases hm1 with hm1 | hm1
          · subst hm1
            exact ⟨hh, by simp, by rw [← heq]; exact hmay⟩
          · obtain ⟨h0, hin, hle⟩ := h m1 hm1
            exact ⟨h0, List.mem_append_left _ hin, hle⟩
        · rw [(h4 (by omega)).1] at hm1
          obtain ⟨h0, hin, hle⟩ := h m1 hm1
          exact ⟨h0, List.mem_append_left _ hin, hle⟩
    have := ih (op.run X e) (pre ++ [op]) hstep m hm
    simpa using this

/-- In a consistent emitter no two entries of the list of the hoistable
templates are templates of one name. -/
theorem prefix_names_distinct (X : EmitterEnv) (hrefl : ∀ n, X.isame n n = true)
    (e : UnitEmitter) (hok : PrefixOK X e) (i j a b : Nat) (p q : PreClassEmitter)
    (hi : e.m_hoistablePceIdVec[i]? = some a) (hj : e.m_hoistablePceIdVec[j]? = some b)
    (hp : e.m_pceVec[a]? = some p) (hq : e.m_pceVec[b]? = some q) (hname : p.name = q.name) :
    i = j := by
  obtain ⟨o1, _, o3⟩ := hok
  rw [o1, List.pairwise_reverse, List.pairwise_iff_getElem] at o3
  have hi1 : i < e.m_hoistablePceIdVec.length := (List.getElem?_eq_some_iff.mp hi).1
  have hj1 : j < e.m_hoistablePceIdVec.length := (List.getElem?_eq_some_iff.mp hj).1
  have hlen : (hoistableNames e).length = e.m_hoistablePceIdVec.length := by
    unfold hoistableNames; rw [List.length_map]
  have hni : (hoistableNames e)[i]? = some p.name := by
    unfold hoistableNames
    rw [List.getElem?_map, hi]
    simp only [Option.map_some', hp]
  have hnj : (hoistableNames e)[j]? = some q.name := by
    unfold hoistableNames
    rw [List.getElem?_map, hj]
    simp only [Option.map_some', hq]
  have gi := (List.getElem?_eq_some_iff.mp hni).2
  have gj := (List.getElem?_eq_some_iff.mp hnj).2
  by_contra hne
  rcases Nat.lt_or_gt_of_ne hne with hlt | hgt
  · have := o3 i j (by omega) (by omega) hlt
    rw [gi, gj, hname, hrefl] at this
    cases this
  · have := o3 j i (by omega) (by omega) hgt
    rw [gi, gj, hname, hrefl] at this
    cases this

/-- C26. Hoistability downgrade.  In an emitter built from a new one by the
calls `ops0`, let `newPreClassEmitter(n, h)` be called with `h` at least
`MaybeHoistable`, and then any calls `ops`.  Every later
`newPreClassEmitter(n, h')` with `h'` other than `NotHoistable` yields a
template classified `Mergeable` and adds nothing to the list of the hoistable
templates.  When no call of `ops0` was a declaration of the name with
`MaybeHoistable` or higher, the first declaration keeps its classification
`h` and is added at the end of the list; later, before and after the second
declaration, it is still in the list and it is the only entry of the list
whose template has the name `n`.  The comparison of the set of names is
assumed reflexive. -/
theorem hoistability_downgrade (X : EmitterEnv) (hrefl : ∀ n, X.isame n n = true)
    (ops0 : List EmitOp) (n : String) (h : Hoistable)
    (hh : Hoistable.MaybeHoistable.toNat ≤ h.toNat) (ops : List EmitOp) (h1 : Hoistable)
    (hne : h1 ≠ Hoistable.NotHoistable)
    (e0 : UnitEmitter) (he0 : e0 = runOps X newUnitEmitter ops0)
    (e : UnitEmitter) (he : e = runOps X (newPreClassEmitter X e0 n h).2 ops) :
    ((newPreClassEmitter X e n h1).1.hoistable = Hoistable.Mergeable ∧
      (newPreClassEmitter X e n h1).2.m_hoistablePceIdVec = e.m_hoistablePceIdVec) ∧
    ((∀ m h0, EmitOp.newPreClassEmitter m h0 ∈ ops0 →
        Hoistable.MaybeHoistable.toNat ≤ h0.toNat → X.isame n m = false) →
      (newPreClassEmitter X e0 n h).1 = ⟨e0.m_pceVec.length, n, h⟩ ∧
      (newPreClassEmitter X e0 n h).2.m_hoistablePceIdVec =
        e0.m_hoistablePceIdVec ++ [e0.m_pceVec.length] ∧
      ∀ e2, (e2 = e ∨ e2 = (newPreClassEmitter X e n h1).2) →
        e2.m_hoistablePceIdVec[e0.m_hoistablePceIdVec.length]? = some e0.m_pceVec.length ∧
        e2.m_pceVec[e0.m_pceVec.length]? = some ⟨e0.m_pceVec.length, n, h⟩ ∧
        ∀ (j b : Nat) (q : PreClassEmitter), e2.m_hoistablePceIdVec[j]? = some b →
          e2.m_pceVec[b]? = some q → q.name = n →
          j = e0.m_hoistablePceIdVec.length ∧ b = e0.m_pceVec.length) := by
  have eff0 := newPreClassEmitter_effect X e0 n h
  have eff := newPreClassEmitter_effect X e n h1
  have grow := prefix_grow_runOps X ops (newPreClassEmitter X e0 n h).2
  rw [← he] at grow
  have ok0 : PrefixOK X e0 := by rw [he0]; exact prefixOK_runOps X ops0 _ (prefixOK_new X)
  have ok1 : PrefixOK X (newPreClassEmitter X e0 n h).2 := prefixOK_newPre X e0 ok0 n h
  have oke : PrefixOK X e := by rw [he]; exact prefixOK_runOps X ops _ ok1
  have oke2 : PrefixOK X (newPreClassEmitter X e n h1).2 := prefixOK_newPre X e oke n h1
  -- after the first declaration the set knows the name
  have hcount1 : hoistableCount X (newPreClassEmitter X e0 n h).2 n = true := by
    by_cases hc : hoistableCount X e0 n = true
    · unfold hoistableCount at hc ⊢
      rw [List.any_eq_true] at hc ⊢
      obtain ⟨m, hm, hs⟩ := hc
      exact ⟨m, (prefix_grow_run X e0 (EmitOp.newPreClassEmitter n h)).2.2 m hm, hs⟩
    · have hc1 : hoistableCount X e0 n = false := by
        cases hq : hoistableCount X e0 n
        · rfl
        · exact absurd hq hc
      have h1eq : (newPreClassEmitter X e0 n h).1.hoistable = h := by
        rw [eff0.1]
        simp [hc1]
      have := (eff0.2.2.1 (by rw [h1eq]; exact hh)).2.2.1
      unfold hoistableCount
      rw [this]
      simp [hrefl]
  have hcount : hoistableCount X e n = true := by
    unfold hoistableCount at hcount1 ⊢
    rw [List.any_eq_true] at hcount1 ⊢
    obtain ⟨m, hm, hs⟩ := hcount1
    exact ⟨m, grow.2.2 m hm, hs⟩
  have hmerge : (newPreClassEmitter X e n h1).1.hoistable = Hoistable.Mergeable := by
    rw [eff.1]
    have h0 : h1.toNat ≠ 0 := by
      cases h1 <;> simp [Hoistable.toNat] at hne ⊢
    simp [hcount, h0]
  have hids : (newPreClassEmitter X e n h1).2.m_hoistablePceIdVec = e.m_hoistablePceIdVec :=
    (eff.2.2.2 (by rw [hmerge]; decide)).2
  refine ⟨⟨hmerge, hids⟩, ?_⟩
  intro hfirst
  have hc0 : hoistableCount X e0 n = false := by
    cases hq : hoistableCount X e0 n
    · rfl
    · unfold hoistableCount at hq
      rw [List.any_eq_true] at hq
      obtain ⟨m, hm, hs⟩ := hq
      rw [he0] at hm
      obtain ⟨g, hin, hle⟩ := set_history X ops0 newUnitEmitter []
        (fun m hm => absurd hm (List.not_mem_nil _)) m hm
      rw [hfirst m g (by simpa using hin) hle] at hs
      cases hs
  have hpce : (newPreClassEmitter X e0 n h).1 = ⟨e0.m_pceVec.length, n, h⟩ := by
    rw [eff0.1]
    simp [hc0]
  have hmay : Hoistable.MaybeHoistable.toNat ≤ (newPreClassEmitter X e0 n h).1.hoistable.toNat := by
    rw [hpce]; exact hh
  have hids1 := (eff0.2.2.1 hmay).2.2.2
  have hvec1 := eff0.2.1
  rw [hpce] at hvec1
  refine ⟨hpce, hids1, ?_⟩
  -- the later emitters
  have hlater : ∀ e2, PrefixOK X e2 → e.m_pceVec <+: e2.m_pceVec →
      e.m_hoistablePceIdVec <+: e2.m_hoistablePceIdVec →
      e2.m_hoistablePceIdVec[e0.m_hoistablePceIdVec.length]? = some e0.m_pceVec.length ∧
      e2.m_pceVec[e0.m_pceVec.length]? = some ⟨e0.m_pceVec.length, n, h⟩ ∧
      ∀ (j b : Nat) (q : PreClassEmitter), e2.m_hoistablePceIdVec[j]? = some b →
        e2.m_pceVec[b]? = some q → q.name = n →
        j = e0.m_hoistablePceIdVec.length ∧ b = e0.m_pceVec.length := by
    intro e2 ok2 hp1 hp2
    obtain ⟨t1, ht1⟩ := grow.1.trans hp1
    obtain ⟨t2, ht2⟩ := grow.2.1.trans hp2
    have hA : e2.m_hoistablePceIdVec[e0.m_hoistablePceIdVec.length]? =
        some e0.m_pceVec.length := by
      rw [← ht2, hids1, List.append_assoc]
      rw [List.getElem?_append_right (Nat.le_refl _)]
      simp
    have hB : e2.m_pceVec[e0.m_pceVec.length]? = some ⟨e0.m_pceVec.length, n, h⟩ := by
      rw [← ht1, hvec1, List.append_assoc]
      rw [List.getElem?_append_right (Nat.le_refl _)]
      simp
    refine ⟨hA, hB, ?_⟩
    intro j b q hj hq hname
    have hij := prefix_names_distinct X hrefl e2 ok2 j _ b _ q _ hj hA hq hB hname
    subst hij
    rw [hA] at hj
    injection hj with hj
    exact ⟨rfl, hj.symm⟩
  intro e2 he2
  rcases he2 with rfl | rfl
  · exact hlater _ oke (List.prefix_refl _) (List.prefix_refl _)
  · exact hlater _ oke2 (by rw [eff.2.1]; exact List.prefix_append _ _)
      (by rw [hids])

/-- C26 at a new emitter: `class C` declared `AlwaysHoistable`, then a
literal, then `class C` declared `AlwaysHoistable` again: the second template
is `Mergeable` and the list of the hoistable templates still holds the first
alone. -/
theorem hoistability_downgrade_witness :
    (∀ n, exEmitterEnv.isame n n = true) ∧
    Hoistable.MaybeHoistable.toNat ≤ Hoistable.AlwaysHoistable.toNat ∧
    Hoistable.AlwaysHoistable ≠ Hoistable.NotHoistable ∧
    (newPreClassEmitter exEmitterEnv
      (runOps exEmitterEnv (newPreClassEmitter exEmitterEnv (runOps exEmitterEnv newUnitEmitter [])
        "C" Hoistable.AlwaysHoistable).2 [EmitOp.mergeLitstr "X"])
      "C" Hoistable.AlwaysHoistable).1.hoistable = Hoistable.Mergeable ∧
    (newPreClassEmitter exEmitterEnv
      (runOps exEmitterEnv (newPreClassEmitter exEmitterEnv (runOps exEmitterEnv newUnitEmitter [])
        "C" Hoistable.AlwaysHoistable).2 [EmitOp.mergeLitstr "X"])
      "C" Hoistable.AlwaysHoistable).2.m_hoistablePceIdVec = [0] :=
  ⟨fun n => by simp [exEmitterEnv], by decide, by decide,
    (hoistability_downgrade exEmitterEnv (fun n => by simp [exEmitterEnv]) [] "C"
      Hoistable.AlwaysHoistable (by decide) [EmitOp.mergeLitstr "X"] Hoistable.AlwaysHoistable
      (by decide) _ rfl _ rfl).1.1, rfl⟩

/-! ## A replay that fails part of the way -/

theorem bindingsKept_refl (s : VM) : BindingsKept s s :=
  ⟨published_of_eq s s rfl rfl, fun _ h => h, fun _ _ h => h, fun _ _ => rfl, fun _ h => h⟩

theorem bindingsKept_trans {a b c : VM} (h1 : BindingsKept a b) (h2 : BindingsKept b c) :
    BindingsKept a c := by
  refine ⟨published_trans h1.1 h2.1, fun off h => h2.2.1 off (h1.2.1 off h),
    fun n v h => h2.2.2.1 n v (h1.2.2.1 n v h), ?_, fun n h => h2.2.2.2.2 n (h1.2.2.2.2 n h)⟩
  intro off h
  have e1 := h1.2.2.2.1 off h
  rw [h2.2.2.2.1 off (by rw [e1]; exact h), e1]

/-- A step that only publishes classes keeps the bindings. -/
theorem bindingsKept_of_published {s t : VM} (h : Published s t) (h1 : t.tcFunc = s.tcFunc)
    (h2 : t.constants = s.constants) (h3 : t.tcCns = s.tcCns) (h4 : t.globals = s.globals) :
    BindingsKept s t :=
  ⟨h, fun off hh => by rw [h1]; exact hh, fun n v hh => by rw [h2]; exact hh,
    fun off _ => by rw [h3], fun n hh => by rw [h4]; exact hh⟩

/-- The bindings are kept by `mergeCns`: a registered constant and an
initialised slot are left as they are. -/
theorem mergeCns_bindingsKept (off : Nat) (v : TypedValue) (name : String) (s : VM) :
    BindingsKept s (mergeCns off v name s) := by
  have hf := mergeCns_frame off v name s
  refine ⟨published_of_eq _ _ hf.1 hf.2.1, fun o h => by rw [hf.2.2.1]; exact h, ?_, ?_,
    fun n h => by rw [hf.2.2.2.2.2.1]; exact h⟩
  · intro n w hn
    unfold mergeCns insertCns raise_warning
    by_cases h1 : (s.tcCns off).m_type = DataType.KindOfUninit
    · cases h2 : s.constants name with
      | none =>
        simp only [h1, h2, if_true]
        have hne : n ≠ name := by
          intro hc
          rw [hc, h2] at hn
          cases hn
        simp only [Function.update_noteq hne]
        exact hn
      | some w1 =>
        simp only [h1, h2, if_true, Bool.false_eq_true, if_false]
        exact hn
    · simp only [h1, if_false]
      exact hn
  · intro o ho
    unfold mergeCns insertCns raise_warning
    by_cases h1 : (s.tcCns off).m_type = DataType.KindOfUninit
    · cases h2 : s.constants name with
      | none =>
        simp only [h1, h2, if_true]
        have hne : o ≠ off := by
          intro hc
          rw [hc] at ho
          exact ho h1
        simp only [Function.update_noteq hne]
      | some w1 =>
        simp only [h1, h2, if_true, Bool.false_eq_true, if_false]
    · simp only [h1, if_false]

/-- The bindings are kept by everything that `mergeImpl` does, when the
collaborators keep them and `newClass` allocates fresh objects. -/
theorem mergeRel_bindingsKept (E : Env) (hE : E.Respects BindingsKept) (hF : E.Fresh) :
    MergeRel E BindingsKept where
  refl := bindingsKept_refl
  trans := fun _ _ _ h1 h2 => bindingsKept_trans h1 h2
  mono := fun _ _ h => h.1.1
  env := hE
  fresh := hF
  setCached := setCached_of_all (fun _ _ _ h1 h2 => bindingsKept_trans h1 h2)
    (fun c s => bindingsKept_of_published (setCached_published c s) rfl rfl rfl rfl)
  publish := publish_of_all E (fun _ _ _ h1 h2 => bindingsKept_trans h1 h2) <| by
    intro P N s hs hf
    have hp := defClassPublish_published E P N s hs hf
    exact bindingsKept_of_published hp rfl rfl rfl rfl
  tcFunc := by
    intro s u ix f _ _
    refine ⟨published_of_eq s _ rfl rfl, ?_, fun _ _ h => h, fun _ _ => rfl, fun _ h => h⟩
    intro off h
    simp only [Function.update_apply]
    split
    · simp
    · exact h
  mergeCns := mergeCns_bindingsKept
  setGlobal := by
    intro v name s
    refine ⟨published_of_eq s _ rfl rfl, fun _ h => h, fun _ _ h => h, fun _ _ => rfl, ?_⟩
    intro n h
    simp only [setGlobal, Function.update_apply]
    split
    · simp
    · exact h
  tcFlags := fun s _ _ =>
    bindingsKept_of_published (published_of_eq s _ rfl rfl) rfl rfl rfl rfl
  rewrite := by
    intro s t h _
    have e : t = { s with units := t.units } := h.1
    exact bindingsKept_of_published (published_of_eq s t (by rw [e]) (by rw [e]))
      (by rw [e]) (by rw [e]) (by rw [e]) (by rw [e])

/-- More fuel keeps a run of the sequential interpreter. -/
theorem reaches_fuel (E : Env) (fuel fuel1 : Nat) (hle : fuel ≤ fuel1) (u : Nat)
    {ix : Nat} {s : VM} {k : Nat} {x : VM} (h : Reaches E fuel u ix s k x) :
    Reaches E fuel1 u ix s k x := by
  induction h with
  | here ix s => exact Reaches.here ix s
  | step ix s ix1 s1 k x hst _ ih =>
    exact Reaches.step ix s ix1 s1 k x (specStep_fuel E fuel fuel1 hle u ix s _ hst) ih

/-- Runs of the sequential interpreter can be put one after the other. -/
theorem reaches_trans (E : Env) (fuel u : Nat) {ix : Nat} {s : VM} {j : Nat} {y : VM}
    {k : Nat} {x : VM} (h1 : Reaches E fuel u ix s j y) (h2 : Reaches E fuel u j y k x) :
    Reaches E fuel u ix s k x := by
  induction h1 with
  | here ix s => exact h2
  | step ix s ix1 s1 j y hst _ ih => exact Reaches.step ix s ix1 s1 k x hst (ih h2)

/-- A run of the sequential interpreter keeps `R` and the well-formedness of
the directory. -/
theorem reaches_post (E : Env) (R : VM → VM → Prop) (hR : MergeRel E R) (fuel u : Nat)
    {ix : Nat} {s : VM} {k : Nat} {x : VM} (h : Reaches E fuel u ix s k x) (hs : ChainsOK s) :
    R s x ∧ ChainsOK x := by
  induction h with
  | here ix s => exact ⟨hR.refl s, hs⟩
  | step ix s ix1 s1 k x hst _ ih =>
    have hp := specStep_post E R hR fuel u ix s hs
    rw [hst] at hp
    have hp1 : R s s1 := hp
    have hs1 := defClassRel_chainsOK hR.toDefClassRel hp1 hs
    exact ⟨hR.trans _ _ _ hp1 (ih hs1).1, (ih hs1).2⟩

/-- When the interpreter gets to an instruction that raises, the interpreter
raises: it ends with the error and the state of that instruction. -/
theorem reaches_raised (E : Env) (fuel u : Nat) {ix : Nat} {s : VM} {k : Nat} {x : VM}
    (h : Reaches E fuel u ix s k x) (m : String) (t : VM)
    (hfail : specStep E fuel u k x = some (.raised m t)) :
    ∃ g, fuel < g ∧ seqReplay E u g ix s = some (.raised m t) := by
  induction h with
  | here ix s =>
    refine ⟨fuel + 1, by omega, ?_⟩
    rw [seqReplay_succ, hfail]
  | step ix s ix1 s1 k x hst _ ih =>
    obtain ⟨g, hg, hrun⟩ := ih hfail
    refine ⟨g + 1, by omega, ?_⟩
    rw [seqReplay_succ, specStep_fuel E fuel g (by omega) u ix s _ hst]
    exact hrun

/-- The replay of a unit is the walk of its remaining instructions from the
state after the two loops at the head of `mergeImpl`, when the loop over the
hoistable classes does not end the replay and does not ask for the second
pass. -/
theorem mergeImpl_to_walk (E : Env) (u : Nat) (s : VM) (r1 : PUnit) (s1 s2 : VM) (f0 : Nat)
    (redo : Bool)
    (hle : (s.units u).m_firstHoistableFunc ≤ (s.units u).m_firstHoistablePreClass)
    (hf : mergeImplFuncs E u (s.units u).m_mergeState.uniqueFuncs
      ((s.units u).m_firstHoistablePreClass - (s.units u).m_firstHoistableFunc)
      (s.units u).m_firstHoistableFunc s = .ok r1 s1)
    (hh : mergeImplHoistable E f0 u
      ((s1.units u).m_firstMergeablePreClass - (s1.units u).m_firstHoistablePreClass)
      (s1.units u).m_firstHoistablePreClass false s1 = some (.ok redo s2))
    (hroute : redo = true → (s2.units u).isMergeOnly = true ∧
      (s1.units u).m_firstMergeablePreClass ≠ (s2.units u).m_mergeablesSize) :
    ∀ F, f0 ≤ F → mergeImpl E (F + 1) u s =
      match nextObj s2 u
        (max (s1.units u).m_firstHoistablePreClass (s1.units u).m_firstMergeablePreClass) with
      | none => some .fault
      | some (obj, k) => mergeImplSwitch E u F
        (max (s1.units u).m_firstHoistablePreClass (s1.units u).m_firstMergeablePreClass)
        obj k s2 := by
  intro F hF
  simp only [mergeImpl]
  rw [if_neg (by omega), hf]
  simp only []
  by_cases hlt : (s1.units u).m_firstHoistablePreClass < (s1.units u).m_firstMergeablePreClass
  · rw [if_pos hlt, mergeImplHoistable_fuel E f0 F hF u _ _ _ _ _ hh]
    simp only []
    have h1 : ¬ (redo = true ∧ (s2.units u).isMergeOnly = false) := by
      rintro ⟨hr, hm⟩
      rw [(hroute hr).1] at hm
      cases hm
    have h2 : ¬ (redo = true ∧
        (s1.units u).m_firstMergeablePreClass = (s2.units u).m_mergeablesSize) := by
      rintro ⟨hr, hm⟩
      exact (hroute hr).2 hm
    rw [if_neg h1, if_neg h2, max_eq_right (by omega)]
  · rw [if_neg hlt]
    rw [Nat.sub_eq_zero_of_le (by omega)] at hh
    simp only [mergeImplHoistable, Option.some.injEq, Outcome.ok.injEq] at hh
    obtain ⟨_, hh⟩ := hh
    subst hh
    rw [max_eq_left (by omega)]

theorem sealed_refl (u : Nat) (s : VM) : Sealed u s s :=
  ⟨flagsKept_of_eq s s rfl rfl rfl, rfl⟩

theorem sealed_trans {u : Nat} {a b c : VM} (h1 : Sealed u a b) (h2 : Sealed u b c) :
    Sealed u a c :=
  ⟨flagsKept_trans h1.1 h2.1, h2.2.trans h1.2⟩

/-- The unit `u` stays sealed along what `defClass` does, when the
collaborators leave it sealed. -/
theorem defClassRel_sealed (E : Env) (u : Nat) (hE : E.Respects (Sealed u)) (hF : E.Fresh) :
    DefClassRel E (Sealed u) where
  refl := sealed_refl u
  trans := fun _ _ _ h1 h2 => sealed_trans h1 h2
  mono := fun _ _ h => h.1.1
  env := hE
  fresh := hF
  setCached := setCached_of_all (fun _ _ _ h1 h2 => sealed_trans h1 h2)
    (fun c s => ⟨⟨setCached_mono c s, fun _ => unitStep_refl _, fun _ _ h => h⟩, rfl⟩)
  publish := publish_of_all E (fun _ _ _ h1 h2 => sealed_trans h1 h2) fun P N s hs hf =>
    ⟨defClassPublish_flagsKept E P N s hs hf, rfl⟩

/-- The function loop of `mergeImpl` leaves the unit `u` sealed. -/
theorem mergeImplFuncs_sealed (E : Env) (u : Nat) (hE : E.Respects (Sealed u)) (v : Nat)
    (uf : Bool) :
    ∀ (n ix : Nat) (s : VM), (mergeImplFuncs E v uf n ix s).Post (Sealed u) s := by
  intro n
  induction n with
  | zero => intro ix s; exact sealed_refl u s
  | succ n ih =>
    intro ix s
    simp only [mergeImplFuncs]
    rcases hobj : mergeableObj s v ix with _ | obj
    · simp [Outcome.Post]
    · cases obj <;> simp only [Outcome.Post]
      rename_i func
      have htr : ∀ a b c : VM, Sealed u a b → Sealed u b c → Sealed u a c :=
        fun _ _ _ h1 h2 => sealed_trans h1 h2
      cases uf with
      | true =>
        simp only [if_true]
        exact outcome_post_step htr ⟨flagsKept_of_eq s _ rfl rfl rfl, rfl⟩ (ih _ _)
      | false =>
        simp only [Bool.false_eq_true, if_false]
        rcases hsc : E.setCachedFunc func s with ⟨r, t⟩ | ⟨m, t⟩ | _ <;> simp only []
        · exact outcome_post_step htr (hE.setCachedFunc_ok hsc) (ih _ _)
        · exact hE.setCachedFunc_raised hsc

/-- One instruction leaves the unit `u` sealed, unless it is the `Done` of
`u` itself, when `u` has its bit set and the replays that the instruction
starts do so. -/
theorem specStep_sealed (E : Env) (u : Nat) (hE : E.Respects (Sealed u)) (hF : E.Fresh)
    (fuel : Nat)
    (hA : ∀ v x r, Marked x u → ChainsOK x → mergeImpl E fuel v x = some r →
      SealedPost u v x r)
    (v ix : Nat) (x : VM) (r : Outcome (Option Nat)) (hm : Marked x u) (hs : ChainsOK x)
    (h : specStep E fuel v ix x = some r) : SealedStep u v x r := by
  have hRD := defClassRel_sealed E u hE hF
  have hRF := mergeRel_flagsKept E (respects_imp hE (fun _ _ h => h.1)) hF
  simp only [specStep] at h
  generalize hobj : mergeableObj x v ix = w at h
  rcases w with _ | o
  · injection h with h; rw [← h]; exact True.intro
  cases o with
  | func f => injection h with h; rw [← h]; exact True.intro
  | reqName kq name => injection h with h; rw [← h]; exact True.intro
  | tvData tv => injection h with h; rw [← h]; exact True.intro
  | tvPad => injection h with h; rw [← h]; exact True.intro
  | define name =>
    simp only [] at h
    generalize mergeableObj x v (ix + 1) = y at h
    rcases y with _ | w
    · injection h with h; rw [← h]; exact True.intro
    cases w <;> (injection h with h; rw [← h]) <;> try exact True.intro
    rename_i tv
    intro _
    have hf := mergeCns_frame tv._count tv name x
    exact ⟨flagsKept_of_eq _ _ hf.1 hf.2.2.2.1 hf.2.2.2.2.1, by rw [hf.2.2.2.1]⟩
  | global name =>
    simp only [] at h
    generalize mergeableObj x v (ix + 1) = y at h
    rcases y with _ | w
    · injection h with h; rw [← h]; exact True.intro
    cases w <;> (injection h with h; rw [← h]) <;> try exact True.intro
    intro _
    exact ⟨flagsKept_of_eq _ _ rfl rfl rfl, rfl⟩
  | preClass pre =>
    simp only [] at h
    have hd := defClass_post E (Sealed u) hRD fuel pre true x hs
    generalize defClass E fuel pre true x = y at h hd
    rcases y with _ | ⟨c, t⟩ | ⟨m, t⟩ | _ <;> simp only [] at h
    · cases h
    · injection h with h; rw [← h]; intro _; exact hd
    · injection h with h; rw [← h]; exact hd
    · injection h with h; rw [← h]; exact True.intro
  | cls c =>
    cases c with
    | none => injection h with h; rw [← h]; exact True.intro
    | some cls =>
      simp only [] at h
      generalize ha : E.avail cls none true x = y at h
      rcases y with ⟨⟨a, o⟩, t⟩ | ⟨m, t⟩ | _
      · have hk : Sealed u x t := hE.avail_ok ha
        have hk2 : Sealed u x (cls.setCached t) :=
          sealed_trans hk ⟨⟨setCached_mono cls t, fun _ => unitStep_refl _, fun _ _ h => h⟩, rfl⟩
        cases a <;> cases o <;> simp only [] at h <;> injection h with h <;> rw [← h] <;>
          first
            | exact True.intro
            | exact hk
            | (intro _; exact hk2)
      · simp only [] at h
        injection h with h; rw [← h]
        exact hE.avail_raised ha
      · simp only [] at h
        injection h with h; rw [← h]; exact True.intro
  | reqUnit kq unit =>
    simp only [] at h
    split at h
    · rename_i hfl
      have hne : unit ≠ u := by
        intro hc
        rw [hc] at hfl
        exact hm hfl
      have hk1 : Sealed u x (setLoaded x unit) := ⟨setLoaded_flagsKept x unit, rfl⟩
      have hm1 : Marked (setLoaded x unit) u := marked_kept hk1.1 hm
      have hs1 : ChainsOK (setLoaded x unit) := hs
      generalize hrun0 : mergeImpl E fuel unit _ = y at h
      have hrun : mergeImpl E fuel unit (setLoaded x unit) = y := hrun0
      rcases y with _ | ⟨a, s2⟩ | ⟨m, s2⟩ | _ <;> simp only [] at h
      · cases h
      · have hk2 : Sealed u (setLoaded x unit) s2 := hA unit _ _ hm1 hs1 hrun hne
        have hk12 := sealed_trans hk1 hk2
        split at h
        · generalize hi : E.invokeFunc unit s2 = z at h
          rcases z with ⟨b, s3⟩ | ⟨m, s3⟩ | _ <;> simp only [] at h <;>
            injection h with h <;> rw [← h]
          · intro _
            exact sealed_trans hk12 (hE.invokeFunc_ok hi)
          · exact sealed_trans hk12 (hE.invokeFunc_raised hi)
          · exact True.intro
        · injection h with h; rw [← h]
          intro _
          exact hk12
      · injection h with h; rw [← h]
        exact sealed_trans hk1 (hA unit _ _ hm1 hs1 hrun)
      · injection h with h; rw [← h]; exact True.intro
    · injection h with h; rw [← h]
      intro _
      exact sealed_refl u x
  | done =>
    simp only [] at h
    split at h
    swap
    · injection h with h; rw [← h]; exact True.intro
    have hp := mergeImplDone_post E FlagsKept hRF fuel v x
    generalize hd : mergeImplDone fuel v x = y at h hp
    rcases y with _ | ⟨a, t⟩ | ⟨m, t⟩ | _ <;> simp only [] at h
    · cases h
    · injection h with h; rw [← h]
      intro hc
      have hv : v ≠ u := by
        rcases hc with hc | hc
        · exact absurd rfl hc
        · exact hc
      refine ⟨hp, ?_⟩
      rw [mergeImplDone_eq] at hd
      split at hd
      · exact rewritePass_others fuel v x a t hd u (fun e => hv e.symm)
      · injection hd with hd
        injection hd with _ hd
        rw [hd]
    · exfalso
      rw [mergeImplDone_eq] at hd
      split at hd
      · simp only [rewritePass] at hd
        generalize rewriteHoistable v _ _ _ = q at hd
        rcases q with _ | s2
        · cases hd
        · simp only [] at hd
          generalize rewriteStmts v _ fuel _ s2 = q2 at hd
          rcases q2 with _ | _ | s3 <;> cases hd
      · cases hd
    · injection h with h; rw [← h]; exact True.intro

/-- The sequential interpreter leaves the unit `u` sealed when it raises, and
whenever it walks another unit. -/
theorem seqReplay_sealed (E : Env) (u : Nat) (hE : E.Respects (Sealed u)) (hF : E.Fresh)
    (fuel : Nat)
    (hA : ∀ v x r, Marked x u → ChainsOK x → mergeImpl E fuel v x = some r →
      SealedPost u v x r) :
    ∀ n, n ≤ fuel + 1 → ∀ v ix x r, Marked x u → ChainsOK x →
      seqReplay E v n ix x = some r → SealedPost u v x r := by
  have hRD := defClassRel_sealed E u hE hF
  intro n
  induction n with
  | zero => intro _ v ix x r _ _ h; simp [seqReplay] at h
  | succ n ih =>
    intro hn v ix x r hm hs h
    rw [seqReplay_succ] at h
    generalize hst : specStep E n v ix x = y at h
    rcases y with _ | o
    · cases h
    have hstep := specStep_sealed E u hE hF fuel hA v ix x o hm hs
      (specStep_fuel E n fuel (by omega) v ix x o hst)
    rcases o with ⟨_ | ix1, t⟩ | ⟨m, t⟩ | _ <;> simp only [] at h
    · injection h with h; rw [← h]
      intro hv
      exact hstep (Or.inr hv)
    · have hk : Sealed u x t := hstep (Or.inl (by simp))
      have hr := ih (by omega) v ix1 t r (marked_kept hk.1 hm)
        (defClassRel_chainsOK hRD hk hs) h
      cases r with
      | ok a t2 => intro hv; exact sealed_trans hk (hr hv)
      | raised m t2 => exact sealed_trans hk hr
      | fault => exact True.intro
    · injection h with h; rw [← h]; exact hstep
    · injection h with h; rw [← h]; exact True.intro

/-- A replay leaves the unit `u` sealed when it raises, and whenever it is the
replay of another unit, when `u` has its bit set and the collaborators leave
it sealed. -/
theorem mergeImpl_sealed (E : Env) (u : Nat) (hE : E.Respects (Sealed u)) (hF : E.Fresh) :
    ∀ fuel v x r, Marked x u → ChainsOK x → mergeImpl E fuel v x = some r →
      SealedPost u v x r := by
  have hRD := defClassRel_sealed E u hE hF
  intro fuel
  induction fuel with
  | zero => intro v x r _ _ h; simp [mergeImpl] at h
  | succ F ih =>
    intro v x r hm hs h
    have hW := seqReplay_sealed E u hE hF F ih (F + 1) (Nat.le_refl _)
    simp only [mergeImpl] at h
    split at h
    · injection h with h; rw [← h]; exact True.intro
    have hfp := mergeImplFuncs_sealed E u hE v (x.units v).m_mergeState.uniqueFuncs
      ((x.units v).m_firstHoistablePreClass - (x.units v).m_firstHoistableFunc)
      (x.units v).m_firstHoistableFunc x
    generalize mergeImplFuncs E v _ _ _ x = y at h hfp
    rcases y with ⟨a, s1⟩ | ⟨m, s1⟩ | _ <;> simp only [] at h
    · have hk1 : Sealed u x s1 := hfp
      have hm1 := marked_kept hk1.1 hm
      have hs1 := defClassRel_chainsOK hRD hk1 hs
      have hwalk : ∀ (ix : Nat) (s2 : VM), Sealed u x s2 →
          (match nextObj s2 v ix with
            | none => some Outcome.fault
            | some (obj, k) => mergeImplSwitch E v F ix obj k s2) = some r →
          SealedPost u v x r := by
        intro ix s2 hk2 hrun
        cases hnx : nextObj s2 v ix with
        | none =>
          rw [hnx] at hrun
          injection hrun with hrun; rw [← hrun]; exact True.intro
        | some p =>
          obtain ⟨obj, k⟩ := p
          rw [hnx] at hrun
          have hseq := (walk_to_seq E F).2.2.2.2.2 _ _ _ _ _ _ hnx hrun
          have hr := hW v ix s2 r (marked_kept hk2.1 hm) (defClassRel_chainsOK hRD hk2 hs) hseq
          cases r with
          | ok a t2 => intro hv; exact sealed_trans hk2 (hr hv)
          | raised m t2 => exact sealed_trans hk2 hr
          | fault => exact True.intro
      split at h
      · have hhp := mergeImplHoistable_post E (Sealed u) hRD F v
          ((s1.units v).m_firstMergeablePreClass - (s1.units v).m_firstHoistablePreClass)
          (s1.units v).m_firstHoistablePreClass false s1 hs1
        generalize mergeImplHoistable E F v _ _ false s1 = y at h hhp
        rcases y with _ | ⟨redo, s2⟩ | ⟨m, s2⟩ | _ <;> simp only [] at h
        · cases h
        · have hk2 : Sealed u x s2 := sealed_trans hk1 hhp
          split at h
          · injection h with h; rw [← h]
            intro _
            exact hk2
          · split at h
            · have hrp := mergeImplRedo_post E (Sealed u) hRD F v
                (max 1 ((s1.units v).m_firstMergeablePreClass -
                  (s2.units v).m_firstHoistablePreClass))
                (s2.units v).m_firstHoistablePreClass s2 (defClassRel_chainsOK hRD hk2 hs)
              rw [h] at hrp
              cases r with
              | ok a t2 => intro _; exact sealed_trans hk2 hrp
              | raised m t2 => exact sealed_trans hk2 hrp
              | fault => exact True.intro
            · exact hwalk _ s2 hk2 h
        · injection h with h; rw [← h]
          exact sealed_trans hk1 hhp
        · injection h with h; rw [← h]; exact True.intro
      · exact hwalk _ s1 hk1 h
    · injection h with h; rw [← h]; exact hfp
    · injection h with h; rw [← h]; exact True.intro

/-- The collaborators of `strictEnv` leave the state as it is. -/
theorem strictEnv_respects (R : VM → VM → Prop) (hr : ∀ s, R s s) : strictEnv.Respects R where
  avail_ok := by
    intro c p f s r t h
    simp only [strictEnv] at h
    split at h <;> cases h <;> exact hr _
  avail_raised := by
    intro c p f s m t h
    simp only [strictEnv] at h
    split at h <;> cases h
  invokeHandler_ok := by intro n s r t h; cases h; exact hr _
  invokeHandler_raised := by intro n s m t h; cases h
  newClass_ok := by intro p c s a t h; cases h; exact hr _
  newClass_raised := by intro p c s m t h; cases h
  setCachedFunc_ok := by intro f s r t h; cases h; exact hr _
  setCachedFunc_raised := by intro f s m t h; cases h
  invokeFunc_ok := by intro u s r t h; cases h; exact hr _
  invokeFunc_raised := by intro u s m t h; cases h
  lookupIncludeRoot_ok := by intro n k u s r t h; cases h; exact hr _
  lookupIncludeRoot_raised := by intro n k u s m t h; cases h
  mergePreConsts := by intro u s; exact hr _

theorem strictEnv_fresh : strictEnv.Fresh := by
  intro p c s a t h d hd
  cases h
  exact freshAddr_fresh _ d hd

theorem exVMUniq_chainsOK : ChainsOK exVMUniq := by
  intro n
  simp only [exVMUniq, emptyVM, Function.update_apply]
  split
  · decide
  · split
    · decide
    · exact ⟨List.nodup_nil, fun c hc => by cases hc⟩

/-- A word that is not an unmarked `PreClass*` stays through the rewrite of a
unit. -/
theorem unitStep_keeps {a b : Unit} (h : UnitStep a b) (j : Nat) (w : Mergeable)
    (hw : a.m_mergeables[j]? = some w) (hp : ∀ p, w ≠ .preClass p) :
    b.m_mergeables[j]? = some w := by
  have hj : j < a.m_mergeables.length := (List.getElem?_eq_some_iff.mp hw).1
  have hex : ∃ w1, b.m_mergeables[j]? = some w1 :=
    ⟨_, List.getElem?_eq_getElem (by rw [h.length]; exact hj)⟩
  obtain ⟨w1, hw1⟩ := hex
  rcases h.words j w1 hw1 with h1 | ⟨c, p, _, h1⟩
  · rw [hw] at h1
    injection h1 with h1
    rw [hw1, h1]
  · rw [hw] at h1
    injection h1 with h1
    exact absurd h1 (hp p)

theorem soleClass_back {s t : VM} (h : FlagsKept s t) {c : Class} (hc : SoleClass t c) :
    SoleClass s c := by
  intro v ix d hw ho
  exact hc v ix d (unitStep_keeps (h.2.1 v) ix _ hw (fun p hp => by cases hp)) ho

theorem soleFunc_back {s t : VM} (h : FlagsKept s t) {f : Func} (hf : SoleFunc t f) :
    SoleFunc s f := by
  intro v ix g hw hu ho
  refine hf v ix g (unitStep_keeps (h.2.1 v) ix _ hw (fun p hp => by cases hp)) ?_ ho
  rcases (h.2.1 v).mergeState with e | e <;> rw [e]
  · exact hu
  · exact hu

/-- The slots of the directory are in order in every state from which a state
in which they are in order was reached. -/
theorem slotsOK_back (E : Env) {s t : VM} (h : Mono s t) (ht : SlotsOK E t) : SlotsOK E s := by
  have hne : ∀ n, s.clsList n ≠ [] → t.clsList n ≠ [] := by
    intro n hn h0
    obtain ⟨l, hl⟩ := h.1 n
    rw [h0] at hl
    exact hn (List.append_eq_nil.mp hl).2
  exact ⟨fun n c hc => ht.1 n c ((h.1 n).subset hc),
    fun n m hn hm he => ht.2 n m (hne n hn) (hne m hm) he⟩

/-- With the slots in order, the cached class of a name is what the slot of
any class of its chain holds. -/
theorem lookupClass_of_mem (E : Env) {s : VM} (hs : SlotsOK E s) {c : Class} {n : String}
    (hc : c ∈ s.clsList n) : lookupClass s n = s.tcClass c.m_cachedOffset := by
  unfold lookupClass
  cases hch : s.clsList n with
  | nil => rw [hch] at hc; cases hc
  | cons h rest =>
    simp only [Class.getCached]
    rw [hs.1 n h (by rw [hch]; exact List.mem_cons_self _ _), hs.1 n c hc]

/-- The slot into which `defClass` stores is not the slot of a class that was
cached when the call started: the call found no class of its name cached. -/
theorem slot_free (E : Env) {s0 t : VM} (hM : Mono s0 t) (ht : SlotsOK E t) {n : String}
    (h0 : lookupClass s0 n = none) {x : Class} (hx : x ∈ t.clsList n) {c : Class} {m : String}
    (hc : c ∈ s0.clsList m) (hb : s0.tcClass c.m_cachedOffset = some c) :
    x.m_cachedOffset ≠ c.m_cachedOffset := by
  intro he
  have hct : c ∈ t.clsList m := (hM.1 m).subset hc
  have e1 := ht.1 n x hx
  have e2 := ht.1 m c hct
  have hnm : n = m :=
    ht.2 n m (List.ne_nil_of_mem hx) (List.ne_nil_of_mem hct) (by rw [← e1, ← e2, he])
  subst hnm
  rw [lookupClass_of_mem E (slotsOK_back E hM ht) hc, hb] at h0
  cases h0

theorem exactKept_refl (E : Env) (s : VM) : ExactKept E s s :=
  ⟨flagsKept_of_eq s s rfl rfl rfl, fun _ _ _ _ h _ => h, fun _ h _ => h⟩

theorem exactKept_trans (E : Env) {a b c : VM} (h1 : ExactKept E a b) (h2 : ExactKept E b c) :
    ExactKept E a c := by
  refine ⟨flagsKept_trans h1.1 h2.1, ?_, ?_⟩
  · intro hok d m hd hb hs
    exact h2.2.1 hok d m ((h1.1.1.1 m).subset hd)
      (h1.2.1 (slotsOK_back E h2.1.1 hok) d m hd hb (soleClass_back h2.1 hs)) hs
  · intro f hf hs
    exact h2.2.2 f (h1.2.2 f hf (soleFunc_back h2.1 hs)) hs

/-- A step that changes no class slot and no function slot keeps the exact
bindings. -/
theorem exactKept_of_flagsKept (E : Env) {s t : VM} (h : FlagsKept s t)
    (h1 : t.tcClass = s.tcClass) (h2 : t.tcFunc = s.tcFunc) : ExactKept E s t :=
  ⟨h, fun _ _ _ _ hb _ => by rw [h1]; exact hb, fun _ hf _ => by rw [h2]; exact hf⟩

/-- The exact bindings are kept by everything that `mergeImpl` does, when the
collaborators keep them and `newClass` allocates fresh objects. -/
theorem mergeRel_exactKept (E : Env) (hE : E.Respects (ExactKept E)) (hF : E.Fresh) :
    MergeRel E (ExactKept E) where
  refl := exactKept_refl E
  trans := fun _ _ _ h1 h2 => exactKept_trans E h1 h2
  mono := fun _ _ h => h.1.1
  env := hE
  fresh := hF
  setCached := by
    intro c s0 s h hst
    have hfl : FlagsKept s0 (c.setCached s) :=
      flagsKept_trans h.1 (flagsKept_of_eq s _ rfl rfl rfl)
    refine ⟨hfl, ?_, ?_⟩
    · intro hok d m hd hb hsole
      have hok1 : SlotsOK E s := hok
      have hsole1 : SoleClass s d := hsole
      have hkeep := h.2.1 hok1 d m hd hb hsole1
      simp only [Class.setCached, Function.update_apply]
      split
      · rename_i ho
        rcases hst with ⟨n, hn, h0⟩ | ⟨v, ix, hw⟩
        · exact absurd ho.symm (slot_free E h.1.1 hok1 h0 hn hd hb)
        · have hw1 := unitStep_keeps (h.1.2.1 v) ix _ hw (fun p hp => by cases hp)
          rw [hsole1 v ix c hw1 ho.symm]
      · exact hkeep
    · intro f hf hs
      exact h.2.2 f hf hs
  publish := by
    intro P N s0 s h h0 hs hf
    have hfl1 := defClassPublish_flagsKept E P N s hs hf
    have hfl := flagsKept_trans h.1 hfl1
    refine ⟨hfl, ?_, ?_⟩
    · intro hok d m hd hb hsole
      have hkeep := h.2.1 (slotsOK_back E hfl1.1 hok) d m hd hb (soleClass_back hfl1 hsole)
      have hmem : (defClassPublish E P (s.clsList P.name) N s).1 ∈
          (defClassPublish E P (s.clsList P.name) N s).2.clsList P.name := by
        simp [defClassPublish, Class.setCached]
      have hval : (defClassPublish E P (s.clsList P.name) N s).2.tcClass d.m_cachedOffset =
          if d.m_cachedOffset = (defClassPublish E P (s.clsList P.name) N s).1.m_cachedOffset then
            some (defClassPublish E P (s.clsList P.name) N s).1
          else s.tcClass d.m_cachedOffset := by
        simp [defClassPublish, Class.setCached, Function.update_apply]
      rw [hval]
      split
      · rename_i ho
        exact absurd ho.symm (slot_free E hfl.1 hok h0 hmem hd hb)
      · exact hkeep
    · intro f hf hs
      exact h.2.2 f hf (soleFunc_back hfl1 hs)
  tcFunc := by
    intro s u ix f hw hu
    refine ⟨flagsKept_of_eq s _ rfl rfl rfl, fun _ _ _ _ hb _ => hb, ?_⟩
    intro g hg hsole
    simp only [Function.update_apply]
    split
    · rename_i ho
      rw [hsole u ix f hw hu ho.symm]
    · exact hg
  mergeCns := by
    intro off v name s
    have h := mergeCns_frame off v name s
    exact exactKept_of_flagsKept E (flagsKept_of_eq _ _ h.1 h.2.2.2.1 h.2.2.2.2.1) h.2.1 h.2.2.1
  setGlobal := fun _ _ s => exactKept_of_flagsKept E (flagsKept_of_eq s _ rfl rfl rfl) rfl rfl
  tcFlags := by
    intro s off m
    exact exactKept_of_flagsKept E
      ((mergeRel_flagsKept E (respects_imp hE (fun _ _ h => h.1)) hF).tcFlags s off m) rfl rfl
  rewrite := by
    intro s t h hu
    have hfl := (mergeRel_flagsKept E (respects_imp hE (fun _ _ h => h.1)) hF).rewrite s t h hu
    refine exactKept_of_flagsKept E hfl ?_ ?_
    · rw [h.1]
    · rw [h.1]

/-- C22, the claim fails, in two ways.  In the first example the include of
`inner.php` is the instruction at index 2 of the remaining sequence of the
unit at 20; it raises, after the pseudo-main of `inner.php` has replayed the
unit at 20 to its end, and the failed replay ends in a state in which the unit
at 20 has the bit `UniqueDefinedClasses` set and the entry of `C` rewritten.
In the second example the instruction at index 1 of the unit at 32 binds the
global `G` to 1, the include at index 4 runs the pseudo-main of `inner.php`,
which assigns 2 to `G`, and the class statement at index 5 raises: in the
state in which the replay ends `G` is bound, to 2 and not to 1. -/
theorem partial_failure_counterexample :
    (mergeableObj exVMOuter 20 2 = some (.reqUnit ReqKind.ReqMod 21) ∧
      ∃ t, mergeImpl throwEnv 6 20 exVMOuter = some (.raised "Exception" t) ∧
        t.units 20 ≠ exVMOuter.units 20 ∧
        (exVMOuter.units 20).m_mergeState.uniqueDefinedClasses = false ∧
        (t.units 20).m_mergeState.uniqueDefinedClasses = true ∧
        mergeableObj exVMOuter 20 1 = some (.preClass exPreC) ∧
        mergeableObj t 20 1 = some (.cls (some exClsC))) ∧
    (specStep assignEnv 11 32 1 exVMG = some (.ok (some 4) (setGlobal exValG1 "G" exVMG)) ∧
      (setGlobal exValG1 "G" exVMG).globals "G" = some exValG1 ∧
      mergeableObj exVMG 32 4 = some (.reqUnit ReqKind.ReqDoc 33) ∧
      mergeableObj exVMG 32 5 = some (.preClass exPreD) ∧
      ∃ t, mergeImpl assignEnv 12 32 exVMG = some (.raised "unknown class B" t) ∧
        t.globals "G" = some exValG2 ∧ t.globals "G" ≠ some exValG1) := by
  refine ⟨⟨rfl, _, rfl, ?_, rfl, rfl, rfl, ?_⟩, rfl, ?_, rfl, rfl, _, rfl, ?_, ?_⟩
  · intro h
    have := congrArg (fun x => x.m_mergeState.uniqueDefinedClasses) h
    revert this
    decide
  · decide
  · decide
  · decide
  · decide

/-- C22, amended.  Let the function loop and the loop over the hoistable
classes of a replay of `u` have returned (in the states `s1` and `s2`), let
the walk of the remaining instructions have got to the instruction `k` in the
state `x`, and let that instruction raise the error `m` in the state `t`.
Then the replay ends with that error in that state, whatever the fuel that
lets it end, and so does the sequential interpreter, which runs nothing after
`k`.  The bindings that are in place at the start, after the function loop,
after the hoistable classes and before every instruction up to `k` are
present in `t`: a registered constant is registered with its value and an
initialised constant slot is as it was; a class of the directory that is in
its slot is in its slot in `t`, when the slots of the directory are in order
in `t` and no unit of `t` holds another class for that slot as a marked
`Class*`; a function that is in its slot is in its slot in `t`, when no unit
of `t` with unique functions holds another function for that slot (the marked
classes and the unique functions are what `mergeImpl` stores without a test,
on the strength of `AttrUnique`); and every class slot, function slot and
global that is bound is bound in `t` (a global may have been assigned another
value by the code of an included unit).  The unit itself has changed at most
by the rewrite of its mergeables (which a replay of the same unit nested in
an instruction may have run to its `Done`); it is exactly as it was when the
marker bit of the unit was set at the start and the collaborators leave the
unit alone.  The collaborators are taken to keep bindings, exact bindings
and flag bits. -/
theorem partial_failure (E : Env) (hB : E.Respects BindingsKept) (hK : E.Respects FlagsKept)
    (hX : E.Respects (ExactKept E)) (hF : E.Fresh) (u : Nat) (s : VM) (hs : ChainsOK s)
    (r1 : PUnit) (s1 s2 : VM) (f0 : Nat)
    (redo : Bool)
    (hle : (s.units u).m_firstHoistableFunc ≤ (s.units u).m_firstHoistablePreClass)
    (hf : mergeImplFuncs E u (s.units u).m_mergeState.uniqueFuncs
      ((s.units u).m_firstHoistablePreClass - (s.units u).m_firstHoistableFunc)
      (s.units u).m_firstHoistableFunc s = .ok r1 s1)
    (hh : mergeImplHoistable E f0 u
      ((s1.units u).m_firstMergeablePreClass - (s1.units u).m_firstHoistablePreClass)
      (s1.units u).m_firstHoistablePreClass false s1 = some (.ok redo s2))
    (hroute : redo = true → (s2.units u).isMergeOnly = true ∧
      (s1.units u).m_firstMergeablePreClass ≠ (s2.units u).m_mergeablesSize)
    (fk k : Nat) (x : VM) (m : String) (t : VM)
    (hreach : Reaches E fk u
      (max (s1.units u).m_firstHoistablePreClass (s1.units u).m_firstMergeablePreClass) s2 k x)
    (hfail : specStep E fk u k x = some (.raised m t)) :
    (∃ fuel, mergeImpl E fuel u s = some (.raised m t)) ∧
    (∀ fuel r, mergeImpl E fuel u s = some r → r = .raised m t) ∧
    (∃ g, seqReplay E u g
      (max (s1.units u).m_firstHoistablePreClass (s1.units u).m_firstMergeablePreClass) s2 =
        some (.raised m t)) ∧
    (∀ g r, seqReplay E u g k x = some r → r = .raised m t) ∧
    BindingsKept s t ∧ BindingsKept s1 t ∧ BindingsKept s2 t ∧
    (∀ j y, Reaches E fk u
        (max (s1.units u).m_firstHoistablePreClass (s1.units u).m_firstMergeablePreClass)
        s2 j y →
      Reaches E fk u j y k x → BindingsKept y t) ∧
    ExactKept E s t ∧ ExactKept E s1 t ∧ ExactKept E s2 t ∧
    (∀ j y, Reaches E fk u
        (max (s1.units u).m_firstHoistablePreClass (s1.units u).m_firstMergeablePreClass)
        s2 j y →
      Reaches E fk u j y k x → ExactKept E y t) ∧
    UnitStep (s.units u) (t.units u) ∧
    (E.Respects (Sealed u) → Marked s u → t.units u = s.units u) := by
  have hRB := mergeRel_bindingsKept E hB hF
  have hRF := mergeRel_flagsKept E hK hF
  -- the bindings, stage by stage
  have hk1 : BindingsKept s s1 := by
    have := mergeImplFuncs_post E BindingsKept hRB u (s.units u).m_mergeState.uniqueFuncs
      ((s.units u).m_firstHoistablePreClass - (s.units u).m_firstHoistableFunc)
      (s.units u).m_firstHoistableFunc s (fun h => h)
    rw [hf] at this
    exact this
  have hs1 := defClassRel_chainsOK hRB.toDefClassRel hk1 hs
  have hk2 : BindingsKept s1 s2 := by
    have := mergeImplHoistable_post E BindingsKept hRB.toDefClassRel f0 u
      ((s1.units u).m_firstMergeablePreClass - (s1.units u).m_firstHoistablePreClass)
      (s1.units u).m_firstHoistablePreClass false s1 hs1
    rw [hh] at this
    exact this
  have hs2 := defClassRel_chainsOK hRB.toDefClassRel hk2 hs1
  have hlast : ∀ j y, Reaches E fk u
      (max (s1.units u).m_firstHoistablePreClass (s1.units u).m_firstMergeablePreClass)
      s2 j y → Reaches E fk u j y k x → BindingsKept y t := by
    intro j y h1 h2
    have hy := (reaches_post E BindingsKept hRB fk u h1 hs2).2
    obtain ⟨hyx, hx⟩ := reaches_post E BindingsKept hRB fk u h2 hy
    have hp := specStep_post E BindingsKept hRB fk u k x hx
    rw [hfail] at hp
    exact bindingsKept_trans hyx hp
  have hk3 : BindingsKept s2 t := hlast _ s2 (Reaches.here _ _) hreach
  -- the exact bindings, stage by stage
  have hRX := mergeRel_exactKept E hX hF
  have hx1 : ExactKept E s s1 := by
    have := mergeImplFuncs_post E (ExactKept E) hRX u (s.units u).m_mergeState.uniqueFuncs
      ((s.units u).m_firstHoistablePreClass - (s.units u).m_firstHoistableFunc)
      (s.units u).m_firstHoistableFunc s (fun h => h)
    rw [hf] at this
    exact this
  have hx2 : ExactKept E s1 s2 := by
    have := mergeImplHoistable_post E (ExactKept E) hRX.toDefClassRel f0 u
      ((s1.units u).m_firstMergeablePreClass - (s1.units u).m_firstHoistablePreClass)
      (s1.units u).m_firstHoistablePreClass false s1 hs1
    rw [hh] at this
    exact this
  have hxlast : ∀ j y, Reaches E fk u
      (max (s1.units u).m_firstHoistablePreClass (s1.units u).m_firstMergeablePreClass)
      s2 j y → Reaches E fk u j y k x → ExactKept E y t := by
    intro j y h1 h2
    have hy := (reaches_post E (ExactKept E) hRX fk u h1 hs2).2
    obtain ⟨hyx, hx⟩ := reaches_post E (ExactKept E) hRX fk u h2 hy
    have hp := specStep_post E (ExactKept E) hRX fk u k x hx
    rw [hfail] at hp
    exact exactKept_trans E hyx hp
  have hx3 : ExactKept E s2 t := hxlast _ s2 (Reaches.here _ _) hreach
  -- the replay ends with the failure of the instruction
  obtain ⟨g, _, hseq⟩ := reaches_raised E fk u hreach m t hfail
  have key := mergeImpl_to_walk E u s r1 s1 s2 f0 redo hle hf hh hroute
  have hrun : mergeImpl E (max f0 (2 * g) + 1) u s = some (.raised m t) := by
    rw [key _ (le_max_left _ _)]
    cases hnx : nextObj s2 u
        (max (s1.units u).m_firstHoistablePreClass (s1.units u).m_firstMergeablePreClass) with
    | none => exact seqReplay_nextObj_none E u g _ s2 _ hnx hseq
    | some p =>
      obtain ⟨obj, kk⟩ := p
      exact (mergeImpl_walk_fuel E (2 * g) _ (le_max_right _ _)).2.2.2.2.2.1 _ _ _ _ _ _
        (seq_to_walk E u g _ obj kk s2 _ hnx hseq)
  have hdet : ∀ fuel r, mergeImpl E fuel u s = some r → r = .raised m t := by
    intro fuel r h
    have a := (mergeImpl_walk_fuel E fuel (max fuel (max f0 (2 * g) + 1))
      (le_max_left _ _)).2.2.2.2.2.2 _ _ _ h
    have b := (mergeImpl_walk_fuel E (max f0 (2 * g) + 1) (max fuel (max f0 (2 * g) + 1))
      (le_max_right _ _)).2.2.2.2.2.2 _ _ _ hrun
    rw [a] at b
    exact Option.some.inj b
  refine ⟨⟨_, hrun⟩, hdet, ⟨g, hseq⟩, ?_, bindingsKept_trans hk1 (bindingsKept_trans hk2 hk3),
    bindingsKept_trans hk2 hk3, hk3, hlast,
    exactKept_trans E hx1 (exactKept_trans E hx2 hx3), exactKept_trans E hx2 hx3, hx3, hxlast,
    ?_, ?_⟩
  · intro g1 r h
    cases g1 with
    | zero => simp [seqReplay] at h
    | succ n =>
      rw [seqReplay_succ] at h
      generalize hst : specStep E n u k x = y at h
      rcases y with _ | o
      · cases h
      · have a := specStep_fuel E n (max n fk) (le_max_left _ _) u k x o hst
        have b := specStep_fuel E fk (max n fk) (le_max_right _ _) u k x _ hfail
        rw [a] at b
        injection b with b
        subst b
        simp only [] at h
        injection h with h
        exact h.symm
  · have hp := (mergeImpl_walk_post E FlagsKept hRF (max f0 (2 * g) + 1)).2.2.2.2.2.2 u s hs
    rw [hrun] at hp
    have hp1 : FlagsKept s t := hp
    exact hp1.2.1 u
  · intro hS hm
    have := mergeImpl_sealed E u hS hF _ u s _ hm hs hrun
    exact this.2

theorem exVMPF_chainsOK : ChainsOK exVMPF := by
  intro n
  exact ⟨List.nodup_nil, fun c hc => by cases hc⟩

theorem exVMPF3_units : exVMPF3.units = Function.update emptyVM.units 30 exUnitPF := rfl

theorem exVMPF3_clsList : exVMPF3.clsList = Function.update emptyVM.clsList "C" [exClsC] := rfl

theorem exVMPF3_soleFunc : SoleFunc exVMPF3 exFuncF1 := by
  intro v ix g hw _ ho
  unfold mergeableObj at hw
  rw [exVMPF3_units] at hw
  by_cases hv : v = 30
  · subst hv
    simp only [Function.update_same, exUnitPF] at hw
    rcases ix with _ | _ | _ | _ | _ | _ | _ | _ | n <;> simp at hw
    · subst hw; revert ho; decide
    · exact hw.symm
  · simp [Function.update_apply, hv, emptyVM, emptyUnit] at hw

theorem exVMPF3_soleClass : SoleClass exVMPF3 exClsC := by
  intro v ix d hw _
  unfold mergeableObj at hw
  rw [exVMPF3_units] at hw
  by_cases hv : v = 30
  · subst hv
    simp only [Function.update_same, exUnitPF] at hw
    rcases ix with _ | _ | _ | _ | _ | _ | _ | _ | n <;> simp at hw
  · simp [Function.update_apply, hv, emptyVM, emptyUnit] at hw

theorem exVMPF3_slotsOK : SlotsOK quietEnv exVMPF3 := by
  have hC : ∀ k, exVMPF3.clsList k ≠ [] → k = "C" := by
    intro k hk
    by_contra hne
    apply hk
    rw [exVMPF3_clsList]
    simp [Function.update_apply, hne, emptyVM]
  refine ⟨?_, ?_⟩
  · intro n c hc
    have hn := hC n (List.ne_nil_of_mem hc)
    subst hn
    rw [exVMPF3_clsList] at hc
    simp only [Function.update_same, List.mem_singleton] at hc
    subst hc
    rfl
  · intro n m hn hm _
    rw [hC n hn, hC m hm]

/-- C22 at the replay of `exUnitPF`: the function loop puts `f` into its
slot, the loop over the hoistable classes defines `C`, the define registers
`X`, and the class statement of `D` raises since `B` is unknown.  The replay
ends with that error, and `f`, `C` and `X` are in place in the state in which
it ends. -/
theorem partial_failure_witness :
    ChainsOK exVMPF ∧
    mergeImplFuncs quietEnv 30 true 1 1 exVMPF = .ok PUnit.unit exVMPF1 ∧
    mergeImplHoistable quietEnv 2 30 1 2 false exVMPF1 = some (.ok false exVMPF2) ∧
    Reaches quietEnv 2 30 3 exVMPF2 6 exVMPF3 ∧
    specStep quietEnv 2 30 6 exVMPF3 = some (.raised "unknown class B" exVMPF3) ∧
    (∃ fuel, mergeImpl quietEnv fuel 30 exVMPF = some (.raised "unknown class B" exVMPF3)) ∧
    (exVMPF1.tcFunc 103 = some exFuncF1 ∧ exVMPF3.tcFunc 103 = some exFuncF1) ∧
    (exVMPF2.tcClass 68 = some exClsC ∧ exVMPF3.tcClass 68 = some exClsC) ∧
    (exVMPF.constants "X" = none ∧ exVMPF3.constants "X" = some exValX) ∧
    BindingsKept exVMPF1 exVMPF3 ∧ SlotsOK quietEnv exVMPF3 ∧ SoleClass exVMPF3 exClsC ∧
    SoleFunc exVMPF3 exFuncF1 ∧ ExactKept quietEnv exVMPF2 exVMPF3 ∧
    UnitStep (exVMPF.units 30) (exVMPF3.units 30) := by
  have hreach : Reaches quietEnv 2 30 3 exVMPF2 6 exVMPF3 :=
    Reaches.step 3 exVMPF2 6 exVMPF3 6 exVMPF3 rfl (Reaches.here 6 exVMPF3)
  have h := partial_failure quietEnv (quietEnv_respects _ bindingsKept_refl)
    (quietEnv_respects _ (fun s => flagsKept_of_eq s s rfl rfl rfl))
    (quietEnv_respects _ (exactKept_refl quietEnv)) quietEnv_fresh 30 exVMPF
    exVMPF_chainsOK PUnit.unit exVMPF1 exVMPF2 2 false (by decide) rfl rfl
    (fun hc => by cases hc) 2 6 exVMPF3 "unknown class B" exVMPF3 hreach rfl
  obtain ⟨h1, _, _, _, _, hb1, _, hb, _, hx1, hx2, _, hu, _⟩ := h
  refine ⟨exVMPF_chainsOK, rfl, rfl, hreach, rfl, h1, ⟨rfl, ?_⟩, ⟨rfl, ?_⟩, ⟨rfl, ?_⟩, hb1,
    exVMPF3_slotsOK, exVMPF3_soleClass, exVMPF3_soleFunc, hx2, hu⟩
  · exact hx1.2.2 exFuncF1 rfl exVMPF3_soleFunc
  · exact hx2.2.1 exVMPF3_slotsOK exClsC "C" (by decide) rfl exVMPF3_soleClass
  · exact (hb 6 exVMPF3 hreach (Reaches.here 6 exVMPF3)).2.2.1 "X" exValX rfl

/-! ## The replay of a rewritten array -/

theorem twinWords_units {u w : Nat} {x y : VM} (h : y.units = x.units)
    (ht : TwinWords u w x) : TwinWords u w y := by
  intro j
  have := ht j
  unfold mergeableObj at this ⊢
  rw [h]
  exact this

/-- The function loop of `mergeImpl` does the same on a unit and on its
rewritten copy. -/
theorem mergeImplFuncs_twin (E : Env) (hE : E.Respects UnitsSame) (u w : Nat) (uf : Bool) :
    ∀ (n ix : Nat) (x : VM), TwinWords u w x →
      mergeImplFuncs E u uf n ix x = mergeImplFuncs E w uf n ix x := by
  intro n
  induction n with
  | zero => intro ix x _; rfl
  | succ n ih =>
    intro ix x ht
    simp only [mergeImplFuncs]
    rcases ht ix with ⟨h1, h2⟩ | ⟨a, b, h1, h2, hab⟩
    · rw [h1, h2]
    · rw [h1, h2]
      rcases hab with rfl | ⟨P, C, rfl, rfl, _⟩
      · cases a <;> try rfl
        rename_i func
        simp only []
        cases uf with
        | true =>
          simp only [if_true]
          exact ih _ _ (twinWords_units rfl ht)
        | false =>
          simp only [Bool.false_eq_true, if_false]
          rcases hsc : E.setCachedFunc func x with ⟨r, t⟩ | ⟨m, t⟩ | _ <;> simp only []
          exact ih _ _ (twinWords_units (hE.setCachedFunc_ok hsc).2 ht)
      · rfl

/-- One pass of the loop over the hoistable classes, and the rest of the
loop. -/
theorem mergeImplHoistable_step (E : Env) (fuel u n ix : Nat) (redo : Bool) (x : VM) :
    mergeImplHoistable E fuel u (n + 1) ix redo x =
      match mergeImplHoistable E fuel u 1 ix false x with
      | some (.ok b x1) => mergeImplHoistable E fuel u n (ix + 1) (redo || b) x1
      | other => other := by
  simp only [mergeImplHoistable]
  generalize mergeableObj x u ix = o
  rcases o with _ | a
  · rfl
  cases a with
  | preClass pre =>
    simp only []
    generalize defClass E fuel pre false x = r
    rcases r with _ | ⟨_ | c, t⟩ | ⟨m, t⟩ | _ <;> simp
  | cls c =>
    cases c with
    | none => rfl
    | some cls =>
      simp only []
      cases cls.parent with
      | none => simp
      | some par =>
        simp only []
        split <;> simp
  | func f => rfl
  | define name => rfl
  | global name => rfl
  | reqName k name => rfl
  | reqUnit k unit => rfl
  | tvData v => rfl
  | tvPad => rfl
  | done => rfl

/-- Marking cached a class that is in its slot changes nothing. -/
theorem setCached_eq_self (C : Class) (x : VM) (h : x.tcClass C.m_cachedOffset = some C) :
    C.setCached x = x := by
  unfold Class.setCached
  rw [← h, Function.update_eq_self]

/-- The scan of `defClass` passes over the classes built from other
templates without a call. -/
theorem defClassScan_skip (E : Env) (P : PreClass) (f : Bool) (parent : Option Class) (x : VM) :
    ∀ (pre rest : List Class), (∀ d ∈ pre, d.preClass ≠ P) →
      defClassScan E P f (pre ++ rest) parent x = defClassScan E P f rest parent x := by
  intro pre
  induction pre with
  | nil => intro rest _; rfl
  | cons d tl ih =>
    intro rest h
    simp only [List.cons_append, defClassScan]
    rw [if_pos (h d (List.mem_cons_self _ _))]
    exact ih rest (fun e he => h e (List.mem_cons_of_mem _ he))

/-- The slot that `lookupClass` reads for the name of a template whose class
is in the directory. -/
theorem lookupClass_firstBuilt {x : VM} {P : PreClass} {C : Class} (h : FirstBuilt x P C) :
    lookupClass x P.name = x.tcClass C.m_cachedOffset := by
  obtain ⟨_, ⟨pre, rest, hch, _⟩, hoff⟩ := h
  unfold lookupClass Class.getCached
  generalize hl : x.clsList P.name = l at hch hoff
  cases l with
  | nil =>
    exfalso
    have : (pre ++ C :: rest).length = 0 := by rw [← hch]; rfl
    simp at this
  | cons hd tl =>
    simp only []
    rw [hoff hd (List.mem_cons_self _ _)]

/-- For a template that is unique and defined, `defClass(P, true)` is the
call of `Class::avail` on the class of `P`, followed by marking it cached:
what the instruction `UniqueDefinedClass` does. -/
theorem defClass_uniqueDefined (E : Env) (fuel : Nat) (x : VM) (P : PreClass) (C : Class)
    (h : UniqueDefined E x P C) :
    defClass E (fuel + 1) P true x =
      match E.avail C none true x with
      | .ok (.AvailFail, some other) s1 => some (.raised ("unknown class " ++ other.name) s1)
      | .ok (.AvailFail, none) _ => some .fault
      | .ok (_, _) s1 => some (.ok (some C) (C.setCached s1))
      | .raised m s1 => some (.raised m s1)
      | .fault => some .fault := by
  obtain ⟨hfb, hslot, hnf, hcached⟩ := h
  have hl := lookupClass_firstBuilt hfb
  obtain ⟨hpc, ⟨pre, rest, hch, hpre⟩, _⟩ := hfb
  unfold defClass
  simp only []
  rw [hl]
  rcases hslot with hs | hs
  · rw [hs]
    simp only [defClassLoop]
    rw [hch, defClassScan_skip E P true none x pre (C :: rest) hpre]
    simp only [defClassScan]
    rw [if_neg (by simp [hpc])]
    generalize ha : E.avail C none true x = y
    rcases y with ⟨⟨a, o⟩, s1⟩ | ⟨m, s1⟩ | _
    · cases a with
      | AvailFalse => exact absurd ha (hnf o s1)
      | AvailTrue => cases o <;> rfl
      | AvailFail => cases o <;> rfl
    · rfl
    · rfl
  · rw [hs]
    simp only []
    rw [if_neg (by simp [hpc])]
    obtain ⟨o, ha⟩ := hcached hs
    rw [ha]
    cases o <;> simp only [setCached_eq_self C x hs]

/-- For a template that is unique and defined, one pass of the loop over the
hoistable classes does the same on the template and on its marked class. -/
theorem hoistable_pass_defined (E : Env) (fuel u w ix : Nat) (x : VM) (P : PreClass) (C : Class)
    (hu : mergeableObj x u ix = some (.preClass P))
    (hw : mergeableObj x w ix = some (.cls (some C)))
    (h : HoistDefined E x P C) :
    mergeImplHoistable E (fuel + 1) u 1 ix false x =
      mergeImplHoistable E (fuel + 1) w 1 ix false x := by
  obtain ⟨hfb, hslot, hcached, hempty⟩ := h
  have hl := lookupClass_firstBuilt hfb
  obtain ⟨hpc, ⟨pre, rest, hch, hpre⟩, _⟩ := hfb
  have hpm : parentMissing C x = true ↔
      ∃ par, C.parent = some par ∧ x.tcClass par.m_cachedOffset = none := by
    unfold parentMissing
    cases C.parent with
    | none => simp
    | some par => simp
  simp only [mergeImplHoistable, hu, hw]
  unfold defClass
  simp only []
  rw [hl]
  rcases hslot with hs | hs
  · rw [hs]
    simp only [defClassLoop]
    rw [hch, defClassScan_skip E P false none x pre (C :: rest) hpre]
    simp only [defClassScan]
    rw [if_neg (by simp [hpc])]
    cases hm : parentMissing C x with
    | true =>
      obtain ⟨o, ha⟩ := (hempty hs).1 hm
      obtain ⟨par, hp1, hp2⟩ := hpm.mp hm
      rw [ha, hp1]
      simp only [Bool.false_eq_true, if_false, hp2, if_true]
    | false =>
      obtain ⟨o, ha⟩ := (hempty hs).2 hm
      rw [ha]
      simp only []
      cases hp : C.parent with
      | none => rfl
      | some par =>
        simp only []
        have hne : ¬ x.tcClass par.m_cachedOffset = none := by
          intro hc
          have := hpm.mpr ⟨par, hp, hc⟩
          rw [hm] at this
          cases this
        rw [if_neg hne]
  · rw [hs]
    simp only []
    rw [if_neg (by simp [hpc])]
    have hm := hcached hs
    cases hp : C.parent with
    | none => simp only [setCached_eq_self C x hs]
    | some par =>
      simp only []
      have hne : ¬ x.tcClass par.m_cachedOffset = none := by
        intro hc
        have := hpm.mpr ⟨par, hp, hc⟩
        rw [hm] at this
        cases this
      rw [if_neg hne]
      simp only [setCached_eq_self C x hs]

/-- The loop over the hoistable classes does the same on a unit and on its
rewritten copy, when every rewritten entry that the loop gets to is the
class of a template that is unique and defined. -/
theorem mergeImplHoistable_twin (E : Env) (hE : E.Respects UnitsSame) (hF : E.Fresh)
    (fuel u w : Nat) :
    ∀ (n ix : Nat) (redo : Bool) (x : VM), TwinWords u w x → ChainsOK x →
      (∀ k y, HReaches E (fuel + 1) u ix x k y → k < ix + n → ∀ P C,
        mergeableObj y u k = some (.preClass P) → mergeableObj y w k = some (.cls (some C)) →
        HoistDefined E y P C) →
      mergeImplHoistable E (fuel + 1) u n ix redo x =
        mergeImplHoistable E (fuel + 1) w n ix redo x := by
  have hR := defClassRel_unitsSame E hE hF
  intro n
  induction n with
  | zero => intro ix redo x _ _ _; rfl
  | succ n ih =>
    intro ix redo x ht hs hc
    have hpass : mergeImplHoistable E (fuel + 1) u 1 ix false x =
        mergeImplHoistable E (fuel + 1) w 1 ix false x := by
      rcases ht ix with ⟨h1, h2⟩ | ⟨a, b, h1, h2, hab⟩
      · simp only [mergeImplHoistable, h1, h2]
      · rcases hab with rfl | ⟨P, C, rfl, rfl, _⟩
        · simp only [mergeImplHoistable, h1, h2]
        · exact hoistable_pass_defined E fuel u w ix x P C h1 h2
            (hc ix x (HReaches.here ix x) (by omega) P C h1 h2)
    rw [mergeImplHoistable_step E (fuel + 1) u, mergeImplHoistable_step E (fuel + 1) w, ← hpass]
    have hp := mergeImplHoistable_post E UnitsSame hR (fuel + 1) u 1 ix false x hs
    generalize hq : mergeImplHoistable E (fuel + 1) u 1 ix false x = o at hp
    rcases o with _ | ⟨b, x1⟩ | ⟨m, x1⟩ | _ <;> simp only []
    have hk : UnitsSame x x1 := hp
    exact ih (ix + 1) (redo || b) x1 (twinWords_units hk.2 ht) (defClassRel_chainsOK hR hk hs)
      (fun k y hr hlt => hc k y (HReaches.step ix x b x1 k y hq hr) (by omega))

/-- The second pass over the hoistable classes does the same on a unit and on
its rewritten copy. -/
theorem mergeImplRedo_twin (E : Env) (hE : E.Respects UnitsSame) (hF : E.Fresh)
    (fuel u w : Nat) :
    ∀ (n ix : Nat) (x : VM), TwinWords u w x → ChainsOK x →
      mergeImplRedo E fuel u n ix x = mergeImplRedo E fuel w n ix x := by
  have hR := defClassRel_unitsSame E hE hF
  intro n
  induction n with
  | zero => intro ix x _ _; rfl
  | succ n ih =>
    intro ix x ht hs
    have hcont : ∀ (P : PreClass),
        (match defClass E fuel P true x with
          | none => none
          | some (.ok _ s1) => mergeImplRedo E fuel u n (ix + 1) s1
          | some (.raised m s1) => some (.raised m s1)
          | some .fault => some .fault) =
        (match defClass E fuel P true x with
          | none => none
          | some (.ok _ s1) => mergeImplRedo E fuel w n (ix + 1) s1
          | some (.raised m s1) => some (.raised m s1)
          | some .fault => some .fault) := by
      intro P
      have hp := defClass_post E UnitsSame hR fuel P true x hs
      generalize defClass E fuel P true x = o at hp
      rcases o with _ | ⟨c, x1⟩ | ⟨m, x1⟩ | _ <;> simp only []
      have hk : UnitsSame x x1 := hp
      exact ih (ix + 1) x1 (twinWords_units hk.2 ht) (defClassRel_chainsOK hR hk hs)
    simp only [mergeImplRedo]
    rcases ht ix with ⟨h1, h2⟩ | ⟨a, b, h1, h2, hab⟩
    · rw [h1, h2]
    · rw [h1, h2]
      rcases hab with rfl | ⟨P, C, rfl, rfl, hpc⟩
      · cases a with
        | preClass pre => exact hcont pre
        | cls c =>
          cases c with
          | none => rfl
          | some cls => exact hcont cls.preClass
        | func f => rfl
        | define name => rfl
        | global name => rfl
        | reqName k name => rfl
        | reqUnit k unit => rfl
        | tvData v => rfl
        | tvPad => rfl
        | done => rfl
      · simp only []
        rw [hpc]
        exact hcont P

/-- A word that is not a template is its own rewritten copy. -/
theorem wordTwin_eq {a b : Mergeable} (h : WordTwin a b) (hp : ∀ P, a ≠ .preClass P) : b = a := by
  rcases h with rfl | ⟨P, C, rfl, _, _⟩
  · rfl
  · exact absurd rfl (hp P)

/-- The word that follows a define or a global is read alike in a unit and in
its rewritten copy. -/
theorem twin_value_word {u w : Nat} {x : VM} (ht : TwinWords u w x) (j : Nat)
    (f : TypedValue → Option (Outcome (Option Nat))) :
    (match mergeableObj x u j with
      | some (.tvData v) => f v
      | _ => some Outcome.fault) =
    (match mergeableObj x w j with
      | some (.tvData v) => f v
      | _ => some Outcome.fault) := by
  rcases ht j with ⟨h1, h2⟩ | ⟨a, b, h1, h2, hab⟩
  · rw [h1, h2]
  · rw [h1, h2]
    rcases hab with rfl | ⟨P, C, rfl, rfl, _⟩
    · rfl
    · rfl

/-- One instruction does the same in a unit and in its rewritten copy, when a
rewritten class statement is the class of a template that is unique and
defined; the instruction `Done` of the copy, whose bit `UniqueDefinedClasses`
is set, changes nothing when it is at the end of the array. -/
theorem specStep_twin (E : Env) (fuel u w ix : Nat) (x : VM) (ht : TwinWords u w x)
    (hbit : (x.units w).m_mergeState.uniqueDefinedClasses = true)
    (hc : ∀ P C, mergeableObj x u ix = some (.preClass P) →
      mergeableObj x w ix = some (.cls (some C)) → UniqueDefined E x P C) :
    (mergeableObj x u ix ≠ some .done →
      specStep E (fuel + 1) u ix x = specStep E (fuel + 1) w ix x) ∧
    (mergeableObj x u ix = some .done →
      specStep E (fuel + 1) w ix x =
        if ix = (x.units w).m_mergeablesSize then some (.ok none x) else some .fault) := by
  rcases ht ix with ⟨h1, h2⟩ | ⟨a, b, h1, h2, hab⟩
  · refine ⟨fun _ => ?_, fun hd => ?_⟩
    · simp only [specStep, h1, h2]
    · rw [h1] at hd; cases hd
  · rcases hab with rfl | ⟨P, C, rfl, rfl, hpc⟩
    · refine ⟨fun hnd => ?_, fun hd => ?_⟩
      · cases a with
        | done => exact absurd h1 hnd
        | define name =>
          simp only [specStep, h1, h2]
          exact twin_value_word ht (ix + 1) _
        | global name =>
          simp only [specStep, h1, h2]
          exact twin_value_word ht (ix + 1) _
        | preClass pre => simp only [specStep, h1, h2]
        | cls c => cases c <;> simp only [specStep, h1, h2]
        | func f => simp only [specStep, h1, h2]
        | reqName k name => simp only [specStep, h1, h2]
        | reqUnit k unit => simp only [specStep, h1, h2]
        | tvData v => simp only [specStep, h1, h2]
        | tvPad => simp only [specStep, h1, h2]
      · rw [h1] at hd
        injection hd with hd
        subst hd
        simp only [specStep, h2, mergeImplDone, hbit]
        split <;> simp
    · refine ⟨fun _ => ?_, fun hd => ?_⟩
      · have hud := hc P C h1 h2
        have hd := defClass_uniqueDefined E fuel x P C hud
        simp only [specStep, h1, h2]
        rw [hd]
        generalize hy : E.avail C none true x = y
        rcases y with ⟨⟨a, o⟩, s1⟩ | ⟨m, s1⟩ | _
        · cases a with
          | AvailFalse => exact absurd hy (hud.2.2.1 o s1)
          | AvailTrue => cases o <;> rfl
          | AvailFail => cases o <;> rfl
        · rfl
        · rfl
      · rw [h1] at hd; cases hd

/-- The case `Done` does not raise: it returns, after the rewrite of the
mergeables or without it, or it ends by a fault. -/
theorem mergeImplDone_cases (fuel u : Nat) (x : VM) (r : Outcome PUnit)
    (h : mergeImplDone fuel u x = some r) :
    r = .fault ∨ ∃ a t, r = .ok a t ∧ RewriteStep x t := by
  rw [mergeImplDone_eq] at h
  split at h
  · cases r with
    | ok a t => exact Or.inr ⟨a, t, rfl, (rewritePass_effect fuel u x a t h).1⟩
    | fault => exact Or.inl rfl
    | raised m t =>
      exfalso
      simp only [rewritePass] at h
      generalize rewriteHoistable u _ _ _ = q at h
      rcases q with _ | s2
      · cases h
      · simp only [] at h
        generalize rewriteStmts u _ fuel _ s2 = q2 at h
        rcases q2 with _ | _ | s3 <;> cases h
  · injection h with h
    rw [← h]
    exact Or.inr ⟨_, _, rfl, rewriteStep_refl x⟩

/-- From the unit to its rewritten copy: an end of the sequential replay of
the unit is, with one more unit of fuel, an end of the replay of the copy
that agrees with it. -/
theorem seqReplay_twin (E : Env) (u w F : Nat) :
    ∀ n, n ≤ F → ∀ ix x r,
      (∀ k y, Reaches E F u ix x k y → WalkDefined E u w k y) →
      seqReplay E u n ix x = some r →
      ∃ r1, seqReplay E w (n + 1) ix x = some r1 ∧ SameEnd r r1 := by
  intro n
  induction n with
  | zero => intro _ ix x r _ h; simp [seqReplay] at h
  | succ m ih =>
    intro hn ix x r hrun h
    rw [seqReplay_succ] at h
    have hw := hrun ix x (Reaches.here ix x)
    have st := specStep_twin E m u w ix x hw.1.2.2.2.2.2.2.2 hw.1.2.2.2.2.2.2.1 hw.2
    rw [seqReplay_succ]
    by_cases hd : mergeableObj x u ix = some .done
    · rw [st.2 hd, hw.1.2.2.2.1]
      simp only [specStep, hd] at h
      by_cases hix : ix = (x.units u).m_mergeablesSize
      · rw [if_pos hix] at h ⊢
        generalize hq : mergeImplDone m u x = q at h
        rcases q with _ | o
        · cases h
        · rcases mergeImplDone_cases m u x o hq with rfl | ⟨a, t, rfl, hrs⟩
          · simp only [] at h
            injection h with h
            rw [← h]
            exact ⟨_, rfl, True.intro⟩
          · simp only [] at h
            injection h with h
            rw [← h]
            exact ⟨_, rfl, hrs⟩
      · rw [if_neg hix] at h ⊢
        simp only [] at h
        injection h with h
        rw [← h]
        exact ⟨_, rfl, True.intro⟩
    · generalize hst : specStep E m u ix x = y at h
      rcases y with _ | o
      · cases h
      · have hst1 := specStep_fuel E m (m + 1) (by omega) u ix x o hst
        rw [← st.1 hd, hst1]
        rcases o with ⟨_ | ix1, x1⟩ | ⟨msg, x1⟩ | _ <;> simp only [] at h ⊢
        · injection h with h
          rw [← h]
          exact ⟨_, rfl, rewriteStep_refl x1⟩
        · exact ih (by omega) ix1 x1 r
            (fun k y hr => hrun k y
              (Reaches.step ix x ix1 x1 k y (specStep_fuel E m F (by omega) u ix x _ hst) hr)) h
        · injection h with h
          rw [← h]
          exact ⟨_, rfl, rfl, rfl⟩
        · injection h with h
          rw [← h]
          exact ⟨_, rfl, True.intro⟩

/-- From the rewritten copy to the unit: an error that ends the sequential
replay of the copy ends, with one more unit of fuel, the replay of the unit,
in the same state. -/
theorem seqReplay_twin_raised (E : Env) (u w F : Nat) :
    ∀ n, n + 1 ≤ F → ∀ ix x msg t,
      (∀ k y, Reaches E F u ix x k y → WalkDefined E u w k y) →
      seqReplay E w n ix x = some (.raised msg t) →
      seqReplay E u (n + 1) ix x = some (.raised msg t) := by
  intro n
  induction n with
  | zero => intro _ ix x msg t _ h; simp [seqReplay] at h
  | succ m ih =>
    intro hn ix x msg t hrun h
    rw [seqReplay_succ] at h
    have hw := hrun ix x (Reaches.here ix x)
    have st := specStep_twin E m u w ix x hw.1.2.2.2.2.2.2.2 hw.1.2.2.2.2.2.2.1 hw.2
    rw [seqReplay_succ]
    generalize hst : specStep E m w ix x = y at h
    rcases y with _ | o
    · cases h
    have hst1 := specStep_fuel E m (m + 1) (by omega) w ix x o hst
    by_cases hd : mergeableObj x u ix = some .done
    · rw [st.2 hd] at hst1
      split at hst1 <;>
        (injection hst1 with hst1
         rw [← hst1] at h
         cases h)
    · rw [st.1 hd, hst1]
      rcases o with ⟨_ | ix1, x1⟩ | ⟨msg1, x1⟩ | _ <;> simp only [] at h ⊢
      · cases h
      · refine ih (by omega) ix1 x1 msg t (fun k y hr => hrun k y
          (Reaches.step ix x ix1 x1 k y ?_ hr)) h
        have := specStep_fuel E (m + 1) F (by omega) u ix x (.ok (some ix1) x1)
          (by rw [st.1 hd, hst1])
        exact this
      · exact h
      · cases h

/-- The replay of a unit after the two loops at its head: the early return,
the second pass over the hoistable classes, or the walk of the remaining
instructions. -/
theorem mergeImpl_routes (E : Env) (v : Nat) (s : VM) (r1 : PUnit) (s1 s2 : VM) (f0 : Nat)
    (redo : Bool)
    (hle : (s.units v).m_firstHoistableFunc ≤ (s.units v).m_firstHoistablePreClass)
    (hf : mergeImplFuncs E v (s.units v).m_mergeState.uniqueFuncs
      ((s.units v).m_firstHoistablePreClass - (s.units v).m_firstHoistableFunc)
      (s.units v).m_firstHoistableFunc s = .ok r1 s1)
    (hh : mergeImplHoistable E f0 v
      ((s1.units v).m_firstMergeablePreClass - (s1.units v).m_firstHoistablePreClass)
      (s1.units v).m_firstHoistablePreClass false s1 = some (.ok redo s2)) :
    ∀ F, f0 ≤ F → mergeImpl E (F + 1) v s =
      if redo = true ∧ (s2.units v).isMergeOnly = false then some (.ok PUnit.unit s2)
      else if redo = true ∧
          (s1.units v).m_firstMergeablePreClass = (s2.units v).m_mergeablesSize then
        mergeImplRedo E F v
          (max 1 ((s1.units v).m_firstMergeablePreClass - (s2.units v).m_firstHoistablePreClass))
          (s2.units v).m_firstHoistablePreClass s2
      else
        match nextObj s2 v
          (max (s1.units v).m_firstHoistablePreClass (s1.units v).m_firstMergeablePreClass) with
        | none => some .fault
        | some (obj, k) => mergeImplSwitch E v F
          (max (s1.units v).m_firstHoistablePreClass (s1.units v).m_firstMergeablePreClass)
          obj k s2 := by
  intro F hF
  simp only [mergeImpl]
  rw [if_neg (by omega), hf]
  simp only []
  by_cases hlt : (s1.units v).m_firstHoistablePreClass < (s1.units v).m_firstMergeablePreClass
  · rw [if_pos hlt, mergeImplHoistable_fuel E f0 F hF v _ _ _ _ _ hh]
    simp only []
    rw [max_eq_right (show (s1.units v).m_firstHoistablePreClass ≤
      (s1.units v).m_firstMergeablePreClass by omega)]
  · rw [if_neg hlt]
    rw [Nat.sub_eq_zero_of_le (by omega)] at hh
    simp only [mergeImplHoistable, Option.some.injEq, Outcome.ok.injEq] at hh
    obtain ⟨hr, hh⟩ := hh
    subst hh
    subst hr
    rw [max_eq_left (show (s1.units v).m_firstMergeablePreClass ≤
      (s1.units v).m_firstHoistablePreClass by omega)]
    simp

theorem sameEnd_refl (r : Outcome PUnit) : SameEnd r r := by
  cases r with
  | ok a t => exact rewriteStep_refl t
  | raised m t => exact ⟨rfl, rfl⟩
  | fault => exact True.intro

/-- A unit and its rewritten copy have an instruction at the same indices. -/
theorem nextObj_twin_none {u w : Nat} {x : VM} (ht : TwinWords u w x) (ix : Nat) :
    nextObj x u ix = none ↔ nextObj x w ix = none := by
  unfold nextObj
  rcases ht ix with ⟨h1, h2⟩ | ⟨a, b, h1, h2, hab⟩
  · rw [h1, h2]
  · rw [h1, h2]
    rcases hab with rfl | ⟨P, C, rfl, rfl, _⟩
    · rfl
    · simp [kindOf]

theorem hreaches_le (E : Env) (fuel u : Nat) {ix : Nat} {x : VM} {k : Nat} {y : VM}
    (h : HReaches E fuel u ix x k y) : ix ≤ k := by
  induction h with
  | here ix x => exact Nat.le_refl _
  | step ix x b x1 k y _ _ ih => omega

/-- C21. The rewrite is a pure optimisation.  Let the unit `w` be a copy of
the unit `u` in which some class entries are rewritten (hoistable entries
marked, class statements turned into `UniqueDefinedClass`), and let the
function loop and the loop over the hoistable classes of the replay of `u`
return.  Let the classes of the rewritten entries be unique and defined where
the replay gets to them (`HoistDefined` for a hoistable entry,
`UniqueDefined` for a class statement), and let the two arrays stay copies of
each other along the walk.  Then from the same state the two loops do the
same on `w`; every end of the replay of `u` is matched by an end of the
replay of `w`: both return, in states that differ in the mergeables of the
units at most, or both raise the same error in the same state; and every
error of the replay of `w` is an error of the replay of `u`, in the same
state.  The collaborators are taken to leave the units alone, and
`Class::avail`, which is not in `unit.cpp`, is constrained by the two
conditions only. -/
theorem rewrite_refinement (E : Env) (hE : E.Respects UnitsSame) (hF : E.Fresh) (u w : Nat)
    (s : VM) (hs : ChainsOK s) (htw : Twin u w s) (r1 : PUnit) (s1 s2 : VM) (f0 : Nat)
    (redo : Bool)
    (hle : (s.units u).m_firstHoistableFunc ≤ (s.units u).m_firstHoistablePreClass)
    (hf : mergeImplFuncs E u (s.units u).m_mergeState.uniqueFuncs
      ((s.units u).m_firstHoistablePreClass - (s.units u).m_firstHoistableFunc)
      (s.units u).m_firstHoistableFunc s = .ok r1 s1)
    (hh : mergeImplHoistable E (f0 + 1) u
      ((s1.units u).m_firstMergeablePreClass - (s1.units u).m_firstHoistablePreClass)
      (s1.units u).m_firstHoistablePreClass false s1 = some (.ok redo s2))
    (hpre : ∀ k y, HReaches E (f0 + 1) u (s1.units u).m_firstHoistablePreClass s1 k y →
      k < (s1.units u).m_firstMergeablePreClass → ∀ P C,
      mergeableObj y u k = some (.preClass P) → mergeableObj y w k = some (.cls (some C)) →
      HoistDefined E y P C)
    (hwalk : ∀ F k y, Reaches E F u
      (max (s1.units u).m_firstHoistablePreClass (s1.units u).m_firstMergeablePreClass)
      s2 k y → WalkDefined E u w k y) :
    (mergeImplFuncs E w (s.units w).m_mergeState.uniqueFuncs
        ((s.units w).m_firstHoistablePreClass - (s.units w).m_firstHoistableFunc)
        (s.units w).m_firstHoistableFunc s = .ok r1 s1 ∧
      mergeImplHoistable E (f0 + 1) w
        ((s1.units w).m_firstMergeablePreClass - (s1.units w).m_firstHoistablePreClass)
        (s1.units w).m_firstHoistablePreClass false s1 = some (.ok redo s2)) ∧
    (∀ fuel r, mergeImpl E fuel u s = some r →
      ∃ fuel1 r2, mergeImpl E fuel1 w s = some r2 ∧ SameEnd r r2) ∧
    (∀ fuel m t, mergeImpl E fuel w s = some (.raised m t) →
      ∃ fuel1, mergeImpl E fuel1 u s = some (.raised m t)) := by
  have hR := defClassRel_unitsSame E hE hF
  obtain ⟨e1, e2, e3, e4, e5, e6, _, htws⟩ := htw
  have hk1 : UnitsSame s s1 := by
    have := mergeImplFuncs_unitsSame E hE u (s.units u).m_mergeState.uniqueFuncs
      ((s.units u).m_firstHoistablePreClass - (s.units u).m_firstHoistableFunc)
      (s.units u).m_firstHoistableFunc s
    rw [hf] at this
    exact this
  have hs1 := defClassRel_chainsOK hR hk1 hs
  have hk2 : UnitsSame s1 s2 := by
    have := mergeImplHoistable_post E UnitsSame hR (f0 + 1) u
      ((s1.units u).m_firstMergeablePreClass - (s1.units u).m_firstHoistablePreClass)
      (s1.units u).m_firstHoistablePreClass false s1 hs1
    rw [hh] at this
    exact this
  have hs2 := defClassRel_chainsOK hR hk2 hs1
  have htw1 : TwinWords u w s1 := twinWords_units hk1.2 htws
  have htw2 : TwinWords u w s2 := twinWords_units hk2.2 htw1
  have l1fhp : (s1.units w).m_firstHoistablePreClass = (s1.units u).m_firstHoistablePreClass := by
    rw [hk1.2]; exact e2
  have l1fmp : (s1.units w).m_firstMergeablePreClass = (s1.units u).m_firstMergeablePreClass := by
    rw [hk1.2]; exact e3
  have l2fhp : (s2.units w).m_firstHoistablePreClass = (s2.units u).m_firstHoistablePreClass := by
    rw [hk2.2, hk1.2]; exact e2
  have l2size : (s2.units w).m_mergeablesSize = (s2.units u).m_mergeablesSize := by
    rw [hk2.2, hk1.2]; exact e4
  have l2mo : (s2.units w).isMergeOnly = (s2.units u).isMergeOnly := by
    unfold Unit.isMergeOnly
    rw [hk2.2, hk1.2, e5]
  have hfw : mergeImplFuncs E w (s.units w).m_mergeState.uniqueFuncs
      ((s.units w).m_firstHoistablePreClass - (s.units w).m_firstHoistableFunc)
      (s.units w).m_firstHoistableFunc s = .ok r1 s1 := by
    rw [e1, e2, e6, ← mergeImplFuncs_twin E hE u w _ _ _ s htws]
    exact hf
  have hhw : mergeImplHoistable E (f0 + 1) w
      ((s1.units w).m_firstMergeablePreClass - (s1.units w).m_firstHoistablePreClass)
      (s1.units w).m_firstHoistablePreClass false s1 = some (.ok redo s2) := by
    rw [l1fmp, l1fhp, ← mergeImplHoistable_twin E hE hF f0 u w _ _ false s1 htw1 hs1]
    · exact hh
    · intro k y hr hlt P C h1 h2
      have := hreaches_le E (f0 + 1) u hr
      exact hpre k y hr (by omega) P C h1 h2
  have routes_u := mergeImpl_routes E u s r1 s1 s2 (f0 + 1) redo hle hf hh
  have routes_w : ∀ F, f0 + 1 ≤ F → mergeImpl E (F + 1) w s =
      if redo = true ∧ (s2.units u).isMergeOnly = false then some (.ok PUnit.unit s2)
      else if redo = true ∧
          (s1.units u).m_firstMergeablePreClass = (s2.units u).m_mergeablesSize then
        mergeImplRedo E F w
          (max 1 ((s1.units u).m_firstMergeablePreClass - (s2.units u).m_firstHoistablePreClass))
          (s2.units u).m_firstHoistablePreClass s2
      else
        match nextObj s2 w
          (max (s1.units u).m_firstHoistablePreClass (s1.units u).m_firstMergeablePreClass) with
        | none => some .fault
        | some (obj, k) => mergeImplSwitch E w F
          (max (s1.units u).m_firstHoistablePreClass (s1.units u).m_firstMergeablePreClass)
          obj k s2 := by
    intro F hFle
    rw [mergeImpl_routes E w s r1 s1 s2 (f0 + 1) redo (by rw [e1, e2]; exact hle) hfw hhw F hFle,
      l1fmp, l1fhp, l2fhp, l2size, l2mo]
  refine ⟨⟨hfw, hhw⟩, ?_, ?_⟩
  · intro fuel r h
    have hbig : mergeImpl E (max fuel (f0 + 1) + 1) u s = some r :=
      (mergeImpl_walk_fuel E fuel _ (by omega)).2.2.2.2.2.2 _ _ _ h
    rw [routes_u _ (le_max_right _ _)] at hbig
    by_cases c1 : redo = true ∧ (s2.units u).isMergeOnly = false
    · rw [if_pos c1] at hbig
      refine ⟨max fuel (f0 + 1) + 1, r, ?_, sameEnd_refl r⟩
      rw [routes_w _ (le_max_right _ _), if_pos c1]
      exact hbig
    · rw [if_neg c1] at hbig
      by_cases c2 : redo = true ∧
          (s1.units u).m_firstMergeablePreClass = (s2.units u).m_mergeablesSize
      · rw [if_pos c2] at hbig
        refine ⟨max fuel (f0 + 1) + 1, r, ?_, sameEnd_refl r⟩
        rw [routes_w _ (le_max_right _ _), if_neg c1, if_pos c2,
          ← mergeImplRedo_twin E hE hF _ u w _ _ s2 htw2 hs2]
        exact hbig
      · rw [if_neg c2] at hbig
        cases hnx : nextObj s2 u
            (max (s1.units u).m_firstHoistablePreClass (s1.units u).m_firstMergeablePreClass) with
        | none =>
          rw [hnx] at hbig
          injection hbig with hbig
          refine ⟨max fuel (f0 + 1) + 1, .fault, ?_, by rw [← hbig]; exact True.intro⟩
          rw [routes_w _ (le_max_right _ _), if_neg c1, if_neg c2,
            (nextObj_twin_none htw2 _).mp hnx]
        | some p =>
          obtain ⟨obj, k⟩ := p
          rw [hnx] at hbig
          have hseq := (walk_to_seq E (max fuel (f0 + 1))).2.2.2.2.2 _ _ _ _ _ _ hnx hbig
          obtain ⟨r2, hr2, hsame⟩ := seqReplay_twin E u w (max fuel (f0 + 1) + 1)
            (max fuel (f0 + 1) + 1) (Nat.le_refl _) _ s2 r (hwalk _) hseq
          cases hnw : nextObj s2 w
              (max (s1.units u).m_firstHoistablePreClass
                (s1.units u).m_firstMergeablePreClass) with
          | none =>
            rw [(nextObj_twin_none htw2 _).mpr hnw] at hnx
            cases hnx
          | some p2 =>
            obtain ⟨obj2, k2⟩ := p2
            have hsw := seq_to_walk E w _ _ obj2 k2 s2 r2 hnw hr2
            refine ⟨2 * (max fuel (f0 + 1) + 1 + 1) + 1, r2, ?_, hsame⟩
            rw [routes_w _ (by omega), if_neg c1, if_neg c2, hnw]
            exact hsw
  · intro fuel m t h
    have hbig : mergeImpl E (max fuel (f0 + 1) + 1) w s = some (.raised m t) :=
      (mergeImpl_walk_fuel E fuel _ (by omega)).2.2.2.2.2.2 _ _ _ h
    rw [routes_w _ (le_max_right _ _)] at hbig
    by_cases c1 : redo = true ∧ (s2.units u).isMergeOnly = false
    · rw [if_pos c1] at hbig
      cases hbig
    · rw [if_neg c1] at hbig
      by_cases c2 : redo = true ∧
          (s1.units u).m_firstMergeablePreClass = (s2.units u).m_mergeablesSize
      · rw [if_pos c2] at hbig
        refine ⟨max fuel (f0 + 1) + 1, ?_⟩
        rw [routes_u _ (le_max_right _ _), if_neg c1, if_pos c2,
          mergeImplRedo_twin E hE hF _ u w _ _ s2 htw2 hs2]
        exact hbig
      · rw [if_neg c2] at hbig
        cases hnw : nextObj s2 w
            (max (s1.units u).m_firstHoistablePreClass (s1.units u).m_firstMergeablePreClass) with
        | none =>
          rw [hnw] at hbig
          cases hbig
        | some p2 =>
          obtain ⟨obj2, k2⟩ := p2
          rw [hnw] at hbig
          have hseq := (walk_to_seq E (max fuel (f0 + 1))).2.2.2.2.2 _ _ _ _ _ _ hnw hbig
          have hu := seqReplay_twin_raised E u w (max fuel (f0 + 1) + 1 + 1)
            (max fuel (f0 + 1) + 1) (Nat.le_refl _) _ s2 m t (hwalk _) hseq
          cases hnx : nextObj s2 u
              (max (s1.units u).m_firstHoistablePreClass
                (s1.units u).m_firstMergeablePreClass) with
          | none =>
            have := seqReplay_nextObj_none E u _ _ s2 _ hnx hu
            cases this
          | some p =>
            obtain ⟨obj, k⟩ := p
            have hsw := seq_to_walk E u _ _ obj k s2 _ hnx hu
            refine ⟨2 * (max fuel (f0 + 1) + 1 + 1) + 1, ?_⟩
            rw [routes_u _ (by omega), if_neg c1, if_neg c2, hnx]
            exact hsw

/-- The instruction `Done` has no next instruction. -/
theorem specStep_done_next (E : Env) (fuel u ix : Nat) (x : VM)
    (hd : mergeableObj x u ix = some .done) (ix1 : Nat) (x1 : VM) :
    specStep E fuel u ix x ≠ some (.ok (some ix1) x1) := by
  simp only [specStep, hd]
  split
  · generalize mergeImplDone fuel u x = q
    rcases q with _ | ⟨a, t⟩ | ⟨m, t⟩ | _ <;> simp
  · simp

theorem exVMTwin_chainsOK : ChainsOK exVMTwin := by
  intro n
  simp only [exVMTwin, exVMC, Class.setCached, emptyVM, Function.update_apply]
  split
  · decide
  · exact ⟨List.nodup_nil, fun c hc => by cases hc⟩

theorem exVMTwin_twin : Twin 23 24 exVMTwin := by
  refine ⟨rfl, rfl, rfl, rfl, rfl, rfl, rfl, ?_⟩
  intro j
  match j with
  | 0 => exact Or.inr ⟨_, _, rfl, rfl, Or.inl rfl⟩
  | 1 => exact Or.inr ⟨_, _, rfl, rfl, Or.inr ⟨exPreC, exClsC, rfl, rfl, rfl⟩⟩
  | 2 => exact Or.inr ⟨_, _, rfl, rfl, Or.inl rfl⟩
  | n + 3 => exact Or.inl ⟨rfl, rfl⟩

theorem exVMTwin_uniqueDefined : UniqueDefined quietEnv exVMTwin exPreC exClsC := by
  refine ⟨⟨rfl, ⟨[], [], rfl, fun d hd => by cases hd⟩, ?_⟩, Or.inr rfl, ?_, fun _ => ⟨none, rfl⟩⟩
  · intro d hd
    have : exVMTwin.clsList exPreC.name = [exClsC] := rfl
    rw [this, List.mem_singleton] at hd
    rw [hd]
  · intro o x1 h
    cases h

/-- In the example the walk gets to the class statement and to `Done`, in
the state in which it started. -/
theorem exVMTwin_walk (F k : Nat) (y : VM) (h : Reaches quietEnv F 23 1 exVMTwin k y) :
    WalkDefined quietEnv 23 24 k y := by
  cases h with
  | here =>
    refine ⟨exVMTwin_twin, ?_⟩
    intro P C h1 h2
    have e1 : mergeableObj exVMTwin 23 1 = some (.preClass exPreC) := rfl
    have e2 : mergeableObj exVMTwin 24 1 = some (.cls (some exClsC)) := rfl
    rw [e1] at h1
    rw [e2] at h2
    injection h1 with h1
    injection h1 with h1
    injection h2 with h2
    injection h2 with h2
    injection h2 with h2
    subst h1 h2
    exact exVMTwin_uniqueDefined
  | step _ _ ix1 x1 _ _ hst hr =>
    have e : specStep quietEnv F 23 1 exVMTwin = some (.ok (some 2) exVMTwin) := rfl
    rw [e] at hst
    injection hst with hst
    injection hst with h1 h2
    injection h1 with h1
    subst h1 h2
    cases hr with
    | here =>
      refine ⟨exVMTwin_twin, ?_⟩
      intro P C h1 _
      have e1 : mergeableObj exVMTwin 23 2 = some .done := rfl
      rw [e1] at h1
      cases h1
    | step _ _ ix2 x2 _ _ hst2 _ =>
      exact absurd hst2 (specStep_done_next quietEnv F 23 2 exVMTwin rfl ix2 x2)

/-- C21 at the example: the replay of the unit at 23 returns, and the replay
of its rewritten copy at 24 returns in a state that differs from it in the
mergeables of the units at most. -/
theorem rewrite_refinement_witness :
    ChainsOK exVMTwin ∧ Twin 23 24 exVMTwin ∧
    ∃ t, mergeImpl quietEnv 6 23 exVMTwin = some (.ok PUnit.unit t) ∧
      ∃ fuel1 r2, mergeImpl quietEnv fuel1 24 exVMTwin = some r2 ∧
        SameEnd (.ok PUnit.unit t) r2 :=
  ⟨exVMTwin_chainsOK, exVMTwin_twin, _, rfl,
    (rewrite_refinement quietEnv (quietEnv_respects _ (fun s => unitsSame_of_eq s s rfl rfl))
      quietEnv_fresh 23 24 exVMTwin exVMTwin_chainsOK exVMTwin_twin PUnit.unit exVMTwin exVMTwin
      0 false (by decide) rfl rfl
      (fun k y hr hlt => by
        have h1 := hreaches_le quietEnv (0 + 1) 23 hr
        have h2 : (exVMTwin.units 23).m_firstHoistablePreClass = 1 := rfl
        have h3 : (exVMTwin.units 23).m_firstMergeablePreClass = 1 := rfl
        omega)
      (fun F k y hr => exVMTwin_walk F k y hr)).2.1 6 _ rfl⟩

/-! ## The line table -/

/-- The bisection of `std::upper_bound` finds the point at which a
partitioned table changes from the entries that the key is not below to the
entries that the key is below. -/
theorem upperBoundLoop_partitioned (l1 l2 : List LineEntry) (key : LineEntry)
    (h1 : ∀ e ∈ l1, key.lt e = false) (h2 : ∀ e ∈ l2, key.lt e = true) :
    ∀ (fuel first len : Nat), len ≤ fuel → first ≤ l1.length → l1.length ≤ first + len →
      first + len ≤ (l1 ++ l2).length →
      upperBoundLoop (l1 ++ l2) key fuel first len = l1.length := by
  intro fuel
  induction fuel with
  | zero =>
    intro first len hl hf hk _
    simp only [upperBoundLoop]
    omega
  | succ fuel ih =>
    intro first len hl hf hk hn
    simp only [upperBoundLoop]
    by_cases h0 : len = 0
    · rw [if_pos h0]; omega
    · rw [if_neg h0]
      have hhalf : len / 2 < len := Nat.div_lt_self (by omega) (by decide)
      have hm : first + len / 2 < (l1 ++ l2).length := by omega
      rw [List.getElem?_eq_getElem hm]
      simp only []
      by_cases hlt : key.lt ((l1 ++ l2)[first + len / 2]) = true
      · rw [if_pos hlt]
        have hge : l1.length ≤ first + len / 2 := by
          by_contra hc
          have hc1 : first + len / 2 < l1.length := by omega
          have := h1 ((l1 ++ l2)[first + len / 2]) (by
            rw [List.getElem_append_left hc1]; exact List.getElem_mem _)
          rw [this] at hlt
          cases hlt
        exact ih first (len / 2) (by omega) hf hge (by omega)
      · rw [if_neg hlt]
        have hlt1 : first + len / 2 < l1.length := by
          by_contra hc
          have hc1 : l1.length ≤ first + len / 2 := by omega
          apply hlt
          apply h2
          rw [List.getElem_append_right hc1]
          exact List.getElem_mem _
        exact ih (first + len / 2 + 1) (len - len / 2 - 1) (by omega) (by omega) (by omega)
          (by omega)

/-- On a partitioned table `getLineNumber` answers the value of the first
entry of the second part. -/
theorem getLineNumber_partitioned (l1 l2 : List LineEntry) (pc : Int)
    (h1 : ∀ e ∈ l1, ¬ pc < e.pastOffset) (h2 : ∀ e ∈ l2, pc < e.pastOffset) :
    upper_bound (l1 ++ l2) ⟨pc, -1⟩ = l1.length ∧
    getLineNumber (l1 ++ l2) pc = (match l2.head? with | some e => e.val | none => -1) ∧
    lineOfFirstPast (l1 ++ l2) pc = (match l2.head? with | some e => e.val | none => -1) := by
  have hub : upper_bound (l1 ++ l2) ⟨pc, -1⟩ = l1.length := by
    apply upperBoundLoop_partitioned l1 l2 ⟨pc, -1⟩ _ _ _ 0 _ (le_refl _) (Nat.zero_le _)
    · simp
    · simp
    · intro e he
      simp only [LineEntry.lt, decide_eq_false_iff_not]
      exact h1 e he
    · intro e he
      simp only [LineEntry.lt, decide_eq_true_eq]
      exact h2 e he
  refine ⟨hub, ?_, ?_⟩
  · simp only [getLineNumber]
    rw [hub, List.getElem?_append_right (le_refl _), Nat.sub_self]
    cases l2 <;> simp
  · simp only [lineOfFirstPast]
    have hf : (l1 ++ l2).find? (fun e => decide (pc < e.pastOffset)) = l2.head? := by
      rw [List.find?_append]
      have : l1.find? (fun e => decide (pc < e.pastOffset)) = none := by
        rw [List.find?_eq_none]
        intro e he
        simpa using h1 e he
      rw [this]
      cases l2 with
      | nil => rfl
      | cons a t =>
        simp only [Option.none_or, List.head?_cons]
        rw [List.find?_cons_of_pos]
        simpa using h2 a (List.mem_cons_self _ _)
    rw [hf]

/-- A past offset of the line table is `bclen` or the start offset of a
source location after the first. -/
theorem createLineTable_past (bclen : Int) :
    ∀ (srcLoc : List (Int × SourceLoc)) (e : LineEntry), e ∈ createLineTable srcLoc bclen →
      e.pastOffset = bclen ∨ e.pastOffset ∈ srcLoc.tail.map Prod.fst := by
  intro srcLoc
  induction srcLoc with
  | nil => intro e he; simp [createLineTable] at he
  | cons a rest ih =>
    intro e he
    cases rest with
    | nil =>
      obtain ⟨a1, a2⟩ := a
      simp only [createLineTable, List.mem_singleton] at he
      left; rw [he]
    | cons b rest =>
      obtain ⟨a1, a2⟩ := a
      simp only [createLineTable, List.mem_cons] at he
      rcases he with he | he
      · right; rw [he]; simp
      · rcases ih e he with h | h
        · left; exact h
        · right
          simp only [List.tail_cons, List.map_cons, List.mem_cons] at h ⊢
          right; exact h

/-- In a table of strictly increasing start offsets every later start is
above the first. -/
theorem starts_above_head (a : Int × SourceLoc) (rest : List (Int × SourceLoc))
    (h : ((a :: rest).map Prod.fst).Chain' (fun x y => x < y)) :
    ∀ e ∈ rest, a.1 < e.1 := by
  have hp : ((a :: rest).map Prod.fst).Pairwise (fun x y => x < y) :=
    List.chain'_iff_pairwise.mp h
  simp only [List.map_cons, List.pairwise_cons, List.mem_map] at hp
  intro e he
  exact hp.1 e.1 ⟨e, he, rfl⟩

/-- The line table is partitioned for every `pc` below `bclen`, and the
first entry past `pc` carries the line of the last source location that starts
at or before `pc`. -/
theorem createLineTable_inside (bclen pc : Int) (hpc : pc < bclen) :
    ∀ (srcLoc : List (Int × SourceLoc)),
      (srcLoc.map Prod.fst).Chain' (fun x y => x < y) →
      (∀ e, srcLoc.head? = some e → e.1 ≤ pc) →
      ∃ l1 l2, createLineTable srcLoc bclen = l1 ++ l2 ∧
        (∀ e ∈ l1, ¬ pc < e.pastOffset) ∧ (∀ e ∈ l2, pc < e.pastOffset) ∧
        (match l2.head? with | some e => e.val | none => -1) = lineOfGreatestStart srcLoc pc := by
  intro srcLoc
  induction srcLoc with
  | nil => intro _ _; exact ⟨[], [], rfl, by simp, by simp, rfl⟩
  | cons a rest ih =>
    intro hch hhd
    have ha : a.1 ≤ pc := hhd a rfl
    have habove := starts_above_head a rest hch
    cases rest with
    | nil =>
      obtain ⟨a1, a2⟩ := a
      refine ⟨[], [⟨bclen, a2.line1⟩], rfl, by simp, by simpa using hpc, ?_⟩
      simp only [lineOfGreatestStart, List.filter, List.head?_cons]
      have : decide (a1 ≤ pc) = true := by simpa using ha
      rw [this]
      rfl
    | cons b rest =>
      obtain ⟨a1, a2⟩ := a
      have hch1 : (((b :: rest)).map Prod.fst).Chain' (fun x y => x < y) := by
        simp only [List.map_cons] at hch ⊢
        exact (List.chain'_cons.mp hch).2
      by_cases hb : b.1 ≤ pc
      · obtain ⟨l1, l2, e1, p1, p2, p3⟩ := ih hch1 (by
          intro e he; simp only [List.head?_cons, Option.some.injEq] at he; rw [← he]; exact hb)
        refine ⟨⟨b.1, a2.line1⟩ :: l1, l2, ?_, ?_, p2, ?_⟩
        · simp only [createLineTable, List.cons_append, e1]
        · intro e he
          simp only [List.mem_cons] at he
          rcases he with he | he
          · rw [he]; simpa using hb
          · exact p1 e he
        · rw [p3]
          simp only [lineOfGreatestStart]
          have ha1 : a1 ≤ pc := ha
          have hfb : List.filter (fun e : Int × SourceLoc => decide (e.1 ≤ pc)) (b :: rest)
              = b :: List.filter (fun e => decide (e.1 ≤ pc)) rest := by
            simp [List.filter_cons, hb]
          have hfa : List.filter (fun e : Int × SourceLoc => decide (e.1 ≤ pc))
              ((a1, a2) :: b :: rest)
              = (a1, a2) :: List.filter (fun e => decide (e.1 ≤ pc)) (b :: rest) := by
            simp [List.filter_cons, ha1]
          rw [hfa, hfb, List.getLast?_cons_cons]
      · have hb1 : pc < b.1 := by omega
        refine ⟨[], createLineTable ((a1, a2) :: b :: rest) bclen, rfl, by simp, ?_, ?_⟩
        · intro e he
          rcases createLineTable_past bclen _ e he with h | h
          · rw [h]; exact hpc
          · simp only [List.tail_cons, List.map_cons, List.mem_cons, List.mem_map] at h
            rcases h with h | ⟨x, hx, h⟩
            · rw [h]; exact hb1
            · have := starts_above_head b rest hch1 x hx
              rw [← h]; omega
        · simp only [createLineTable, List.head?_cons, lineOfGreatestStart]
          have hnone : List.filter (fun e : Int × SourceLoc => decide (e.1 ≤ pc)) (b :: rest) = [] := by
            rw [List.filter_eq_nil_iff]
            intro e he
            simp only [List.mem_cons] at he
            rcases he with he | he
            · rw [he]; simpa using hb1
            · have := starts_above_head b rest hch1 e he
              simp only [decide_eq_true_eq, not_le]
              omega
          have ha1 : a1 ≤ pc := ha
          have hfa : List.filter (fun e : Int × SourceLoc => decide (e.1 ≤ pc))
              ((a1, a2) :: b :: rest)
              = (a1, a2) :: List.filter (fun e => decide (e.1 ≤ pc)) (b :: rest) := by
            simp [List.filter_cons, ha1]
          rw [hfa, hnone]
          rfl

/-- Past the end of the bytecode and of every start offset the line table
has no entry above `pc`. -/
theorem createLineTable_outside (bclen pc : Int) (hpc : bclen ≤ pc)
    (srcLoc : List (Int × SourceLoc)) (hs : ∀ e ∈ srcLoc, e.1 ≤ pc) :
    ∀ e ∈ createLineTable srcLoc bclen, ¬ pc < e.pastOffset := by
  intro e he
  rcases createLineTable_past bclen srcLoc e he with h | h
  · rw [h]; omega
  · simp only [List.mem_map] at h
    obtain ⟨x, hx, h⟩ := h
    have := hs x (List.mem_of_mem_tail hx)
    rw [← h]; omega

/-- `recordSourceLocation` keeps the start offsets strictly increasing from
0. -/
theorem recordSourceLocation_starts (tab : List (Int × SourceLoc)) (sLoc : SourceLoc)
    (start : Int) (tab1 : List (Int × SourceLoc))
    (h : recordSourceLocation tab sLoc start = some tab1) (hok : StartsOK tab) :
    StartsOK tab1 := by
  simp only [recordSourceLocation] at h
  cases hl : tab.getLast? with
  | none =>
    rw [hl] at h
    simp only [] at h
    split at h
    · next h0 =>
      injection h with h
      subst h
      refine ⟨by simp, ?_⟩
      intro e he
      simp only [List.head?_cons, Option.some.injEq] at he
      rw [← he]; exact h0
    · cases h
  | some back =>
    rw [hl] at h
    simp only [] at h
    split at h
    · split at h
      · injection h with h; subst h; exact hok
      · cases h
    · split at h
      · next hlt =>
        injection h with h
        subst h
        have hne : tab ≠ [] := by
          intro hc; rw [hc] at hl; cases hl
        obtain ⟨init, hinit⟩ : ∃ init, tab = init ++ [back] := by
          refine ⟨tab.dropLast, ?_⟩
          have := List.dropLast_append_getLast? back (by rw [hl]; rfl)
          exact this.symm
        refine ⟨?_, ?_⟩
        · rw [List.map_append, List.map_cons, List.map_nil]
          apply List.Chain'.append hok.1 (List.chain'_singleton _)
          intro x hx y hy
          simp only [List.head?_cons, Option.mem_def, Option.some.injEq] at hy
          rw [hinit, List.map_append, List.map_cons, List.map_nil,
            List.getLast?_append_of_ne_nil _ (by simp)] at hx
          simp only [List.getLast?_singleton, Option.mem_def, Option.some.injEq] at hx
          rw [← hx, ← hy]; exact hlt
        · intro e he
          apply hok.2 e
          rw [hinit] at he ⊢
          cases init with
          | nil => exact he
          | cons i0 it => exact he
      · cases h

/-- C40.  `getLineNumber` over the table that `createLineTable` builds from
source locations with strictly increasing start offsets beginning at 0 (the
tables that `recordSourceLocation` builds): for every `pc` with
`0 ≤ pc < bclen` it returns the line of the source location with the greatest
start offset that is at most `pc`, which is the value of the first entry of
the line table whose past offset is above `pc`, and the assertion
`pc < it->pastOffset()` holds; the start offsets are offsets of the bytecode,
none is above `bclen`, and then it returns `-1` for every `pc ≥ bclen` (more
generally, for every `pc` that is not below `bclen` nor below a start
offset); for the empty table it returns `-1`. -/
theorem line_number_lookup (srcLoc : List (Int × SourceLoc)) (bclen : Int)
    (h : StartsOK srcLoc) :
    (∀ pc, 0 ≤ pc → pc < bclen →
      getLineNumber (createLineTable srcLoc bclen) pc = lineOfGreatestStart srcLoc pc ∧
      getLineNumber (createLineTable srcLoc bclen) pc =
        lineOfFirstPast (createLineTable srcLoc bclen) pc ∧
      (srcLoc ≠ [] → ∃ it,
        (createLineTable srcLoc bclen)[upper_bound (createLineTable srcLoc bclen) ⟨pc, -1⟩]?
          = some it ∧ pc < it.pastOffset ∧
        getLineNumber (createLineTable srcLoc bclen) pc = it.val)) ∧
    (∀ pc, bclen ≤ pc → (∀ e ∈ srcLoc, e.1 ≤ pc) →
      getLineNumber (createLineTable srcLoc bclen) pc = -1) ∧
    ((∀ e ∈ srcLoc, e.1 ≤ bclen) → ∀ pc, bclen ≤ pc →
      getLineNumber (createLineTable srcLoc bclen) pc = -1) ∧
    (∀ pc, getLineNumber (createLineTable [] bclen) pc = -1) ∧
    (∀ sLoc start tab1, recordSourceLocation srcLoc sLoc start = some tab1 → StartsOK tab1) ∧
    StartsOK [] := by
  have hout : ∀ pc, bclen ≤ pc → (∀ e ∈ srcLoc, e.1 ≤ pc) →
      getLineNumber (createLineTable srcLoc bclen) pc = -1 := by
    intro pc hpc hs
    have := getLineNumber_partitioned (createLineTable srcLoc bclen) [] pc
      (createLineTable_outside bclen pc hpc srcLoc hs) (by simp)
    rw [List.append_nil] at this
    exact this.2.1
  refine ⟨?_, hout, ?_, ?_, ?_, ?_⟩
  · intro pc h0 hpc
    obtain ⟨l1, l2, e1, p1, p2, p3⟩ := createLineTable_inside bclen pc hpc srcLoc h.1 (by
      intro e he; rw [h.2 e he]; exact h0)
    have hp := getLineNumber_partitioned l1 l2 pc p1 p2
    rw [e1]
    refine ⟨by rw [hp.2.1, p3], by rw [hp.2.1, hp.2.2], ?_⟩
    intro hne
    cases l2 with
    | nil =>
      exfalso
      cases srcLoc with
      | nil => exact hne rfl
      | cons a rest =>
        have hmem : (⟨bclen, (((a :: rest).getLast (by simp)).2).line1⟩ : LineEntry) ∈
            createLineTable (a :: rest) bclen := by
          clear e1 p1 p3 hp hout h hne
          induction rest generalizing a with
          | nil => obtain ⟨a1, a2⟩ := a; simp [createLineTable]
          | cons b rest ih =>
            obtain ⟨a1, a2⟩ := a
            simp only [createLineTable, List.mem_cons]
            right
            have := ih b
            rw [List.getLast_cons (by simp)]
            exact this
        rw [e1, List.append_nil] at hmem
        exact p1 _ hmem hpc
    | cons it l2 =>
      refine ⟨it, ?_, p2 it (List.mem_cons_self _ _), ?_⟩
      · rw [hp.1, List.getElem?_append_right (le_refl _), Nat.sub_self]; simp
      · rw [hp.2.1]; simp
  · intro hs pc hpc
    exact hout pc hpc (fun e he => le_trans (hs e he) hpc)
  · intro pc; rfl
  · intro sLoc start tab1 hr
    exact recordSourceLocation_starts srcLoc sLoc start tab1 hr h
  · exact ⟨by simp, by intro e he; cases he⟩

/-- The theorem `line_number_lookup` applies to the three source locations
of `exSrcLocIn` in a bytecode of length 9: the offset 5 is on line 2. -/
theorem line_number_lookup_witness :
    StartsOK exSrcLocIn ∧ getLineNumber (createLineTable exSrcLocIn 9) 5 = 2 ∧
    getLineNumber (createLineTable exSrcLocIn 9) 9 = -1 := by
  have hok : StartsOK exSrcLocIn := ⟨by simp [exSrcLocIn], by intro e he; cases he; rfl⟩
  have h := line_number_lookup exSrcLocIn 9 hok
  refine ⟨hok, ?_, ?_⟩
  · rw [(h.1 5 (by decide) (by decide)).1]; decide
  · exact h.2.2.1 (by decide) 9 (le_refl _)

/-! ## The directory of named entities -/

/-- What `find` answers is an index of the map, counted from the start
index, at which the key compares equal. -/
theorem find_some (X : NamedEntityEnv) (key : String) :
    ∀ (map : NamedEntityMap) (i it : Nat), NamedEntityMap.find X key map i = some it →
      i ≤ it ∧ it < i + map.length ∧
      ∃ e, map[it - i]? = some e ∧ X.same e.1.data key = true := by
  intro map
  induction map with
  | nil => intro i it h; cases h
  | cons e rest ih =>
    intro i it h
    simp only [NamedEntityMap.find] at h
    split at h
    · next hs =>
      injection h with h
      subst h
      exact ⟨le_refl _, by simp, e, by simp, hs⟩
    · obtain ⟨h1, h2, e1, h3, h4⟩ := ih (i + 1) it h
      refine ⟨by omega, by simp only [List.length_cons]; omega, e1, ?_, h4⟩
      have : it - i = (it - (i + 1)) + 1 := by omega
      rw [this, List.getElem?_cons_succ]
      exact h3

/-- A key that is found is found at the same node after nodes were added. -/
theorem find_append_some (X : NamedEntityEnv) (key : String) (more : NamedEntityMap) :
    ∀ (map : NamedEntityMap) (i it : Nat), NamedEntityMap.find X key map i = some it →
      NamedEntityMap.find X key (map ++ more) i = some it := by
  intro map
  induction map with
  | nil => intro i it h; cases h
  | cons e rest ih =>
    intro i it h
    simp only [NamedEntityMap.find, List.cons_append] at h ⊢
    split at h
    · next hs => rw [if_pos hs]; exact h
    · next hs => rw [if_neg hs]; exact ih (i + 1) it h

/-- A key that is not found is looked for among the nodes that were
added. -/
theorem find_append_none (X : NamedEntityEnv) (key : String) (more : NamedEntityMap) :
    ∀ (map : NamedEntityMap) (i : Nat), NamedEntityMap.find X key map i = none →
      NamedEntityMap.find X key (map ++ more) i =
        NamedEntityMap.find X key more (i + map.length) := by
  intro map
  induction map with
  | nil => intro i _; rfl
  | cons e rest ih =>
    intro i h
    simp only [NamedEntityMap.find, List.cons_append] at h ⊢
    split at h
    · cases h
    · next hs =>
      rw [if_neg hs]
      have e2 := ih (i + 1) h
      have e3 : i + (e :: rest).length = i + 1 + rest.length := by
        simp only [List.length_cons]; omega
      rw [e3]
      exact e2

/-- The map after a call is the map before it, with at most one node added
at the end. -/
theorem GetNamedEntity_grows (X : NamedEntityEnv) (m : Option NamedEntityMap)
    (str : StringData) :
    ∃ more, (GetNamedEntity X m str).2 = some (mapOf m ++ more) ∧ more.length ≤ 1 := by
  simp only [GetNamedEntity]
  cases NamedEntityMap.find X str.data (mapOf m) 0 with
  | some it => exact ⟨[], by simp, by simp⟩
  | none =>
    simp only []
    cases NamedEntityMap.find X
        (if str.isStatic = true then str else X.GetStaticString str).data (mapOf m) 0 with
    | some it => exact ⟨[], by simp, by simp⟩
    | none => exact ⟨[_], rfl, le_refl _⟩

/-- The map after a sequence of calls starts with the map before it. -/
theorem lookups_grows (X : NamedEntityEnv) (strs : List StringData) :
    ∀ (m : Option NamedEntityMap), ∃ more, mapOf (lookups X m strs) = mapOf m ++ more := by
  induction strs with
  | nil => intro m; exact ⟨[], by simp [lookups]⟩
  | cons str rest ih =>
    intro m
    obtain ⟨more, h1, _⟩ := GetNamedEntity_grows X m str
    obtain ⟨more1, h2⟩ := ih (GetNamedEntity X m str).2
    refine ⟨more ++ more1, ?_⟩
    have : lookups X m (str :: rest) = lookups X (GetNamedEntity X m str).2 rest := rfl
    rw [this, h2, h1]
    simp [mapOf]

/-- A call for a key that the map finds answers the node found and leaves
the map as it is. -/
theorem GetNamedEntity_found (X : NamedEntityEnv) (m : Option NamedEntityMap)
    (str : StringData) (it : Nat) (h : NamedEntityMap.find X str.data (mapOf m) 0 = some it) :
    GetNamedEntity X m str = (it, some (mapOf m)) := by
  simp only [GetNamedEntity, h]

/-- After a call for `str` the map finds the content of `str` at the node
that the call answered. -/
theorem GetNamedEntity_finds (X : NamedEntityEnv) (hrefl : ∀ a, X.same a a = true)
    (hstatic : ∀ s, (X.GetStaticString s).data = s.data) (m : Option NamedEntityMap)
    (str : StringData) :
    NamedEntityMap.find X str.data (mapOf (GetNamedEntity X m str).2) 0 =
      some (GetNamedEntity X m str).1 := by
  have hd : (if str.isStatic = true then str else X.GetStaticString str).data = str.data := by
    split
    · rfl
    · exact hstatic str
  cases hf : NamedEntityMap.find X str.data (mapOf m) 0 with
  | some it =>
    rw [GetNamedEntity_found X m str it hf]
    exact hf
  | none =>
    have hg : GetNamedEntity X m str = ((mapOf m).length, some (mapOf m ++
        [(if str.isStatic = true then str else X.GetStaticString str, ⟨0, []⟩)])) := by
      simp only [GetNamedEntity, hf, hd]
    rw [hg]
    show NamedEntityMap.find X str.data (mapOf m ++ [_]) 0 = some (mapOf m).length
    rw [find_append_none X str.data _ _ 0 hf]
    simp only [NamedEntityMap.find, hd, hrefl, if_true, Nat.zero_add]

/-- C33.  `GetNamedEntity` is a stable lookup-or-create, for a map that
compares keys by content (a string compares equal to itself) and a
`GetStaticString` that keeps the content.  Every call answers a node of the
resulting map, whose key compares equal to the name; a later call for a string
of the same content, static or not, after any number of other calls, answers
the same node, which is still the same; a call for a name that the map finds
leaves the map as it is; a call for a name that it does not find adds exactly
one node, at the end, for a key with the content of the name; and after any
sequence of calls every node is where it was, with its key and its
content. -/
theorem named_entity_stable (X : NamedEntityEnv) (hrefl : ∀ a, X.same a a = true)
    (hstatic : ∀ s, (X.GetStaticString s).data = s.data) (m : Option NamedEntityMap)
    (str : StringData) :
    (∃ map1 e, (GetNamedEntity X m str).2 = some map1 ∧
      map1[(GetNamedEntity X m str).1]? = some e ∧ X.same e.1.data str.data = true ∧
      ∀ (others : List StringData) (str1 : StringData), str1.data = str.data →
        (GetNamedEntity X (lookups X (GetNamedEntity X m str).2 others) str1).1 =
          (GetNamedEntity X m str).1 ∧
        (mapOf (GetNamedEntity X (lookups X (GetNamedEntity X m str).2 others) str1).2)[
          (GetNamedEntity X m str).1]? = some e) ∧
    (∀ it, NamedEntityMap.find X str.data (mapOf m) 0 = some it →
      GetNamedEntity X m str = (it, some (mapOf m)) ∧
      (GetNamedEntity X m str).2 = m) ∧
    (NamedEntityMap.find X str.data (mapOf m) 0 = none →
      (GetNamedEntity X m str).1 = (mapOf m).length ∧
      ∃ key, key.data = str.data ∧
        (GetNamedEntity X m str).2 = some (mapOf m ++ [(key, ⟨0, []⟩)])) ∧
    (∀ (strs : List StringData) (i : Nat) (e : StringData × NamedEntity),
      (mapOf m)[i]? = some e → (mapOf (lookups X m strs))[i]? = some e) := by
  have hd : (if str.isStatic = true then str else X.GetStaticString str).data = str.data := by
    split
    · rfl
    · exact hstatic str
  have hkeep : ∀ (m0 : Option NamedEntityMap) (strs : List StringData) (i : Nat)
      (e : StringData × NamedEntity),
      (mapOf m0)[i]? = some e → (mapOf (lookups X m0 strs))[i]? = some e := by
    intro m0 strs i e he
    obtain ⟨more, hm⟩ := lookups_grows X strs m0
    rw [hm]
    have hi : i < (mapOf m0).length := by
      rcases Nat.lt_or_ge i (mapOf m0).length with h | h
      · exact h
      · rw [List.getElem?_eq_none h] at he; cases he
    rw [List.getElem?_append_left hi]
    exact he
  refine ⟨?_, ?_, ?_, hkeep m⟩
  · have hfind := GetNamedEntity_finds X hrefl hstatic m str
    obtain ⟨more, hm, _⟩ := GetNamedEntity_grows X m str
    obtain ⟨_, _, e, he, hsame⟩ := find_some X str.data _ 0 _ hfind
    rw [Nat.sub_zero] at he
    refine ⟨mapOf m ++ more, e, hm, ?_, hsame, ?_⟩
    · rw [hm] at he; exact he
    · intro others str1 h1
      obtain ⟨more1, hm1⟩ := lookups_grows X others (GetNamedEntity X m str).2
      have hf1 : NamedEntityMap.find X str1.data
          (mapOf (lookups X (GetNamedEntity X m str).2 others)) 0 =
          some (GetNamedEntity X m str).1 := by
        rw [hm1, h1]
        exact find_append_some X str.data more1 _ 0 _ hfind
      have hg := GetNamedEntity_found X _ str1 _ hf1
      rw [hg]
      refine ⟨rfl, ?_⟩
      exact hkeep (GetNamedEntity X m str).2 others _ e he
  · intro it hf
    have hg := GetNamedEntity_found X m str it hf
    refine ⟨hg, ?_⟩
    rw [hg]
    cases m with
    | some map => rfl
    | none => simp only [mapOf, NamedEntityMap.find] at hf; cases hf
  · intro hf
    have hg : GetNamedEntity X m str = ((mapOf m).length, some (mapOf m ++
        [(if str.isStatic = true then str else X.GetStaticString str, ⟨0, []⟩)])) := by
      simp only [GetNamedEntity, hf, hd]
    rw [hg]
    exact ⟨rfl, _, hd, rfl⟩

/-- The theorem `named_entity_stable` applies to a map that compares the
content of the keys: in the empty directory the name `C` gets the node 0, and
after `D` and `E` were looked up a string `C` that is not static still gets the
node 0. -/
theorem named_entity_stable_witness :
    (∀ a, exNamedEntityEnv.same a a = true) ∧
    (∀ s, (exNamedEntityEnv.GetStaticString s).data = s.data) ∧
    (GetNamedEntity exNamedEntityEnv none ⟨"C", true⟩).1 = 0 ∧
    (GetNamedEntity exNamedEntityEnv
      (lookups exNamedEntityEnv (GetNamedEntity exNamedEntityEnv none ⟨"C", true⟩).2
        [⟨"D", true⟩, ⟨"E", false⟩]) ⟨"C", false⟩).1 = 0 := by
  have h1 : ∀ a, exNamedEntityEnv.same a a = true := by
    intro a; simp [exNamedEntityEnv]
  have h2 : ∀ s, (exNamedEntityEnv.GetStaticString s).data = s.data := fun _ => rfl
  obtain ⟨_, _, _, _, _, h⟩ := (named_entity_stable exNamedEntityEnv h1 h2 none ⟨"C", true⟩).1
  have h3 : (GetNamedEntity exNamedEntityEnv none ⟨"C", true⟩).1 = 0 := by decide
  refine ⟨h1, h2, h3, ?_⟩
  rw [(h [⟨"D", true⟩, ⟨"E", false⟩] ⟨"C", false⟩ rfl).1]
  exact h3

/-! ## The size of the array that `create` allocates -/

/-- The sizing loop of `create` breaks only outside the repo-authoritative
mode. -/
theorem createExtra_none (E : Env) :
    ∀ (stmts : List (UnitMergeKind × Nat)) (x : Nat), createExtra E stmts x = none →
      E.RepoAuthoritative = false := by
  intro stmts
  induction stmts with
  | nil => intro x h; cases h
  | cons st tl ih =>
    intro x h
    obtain ⟨k, id⟩ := st
    simp only [createExtra] at h
    split at h
    · next hr => exact hr
    · split at h <;> exact ih _ h

/-- Outside the repo-authoritative mode the sizing loop of `create` breaks at
a statement that is not a class. -/
theorem createExtra_break (E : Env) (hE : E.RepoAuthoritative = false) :
    ∀ (stmts : List (UnitMergeKind × Nat)) (x : Nat),
      (∃ st ∈ stmts, st.1 ≠ UnitMergeKind.UnitMergeKindClass) → createExtra E stmts x = none := by
  intro stmts
  induction stmts with
  | nil => intro x h; obtain ⟨st, hst, _⟩ := h; cases hst
  | cons st tl ih =>
    intro x h
    obtain ⟨k, id⟩ := st
    simp only [createExtra, if_pos hE]
    by_cases hk : k = UnitMergeKind.UnitMergeKindClass
    · rw [if_neg (by simpa using hk)]
      apply ih
      obtain ⟨st, hst, hne⟩ := h
      simp only [List.mem_cons] at hst
      rcases hst with hst | hst
      · subst hst; exact absurd hk hne
      · exact ⟨st, hst, hne⟩
    · rw [if_pos hk]

/-- What `newPreClassEmitter` does to the merge statements and to the flag
`m_allClassesHoistable`: a class statement is pushed for a template that is
classified `Mergeable` or `MaybeHoistable` when no return was seen, and the
flag stays or is cleared. -/
theorem newPreClassEmitter_stmts (X : EmitterEnv) (e : UnitEmitter) (n : String)
    (h : Hoistable) :
    (newPreClassEmitter X e n h).2.m_mergeableStmts =
      (if (Hoistable.Mergeable.toNat ≤ (newPreClassEmitter X e n h).1.hoistable.toNat ∧
          (newPreClassEmitter X e n h).1.hoistable.toNat < Hoistable.AlwaysHoistable.toNat) ∧
          e.m_returnSeen = false
        then e.m_mergeableStmts ++ [(UnitMergeKind.UnitMergeKindClass, e.m_pceVec.length)]
        else e.m_mergeableStmts) ∧
    ((newPreClassEmitter X e n h).2.m_allClassesHoistable = false ∨
      (newPreClassEmitter X e n h).2.m_allClassesHoistable = e.m_allClassesHoistable) ∧
    (newPreClassEmitter X e n h).2.m_mergeableValues = e.m_mergeableValues ∧
    (newPreClassEmitter X e n h).2.m_returnSeen = e.m_returnSeen ∧
    (newPreClassEmitter X e n h).2.m_mainReturn = e.m_mainReturn ∧
    (newPreClassEmitter X e n h).2.m_fes = e.m_fes := by
  unfold newPreClassEmitter pushMergeableClass
  simp only []
  cases hc : hoistableCount X e n <;> cases h <;> cases hr : e.m_returnSeen <;>
    simp [Hoistable.toNat]

/-- Every call on an emitter keeps the flag `m_allClassesHoistable` clear
once it is clear, and leaves it clear when it adds a statement that is not a
class. -/
theorem flagOK_run (X : EmitterEnv) (e : UnitEmitter) (op : EmitOp) (h : FlagOK e) :
    FlagOK (op.run X e) := by
  have hins : ∀ (l : List (UnitMergeKind × Nat)) (ix : Nat) (x : UnitMergeKind × Nat)
      (st : UnitMergeKind × Nat), st ∈ l.take ix ++ x :: l.drop ix → st = x ∨ st ∈ l := by
    intro l ix x st hst
    simp only [List.mem_append, List.mem_cons] at hst
    rcases hst with hst | hst | hst
    · exact Or.inr (List.mem_of_mem_take hst)
    · exact Or.inl hst
    · exact Or.inr (List.mem_of_mem_drop hst)
  cases op with
  | mergeLitstr litstr =>
    simp only [EmitOp.run, mergeLitstr]
    split <;> exact h
  | mergeArray a key =>
    simp only [EmitOp.run, mergeArray]
    split <;> exact h
  | newFuncEmitter n top =>
    simp only [EmitOp.run, newFuncEmitter]
    split
    · split <;> exact h
    · exact h
  | appendTopEmitter fe => exact h
  | pushMergeableClass pce =>
    intro hex
    apply h
    obtain ⟨st, hst, hne⟩ := hex
    simp only [EmitOp.run, pushMergeableClass, List.mem_append, List.mem_singleton] at hst
    rcases hst with hst | hst
    · exact ⟨st, hst, hne⟩
    · subst hst; exact absurd rfl hne
  | pushMergeableInclude kind unitName => intro _; rfl
  | insertMergeableInclude ix kind id => intro _; rfl
  | pushMergeableDef kind name tv => intro _; rfl
  | insertMergeableDef ix kind id tv => intro _; rfl
  | newPreClassEmitter n hoistable =>
    intro hex
    obtain ⟨st, hst, hne⟩ := hex
    have hs := newPreClassEmitter_stmts X e n hoistable
    simp only [EmitOp.run] at hst ⊢
    rw [hs.1] at hst
    have hold : st ∈ e.m_mergeableStmts := by
      split at hst
      · simp only [List.mem_append, List.mem_singleton] at hst
        rcases hst with hst | hst
        · exact hst
        · subst hst; exact absurd rfl hne
      · exact hst
    rcases hs.2.1 with hf | hf
    · exact hf
    · rw [hf]; exact h ⟨st, hold, hne⟩
  | returnSeen => exact h
  | setMainReturn tv => exact h

/-- An emitter that was built by calls from a new one has the flag
`m_allClassesHoistable` clear when it holds a statement that is not a
class. -/
theorem flagOK_runOps (X : EmitterEnv) (ops : List EmitOp) :
    ∀ (e : UnitEmitter), FlagOK e → FlagOK (runOps X e ops) := by
  induction ops with
  | nil => intro e h; exact h
  | cons op rest ih => intro e h; exact ih _ (flagOK_run X e op h)

/-- C36.  The size computation of `UnitEmitter::create` is exact, in both
modes: whenever the filling pass finds every id it looks up (the hoistable
ids and, where it runs over them, the merge statements), the words it writes
before `Done` are as many as the sizing pass counted, so `create` returns the
unit (the assertion `ix == m_mergeablesSize` holds).  The count is `F + H` when
the statements are not laid out, and `F + H + extra` with `extra` the number
of the words of the statements otherwise.  In every unit that `create` returns
the array has `m_mergeablesSize + 1` words and `Done` is the last of them.
Outside the repo-authoritative mode a merge-only unit with a statement that is
not a class gets no remaining section and is no longer merge-only; for an
emitter built by calls from a new one this holds whenever it has such a
statement. -/
theorem create_size_exact (E : Env) (mkFunc : FuncEmitter → Func)
    (mkPre : PreClassEmitter → PreClass) (e : UnitEmitter) :
    (∀ hoistable,
      createHoistable (e.m_pceVec.map mkPre) e.m_hoistablePceIdVec = some hoistable →
      (¬ (e.m_mainReturn._count ≠ 0 ∧ e.m_allClassesHoistable = false) →
        ∃ u, e.create E mkFunc mkPre = some u ∧
          u.m_mergeablesSize = e.m_fes.length + e.m_hoistablePceIdVec.length ∧
          u.m_mergeables = (e.m_fes.map mkFunc).map Mergeable.func ++ hoistable ++
            [Mergeable.done]) ∧
      (e.m_mainReturn._count ≠ 0 ∧ e.m_allClassesHoistable = false →
        createExtra E e.m_mergeableStmts 0 = none →
        E.RepoAuthoritative = false ∧
        ∃ u, e.create E mkFunc mkPre = some u ∧
          u.m_mergeablesSize = e.m_fes.length + e.m_hoistablePceIdVec.length ∧
          u.m_mergeables = (e.m_fes.map mkFunc).map Mergeable.func ++ hoistable ++
            [Mergeable.done] ∧
          u.m_mainReturn_count = 0) ∧
      (e.m_mainReturn._count ≠ 0 ∧ e.m_allClassesHoistable = false →
        ∀ extra rest, createExtra E e.m_mergeableStmts 0 = some extra →
        createStmts (e.m_pceVec.map mkPre) e.m_litstrs e.m_mergeableValues
          e.m_mergeableStmts = some rest →
        extra = rest.length ∧
        ∃ u, e.create E mkFunc mkPre = some u ∧
          u.m_mergeablesSize = e.m_fes.length + e.m_hoistablePceIdVec.length + extra ∧
          u.m_mergeables = (e.m_fes.map mkFunc).map Mergeable.func ++ hoistable ++ rest ++
            [Mergeable.done])) ∧
    (∀ u, e.create E mkFunc mkPre = some u →
      u.m_mergeables.length = u.m_mergeablesSize + 1 ∧
      u.m_mergeables[u.m_mergeablesSize]? = some Mergeable.done ∧
      u.m_mergeables.getLast? = some Mergeable.done) ∧
    (E.RepoAuthoritative = false →
      (∃ st ∈ e.m_mergeableStmts, st.1 ≠ UnitMergeKind.UnitMergeKindClass) →
      e.m_mainReturn._count ≠ 0 → e.m_allClassesHoistable = false →
      ∀ u, e.create E mkFunc mkPre = some u →
        u.m_mainReturn_count = 0 ∧ u.isMergeOnly = false ∧
        u.m_firstMergeablePreClass = u.m_mergeablesSize) ∧
    (∀ (X : EmitterEnv) (ops : List EmitOp), e = runOps X newUnitEmitter ops →
      E.RepoAuthoritative = false →
      (∃ st ∈ e.m_mergeableStmts, st.1 ≠ UnitMergeKind.UnitMergeKindClass) →
      ∀ u, e.create E mkFunc mkPre = some u →
        u.isMergeOnly = false ∧ u.m_firstMergeablePreClass = u.m_mergeablesSize) := by
  have hplain : ∀ hoistable,
      createHoistable (e.m_pceVec.map mkPre) e.m_hoistablePceIdVec = some hoistable →
      ¬ (e.m_mainReturn._count ≠ 0 ∧ e.m_allClassesHoistable = false) →
      ∃ u, e.create E mkFunc mkPre = some u ∧
        u.m_mergeablesSize = e.m_fes.length + e.m_hoistablePceIdVec.length ∧
        u.m_mergeables = (e.m_fes.map mkFunc).map Mergeable.func ++ hoistable ++
          [Mergeable.done] ∧
        u.m_mainReturn_count = e.m_mainReturn._count ∧
        u.m_firstMergeablePreClass = u.m_mergeablesSize := by
    intro hoistable hh hc
    have hlen := (createHoistable_some _ _ _ hh).1
    simp only [UnitEmitter.create, hh, if_neg hc, Option.getD_some, List.length_append,
      List.length_map, List.append_nil, hlen, List.length_nil, Nat.add_zero, if_true]
    exact ⟨_, rfl, rfl, rfl, rfl, rfl⟩
  have hbreak : ∀ hoistable,
      createHoistable (e.m_pceVec.map mkPre) e.m_hoistablePceIdVec = some hoistable →
      e.m_mainReturn._count ≠ 0 ∧ e.m_allClassesHoistable = false →
      createExtra E e.m_mergeableStmts 0 = none →
      ∃ u, e.create E mkFunc mkPre = some u ∧
        u.m_mergeablesSize = e.m_fes.length + e.m_hoistablePceIdVec.length ∧
        u.m_mergeables = (e.m_fes.map mkFunc).map Mergeable.func ++ hoistable ++
          [Mergeable.done] ∧
        u.m_mainReturn_count = 0 ∧
        u.m_firstMergeablePreClass = u.m_mergeablesSize := by
    intro hoistable hh hc hx
    have hlen := (createHoistable_some _ _ _ hh).1
    simp only [UnitEmitter.create, hh, if_pos hc, hx, ne_eq, not_true_eq_false, false_and,
      if_false, Option.getD_none, List.length_append, List.length_map, List.append_nil, hlen,
      List.length_nil, Nat.add_zero, if_true]
    exact ⟨_, rfl, rfl, rfl, rfl, rfl⟩
  have hfull : ∀ hoistable,
      createHoistable (e.m_pceVec.map mkPre) e.m_hoistablePceIdVec = some hoistable →
      e.m_mainReturn._count ≠ 0 ∧ e.m_allClassesHoistable = false →
      ∀ extra rest, createExtra E e.m_mergeableStmts 0 = some extra →
      createStmts (e.m_pceVec.map mkPre) e.m_litstrs e.m_mergeableValues
        e.m_mergeableStmts = some rest →
      extra = rest.length ∧
      ∃ u, e.create E mkFunc mkPre = some u ∧
        u.m_mergeablesSize = e.m_fes.length + e.m_hoistablePceIdVec.length + extra ∧
        u.m_mergeables = (e.m_fes.map mkFunc).map Mergeable.func ++ hoistable ++ rest ++
          [Mergeable.done] := by
    intro hoistable hh hc extra rest hx hrest
    have hlen := (createHoistable_some _ _ _ hh).1
    have hn := createExtra_exact E _ _ _ _ _ 0 extra hrest hx
    rw [Nat.zero_add] at hn
    refine ⟨hn, ?_⟩
    simp only [UnitEmitter.create, hh, if_pos hc, hx, hrest, Option.getD_some,
      List.length_append, List.length_map, hlen, hn, if_true]
    exact ⟨_, rfl, rfl, rfl⟩
  have hdone : ∀ u, e.create E mkFunc mkPre = some u →
      u.m_mergeables.length = u.m_mergeablesSize + 1 ∧
      u.m_mergeables[u.m_mergeablesSize]? = some Mergeable.done ∧
      u.m_mergeables.getLast? = some Mergeable.done := by
    intro u hu
    obtain ⟨hoistable, rest, hh, _, hw, hsz, _, _, _⟩ := create_some E mkFunc mkPre e u hu
    have h1 : u.m_mergeables.length = u.m_mergeablesSize + 1 := by
      rw [hw, hsz]
      simp only [List.length_append, List.length_map, List.length_singleton]
    refine ⟨h1, ?_, ?_⟩
    · rw [hw]
      have : u.m_mergeablesSize =
          ((e.m_fes.map mkFunc).map Mergeable.func ++ hoistable ++ rest).length := by
        rw [hsz]
        simp only [List.length_append, List.length_map]
      rw [this]
      exact List.getElem?_concat_length _ _
    · rw [hw]
      simp
  have hnon : E.RepoAuthoritative = false →
      (∃ st ∈ e.m_mergeableStmts, st.1 ≠ UnitMergeKind.UnitMergeKindClass) →
      e.m_mainReturn._count ≠ 0 → e.m_allClassesHoistable = false →
      ∀ u, e.create E mkFunc mkPre = some u →
        u.m_mainReturn_count = 0 ∧ u.isMergeOnly = false ∧
        u.m_firstMergeablePreClass = u.m_mergeablesSize := by
    intro hE hex hcount hflag u hu
    obtain ⟨hoistable, _, hh, _⟩ := create_some E mkFunc mkPre e u hu
    obtain ⟨u1, hu1, _, _, h3, h4⟩ :=
      hbreak hoistable hh ⟨hcount, hflag⟩ (createExtra_break E hE _ 0 hex)
    rw [hu] at hu1
    injection hu1 with hu1
    subst hu1
    refine ⟨h3, ?_, h4⟩
    simp only [Unit.isMergeOnly, h3]
    rfl
  refine ⟨?_, hdone, hnon, ?_⟩
  · intro hoistable hh
    refine ⟨?_, ?_, hfull hoistable hh⟩
    · intro hc
      obtain ⟨u, h0, h1, h2, _⟩ := hplain hoistable hh hc
      exact ⟨u, h0, h1, h2⟩
    · intro hc hx
      obtain ⟨u, h0, h1, h2, h3, _⟩ := hbreak hoistable hh hc hx
      exact ⟨createExtra_none E _ _ hx, u, h0, h1, h2, h3⟩
  · intro X ops he hE hex u hu
    have hflag : e.m_allClassesHoistable = false := by
      have := flagOK_runOps X ops newUnitEmitter (by
        intro h; obtain ⟨st, hst, _⟩ := h; cases hst)
      rw [← he] at this
      exact this hex
    by_cases hcount : e.m_mainReturn._count ≠ 0
    · exact (hnon hE hex hcount hflag u hu).2
    · obtain ⟨hoistable, _, hh, _⟩ := create_some E mkFunc mkPre e u hu
      obtain ⟨u1, hu1, _, _, h3, h4⟩ := hplain hoistable hh (fun hc => hcount hc.1)
      rw [hu] at hu1
      injection hu1 with hu1
      subst hu1
      refine ⟨?_, h4⟩
      have h0 : e.m_mainReturn._count = 0 := by
        by_contra hne; exact hcount hne
      simp only [Unit.isMergeOnly, h3, h0]
      rfl

/-- The theorem `create_size_exact` applies to the emitter of
`class C {}  define('X', 1);`: outside the repo-authoritative mode the unit
is the pseudo-main and `Done`, it has no remaining section and is not
merge-only; in the repo-authoritative mode the sizing pass counts the four
words of the two statements. -/
theorem create_size_exact_witness :
    exEmitterStmts = runOps exEmitterEnv newUnitEmitter
      [EmitOp.setMainReturn ⟨1, 1, DataType.KindOfInt64⟩, EmitOp.newFuncEmitter "" false,
        EmitOp.newPreClassEmitter "C" Hoistable.Mergeable,
        EmitOp.pushMergeableDef UnitMergeKind.UnitMergeKindDefine "X" exValX] ∧
    interpEnv.RepoAuthoritative = false ∧
    (∃ u, exEmitterStmts.create interpEnv exMkFunc exMkPre = some u ∧
      u.isMergeOnly = false ∧ u.m_firstMergeablePreClass = u.m_mergeablesSize ∧
      u.m_mergeables = [.func (exMkFunc ⟨0, 0, ""⟩), .done]) ∧
    createExtra quietEnv exEmitterStmts.m_mergeableStmts 0 = some 4 := by
  have h := (create_size_exact interpEnv exMkFunc exMkPre exEmitterStmts).2.2.2 exEmitterEnv
    [EmitOp.setMainReturn ⟨1, 1, DataType.KindOfInt64⟩, EmitOp.newFuncEmitter "" false,
      EmitOp.newPreClassEmitter "C" Hoistable.Mergeable,
      EmitOp.pushMergeableDef UnitMergeKind.UnitMergeKindDefine "X" exValX]
    rfl rfl ⟨(UnitMergeKind.UnitMergeKindDefine, 0), by decide, by decide⟩ _ rfl
  exact ⟨rfl, rfl, ⟨_, rfl, h.1, h.2, rfl⟩, rfl⟩

/-! ## The emitter in the repo -/

/-- The rows that `commit` writes for the literals carry the ids from `i`
on. -/
theorem commitLitstrs_ids :
    ∀ (l : List String) (i : Nat) (row : Nat × String), row ∈ commitLitstrs l i →
      i ≤ row.1 ∧ l[row.1 - i]? = some row.2 := by
  intro l
  induction l with
  | nil => intro i row h; cases h
  | cons s rest ih =>
    intro i row h
    simp only [commitLitstrs, List.mem_cons] at h
    rcases h with h | h
    · subst h; simp
    · obtain ⟨h1, h2⟩ := ih (i + 1) row h
      refine ⟨by omega, ?_⟩
      have : row.1 - i = (row.1 - (i + 1)) + 1 := by omega
      rw [this, List.getElem?_cons_succ]
      exact h2

/-- The rows that `commit` writes for the literals are in the order of their
ids, so the query returns them as they were written. -/
theorem selectLitstrs_commit (l : List String) (i : Nat) :
    selectLitstrs (commitLitstrs l i) = commitLitstrs l i := by
  apply List.Sorted.insertionSort_eq
  induction l generalizing i with
  | nil => exact List.sorted_nil
  | cons s rest ih =>
    simp only [commitLitstrs]
    refine List.sorted_cons.mpr ⟨?_, ih (i + 1)⟩
    intro row hrow
    have := (commitLitstrs_ids rest (i + 1) row hrow).1
    show i ≤ row.1
    omega

/-- Loading the rows of literals that are new to a consistent emitter adds
them in order, each with the id that its row carries. -/
theorem getLitstrRows_commit :
    ∀ (l : List String) (ue : UnitEmitter), LitstrOK ue → (ue.m_litstrs ++ l).Nodup →
      ∃ ue1, getLitstrRows (commitLitstrs l ue.m_litstrs.length) ue = some ue1 ∧
        ue1.m_litstrs = ue.m_litstrs ++ l ∧ LitstrOK ue1 ∧
        ue1.m_mergeableStmts = ue.m_mergeableStmts ∧
        ue1.m_mergeableValues = ue.m_mergeableValues ∧
        ue1.m_pceVec = ue.m_pceVec ∧
        ue1.m_hoistablePreClassSet = ue.m_hoistablePreClassSet ∧
        ue1.m_hoistablePceIdVec = ue.m_hoistablePceIdVec ∧
        ue1.m_allClassesHoistable = ue.m_allClassesHoistable ∧
        ue1.m_returnSeen = ue.m_returnSeen ∧
        ue1.m_mainReturn = ue.m_mainReturn := by
  intro l
  induction l with
  | nil =>
    intro ue hok _
    exact ⟨ue, rfl, by simp, hok, rfl, rfl, rfl, rfl, rfl, rfl, rfl, rfl⟩
  | cons s rest ih =>
    intro ue hok hnd
    have hnone : ue.m_litstr2id s = none := by
      cases hm : ue.m_litstr2id s with
      | none => rfl
      | some id =>
        exfalso
        have hmem : s ∈ ue.m_litstrs := List.getElem?_mem ((hok s id).mp hm)
        rw [List.nodup_append] at hnd
        exact hnd.2.2 hmem (List.mem_cons_self _ _)
    have hm : mergeLitstr ue s = (ue.m_litstrs.length,
        { ue with
          m_litstrs := ue.m_litstrs ++ [s]
          m_litstr2id := Function.update ue.m_litstr2id s (some ue.m_litstrs.length) }) := by
      simp only [mergeLitstr, hnone]
    have hok1 : LitstrOK (mergeLitstr ue s).2 := mergeLitstr_ok ue hok s
    rw [hm] at hok1
    have hnd1 : ((ue.m_litstrs ++ [s]) ++ rest).Nodup := by
      rw [List.append_assoc]; exact hnd
    obtain ⟨ue1, h1, h2, h3, h4⟩ := ih _ hok1 hnd1
    refine ⟨ue1, ?_, ?_, h3, h4⟩
    · simp only [commitLitstrs, getLitstrRows, hm, if_true]
      simp only [List.length_append, List.length_singleton] at h1
      exact h1
    · rw [h2]; simp

/-- Two maps that are consistent with one table are the same map. -/
theorem tableOK_unique {table : List String} {m1 m2 : String → Option Nat}
    (h1 : TableOK table m1) (h2 : TableOK table m2) : m1 = m2 := by
  funext s
  cases hs : m1 s with
  | some id => exact ((h2 s id).mpr ((h1 s id).mp hs)).symm
  | none =>
    cases hs2 : m2 s with
    | none => rfl
    | some id =>
      have := (h1 s id).mpr ((h2 s id).mp hs2)
      rw [hs] at this
      cases this

/-- C32.  The round trip of the literal table, for every emitter whose
literal table and id map are consistent (every emitter built by calls from a
new one is).  `commit` writes the row `(i, m_litstrs[i])` for every index; the
query of the loader returns these rows in the order of their ids; the loader,
started on a new emitter, adds every literal through `mergeLitstr`, which
answers exactly the id of the row (the assertion `id == litstrId` holds for
every row), and the emitter it ends with has the literal table and the id map
of the emitter that was committed. -/
theorem literal_round_trip (e : UnitEmitter) (hok : LitstrOK e) (tv : TypedValue) :
    selectLitstrs (commitLitstrs e.m_litstrs 0) = commitLitstrs e.m_litstrs 0 ∧
    (∀ row ∈ commitLitstrs e.m_litstrs 0, e.m_litstrs[row.1]? = some row.2) ∧
    (∀ (i : Nat) (s : String), e.m_litstrs[i]? = some s → (i, s) ∈ commitLitstrs e.m_litstrs 0) ∧
    (∃ ue, GetUnitLitstrsStmt.get (commitLitstrs e.m_litstrs 0)
        (setMainReturn newUnitEmitter tv) = some ue ∧
      ue.m_litstrs = e.m_litstrs ∧ ue.m_litstr2id = e.m_litstr2id ∧
      ∀ row ∈ commitLitstrs e.m_litstrs 0, ue.m_litstr2id row.2 = some row.1) ∧
    (∀ (X : EmitterEnv) (ops : List EmitOp), LitstrOK (runOps X newUnitEmitter ops)) := by
  have hrows : ∀ row ∈ commitLitstrs e.m_litstrs 0, e.m_litstrs[row.1]? = some row.2 := by
    intro row hrow
    have := (commitLitstrs_ids e.m_litstrs 0 row hrow).2
    rw [Nat.sub_zero] at this
    exact this
  refine ⟨selectLitstrs_commit _ _, hrows, ?_, ?_, ?_⟩
  · have hgen : ∀ (l : List String) (k i : Nat) (s : String), l[i]? = some s →
        (k + i, s) ∈ commitLitstrs l k := by
      intro l
      induction l with
      | nil => intro k i s h; simp at h
      | cons a rest ih =>
        intro k i s h
        cases i with
        | zero =>
          simp only [List.getElem?_cons_zero, Option.some.injEq] at h
          subst h
          simp [commitLitstrs]
        | succ i =>
          simp only [List.getElem?_cons_succ] at h
          simp only [commitLitstrs, List.mem_cons]
          right
          have := ih (k + 1) i s h
          have e1 : k + (i + 1) = k + 1 + i := by omega
          rw [e1]
          exact this
    intro i s h
    have := hgen e.m_litstrs 0 i s h
    rw [Nat.zero_add] at this
    exact this
  · have hnew : LitstrOK (setMainReturn newUnitEmitter tv) := tableOK_nil
    obtain ⟨ue, h1, h2, h3, _⟩ := getLitstrRows_commit e.m_litstrs
      (setMainReturn newUnitEmitter tv) hnew (by
        show ([] ++ e.m_litstrs).Nodup
        rw [List.nil_append]
        exact tableOK_nodup hok)
    have h2a : ue.m_litstrs = e.m_litstrs := by
      rw [h2]; exact List.nil_append _
    have h3a : TableOK e.m_litstrs ue.m_litstr2id := by
      have : TableOK ue.m_litstrs ue.m_litstr2id := h3
      rw [h2a] at this
      exact this
    have hmap : ue.m_litstr2id = e.m_litstr2id := tableOK_unique h3a hok
    refine ⟨ue, ?_, h2a, hmap, ?_⟩
    · simp only [GetUnitLitstrsStmt.get]
      rw [selectLitstrs_commit]
      exact h1
    · intro row hrow
      rw [hmap]
      exact (hok row.2 row.1).mpr (hrows row hrow)
  · intro X ops
    exact (litstr_runOps X ops newUnitEmitter).1 tableOK_nil

/-- The theorem `literal_round_trip` applies to the emitter `exEmitter`,
whose only literal is the name `X` of its define: the row `(0, "X")` is
written, and the loader ends with the table of the one literal. -/
theorem literal_round_trip_witness :
    LitstrOK exEmitter ∧ commitLitstrs exEmitter.m_litstrs 0 = [(0, "X")] ∧
    ∃ ue, GetUnitLitstrsStmt.get (commitLitstrs exEmitter.m_litstrs 0)
        (setMainReturn newUnitEmitter ⟨1, 1, DataType.KindOfInt64⟩) = some ue ∧
      ue.m_litstrs = ["X"] := by
  have hok : LitstrOK exEmitter :=
    (litstr_runOps exEmitterEnv
      [EmitOp.setMainReturn ⟨1, 1, DataType.KindOfInt64⟩, EmitOp.newFuncEmitter "" false,
        EmitOp.newFuncEmitter "f" true, EmitOp.newPreClassEmitter "C" Hoistable.AlwaysHoistable,
        EmitOp.pushMergeableDef UnitMergeKind.UnitMergeKindDefine "X" exValX]
      newUnitEmitter).1 tableOK_nil
  obtain ⟨ue, h1, h2, _⟩ :=
    (literal_round_trip exEmitter hok ⟨1, 1, DataType.KindOfInt64⟩).2.2.2.1
  exact ⟨hok, rfl, ue, h1, h2⟩

/-- The rows that `commit` writes for the merge statements carry indexes
from `i` on, in increasing order. -/
theorem commitMergeables_sorted (C : RepoCodec) (values : List (Nat × TypedValue)) :
    ∀ (stmts : List (UnitMergeKind × Nat)) (i : Nat) (rows : List MergeableRow),
      commitMergeables C values stmts i = some rows →
      (∀ row ∈ rows, i ≤ row.mergeableIx) ∧
      rows.Sorted (fun a b => a.mergeableIx ≤ b.mergeableIx) := by
  intro stmts
  induction stmts with
  | nil =>
    intro i rows h
    simp only [commitMergeables, Option.some.injEq] at h
    subst h
    exact ⟨by simp, List.sorted_nil⟩
  | cons st rest ih =>
    intro i rows h
    obtain ⟨kind, second⟩ := st
    have hstep : ∀ (row : MergeableRow) (rows1 : List MergeableRow), row.mergeableIx = i →
        commitMergeables C values rest (i + 1) = some rows1 →
        (∀ r ∈ row :: rows1, i ≤ r.mergeableIx) ∧
        (row :: rows1).Sorted (fun a b => a.mergeableIx ≤ b.mergeableIx) := by
      intro row rows1 hrow h1
      obtain ⟨h2, h3⟩ := ih (i + 1) rows1 h1
      refine ⟨?_, List.sorted_cons.mpr ⟨?_, h3⟩⟩
      · intro r hr
        simp only [List.mem_cons] at hr
        rcases hr with hr | hr
        · rw [hr, hrow]
        · have := h2 r hr; omega
      · intro r hr
        have := h2 r hr
        show row.mergeableIx ≤ r.mergeableIx
        omega
    cases kind with
    | UnitMergeKindDone => simp [commitMergeables] at h
    | UnitMergeKindUniqueDefinedClass => simp [commitMergeables] at h
    | UnitMergeKindClass =>
      simp only [commitMergeables] at h
      obtain ⟨h2, h3⟩ := ih (i + 1) rows h
      exact ⟨fun r hr => by have := h2 r hr; omega, h3⟩
    | UnitMergeKindReq k =>
      simp only [commitMergeables] at h
      cases h1 : commitMergeables C values rest (i + 1) with
      | none => rw [h1] at h; cases h
      | some rows1 =>
        rw [h1] at h
        simp only [Option.some.injEq] at h
        subst h
        exact hstep _ rows1 rfl h1
    | UnitMergeKindDefine =>
      simp only [commitMergeables] at h
      cases hv : values[second]? with
      | none => rw [hv] at h; cases h
      | some v =>
        obtain ⟨nameId, tv⟩ := v
        rw [hv] at h
        simp only [] at h
        cases h1 : commitMergeables C values rest (i + 1) with
        | none => rw [h1] at h; cases h
        | some rows1 =>
          rw [h1] at h
          simp only [Option.some.injEq] at h
          subst h
          exact hstep _ rows1 rfl h1
    | UnitMergeKindGlobal =>
      simp only [commitMergeables] at h
      cases hv : values[second]? with
      | none => rw [hv] at h; cases h
      | some v =>
        obtain ⟨nameId, tv⟩ := v
        rw [hv] at h
        simp only [] at h
        cases h1 : commitMergeables C values rest (i + 1) with
        | none => rw [h1] at h; cases h
        | some rows1 =>
          rw [h1] at h
          simp only [Option.some.injEq] at h
          subst h
          exact hstep _ rows1 rfl h1

/-- The query of the loader returns the rows of the merge statements as
`commit` wrote them. -/
theorem selectMergeables_commit (C : RepoCodec) (values : List (Nat × TypedValue))
    (stmts : List (UnitMergeKind × Nat)) (i : Nat) (rows : List MergeableRow)
    (h : commitMergeables C values stmts i = some rows) : selectMergeables rows = rows :=
  List.Sorted.insertionSort_eq (commitMergeables_sorted C values stmts i rows h).2

/-- Inserting at the end of a first part puts the statement between the
parts. -/
theorem insert_between (P Q : List (UnitMergeKind × Nat)) (x : UnitMergeKind × Nat) :
    (P ++ Q).take P.length ++ x :: (P ++ Q).drop P.length = (P ++ [x]) ++ Q := by
  rw [List.take_left, List.drop_left]
  simp

/-- A statement resolves through a table of values as through the table
with more values at the end, when it resolves at all. -/
theorem resolveStmt_append (values more : List (Nat × TypedValue))
    (st : UnitMergeKind × Nat) (r : UnitMergeKind × Nat × Option TypedValue)
    (h : resolveStmt values st = some r) : resolveStmt (values ++ more) st = some r := by
  obtain ⟨kind, id⟩ := st
  have hv : ∀ v, values[id]? = some v → (values ++ more)[id]? = some v := by
    intro v hv
    have hi : id < values.length := by
      rcases Nat.lt_or_ge id values.length with h1 | h1
      · exact h1
      · rw [List.getElem?_eq_none h1] at hv; cases hv
    rw [List.getElem?_append_left hi]
    exact hv
  cases kind with
  | UnitMergeKindDefine =>
    simp only [resolveStmt] at h ⊢
    cases hx : values[id]? with
    | none => rw [hx] at h; cases h
    | some v => rw [hx] at h; rw [hv v hx]; exact h
  | UnitMergeKindGlobal =>
    simp only [resolveStmt] at h ⊢
    cases hx : values[id]? with
    | none => rw [hx] at h; cases h
    | some v => rw [hx] at h; rw [hv v hx]; exact h
  | UnitMergeKindClass => exact h
  | UnitMergeKindUniqueDefinedClass => exact h
  | UnitMergeKindReq k => exact h
  | UnitMergeKindDone => exact h

/-- The loader rebuilds the statements from the rows of `commit`: started on
an emitter that holds the statements rebuilt so far (`P`) followed by the class
statements of the statements yet to come (`R`), it ends with `P` followed by
statements of the kinds of `R`, in the order of `R`, that stand for what the
statements of `R` stand for. -/
theorem getMergeableRows_commit (E : Env) (C : RepoCodec) (hE : E.RepoAuthoritative = true)
    (values : List (Nat × TypedValue))
    (hC : ∀ v ∈ values, C.getTypedValue (some (C.bindTypedValue v.2)) = v.2) :
    ∀ (R : List (UnitMergeKind × Nat)) (i : Nat) (rows : List MergeableRow)
      (ue : UnitEmitter) (P : List (UnitMergeKind × Nat)),
      commitMergeables C values R i = some rows →
      ue.m_mergeableStmts = P ++ classStmts R → P.length = i →
      ∃ ue1 Q more, getMergeableRows E C rows ue = some ue1 ∧
        ue1.m_mergeableStmts = P ++ Q ∧ Q.map Prod.fst = R.map Prod.fst ∧
        ue1.m_mergeableValues = ue.m_mergeableValues ++ more ∧
        Q.map (resolveStmt ue1.m_mergeableValues) = R.map (resolveStmt values) ∧
        (∀ r ∈ R.map (resolveStmt values), r ≠ none) ∧
        ue1.m_litstrs = ue.m_litstrs ∧ ue1.m_litstr2id = ue.m_litstr2id ∧
        ue1.m_pceVec = ue.m_pceVec ∧ ue1.m_hoistablePceIdVec = ue.m_hoistablePceIdVec ∧
        ue1.m_mainReturn = ue.m_mainReturn ∧
        (rows = [] → ue1 = ue) ∧ (rows ≠ [] → ue1.m_allClassesHoistable = false) := by
  have hne : (E.RepoAuthoritative = false) = False := by simp [hE]
  intro R
  induction R with
  | nil =>
    intro i rows ue P h hs _
    simp only [commitMergeables, Option.some.injEq] at h
    subst h
    refine ⟨ue, [], [], rfl, ?_, rfl, by simp, rfl, by simp, rfl, rfl, rfl, rfl, rfl,
      fun _ => rfl, fun h => absurd rfl h⟩
    rw [hs]; rfl
  | cons st R ih =>
    intro i rows ue P h hs hP
    obtain ⟨kind, second⟩ := st
    -- the step for a statement that is stored
    have hstored : ∀ (x : UnitMergeKind × Nat) (ue2 : UnitEmitter) (rows1 : List MergeableRow)
        (more0 : List (Nat × TypedValue)),
        kind ≠ UnitMergeKind.UnitMergeKindClass →
        commitMergeables C values R (i + 1) = some rows1 →
        ue2.m_mergeableStmts = (P ++ [x]) ++ classStmts R →
        ue2.m_mergeableValues = ue.m_mergeableValues ++ more0 →
        x.1 = kind →
        (∃ r, resolveStmt values (kind, second) = some r ∧
          resolveStmt ue2.m_mergeableValues x = some r) →
        ue2.m_litstrs = ue.m_litstrs → ue2.m_litstr2id = ue.m_litstr2id →
        ue2.m_pceVec = ue.m_pceVec → ue2.m_hoistablePceIdVec = ue.m_hoistablePceIdVec →
        ue2.m_mainReturn = ue.m_mainReturn → ue2.m_allClassesHoistable = false →
        ∃ ue1 Q more, getMergeableRows E C rows1 ue2 = some ue1 ∧
          ue1.m_mergeableStmts = P ++ Q ∧ Q.map Prod.fst = ((kind, second) :: R).map Prod.fst ∧
          ue1.m_mergeableValues = ue.m_mergeableValues ++ more ∧
          Q.map (resolveStmt ue1.m_mergeableValues) =
            ((kind, second) :: R).map (resolveStmt values) ∧
          (∀ r ∈ ((kind, second) :: R).map (resolveStmt values), r ≠ none) ∧
          ue1.m_litstrs = ue.m_litstrs ∧ ue1.m_litstr2id = ue.m_litstr2id ∧
          ue1.m_pceVec = ue.m_pceVec ∧ ue1.m_hoistablePceIdVec = ue.m_hoistablePceIdVec ∧
          ue1.m_mainReturn = ue.m_mainReturn ∧ ue1.m_allClassesHoistable = false := by
      intro x ue2 rows1 more0 hk h1 hs2 hv2 hx hres f1 f2 f3 f4 f5 f6
      obtain ⟨ue1, Q, more, g1, g2, g3, g4, g5, g6, g7, g8, g9, g10, g11, g12, g13⟩ :=
        ih (i + 1) rows1 ue2 (P ++ [x]) h1 hs2 (by simp [hP])
      obtain ⟨r, hr1, hr2⟩ := hres
      refine ⟨ue1, x :: Q, more0 ++ more, g1, ?_, ?_, ?_, ?_, ?_, by rw [g7, f1],
        by rw [g8, f2], by rw [g9, f3], by rw [g10, f4], by rw [g11, f5], ?_⟩
      · rw [g2]; simp
      · simp only [List.map_cons, g3, hx]
      · rw [g4, hv2, List.append_assoc]
      · simp only [List.map_cons, g5, hr1]
        congr 1
        rw [g4]
        exact resolveStmt_append _ _ _ _ hr2
      · intro r0 hr0
        simp only [List.map_cons, List.mem_cons] at hr0
        rcases hr0 with hr0 | hr0
        · rw [hr0, hr1]; simp
        · exact g6 r0 hr0
      · by_cases hr : rows1 = []
        · rw [g12 hr]; exact f6
        · exact g13 hr
    have hcls : kind ≠ UnitMergeKind.UnitMergeKindClass →
        classStmts ((kind, second) :: R) = classStmts R := by
      intro hk
      simp only [classStmts]
      rw [List.filter_cons_of_neg]
      simpa using hk
    have hlen : i ≤ ue.m_mergeableStmts.length := by
      rw [hs, List.length_append]; omega
    have hins : ∀ x : UnitMergeKind × Nat, kind ≠ UnitMergeKind.UnitMergeKindClass →
        ue.m_mergeableStmts.take i ++ x :: ue.m_mergeableStmts.drop i =
          (P ++ [x]) ++ classStmts R := by
      intro x hk
      rw [hs, hcls hk, ← hP]
      exact insert_between P _ x
    have hwrap : ∀ (ue1 : UnitEmitter) (Q : List (UnitMergeKind × Nat))
        (more : List (Nat × TypedValue)) (A B C1 D F G H I J K : Prop) (row : MergeableRow),
        rows ≠ [] → (A ∧ B ∧ C1 ∧ D ∧ F ∧ G ∧ H ∧ I ∧ J ∧ K ∧
          ue1.m_allClassesHoistable = false) →
        A ∧ B ∧ C1 ∧ D ∧ F ∧ G ∧ H ∧ I ∧ J ∧ K ∧ (rows = [] → ue1 = ue) ∧
          (rows ≠ [] → ue1.m_allClassesHoistable = false) := by
      intro ue1 Q more A B C1 D F G H I J K _ hr h0
      obtain ⟨a, b, c, d, f, g, h1, i1, j, k0, k⟩ := h0
      exact ⟨a, b, c, d, f, g, h1, i1, j, k0, fun h => absurd h hr, fun _ => k⟩
    cases kind with
    | UnitMergeKindDone => simp [commitMergeables] at h
    | UnitMergeKindUniqueDefinedClass => simp [commitMergeables] at h
    | UnitMergeKindClass =>
      simp only [commitMergeables] at h
      have hs1 : ue.m_mergeableStmts =
          (P ++ [(UnitMergeKind.UnitMergeKindClass, second)]) ++ classStmts R := by
        rw [hs]
        simp only [classStmts]
        rw [List.filter_cons_of_pos (by simp)]
        simp
      obtain ⟨ue1, Q, more, g1, g2, g3, g4, g5, g6, g7⟩ :=
        ih (i + 1) rows ue (P ++ [(UnitMergeKind.UnitMergeKindClass, second)]) h hs1
          (by simp [hP])
      refine ⟨ue1, (UnitMergeKind.UnitMergeKindClass, second) :: Q, more, g1, ?_, ?_, g4, ?_,
        ?_, g7⟩
      · rw [g2]; simp
      · simp only [List.map_cons, g3]
      · simp only [List.map_cons, g5]
        rfl
      · intro r0 hr0
        simp only [List.map_cons, List.mem_cons] at hr0
        rcases hr0 with hr0 | hr0
        · rw [hr0]; simp [resolveStmt]
        · exact g6 r0 hr0
    | UnitMergeKindReq k =>
      simp only [commitMergeables] at h
      cases h1 : commitMergeables C values R (i + 1) with
      | none => rw [h1] at h; cases h
      | some rows1 =>
        rw [h1] at h
        simp only [Option.some.injEq] at h
        subst h
        have hk : UnitMergeKind.UnitMergeKindReq k ≠ UnitMergeKind.UnitMergeKindClass := by simp
        obtain ⟨ue1, Q, more, g⟩ := hstored (UnitMergeKind.UnitMergeKindReq k, second)
          (insertMergeableInclude ue i (UnitMergeKind.UnitMergeKindReq k) second) rows1 []
          hk h1 (hins _ hk) (by simp [insertMergeableInclude]) rfl
          ⟨_, rfl, rfl⟩ rfl rfl rfl rfl rfl rfl
        refine ⟨ue1, Q, more, ?_⟩
        obtain ⟨g1, g2⟩ := g
        refine ⟨?_, ?_⟩
        · simp only [getMergeableRows, hne, if_false, if_pos hlen]
          exact g1
        · exact hwrap ue1 Q more _ _ _ _ _ _ _ _ _ _ ⟨i, .UnitMergeKindReq k, second, none⟩
            (by simp) g2
    | UnitMergeKindDefine =>
      simp only [commitMergeables] at h
      cases hv : values[second]? with
      | none => rw [hv] at h; cases h
      | some v =>
        obtain ⟨nameId, tv⟩ := v
        rw [hv] at h
        simp only [] at h
        cases h1 : commitMergeables C values R (i + 1) with
        | none => rw [h1] at h; cases h
        | some rows1 =>
          rw [h1] at h
          simp only [Option.some.injEq] at h
          subst h
          have hk : UnitMergeKind.UnitMergeKindDefine ≠ UnitMergeKind.UnitMergeKindClass := by
            simp
          have htv : C.getTypedValue (some (C.bindTypedValue tv)) = tv :=
            hC (nameId, tv) (List.getElem?_mem hv)
          obtain ⟨ue1, Q, more, g⟩ := hstored
            (UnitMergeKind.UnitMergeKindDefine, ue.m_mergeableValues.length)
            (insertMergeableDef ue i UnitMergeKind.UnitMergeKindDefine nameId
              (C.getTypedValue (some (C.bindTypedValue tv)))) rows1
            [(nameId, C.getTypedValue (some (C.bindTypedValue tv)))]
            hk h1 (hins _ hk) rfl rfl
            ⟨(UnitMergeKind.UnitMergeKindDefine, nameId, some tv), by simp [resolveStmt, hv],
              by simp [resolveStmt, insertMergeableDef, htv]⟩ rfl rfl rfl rfl rfl rfl
          refine ⟨ue1, Q, more, ?_⟩
          obtain ⟨g1, g2⟩ := g
          refine ⟨?_, ?_⟩
          · simp only [getMergeableRows, hne, if_false, if_pos hlen]
            exact g1
          · exact hwrap ue1 Q more _ _ _ _ _ _ _ _ _ _ ⟨i, .UnitMergeKindDefine, nameId, none⟩
              (by simp) g2
    | UnitMergeKindGlobal =>
      simp only [commitMergeables] at h
      cases hv : values[second]? with
      | none => rw [hv] at h; cases h
      | some v =>
        obtain ⟨nameId, tv⟩ := v
        rw [hv] at h
        simp only [] at h
        cases h1 : commitMergeables C values R (i + 1) with
        | none => rw [h1] at h; cases h
        | some rows1 =>
          rw [h1] at h
          simp only [Option.some.injEq] at h
          subst h
          have hk : UnitMergeKind.UnitMergeKindGlobal ≠ UnitMergeKind.UnitMergeKindClass := by
            simp
          have htv : C.getTypedValue (some (C.bindTypedValue tv)) = tv :=
            hC (nameId, tv) (List.getElem?_mem hv)
          obtain ⟨ue1, Q, more, g⟩ := hstored
            (UnitMergeKind.UnitMergeKindGlobal, ue.m_mergeableValues.length)
            (insertMergeableDef ue i UnitMergeKind.UnitMergeKindGlobal nameId
              (C.getTypedValue (some (C.bindTypedValue tv)))) rows1
            [(nameId, C.getTypedValue (some (C.bindTypedValue tv)))]
            hk h1 (hins _ hk) rfl rfl
            ⟨(UnitMergeKind.UnitMergeKindGlobal, nameId, some tv), by simp [resolveStmt, hv],
              by simp [resolveStmt, insertMergeableDef, htv]⟩ rfl rfl rfl rfl rfl rfl
          refine ⟨ue1, Q, more, ?_⟩
          obtain ⟨g1, g2⟩ := g
          refine ⟨?_, ?_⟩
          · simp only [getMergeableRows, hne, if_false, if_pos hlen]
            exact g1
          · exact hwrap ue1 Q more _ _ _ _ _ _ _ _ _ _ ⟨i, .UnitMergeKindGlobal, nameId, none⟩
              (by simp) g2

/-- The emitter after a sequence of calls followed by one more call. -/
theorem runOps_concat (X : EmitterEnv) (e : UnitEmitter) (ops : List EmitOp) (op : EmitOp) :
    runOps X e (ops ++ [op]) = op.run X (runOps X e ops) := by
  simp [runOps, List.foldl_append]

/-- Re-creating the templates of an emitter that was built by calls from a
new one, on an emitter that holds no template yet and has seen no return,
gives the templates back, with the set and the list of the hoistable
templates, and pushes the class statements of the templates that are
classified `Mergeable` or `MaybeHoistable`. -/
theorem getPreClasses_reload (X : EmitterEnv) (ops : List EmitOp) :
    ∀ (ue0 : UnitEmitter), ue0.m_pceVec = [] → ue0.m_hoistablePreClassSet = [] →
      ue0.m_hoistablePceIdVec = [] → ue0.m_returnSeen = false →
      (getPreClasses X (runOps X newUnitEmitter ops).m_pceVec ue0).m_pceVec =
        (runOps X newUnitEmitter ops).m_pceVec ∧
      (getPreClasses X (runOps X newUnitEmitter ops).m_pceVec ue0).m_hoistablePreClassSet =
        (runOps X newUnitEmitter ops).m_hoistablePreClassSet ∧
      (getPreClasses X (runOps X newUnitEmitter ops).m_pceVec ue0).m_hoistablePceIdVec =
        (runOps X newUnitEmitter ops).m_hoistablePceIdVec ∧
      (getPreClasses X (runOps X newUnitEmitter ops).m_pceVec ue0).m_returnSeen = false ∧
      (getPreClasses X (runOps X newUnitEmitter ops).m_pceVec ue0).m_mergeableStmts =
        ue0.m_mergeableStmts ++
          ((runOps X newUnitEmitter ops).m_pceVec.filter mergeableClass).map
            (fun pce => (UnitMergeKind.UnitMergeKindClass, pce.id)) ∧
      (getPreClasses X (runOps X newUnitEmitter ops).m_pceVec ue0).m_mergeableValues =
        ue0.m_mergeableValues ∧
      (getPreClasses X (runOps X newUnitEmitter ops).m_pceVec ue0).m_litstrs = ue0.m_litstrs ∧
      (getPreClasses X (runOps X newUnitEmitter ops).m_pceVec ue0).m_litstr2id =
        ue0.m_litstr2id ∧
      (getPreClasses X (runOps X newUnitEmitter ops).m_pceVec ue0).m_mainReturn =
        ue0.m_mainReturn := by
  induction ops using List.reverseRecOn with
  | nil =>
    intro ue0 h1 h2 h3 h4
    exact ⟨h1, h2, h3, h4, (List.append_nil _).symm, rfl, rfl, rfl, rfl⟩
  | append_singleton ops op ih =>
    intro ue0 h1 h2 h3 h4
    rw [runOps_concat]
    obtain ⟨i1, i2, i3, i4, i5, i6, i7, i8, i9⟩ := ih ue0 h1 h2 h3 h4
    by_cases hop : ∀ n h, op ≠ EmitOp.newPreClassEmitter n h
    · obtain ⟨p1, p2, p3⟩ := prefix_fields_run X (runOps X newUnitEmitter ops) op hop
      rw [p1, p2, p3]
      exact ⟨i1, i2, i3, i4, i5, i6, i7, i8, i9⟩
    · have : ∃ n h, op = EmitOp.newPreClassEmitter n h := by
        by_contra hc
        apply hop
        intro n h heq
        exact hc ⟨n, h, heq⟩
      obtain ⟨n, h, rfl⟩ := this
      simp only [EmitOp.run]
      generalize he0 : runOps X newUnitEmitter ops = e0 at i1 i2 i3 i4 i5 i6 i7 i8 i9 ⊢
      obtain ⟨q1, q2, q3, q4⟩ := newPreClassEmitter_effect X e0 n h
      generalize hpce : (newPreClassEmitter X e0 n h).1 = pce at q1 q2 q3 q4
      generalize hg0 : getPreClasses X e0.m_pceVec ue0 = g0 at i1 i2 i3 i4 i5 i6 i7 i8 i9
      have hg : getPreClasses X (newPreClassEmitter X e0 n h).2.m_pceVec ue0 =
          (newPreClassEmitter X g0 pce.name pce.hoistable).2 := by
        rw [q2, ← hg0]
        simp [getPreClasses, List.foldl_append]
      rw [hg]
      have hcount : hoistableCount X g0 n = hoistableCount X e0 n := by
        simp only [hoistableCount, i2]
      have hname : pce.name = n := by rw [q1]
      have hid : pce.id = e0.m_pceVec.length := by rw [q1]
      obtain ⟨r1, r2, r3, r4⟩ := newPreClassEmitter_effect X g0 pce.name pce.hoistable
      obtain ⟨t1, t2, t3, t4, t5, t6⟩ := newPreClassEmitter_stmts X g0 pce.name pce.hoistable
      obtain ⟨f1, f2, _, _⟩ := newPreClassEmitter_frame X g0 pce.name pce.hoistable
      have hsame : (newPreClassEmitter X g0 pce.name pce.hoistable).1 = pce := by
        rw [r1, hname, hcount, i1]
        have hcls : (if pce.hoistable.toNat ≠ 0 ∧ hoistableCount X e0 n = true
            then Hoistable.Mergeable else pce.hoistable) = pce.hoistable := by
          rw [q1]
          simp only []
          cases hc : hoistableCount X e0 n <;> cases h <;> simp [Hoistable.toNat]
        rw [hcls, q1]
      rw [hsame] at r2 r3 r4 t1
      refine ⟨?_, ?_, ?_, ?_, ?_, ?_, ?_, ?_, ?_⟩
      · rw [r2, q2, i1]
      · by_cases hm : Hoistable.MaybeHoistable.toNat ≤ pce.hoistable.toNat
        · rw [(r3 hm).2.2.1, (q3 hm).2.2.1, hname, i2]
        · rw [(r4 (by omega)).1, (q4 (by omega)).1, i2]
      · by_cases hm : Hoistable.MaybeHoistable.toNat ≤ pce.hoistable.toNat
        · rw [(r3 hm).2.2.2, (q3 hm).2.2.2, i3, i1]
        · rw [(r4 (by omega)).2, (q4 (by omega)).2, i3]
      · rw [t4, i4]
      · rw [t1, q2, List.filter_append, List.map_append, i5, i4, i1]
        by_cases hm : Hoistable.Mergeable.toNat ≤ pce.hoistable.toNat ∧
            pce.hoistable.toNat < Hoistable.AlwaysHoistable.toNat
        · have hmc : mergeableClass pce = true := by simpa [mergeableClass] using hm
          rw [if_pos ⟨hm, rfl⟩, List.filter_cons_of_pos hmc]
          simp [hid]
        · have hmc : ¬ (mergeableClass pce = true) := by simpa [mergeableClass] using hm
          rw [if_neg (fun hc => hm hc.1), List.filter_cons_of_neg hmc]
          simp
      · rw [t3, i6]
      · rw [f1, i7]
      · rw [f2, i8]
      · rw [t5, i9]

/-- `mergeLitstr` leaves the merge statements, their values, the templates
and the flags of the emitter alone. -/
theorem mergeLitstr_stmts (e : UnitEmitter) (t : String) :
    (mergeLitstr e t).2.m_mergeableStmts = e.m_mergeableStmts ∧
    (mergeLitstr e t).2.m_mergeableValues = e.m_mergeableValues ∧
    (mergeLitstr e t).2.m_returnSeen = e.m_returnSeen ∧
    (mergeLitstr e t).2.m_pceVec = e.m_pceVec := by
  simp only [mergeLitstr]
  split <;> exact ⟨rfl, rfl, rfl, rfl⟩

/-- The statements that `commit` can store: a class, an include, and a
define or a global whose value the emitter holds. -/
theorem commitMergeables_total (C : RepoCodec) (values : List (Nat × TypedValue)) :
    ∀ (stmts : List (UnitMergeKind × Nat)) (i : Nat),
      (∀ st ∈ stmts, st.1 = UnitMergeKind.UnitMergeKindClass ∨
        (∃ k, st.1 = UnitMergeKind.UnitMergeKindReq k) ∨
        ((st.1 = UnitMergeKind.UnitMergeKindDefine ∨ st.1 = UnitMergeKind.UnitMergeKindGlobal) ∧
          st.2 < values.length)) →
      ∃ rows, commitMergeables C values stmts i = some rows := by
  intro stmts
  induction stmts with
  | nil => intro i _; exact ⟨[], rfl⟩
  | cons st rest ih =>
    intro i h
    obtain ⟨rows1, h1⟩ := ih (i + 1) (fun x hx => h x (List.mem_cons_of_mem _ hx))
    obtain ⟨kind, second⟩ := st
    have h0 := h (kind, second) (List.mem_cons_self _ _)
    cases kind with
    | UnitMergeKindClass => exact ⟨rows1, by simp only [commitMergeables, h1]⟩
    | UnitMergeKindReq k =>
      simp only [commitMergeables, h1]
      exact ⟨_, rfl⟩
    | UnitMergeKindDefine =>
      have hlt : second < values.length := by
        rcases h0 with h0 | ⟨_, h0⟩ | ⟨_, h0⟩
        · cases h0
        · cases h0
        · exact h0
      simp only [commitMergeables, List.getElem?_eq_getElem hlt, h1]
      exact ⟨_, rfl⟩
    | UnitMergeKindGlobal =>
      have hlt : second < values.length := by
        rcases h0 with h0 | ⟨_, h0⟩ | ⟨_, h0⟩
        · cases h0
        · cases h0
        · exact h0
      simp only [commitMergeables, List.getElem?_eq_getElem hlt, h1]
      exact ⟨_, rfl⟩
    | UnitMergeKindDone =>
      rcases h0 with h0 | ⟨_, h0⟩ | ⟨h0 | h0, _⟩ <;> cases h0
    | UnitMergeKindUniqueDefinedClass =>
      rcases h0 with h0 | ⟨_, h0⟩ | ⟨h0 | h0, _⟩ <;> cases h0

/-- An emitter that the calls of the compiler build from a new one, with no
top-level return seen: its class statements are those of its `Mergeable` and
`MaybeHoistable` templates, and `commit` can store its statements. -/
theorem plain_ops_ok (X : EmitterEnv) (ops : List EmitOp) :
    (∀ op ∈ ops, op.plain = true) →
    ClassStmtsOK (runOps X newUnitEmitter ops) ∧
    (runOps X newUnitEmitter ops).m_returnSeen = false ∧
    ∀ st ∈ (runOps X newUnitEmitter ops).m_mergeableStmts,
      st.1 = UnitMergeKind.UnitMergeKindClass ∨
      (∃ k, st.1 = UnitMergeKind.UnitMergeKindReq k) ∨
      ((st.1 = UnitMergeKind.UnitMergeKindDefine ∨ st.1 = UnitMergeKind.UnitMergeKindGlobal) ∧
        st.2 < (runOps X newUnitEmitter ops).m_mergeableValues.length) := by
  induction ops using List.reverseRecOn with
  | nil =>
    intro _
    refine ⟨rfl, rfl, ?_⟩
    intro st hst
    cases hst
  | append_singleton ops op ih =>
    intro hp
    obtain ⟨i1, i2, i3⟩ := ih (fun x hx => hp x (List.mem_append_left _ hx))
    have hop : op.plain = true := hp op (by simp)
    rw [runOps_concat]
    generalize runOps X newUnitEmitter ops = e at i1 i2 i3
    -- a call that leaves the statements, the values and the templates alone
    have hsame : ∀ e1 : UnitEmitter, e1.m_mergeableStmts = e.m_mergeableStmts →
        e1.m_mergeableValues = e.m_mergeableValues → e1.m_returnSeen = e.m_returnSeen →
        e1.m_pceVec = e.m_pceVec →
        ClassStmtsOK e1 ∧ e1.m_returnSeen = false ∧
        ∀ st ∈ e1.m_mergeableStmts, st.1 = UnitMergeKind.UnitMergeKindClass ∨
          (∃ k, st.1 = UnitMergeKind.UnitMergeKindReq k) ∨
          ((st.1 = UnitMergeKind.UnitMergeKindDefine ∨
            st.1 = UnitMergeKind.UnitMergeKindGlobal) ∧ st.2 < e1.m_mergeableValues.length) := by
      intro e1 a b c d
      refine ⟨?_, by rw [c, i2], ?_⟩
      · simp only [ClassStmtsOK, a, d]; exact i1
      · rw [a, b]; exact i3
    -- a call that pushes one statement that is not a class
    have hpush : ∀ (e1 : UnitEmitter) (x : UnitMergeKind × Nat)
        (more : List (Nat × TypedValue)),
        e1.m_mergeableStmts = e.m_mergeableStmts ++ [x] →
        e1.m_mergeableValues = e.m_mergeableValues ++ more → e1.m_returnSeen = e.m_returnSeen →
        e1.m_pceVec = e.m_pceVec → x.1 ≠ UnitMergeKind.UnitMergeKindClass →
        ((∃ k, x.1 = UnitMergeKind.UnitMergeKindReq k) ∨
          ((x.1 = UnitMergeKind.UnitMergeKindDefine ∨ x.1 = UnitMergeKind.UnitMergeKindGlobal) ∧
            x.2 < e1.m_mergeableValues.length)) →
        ClassStmtsOK e1 ∧ e1.m_returnSeen = false ∧
        ∀ st ∈ e1.m_mergeableStmts, st.1 = UnitMergeKind.UnitMergeKindClass ∨
          (∃ k, st.1 = UnitMergeKind.UnitMergeKindReq k) ∨
          ((st.1 = UnitMergeKind.UnitMergeKindDefine ∨
            st.1 = UnitMergeKind.UnitMergeKindGlobal) ∧ st.2 < e1.m_mergeableValues.length) := by
      intro e1 x more a b c d hx hx2
      refine ⟨?_, by rw [c, i2], ?_⟩
      · simp only [ClassStmtsOK, a, d, classStmts, List.filter_append]
        rw [List.filter_cons_of_neg (by simpa using hx)]
        simp only [List.filter_nil, List.append_nil]
        exact i1
      · intro st hst
        rw [a] at hst
        simp only [List.mem_append, List.mem_singleton] at hst
        rcases hst with hst | hst
        · rcases i3 st hst with h | h | ⟨h, hl⟩
          · exact Or.inl h
          · exact Or.inr (Or.inl h)
          · refine Or.inr (Or.inr ⟨h, ?_⟩)
            rw [b, List.length_append]; omega
        · subst hst; exact Or.inr hx2
    cases op with
    | mergeLitstr t =>
      obtain ⟨a, b, c, d⟩ := mergeLitstr_stmts e t
      exact hsame _ a b c d
    | mergeArray a key =>
      apply hsame <;> (simp only [EmitOp.run, mergeArray]; split <;> rfl)
    | newFuncEmitter n top =>
      apply hsame <;> (simp only [EmitOp.run, newFuncEmitter]; (repeat' split) <;> rfl)
    | appendTopEmitter fe => exact hsame _ rfl rfl rfl rfl
    | pushMergeableClass pce => simp [EmitOp.plain] at hop
    | pushMergeableInclude kind unitName =>
      obtain ⟨a, b, c, d⟩ := mergeLitstr_stmts e unitName
      cases kind with
      | UnitMergeKindReq k =>
        refine hpush _ (UnitMergeKind.UnitMergeKindReq k, (mergeLitstr e unitName).1) [] ?_ ?_ c d
          (by simp) (Or.inl ⟨k, rfl⟩)
        · simp only [EmitOp.run, pushMergeableInclude, a]
        · simp only [EmitOp.run, pushMergeableInclude, b, List.append_nil]
      | _ => simp [EmitOp.plain] at hop
    | insertMergeableInclude ix kind id => simp [EmitOp.plain] at hop
    | pushMergeableDef kind name tv =>
      obtain ⟨a, b, c, d⟩ := mergeLitstr_stmts
        { e with m_mergeableStmts := e.m_mergeableStmts ++ [(kind, e.m_mergeableValues.length)] }
        name
      have hk : kind = UnitMergeKind.UnitMergeKindDefine ∨
          kind = UnitMergeKind.UnitMergeKindGlobal := by
        cases kind <;> simp [EmitOp.plain] at hop ⊢
      refine hpush _ (kind, e.m_mergeableValues.length)
        [((mergeLitstr { e with m_mergeableStmts :=
          e.m_mergeableStmts ++ [(kind, e.m_mergeableValues.length)] } name).1, tv)]
        ?_ ?_ c d ?_ (Or.inr ⟨hk, ?_⟩)
      · simp only [EmitOp.run, pushMergeableDef, a]
      · simp only [EmitOp.run, pushMergeableDef, b]
      · rcases hk with hk | hk <;> rw [hk] <;> simp
      · simp only [EmitOp.run, pushMergeableDef, b, List.length_append, List.length_singleton]
        omega
    | insertMergeableDef ix kind id tv => simp [EmitOp.plain] at hop
    | newPreClassEmitter n h =>
      obtain ⟨q1, q2, _, _⟩ := newPreClassEmitter_effect X e n h
      obtain ⟨t1, _, t3, t4, _, _⟩ := newPreClassEmitter_stmts X e n h
      simp only [EmitOp.run]
      generalize hpce : (newPreClassEmitter X e n h).1 = pce at q1 q2 t1
      have hid : pce.id = e.m_pceVec.length := by rw [q1]
      refine ⟨?_, by rw [t4, i2], ?_⟩
      · simp only [ClassStmtsOK]
        rw [t1, q2, List.filter_append, List.map_append]
        by_cases hm : Hoistable.Mergeable.toNat ≤ pce.hoistable.toNat ∧
            pce.hoistable.toNat < Hoistable.AlwaysHoistable.toNat
        · have hmc : mergeableClass pce = true := by simpa [mergeableClass] using hm
          rw [if_pos ⟨hm, i2⟩, List.filter_cons_of_pos hmc]
          have i1a : classStmts e.m_mergeableStmts = (e.m_pceVec.filter mergeableClass).map
              (fun pce => (UnitMergeKind.UnitMergeKindClass, pce.id)) := i1
          have hca : classStmts (e.m_mergeableStmts ++
              [(UnitMergeKind.UnitMergeKindClass, e.m_pceVec.length)]) =
              classStmts e.m_mergeableStmts ++
                [(UnitMergeKind.UnitMergeKindClass, e.m_pceVec.length)] := by
            simp [classStmts, List.filter_append]
          rw [hca, i1a]
          simp [hid]
        · have hmc : ¬ (mergeableClass pce = true) := by simpa [mergeableClass] using hm
          rw [if_neg (fun hc => hm hc.1), List.filter_cons_of_neg hmc]
          simp only [List.filter_nil, List.map_nil, List.append_nil]
          exact i1
      · intro st hst
        rw [t1] at hst
        rw [t3]
        split at hst
        · simp only [List.mem_append, List.mem_singleton] at hst
          rcases hst with hst | hst
          · exact i3 st hst
          · subst hst; exact Or.inl rfl
        · exact i3 st hst
    | returnSeen => simp [EmitOp.plain] at hop
    | setMainReturn tv => exact hsame _ rfl rfl rfl rfl

/-- C31 (the claim as stated fails).  Outside the repo-authoritative mode the
loader stops at the first stored row: the emitter of `include 'a.php';`
commits the row of its include, and the emitter that is loaded back has no
merge statement and is not merge-only.  And in the repo-authoritative mode a
class that was declared after a top-level `return` has no class statement in
the emitter that is committed, but re-creating its template pushes one: the
emitter of `return 1; class C extends B {}` has no merge statement, and the
emitter that is loaded back has one. -/
theorem stmts_round_trip_counterexample :
    interpEnv.RepoAuthoritative = false ∧
    exEmitterInclude.m_mergeableStmts = [(UnitMergeKind.UnitMergeKindReq ReqKind.ReqDoc, 0)] ∧
    commitMergeables exRepoCodec exEmitterInclude.m_mergeableValues
      exEmitterInclude.m_mergeableStmts 0 =
      some [⟨0, UnitMergeKind.UnitMergeKindReq ReqKind.ReqDoc, 0, none⟩] ∧
    (∃ ue, loadEmitter exEmitterEnv interpEnv exRepoCodec exEmitterInclude.m_mainReturn
        (commitLitstrs exEmitterInclude.m_litstrs 0) exEmitterInclude.m_pceVec
        [⟨0, UnitMergeKind.UnitMergeKindReq ReqKind.ReqDoc, 0, none⟩] = some ue ∧
      ue.m_mergeableStmts = [] ∧ ue.m_mainReturn._count = 0) ∧
    quietEnv.RepoAuthoritative = true ∧
    exEmitterAfterReturn.m_mergeableStmts = [] ∧
    commitMergeables exRepoCodec exEmitterAfterReturn.m_mergeableValues
      exEmitterAfterReturn.m_mergeableStmts 0 = some [] ∧
    (∃ ue, loadEmitter exEmitterEnv quietEnv exRepoCodec exEmitterAfterReturn.m_mainReturn
        (commitLitstrs exEmitterAfterReturn.m_litstrs 0) exEmitterAfterReturn.m_pceVec [] =
        some ue ∧
      ue.m_mergeableStmts = [(UnitMergeKind.UnitMergeKindClass, 0)]) :=
  ⟨rfl, rfl, rfl, ⟨_, rfl, rfl, rfl⟩, rfl, rfl, rfl, ⟨_, rfl, rfl⟩⟩

/-- C31.  The round trip of the merge statements, for an emitter that was
built by calls from a new one and whose class statements are those of its
templates that are classified `Mergeable` or `MaybeHoistable`, in the order of
the templates (no such template was created after a top-level `return`), when
`commit` can store the statements (each is a class, an include, or a define or
a global with its value) and the repo gives back the values it stores.
`commit` stores every statement that is not a class with its index; the
loader rebuilds the literal table, re-creates the templates, which pushes the
class statements, and inserts every stored row at its index, in the order of
the indexes (every insertion is inside the sequence).  In the
repo-authoritative mode the statements of the emitter that is loaded are as
many as those committed, of the same kinds in the same order, and each stands
for the same thing: the same template, the same unit name, or the same name
and value; the literal table, in which the names are looked up, is the same.
Outside the repo-authoritative mode, when a row was stored, the loaded emitter
holds the class statements only and is not merge-only. -/
theorem stmts_round_trip (X : EmitterEnv) (E : Env) (C : RepoCodec) (ops : List EmitOp)
    (hcls : ClassStmtsOK (runOps X newUnitEmitter ops))
    (hC : ∀ v ∈ (runOps X newUnitEmitter ops).m_mergeableValues,
      C.getTypedValue (some (C.bindTypedValue v.2)) = v.2)
    (rows : List MergeableRow)
    (hcommit : commitMergeables C (runOps X newUnitEmitter ops).m_mergeableValues
      (runOps X newUnitEmitter ops).m_mergeableStmts 0 = some rows)
    (mainReturn : TypedValue) :
    (E.RepoAuthoritative = true →
      ∃ ue, loadEmitter X E C mainReturn
          (commitLitstrs (runOps X newUnitEmitter ops).m_litstrs 0)
          (runOps X newUnitEmitter ops).m_pceVec rows = some ue ∧
        ue.m_mergeableStmts.length = (runOps X newUnitEmitter ops).m_mergeableStmts.length ∧
        ue.m_mergeableStmts.map Prod.fst =
          (runOps X newUnitEmitter ops).m_mergeableStmts.map Prod.fst ∧
        resolvedStmts ue = resolvedStmts (runOps X newUnitEmitter ops) ∧
        (∀ r ∈ resolvedStmts (runOps X newUnitEmitter ops), r ≠ none) ∧
        ue.m_litstrs = (runOps X newUnitEmitter ops).m_litstrs ∧
        ue.m_litstr2id = (runOps X newUnitEmitter ops).m_litstr2id ∧
        ue.m_pceVec = (runOps X newUnitEmitter ops).m_pceVec ∧
        ue.m_hoistablePceIdVec = (runOps X newUnitEmitter ops).m_hoistablePceIdVec ∧
        ue.m_mainReturn = mainReturn) ∧
    (E.RepoAuthoritative = false → rows ≠ [] →
      ∃ ue, loadEmitter X E C mainReturn
          (commitLitstrs (runOps X newUnitEmitter ops).m_litstrs 0)
          (runOps X newUnitEmitter ops).m_pceVec rows = some ue ∧
        ue.m_mergeableStmts = classStmts (runOps X newUnitEmitter ops).m_mergeableStmts ∧
        ue.m_mainReturn._count = 0) ∧
    selectMergeables rows = rows := by
  have hok : LitstrOK (runOps X newUnitEmitter ops) :=
    (litstr_runOps X ops newUnitEmitter).1 tableOK_nil
  obtain ⟨ue1, l1, l2, l3, l4, l5, l6, l7, l8, _, l10, l11⟩ :=
    getLitstrRows_commit (runOps X newUnitEmitter ops).m_litstrs
      (setMainReturn newUnitEmitter mainReturn) tableOK_nil (by
        show ([] ++ (runOps X newUnitEmitter ops).m_litstrs).Nodup
        rw [List.nil_append]
        exact tableOK_nodup hok)
  have hl : GetUnitLitstrsStmt.get (commitLitstrs (runOps X newUnitEmitter ops).m_litstrs 0)
      (setMainReturn newUnitEmitter mainReturn) = some ue1 := by
    simp only [GetUnitLitstrsStmt.get]
    rw [selectLitstrs_commit]
    exact l1
  have l2a : ue1.m_litstrs = (runOps X newUnitEmitter ops).m_litstrs := by
    rw [l2]; exact List.nil_append _
  have l3a : ue1.m_litstr2id = (runOps X newUnitEmitter ops).m_litstr2id := by
    apply tableOK_unique _ hok
    have : TableOK ue1.m_litstrs ue1.m_litstr2id := l3
    rw [l2a] at this
    exact this
  obtain ⟨g1, g2, g3, g4, g5, g6, g7, g8, g9⟩ :=
    getPreClasses_reload X ops ue1 (by rw [l6]; rfl) (by rw [l7]; rfl) (by rw [l8]; rfl)
      (by rw [l10]; rfl)
  have hsel := selectMergeables_commit C _ _ 0 rows hcommit
  have hstart : (getPreClasses X (runOps X newUnitEmitter ops).m_pceVec ue1).m_mergeableStmts =
      [] ++ classStmts (runOps X newUnitEmitter ops).m_mergeableStmts := by
    rw [g5, l4]
    have : classStmts (runOps X newUnitEmitter ops).m_mergeableStmts =
        ((runOps X newUnitEmitter ops).m_pceVec.filter mergeableClass).map
          (fun pce => (UnitMergeKind.UnitMergeKindClass, pce.id)) := hcls
    rw [this]
    rfl
  refine ⟨?_, ?_, hsel⟩
  · intro hE
    obtain ⟨ue, Q, more, r1, r2, r3, r4, r5, r6, r7, r8, r9, r10, r11, _, _⟩ :=
      getMergeableRows_commit E C hE _ hC _ 0 rows _ [] hcommit hstart rfl
    rw [List.nil_append] at r2
    refine ⟨ue, ?_, ?_, ?_, ?_, r6, ?_, ?_, ?_, ?_, ?_⟩
    · simp only [loadEmitter, hl, GetUnitMergeablesStmt.get, hsel]
      exact r1
    · have := congrArg List.length r3
      simp only [List.length_map] at this
      rw [r2]; exact this
    · rw [r2]; exact r3
    · simp only [resolvedStmts]
      rw [r2]; exact r5
    · rw [r7, g7, l2a]
    · rw [r8, g8, l3a]
    · rw [r9, g1]
    · rw [r10, g3]
    · rw [r11, g9, l11]; rfl
  · intro hE hrows
    cases hr : rows with
    | nil => exact absurd hr hrows
    | cons row rest =>
      refine ⟨markNotMergeOnly (getPreClasses X (runOps X newUnitEmitter ops).m_pceVec ue1),
        ?_, ?_, rfl⟩
      · rw [hr] at hsel
        simp only [loadEmitter, hl, GetUnitMergeablesStmt.get, hsel, getMergeableRows, hE,
          if_true]
      · show (getPreClasses X (runOps X newUnitEmitter ops).m_pceVec ue1).m_mergeableStmts = _
        rw [hstart]; rfl

/-- The theorem `stmts_round_trip` applies to the emitter `exEmitterStmts` of
`class C {}  define('X', 1);`, whose statements are the class statement and
the define: only the define is stored, at the index 1, and the emitter that is
loaded back in the repo-authoritative mode has the two statements. -/
theorem stmts_round_trip_witness :
    ClassStmtsOK exEmitterStmts ∧
    commitMergeables exRepoCodec exEmitterStmts.m_mergeableValues
      exEmitterStmts.m_mergeableStmts 0 =
      some [⟨1, UnitMergeKind.UnitMergeKindDefine, 0, some "1"⟩] ∧
    ∃ ue, loadEmitter exEmitterEnv quietEnv exRepoCodec ⟨1, 1, DataType.KindOfInt64⟩
        (commitLitstrs exEmitterStmts.m_litstrs 0) exEmitterStmts.m_pceVec
        [⟨1, UnitMergeKind.UnitMergeKindDefine, 0, some "1"⟩] = some ue ∧
      ue.m_mergeableStmts.map Prod.fst =
        [UnitMergeKind.UnitMergeKindClass, UnitMergeKind.UnitMergeKindDefine] ∧
      resolvedStmts ue = resolvedStmts exEmitterStmts := by
  have hops : exEmitterStmts = runOps exEmitterEnv newUnitEmitter
      [EmitOp.setMainReturn ⟨1, 1, DataType.KindOfInt64⟩, EmitOp.newFuncEmitter "" false,
        EmitOp.newPreClassEmitter "C" Hoistable.Mergeable,
        EmitOp.pushMergeableDef UnitMergeKind.UnitMergeKindDefine "X" exValX] := rfl
  have hcls : ClassStmtsOK exEmitterStmts := by
    rw [hops]
    exact (plain_ops_ok exEmitterEnv _ (by decide)).1
  have hC : ∀ v ∈ exEmitterStmts.m_mergeableValues,
      exRepoCodec.getTypedValue (some (exRepoCodec.bindTypedValue v.2)) = v.2 := by
    intro v hv
    have : v = (0, exValX) := by
      have h1 : exEmitterStmts.m_mergeableValues = [(0, exValX)] := rfl
      rw [h1] at hv
      simpa using hv
    rw [this]
    rfl
  obtain ⟨ue, h1, _, h3, h4, _⟩ :=
    (stmts_round_trip exEmitterEnv quietEnv exRepoCodec
      [EmitOp.setMainReturn ⟨1, 1, DataType.KindOfInt64⟩, EmitOp.newFuncEmitter "" false,
        EmitOp.newPreClassEmitter "C" Hoistable.Mergeable,
        EmitOp.pushMergeableDef UnitMergeKind.UnitMergeKindDefine "X" exValX]
      hcls hC [⟨1, UnitMergeKind.UnitMergeKindDefine, 0, some "1"⟩] rfl
      ⟨1, 1, DataType.KindOfInt64⟩).1 rfl
  exact ⟨hcls, rfl, ue, h1, h3, h4⟩

/-! ## One cache slot per class name -/

/-- The calls of `defClass` only grow the chains and keep the directory
well-formed. -/
theorem defClassReaches_mono (E : Env) (hE : E.Respects Mono) (hF : E.Fresh) (s t : VM)
    (hs : ChainsOK s) (hr : DefClassReaches E s t) : Mono s t := by
  induction hr with
  | refl => exact mono_refl _
  | step t u fuel P f _ hend ih =>
    have hpost := defClass_post E Mono (defClassRel_mono E hE hF) fuel P f t (ih.2 hs)
    exact mono_trans ih (post_endsIn hpost hend)

/-- C38.  One cache slot per class name.  In every state reached through
calls of `defClass` from a well-formed directory (collaborators only grow the
chains and keep them well-formed, `newClass` hands out a new address), all the
classes of the chain of one name have the same cache slot; every class that
was added to a chain that was not empty has the slot of the head it was put in
front of; so marking any class of a chain cached makes it the class that
every class of the chain finds in its slot, and the class that a lookup of the
name finds.  The publication itself gives the new class the slot of the head
of the chain, and calls `allocKnownClass` only when the chain is empty; the
chain is then the new class in front of the old chain, and all its classes
have one slot. -/
theorem one_slot_per_name (E : Env) (hE : E.Respects Mono) (hF : E.Fresh) (s t : VM)
    (hs : ChainsOK s) (hr : DefClassReaches E s t) :
    ChainsOK t ∧ OneSlot t ∧
    (∀ n, s.clsList n <:+ t.clsList n) ∧
    (∀ n h, (s.clsList n).head? = some h →
      ∀ c ∈ t.clsList n, c.m_cachedOffset = h.m_cachedOffset) ∧
    (∀ n, ∀ c ∈ t.clsList n, ∀ d ∈ t.clsList n,
      d.getCached (c.setCached t) = some c ∧ lookupClass (c.setCached t) n = some c) ∧
    (∀ (P : PreClass) (N : Class),
      (defClassPublish E P (t.clsList P.name) N t).1.m_cachedOffset =
        (match t.clsList P.name with
          | h :: _ => h.m_cachedOffset
          | [] => E.allocKnownClass P.name) ∧
      (defClassPublish E P (t.clsList P.name) N t).2.clsList P.name =
        (defClassPublish E P (t.clsList P.name) N t).1 :: t.clsList P.name ∧
      (∀ d ∈ t.clsList P.name,
        (defClassPublish E P (t.clsList P.name) N t).1.m_cachedOffset = d.m_cachedOffset) ∧
      ((∀ d ∈ t.clsList P.name, d.addr ≠ N.addr) →
        OneSlot (defClassPublish E P (t.clsList P.name) N t).2)) := by
  have hmono := defClassReaches_mono E hE hF s t hs hr
  have hok : ChainsOK t := hmono.2 hs
  have hone : OneSlot t := fun n => (hok n).2
  refine ⟨hok, hone, hmono.1, ?_, ?_, ?_⟩
  · intro n h hh c hc
    have hmem : h ∈ t.clsList n := by
      obtain ⟨l, hl⟩ := hmono.1 n
      rw [← hl]
      apply List.mem_append_right
      cases hsn : s.clsList n with
      | nil => rw [hsn] at hh; cases hh
      | cons a rest =>
        rw [hsn] at hh
        simp only [List.head?_cons, Option.some.injEq] at hh
        rw [hh]; exact List.mem_cons_self _ _
    exact hone n c hc h hmem
  · intro n c hc d hd
    have hoff : d.m_cachedOffset = c.m_cachedOffset := hone n d hd c hc
    refine ⟨?_, ?_⟩
    · simp only [Class.getCached, Class.setCached, hoff, Function.update_same]
    · simp only [lookupClass, setCached_clsList]
      cases hl : t.clsList n with
      | nil => rw [hl] at hc; cases hc
      | cons a rest =>
        simp only []
        have ha : a.m_cachedOffset = c.m_cachedOffset :=
          hone n a (by rw [hl]; exact List.mem_cons_self _ _) c hc
        simp only [Class.getCached, Class.setCached, ha, Function.update_same]
  · intro P N
    have hoffs : ∀ d ∈ t.clsList P.name,
        (defClassPublish E P (t.clsList P.name) N t).1.m_cachedOffset = d.m_cachedOffset := by
      intro d hd
      simp only [defClassPublish]
      cases hl : t.clsList P.name with
      | nil => rw [hl] at hd; cases hd
      | cons a rest =>
        simp only []
        exact hone P.name a (by rw [hl]; exact List.mem_cons_self _ _) d hd
    refine ⟨?_, ?_, hoffs, ?_⟩
    · simp only [defClassPublish]
    · simp only [defClassPublish, Class.setCached, Function.update_same]
    · intro hfresh
      have := (defClassPublish_mono E P N t hok hfresh).2 hok
      exact fun n => (this n).2

/-- The theorem `one_slot_per_name` applies to the state that
`defClass(exPreC)` reaches from `emptyVM`: the chain of `C` holds the class
`exClsC`, in the slot 68 that `allocKnownClass` gave it, and a second class of
the name would be given the same slot. -/
theorem one_slot_per_name_witness :
    ChainsOK emptyVM ∧ DefClassReaches quietEnv emptyVM exVMC ∧ OneSlot exVMC ∧
    exVMC.clsList "C" = [exClsC] ∧ exClsC.m_cachedOffset = quietEnv.allocKnownClass "C" ∧
    (defClassPublish quietEnv exPreC2 (exVMC.clsList "C") ⟨2, exPreC2, none, 0⟩
      exVMC).1.m_cachedOffset = 68 := by
  have hr : DefClassReaches quietEnv emptyVM exVMC :=
    DefClassReaches.step emptyVM emptyVM exVMC 1 exPreC true (DefClassReaches.refl _) rfl
  have h := one_slot_per_name quietEnv (quietEnv_respects Mono mono_refl) quietEnv_fresh
    emptyVM exVMC emptyVM_chainsOK hr
  exact ⟨emptyVM_chainsOK, hr, h.2.1, rfl, by decide, rfl⟩

/-! ## The bits of the merge state -/

theorem udcStep_refl (a : MergeState) : UdcStep a a := Or.inl rfl

theorem udcStep_trans {a b c : MergeState} (h1 : UdcStep a b) (h2 : UdcStep b c) :
    UdcStep a c := by
  rcases h1 with e1 | ⟨u1, e1⟩ <;> rcases h2 with e2 | ⟨u2, e2⟩
  · exact Or.inl (by rw [e2, e1])
  · rw [e1] at u2 e2
    exact Or.inr ⟨u2, e2⟩
  · exact Or.inr ⟨u1, by rw [e2, e1]⟩
  · exact Or.inr ⟨u1, by rw [e2, e1]⟩

theorem stateStep_refl (a : MergeState) : StateStep a a := Or.inl (Or.inl rfl)

theorem stateStep_trans {a b c : MergeState} (h1 : StateStep a b) (h2 : StateStep b c) :
    StateStep a c := by
  rcases h1 with h1 | ⟨ha, hb⟩
  · rcases h2 with h2 | ⟨hb, hc⟩
    · exact Or.inl (udcStep_trans h1 h2)
    · rcases h1 with e1 | ⟨u1, e1⟩
      · rw [e1] at hb
        exact Or.inr ⟨hb, hc⟩
      · exfalso
        rw [e1] at hb
        rcases hb with hb | hb <;>
          · have := congrArg MergeState.uniqueDefinedClasses hb
            simp [UnitMergeStateUnmerged, UnitMergeStateMerging] at this
  · rcases h2 with h2 | ⟨hb2, hc⟩
    · rcases h2 with e2 | ⟨u2, e2⟩
      · rw [e2]; exact Or.inr ⟨ha, hb⟩
      · rcases hb with hb | hb
        · rw [hb] at u2
          simp [UnitMergeStateMerging] at u2
        · refine Or.inr ⟨ha, Or.inr ?_⟩
          rw [e2]
          exact ⟨hb.1, hb.2.1, fun _ => u2⟩
    · exact Or.inr ⟨ha, hc⟩

/-- A step keeps the invariant of the bits. -/
theorem stateStep_bitsOK {a b : MergeState} (h : StateStep a b) (ha : BitsOK a) : BitsOK b := by
  rcases h with (e | ⟨u, e⟩) | ⟨_, hb | hb⟩
  · rw [e]; exact ha
  · rw [e]
    refine ⟨fun _ => u, fun _ => ?_⟩
    exact ha.2 (Or.inr (Or.inl u))
  · rw [hb]
    refine ⟨?_, ?_⟩
    · intro h; simp [UnitMergeStateMerging] at h
    · intro h; simp [UnitMergeStateMerging] at h
  · exact ⟨hb.2.2, fun _ => hb.2.1⟩

/-- A step clears neither `Merged` nor an optimisation bit. -/
theorem stateStep_bits {a b : MergeState} (h : StateStep a b) :
    (a.merged = true → b.merged = true) ∧ (a.uniqueFuncs = true → b.uniqueFuncs = true) ∧
    (a.uniqueClasses = true → b.uniqueClasses = true) ∧
    (a.uniqueDefinedClasses = true → b.uniqueDefinedClasses = true) := by
  rcases h with (e | ⟨u, e⟩) | ⟨ha | ha, _⟩
  · rw [e]; exact ⟨id, id, id, id⟩
  · rw [e]; exact ⟨id, id, id, fun _ => rfl⟩
  · rw [ha]
    refine ⟨?_, ?_, ?_, ?_⟩ <;> intro h <;> simp [UnitMergeStateUnmerged] at h
  · rw [ha]
    refine ⟨?_, ?_, ?_, ?_⟩ <;> intro h <;> simp [UnitMergeStateMerging] at h

theorem bitsKept_refl (s : VM) : BitsKept s s := ⟨mono_refl s, fun _ => stateStep_refl _⟩

theorem bitsKept_trans {a b c : VM} (h1 : BitsKept a b) (h2 : BitsKept b c) : BitsKept a c :=
  ⟨mono_trans h1.1 h2.1, fun v => stateStep_trans (h1.2 v) (h2.2 v)⟩

theorem udcKept_refl (s : VM) : UdcKept s s := ⟨mono_refl s, fun _ => udcStep_refl _⟩

theorem udcKept_trans {a b c : VM} (h1 : UdcKept a b) (h2 : UdcKept b c) : UdcKept a c :=
  ⟨mono_trans h1.1 h2.1, fun v => udcStep_trans (h1.2 v) (h2.2 v)⟩

/-- A step that leaves the chains and the merge states alone. -/
theorem udcKept_of_eq (s t : VM) (h1 : t.clsList = s.clsList)
    (h2 : ∀ u, (t.units u).m_mergeState = (s.units u).m_mergeState) : UdcKept s t :=
  ⟨⟨fun n => by rw [h1], fun hs n => by rw [h1]; exact hs n⟩, fun v => Or.inl (h2 v)⟩

theorem udcKept_bitsKept {s t : VM} (h : UdcKept s t) : BitsKept s t :=
  ⟨h.1, fun v => Or.inl (h.2 v)⟩

/-- The steps of the rewrite are kept by everything that `mergeImpl` does,
when the collaborators keep them and `newClass` allocates fresh objects. -/
theorem mergeRel_udcKept (E : Env) (hE : E.Respects UdcKept) (hF : E.Fresh) :
    MergeRel E UdcKept where
  refl := udcKept_refl
  trans := fun _ _ _ h1 h2 => udcKept_trans h1 h2
  mono := fun _ _ h => h.1
  env := hE
  fresh := hF
  setCached := setCached_of_all (fun _ _ _ h1 h2 => udcKept_trans h1 h2)
    (fun c s => udcKept_of_eq s _ rfl (fun _ => rfl))
  publish := publish_of_all E (fun _ _ _ h1 h2 => udcKept_trans h1 h2)
    fun P N s hs hf => ⟨defClassPublish_mono E P N s hs hf, fun _ => Or.inl rfl⟩
  tcFunc := fun s _ _ _ _ _ => udcKept_of_eq s _ rfl (fun _ => rfl)
  mergeCns := by
    intro off v name s
    refine udcKept_of_eq _ _ (mergeCns_frame off v name s).1 ?_
    intro u
    rw [(mergeCns_frame off v name s).2.2.2.1]
  setGlobal := fun _ _ s => udcKept_of_eq s _ rfl (fun _ => rfl)
  tcFlags := fun s _ _ => udcKept_of_eq s _ rfl (fun _ => rfl)
  rewrite := by
    intro s t h hu
    exact ⟨⟨fun n => by rw [h.1], fun hs n => by rw [h.1]; exact hs n⟩, hu⟩

/-- The steps of `initialMerge` and `mergeImpl` are kept by everything that
`merge` does, when the collaborators keep them and `newClass` allocates fresh
objects. -/
theorem unitRel_bitsKept (E : Env) (hE : E.Respects BitsKept) (hF : E.Fresh) :
    UnitRel E BitsKept where
  refl := bitsKept_refl
  trans := fun _ _ _ h1 h2 => bitsKept_trans h1 h2
  mono := fun _ _ h => h.1
  env := hE
  fresh := hF
  setCached := setCached_of_all (fun _ _ _ h1 h2 => bitsKept_trans h1 h2)
    (fun c s => udcKept_bitsKept (udcKept_of_eq s _ rfl (fun _ => rfl)))
  publish := publish_of_all E (fun _ _ _ h1 h2 => bitsKept_trans h1 h2) fun P N s hs hf =>
    ⟨defClassPublish_mono E P N s hs hf, fun _ => stateStep_refl _⟩
  tcFunc := fun s _ _ _ _ _ => udcKept_bitsKept (udcKept_of_eq s _ rfl (fun _ => rfl))
  mergeCns := by
    intro off v name s
    refine udcKept_bitsKept (udcKept_of_eq _ _ (mergeCns_frame off v name s).1 ?_)
    intro u
    rw [(mergeCns_frame off v name s).2.2.2.1]
  setGlobal := fun _ _ s => udcKept_bitsKept (udcKept_of_eq s _ rfl (fun _ => rfl))
  tcFlags := fun s _ _ => udcKept_bitsKept (udcKept_of_eq s _ rfl (fun _ => rfl))
  rewrite := by
    intro s t h hu
    exact ⟨⟨fun n => by rw [h.1], fun hs n => by rw [h.1]; exact hs n⟩, fun v => Or.inl (hu v)⟩
  setMerging := by
    intro s u hun
    refine ⟨mono_refl s, ?_⟩
    intro v
    unfold setMergeState
    simp only [Function.update_apply]
    by_cases hv : v = u
    · subst hv
      rw [if_pos rfl]
      exact Or.inr ⟨Or.inl hun, Or.inl rfl⟩
    · rw [if_neg hv]
      exact stateStep_refl _
  setMerged := by
    intro s0 s u uf uc hmg h
    refine ⟨h.1, ?_⟩
    intro v
    unfold setMergeState
    simp only [Function.update_apply]
    by_cases hv : v = u
    · subst hv
      rw [if_pos rfl]
      refine Or.inr ⟨Or.inr hmg, Or.inr ⟨rfl, rfl, ?_⟩⟩
      intro hc
      cases hc
    · rw [if_neg hv]
      exact h.2 v
  setFunc := fun s u ix _ _ =>
    udcKept_bitsKept (udcKept_of_eq s _ rfl (fun u1 => setMergeable_mergeState s u ix _ u1))
  setReq := fun _ s u ix _ _ _ _ h =>
    bitsKept_trans h
      (udcKept_bitsKept (udcKept_of_eq s _ rfl (fun u1 => setMergeable_mergeState s u ix _ u1)))
  setValue := fun s u ix _ _ _ =>
    udcKept_bitsKept (udcKept_of_eq s _ rfl (fun u1 => setMergeable_mergeState s u ix _ u1))
  funcOffset := fun s _ _ => udcKept_bitsKept (udcKept_of_eq s _ rfl (fun _ => rfl))

/-- Every state that is reached through calls of `initialMerge`, `mergeImpl`
and `merge` is related to the start by steps of the merge states. -/
theorem mergeReaches_bitsKept (E : Env) (hE : E.Respects BitsKept) (hF : E.Fresh) (s t : VM)
    (hs : ChainsOK s) (hr : MergeReaches E s t) : BitsKept s t := by
  have hR := unitRel_bitsKept E hE hF
  induction hr with
  | refl => exact bitsKept_refl _
  | initialMerge t x fuel u _ hend ih =>
    exact bitsKept_trans ih (post_endsIn ((initialMerge_post E BitsKept hR fuel).2.2 u t) hend)
  | mergeImpl t x fuel u _ hend ih =>
    exact bitsKept_trans ih (post_endsIn
      ((mergeImpl_walk_post E BitsKept hR.toMergeRel fuel).2.2.2.2.2.2 u t (ih.1.2 hs)) hend)
  | merge t x fuel u _ hend ih =>
    exact bitsKept_trans ih (post_endsIn (merge_post E BitsKept hR fuel u t (ih.1.2 hs)) hend)

/-- C37.  The invariant of the bits of the merge state.  With collaborators
that change merge states only by steps of `initialMerge` and `mergeImpl`, in
every state that is reached through calls of `initialMerge`, `mergeImpl` and
`merge`, every unit whose merge state had `UniqueDefinedClasses` only with
`UniqueClasses`, and an optimisation bit only with `Merged` (as the state
`Unmerged` of a new unit has), still has; no call clears `Merged` or an
optimisation bit that was set; and a `mergeImpl` leaves the merge state of
every unit as it was or with nothing but the bit `UniqueDefinedClasses` set in
addition, in a state that has `UniqueClasses` (with collaborators that do no
more than this). -/
theorem merge_state_bits (E : Env) (hE : E.Respects BitsKept) (hF : E.Fresh) (s t : VM)
    (hs : ChainsOK s) (hr : MergeReaches E s t) :
    BitsKept s t ∧
    (∀ v, BitsOK (s.units v).m_mergeState → BitsOK (t.units v).m_mergeState) ∧
    (∀ v, (s.units v).m_mergeState = UnitMergeStateUnmerged →
      ((t.units v).m_mergeState.uniqueDefinedClasses = true →
        (t.units v).m_mergeState.uniqueClasses = true) ∧
      ((t.units v).m_mergeState.uniqueFuncs = true ∨
        (t.units v).m_mergeState.uniqueClasses = true ∨
        (t.units v).m_mergeState.uniqueDefinedClasses = true →
        (t.units v).m_mergeState.merged = true)) ∧
    (∀ v, ((s.units v).m_mergeState.merged = true → (t.units v).m_mergeState.merged = true) ∧
      ((s.units v).m_mergeState.uniqueFuncs = true →
        (t.units v).m_mergeState.uniqueFuncs = true) ∧
      ((s.units v).m_mergeState.uniqueClasses = true →
        (t.units v).m_mergeState.uniqueClasses = true) ∧
      ((s.units v).m_mergeState.uniqueDefinedClasses = true →
        (t.units v).m_mergeState.uniqueDefinedClasses = true)) ∧
    (E.Respects UdcKept → ∀ fuel u x, EndsIn (mergeImpl E fuel u t) x →
      ∀ v, (x.units v).m_mergeState = (t.units v).m_mergeState ∨
        ((t.units v).m_mergeState.uniqueClasses = true ∧
          (x.units v).m_mergeState =
            { (t.units v).m_mergeState with uniqueDefinedClasses := true })) ∧
    BitsOK UnitMergeStateUnmerged := by
  have hk := mergeReaches_bitsKept E hE hF s t hs hr
  have hun : BitsOK UnitMergeStateUnmerged := by
    refine ⟨?_, ?_⟩ <;> intro h <;> simp [UnitMergeStateUnmerged] at h
  refine ⟨hk, fun v hv => stateStep_bitsOK (hk.2 v) hv, ?_, fun v => stateStep_bits (hk.2 v),
    ?_, hun⟩
  · intro v hv
    have : BitsOK (s.units v).m_mergeState := by rw [hv]; exact hun
    exact stateStep_bitsOK (hk.2 v) this
  · intro hU fuel u x hend v
    have hp := (mergeImpl_walk_post E UdcKept (mergeRel_udcKept E hU hF) fuel).2.2.2.2.2.2 u t
      (hk.1.2 hs)
    exact (post_endsIn hp hend).2 v

/-- The theorem `merge_state_bits` applies to the first `merge` of the unit
`exUnit`, which reaches a state in which the unit has the bits `Merged`,
`UniqueFuncs` and `UniqueClasses` and nothing else. -/
theorem merge_state_bits_witness :
    ChainsOK exVMUnit ∧
    ∃ t, merge quietEnv 4 1 exVMUnit = some (.ok PUnit.unit t) ∧
      MergeReaches quietEnv exVMUnit t ∧
      (t.units 1).m_mergeState = ⟨false, true, true, true, false⟩ ∧
      BitsOK (t.units 1).m_mergeState := by
  have hm : ∃ t, merge quietEnv 4 1 exVMUnit = some (.ok PUnit.unit t) ∧
      (t.units 1).m_mergeState = ⟨false, true, true, true, false⟩ := ⟨_, rfl, rfl⟩
  obtain ⟨t, h1, h2⟩ := hm
  have hr : MergeReaches quietEnv exVMUnit t :=
    MergeReaches.merge exVMUnit exVMUnit t 4 1 (MergeReaches.refl _) (by rw [h1]; rfl)
  have h := merge_state_bits quietEnv (quietEnv_respects BitsKept bitsKept_refl) quietEnv_fresh
    exVMUnit t exVMUnit_chainsOK hr
  exact ⟨exVMUnit_chainsOK, t, h1, hr, h2, h.2.1 1 (by
    have : (exVMUnit.units 1).m_mergeState = UnitMergeStateUnmerged := rfl
    rw [this]; exact h.2.2.2.2.2)⟩

/-! ## The end of the first merge on an include graph -/

theorem setMergeable_size (s : VM) (u ix : Nat) (w : Mergeable) (v : Nat) :
    ((setMergeable s u ix w).units v).m_mergeablesSize = (s.units v).m_mergeablesSize := by
  unfold setMergeable
  simp only [Function.update_apply]
  split
  · rename_i h; rw [h]
  · rfl

theorem setMergeState_size (s : VM) (u : Nat) (m : MergeState) (v : Nat) :
    ((setMergeState s u m).units v).m_mergeablesSize = (s.units v).m_mergeablesSize := by
  unfold setMergeState
  simp only [Function.update_apply]
  split
  · rename_i h; rw [h]
  · rfl

theorem setMergeState_other (s : VM) (u : Nat) (m : MergeState) (v : Nat) (h : v ≠ u) :
    ((setMergeState s u m).units v).m_mergeState = (s.units v).m_mergeState := by
  unfold setMergeState
  simp only [Function.update_apply]
  rw [if_neg h]

theorem initKept_refl (s : VM) : InitKept s s := ⟨started_refl s, fun _ => rfl⟩

theorem initKept_trans {a b c : VM} (h1 : InitKept a b) (h2 : InitKept b c) : InitKept a c :=
  ⟨started_trans h1.1 h2.1, fun v => (h2.2 v).trans (h1.2 v)⟩

/-- The relation `InitKept` is kept by everything that `merge` does, when the
collaborators keep it and `newClass` allocates fresh objects. -/
theorem unitRel_initKept (E : Env) (hE : E.Respects InitKept) (hF : E.Fresh) :
    UnitRel E InitKept := by
  have hS := unitRel_started E (respects_imp hE (fun _ _ h => h.1)) hF
  exact
  { refl := initKept_refl
    trans := fun _ _ _ h1 h2 => initKept_trans h1 h2
    mono := fun _ _ h => h.1.1
    env := hE
    fresh := hF
    setCached := setCached_of_all (fun _ _ _ h1 h2 => initKept_trans h1 h2)
      (fun c s => ⟨started_of_eq s _ rfl (fun _ => rfl), fun _ => rfl⟩)
    publish := publish_of_all E (fun _ _ _ h1 h2 => initKept_trans h1 h2)
      fun P N s hs hf => ⟨⟨defClassPublish_mono E P N s hs hf, fun _ h => h⟩, fun _ => rfl⟩
    tcFunc := fun s u ix f h hu => ⟨hS.tcFunc s u ix f h hu, fun _ => rfl⟩
    mergeCns := by
      intro off v name s
      refine ⟨hS.mergeCns off v name s, ?_⟩
      intro u
      rw [(mergeCns_frame off v name s).2.2.2.1]
    setGlobal := fun v name s => ⟨hS.setGlobal v name s, fun _ => rfl⟩
    tcFlags := fun s off m => ⟨hS.tcFlags s off m, fun _ => rfl⟩
    rewrite := fun s t h hu => ⟨hS.rewrite s t h hu, fun v => (h.2 v).mergeablesSize⟩
    setMerging := fun s u h => ⟨hS.setMerging s u h, fun v => setMergeState_size s u _ v⟩
    setMerged := fun s0 s u a b h hr =>
      ⟨hS.setMerged s0 s u a b h hr.1, fun v => (setMergeState_size s u _ v).trans (hr.2 v)⟩
    setFunc := fun s u ix f h => ⟨hS.setFunc s u ix f h, fun v => setMergeable_size s u ix _ v⟩
    setReq := fun s0 s u ix k name unit h hr =>
      ⟨hS.setReq s0 s u ix k name unit h hr.1,
        fun v => (setMergeable_size s u ix _ v).trans (hr.2 v)⟩
    setValue := fun s u ix v v1 h =>
      ⟨hS.setValue s u ix v v1 h, fun w => setMergeable_size s u ix _ w⟩
    funcOffset := fun s name h => ⟨hS.funcOffset s name h, fun _ => rfl⟩ }

theorem initKept_unmerged {s t : VM} (h : InitKept s t) (v : Nat)
    (hv : (t.units v).m_mergeState = UnitMergeStateUnmerged) :
    (s.units v).m_mergeState = UnitMergeStateUnmerged := by
  by_contra hc
  exact h.1.2 v hc hv

theorem mergeCost_le {s t : VM} (h : InitKept s t) (v : Nat) : mergeCost t v ≤ mergeCost s v := by
  unfold mergeCost
  by_cases ht : (t.units v).m_mergeState = UnitMergeStateUnmerged
  · rw [if_pos ht, if_pos (initKept_unmerged h v ht), h.2 v]
  · rw [if_neg ht]
    exact Nat.zero_le _

theorem mergeBudget_le {s t : VM} (h : InitKept s t) (U : List Nat) :
    mergeBudget U t ≤ mergeBudget U s := by
  unfold mergeBudget
  induction U with
  | nil => exact Nat.le_refl _
  | cons v U ih =>
    simp only [List.map_cons, List.sum_cons]
    exact Nat.add_le_add (mergeCost_le h v) ih

/-- Entering the body of an `Unmerged` unit of `U` takes its cost off the
budget. -/
theorem mergeBudget_enter (s : VM) (u : Nat)
    (hun : (s.units u).m_mergeState = UnitMergeStateUnmerged) :
    ∀ (U : List Nat), u ∈ U →
      mergeBudget U (setMergeState s u UnitMergeStateMerging) + (s.units u).m_mergeablesSize + 2 ≤
        mergeBudget U s := by
  have hk : InitKept s (setMergeState s u UnitMergeStateMerging) :=
    ⟨started_setMergeState s u _ (by decide), fun v => setMergeState_size s u _ v⟩
  intro U
  induction U with
  | nil => intro h; cases h
  | cons v U ih =>
    intro h
    have hle := mergeBudget_le hk U
    unfold mergeBudget at hle ih ⊢
    simp only [List.map_cons, List.sum_cons]
    by_cases hv : v = u
    · subst hv
      have h0 : mergeCost (setMergeState s v UnitMergeStateMerging) v = 0 := by
        unfold mergeCost
        rw [setMergeState_same]
        rfl
      have h1 : mergeCost s v = (s.units v).m_mergeablesSize + 2 := by
        unfold mergeCost
        rw [if_pos hun]
      omega
    · have hu : u ∈ U := by
        rcases List.mem_cons.mp h with e | e
        · exact absurd e.symm hv
        · exact e
      have := ih hu
      have hc := mergeCost_le hk v
      omega

/-- With more fuel than the budget of the units of `U`, the loop, the body and
the call of `initialMerge` come to an end. -/
theorem initialMerge_returns (E : Env) (hE : E.Respects InitKept) (hF : E.Fresh)
    (U : List Nat) (hU : IncludesIn E U) :
    ∀ (fuel : Nat),
      (∀ u e ix a s, mergeBudget U s + (e - ix) < fuel →
        ∃ r, initialMergeStmts E u e fuel ix a s = some r) ∧
      (∀ u s, mergeBudget U s + (s.units u).m_mergeablesSize + 1 < fuel →
        ∃ r, initialMergeBody E fuel u s = some r) ∧
      (∀ u s, u ∈ U → mergeBudget U s < fuel → ∃ r, initialMerge E fuel u s = some r) := by
  have hR := unitRel_initKept E hE hF
  intro fuel
  induction fuel with
  | zero =>
    refine ⟨?_, ?_, ?_⟩ <;> intros <;> omega
  | succ fuel ih =>
    obtain ⟨ihS, ihB, ihI⟩ := ih
    refine ⟨?_, ?_, ?_⟩
    · intro u e ix a s hb
      simp only [initialMergeStmts]
      by_cases hlt : ix < e
      · rw [if_pos hlt]
        rcases hobj : mergeableObj s u ix with _ | obj
        · exact ⟨_, rfl⟩
        · cases obj <;> (try simp only []) <;> try exact ⟨_, rfl⟩
          · exact ihS _ _ _ _ _ (by omega)
          · rename_i name
            rcases hw : mergeableObj s u (ix + 1) with _ | w
            · exact ⟨_, rfl⟩
            · cases w <;> (try simp only []) <;> try exact ⟨_, rfl⟩
              refine ihS _ _ _ _ _ ?_
              rename_i v
              have := mergeBudget_le (hR.setValue s u (ix + 1) v
                { v with _count := E.allocConstant name } hw) U
              omega
          · rename_i name
            rcases hw : mergeableObj s u (ix + 1) with _ | w
            · exact ⟨_, rfl⟩
            · cases w <;> (try simp only []) <;> try exact ⟨_, rfl⟩
              refine ihS _ _ _ _ _ ?_
              rename_i v
              have := mergeBudget_le (hR.setValue s u (ix + 1) v
                { v with _count := E.allocGlobal name } hw) U
              omega
          · rename_i k name
            rcases hl : E.lookupIncludeRoot name k u s with ⟨r, s1⟩ | ⟨m, s1⟩ | _
            · cases r with
              | none => exact ⟨_, rfl⟩
              | some unit =>
                simp only []
                have h1 : InitKept s s1 := hE.lookupIncludeRoot_ok hl
                have hb1 := mergeBudget_le h1 U
                obtain ⟨r1, hr1⟩ := ihI unit s1 (hU _ _ _ _ _ _ hl) (by omega)
                have hp := (initialMerge_post E InitKept hR fuel).2.2 unit s1
                rw [hr1] at hp ⊢
                cases r1 with
                | ok x s2 =>
                  simp only []
                  have h2 : InitKept s s2 := initKept_trans h1 hp
                  refine ihS _ _ _ _ _ ?_
                  have := mergeBudget_le (hR.setReq s s2 u ix k name unit hobj h2) U
                  omega
                | raised m s2 => exact ⟨_, rfl⟩
                | fault => exact ⟨_, rfl⟩
            · exact ⟨_, rfl⟩
            · exact ⟨_, rfl⟩
      · rw [if_neg hlt]
        exact ⟨_, rfl⟩
    · intro u s0 hb
      simp only [initialMergeBody]
      rcases hf : initialMergeFuncs E u ((s0.units u).m_firstHoistablePreClass - 1) 1
          E.RepoAuthoritative s0 with _ | ⟨af, s1⟩
      · exact ⟨_, rfl⟩
      · simp only []
        have h1 : InitKept s0 s1 := initialMergeFuncs_post E InitKept hR u _ _ _ _ _ _ hf
        have hb1 := mergeBudget_le h1 U
        have hsz := h1.2 u
        by_cases hra : E.RepoAuthoritative = false
        · rw [if_pos hra]
          exact ⟨_, rfl⟩
        · rw [if_neg hra]
          rcases hh : initialMergeHoistable s1 u
              ((s1.units u).m_firstMergeablePreClass - (s1.units u).m_firstHoistablePreClass)
              (s1.units u).m_firstHoistablePreClass true with _ | ac
          · exact ⟨_, rfl⟩
          · simp only []
            by_cases hmo : (s1.units u).isMergeOnly = true
            · rw [if_pos hmo]
              obtain ⟨r, hr⟩ := ihS u (s1.units u).m_mergeablesSize
                (s1.units u).m_firstMergeablePreClass ac s1 (by omega)
              rw [hr]
              cases r <;> exact ⟨_, rfl⟩
            · rw [if_neg hmo]
              exact ⟨_, rfl⟩
    · intro u s hu hb
      simp only [initialMerge]
      by_cases hun : (s.units u).m_mergeState = UnitMergeStateUnmerged
      · rw [if_pos hun]
        refine ihB _ _ ?_
        have := mergeBudget_enter s u hun U hu
        rw [setMergeState_size]
        omega
      · rw [if_neg hun]
        exact ⟨_, rfl⟩

theorem bodiesOnce_nil {α : Type} (U : List Nat) (s : VM) (r : Option (Outcome α)) :
    BodiesOnce U s [] r :=
  ⟨List.nodup_nil, ⟨fun _ h => (by cases h), fun _ _ _ _ h => (by cases h)⟩⟩

theorem bodiesOnce_transfer {α β : Type} {U : List Nat} {s1 s : VM} {L : List Nat}
    {r : Option (Outcome α)} {r1 : Option (Outcome β)} (h : BodiesOnce U s1 L r)
    (hs : ∀ v, (s1.units v).m_mergeState = UnitMergeStateUnmerged →
      (s.units v).m_mergeState = UnitMergeStateUnmerged)
    (hr : ∀ x t, r1 = some (.ok x t) → ∃ x2 t2, r = some (.ok x2 t2) ∧
      ∀ v, (t2.units v).m_mergeState ≠ UnitMergeStateUnmerged →
        (t.units v).m_mergeState ≠ UnitMergeStateUnmerged) :
    BodiesOnce U s L r1 := by
  refine ⟨h.1, ⟨fun v hv => ⟨(h.2.1 v hv).1, hs v (h.2.1 v hv).2⟩, ?_⟩⟩
  intro x t e v hv
  obtain ⟨x2, t2, e2, hk⟩ := hr x t e
  exact hk v (h.2.2 x2 t2 e2 v hv)

theorem bodiesOnce_append {α β : Type} {U : List Nat} {s s1 s2 s3 : VM} {L1 L2 : List Nat}
    {x : α} {r : Option (Outcome β)}
    (h1 : BodiesOnce U s1 L1 (some (Outcome.ok x s2))) (h2 : BodiesOnce U s3 L2 r)
    (hs1 : ∀ v, (s1.units v).m_mergeState = UnitMergeStateUnmerged →
      (s.units v).m_mergeState = UnitMergeStateUnmerged)
    (hs3 : ∀ v, (s3.units v).m_mergeState = UnitMergeStateUnmerged →
      (s2.units v).m_mergeState = UnitMergeStateUnmerged)
    (hs : ∀ v, (s3.units v).m_mergeState = UnitMergeStateUnmerged →
      (s.units v).m_mergeState = UnitMergeStateUnmerged)
    (hr : ∀ y t, r = some (.ok y t) → ∀ v,
      (t.units v).m_mergeState = UnitMergeStateUnmerged →
        (s2.units v).m_mergeState = UnitMergeStateUnmerged) :
    BodiesOnce U s (L1 ++ L2) r := by
  refine ⟨?_, ⟨?_, ?_⟩⟩
  · refine List.Nodup.append h1.1 h2.1 ?_
    intro v hv1 hv2
    exact h1.2.2 x s2 rfl v hv1 (hs3 v (h2.2.1 v hv2).2)
  · intro v hv
    rcases List.mem_append.mp hv with hv | hv
    · exact ⟨(h1.2.1 v hv).1, hs1 v (h1.2.1 v hv).2⟩
    · exact ⟨(h2.2.1 v hv).1, hs v (h2.2.1 v hv).2⟩
  · intro y t e v hv
    rcases List.mem_append.mp hv with hv | hv
    · intro hc
      exact h1.2.2 x s2 rfl v hv (hr y t e v hc)
    · exact h2.2.2 y t e v hv

/-- The bodies entered during the loop, the body and the call of
`initialMerge` are those of distinct units of `U` that were `Unmerged` at the
start and are not `Unmerged` at the return. -/
theorem bodies_once (E : Env) (hE : E.Respects InitKept) (hF : E.Fresh)
    (U : List Nat) (hU : IncludesIn E U) :
    ∀ (fuel : Nat),
      (∀ u e ix a s,
        BodiesOnce U s (bodiesStmts E u e fuel ix s) (initialMergeStmts E u e fuel ix a s)) ∧
      (∀ u s, BodiesOnce U s (bodiesBody E fuel u s) (initialMergeBody E fuel u s)) ∧
      (∀ u s, u ∈ U → BodiesOnce U s (bodiesOf E fuel u s) (initialMerge E fuel u s)) := by
  have hR := unitRel_initKept E hE hF
  intro fuel
  induction fuel with
  | zero =>
    refine ⟨?_, ?_, ?_⟩ <;> intros <;> exact bodiesOnce_nil _ _ _
  | succ fuel ih =>
    obtain ⟨ihS, ihB, ihI⟩ := ih
    refine ⟨?_, ?_, ?_⟩
    · intro u e ix a s
      simp only [bodiesStmts, initialMergeStmts]
      by_cases hlt : ix < e
      · simp only [if_pos hlt]
        rcases hobj : mergeableObj s u ix with _ | obj
        · exact bodiesOnce_nil _ _ _
        · cases obj <;> (try simp only []) <;> try exact bodiesOnce_nil _ _ _
          · exact ihS _ _ _ _ _
          · rename_i name
            rcases hw : mergeableObj s u (ix + 1) with _ | w
            · exact bodiesOnce_nil _ _ _
            · cases w <;> (try simp only []) <;> try exact bodiesOnce_nil _ _ _
              refine bodiesOnce_transfer (ihS _ _ _ _ _) ?_ (fun x t e => ⟨x, t, e, fun _ h => h⟩)
              intro v hv
              rwa [setMergeable_mergeState] at hv
          · rename_i name
            rcases hw : mergeableObj s u (ix + 1) with _ | w
            · exact bodiesOnce_nil _ _ _
            · cases w <;> (try simp only []) <;> try exact bodiesOnce_nil _ _ _
              refine bodiesOnce_transfer (ihS _ _ _ _ _) ?_ (fun x t e => ⟨x, t, e, fun _ h => h⟩)
              intro v hv
              rwa [setMergeable_mergeState] at hv
          · rename_i k name
            rcases hl : E.lookupIncludeRoot name k u s with ⟨r, s1⟩ | ⟨m, s1⟩ | _
            · cases r with
              | none => exact bodiesOnce_nil _ _ _
              | some unit =>
                simp only []
                have h1 : InitKept s s1 := hE.lookupIncludeRoot_ok hl
                have hI := ihI unit s1 (hU _ _ _ _ _ _ hl)
                have hp := (initialMerge_post E InitKept hR fuel).2.2 unit s1
                rcases hr1 : initialMerge E fuel unit s1 with _ | r1
                · simp only [List.append_nil]
                  refine bodiesOnce_transfer hI (initKept_unmerged h1) ?_
                  intro x t e
                  cases e
                · rw [hr1] at hp hI
                  cases r1 with
                  | ok x s2 =>
                    simp only []
                    have hS := ihS u e (ix + 1) a (setMergeable s2 u ix (.reqUnit k unit))
                    have hpS := (initialMerge_post E InitKept hR fuel).1 u e (ix + 1) a
                      (setMergeable s2 u ix (.reqUnit k unit))
                    have h2 : InitKept s s2 := initKept_trans h1 hp
                    refine bodiesOnce_append hI hS (initKept_unmerged h1) ?_ ?_ ?_
                    · intro v hv
                      rwa [setMergeable_mergeState] at hv
                    · intro v hv
                      rw [setMergeable_mergeState] at hv
                      exact initKept_unmerged h2 v hv
                    · intro y t e1 v hv
                      rw [e1] at hpS
                      have := initKept_unmerged hpS v hv
                      rwa [setMergeable_mergeState] at this
                  | raised m s2 =>
                    simp only [List.append_nil]
                    refine bodiesOnce_transfer hI (initKept_unmerged h1) ?_
                    intro x t e
                    cases e
                  | fault =>
                    simp only [List.append_nil]
                    refine bodiesOnce_transfer hI (initKept_unmerged h1) ?_
                    intro x t e
                    cases e
            · exact bodiesOnce_nil _ _ _
            · exact bodiesOnce_nil _ _ _
      · simp only [if_neg hlt]
        exact bodiesOnce_nil _ _ _
    · intro u s0
      simp only [bodiesBody, initialMergeBody]
      rcases hf : initialMergeFuncs E u ((s0.units u).m_firstHoistablePreClass - 1) 1
          E.RepoAuthoritative s0 with _ | ⟨af, s1⟩
      · exact bodiesOnce_nil _ _ _
      · simp only []
        have h1 : InitKept s0 s1 := initialMergeFuncs_post E InitKept hR u _ _ _ _ _ _ hf
        by_cases hra : E.RepoAuthoritative = false
        · simp only [if_pos hra]
          exact bodiesOnce_nil _ _ _
        · simp only [if_neg hra]
          rcases hh : initialMergeHoistable s1 u
              ((s1.units u).m_firstMergeablePreClass - (s1.units u).m_firstHoistablePreClass)
              (s1.units u).m_firstHoistablePreClass true with _ | ac
          · exact bodiesOnce_nil _ _ _
          · simp only []
            by_cases hmo : (s1.units u).isMergeOnly = true
            · simp only [if_pos hmo]
              have hS := ihS u (s1.units u).m_mergeablesSize
                (s1.units u).m_firstMergeablePreClass ac s1
              refine bodiesOnce_transfer hS (initKept_unmerged h1) ?_
              intro x t e
              rcases hr : initialMergeStmts E u (s1.units u).m_mergeablesSize fuel
                  (s1.units u).m_firstMergeablePreClass ac s1 with _ | r
              · rw [hr] at e; cases e
              · rw [hr] at e
                cases r with
                | ok a1 s2 =>
                  refine ⟨a1, s2, rfl, ?_⟩
                  simp only [Option.some.injEq, Outcome.ok.injEq] at e
                  intro v hv
                  rw [← e.2]
                  by_cases hvu : v = u
                  · subst hvu
                    rw [setMergeState_same]
                    simp [UnitMergeStateUnmerged]
                  · rw [setMergeState_other _ _ _ _ hvu]
                    exact hv
                | raised m s2 => cases e
                | fault => cases e
            · simp only [if_neg hmo]
              exact bodiesOnce_nil _ _ _
    · intro u s hu
      simp only [bodiesOf, initialMerge]
      by_cases hun : (s.units u).m_mergeState = UnitMergeStateUnmerged
      · simp only [if_pos hun]
        have hB := ihB u (setMergeState s u UnitMergeStateMerging)
        have hmg : ((setMergeState s u UnitMergeStateMerging).units u).m_mergeState =
            UnitMergeStateMerging := setMergeState_same s u _
        have hk : InitKept s (setMergeState s u UnitMergeStateMerging) := hR.setMerging s u hun
        have hp := (initialMerge_post E InitKept hR fuel).2.1 u _ hmg
        refine ⟨?_, ⟨?_, ?_⟩⟩
        · refine List.nodup_cons.mpr ⟨?_, hB.1⟩
          intro hmem
          have := (hB.2.1 u hmem).2
          rw [hmg] at this
          cases this
        · intro v hv
          rcases List.mem_cons.mp hv with rfl | hv
          · exact ⟨hu, hun⟩
          · exact ⟨(hB.2.1 v hv).1, initKept_unmerged hk v (hB.2.1 v hv).2⟩
        · intro x t e v hv
          rcases List.mem_cons.mp hv with rfl | hv
          · rw [e] at hp
            refine hp.1.2 v ?_
            rw [hmg]
            decide
          · exact hB.2.2 x t e v hv
      · simp only [if_neg hun]
        exact bodiesOnce_nil _ _ _

/-- The recursion depth is at most the number of bodies that are entered. -/
theorem depth_le_bodies (E : Env) :
    ∀ (fuel : Nat),
      (∀ u e ix s, depthStmts E u e fuel ix s ≤ (bodiesStmts E u e fuel ix s).length) ∧
      (∀ u s, depthBody E fuel u s ≤ (bodiesBody E fuel u s).length) ∧
      (∀ u s, depthOf E fuel u s ≤ (bodiesOf E fuel u s).length) := by
  intro fuel
  induction fuel with
  | zero =>
    refine ⟨?_, ?_, ?_⟩ <;> intros <;> exact Nat.le_refl _
  | succ fuel ih =>
    obtain ⟨ihS, ihB, ihI⟩ := ih
    refine ⟨?_, ?_, ?_⟩
    · intro u e ix s
      simp only [bodiesStmts, depthStmts]
      by_cases hlt : ix < e
      · simp only [if_pos hlt]
        rcases hobj : mergeableObj s u ix with _ | obj
        · exact Nat.le_refl _
        · cases obj <;> (try simp only []) <;> try exact Nat.le_refl _
          · exact ihS _ _ _ _
          · rcases hw : mergeableObj s u (ix + 1) with _ | w
            · exact Nat.le_refl _
            · cases w <;> (try simp only []) <;> try exact Nat.le_refl _
              exact ihS _ _ _ _
          · rcases hw : mergeableObj s u (ix + 1) with _ | w
            · exact Nat.le_refl _
            · cases w <;> (try simp only []) <;> try exact Nat.le_refl _
              exact ihS _ _ _ _
          · rename_i k name
            rcases hl : E.lookupIncludeRoot name k u s with ⟨r, s1⟩ | ⟨m, s1⟩ | _
            · cases r with
              | none => exact Nat.le_refl _
              | some unit =>
                simp only [List.length_append]
                have hI := ihI unit s1
                rcases hr1 : initialMerge E fuel unit s1 with _ | r1
                · simp only [List.length_nil]
                  omega
                · cases r1 with
                  | ok x s2 =>
                    simp only []
                    have hS := ihS u e (ix + 1) (setMergeable s2 u ix (.reqUnit k unit))
                    omega
                  | raised m s2 =>
                    simp only [List.length_nil]
                    omega
                  | fault =>
                    simp only [List.length_nil]
                    omega
            · exact Nat.le_refl _
            · exact Nat.le_refl _
      · simp only [if_neg hlt]
        exact Nat.le_refl _
    · intro u s0
      simp only [bodiesBody, depthBody]
      rcases hf : initialMergeFuncs E u ((s0.units u).m_firstHoistablePreClass - 1) 1
          E.RepoAuthoritative s0 with _ | ⟨af, s1⟩
      · exact Nat.le_refl _
      · simp only []
        by_cases hra : E.RepoAuthoritative = false
        · simp only [if_pos hra]
          exact Nat.le_refl _
        · simp only [if_neg hra]
          rcases hh : initialMergeHoistable s1 u
              ((s1.units u).m_firstMergeablePreClass - (s1.units u).m_firstHoistablePreClass)
              (s1.units u).m_firstHoistablePreClass true with _ | ac
          · exact Nat.le_refl _
          · simp only []
            by_cases hmo : (s1.units u).isMergeOnly = true
            · simp only [if_pos hmo]
              exact ihS _ _ _ _
            · simp only [if_neg hmo]
              exact Nat.le_refl _
    · intro u s
      simp only [bodiesOf, depthOf]
      by_cases hun : (s.units u).m_mergeState = UnitMergeStateUnmerged
      · simp only [if_pos hun, List.length_cons]
        have := ihB u (setMergeState s u UnitMergeStateMerging)
        omega
      · simp only [if_neg hun]
        exact Nat.le_refl _

theorem rootEnv_respects (R : VM → VM → Prop) (hr : ∀ s, R s s) : rootEnv.Respects R where
  avail_ok := by intro c p f s r t h; cases h; exact hr _
  avail_raised := by intro c p f s m t h; cases h
  invokeHandler_ok := by intro n s r t h; cases h; exact hr _
  invokeHandler_raised := by intro n s m t h; cases h
  newClass_ok := by intro p c s a t h; cases h; exact hr _
  newClass_raised := by intro p c s m t h; cases h
  setCachedFunc_ok := by intro f s r t h; cases h; exact hr _
  setCachedFunc_raised := by intro f s m t h; cases h
  invokeFunc_ok := by intro u s r t h; cases h; exact hr _
  invokeFunc_raised := by intro u s m t h; cases h
  lookupIncludeRoot_ok := by
    intro n k u s r t h
    simp only [rootEnv] at h
    split at h
    · cases h; exact hr _
    · split at h <;> (cases h; exact hr _)
  lookupIncludeRoot_raised := by
    intro n k u s m t h
    simp only [rootEnv] at h
    split at h
    · cases h
    · split at h <;> cases h
  mergePreConsts := by intro u s; exact hr _

theorem rootEnv_fresh : rootEnv.Fresh := by
  intro p c s a t h d hd
  cases h
  exact freshAddr_fresh _ d hd

theorem rootEnv_includesIn : IncludesIn rootEnv [6, 7] := by
  intro n k u s unit t h
  simp only [rootEnv] at h
  split at h
  · cases h; decide
  · split at h
    · cases h; decide
    · cases h

/-- C39: `initialMerge` comes to an end on every finite include graph, cycles
included.  For collaborators that never take a unit back to `Unmerged` and
never change the length of an array of mergeables, and a finite list `U` of
units that holds the unit `u` and every unit that `lookupIncludeRoot`
answers: with more fuel than the budget of `U` (for each unit of `U` that is
`Unmerged`, the length of its array plus two) the call of `initialMerge` on
`u` returns, raises or faults.  The state of an `Unmerged` unit is set to
`Merging` before its body starts, and the unit is not entered again inside
its own body; on a unit that is not `Unmerged` the call returns at once with
the state unchanged and enters no body.  The bodies entered during the call
are those of distinct units of `U` that were `Unmerged` at the start (each
body runs at most once), none of them is `Unmerged` at the return, and the
recursion depth is at most the number of bodies entered, which is at most the
number of `Unmerged` units of `U` and so at most the number of units. -/
theorem initialMerge_terminates (E : Env) (hE : E.Respects InitKept) (hF : E.Fresh)
    (U : List Nat) (hU : IncludesIn E U) (u : Nat) (hu : u ∈ U) (s : VM) :
    (∀ fuel, mergeBudget U s < fuel → ∃ r, initialMerge E fuel u s = some r) ∧
    (∀ fuel, (s.units u).m_mergeState = UnitMergeStateUnmerged →
      initialMerge E (fuel + 1) u s =
        initialMergeBody E fuel u (setMergeState s u UnitMergeStateMerging) ∧
      ((setMergeState s u UnitMergeStateMerging).units u).m_mergeState =
        UnitMergeStateMerging ∧
      u ∉ bodiesBody E fuel u (setMergeState s u UnitMergeStateMerging)) ∧
    (∀ fuel, (s.units u).m_mergeState ≠ UnitMergeStateUnmerged →
      initialMerge E (fuel + 1) u s = some (.ok PUnit.unit s) ∧
      bodiesOf E (fuel + 1) u s = [] ∧ depthOf E (fuel + 1) u s = 0) ∧
    (∀ fuel, BodiesOnce U s (bodiesOf E fuel u s) (initialMerge E fuel u s) ∧
      depthOf E fuel u s ≤ (bodiesOf E fuel u s).length ∧
      (bodiesOf E fuel u s).length ≤ (unmergedIn U s).length ∧
      depthOf E fuel u s ≤ U.length) := by
  refine ⟨?_, ?_, ?_, ?_⟩
  · intro fuel hb
    exact (initialMerge_returns E hE hF U hU fuel).2.2 u s hu hb
  · intro fuel hun
    refine ⟨?_, setMergeState_same s u _, ?_⟩
    · simp only [initialMerge]
      rw [if_pos hun]
    · intro hmem
      have hB := (bodies_once E hE hF U hU fuel).2.1 u (setMergeState s u UnitMergeStateMerging)
      have := (hB.2.1 u hmem).2
      rw [setMergeState_same] at this
      cases this
  · intro fuel hun
    refine ⟨?_, ?_, ?_⟩
    · simp only [initialMerge]
      rw [if_neg hun]
    · simp only [bodiesOf]
      rw [if_neg hun]
    · simp only [depthOf]
      rw [if_neg hun]
  · intro fuel
    have hB := (bodies_once E hE hF U hU fuel).2.2 u s hu
    have hD := (depth_le_bodies E fuel).2.2 u s
    have hL : (bodiesOf E fuel u s).length ≤ (unmergedIn U s).length := by
      refine (List.subperm_of_subset hB.1 ?_).length_le
      intro v hv
      unfold unmergedIn
      rw [List.mem_filter]
      exact ⟨(hB.2.1 v hv).1, decide_eq_true (hB.2.1 v hv).2⟩
    have hU2 : (unmergedIn U s).length ≤ U.length := List.length_filter_le _ _
    exact ⟨hB, hD, hL, Nat.le_trans hD (Nat.le_trans hL hU2)⟩

/-- The two units `a.php` and `b.php` include each other: the first merge of
`a.php` ends with both units merged, the two bodies are entered once each,
that of `b.php` inside that of `a.php`. -/
theorem initialMerge_terminates_witness :
    6 ∈ [6, 7] ∧
    (∃ r, initialMerge rootEnv 10 6 exVMCycle0 = some r) ∧
    (∃ t, initialMerge rootEnv 10 6 exVMCycle0 = some (.ok PUnit.unit t) ∧
      (t.units 6).m_mergeState = ⟨false, true, true, true, false⟩ ∧
      (t.units 7).m_mergeState = ⟨false, true, true, true, false⟩ ∧
      (t.units 7).m_mergeables =
        [.func exFuncMain, .reqUnit ReqKind.ReqDoc 6, .reqUnit ReqKind.ReqDoc 6, .done]) ∧
    bodiesOf rootEnv 10 6 exVMCycle0 = [6, 7] ∧
    depthOf rootEnv 10 6 exVMCycle0 = 2 ∧
    BodiesOnce [6, 7] exVMCycle0 (bodiesOf rootEnv 10 6 exVMCycle0)
      (initialMerge rootEnv 10 6 exVMCycle0) := by
  have h := initialMerge_terminates rootEnv (rootEnv_respects InitKept initKept_refl)
    rootEnv_fresh [6, 7] rootEnv_includesIn 6 (by decide) exVMCycle0
  exact ⟨by decide, h.1 10 (by decide), ⟨_, rfl, rfl, rfl, rfl⟩, rfl, rfl, (h.2.2.2 10).1⟩

/-! ## The walk stays inside the array -/

theorem stmtsLaidOut_step (sh : List WordShape) (e f ix : Nat)
    (h : stmtsLaidOut sh e (f + 1) ix = true) :
    (sh[ix]? = some .done ∧ ix = e) ∨
    ((sh[ix]? = some .cls ∨ sh[ix]? = some .req) ∧ ix < e ∧
      stmtsLaidOut sh e f (ix + 1) = true) ∨
    (sh[ix]? = some .value ∧ ix + 3 ≤ e ∧ sh[ix + 1]? = some .data ∧
      sh[ix + 2]? = some .pad ∧ stmtsLaidOut sh e f (ix + 3) = true) := by
  simp only [stmtsLaidOut] at h
  rcases hw : sh[ix]? with _ | w
  · rw [hw] at h; cases h
  · rw [hw] at h
    cases w with
    | func => cases h
    | data => cases h
    | pad => cases h
    | cls =>
      simp only [Bool.and_eq_true, decide_eq_true_eq] at h
      exact Or.inr (Or.inl ⟨Or.inl rfl, h.1, h.2⟩)
    | req =>
      simp only [Bool.and_eq_true, decide_eq_true_eq] at h
      exact Or.inr (Or.inl ⟨Or.inr rfl, h.1, h.2⟩)
    | value =>
      simp only [Bool.and_eq_true, decide_eq_true_eq] at h
      exact Or.inr (Or.inr ⟨rfl, h.1.1.1, h.1.1.2, h.1.2, h.2⟩)
    | done =>
      simp only [decide_eq_true_eq] at h
      exact Or.inl ⟨rfl, h⟩

theorem stmtsLaidOut_done (sh : List WordShape) (e f : Nat) (h : sh[e]? = some .done) :
    stmtsLaidOut sh e (f + 1) e = true := by
  simp only [stmtsLaidOut, h, decide_True]

theorem stmtsLaidOut_one (sh : List WordShape) (e f ix : Nat)
    (h1 : sh[ix]? = some .cls ∨ sh[ix]? = some .req) (h2 : ix < e)
    (h3 : stmtsLaidOut sh e f (ix + 1) = true) : stmtsLaidOut sh e (f + 1) ix = true := by
  rcases h1 with h1 | h1 <;>
    simp only [stmtsLaidOut, h1, h2, h3, decide_True, Bool.and_self]

theorem stmtsLaidOut_three (sh : List WordShape) (e f ix : Nat)
    (h1 : sh[ix]? = some .value) (h2 : ix + 3 ≤ e) (h3 : sh[ix + 1]? = some .data)
    (h4 : sh[ix + 2]? = some .pad) (h5 : stmtsLaidOut sh e f (ix + 3) = true) :
    stmtsLaidOut sh e (f + 1) ix = true := by
  simp only [stmtsLaidOut, h1, h2, h3, h4, h5, decide_True, Bool.and_self]

theorem stmtsLaidOut_mono (sh : List WordShape) (e : Nat) :
    ∀ (f g ix : Nat), f ≤ g → stmtsLaidOut sh e f ix = true → stmtsLaidOut sh e g ix = true := by
  intro f
  induction f with
  | zero => intro g ix _ h; simp [stmtsLaidOut] at h
  | succ f ih =>
    intro g ix hle h
    obtain ⟨g, rfl⟩ : ∃ g1, g = g1 + 1 := ⟨g - 1, by omega⟩
    rcases stmtsLaidOut_step sh e f ix h with ⟨h1, h2⟩ | ⟨h1, h2, h3⟩ | ⟨h1, h2, h3, h4, h5⟩
    · subst h2
      exact stmtsLaidOut_done sh ix g h1
    · exact stmtsLaidOut_one sh e g ix h1 h2 (ih g (ix + 1) (by omega) h3)
    · exact stmtsLaidOut_three sh e g ix h1 h2 h3 h4 (ih g (ix + 3) (by omega) h5)

theorem stmtsLaidOut_norm (sh : List WordShape) (e : Nat) :
    ∀ (f ix : Nat), stmtsLaidOut sh e f ix = true →
      ix ≤ e ∧ stmtsLaidOut sh e (e + 1 - ix) ix = true := by
  intro f
  induction f with
  | zero => intro ix h; simp [stmtsLaidOut] at h
  | succ f ih =>
    intro ix h
    rcases stmtsLaidOut_step sh e f ix h with ⟨h1, h2⟩ | ⟨h1, h2, h3⟩ | ⟨h1, h2, h3, h4, h5⟩
    · subst h2
      refine ⟨Nat.le_refl _, ?_⟩
      have : ix + 1 - ix = 0 + 1 := by omega
      rw [this]
      exact stmtsLaidOut_done sh ix 0 h1
    · have h6 := (ih (ix + 1) h3).2
      have : e + 1 - ix = (e + 1 - (ix + 1)) + 1 := by omega
      refine ⟨by omega, ?_⟩
      rw [this]
      exact stmtsLaidOut_one sh e _ ix h1 h2 h6
    · have h6 := (ih (ix + 3) h5).2
      have h7 := stmtsLaidOut_mono sh e _ (e + 1 - (ix + 1)) (ix + 3) (by omega) h6
      have : e + 1 - ix = (e + 1 - (ix + 1)) + 1 := by omega
      refine ⟨by omega, ?_⟩
      rw [this]
      exact stmtsLaidOut_three sh e _ ix h1 h2 h3 h4 h7

theorem shapeKept_refl (s : VM) : ShapeKept s s :=
  ⟨mono_refl s, fun _ => ⟨rfl, rfl, rfl, rfl, rfl⟩⟩

theorem shapeKept_trans {a b c : VM} (h1 : ShapeKept a b) (h2 : ShapeKept b c) :
    ShapeKept a c := by
  refine ⟨mono_trans h1.1 h2.1, ?_⟩
  intro v
  obtain ⟨a1, a2, a3, a4, a5⟩ := h1.2 v
  obtain ⟨b1, b2, b3, b4, b5⟩ := h2.2 v
  exact ⟨b1.trans a1, b2.trans a2, b3.trans a3, b4.trans a4, b5.trans a5⟩

theorem shapeKept_of_eq (s t : VM) (hm : Mono s t) (hu : t.units = s.units) : ShapeKept s t := by
  refine ⟨hm, ?_⟩
  intro v
  rw [hu]
  exact ⟨rfl, rfl, rfl, rfl, rfl⟩

/-- The rewrite of the mergeables changes the shape of no word. -/
theorem unitStep_shapes {a b : Unit} (h : UnitStep a b) : b.shapes = a.shapes := by
  apply List.ext_getElem?
  intro i
  simp only [Unit.shapes, List.getElem?_map]
  rcases hb : b.m_mergeables[i]? with _ | w
  · have hlen := h.length
    have : b.m_mergeables.length ≤ i := List.getElem?_eq_none_iff.mp hb
    rw [List.getElem?_eq_none_iff.mpr (by omega)]
  · rcases h.words i w hb with h1 | ⟨c, p, hc, h1⟩
    · rw [h1]
    · rw [h1, hc]
      rfl

theorem list_set_shape (l : List Mergeable) (ix : Nat) (w w0 : Mergeable)
    (h0 : l[ix]? = some w0) (hs : w.shape = w0.shape) :
    (l.set ix w).map Mergeable.shape = l.map Mergeable.shape := by
  apply List.ext_getElem?
  intro i
  simp only [List.getElem?_map, List.getElem?_set]
  by_cases hi : ix = i
  · subst hi
    have hlt : ix < l.length := (List.getElem?_eq_some_iff.mp h0).1
    simp only [if_true, hlt, h0, Option.map_some', hs]
  · simp only [if_neg hi]

/-- A store of a word over a word of its shape changes the shape of no
word and no marker. -/
theorem setMergeable_shapeKept (s : VM) (u ix : Nat) (w w0 : Mergeable)
    (h0 : mergeableObj s u ix = some w0) (hs : w.shape = w0.shape) :
    ShapeKept s (setMergeable s u ix w) := by
  refine ⟨⟨fun _ => ⟨[], rfl⟩, fun hc => hc⟩, ?_⟩
  intro v
  unfold setMergeable
  simp only [Function.update_apply]
  by_cases hv : v = u
  · subst hv
    rw [if_pos rfl]
    refine ⟨?_, rfl, rfl, rfl, rfl⟩
    simp only [Unit.shapes]
    exact list_set_shape _ ix w w0 h0 hs
  · rw [if_neg hv]
    exact ⟨rfl, rfl, rfl, rfl, rfl⟩

theorem setMergeState_shapeKept (s : VM) (u : Nat) (m : MergeState) :
    ShapeKept s (setMergeState s u m) := by
  refine ⟨⟨fun _ => ⟨[], rfl⟩, fun hc => hc⟩, ?_⟩
  intro v
  unfold setMergeState
  simp only [Function.update_apply]
  by_cases hv : v = u
  · subst hv
    rw [if_pos rfl]
    exact ⟨rfl, rfl, rfl, rfl, rfl⟩
  · rw [if_neg hv]
    exact ⟨rfl, rfl, rfl, rfl, rfl⟩

theorem shapeKept_obj {s t : VM} (h : ShapeKept s t) (u ix : Nat) (w0 : Mergeable)
    (h0 : mergeableObj s u ix = some w0) :
    ∃ w1, mergeableObj t u ix = some w1 ∧ w1.shape = w0.shape := by
  have e := congrArg (fun l => l[ix]?) (h.2 u).1
  simp only [Unit.shapes, List.getElem?_map] at e
  simp only [mergeableObj] at h0 ⊢
  rw [h0] at e
  rcases ht : (t.units u).m_mergeables[ix]? with _ | w1
  · rw [ht] at e; cases e
  · rw [ht] at e
    simp only [Option.map_some', Option.some.injEq] at e
    exact ⟨w1, rfl, e⟩

/-- The shapes and the markers are kept by everything that `merge` does,
when the collaborators keep them and `newClass` allocates fresh objects. -/
theorem unitRel_shapeKept (E : Env) (hE : E.Respects ShapeKept) (hF : E.Fresh) :
    UnitRel E ShapeKept where
  refl := shapeKept_refl
  trans := fun _ _ _ h1 h2 => shapeKept_trans h1 h2
  mono := fun _ _ h => h.1
  env := hE
  fresh := hF
  setCached := setCached_of_all (fun _ _ _ h1 h2 => shapeKept_trans h1 h2)
    (fun c s => shapeKept_of_eq s _ (setCached_mono c s) rfl)
  publish := publish_of_all E (fun _ _ _ h1 h2 => shapeKept_trans h1 h2)
    fun P N s hs hf => shapeKept_of_eq s _ (defClassPublish_mono E P N s hs hf) rfl
  tcFunc := fun s _ _ _ _ _ => shapeKept_of_eq s _ ⟨fun _ => ⟨[], rfl⟩, fun hc => hc⟩ rfl
  mergeCns := by
    intro off v name s
    refine shapeKept_of_eq _ _ ?_ (mergeCns_frame off v name s).2.2.2.1
    have h1 := (mergeCns_frame off v name s).1
    exact ⟨fun n => by rw [h1], fun hs n => by rw [h1]; exact hs n⟩
  setGlobal := fun _ _ s => shapeKept_of_eq s _ ⟨fun _ => ⟨[], rfl⟩, fun hc => hc⟩ rfl
  tcFlags := fun s _ _ => shapeKept_of_eq s _ ⟨fun _ => ⟨[], rfl⟩, fun hc => hc⟩ rfl
  rewrite := by
    intro s t h _
    refine ⟨⟨fun n => by rw [h.1], fun hs n => by rw [h.1]; exact hs n⟩, ?_⟩
    intro v
    have hu := h.2 v
    exact ⟨unitStep_shapes hu, hu.firstHoistableFunc, hu.firstHoistablePreClass,
      hu.firstMergeablePreClass, hu.mergeablesSize⟩
  setMerging := fun s u _ => setMergeState_shapeKept s u _
  setMerged := fun _ s u _ _ _ h => shapeKept_trans h (setMergeState_shapeKept s u _)
  setFunc := fun s u ix f h => setMergeable_shapeKept s u ix _ _ h rfl
  setReq := by
    intro s0 s u ix k name unit h hr
    obtain ⟨w1, hw1, hs1⟩ := shapeKept_obj hr u ix _ h
    exact shapeKept_trans hr (setMergeable_shapeKept s u ix _ w1 hw1 (by rw [hs1]; rfl))
  setValue := fun s u ix v v1 h => setMergeable_shapeKept s u ix _ _ h rfl
  funcOffset := fun s _ _ => shapeKept_of_eq s _ ⟨fun _ => ⟨[], rfl⟩, fun hc => hc⟩ rfl

theorem shapeKept_laidOut {s t : VM} (h : ShapeKept s t) (v : Nat) :
    (t.units v).laidOut = (s.units v).laidOut := by
  obtain ⟨h1, h2, h3, h4, h5⟩ := h.2 v
  simp only [Unit.laidOut, h1, h2, h3, h4, h5]

theorem createHoistable_shapes (pre : List PreClass) :
    ∀ (ids : List Nat) (hs : List Mergeable), createHoistable pre ids = some hs →
      ∀ w ∈ hs, w.shape = WordShape.cls := by
  intro ids
  induction ids with
  | nil =>
    intro hs h w hw
    simp only [createHoistable, Option.some.injEq] at h
    subst h
    cases hw
  | cons id rest ih =>
    intro hs h w hw
    simp only [createHoistable] at h
    rcases hp : pre[id]? with _ | p
    · rw [hp] at h; cases h
    · rw [hp] at h
      simp only [] at h
      rcases hr : createHoistable pre rest with _ | ws
      · rw [hr] at h; cases h
      · rw [hr] at h
        simp only [Option.some.injEq] at h
        subst h
        rcases List.mem_cons.mp hw with rfl | hw
        · rfl
        · exact ih ws hr w hw

/-- The words of one merge statement: one word of a class or of an include,
or the word of a define or of a global with the two words of its value. -/
theorem createStmt_shapes (pre : List PreClass) (lit : List String)
    (vals : List (Nat × TypedValue)) (st : UnitMergeKind × Nat) (ws : List Mergeable)
    (h : createStmt pre lit vals st = some ws) :
    (∃ w, ws = [w] ∧ (w.shape = WordShape.cls ∨ w.shape = WordShape.req)) ∨
    (∃ w v, ws = [w, Mergeable.tvData v, Mergeable.tvPad] ∧ w.shape = WordShape.value) := by
  obtain ⟨k, id⟩ := st
  cases k with
  | UnitMergeKindClass =>
    simp only [createStmt] at h
    rcases hp : pre[id]? with _ | p
    · rw [hp] at h; cases h
    · rw [hp] at h
      simp only [Option.some.injEq] at h
      exact Or.inl ⟨_, h.symm, Or.inl rfl⟩
  | UnitMergeKindUniqueDefinedClass => simp [createStmt] at h
  | UnitMergeKindDone => simp [createStmt] at h
  | UnitMergeKindReq r =>
    simp only [createStmt] at h
    rcases hp : lit[id]? with _ | p
    · rw [hp] at h; cases h
    · rw [hp] at h
      simp only [Option.some.injEq] at h
      exact Or.inl ⟨_, h.symm, Or.inr rfl⟩
  | UnitMergeKindDefine =>
    simp only [createStmt] at h
    rcases hv : vals[id]? with _ | ⟨n, tv⟩
    · rw [hv] at h; cases h
    · rw [hv] at h
      simp only [] at h
      rcases hp : lit[n]? with _ | p
      · rw [hp] at h; cases h
      · rw [hp] at h
        simp only [Option.some.injEq] at h
        exact Or.inr ⟨_, _, h.symm, rfl⟩
  | UnitMergeKindGlobal =>
    simp only [createStmt] at h
    rcases hv : vals[id]? with _ | ⟨n, tv⟩
    · rw [hv] at h; cases h
    · rw [hv] at h
      simp only [] at h
      rcases hp : lit[n]? with _ | p
      · rw [hp] at h; cases h
      · rw [hp] at h
        simp only [Option.some.injEq] at h
        exact Or.inr ⟨_, _, h.symm, rfl⟩

theorem getElem?_front {α : Type} (front l : List α) (i : Nat) :
    (front ++ l)[front.length + i]? = l[i]? := by
  rw [List.getElem?_append_right (by omega)]
  congr 1
  omega

theorem getElem?_front_zero {α : Type} (front l : List α) :
    (front ++ l)[front.length]? = l[0]? := getElem?_front front l 0

/-- The words of the merge statements, followed by `Done`, are whole
instructions. -/
theorem createStmts_laidOut (pre : List PreClass) (lit : List String)
    (vals : List (Nat × TypedValue)) :
    ∀ (stmts : List (UnitMergeKind × Nat)) (rest : List Mergeable),
      createStmts pre lit vals stmts = some rest →
      ∀ (front : List WordShape),
        stmtsLaidOut (front ++ rest.map Mergeable.shape ++ [WordShape.done])
          (front.length + rest.length) (rest.length + 1) front.length = true := by
  intro stmts
  induction stmts with
  | nil =>
    intro rest h front
    simp only [createStmts, Option.some.injEq] at h
    subst h
    simp only [List.map_nil, List.append_nil, List.length_nil, Nat.add_zero, Nat.zero_add]
    apply stmtsLaidOut_done
    simp
  | cons st tl ih =>
    intro rest h front
    simp only [createStmts] at h
    rcases hst : createStmt pre lit vals st with _ | ws
    · rw [hst] at h; cases h
    · rw [hst] at h
      simp only [] at h
      rcases htl : createStmts pre lit vals tl with _ | tail
      · rw [htl] at h; cases h
      · rw [htl] at h
        simp only [Option.some.injEq] at h
        subst h
        rcases createStmt_shapes pre lit vals st ws hst with ⟨w, rfl, hw⟩ | ⟨w, v, rfl, hw⟩
        · have h1 := ih tail htl (front ++ [w.shape])
          have e1 : front ++ [w.shape] ++ tail.map Mergeable.shape ++ [WordShape.done] =
              front ++ ([w] ++ tail).map Mergeable.shape ++ [WordShape.done] := by simp
          have e2 : (front ++ [w.shape]).length = front.length + 1 := by simp
          rw [e1, e2] at h1
          have e3 : front.length + ([w] ++ tail).length = front.length + 1 + tail.length := by
            simp; omega
          have e4 : ([w] ++ tail).length + 1 = (tail.length + 1) + 1 := by simp
          rw [e3, e4]
          have hL : front ++ ([w] ++ tail).map Mergeable.shape ++ [WordShape.done] =
              front ++ (w.shape :: (tail.map Mergeable.shape ++ [WordShape.done])) := by simp
          rw [hL] at h1 ⊢
          refine stmtsLaidOut_one _ _ _ _ ?_ (by omega) h1
          rw [getElem?_front_zero]
          rcases hw with hw | hw
          · exact Or.inl (by rw [← hw]; simp)
          · exact Or.inr (by rw [← hw]; simp)
        · have h1 := ih tail htl
            (front ++ [w.shape, WordShape.data, WordShape.pad])
          have e1 : front ++ [w.shape, WordShape.data, WordShape.pad] ++
              tail.map Mergeable.shape ++ [WordShape.done] =
              front ++ ([w, Mergeable.tvData v, Mergeable.tvPad] ++ tail).map Mergeable.shape ++
                [WordShape.done] := by simp [Mergeable.shape]
          have e2 : (front ++ [w.shape, WordShape.data, WordShape.pad]).length =
              front.length + 3 := by simp
          rw [e1, e2] at h1
          have e3 : front.length + ([w, Mergeable.tvData v, Mergeable.tvPad] ++ tail).length =
              front.length + 3 + tail.length := by simp; omega
          have e4 : ([w, Mergeable.tvData v, Mergeable.tvPad] ++ tail).length + 1 =
              (tail.length + 3) + 1 := by simp
          rw [e3, e4]
          have hL : front ++ ([w, Mergeable.tvData v, Mergeable.tvPad] ++ tail).map
              Mergeable.shape ++ [WordShape.done] =
              front ++ (w.shape :: WordShape.data :: WordShape.pad ::
                (tail.map Mergeable.shape ++ [WordShape.done])) := by simp [Mergeable.shape]
          rw [hL] at h1 ⊢
          have h2 := stmtsLaidOut_mono _ _ _ (tail.length + 3) _ (by omega) h1
          refine stmtsLaidOut_three _ _ _ _ ?_ (by omega) ?_ ?_ h2
          · rw [getElem?_front_zero, ← hw]
            simp
          · rw [getElem?_front]
            simp
          · rw [getElem?_front]
            simp

/-- The array that `UnitEmitter::create` builds is laid out. -/
theorem create_laidOut (E : Env) (mkFunc : FuncEmitter → Func)
    (mkPre : PreClassEmitter → PreClass) (e : UnitEmitter) (un : Unit)
    (h : e.create E mkFunc mkPre = some un) : un.laidOut = true := by
  obtain ⟨hoistable, rest, hh, hrest, hw, hsz, hfhf, hfhp, hfmp⟩ :=
    create_some E mkFunc mkPre e un h
  have hcls := createHoistable_shapes _ _ _ hh
  have hst : ∃ stmts, createStmts (e.m_pceVec.map mkPre) e.m_litstrs e.m_mergeableValues stmts =
      some rest := by
    rcases hrest with rfl | ⟨_, _, h3⟩
    · exact ⟨[], rfl⟩
    · exact ⟨_, h3⟩
  obtain ⟨stmts, hcs⟩ := hst
  generalize hA : ((e.m_fes.map mkFunc).map Mergeable.func).map Mergeable.shape = A
  generalize hB : hoistable.map Mergeable.shape = B
  have hAl : A.length = e.m_fes.length := by rw [← hA]; simp
  have hBl : B.length = hoistable.length := by rw [← hB]; simp
  have hAf : ∀ x ∈ A, x = WordShape.func := by
    intro x hx
    rw [← hA] at hx
    simp only [List.map_map, List.mem_map, Function.comp] at hx
    obtain ⟨fe, _, rfl⟩ := hx
    rfl
  have hBc : ∀ x ∈ B, x = WordShape.cls := by
    intro x hx
    rw [← hB] at hx
    obtain ⟨w, hw1, rfl⟩ := List.mem_map.mp hx
    exact hcls w hw1
  have hsh : un.shapes = (A ++ B) ++ rest.map Mergeable.shape ++ [WordShape.done] := by
    simp only [Unit.shapes, hw, List.map_append, hA, hB]
    rfl
  have hscan := createStmts_laidOut _ _ _ stmts rest hcs (A ++ B)
  have hABl : (A ++ B).length = un.m_firstMergeablePreClass := by
    rw [List.length_append, hAl, hBl, hfmp]
  have hAl2 : A.length = un.m_firstHoistablePreClass := by rw [hAl, hfhp]
  unfold Unit.laidOut
  simp only [Bool.and_eq_true, decide_eq_true_eq, List.all_eq_true]
  refine ⟨⟨⟨⟨⟨⟨?_, ?_⟩, ?_⟩, ?_⟩, ?_⟩, ?_⟩, ?_⟩
  · omega
  · omega
  · omega
  · rw [hsh]
    simp only [List.length_append, List.length_map, List.length_singleton, hAl, hBl]
    omega
  · intro x hx
    rw [hsh, List.append_assoc, List.append_assoc, List.take_left' hAl2] at hx
    exact hAf x hx
  · intro x hx
    rw [hsh, List.append_assoc, List.take_left' hABl, List.drop_left' hAl2] at hx
    exact hBc x hx
  · rw [← hsh, hABl] at hscan
    have e1 : un.m_firstMergeablePreClass + rest.length = un.m_mergeablesSize := by omega
    have e2 : rest.length + 1 = un.m_mergeablesSize + 1 - un.m_firstMergeablePreClass := by omega
    rw [e1, e2] at hscan
    exact hscan

theorem rewriteStep_shapeKept {s t : VM} (h : RewriteStep s t) : ShapeKept s t := by
  refine ⟨⟨fun n => by rw [h.1], fun hs n => by rw [h.1]; exact hs n⟩, ?_⟩
  intro v
  have hu := h.2 v
  exact ⟨unitStep_shapes hu, hu.firstHoistableFunc, hu.firstHoistablePreClass,
    hu.firstMergeablePreClass, hu.mergeablesSize⟩

/-- A word of the array and its shape. -/
theorem shapes_obj (s : VM) (u ix : Nat) (sh : WordShape)
    (h : (s.units u).shapes[ix]? = some sh) :
    ∃ w, mergeableObj s u ix = some w ∧ w.shape = sh := by
  simp only [Unit.shapes, List.getElem?_map] at h
  simp only [mergeableObj]
  rcases hw : (s.units u).m_mergeables[ix]? with _ | w
  · rw [hw] at h; cases h
  · rw [hw] at h
    simp only [Option.map_some', Option.some.injEq] at h
    exact ⟨w, rfl, h⟩

theorem obj_shapes (s : VM) (u ix : Nat) (w : Mergeable) (h : mergeableObj s u ix = some w) :
    (s.units u).shapes[ix]? = some w.shape := by
  simp only [mergeableObj] at h
  simp only [Unit.shapes, List.getElem?_map, h, Option.map_some']

/-- What the parts of the check `laidOut` say. -/
theorem laidOut_parts (un : Unit) (h : un.laidOut = true) :
    un.m_firstHoistableFunc ≤ un.m_firstHoistablePreClass ∧
    un.m_firstHoistablePreClass ≤ un.m_firstMergeablePreClass ∧
    un.m_firstMergeablePreClass ≤ un.m_mergeablesSize ∧
    un.m_mergeables.length = un.m_mergeablesSize + 1 ∧
    (∀ ix, ix < un.m_firstHoistablePreClass → un.shapes[ix]? = some WordShape.func) ∧
    (∀ ix, un.m_firstHoistablePreClass ≤ ix → ix < un.m_firstMergeablePreClass →
      un.shapes[ix]? = some WordShape.cls) ∧
    stmtsLaidOut un.shapes un.m_mergeablesSize
      (un.m_mergeablesSize + 1 - un.m_firstMergeablePreClass) un.m_firstMergeablePreClass =
        true := by
  unfold Unit.laidOut at h
  simp only [Bool.and_eq_true, decide_eq_true_eq, List.all_eq_true] at h
  obtain ⟨⟨⟨⟨⟨⟨h1, h2⟩, h3⟩, h4⟩, h5⟩, h6⟩, h7⟩ := h
  have hlen : un.m_mergeables.length = un.m_mergeablesSize + 1 := by
    simpa [Unit.shapes] using h4
  refine ⟨h1, h2, h3, hlen, ?_, ?_, h7⟩
  · intro ix hix
    have hlt : ix < un.shapes.length := by rw [h4]; omega
    have hmem : un.shapes[ix] ∈ un.shapes.take un.m_firstHoistablePreClass := by
      rw [List.mem_take_iff_getElem]
      exact ⟨ix, by rw [Nat.lt_min]; exact ⟨hix, hlt⟩, rfl⟩
    rw [List.getElem?_eq_getElem hlt, h5 _ hmem]
  · intro ix hix1 hix2
    have hlt : ix < un.shapes.length := by rw [h4]; omega
    have hmem : un.shapes[ix] ∈
        (un.shapes.take un.m_firstMergeablePreClass).drop un.m_firstHoistablePreClass := by
      rw [List.mem_iff_getElem?]
      refine ⟨ix - un.m_firstHoistablePreClass, ?_⟩
      rw [List.getElem?_drop, List.getElem?_take]
      have e1 : un.m_firstHoistablePreClass + (ix - un.m_firstHoistablePreClass) = ix := by omega
      rw [e1, if_pos hix2, List.getElem?_eq_getElem hlt]
    rw [List.getElem?_eq_getElem hlt, h6 _ hmem]

theorem stride_of_shape (w : Mergeable) :
    (w.shape = WordShape.value → stride w = 3) ∧ (w.shape ≠ WordShape.value → stride w = 1) := by
  cases w <;> simp [Mergeable.shape, stride]

/-- An instruction of the sequential model that is followed by another one is
a class, an include, or a define or a global with its value, and the next
instruction is after its last word. -/
theorem specStep_next (E : Env) (fuel u ix : Nat) (s : VM) (ix1 : Nat) (s1 : VM)
    (h : specStep E fuel u ix s = some (.ok (some ix1) s1)) :
    ∃ w, mergeableObj s u ix = some w ∧ ix1 = ix + stride w ∧
      (w.shape = WordShape.cls ∨ w.shape = WordShape.req ∨ w.shape = WordShape.value) := by
  simp only [specStep] at h
  rcases hobj : mergeableObj s u ix with _ | w
  · rw [hobj] at h; simp at h
  · rw [hobj] at h
    refine ⟨w, rfl, ?_⟩
    cases w with
    | func f => simp at h
    | tvData v => simp at h
    | tvPad => simp at h
    | reqName k n => simp at h
    | done =>
      simp only [] at h
      generalize mergeImplDone fuel u s = q at h
      rcases q with _ | ⟨a, t⟩ | ⟨m, t⟩ | _ <;> split at h <;> simp at h
    | preClass p =>
      simp only [] at h
      generalize defClass E fuel p true s = q at h
      rcases q with _ | ⟨a, t⟩ | ⟨m, t⟩ | _ <;> simp at h
      exact ⟨h.1.symm, Or.inl rfl⟩
    | cls c =>
      cases c with
      | none => simp at h
      | some c =>
        simp only [] at h
        generalize E.avail c none true s = q at h
        rcases q with ⟨⟨av, o⟩, t⟩ | ⟨m, t⟩ | _
        · cases av <;> (try cases o) <;> simp at h <;> exact ⟨h.1.symm, Or.inl rfl⟩
        · simp at h
        · simp at h
    | define n =>
      simp only [] at h
      generalize mergeableObj s u (ix + 1) = q at h
      rcases q with _ | w1
      · simp at h
      · cases w1 <;> simp at h
        exact ⟨h.1.symm, Or.inr (Or.inr rfl)⟩
    | global n =>
      simp only [] at h
      generalize mergeableObj s u (ix + 1) = q at h
      rcases q with _ | w1
      · simp at h
      · cases w1 <;> simp at h
        exact ⟨h.1.symm, Or.inr (Or.inr rfl)⟩
    | reqUnit k unit =>
      simp only [] at h
      split at h
      · generalize mergeImpl E fuel unit _ = q at h
        rcases q with _ | ⟨a, t⟩ | ⟨m, t⟩ | _
        · simp at h
        · simp only [] at h
          split at h
          · generalize E.invokeFunc unit t = q2 at h
            rcases q2 with ⟨a2, t2⟩ | ⟨m2, t2⟩ | _ <;> simp at h
            exact ⟨h.1.symm, Or.inr (Or.inl rfl)⟩
          · simp at h
            exact ⟨h.1.symm, Or.inr (Or.inl rfl)⟩
        · simp at h
        · simp at h
      · simp at h
        exact ⟨h.1.symm, Or.inr (Or.inl rfl)⟩

theorem kindOf_of_shape (w : Mergeable)
    (h : w.shape = WordShape.cls ∨ w.shape = WordShape.req ∨ w.shape = WordShape.value) :
    ∃ kd, kindOf w = some kd ∧ kd ≠ UnitMergeKind.UnitMergeKindDone := by
  cases w <;> simp [Mergeable.shape, kindOf] at h ⊢

/-- What a word that starts an instruction of a laid-out array is. -/
theorem scan_nextObj (x : VM) (u e f k : Nat)
    (h : stmtsLaidOut (x.units u).shapes e f k = true) :
    k ≤ e ∧ ∃ obj kd, nextObj x u k = some (obj, kd) ∧
      (kd = UnitMergeKind.UnitMergeKindDone ↔ k = e) ∧
      (obj.shape = WordShape.done ↔ k = e) ∧
      (k ≠ e → k + stride obj ≤ e) ∧
      (obj.shape = WordShape.value →
        ∃ v, mergeableObj x u (k + 1) = some (.tvData v)) := by
  cases f with
  | zero => simp [stmtsLaidOut] at h
  | succ f =>
    rcases stmtsLaidOut_step _ e f k h with ⟨h1, h2⟩ | ⟨h1, h2, _⟩ | ⟨h1, h2, h3, _, _⟩
    · obtain ⟨w, hw, hs⟩ := shapes_obj x u k _ h1
      refine ⟨by omega, w, UnitMergeKind.UnitMergeKindDone, ?_, ?_, ?_, ?_, ?_⟩
      · cases w <;> simp [Mergeable.shape] at hs
        simp [nextObj, hw, kindOf]
      · exact ⟨fun _ => h2, fun _ => rfl⟩
      · exact ⟨fun _ => h2, fun _ => hs⟩
      · intro hc; exact absurd h2 hc
      · intro hv; rw [hs] at hv; cases hv
    · have hsh : ∃ sh, (x.units u).shapes[k]? = some sh ∧
          (sh = WordShape.cls ∨ sh = WordShape.req) := by
        rcases h1 with h1 | h1
        · exact ⟨_, h1, Or.inl rfl⟩
        · exact ⟨_, h1, Or.inr rfl⟩
      obtain ⟨sh, hsh1, hsh2⟩ := hsh
      obtain ⟨w, hw, hs⟩ := shapes_obj x u k _ hsh1
      have hne : w.shape ≠ WordShape.value := by
        rw [hs]; rcases hsh2 with e1 | e1 <;> rw [e1] <;> decide
      have hst := (stride_of_shape w).2 hne
      have hk := kindOf_of_shape w (by
        rw [hs]
        rcases hsh2 with e1 | e1
        · exact Or.inl e1
        · exact Or.inr (Or.inl e1))
      obtain ⟨kd, hkd, hkd2⟩ := hk
      refine ⟨by omega, w, kd, ?_, ?_, ?_, ?_, ?_⟩
      · simp [nextObj, hw, hkd]
      · exact ⟨fun hc => absurd hc hkd2, fun hc => by omega⟩
      · constructor
        · intro hc
          rw [hs] at hc
          rcases hsh2 with e1 | e1 <;> rw [e1] at hc <;> cases hc
        · intro hc; omega
      · intro _; omega
      · intro hv; exact absurd hv hne
    · obtain ⟨w, hw, hs⟩ := shapes_obj x u k _ h1
      obtain ⟨w1, hw1, hs1⟩ := shapes_obj x u (k + 1) _ h3
      have hst := (stride_of_shape w).1 hs
      have hk := kindOf_of_shape w (Or.inr (Or.inr hs))
      obtain ⟨kd, hkd, hkd2⟩ := hk
      refine ⟨by omega, w, kd, ?_, ?_, ?_, ?_, ?_⟩
      · simp [nextObj, hw, hkd]
      · exact ⟨fun hc => absurd hc hkd2, fun hc => by omega⟩
      · constructor
        · intro hc
          rw [hs] at hc
          cases hc
        · intro hc; omega
      · intro _; omega
      · intro _
        cases w1 <;> simp [Mergeable.shape] at hs1
        exact ⟨_, hw1⟩

/-- The sequential interpreter, started at the first word of an instruction
of a laid-out array, gets to first words of instructions only, and the
shapes of the words stay. -/
theorem reaches_start (E : Env) (hE : E.Respects ShapeKept) (hF : E.Fresh) (fuel u e : Nat)
    {ix : Nat} {s : VM} {k : Nat} {x : VM} (h : Reaches E fuel u ix s k x) :
    ChainsOK s → ∀ f, stmtsLaidOut (s.units u).shapes e f ix = true →
      ShapeKept s x ∧ ix ≤ k ∧ ∃ g, stmtsLaidOut (x.units u).shapes e g k = true := by
  have hR := (unitRel_shapeKept E hE hF).toMergeRel
  induction h with
  | here ix s => intro _ f hf; exact ⟨shapeKept_refl s, Nat.le_refl _, f, hf⟩
  | step ix s ix1 s1 k x hst _ ih =>
    intro hs f hf
    have hp := specStep_post E ShapeKept hR fuel u ix s hs
    rw [hst] at hp
    have hp1 : ShapeKept s s1 := hp
    have hs1 := defClassRel_chainsOK hR.toDefClassRel hp1 hs
    obtain ⟨w, hw, hix1, hsh⟩ := specStep_next E fuel u ix s ix1 s1 hst
    have hwsh := obj_shapes s u ix w hw
    cases f with
    | zero => simp [stmtsLaidOut] at hf
    | succ f =>
      have hnext : stmtsLaidOut (s1.units u).shapes e f ix1 = true := by
        rw [(hp1.2 u).1, hix1]
        rcases stmtsLaidOut_step _ e f ix hf with ⟨h1, _⟩ | ⟨h1, _, h3⟩ | ⟨h1, _, _, _, h5⟩
        · rw [hwsh] at h1
          simp only [Option.some.injEq] at h1
          rw [h1] at hsh
          rcases hsh with hc | hc | hc <;> cases hc
        · have hne : w.shape ≠ WordShape.value := by
            rw [hwsh] at h1
            simp only [Option.some.injEq] at h1
            rcases h1 with h1 | h1 <;> rw [h1] <;> decide
          rw [(stride_of_shape w).2 hne]
          exact h3
        · rw [hwsh] at h1
          simp only [Option.some.injEq] at h1
          rw [(stride_of_shape w).1 h1]
          exact h5
      obtain ⟨i1, i2, i3⟩ := ih hs1 f hnext
      have hpos : 0 < stride w := by
        cases w <;> simp [stride]
      exact ⟨shapeKept_trans hp1 i1, by omega, i3⟩

/-- The words that the second loop of the rewrite reads as instructions on a
laid-out array are first words of instructions. -/
theorem instrAt_start (s : VM) (u e : Nat) {ix j : Nat} (h : InstrAt s u e ix j) :
    ∀ f, stmtsLaidOut (s.units u).shapes e f ix = true →
      ix ≤ j ∧ ∃ g, stmtsLaidOut (s.units u).shapes e g j = true := by
  induction h with
  | here ix => intro f hf; exact ⟨Nat.le_refl _, f, hf⟩
  | next ix j w hw hlt _ ih =>
    intro f hf
    have hwsh := obj_shapes s u ix w hw
    cases f with
    | zero => simp [stmtsLaidOut] at hf
    | succ f =>
      have hnext : stmtsLaidOut (s.units u).shapes e f (ix + stride w) = true := by
        rcases stmtsLaidOut_step _ e f ix hf with ⟨_, h2⟩ | ⟨h1, _, h3⟩ | ⟨h1, _, _, _, h5⟩
        · omega
        · have hne : w.shape ≠ WordShape.value := by
            rw [hwsh] at h1
            simp only [Option.some.injEq] at h1
            rcases h1 with h1 | h1 <;> rw [h1] <;> decide
          rw [(stride_of_shape w).2 hne]
          exact h3
        · rw [hwsh] at h1
          simp only [Option.some.injEq] at h1
          rw [(stride_of_shape w).1 h1]
          exact h5
      obtain ⟨i1, i2⟩ := ih f hnext
      exact ⟨by omega, i2⟩

theorem rewriteReady_obj {s : VM} {u : Nat} (h : rewriteReady s u = true) (j : Nat)
    (p : PreClass) (hw : mergeableObj s u j = some (.preClass p)) : rewriteAsserts s p = true := by
  unfold rewriteReady at h
  rw [List.all_eq_true] at h
  have := h _ (List.getElem?_mem hw)
  exact this

/-- The first loop of the rewrite ends on a range of class words whose
assertions hold. -/
theorem rewriteHoistable_laidOut (u : Nat) :
    ∀ (n ix : Nat) (s : VM),
      (∀ j, ix ≤ j → j < ix + n → (s.units u).shapes[j]? = some WordShape.cls) →
      (∀ j p, mergeableObj s u j = some (.preClass p) → rewriteAsserts s p = true) →
      ∃ t, rewriteHoistable u n ix s = some t := by
  intro n
  induction n with
  | zero => intro ix s _ _; exact ⟨s, rfl⟩
  | succ n ih =>
    intro ix s h ha
    obtain ⟨w, hw, hsh⟩ := shapes_obj s u ix _ (h ix (Nat.le_refl _) (by omega))
    simp only [rewriteHoistable, hw]
    cases w <;> simp [Mergeable.shape] at hsh
    · rename_i p
      simp only []
      rw [if_pos (ha ix p hw)]
      apply ih
      · intro j h1 h2
        have hk := setMergeable_shapeKept s u ix (.cls (s.clsList p.name).head?) _ hw rfl
        rw [(hk.2 u).1]
        exact h j (by omega) (by omega)
      · intro j q hq
        rcases setMergeable_words s u ix _ j _ hq with h3 | ⟨_, h4⟩
        · exact ha j q h3
        · cases h4
    · simp only []
      apply ih
      · intro j h1 h2
        exact h j (by omega) (by omega)
      · exact ha

/-- The second loop of the rewrite ends on whole instructions whose
assertions hold, and reads no word of a value as an instruction. -/
theorem rewriteStmts_laidOut (u e : Nat) :
    ∀ (f ix : Nat) (s : VM), stmtsLaidOut (s.units u).shapes e f ix = true →
      (∀ j p, mergeableObj s u j = some (.preClass p) → rewriteAsserts s p = true) →
      ∃ t, rewriteStmts u e f ix s = some (some t) := by
  intro f
  induction f with
  | zero => intro ix s h; simp [stmtsLaidOut] at h
  | succ f ih =>
    intro ix s h ha
    rcases stmtsLaidOut_step _ e f ix h with ⟨h1, h2⟩ | ⟨h1, h2, h3⟩ | ⟨h1, h2, h3, h4, h5⟩
    · obtain ⟨w, hw, hsh⟩ := shapes_obj s u ix _ h1
      cases w <;> simp [Mergeable.shape] at hsh
      simp only [rewriteStmts, hw]
      rw [if_neg (by omega)]
      exact ⟨s, rfl⟩
    · have hsh : ∃ sh, (s.units u).shapes[ix]? = some sh ∧
          (sh = WordShape.cls ∨ sh = WordShape.req) := by
        rcases h1 with h1 | h1
        · exact ⟨_, h1, Or.inl rfl⟩
        · exact ⟨_, h1, Or.inr rfl⟩
      obtain ⟨sh, hsh1, hsh2⟩ := hsh
      obtain ⟨w, hw, hs⟩ := shapes_obj s u ix _ hsh1
      simp only [rewriteStmts, hw]
      cases w <;> simp [Mergeable.shape] at hs <;>
        (try (rw [← hs] at hsh2; simp at hsh2; done))
      · rename_i p
        simp only []
        rw [if_pos (ha ix p hw)]
        by_cases hlt : ix + 1 < e
        · rw [if_pos hlt]
          apply ih
          · have hk := setMergeable_shapeKept s u ix (.cls (s.clsList p.name).head?) _ hw rfl
            rw [(hk.2 u).1]
            exact h3
          · intro j q hq
            rcases setMergeable_words s u ix _ j _ hq with h3 | ⟨_, h4⟩
            · exact ha j q h3
            · cases h4
        · rw [if_neg hlt]
          exact ⟨_, rfl⟩
      all_goals
        simp only []
        by_cases hlt : ix + 1 < e
        · rw [if_pos hlt]
          exact ih _ _ h3 ha
        · rw [if_neg hlt]
          exact ⟨_, rfl⟩
    · obtain ⟨w, hw, hs⟩ := shapes_obj s u ix _ h1
      simp only [rewriteStmts, hw]
      cases w <;> simp [Mergeable.shape] at hs
      all_goals
        simp only []
        by_cases hlt : ix + 3 < e
        · rw [if_pos hlt]
          exact ih _ _ h5 ha
        · rw [if_neg hlt]
          exact ⟨_, rfl⟩

/-- The rewrite of a laid-out array whose assertions hold returns. -/
theorem rewritePass_laidOut (u : Nat) (s : VM) (hl : (s.units u).laidOut = true)
    (ha : rewriteReady s u = true) :
    ∃ t, rewritePass ((s.units u).m_mergeablesSize + 1) u s = some (.ok PUnit.unit t) := by
  obtain ⟨_, _, h3, _, _, h6, h7⟩ := laidOut_parts _ hl
  generalize hm : ({ (s.units u).m_mergeState with uniqueDefinedClasses := true } : MergeState) = m
  have hk := setMergeState_shapeKept s u m
  obtain ⟨k1, _, k3, k4, k5⟩ := hk.2 u
  have ha0 : ∀ j p, mergeableObj (setMergeState s u m) u j = some (.preClass p) →
      rewriteAsserts (setMergeState s u m) p = true := by
    intro j p hw
    rw [setMergeState_obj] at hw
    exact rewriteReady_obj ha j p hw
  obtain ⟨s2, hs2⟩ := rewriteHoistable_laidOut u
    (((setMergeState s u m).units u).m_firstMergeablePreClass -
      ((setMergeState s u m).units u).m_firstHoistablePreClass)
    ((setMergeState s u m).units u).m_firstHoistablePreClass (setMergeState s u m) (by
      intro j h1 h2
      rw [k1]
      rw [k3] at h1 h2
      rw [k4] at h2
      exact h6 j h1 (by omega)) ha0
  have hstep := rewriteHoistable_rewriteStep u _ _ _ _ hs2
  have hk2 := rewriteStep_shapeKept hstep
  obtain ⟨l1, _, _, l4, l5⟩ := hk2.2 u
  have hscan : stmtsLaidOut (s2.units u).shapes (s2.units u).m_mergeablesSize
      ((s.units u).m_mergeablesSize + 1 - (s.units u).m_firstMergeablePreClass)
      (s2.units u).m_firstMergeablePreClass = true := by
    rw [l1, l4, l5, k1, k4, k5]
    exact h7
  have ha2 : ∀ j p, mergeableObj s2 u j = some (.preClass p) → rewriteAsserts s2 p = true := by
    intro j p hw
    rw [rewriteAsserts_clsList (rewriteStep_clsList hstep)]
    rcases rewriteHoistable_words u _ _ _ _ hs2 j _ hw with h5 | ⟨P, _, h6⟩
    · exact ha0 j p h5
    · cases h6
  obtain ⟨t, ht⟩ := rewriteStmts_laidOut u _ _ _ s2 hscan ha2
  have ht2 := rewriteStmts_fuel u _ _ ((s.units u).m_mergeablesSize + 1) (by omega) _ _ _ ht
  refine ⟨t, ?_⟩
  simp only [rewritePass, hm, hs2, ht2]

/-- The last case of the walk returns on a laid-out array whose assertions
hold. -/
theorem mergeImplDone_laidOut (u : Nat) (s : VM) (hl : (s.units u).laidOut = true)
    (ha : rewriteReady s u = true) :
    ∃ t, mergeImplDone ((s.units u).m_mergeablesSize + 1) u s = some (.ok PUnit.unit t) := by
  obtain ⟨t, ht⟩ := rewritePass_laidOut u s hl ha
  unfold mergeImplDone
  simp only []
  split
  · exact ⟨t, ht⟩
  · exact ⟨s, rfl⟩

/-- The sequential interpreter that ends has got to a last instruction, which
returns as `Done` does, raises or faults, and the end of the interpreter is
the end of that instruction. -/
theorem seqReplay_last (E : Env) (u : Nat) :
    ∀ (n ix : Nat) (s : VM) (r : Outcome PUnit), seqReplay E u n ix s = some r →
      ∃ k x, Reaches E n u ix s k x ∧
        ((∃ t, specStep E n u k x = some (.ok none t) ∧ r = .ok PUnit.unit t) ∨
          (∃ m t, specStep E n u k x = some (.raised m t) ∧ r = .raised m t) ∨
          (specStep E n u k x = some .fault ∧ r = .fault)) := by
  intro n
  induction n with
  | zero => intro ix s r h; simp [seqReplay] at h
  | succ m ih =>
    intro ix s r h
    rw [seqReplay_succ] at h
    generalize hst : specStep E m u ix s = y at h
    have hst1 := fun o (ho : y = some o) =>
      specStep_fuel E m (m + 1) (by omega) u ix s o (by rw [hst, ho])
    rcases y with _ | ⟨_ | ix1, s1⟩ | ⟨msg, s1⟩ | _
    · cases h
    · simp only [Option.some.injEq] at h
      exact ⟨ix, s, Reaches.here ix s, Or.inl ⟨s1, hst1 _ rfl, h.symm⟩⟩
    · simp only [] at h
      obtain ⟨k, x, hr, hlast⟩ := ih ix1 s1 r h
      refine ⟨k, x, Reaches.step ix s ix1 s1 k x (hst1 _ rfl)
        (reaches_fuel E m (m + 1) (by omega) u hr), ?_⟩
      rcases hlast with ⟨t, h1, h2⟩ | ⟨msg, t, h1, h2⟩ | ⟨h1, h2⟩
      · exact Or.inl ⟨t, specStep_fuel E m (m + 1) (by omega) u k x _ h1, h2⟩
      · exact Or.inr (Or.inl ⟨msg, t, specStep_fuel E m (m + 1) (by omega) u k x _ h1, h2⟩)
      · exact Or.inr (Or.inr ⟨specStep_fuel E m (m + 1) (by omega) u k x _ h1, h2⟩)
    · simp only [Option.some.injEq] at h
      exact ⟨ix, s, Reaches.here ix s, Or.inr (Or.inl ⟨msg, s1, hst1 _ rfl, h.symm⟩)⟩
    · simp only [Option.some.injEq] at h
      exact ⟨ix, s, Reaches.here ix s, Or.inr (Or.inr ⟨hst1 _ rfl, h.symm⟩)⟩

/-- The end of the sequential interpreter is its end from every instruction
that it gets to. -/
theorem seqReplay_along (E : Env) (u : Nat) {F ix : Nat} {s : VM} {k : Nat} {x : VM}
    (h : Reaches E F u ix s k x) :
    ∀ (n : Nat) (r : Outcome PUnit), seqReplay E u n ix s = some r →
      seqReplay E u n k x = some r := by
  induction h with
  | here ix s => intro n r h; exact h
  | step ix s ix1 s1 k x hst _ ih =>
    intro n r h
    cases n with
    | zero => simp [seqReplay] at h
    | succ m =>
      rw [seqReplay_succ] at h
      generalize hy : specStep E m u ix s = y at h
      rcases y with _ | o
      · cases h
      have ho : o = .ok (some ix1) s1 := by
        rcases Nat.le_total m F with hle | hle
        · have := specStep_fuel E m F hle u ix s o hy
          rw [hst] at this
          injection this with this
          exact this.symm
        · have := specStep_fuel E F m hle u ix s _ hst
          rw [hy] at this
          injection this
      subst ho
      simp only [] at h
      exact seqReplay_fuel E u m (m + 1) (by omega) _ _ _ (ih m r h)

/-- An instruction of the sequential model that ends the walk by returning is
`Done`. -/
theorem specStep_last (E : Env) (fuel u ix : Nat) (s : VM) (t : VM)
    (h : specStep E fuel u ix s = some (.ok none t)) :
    mergeableObj s u ix = some .done ∧ ix = (s.units u).m_mergeablesSize := by
  simp only [specStep] at h
  rcases hobj : mergeableObj s u ix with _ | w
  · rw [hobj] at h; simp at h
  · rw [hobj] at h
    cases w with
    | func f => simp at h
    | tvData v => simp at h
    | tvPad => simp at h
    | reqName k n => simp at h
    | done =>
      simp only [] at h
      split at h
      · rename_i hc; exact ⟨rfl, hc⟩
      · simp at h
    | preClass p =>
      simp only [] at h
      generalize defClass E fuel p true s = q at h
      rcases q with _ | ⟨a, t⟩ | ⟨m, t⟩ | _ <;> simp at h
    | cls c =>
      cases c with
      | none => simp at h
      | some c =>
        simp only [] at h
        generalize E.avail c none true s = q at h
        rcases q with ⟨⟨av, o⟩, t⟩ | ⟨m, t⟩ | _
        · cases av <;> cases o <;> simp at h
        · simp at h
        · simp at h
    | define name =>
      simp only [] at h
      generalize mergeableObj s u (ix + 1) = q at h
      rcases q with _ | w
      · simp at h
      · cases w <;> simp at h
    | global name =>
      simp only [] at h
      generalize mergeableObj s u (ix + 1) = q at h
      rcases q with _ | w
      · simp at h
      · cases w <;> simp at h
    | reqUnit k v =>
      simp only [] at h
      split at h
      · generalize mergeImpl E fuel v _ = q at h
        rcases q with _ | ⟨a, t⟩ | ⟨m, t⟩ | _ <;> simp only [] at h
        · simp at h
        · split at h
          · generalize E.invokeFunc v t = z at h
            rcases z with ⟨b, s3⟩ | ⟨m, s3⟩ | _ <;> simp at h
          · simp at h
        · simp at h
        · simp at h
      · simp at h

theorem exVMRW_chainsOK : ChainsOK exVMRW := by
  intro n
  simp only [exVMRW, exVMC, Class.setCached, emptyVM, Function.update_apply]
  split
  · decide
  · exact ⟨List.nodup_nil, fun c hc => by cases hc⟩

/-- C35: the walk stays inside the array.  `UnitEmitter::create` builds a
laid-out array (markers in order and at most `m_mergeablesSize`, functions,
then classes, then whole instructions up to `Done` at `m_mergeablesSize`),
and `merge` and `mergeImpl`, rewrite included, keep the array laid out when
the collaborators keep the shapes of the words.  On a laid-out array: the
words of the two loops at the head of `mergeImpl` are functions and classes
at indices below `m_firstMergeablePreClass`, and after them `mergeImpl` is
the walk `mergeImplSwitch`, started at `m_firstMergeablePreClass` in a state
whose array is laid out.  The loops of the walk of
`mergeImpl` (`mergeImplSwitch` and the loops that it enters) run the
instructions that the one-instruction-at-a-time interpreter gets to and no
other: a result of the loops started at `m_firstMergeablePreClass` is their
result when they are started again at any instruction that the interpreter
gets to, and it is the result of a last instruction, which the interpreter
gets to, that returns as `Done`, raises or faults.  Every index `k` that the
interpreter gets to is between `m_firstMergeablePreClass` and
`m_mergeablesSize`, the word there decodes to a kind (it is no word of a
value), it is `Done` exactly when `k = m_mergeablesSize`, so that the
assertion of the case `Done` holds, the value of a define or a global is at
`k + 1`, and the next instruction is after the last word of this one, at most
at `m_mergeablesSize`; a walk that returns has ended at `m_mergeablesSize`.
The rewrite whose assertions hold returns, and the indices that its second
loop reads as instructions are in the same range and decode to a kind; and
when the remaining section is empty the walk and the rewrite read the word
`Done` at `m_mergeablesSize` and no other. -/
theorem walk_in_bounds (E : Env) (hE : E.Respects ShapeKept) (hF : E.Fresh) (u : Nat) (s : VM)
    (hs : ChainsOK s) (hl : (s.units u).laidOut = true) :
    (∀ (E1 : Env) (mkFunc : FuncEmitter → Func) (mkPre : PreClassEmitter → PreClass)
      (em : UnitEmitter) (un : Unit), em.create E1 mkFunc mkPre = some un →
        un.laidOut = true) ∧
    (∀ fuel t, EndsIn (merge E fuel u s) t → (t.units u).laidOut = true) ∧
    (∀ fuel t, EndsIn (mergeImpl E fuel u s) t → (t.units u).laidOut = true) ∧
    ((s.units u).m_firstHoistableFunc ≤ (s.units u).m_firstHoistablePreClass ∧
      (s.units u).m_firstHoistablePreClass ≤ (s.units u).m_firstMergeablePreClass ∧
      (s.units u).m_firstMergeablePreClass ≤ (s.units u).m_mergeablesSize ∧
      (s.units u).m_mergeables.length = (s.units u).m_mergeablesSize + 1) ∧
    (∀ ix, ix < (s.units u).m_firstHoistablePreClass →
      ∃ f, mergeableObj s u ix = some (.func f)) ∧
    (∀ ix, (s.units u).m_firstHoistablePreClass ≤ ix →
      ix < (s.units u).m_firstMergeablePreClass →
      (∃ p, mergeableObj s u ix = some (.preClass p)) ∨
        ∃ c, mergeableObj s u ix = some (.cls c)) ∧
    (∀ F r1 s1 redo s2,
      mergeImplFuncs E u (s.units u).m_mergeState.uniqueFuncs
        ((s.units u).m_firstHoistablePreClass - (s.units u).m_firstHoistableFunc)
        (s.units u).m_firstHoistableFunc s = .ok r1 s1 →
      mergeImplHoistable E F u
        ((s1.units u).m_firstMergeablePreClass - (s1.units u).m_firstHoistablePreClass)
        (s1.units u).m_firstHoistablePreClass false s1 = some (.ok redo s2) →
      (redo = true → (s2.units u).isMergeOnly = true ∧
        (s1.units u).m_firstMergeablePreClass ≠ (s2.units u).m_mergeablesSize) →
      ChainsOK s2 ∧ (s2.units u).laidOut = true ∧
      (s2.units u).m_firstMergeablePreClass = (s.units u).m_firstMergeablePreClass ∧
      mergeImpl E (F + 1) u s =
        match nextObj s2 u (s2.units u).m_firstMergeablePreClass with
        | none => some .fault
        | some (obj, k) =>
          mergeImplSwitch E u F (s2.units u).m_firstMergeablePreClass obj k s2) ∧
    (∀ fuel obj kd r,
      nextObj s u (s.units u).m_firstMergeablePreClass = some (obj, kd) →
      mergeImplSwitch E u fuel (s.units u).m_firstMergeablePreClass obj kd s = some r →
      (∀ F k x objk kdk, Reaches E F u (s.units u).m_firstMergeablePreClass s k x →
        nextObj x u k = some (objk, kdk) →
        mergeImplSwitch E u (2 * (fuel + 1)) k objk kdk x = some r) ∧
      ∃ k x objk kdk, Reaches E (fuel + 1) u (s.units u).m_firstMergeablePreClass s k x ∧
        nextObj x u k = some (objk, kdk) ∧
        (s.units u).m_firstMergeablePreClass ≤ k ∧ k ≤ (s.units u).m_mergeablesSize ∧
        ((∃ t, specStep E (fuel + 1) u k x = some (.ok none t) ∧ r = .ok PUnit.unit t ∧
            k = (s.units u).m_mergeablesSize ∧ kdk = UnitMergeKind.UnitMergeKindDone) ∨
          (∃ m t, specStep E (fuel + 1) u k x = some (.raised m t) ∧ r = .raised m t) ∨
          (specStep E (fuel + 1) u k x = some .fault ∧ r = .fault))) ∧
    (∀ fuel k x, Reaches E fuel u (s.units u).m_firstMergeablePreClass s k x →
      (x.units u).laidOut = true ∧
      (s.units u).m_firstMergeablePreClass ≤ k ∧ k ≤ (s.units u).m_mergeablesSize ∧
      ∃ obj kd, nextObj x u k = some (obj, kd) ∧
        (kd = UnitMergeKind.UnitMergeKindDone ↔ k = (s.units u).m_mergeablesSize) ∧
        (kd = UnitMergeKind.UnitMergeKindDone → k = (x.units u).m_mergeablesSize ∧
          ∀ f, mergeImplSwitch E u (f + 1) k obj kd x = mergeImplDone f u x) ∧
        (k ≠ (s.units u).m_mergeablesSize → k + stride obj ≤ (s.units u).m_mergeablesSize) ∧
        (obj.shape = WordShape.value → ∃ v, mergeableObj x u (k + 1) = some (.tvData v)) ∧
        ∀ ix1 x1, specStep E fuel u k x = some (.ok (some ix1) x1) →
          ix1 = k + stride obj ∧ ix1 ≤ (s.units u).m_mergeablesSize) ∧
    (rewriteReady s u = true →
      ∃ t, rewritePass ((s.units u).m_mergeablesSize + 1) u s = some (.ok PUnit.unit t) ∧
        (t.units u).laidOut = true) ∧
    (rewriteReady s u = true →
      ∃ t, mergeImplDone ((s.units u).m_mergeablesSize + 1) u s = some (.ok PUnit.unit t)) ∧
    (∀ j, InstrAt s u (s.units u).m_mergeablesSize (s.units u).m_firstMergeablePreClass j →
      (s.units u).m_firstMergeablePreClass ≤ j ∧ j ≤ (s.units u).m_mergeablesSize ∧
      ∃ obj kd, nextObj s u j = some (obj, kd)) ∧
    ((s.units u).m_firstMergeablePreClass = (s.units u).m_mergeablesSize →
      nextObj s u (s.units u).m_mergeablesSize =
        some (Mergeable.done, UnitMergeKind.UnitMergeKindDone) ∧
      (∀ E1 f, mergeImplSwitch E1 u (f + 1) (s.units u).m_firstMergeablePreClass Mergeable.done
        UnitMergeKind.UnitMergeKindDone s = mergeImplDone f u s) ∧
      (∀ fuel k x, Reaches E fuel u (s.units u).m_firstMergeablePreClass s k x →
        k = (s.units u).m_mergeablesSize) ∧
      ∀ j, InstrAt s u (s.units u).m_mergeablesSize (s.units u).m_firstMergeablePreClass j →
        j = (s.units u).m_mergeablesSize) := by
  have hR := unitRel_shapeKept E hE hF
  obtain ⟨p1, p2, p3, p4, p5, p6, p7⟩ := laidOut_parts _ hl
  have hwalk : ∀ fuel k x, Reaches E fuel u (s.units u).m_firstMergeablePreClass s k x →
      ShapeKept s x ∧ (s.units u).m_firstMergeablePreClass ≤ k ∧
      ∃ g, stmtsLaidOut (x.units u).shapes (s.units u).m_mergeablesSize g k = true :=
    fun fuel k x hr => reaches_start E hE hF fuel u _ hr hs _ p7
  have hinstr : ∀ j,
      InstrAt s u (s.units u).m_mergeablesSize (s.units u).m_firstMergeablePreClass j →
      (s.units u).m_firstMergeablePreClass ≤ j ∧
      ∃ g, stmtsLaidOut (s.units u).shapes (s.units u).m_mergeablesSize g j = true :=
    fun j hj => instrAt_start s u _ hj _ p7
  refine ⟨?_, ?_, ?_, ⟨p1, p2, p3, p4⟩, ?_, ?_, ?_, ?_, ?_, ?_,
    fun ha => mergeImplDone_laidOut u s hl ha, ?_, ?_⟩
  · intro E1 mkFunc mkPre em un h
    exact create_laidOut E1 mkFunc mkPre em un h
  · intro fuel t he
    have hk := post_endsIn (merge_post E ShapeKept hR fuel u s hs) he
    rw [shapeKept_laidOut hk u]
    exact hl
  · intro fuel t he
    have hk := post_endsIn
      ((mergeImpl_walk_post E ShapeKept hR.toMergeRel fuel).2.2.2.2.2.2 u s hs) he
    rw [shapeKept_laidOut hk u]
    exact hl
  · intro ix hix
    obtain ⟨w, hw, hsh⟩ := shapes_obj s u ix _ (p5 ix hix)
    cases w <;> simp [Mergeable.shape] at hsh
    exact ⟨_, hw⟩
  · intro ix h1 h2
    obtain ⟨w, hw, hsh⟩ := shapes_obj s u ix _ (p6 ix h1 h2)
    cases w <;> simp [Mergeable.shape] at hsh
    · exact Or.inl ⟨_, hw⟩
    · exact Or.inr ⟨_, hw⟩
  · intro F r1 s1 redo s2 hf hh hroute
    have hk1 : ShapeKept s s1 := by
      have := mergeImplFuncs_post E ShapeKept hR.toMergeRel u
        (s.units u).m_mergeState.uniqueFuncs
        ((s.units u).m_firstHoistablePreClass - (s.units u).m_firstHoistableFunc)
        (s.units u).m_firstHoistableFunc s (fun h => h)
      rw [hf] at this
      exact this
    have hs1 := defClassRel_chainsOK hR.toMergeRel.toDefClassRel hk1 hs
    have hk2 : ShapeKept s1 s2 := by
      have := mergeImplHoistable_post E ShapeKept hR.toMergeRel.toDefClassRel F u
        ((s1.units u).m_firstMergeablePreClass - (s1.units u).m_firstHoistablePreClass)
        (s1.units u).m_firstHoistablePreClass false s1 hs1
      rw [hh] at this
      exact this
    have hs2 := defClassRel_chainsOK hR.toMergeRel.toDefClassRel hk2 hs1
    have hk := shapeKept_trans hk1 hk2
    obtain ⟨_, _, a3, a4, _⟩ := hk1.2 u
    obtain ⟨_, _, _, b4, _⟩ := hk2.2 u
    refine ⟨hs2, by rw [shapeKept_laidOut hk u]; exact hl, by rw [b4, a4], ?_⟩
    have := mergeImpl_to_walk E u s r1 s1 s2 F redo p1 hf hh hroute F (Nat.le_refl _)
    rw [max_eq_right (by rw [a3, a4]; exact p2)] at this
    rw [b4]
    exact this
  · intro fuel obj kd r hn hrun
    have hseq := (walk_to_seq E fuel).2.2.2.2.2 u _ obj kd s r hn hrun
    refine ⟨?_, ?_⟩
    · intro F k x objk kdk hr hnk
      exact seq_to_walk E u (fuel + 1) k objk kdk x r hnk (seqReplay_along E u hr _ r hseq)
    · obtain ⟨k, x, hr, hlast⟩ := seqReplay_last E u (fuel + 1) _ s r hseq
      obtain ⟨hk, hle, g, hg⟩ := hwalk _ k x hr
      obtain ⟨hke, objk, kdk, h1, h2, _⟩ := scan_nextObj x u _ g k hg
      refine ⟨k, x, objk, kdk, hr, h1, hle, hke, ?_⟩
      rcases hlast with ⟨t, e1, e2⟩ | ⟨m, t, e1, e2⟩ | ⟨e1, e2⟩
      · have hd := specStep_last E _ u k x t e1
        have hsz : k = (s.units u).m_mergeablesSize := by
          rw [hd.2]; exact (hk.2 u).2.2.2.2
        exact Or.inl ⟨t, e1, e2, hsz, h2.mpr hsz⟩
      · exact Or.inr (Or.inl ⟨m, t, e1, e2⟩)
      · exact Or.inr (Or.inr ⟨e1, e2⟩)
  · intro fuel k x hr
    obtain ⟨hk, hle, g, hg⟩ := hwalk fuel k x hr
    obtain ⟨hke, obj, kd, h1, h2, _, h4, h5⟩ := scan_nextObj x u _ g k hg
    have hsz : (x.units u).m_mergeablesSize = (s.units u).m_mergeablesSize := (hk.2 u).2.2.2.2
    refine ⟨by rw [shapeKept_laidOut hk u]; exact hl, hle, hke, obj, kd, h1, h2, ?_, h4, h5, ?_⟩
    · intro hd
      have hkk : k = (x.units u).m_mergeablesSize := by rw [hsz]; exact h2.mp hd
      refine ⟨hkk, fun f => ?_⟩
      subst hd
      simp only [mergeImplSwitch]
      rw [if_pos hkk]
    · intro ix1 x1 hst
      obtain ⟨w, hw, hix1, hsh⟩ := specStep_next E fuel u k x ix1 x1 hst
      have hobj := (nextObj_some h1).1
      rw [hobj] at hw
      simp only [Option.some.injEq] at hw
      subst hw
      refine ⟨hix1, ?_⟩
      rw [hix1]
      apply h4
      intro hc
      have hd : kd = UnitMergeKind.UnitMergeKindDone := h2.mpr hc
      have hk2 := (nextObj_some h1).2
      rw [hd] at hk2
      cases obj <;> simp [kindOf, Mergeable.shape] at hk2 hsh
  · intro ha
    obtain ⟨t, ht⟩ := rewritePass_laidOut u s hl ha
    refine ⟨t, ht, ?_⟩
    have hk := rewriteStep_shapeKept (rewritePass_effect _ u s _ t ht).1
    rw [shapeKept_laidOut hk u]
    exact hl
  · intro j hj
    obtain ⟨hle, g, hg⟩ := hinstr j hj
    obtain ⟨hke, obj, kd, h1, _⟩ := scan_nextObj s u _ g j hg
    exact ⟨hle, hke, obj, kd, h1⟩
  · intro hempty
    refine ⟨?_, ?_, ?_, ?_⟩
    · rw [hempty] at p7
      obtain ⟨_, obj, kd, h1, h2, h3, _⟩ := scan_nextObj s u _ _ _ p7
      have hd := h2.mpr rfl
      have hsh := h3.mpr rfl
      rw [h1, hd]
      cases obj <;> simp [Mergeable.shape] at hsh
      rfl
    · intro E1 f
      simp only [mergeImplSwitch]
      rw [if_pos hempty]
    · intro fuel k x hr
      obtain ⟨_, hle, g, hg⟩ := hwalk fuel k x hr
      have := (scan_nextObj x u _ g k hg).1
      omega
    · intro j hj
      obtain ⟨hle, g, hg⟩ := hinstr j hj
      have := (scan_nextObj s u _ g j hg).1
      omega

/-- The merge-only unit of `class C {} define('X', 1);`, with `C` defined, is
laid out: the loops of the walk, started at the define at 2, return; they
have run the instructions at 2, 5 and 6 and have ended at 6, which is
`m_mergeablesSize`, and the rewrite returns. -/
theorem walk_in_bounds_witness :
    ChainsOK exVMRW ∧ (exVMRW.units 9).laidOut = true ∧
    nextObj exVMRW 9 2 = some (.define "X", .UnitMergeKindDefine) ∧
    mergeImplSwitch quietEnv 9 8 2 (.define "X") .UnitMergeKindDefine exVMRW =
      some (.ok PUnit.unit exVMRWEnd) ∧
    (∃ k x objk kdk, Reaches quietEnv 9 9 2 exVMRW k x ∧ nextObj x 9 k = some (objk, kdk) ∧
      2 ≤ k ∧ k ≤ 6 ∧
      ((∃ t, specStep quietEnv 9 9 k x = some (.ok none t) ∧
          Outcome.ok PUnit.unit exVMRWEnd = .ok PUnit.unit t ∧
          k = 6 ∧ kdk = UnitMergeKind.UnitMergeKindDone) ∨
        (∃ m t, specStep quietEnv 9 9 k x = some (.raised m t) ∧
          Outcome.ok PUnit.unit exVMRWEnd = .raised m t) ∨
        (specStep quietEnv 9 9 k x = some .fault ∧ Outcome.ok PUnit.unit exVMRWEnd = .fault))) ∧
    (∀ fuel k x, Reaches quietEnv fuel 9 2 exVMRW k x → 2 ≤ k ∧ k ≤ 6) ∧
    (∃ t, rewritePass 7 9 exVMRW = some (.ok PUnit.unit t)) := by
  have h := walk_in_bounds quietEnv (quietEnv_respects ShapeKept shapeKept_refl) quietEnv_fresh
    9 exVMRW exVMRW_chainsOK rfl
  refine ⟨exVMRW_chainsOK, rfl, rfl, rfl, ?_, ?_, ?_⟩
  · exact (h.2.2.2.2.2.2.2.1 8 (.define "X") .UnitMergeKindDefine _ rfl rfl).2
  · intro fuel k x hr
    have := h.2.2.2.2.2.2.2.2.1 fuel k x hr
    exact ⟨this.2.1, this.2.2.1⟩
  · obtain ⟨t, ht, _⟩ := h.2.2.2.2.2.2.2.2.2.1 rfl
    exact ⟨t, ht⟩

end HPHP
